import Mathlib

/-!
# ART quick compiler, ARM64 back end: instruction encoder and fixup resolver

A shallow embedding of `compiler/dex/quick/arm64/assemble_arm64.cc`, and of the branch
and shifter-operand functions of `compiler/utils/arm/assembler_arm32.cc`.

* `uint32_t` values are naturals below `2 ^ 32`, `int32_t` values are integers; every
  operation that can leave the range is reduced explicitly (`toU32`, `toI32`).
* LIR records live in an arena (a list) and every `LIR*` is an `Option Nat`, an index into
  the arena or `none` for `nullptr`.
* `LOG(FATAL)`, a failing `DCHECK` in a build that has them, and a dereference of
  `nullptr` end the computation with a `Fault`.
-/

namespace art

/-! ## Machine integers -/

/-- The value of an `int32_t` after conversion to `uint32_t`. -/
def toU32 (x : Int) : Nat := (x % 4294967296).toNat

/-- The value of a `uint32_t` after conversion to `int32_t` (two's complement). -/
def toI32 (n : Nat) : Int :=
  if n % 4294967296 < 2147483648 then ((n % 4294967296 : Nat) : Int)
  else ((n % 4294967296 : Nat) : Int) - 4294967296

/-- Reduction of a natural to the range of `uint32_t`. -/
def wrap32 (n : Nat) : Nat := n % 4294967296

/-- Ways in which the C++ code stops without returning. -/
inductive Fault where
  /-- Call of `LOG(FATAL)`. -/
  | fatal (msg : String)
  /-- A failing `DCHECK` in a build where `DCHECK`s are compiled in. -/
  | dcheck (msg : String)
  /-- Dereference of `nullptr` or of a pointer outside the arena. -/
  | nullDeref
  /-- The walk over a linked structure did not end within the given number of steps. -/
  | outOfFuel
  deriving DecidableEq, Repr

/-! ## Enumerations of `arm64_lir.h` and `compiler_enums.h` -/

/-- Operand field kinds. The order is the one of the enumeration: `EncodeLIRs` relies on
the register kinds and `kFmtBitBlt` coming first (`kind <= kFmtBitBlt`). -/
inductive A64EncodingKind where
  | kFmtRegW
  | kFmtRegX
  | kFmtRegR
  | kFmtRegWOrSp
  | kFmtRegXOrSp
  | kFmtRegROrSp
  | kFmtRegS
  | kFmtRegD
  | kFmtRegF
  | kFmtBitBlt
  | kFmtUnused
  | kFmtImm6Shift
  | kFmtImm21
  | kFmtShift
  | kFmtExtend
  | kFmtSkip
  deriving DecidableEq, Repr

/-- Numeric value of a field kind, `static_cast<unsigned>(kind)`. -/
def A64EncodingKind.val : A64EncodingKind → Nat
  | kFmtRegW => 0
  | kFmtRegX => 1
  | kFmtRegR => 2
  | kFmtRegWOrSp => 3
  | kFmtRegXOrSp => 4
  | kFmtRegROrSp => 5
  | kFmtRegS => 6
  | kFmtRegD => 7
  | kFmtRegF => 8
  | kFmtBitBlt => 9
  | kFmtUnused => 10
  | kFmtImm6Shift => 11
  | kFmtImm21 => 12
  | kFmtShift => 13
  | kFmtExtend => 14
  | kFmtSkip => 15

/-- Fixup kinds named by the assembler; `kFixupOther` stands for the remaining values of
the enumeration, which `AssembleLIR` sends to its `default:` case. -/
inductive FixupKind where
  | kFixupNone
  | kFixupLabel
  | kFixupLoad
  | kFixupVLoad
  | kFixupCondBranch
  | kFixupCBxZ
  | kFixupT1Branch
  | kFixupTBxZ
  | kFixupAdr
  | kFixupA53Erratum835769
  | kFixupOther
  deriving DecidableEq, Repr

/-- Attribute flags used in the encoding map (their bit values are not needed here). -/
inductive OpFlag where
  | IS_BINARY_OP | IS_BRANCH | IS_LOAD | IS_LOADX | IS_LOAD_OFF | IS_MOVE | IS_QUAD_OP
  | IS_STORE | IS_STOREX | IS_STORE_OFF | IS_TERTIARY_OP | IS_UNARY_OP | IS_VOLATILE
  | NEEDS_FIXUP | NO_OPERAND | REG_DEF0 | REG_DEF01 | REG_DEF012 | REG_DEF0_USE0
  | REG_DEF0_USE1 | REG_DEF0_USE12 | REG_DEF0_USE123 | REG_DEF1 | REG_DEF2 | REG_DEF_LR
  | REG_USE0 | REG_USE01 | REG_USE012 | REG_USE1 | REG_USE2 | REG_USE_PC | SETS_CCODES
  | USES_CCODES
  deriving DecidableEq, Repr

/-- Opcodes of the encoding map, in table order. `kA64Bfm4rrdd` exists only in builds
that define `MOE`. -/
inductive A64Opcode where
  | kA64Adc3rrr
  | kA64Add4RRdT
  | kA64Add4rrro
  | kA64Add4RRre
  | kA64Adr2xd
  | kA64Adrp2xd
  | kA64And3Rrl
  | kA64And4rrro
  | kA64Asr3rrd
  | kA64Asr3rrr
  | kA64B2ct
  | kA64Bfm4rrdd
  | kA64Blr1x
  | kA64Br1x
  | kA64Bl1t
  | kA64Brk1d
  | kA64B1t
  | kA64Cbnz2rt
  | kA64Cbz2rt
  | kA64Cmn3rro
  | kA64Cmn3Rre
  | kA64Cmn3RdT
  | kA64Cmp3rro
  | kA64Cmp3Rre
  | kA64Cmp3RdT
  | kA64Csel4rrrc
  | kA64Csinc4rrrc
  | kA64Csinv4rrrc
  | kA64Csneg4rrrc
  | kA64Dmb1B
  | kA64Eor3Rrl
  | kA64Eor4rrro
  | kA64Extr4rrrd
  | kA64Fabs2ff
  | kA64Fadd3fff
  | kA64Fcmp1f
  | kA64Fcmp2ff
  | kA64Fcvtzs2wf
  | kA64Fcvtzs2xf
  | kA64Fcvt2Ss
  | kA64Fcvt2sS
  | kA64Fcvtms2ws
  | kA64Fcvtms2xS
  | kA64Fdiv3fff
  | kA64Fmax3fff
  | kA64Fmin3fff
  | kA64Fmov2ff
  | kA64Fmov2fI
  | kA64Fmov2sw
  | kA64Fmov2Sx
  | kA64Fmov2ws
  | kA64Fmov2xS
  | kA64Fmul3fff
  | kA64Fneg2ff
  | kA64Frintp2ff
  | kA64Frintm2ff
  | kA64Frintn2ff
  | kA64Frintz2ff
  | kA64Fsqrt2ff
  | kA64Fsub3fff
  | kA64Ldrb3wXd
  | kA64Ldrb3wXx
  | kA64Ldrsb3rXd
  | kA64Ldrsb3rXx
  | kA64Ldrh3wXF
  | kA64Ldrh4wXxd
  | kA64Ldrsh3rXF
  | kA64Ldrsh4rXxd
  | kA64Ldr2fp
  | kA64Ldr2rp
  | kA64Ldr3fXD
  | kA64Ldr3rXD
  | kA64Ldr4fXxG
  | kA64Ldr4rXxG
  | kA64LdrPost3rXd
  | kA64Ldp4ffXD
  | kA64Ldp4rrXD
  | kA64LdpPost4rrXD
  | kA64Ldur3fXd
  | kA64Ldur3rXd
  | kA64Ldxr2rX
  | kA64Ldaxr2rX
  | kA64Lsl3rrr
  | kA64Lsr3rrd
  | kA64Lsr3rrr
  | kA64Madd4rrrr
  | kA64Movk3rdM
  | kA64Movn3rdM
  | kA64Movz3rdM
  | kA64Mov2rr
  | kA64Mvn2rr
  | kA64Mul3rrr
  | kA64Msub4rrrr
  | kA64Neg3rro
  | kA64Nop0
  | kA64Orr3Rrl
  | kA64Orr4rrro
  | kA64Ret
  | kA64Rbit2rr
  | kA64Rev2rr
  | kA64Rev162rr
  | kA64Ror3rrr
  | kA64Sbc3rrr
  | kA64Sbfm4rrdd
  | kA64Scvtf2fw
  | kA64Scvtf2fx
  | kA64Sdiv3rrr
  | kA64Smull3xww
  | kA64Smulh3xxx
  | kA64Stp4ffXD
  | kA64Stp4rrXD
  | kA64StpPost4rrXD
  | kA64StpPre4ffXD
  | kA64StpPre4rrXD
  | kA64Str3fXD
  | kA64Str4fXxG
  | kA64Str3rXD
  | kA64Str4rXxG
  | kA64Strb3wXd
  | kA64Strb3wXx
  | kA64Strh3wXF
  | kA64Strh4wXxd
  | kA64StrPost3rXd
  | kA64Stur3fXd
  | kA64Stur3rXd
  | kA64Stxr3wrX
  | kA64Stlxr3wrX
  | kA64Sub4RRdT
  | kA64Sub4rrro
  | kA64Sub4RRre
  | kA64Subs3rRd
  | kA64Tst2rl
  | kA64Tst3rro
  | kA64Tbnz3rht
  | kA64Tbz3rht
  | kA64Ubfm4rrdd
  deriving DecidableEq, Repr

/-! ## Opcodes and LIR records -/

/-- An opcode without its wide flag: a pseudo-marker (a negative value of the opcode
enumeration, for which `IsPseudoLirOp` is true) or an instruction of the encoding map. -/
inductive OpcodeBase where
  | pseudo (code : Int)
  | insn (op : A64Opcode)
  deriving DecidableEq, Repr

/-- Modelled from the spec: the opcode field of a record. `arm64_lir.h`, which declares
`kA64Wide` and the macros `WIDE`, `UNWIDE` and `IS_WIDE`, is not among the sources; the
spec describes the opcode as an enumeration value "with a wide/64-bit variant flag
orthogonal to the opcode", which is what this pair is. -/
structure Opcode where
  base : OpcodeBase
  wide : Bool
  deriving DecidableEq, Repr

instance : Coe A64Opcode Opcode := ⟨fun op => ⟨.insn op, false⟩⟩

/-- The macro `WIDE(op)`: the opcode with the wide flag set. -/
def WIDE (op : Opcode) : Opcode := ⟨op.base, true⟩

/-- The macro `UNWIDE(op)`: the opcode with the wide flag cleared. -/
def UNWIDE (op : Opcode) : OpcodeBase := op.base

/-- The macro `IS_WIDE(op)`. -/
def IS_WIDE (op : Opcode) : Bool := op.wide

/-- The predicate `Mir2Lir::IsPseudoLirOp`. -/
def IsPseudoLirOp : OpcodeBase → Bool
  | .pseudo _ => true
  | .insn _ => false

/-- The array `int32_t operands[5]` of a record. -/
structure Operands where
  o0 : Int
  o1 : Int
  o2 : Int
  o3 : Int
  o4 : Int
  deriving DecidableEq, Repr

/-- Read of `operands[i]`. -/
def Operands.get (o : Operands) : Nat → Int
  | 0 => o.o0
  | 1 => o.o1
  | 2 => o.o2
  | 3 => o.o3
  | _ => o.o4

/-- Write of `operands[i]`. -/
def Operands.set (o : Operands) (i : Nat) (v : Int) : Operands :=
  match i with
  | 0 => { o with o0 := v }
  | 1 => { o with o1 := v }
  | 2 => { o with o2 := v }
  | 3 => { o with o3 := v }
  | _ => { o with o4 := v }

/-- The bit field `flags` of a record. -/
structure LIRFlags where
  is_nop : Bool
  size : Nat
  use_def_invalid : Bool
  generation : Nat
  fixup : FixupKind
  deriving DecidableEq, Repr

/-- Modelled from the spec: the instruction record `LIR` (declared in `mir_to_lir.h`, which
is not among the sources), with the members the assembler reads or writes. Pointers to
records are indices into the arena; `pcrel_next` is the member `u.a.pcrel_next`. -/
structure LIR where
  offset : Nat
  dalvik_offset : Nat
  opcode : Opcode
  next : Option Nat
  prev : Option Nat
  target : Option Nat
  flags : LIRFlags
  pcrel_next : Option Nat
  operands : Operands
  deriving DecidableEq, Repr

/-! ## The encoding map -/

/-- Modelled from the spec: one operand field descriptor ("a format kind, a start bit, an
end bit") of `struct A64EncodingMap`, which `codegen_arm64.h` declares outside the sources.
The members are taken in the order `kind`, `end`, `start`, so that the initialiser
`{kFmtRegR, 4, 0}` of the table denotes the bits `[4:0]`: `EncodeLIRs` computes
`(operand << start) & ((1 << (end + 1)) - 1)`, which is a field of the word only when
`start <= end`, and relies on a register landing in the "bottom 5 bits". -/
structure FieldLoc where
  kind : A64EncodingKind
  end_ : Int
  start : Int
  deriving DecidableEq, Repr

/-- Modelled from the spec: an entry of the encoding map, `struct A64EncodingMap` of
`codegen_arm64.h` (not among the sources): two skeletons, four field descriptors, the
opcode, attribute flags, mnemonic, display format, size in bytes and fixup kind. -/
structure A64EncodingMap where
  wskeleton : Nat
  xskeleton : Nat
  field_loc : List FieldLoc
  opcode : Opcode
  flags : List OpFlag
  name : String
  fmt : String
  size : Nat
  fixup : FixupKind
  deriving DecidableEq, Repr

/-- The macro `CUSTOM_VARIANTS`. -/
def CUSTOM_VARIANTS (variant1 variant2 : Nat) : Nat × Nat := (variant1, variant2)

/-- The macro `NO_VARIANTS`: no wide variant. -/
def NO_VARIANTS (variant : Nat) : Nat × Nat := CUSTOM_VARIANTS variant 0

/-- The macro `SF_VARIANTS`: wide variant with the sf bit set. -/
def SF_VARIANTS (sf0_skeleton : Nat) : Nat × Nat :=
  CUSTOM_VARIANTS sf0_skeleton (sf0_skeleton ||| 0x80000000)

/-- The macro `SIZE_VARIANTS`: wide variant with the size bits x1. -/
def SIZE_VARIANTS (sizex0_skeleton : Nat) : Nat × Nat :=
  CUSTOM_VARIANTS sizex0_skeleton (sizex0_skeleton ||| 0x40000000)

/-- The macro `SF_N_VARIANTS`: wide variant with the sf and n bits set. -/
def SF_N_VARIANTS (sf0_n0_skeleton : Nat) : Nat × Nat :=
  CUSTOM_VARIANTS sf0_n0_skeleton (sf0_n0_skeleton ||| 0x80400000)

/-- The macro `FLOAT_VARIANTS`: double precision variant with the type bits 01. -/
def FLOAT_VARIANTS (type00_skeleton : Nat) : Nat × Nat :=
  CUSTOM_VARIANTS type00_skeleton (type00_skeleton ||| 0x00400000)

/-- The macro `ENCODING_MAP`; the size of every entry is 4. The arguments keep the names of
the macro parameters; as in the macro, the two numbers of an operand go to the second and
third member of its field descriptor, which are `end` and `start`. -/
def ENCODING_MAP (opcode : Opcode) (variants : Nat × Nat)
    (a0k : A64EncodingKind) (a0s a0e : Int) (a1k : A64EncodingKind) (a1s a1e : Int)
    (a2k : A64EncodingKind) (a2s a2e : Int) (a3k : A64EncodingKind) (a3s a3e : Int)
    (flags : List OpFlag) (name fmt : String) (fixup : FixupKind) : A64EncodingMap :=
  ⟨variants.1, variants.2, [⟨a0k, a0s, a0e⟩, ⟨a1k, a1s, a1e⟩, ⟨a2k, a2s, a2e⟩, ⟨a3k, a3s, a3e⟩],
    opcode, flags, name, fmt, 4, fixup⟩

open A64EncodingKind FixupKind OpFlag A64Opcode

/-- The table `Arm64Mir2Lir::EncodingMap`, one entry per opcode. -/
def EncodingMap : A64Opcode → A64EncodingMap
  | .kA64Adc3rrr =>
    ENCODING_MAP (WIDE kA64Adc3rrr) (SF_VARIANTS 0x1a000000)
      kFmtRegR 4 0 kFmtRegR 9 5 kFmtRegR 20 16
      kFmtUnused (-1) (-1) [IS_TERTIARY_OP, REG_DEF0_USE12, USES_CCODES]
      "adc" "!0r, !1r, !2r" kFixupNone
  | .kA64Add4RRdT =>
    ENCODING_MAP (WIDE kA64Add4RRdT) (SF_VARIANTS 0x11000000)
      kFmtRegROrSp 4 0 kFmtRegROrSp 9 5 kFmtBitBlt 21 10
      kFmtBitBlt 23 22 [IS_QUAD_OP, REG_DEF0_USE1]
      "add" "!0R, !1R, #!2d!3T" kFixupNone
  | .kA64Add4rrro =>
    ENCODING_MAP (WIDE kA64Add4rrro) (SF_VARIANTS 0x0b000000)
      kFmtRegR 4 0 kFmtRegR 9 5 kFmtRegR 20 16
      kFmtShift (-1) (-1) [IS_QUAD_OP, REG_DEF0_USE12]
      "add" "!0r, !1r, !2r!3o" kFixupNone
  | .kA64Add4RRre =>
    ENCODING_MAP (WIDE kA64Add4RRre) (SF_VARIANTS 0x0b200000)
      kFmtRegROrSp 4 0 kFmtRegROrSp 9 5 kFmtRegR 20 16
      kFmtExtend (-1) (-1) [IS_QUAD_OP, REG_DEF0_USE12]
      "add" "!0r, !1r, !2r!3e" kFixupNone
  | .kA64Adr2xd =>
    ENCODING_MAP kA64Adr2xd (NO_VARIANTS 0x10000000)
      kFmtRegX 4 0 kFmtImm21 (-1) (-1) kFmtUnused (-1) (-1)
      kFmtUnused (-1) (-1) [IS_TERTIARY_OP, REG_DEF0, NEEDS_FIXUP]
      "adr" "!0x, #!1d" kFixupAdr
  | .kA64Adrp2xd =>
    ENCODING_MAP kA64Adrp2xd (NO_VARIANTS 0x90000000)
      kFmtRegX 4 0 kFmtImm21 (-1) (-1) kFmtUnused (-1) (-1)
      kFmtUnused (-1) (-1) [IS_BINARY_OP, REG_DEF0, NEEDS_FIXUP]
      "adrp" "!0x, #!1d" kFixupLabel
  | .kA64And3Rrl =>
    ENCODING_MAP (WIDE kA64And3Rrl) (SF_VARIANTS 0x12000000)
      kFmtRegROrSp 4 0 kFmtRegR 9 5 kFmtBitBlt 22 10
      kFmtUnused (-1) (-1) [IS_TERTIARY_OP, REG_DEF0_USE1]
      "and" "!0R, !1r, #!2l" kFixupNone
  | .kA64And4rrro =>
    ENCODING_MAP (WIDE kA64And4rrro) (SF_VARIANTS 0x0a000000)
      kFmtRegR 4 0 kFmtRegR 9 5 kFmtRegR 20 16
      kFmtShift (-1) (-1) [IS_QUAD_OP, REG_DEF0_USE12]
      "and" "!0r, !1r, !2r!3o" kFixupNone
  | .kA64Asr3rrd =>
    ENCODING_MAP (WIDE kA64Asr3rrd) (CUSTOM_VARIANTS 0x13007c00 0x9340fc00)
      kFmtRegR 4 0 kFmtRegR 9 5 kFmtBitBlt 21 16
      kFmtUnused (-1) (-1) [IS_TERTIARY_OP, REG_DEF0_USE1]
      "asr" "!0r, !1r, #!2d" kFixupNone
  | .kA64Asr3rrr =>
    ENCODING_MAP (WIDE kA64Asr3rrr) (SF_VARIANTS 0x1ac02800)
      kFmtRegR 4 0 kFmtRegR 9 5 kFmtRegR 20 16
      kFmtUnused (-1) (-1) [IS_TERTIARY_OP, REG_DEF0_USE12]
      "asr" "!0r, !1r, !2r" kFixupNone
  | .kA64B2ct =>
    ENCODING_MAP kA64B2ct (NO_VARIANTS 0x54000000)
      kFmtBitBlt 3 0 kFmtBitBlt 23 5 kFmtUnused (-1) (-1)
      kFmtUnused (-1) (-1) [IS_BINARY_OP, IS_BRANCH, USES_CCODES, NEEDS_FIXUP]
      "b.!0c" "!1t" kFixupCondBranch
  | .kA64Bfm4rrdd =>
    ENCODING_MAP (WIDE kA64Bfm4rrdd) (SF_N_VARIANTS 0x33000000)
      kFmtRegR 4 0 kFmtRegR 9 5 kFmtBitBlt 21 16
      kFmtBitBlt 15 10 [IS_QUAD_OP, REG_DEF0_USE1]
      "bfm" "!0r, !1r, !2d, !3d" kFixupNone
  | .kA64Blr1x =>
    ENCODING_MAP kA64Blr1x (NO_VARIANTS 0xd63f0000)
      kFmtRegX 9 5 kFmtUnused (-1) (-1) kFmtUnused (-1) (-1)
      kFmtUnused (-1) (-1) [IS_UNARY_OP, REG_USE0, IS_BRANCH, REG_DEF_LR]
      "blr" "!0x" kFixupNone
  | .kA64Br1x =>
    ENCODING_MAP kA64Br1x (NO_VARIANTS 0xd61f0000)
      kFmtRegX 9 5 kFmtUnused (-1) (-1) kFmtUnused (-1) (-1)
      kFmtUnused (-1) (-1) [IS_UNARY_OP, REG_USE0, IS_BRANCH]
      "br" "!0x" kFixupNone
  | .kA64Bl1t =>
    ENCODING_MAP kA64Bl1t (NO_VARIANTS 0x94000000)
      kFmtBitBlt 25 0 kFmtUnused (-1) (-1) kFmtUnused (-1) (-1)
      kFmtUnused (-1) (-1) [IS_UNARY_OP, IS_BRANCH, REG_DEF_LR, NEEDS_FIXUP]
      "bl" "!0T" kFixupLabel
  | .kA64Brk1d =>
    ENCODING_MAP kA64Brk1d (NO_VARIANTS 0xd4200000)
      kFmtBitBlt 20 5 kFmtUnused (-1) (-1) kFmtUnused (-1) (-1)
      kFmtUnused (-1) (-1) [IS_UNARY_OP, IS_BRANCH]
      "brk" "!0d" kFixupNone
  | .kA64B1t =>
    ENCODING_MAP kA64B1t (NO_VARIANTS 0x14000000)
      kFmtBitBlt 25 0 kFmtUnused (-1) (-1) kFmtUnused (-1) (-1)
      kFmtUnused (-1) (-1) [IS_UNARY_OP, IS_BRANCH, NEEDS_FIXUP]
      "b" "!0t" kFixupT1Branch
  | .kA64Cbnz2rt =>
    ENCODING_MAP (WIDE kA64Cbnz2rt) (SF_VARIANTS 0x35000000)
      kFmtRegR 4 0 kFmtBitBlt 23 5 kFmtUnused (-1) (-1)
      kFmtUnused (-1) (-1) [IS_BINARY_OP, REG_USE0, IS_BRANCH, NEEDS_FIXUP]
      "cbnz" "!0r, !1t" kFixupCBxZ
  | .kA64Cbz2rt =>
    ENCODING_MAP (WIDE kA64Cbz2rt) (SF_VARIANTS 0x34000000)
      kFmtRegR 4 0 kFmtBitBlt 23 5 kFmtUnused (-1) (-1)
      kFmtUnused (-1) (-1) [IS_BINARY_OP, REG_USE0, IS_BRANCH, NEEDS_FIXUP]
      "cbz" "!0r, !1t" kFixupCBxZ
  | .kA64Cmn3rro =>
    ENCODING_MAP (WIDE kA64Cmn3rro) (SF_VARIANTS 0x2b00001f)
      kFmtRegR 9 5 kFmtRegR 20 16 kFmtShift (-1) (-1)
      kFmtUnused (-1) (-1) [IS_TERTIARY_OP, REG_USE01, SETS_CCODES]
      "cmn" "!0r, !1r!2o" kFixupNone
  | .kA64Cmn3Rre =>
    ENCODING_MAP (WIDE kA64Cmn3Rre) (SF_VARIANTS 0x2b20001f)
      kFmtRegROrSp 9 5 kFmtRegR 20 16 kFmtExtend (-1) (-1)
      kFmtUnused (-1) (-1) [IS_TERTIARY_OP, REG_USE01, SETS_CCODES]
      "cmn" "!0R, !1r!2e" kFixupNone
  | .kA64Cmn3RdT =>
    ENCODING_MAP (WIDE kA64Cmn3RdT) (SF_VARIANTS 0x3100001f)
      kFmtRegROrSp 9 5 kFmtBitBlt 21 10 kFmtBitBlt 23 22
      kFmtUnused (-1) (-1) [IS_TERTIARY_OP, REG_USE0, SETS_CCODES]
      "cmn" "!0R, #!1d!2T" kFixupNone
  | .kA64Cmp3rro =>
    ENCODING_MAP (WIDE kA64Cmp3rro) (SF_VARIANTS 0x6b00001f)
      kFmtRegR 9 5 kFmtRegR 20 16 kFmtShift (-1) (-1)
      kFmtUnused (-1) (-1) [IS_TERTIARY_OP, REG_USE01, SETS_CCODES]
      "cmp" "!0r, !1r!2o" kFixupNone
  | .kA64Cmp3Rre =>
    ENCODING_MAP (WIDE kA64Cmp3Rre) (SF_VARIANTS 0x6b20001f)
      kFmtRegROrSp 9 5 kFmtRegR 20 16 kFmtExtend (-1) (-1)
      kFmtUnused (-1) (-1) [IS_TERTIARY_OP, REG_USE01, SETS_CCODES]
      "cmp" "!0R, !1r!2e" kFixupNone
  | .kA64Cmp3RdT =>
    ENCODING_MAP (WIDE kA64Cmp3RdT) (SF_VARIANTS 0x7100001f)
      kFmtRegROrSp 9 5 kFmtBitBlt 21 10 kFmtBitBlt 23 22
      kFmtUnused (-1) (-1) [IS_TERTIARY_OP, REG_USE0, SETS_CCODES]
      "cmp" "!0R, #!1d!2T" kFixupNone
  | .kA64Csel4rrrc =>
    ENCODING_MAP (WIDE kA64Csel4rrrc) (SF_VARIANTS 0x1a800000)
      kFmtRegR 4 0 kFmtRegR 9 5 kFmtRegR 20 16
      kFmtBitBlt 15 12 [IS_QUAD_OP, REG_DEF0_USE12, USES_CCODES]
      "csel" "!0r, !1r, !2r, !3c" kFixupNone
  | .kA64Csinc4rrrc =>
    ENCODING_MAP (WIDE kA64Csinc4rrrc) (SF_VARIANTS 0x1a800400)
      kFmtRegR 4 0 kFmtRegR 9 5 kFmtRegR 20 16
      kFmtBitBlt 15 12 [IS_QUAD_OP, REG_DEF0_USE12, USES_CCODES]
      "csinc" "!0r, !1r, !2r, !3c" kFixupNone
  | .kA64Csinv4rrrc =>
    ENCODING_MAP (WIDE kA64Csinv4rrrc) (SF_VARIANTS 0x5a800000)
      kFmtRegR 4 0 kFmtRegR 9 5 kFmtRegR 20 16
      kFmtBitBlt 15 12 [IS_QUAD_OP, REG_DEF0_USE12, USES_CCODES]
      "csinv" "!0r, !1r, !2r, !3c" kFixupNone
  | .kA64Csneg4rrrc =>
    ENCODING_MAP (WIDE kA64Csneg4rrrc) (SF_VARIANTS 0x5a800400)
      kFmtRegR 4 0 kFmtRegR 9 5 kFmtRegR 20 16
      kFmtBitBlt 15 12 [IS_QUAD_OP, REG_DEF0_USE12, USES_CCODES]
      "csneg" "!0r, !1r, !2r, !3c" kFixupNone
  | .kA64Dmb1B =>
    ENCODING_MAP kA64Dmb1B (NO_VARIANTS 0xd50330bf)
      kFmtBitBlt 11 8 kFmtUnused (-1) (-1) kFmtUnused (-1) (-1)
      kFmtUnused (-1) (-1) [IS_UNARY_OP, IS_VOLATILE]
      "dmb" "#!0B" kFixupNone
  | .kA64Eor3Rrl =>
    ENCODING_MAP (WIDE kA64Eor3Rrl) (SF_VARIANTS 0x52000000)
      kFmtRegROrSp 4 0 kFmtRegR 9 5 kFmtBitBlt 22 10
      kFmtUnused (-1) (-1) [IS_TERTIARY_OP, REG_DEF0_USE1]
      "eor" "!0R, !1r, #!2l" kFixupNone
  | .kA64Eor4rrro =>
    ENCODING_MAP (WIDE kA64Eor4rrro) (SF_VARIANTS 0x4a000000)
      kFmtRegR 4 0 kFmtRegR 9 5 kFmtRegR 20 16
      kFmtShift (-1) (-1) [IS_QUAD_OP, REG_DEF0_USE12]
      "eor" "!0r, !1r, !2r!3o" kFixupNone
  | .kA64Extr4rrrd =>
    ENCODING_MAP (WIDE kA64Extr4rrrd) (SF_N_VARIANTS 0x13800000)
      kFmtRegR 4 0 kFmtRegR 9 5 kFmtRegR 20 16
      kFmtBitBlt 15 10 [IS_QUAD_OP, REG_DEF0_USE12]
      "extr" "!0r, !1r, !2r, #!3d" kFixupNone
  | .kA64Fabs2ff =>
    ENCODING_MAP (WIDE kA64Fabs2ff) (FLOAT_VARIANTS 0x1e20c000)
      kFmtRegF 4 0 kFmtRegF 9 5 kFmtUnused (-1) (-1)
      kFmtUnused (-1) (-1) [IS_BINARY_OP, REG_DEF0_USE1]
      "fabs" "!0f, !1f" kFixupNone
  | .kA64Fadd3fff =>
    ENCODING_MAP (WIDE kA64Fadd3fff) (FLOAT_VARIANTS 0x1e202800)
      kFmtRegF 4 0 kFmtRegF 9 5 kFmtRegF 20 16
      kFmtUnused (-1) (-1) [IS_TERTIARY_OP, REG_DEF0_USE12]
      "fadd" "!0f, !1f, !2f" kFixupNone
  | .kA64Fcmp1f =>
    ENCODING_MAP (WIDE kA64Fcmp1f) (FLOAT_VARIANTS 0x1e202008)
      kFmtRegF 9 5 kFmtUnused (-1) (-1) kFmtUnused (-1) (-1)
      kFmtUnused (-1) (-1) [IS_UNARY_OP, REG_USE0, SETS_CCODES]
      "fcmp" "!0f, #0" kFixupNone
  | .kA64Fcmp2ff =>
    ENCODING_MAP (WIDE kA64Fcmp2ff) (FLOAT_VARIANTS 0x1e202000)
      kFmtRegF 9 5 kFmtRegF 20 16 kFmtUnused (-1) (-1)
      kFmtUnused (-1) (-1) [IS_BINARY_OP, REG_USE01, SETS_CCODES]
      "fcmp" "!0f, !1f" kFixupNone
  | .kA64Fcvtzs2wf =>
    ENCODING_MAP (WIDE kA64Fcvtzs2wf) (FLOAT_VARIANTS 0x1e380000)
      kFmtRegW 4 0 kFmtRegF 9 5 kFmtUnused (-1) (-1)
      kFmtUnused (-1) (-1) [IS_BINARY_OP, REG_DEF0_USE1]
      "fcvtzs" "!0w, !1f" kFixupNone
  | .kA64Fcvtzs2xf =>
    ENCODING_MAP (WIDE kA64Fcvtzs2xf) (FLOAT_VARIANTS 0x9e380000)
      kFmtRegX 4 0 kFmtRegF 9 5 kFmtUnused (-1) (-1)
      kFmtUnused (-1) (-1) [IS_BINARY_OP, REG_DEF0_USE1]
      "fcvtzs" "!0x, !1f" kFixupNone
  | .kA64Fcvt2Ss =>
    ENCODING_MAP kA64Fcvt2Ss (NO_VARIANTS 0x1e22C000)
      kFmtRegD 4 0 kFmtRegS 9 5 kFmtUnused (-1) (-1)
      kFmtUnused (-1) (-1) [IS_BINARY_OP, REG_DEF0_USE1]
      "fcvt" "!0S, !1s" kFixupNone
  | .kA64Fcvt2sS =>
    ENCODING_MAP kA64Fcvt2sS (NO_VARIANTS 0x1e624000)
      kFmtRegS 4 0 kFmtRegD 9 5 kFmtUnused (-1) (-1)
      kFmtUnused (-1) (-1) [IS_BINARY_OP, REG_DEF0_USE1]
      "fcvt" "!0s, !1S" kFixupNone
  | .kA64Fcvtms2ws =>
    ENCODING_MAP kA64Fcvtms2ws (NO_VARIANTS 0x1e300000)
      kFmtRegW 4 0 kFmtRegS 9 5 kFmtUnused (-1) (-1)
      kFmtUnused (-1) (-1) [IS_BINARY_OP, REG_DEF0_USE1]
      "fcvtms" "!0w, !1s" kFixupNone
  | .kA64Fcvtms2xS =>
    ENCODING_MAP kA64Fcvtms2xS (NO_VARIANTS 0x9e700000)
      kFmtRegX 4 0 kFmtRegD 9 5 kFmtUnused (-1) (-1)
      kFmtUnused (-1) (-1) [IS_BINARY_OP, REG_DEF0_USE1]
      "fcvtms" "!0x, !1S" kFixupNone
  | .kA64Fdiv3fff =>
    ENCODING_MAP (WIDE kA64Fdiv3fff) (FLOAT_VARIANTS 0x1e201800)
      kFmtRegF 4 0 kFmtRegF 9 5 kFmtRegF 20 16
      kFmtUnused (-1) (-1) [IS_TERTIARY_OP, REG_DEF0_USE12]
      "fdiv" "!0f, !1f, !2f" kFixupNone
  | .kA64Fmax3fff =>
    ENCODING_MAP (WIDE kA64Fmax3fff) (FLOAT_VARIANTS 0x1e204800)
      kFmtRegF 4 0 kFmtRegF 9 5 kFmtRegF 20 16
      kFmtUnused (-1) (-1) [IS_TERTIARY_OP, REG_DEF0_USE12]
      "fmax" "!0f, !1f, !2f" kFixupNone
  | .kA64Fmin3fff =>
    ENCODING_MAP (WIDE kA64Fmin3fff) (FLOAT_VARIANTS 0x1e205800)
      kFmtRegF 4 0 kFmtRegF 9 5 kFmtRegF 20 16
      kFmtUnused (-1) (-1) [IS_TERTIARY_OP, REG_DEF0_USE12]
      "fmin" "!0f, !1f, !2f" kFixupNone
  | .kA64Fmov2ff =>
    ENCODING_MAP (WIDE kA64Fmov2ff) (FLOAT_VARIANTS 0x1e204000)
      kFmtRegF 4 0 kFmtRegF 9 5 kFmtUnused (-1) (-1)
      kFmtUnused (-1) (-1) [IS_BINARY_OP, REG_DEF0_USE1, IS_MOVE]
      "fmov" "!0f, !1f" kFixupNone
  | .kA64Fmov2fI =>
    ENCODING_MAP (WIDE kA64Fmov2fI) (FLOAT_VARIANTS 0x1e201000)
      kFmtRegF 4 0 kFmtBitBlt 20 13 kFmtUnused (-1) (-1)
      kFmtUnused (-1) (-1) [IS_BINARY_OP, REG_DEF0]
      "fmov" "!0f, #!1I" kFixupNone
  | .kA64Fmov2sw =>
    ENCODING_MAP kA64Fmov2sw (NO_VARIANTS 0x1e270000)
      kFmtRegS 4 0 kFmtRegW 9 5 kFmtUnused (-1) (-1)
      kFmtUnused (-1) (-1) [IS_BINARY_OP, REG_DEF0_USE1]
      "fmov" "!0s, !1w" kFixupNone
  | .kA64Fmov2Sx =>
    ENCODING_MAP kA64Fmov2Sx (NO_VARIANTS 0x9e670000)
      kFmtRegD 4 0 kFmtRegX 9 5 kFmtUnused (-1) (-1)
      kFmtUnused (-1) (-1) [IS_BINARY_OP, REG_DEF0_USE1]
      "fmov" "!0S, !1x" kFixupNone
  | .kA64Fmov2ws =>
    ENCODING_MAP kA64Fmov2ws (NO_VARIANTS 0x1e260000)
      kFmtRegW 4 0 kFmtRegS 9 5 kFmtUnused (-1) (-1)
      kFmtUnused (-1) (-1) [IS_BINARY_OP, REG_DEF0_USE1]
      "fmov" "!0w, !1s" kFixupNone
  | .kA64Fmov2xS =>
    ENCODING_MAP kA64Fmov2xS (NO_VARIANTS 0x9e660000)
      kFmtRegX 4 0 kFmtRegD 9 5 kFmtUnused (-1) (-1)
      kFmtUnused (-1) (-1) [IS_BINARY_OP, REG_DEF0_USE1]
      "fmov" "!0x, !1S" kFixupNone
  | .kA64Fmul3fff =>
    ENCODING_MAP (WIDE kA64Fmul3fff) (FLOAT_VARIANTS 0x1e200800)
      kFmtRegF 4 0 kFmtRegF 9 5 kFmtRegF 20 16
      kFmtUnused (-1) (-1) [IS_TERTIARY_OP, REG_DEF0_USE12]
      "fmul" "!0f, !1f, !2f" kFixupNone
  | .kA64Fneg2ff =>
    ENCODING_MAP (WIDE kA64Fneg2ff) (FLOAT_VARIANTS 0x1e214000)
      kFmtRegF 4 0 kFmtRegF 9 5 kFmtUnused (-1) (-1)
      kFmtUnused (-1) (-1) [IS_BINARY_OP, REG_DEF0_USE1]
      "fneg" "!0f, !1f" kFixupNone
  | .kA64Frintp2ff =>
    ENCODING_MAP (WIDE kA64Frintp2ff) (FLOAT_VARIANTS 0x1e24c000)
      kFmtRegF 4 0 kFmtRegF 9 5 kFmtUnused (-1) (-1)
      kFmtUnused (-1) (-1) [IS_BINARY_OP, REG_DEF0_USE1]
      "frintp" "!0f, !1f" kFixupNone
  | .kA64Frintm2ff =>
    ENCODING_MAP (WIDE kA64Frintm2ff) (FLOAT_VARIANTS 0x1e254000)
      kFmtRegF 4 0 kFmtRegF 9 5 kFmtUnused (-1) (-1)
      kFmtUnused (-1) (-1) [IS_BINARY_OP, REG_DEF0_USE1]
      "frintm" "!0f, !1f" kFixupNone
  | .kA64Frintn2ff =>
    ENCODING_MAP (WIDE kA64Frintn2ff) (FLOAT_VARIANTS 0x1e244000)
      kFmtRegF 4 0 kFmtRegF 9 5 kFmtUnused (-1) (-1)
      kFmtUnused (-1) (-1) [IS_BINARY_OP, REG_DEF0_USE1]
      "frintn" "!0f, !1f" kFixupNone
  | .kA64Frintz2ff =>
    ENCODING_MAP (WIDE kA64Frintz2ff) (FLOAT_VARIANTS 0x1e25c000)
      kFmtRegF 4 0 kFmtRegF 9 5 kFmtUnused (-1) (-1)
      kFmtUnused (-1) (-1) [IS_BINARY_OP, REG_DEF0_USE1]
      "frintz" "!0f, !1f" kFixupNone
  | .kA64Fsqrt2ff =>
    ENCODING_MAP (WIDE kA64Fsqrt2ff) (FLOAT_VARIANTS 0x1e61c000)
      kFmtRegF 4 0 kFmtRegF 9 5 kFmtUnused (-1) (-1)
      kFmtUnused (-1) (-1) [IS_BINARY_OP, REG_DEF0_USE1]
      "fsqrt" "!0f, !1f" kFixupNone
  | .kA64Fsub3fff =>
    ENCODING_MAP (WIDE kA64Fsub3fff) (FLOAT_VARIANTS 0x1e203800)
      kFmtRegF 4 0 kFmtRegF 9 5 kFmtRegF 20 16
      kFmtUnused (-1) (-1) [IS_TERTIARY_OP, REG_DEF0_USE12]
      "fsub" "!0f, !1f, !2f" kFixupNone
  | .kA64Ldrb3wXd =>
    ENCODING_MAP kA64Ldrb3wXd (NO_VARIANTS 0x39400000)
      kFmtRegW 4 0 kFmtRegXOrSp 9 5 kFmtBitBlt 21 10
      kFmtUnused (-1) (-1) [IS_TERTIARY_OP, REG_DEF0_USE1, IS_LOAD_OFF]
      "ldrb" "!0w, [!1X, #!2d]" kFixupNone
  | .kA64Ldrb3wXx =>
    ENCODING_MAP kA64Ldrb3wXx (NO_VARIANTS 0x38606800)
      kFmtRegW 4 0 kFmtRegXOrSp 9 5 kFmtRegX 20 16
      kFmtUnused (-1) (-1) [IS_TERTIARY_OP, REG_DEF0_USE12, IS_LOAD]
      "ldrb" "!0w, [!1X, !2x]" kFixupNone
  | .kA64Ldrsb3rXd =>
    ENCODING_MAP (WIDE kA64Ldrsb3rXd) (CUSTOM_VARIANTS 0x39c00000 0x39800000)
      kFmtRegR 4 0 kFmtRegXOrSp 9 5 kFmtBitBlt 21 10
      kFmtUnused (-1) (-1) [IS_TERTIARY_OP, REG_DEF0_USE1, IS_LOAD_OFF]
      "ldrsb" "!0r, [!1X, #!2d]" kFixupNone
  | .kA64Ldrsb3rXx =>
    ENCODING_MAP (WIDE kA64Ldrsb3rXx) (CUSTOM_VARIANTS 0x38e06800 0x38a06800)
      kFmtRegR 4 0 kFmtRegXOrSp 9 5 kFmtRegX 20 16
      kFmtUnused (-1) (-1) [IS_TERTIARY_OP, REG_DEF0_USE12, IS_LOAD]
      "ldrsb" "!0r, [!1X, !2x]" kFixupNone
  | .kA64Ldrh3wXF =>
    ENCODING_MAP kA64Ldrh3wXF (NO_VARIANTS 0x79400000)
      kFmtRegW 4 0 kFmtRegXOrSp 9 5 kFmtBitBlt 21 10
      kFmtUnused (-1) (-1) [IS_TERTIARY_OP, REG_DEF0_USE1, IS_LOAD_OFF]
      "ldrh" "!0w, [!1X, #!2F]" kFixupNone
  | .kA64Ldrh4wXxd =>
    ENCODING_MAP kA64Ldrh4wXxd (NO_VARIANTS 0x78606800)
      kFmtRegW 4 0 kFmtRegXOrSp 9 5 kFmtRegX 20 16
      kFmtBitBlt 12 12 [IS_QUAD_OP, REG_DEF0_USE12, IS_LOAD_OFF]
      "ldrh" "!0w, [!1X, !2x, lsl #!3d]" kFixupNone
  | .kA64Ldrsh3rXF =>
    ENCODING_MAP (WIDE kA64Ldrsh3rXF) (CUSTOM_VARIANTS 0x79c00000 0x79800000)
      kFmtRegR 4 0 kFmtRegXOrSp 9 5 kFmtBitBlt 21 10
      kFmtUnused (-1) (-1) [IS_TERTIARY_OP, REG_DEF0_USE1, IS_LOAD_OFF]
      "ldrsh" "!0r, [!1X, #!2F]" kFixupNone
  | .kA64Ldrsh4rXxd =>
    ENCODING_MAP (WIDE kA64Ldrsh4rXxd) (CUSTOM_VARIANTS 0x78e06800 0x78906800)
      kFmtRegR 4 0 kFmtRegXOrSp 9 5 kFmtRegX 20 16
      kFmtBitBlt 12 12 [IS_QUAD_OP, REG_DEF0_USE12, IS_LOAD_OFF]
      "ldrsh" "!0r, [!1X, !2x, lsl #!3d]" kFixupNone
  | .kA64Ldr2fp =>
    ENCODING_MAP (WIDE kA64Ldr2fp) (SIZE_VARIANTS 0x1c000000)
      kFmtRegF 4 0 kFmtBitBlt 23 5 kFmtUnused (-1) (-1)
      kFmtUnused (-1) (-1) [IS_BINARY_OP, REG_DEF0, REG_USE_PC, IS_LOAD, NEEDS_FIXUP]
      "ldr" "!0f, !1p" kFixupLoad
  | .kA64Ldr2rp =>
    ENCODING_MAP (WIDE kA64Ldr2rp) (SIZE_VARIANTS 0x18000000)
      kFmtRegR 4 0 kFmtBitBlt 23 5 kFmtUnused (-1) (-1)
      kFmtUnused (-1) (-1) [IS_BINARY_OP, REG_DEF0, REG_USE_PC, IS_LOAD, NEEDS_FIXUP]
      "ldr" "!0r, !1p" kFixupLoad
  | .kA64Ldr3fXD =>
    ENCODING_MAP (WIDE kA64Ldr3fXD) (SIZE_VARIANTS 0xbd400000)
      kFmtRegF 4 0 kFmtRegXOrSp 9 5 kFmtBitBlt 21 10
      kFmtUnused (-1) (-1) [IS_TERTIARY_OP, REG_DEF0_USE1, IS_LOAD_OFF]
      "ldr" "!0f, [!1X, #!2D]" kFixupNone
  | .kA64Ldr3rXD =>
    ENCODING_MAP (WIDE kA64Ldr3rXD) (SIZE_VARIANTS 0xb9400000)
      kFmtRegR 4 0 kFmtRegXOrSp 9 5 kFmtBitBlt 21 10
      kFmtUnused (-1) (-1) [IS_TERTIARY_OP, REG_DEF0_USE1, IS_LOAD_OFF]
      "ldr" "!0r, [!1X, #!2D]" kFixupNone
  | .kA64Ldr4fXxG =>
    ENCODING_MAP (WIDE kA64Ldr4fXxG) (SIZE_VARIANTS 0xbc606800)
      kFmtRegF 4 0 kFmtRegXOrSp 9 5 kFmtRegX 20 16
      kFmtBitBlt 12 12 [IS_QUAD_OP, REG_DEF0_USE12, IS_LOAD]
      "ldr" "!0f, [!1X, !2x!3G]" kFixupNone
  | .kA64Ldr4rXxG =>
    ENCODING_MAP (WIDE kA64Ldr4rXxG) (SIZE_VARIANTS 0xb8606800)
      kFmtRegR 4 0 kFmtRegXOrSp 9 5 kFmtRegX 20 16
      kFmtBitBlt 12 12 [IS_QUAD_OP, REG_DEF0_USE12, IS_LOAD]
      "ldr" "!0r, [!1X, !2x!3G]" kFixupNone
  | .kA64LdrPost3rXd =>
    ENCODING_MAP (WIDE kA64LdrPost3rXd) (SIZE_VARIANTS 0xb8400400)
      kFmtRegR 4 0 kFmtRegXOrSp 9 5 kFmtBitBlt 20 12
      kFmtUnused (-1) (-1) [IS_TERTIARY_OP, REG_DEF01, REG_USE1, IS_LOAD]
      "ldr" "!0r, [!1X], #!2d" kFixupNone
  | .kA64Ldp4ffXD =>
    ENCODING_MAP (WIDE kA64Ldp4ffXD) (CUSTOM_VARIANTS 0x2d400000 0x6d400000)
      kFmtRegF 4 0 kFmtRegF 14 10 kFmtRegXOrSp 9 5
      kFmtBitBlt 21 15 [IS_QUAD_OP, REG_USE2, REG_DEF01, IS_LOAD_OFF]
      "ldp" "!0f, !1f, [!2X, #!3D]" kFixupNone
  | .kA64Ldp4rrXD =>
    ENCODING_MAP (WIDE kA64Ldp4rrXD) (SF_VARIANTS 0x29400000)
      kFmtRegR 4 0 kFmtRegR 14 10 kFmtRegXOrSp 9 5
      kFmtBitBlt 21 15 [IS_QUAD_OP, REG_USE2, REG_DEF01, IS_LOAD_OFF]
      "ldp" "!0r, !1r, [!2X, #!3D]" kFixupNone
  | .kA64LdpPost4rrXD =>
    ENCODING_MAP (WIDE kA64LdpPost4rrXD) (CUSTOM_VARIANTS 0x28c00000 0xa8c00000)
      kFmtRegR 4 0 kFmtRegR 14 10 kFmtRegXOrSp 9 5
      kFmtBitBlt 21 15 [IS_QUAD_OP, REG_USE2, REG_DEF012, IS_LOAD]
      "ldp" "!0r, !1r, [!2X], #!3D" kFixupNone
  | .kA64Ldur3fXd =>
    ENCODING_MAP (WIDE kA64Ldur3fXd) (CUSTOM_VARIANTS 0xbc400000 0xfc400000)
      kFmtRegF 4 0 kFmtRegXOrSp 9 5 kFmtBitBlt 20 12
      kFmtUnused (-1) (-1) [IS_TERTIARY_OP, REG_DEF0_USE1, IS_LOAD]
      "ldur" "!0f, [!1X, #!2d]" kFixupNone
  | .kA64Ldur3rXd =>
    ENCODING_MAP (WIDE kA64Ldur3rXd) (SIZE_VARIANTS 0xb8400000)
      kFmtRegR 4 0 kFmtRegXOrSp 9 5 kFmtBitBlt 20 12
      kFmtUnused (-1) (-1) [IS_TERTIARY_OP, REG_DEF0_USE1, IS_LOAD]
      "ldur" "!0r, [!1X, #!2d]" kFixupNone
  | .kA64Ldxr2rX =>
    ENCODING_MAP (WIDE kA64Ldxr2rX) (SIZE_VARIANTS 0x885f7c00)
      kFmtRegR 4 0 kFmtRegXOrSp 9 5 kFmtUnused (-1) (-1)
      kFmtUnused (-1) (-1) [IS_BINARY_OP, REG_DEF0_USE1, IS_LOADX]
      "ldxr" "!0r, [!1X]" kFixupNone
  | .kA64Ldaxr2rX =>
    ENCODING_MAP (WIDE kA64Ldaxr2rX) (SIZE_VARIANTS 0x885ffc00)
      kFmtRegR 4 0 kFmtRegXOrSp 9 5 kFmtUnused (-1) (-1)
      kFmtUnused (-1) (-1) [IS_BINARY_OP, REG_DEF0_USE1, IS_LOADX]
      "ldaxr" "!0r, [!1X]" kFixupNone
  | .kA64Lsl3rrr =>
    ENCODING_MAP (WIDE kA64Lsl3rrr) (SF_VARIANTS 0x1ac02000)
      kFmtRegR 4 0 kFmtRegR 9 5 kFmtRegR 20 16
      kFmtUnused (-1) (-1) [IS_TERTIARY_OP, REG_DEF0_USE12]
      "lsl" "!0r, !1r, !2r" kFixupNone
  | .kA64Lsr3rrd =>
    ENCODING_MAP (WIDE kA64Lsr3rrd) (CUSTOM_VARIANTS 0x53007c00 0xd340fc00)
      kFmtRegR 4 0 kFmtRegR 9 5 kFmtBitBlt 21 16
      kFmtUnused (-1) (-1) [IS_TERTIARY_OP, REG_DEF0_USE1]
      "lsr" "!0r, !1r, #!2d" kFixupNone
  | .kA64Lsr3rrr =>
    ENCODING_MAP (WIDE kA64Lsr3rrr) (SF_VARIANTS 0x1ac02400)
      kFmtRegR 4 0 kFmtRegR 9 5 kFmtRegR 20 16
      kFmtUnused (-1) (-1) [IS_TERTIARY_OP, REG_DEF0_USE12]
      "lsr" "!0r, !1r, !2r" kFixupNone
  | .kA64Madd4rrrr =>
    ENCODING_MAP (WIDE kA64Madd4rrrr) (SF_VARIANTS 0x1b000000)
      kFmtRegR 4 0 kFmtRegR 9 5 kFmtRegR 20 16
      kFmtRegR 14 10 [IS_QUAD_OP, REG_DEF0_USE123, NEEDS_FIXUP]
      "madd" "!0r, !1r, !2r, !3r" kFixupA53Erratum835769
  | .kA64Movk3rdM =>
    ENCODING_MAP (WIDE kA64Movk3rdM) (SF_VARIANTS 0x72800000)
      kFmtRegR 4 0 kFmtBitBlt 20 5 kFmtBitBlt 22 21
      kFmtUnused (-1) (-1) [IS_TERTIARY_OP, REG_DEF0_USE0]
      "movk" "!0r, #!1d!2M" kFixupNone
  | .kA64Movn3rdM =>
    ENCODING_MAP (WIDE kA64Movn3rdM) (SF_VARIANTS 0x12800000)
      kFmtRegR 4 0 kFmtBitBlt 20 5 kFmtBitBlt 22 21
      kFmtUnused (-1) (-1) [IS_TERTIARY_OP, REG_DEF0]
      "movn" "!0r, #!1d!2M" kFixupNone
  | .kA64Movz3rdM =>
    ENCODING_MAP (WIDE kA64Movz3rdM) (SF_VARIANTS 0x52800000)
      kFmtRegR 4 0 kFmtBitBlt 20 5 kFmtBitBlt 22 21
      kFmtUnused (-1) (-1) [IS_TERTIARY_OP, REG_DEF0]
      "movz" "!0r, #!1d!2M" kFixupNone
  | .kA64Mov2rr =>
    ENCODING_MAP (WIDE kA64Mov2rr) (SF_VARIANTS 0x2a0003e0)
      kFmtRegR 4 0 kFmtRegR 20 16 kFmtUnused (-1) (-1)
      kFmtUnused (-1) (-1) [IS_BINARY_OP, REG_DEF0_USE1, IS_MOVE]
      "mov" "!0r, !1r" kFixupNone
  | .kA64Mvn2rr =>
    ENCODING_MAP (WIDE kA64Mvn2rr) (SF_VARIANTS 0x2a2003e0)
      kFmtRegR 4 0 kFmtRegR 20 16 kFmtUnused (-1) (-1)
      kFmtUnused (-1) (-1) [IS_BINARY_OP, REG_DEF0_USE1]
      "mvn" "!0r, !1r" kFixupNone
  | .kA64Mul3rrr =>
    ENCODING_MAP (WIDE kA64Mul3rrr) (SF_VARIANTS 0x1b007c00)
      kFmtRegR 4 0 kFmtRegR 9 5 kFmtRegR 20 16
      kFmtUnused (-1) (-1) [IS_TERTIARY_OP, REG_DEF0_USE12]
      "mul" "!0r, !1r, !2r" kFixupNone
  | .kA64Msub4rrrr =>
    ENCODING_MAP (WIDE kA64Msub4rrrr) (SF_VARIANTS 0x1b008000)
      kFmtRegR 4 0 kFmtRegR 9 5 kFmtRegR 20 16
      kFmtRegR 14 10 [IS_QUAD_OP, REG_DEF0_USE123, NEEDS_FIXUP]
      "msub" "!0r, !1r, !2r, !3r" kFixupA53Erratum835769
  | .kA64Neg3rro =>
    ENCODING_MAP (WIDE kA64Neg3rro) (SF_VARIANTS 0x4b0003e0)
      kFmtRegR 4 0 kFmtRegR 20 16 kFmtShift (-1) (-1)
      kFmtUnused (-1) (-1) [IS_TERTIARY_OP, REG_DEF0_USE1]
      "neg" "!0r, !1r!2o" kFixupNone
  | .kA64Nop0 =>
    ENCODING_MAP kA64Nop0 (NO_VARIANTS 0xd503201f)
      kFmtUnused (-1) (-1) kFmtUnused (-1) (-1) kFmtUnused (-1) (-1)
      kFmtUnused (-1) (-1) [NO_OPERAND]
      "nop" "" kFixupNone
  | .kA64Orr3Rrl =>
    ENCODING_MAP (WIDE kA64Orr3Rrl) (SF_VARIANTS 0x32000000)
      kFmtRegROrSp 4 0 kFmtRegR 9 5 kFmtBitBlt 22 10
      kFmtUnused (-1) (-1) [IS_TERTIARY_OP, REG_DEF0_USE1]
      "orr" "!0R, !1r, #!2l" kFixupNone
  | .kA64Orr4rrro =>
    ENCODING_MAP (WIDE kA64Orr4rrro) (SF_VARIANTS 0x2a000000)
      kFmtRegR 4 0 kFmtRegR 9 5 kFmtRegR 20 16
      kFmtShift (-1) (-1) [IS_QUAD_OP, REG_DEF0_USE12]
      "orr" "!0r, !1r, !2r!3o" kFixupNone
  | .kA64Ret =>
    ENCODING_MAP kA64Ret (NO_VARIANTS 0xd65f03c0)
      kFmtUnused (-1) (-1) kFmtUnused (-1) (-1) kFmtUnused (-1) (-1)
      kFmtUnused (-1) (-1) [NO_OPERAND, IS_BRANCH]
      "ret" "" kFixupNone
  | .kA64Rbit2rr =>
    ENCODING_MAP (WIDE kA64Rbit2rr) (SF_VARIANTS 0x5ac00000)
      kFmtRegR 4 0 kFmtRegR 9 5 kFmtUnused (-1) (-1)
      kFmtUnused (-1) (-1) [IS_BINARY_OP, REG_DEF0_USE1]
      "rbit" "!0r, !1r" kFixupNone
  | .kA64Rev2rr =>
    ENCODING_MAP (WIDE kA64Rev2rr) (CUSTOM_VARIANTS 0x5ac00800 0xdac00c00)
      kFmtRegR 4 0 kFmtRegR 9 5 kFmtUnused (-1) (-1)
      kFmtUnused (-1) (-1) [IS_BINARY_OP, REG_DEF0_USE1]
      "rev" "!0r, !1r" kFixupNone
  | .kA64Rev162rr =>
    ENCODING_MAP (WIDE kA64Rev162rr) (SF_VARIANTS 0x5ac00400)
      kFmtRegR 4 0 kFmtRegR 9 5 kFmtUnused (-1) (-1)
      kFmtUnused (-1) (-1) [IS_BINARY_OP, REG_DEF0_USE1]
      "rev16" "!0r, !1r" kFixupNone
  | .kA64Ror3rrr =>
    ENCODING_MAP (WIDE kA64Ror3rrr) (SF_VARIANTS 0x1ac02c00)
      kFmtRegR 4 0 kFmtRegR 9 5 kFmtRegR 20 16
      kFmtUnused (-1) (-1) [IS_TERTIARY_OP, REG_DEF0_USE12]
      "ror" "!0r, !1r, !2r" kFixupNone
  | .kA64Sbc3rrr =>
    ENCODING_MAP (WIDE kA64Sbc3rrr) (SF_VARIANTS 0x5a000000)
      kFmtRegR 4 0 kFmtRegR 9 5 kFmtRegR 20 16
      kFmtUnused (-1) (-1) [IS_TERTIARY_OP, REG_DEF0_USE12, USES_CCODES]
      "sbc" "!0r, !1r, !2r" kFixupNone
  | .kA64Sbfm4rrdd =>
    ENCODING_MAP (WIDE kA64Sbfm4rrdd) (SF_N_VARIANTS 0x13000000)
      kFmtRegR 4 0 kFmtRegR 9 5 kFmtBitBlt 21 16
      kFmtBitBlt 15 10 [IS_QUAD_OP, REG_DEF0_USE1]
      "sbfm" "!0r, !1r, #!2d, #!3d" kFixupNone
  | .kA64Scvtf2fw =>
    ENCODING_MAP (WIDE kA64Scvtf2fw) (FLOAT_VARIANTS 0x1e220000)
      kFmtRegF 4 0 kFmtRegW 9 5 kFmtUnused (-1) (-1)
      kFmtUnused (-1) (-1) [IS_BINARY_OP, REG_DEF0_USE1]
      "scvtf" "!0f, !1w" kFixupNone
  | .kA64Scvtf2fx =>
    ENCODING_MAP (WIDE kA64Scvtf2fx) (FLOAT_VARIANTS 0x9e220000)
      kFmtRegF 4 0 kFmtRegX 9 5 kFmtUnused (-1) (-1)
      kFmtUnused (-1) (-1) [IS_BINARY_OP, REG_DEF0_USE1]
      "scvtf" "!0f, !1x" kFixupNone
  | .kA64Sdiv3rrr =>
    ENCODING_MAP (WIDE kA64Sdiv3rrr) (SF_VARIANTS 0x1ac00c00)
      kFmtRegR 4 0 kFmtRegR 9 5 kFmtRegR 20 16
      kFmtUnused (-1) (-1) [IS_TERTIARY_OP, REG_DEF0_USE12]
      "sdiv" "!0r, !1r, !2r" kFixupNone
  | .kA64Smull3xww =>
    ENCODING_MAP kA64Smull3xww (NO_VARIANTS 0x9b207c00)
      kFmtRegX 4 0 kFmtRegW 9 5 kFmtRegW 20 16
      kFmtUnused (-1) (-1) [IS_TERTIARY_OP, REG_DEF0_USE12]
      "smull" "!0x, !1w, !2w" kFixupNone
  | .kA64Smulh3xxx =>
    ENCODING_MAP kA64Smulh3xxx (NO_VARIANTS 0x9b407c00)
      kFmtRegX 4 0 kFmtRegX 9 5 kFmtRegX 20 16
      kFmtUnused (-1) (-1) [IS_TERTIARY_OP, REG_DEF0_USE12]
      "smulh" "!0x, !1x, !2x" kFixupNone
  | .kA64Stp4ffXD =>
    ENCODING_MAP (WIDE kA64Stp4ffXD) (CUSTOM_VARIANTS 0x2d000000 0x6d000000)
      kFmtRegF 4 0 kFmtRegF 14 10 kFmtRegXOrSp 9 5
      kFmtBitBlt 21 15 [IS_QUAD_OP, REG_USE012, IS_STORE_OFF]
      "stp" "!0f, !1f, [!2X, #!3D]" kFixupNone
  | .kA64Stp4rrXD =>
    ENCODING_MAP (WIDE kA64Stp4rrXD) (SF_VARIANTS 0x29000000)
      kFmtRegR 4 0 kFmtRegR 14 10 kFmtRegXOrSp 9 5
      kFmtBitBlt 21 15 [IS_QUAD_OP, REG_USE012, IS_STORE_OFF]
      "stp" "!0r, !1r, [!2X, #!3D]" kFixupNone
  | .kA64StpPost4rrXD =>
    ENCODING_MAP (WIDE kA64StpPost4rrXD) (CUSTOM_VARIANTS 0x28800000 0xa8800000)
      kFmtRegR 4 0 kFmtRegR 14 10 kFmtRegXOrSp 9 5
      kFmtBitBlt 21 15 [IS_QUAD_OP, REG_DEF2, REG_USE012, IS_STORE]
      "stp" "!0r, !1r, [!2X], #!3D" kFixupNone
  | .kA64StpPre4ffXD =>
    ENCODING_MAP (WIDE kA64StpPre4ffXD) (CUSTOM_VARIANTS 0x2d800000 0x6d800000)
      kFmtRegF 4 0 kFmtRegF 14 10 kFmtRegXOrSp 9 5
      kFmtBitBlt 21 15 [IS_QUAD_OP, REG_DEF2, REG_USE012, IS_STORE]
      "stp" "!0f, !1f, [!2X, #!3D]!!" kFixupNone
  | .kA64StpPre4rrXD =>
    ENCODING_MAP (WIDE kA64StpPre4rrXD) (CUSTOM_VARIANTS 0x29800000 0xa9800000)
      kFmtRegR 4 0 kFmtRegR 14 10 kFmtRegXOrSp 9 5
      kFmtBitBlt 21 15 [IS_QUAD_OP, REG_DEF2, REG_USE012, IS_STORE]
      "stp" "!0r, !1r, [!2X, #!3D]!!" kFixupNone
  | .kA64Str3fXD =>
    ENCODING_MAP (WIDE kA64Str3fXD) (CUSTOM_VARIANTS 0xbd000000 0xfd000000)
      kFmtRegF 4 0 kFmtRegXOrSp 9 5 kFmtBitBlt 21 10
      kFmtUnused (-1) (-1) [IS_TERTIARY_OP, REG_USE01, IS_STORE_OFF]
      "str" "!0f, [!1X, #!2D]" kFixupNone
  | .kA64Str4fXxG =>
    ENCODING_MAP (WIDE kA64Str4fXxG) (CUSTOM_VARIANTS 0xbc206800 0xfc206800)
      kFmtRegF 4 0 kFmtRegXOrSp 9 5 kFmtRegX 20 16
      kFmtBitBlt 12 12 [IS_QUAD_OP, REG_USE012, IS_STORE]
      "str" "!0f, [!1X, !2x!3G]" kFixupNone
  | .kA64Str3rXD =>
    ENCODING_MAP (WIDE kA64Str3rXD) (SIZE_VARIANTS 0xb9000000)
      kFmtRegR 4 0 kFmtRegXOrSp 9 5 kFmtBitBlt 21 10
      kFmtUnused (-1) (-1) [IS_TERTIARY_OP, REG_USE01, IS_STORE_OFF]
      "str" "!0r, [!1X, #!2D]" kFixupNone
  | .kA64Str4rXxG =>
    ENCODING_MAP (WIDE kA64Str4rXxG) (SIZE_VARIANTS 0xb8206800)
      kFmtRegR 4 0 kFmtRegXOrSp 9 5 kFmtRegX 20 16
      kFmtBitBlt 12 12 [IS_QUAD_OP, REG_USE012, IS_STORE]
      "str" "!0r, [!1X, !2x!3G]" kFixupNone
  | .kA64Strb3wXd =>
    ENCODING_MAP kA64Strb3wXd (NO_VARIANTS 0x39000000)
      kFmtRegW 4 0 kFmtRegXOrSp 9 5 kFmtBitBlt 21 10
      kFmtUnused (-1) (-1) [IS_TERTIARY_OP, REG_USE01, IS_STORE_OFF]
      "strb" "!0w, [!1X, #!2d]" kFixupNone
  | .kA64Strb3wXx =>
    ENCODING_MAP kA64Strb3wXx (NO_VARIANTS 0x38206800)
      kFmtRegW 4 0 kFmtRegXOrSp 9 5 kFmtRegX 20 16
      kFmtUnused (-1) (-1) [IS_TERTIARY_OP, REG_USE012, IS_STORE]
      "strb" "!0w, [!1X, !2x]" kFixupNone
  | .kA64Strh3wXF =>
    ENCODING_MAP kA64Strh3wXF (NO_VARIANTS 0x79000000)
      kFmtRegW 4 0 kFmtRegXOrSp 9 5 kFmtBitBlt 21 10
      kFmtUnused (-1) (-1) [IS_TERTIARY_OP, REG_USE01, IS_STORE_OFF]
      "strh" "!0w, [!1X, #!2F]" kFixupNone
  | .kA64Strh4wXxd =>
    ENCODING_MAP kA64Strh4wXxd (NO_VARIANTS 0x78206800)
      kFmtRegW 4 0 kFmtRegXOrSp 9 5 kFmtRegX 20 16
      kFmtBitBlt 12 12 [IS_QUAD_OP, REG_USE012, IS_STORE]
      "strh" "!0w, [!1X, !2x, lsl #!3d]" kFixupNone
  | .kA64StrPost3rXd =>
    ENCODING_MAP (WIDE kA64StrPost3rXd) (SIZE_VARIANTS 0xb8000400)
      kFmtRegR 4 0 kFmtRegXOrSp 9 5 kFmtBitBlt 20 12
      kFmtUnused (-1) (-1) [IS_TERTIARY_OP, REG_USE01, REG_DEF1, IS_STORE]
      "str" "!0r, [!1X], #!2d" kFixupNone
  | .kA64Stur3fXd =>
    ENCODING_MAP (WIDE kA64Stur3fXd) (CUSTOM_VARIANTS 0xbc000000 0xfc000000)
      kFmtRegF 4 0 kFmtRegXOrSp 9 5 kFmtBitBlt 20 12
      kFmtUnused (-1) (-1) [IS_TERTIARY_OP, REG_USE01, IS_STORE]
      "stur" "!0f, [!1X, #!2d]" kFixupNone
  | .kA64Stur3rXd =>
    ENCODING_MAP (WIDE kA64Stur3rXd) (SIZE_VARIANTS 0xb8000000)
      kFmtRegR 4 0 kFmtRegXOrSp 9 5 kFmtBitBlt 20 12
      kFmtUnused (-1) (-1) [IS_TERTIARY_OP, REG_USE01, IS_STORE]
      "stur" "!0r, [!1X, #!2d]" kFixupNone
  | .kA64Stxr3wrX =>
    ENCODING_MAP (WIDE kA64Stxr3wrX) (SIZE_VARIANTS 0x88007c00)
      kFmtRegW 20 16 kFmtRegR 4 0 kFmtRegXOrSp 9 5
      kFmtUnused (-1) (-1) [IS_TERTIARY_OP, REG_DEF0_USE12, IS_STOREX]
      "stxr" "!0w, !1r, [!2X]" kFixupNone
  | .kA64Stlxr3wrX =>
    ENCODING_MAP (WIDE kA64Stlxr3wrX) (SIZE_VARIANTS 0x8800fc00)
      kFmtRegW 20 16 kFmtRegR 4 0 kFmtRegXOrSp 9 5
      kFmtUnused (-1) (-1) [IS_TERTIARY_OP, REG_DEF0_USE12, IS_STOREX]
      "stlxr" "!0w, !1r, [!2X]" kFixupNone
  | .kA64Sub4RRdT =>
    ENCODING_MAP (WIDE kA64Sub4RRdT) (SF_VARIANTS 0x51000000)
      kFmtRegROrSp 4 0 kFmtRegROrSp 9 5 kFmtBitBlt 21 10
      kFmtBitBlt 23 22 [IS_QUAD_OP, REG_DEF0_USE1]
      "sub" "!0R, !1R, #!2d!3T" kFixupNone
  | .kA64Sub4rrro =>
    ENCODING_MAP (WIDE kA64Sub4rrro) (SF_VARIANTS 0x4b000000)
      kFmtRegR 4 0 kFmtRegR 9 5 kFmtRegR 20 16
      kFmtShift (-1) (-1) [IS_QUAD_OP, REG_DEF0_USE12]
      "sub" "!0r, !1r, !2r!3o" kFixupNone
  | .kA64Sub4RRre =>
    ENCODING_MAP (WIDE kA64Sub4RRre) (SF_VARIANTS 0x4b200000)
      kFmtRegROrSp 4 0 kFmtRegROrSp 9 5 kFmtRegR 20 16
      kFmtExtend (-1) (-1) [IS_QUAD_OP, REG_DEF0_USE12]
      "sub" "!0r, !1r, !2r!3e" kFixupNone
  | .kA64Subs3rRd =>
    ENCODING_MAP (WIDE kA64Subs3rRd) (SF_VARIANTS 0x71000000)
      kFmtRegR 4 0 kFmtRegROrSp 9 5 kFmtBitBlt 21 10
      kFmtUnused (-1) (-1) [IS_TERTIARY_OP, REG_DEF0_USE1, SETS_CCODES]
      "subs" "!0r, !1R, #!2d" kFixupNone
  | .kA64Tst2rl =>
    ENCODING_MAP (WIDE kA64Tst2rl) (SF_VARIANTS 0x7200001f)
      kFmtRegR 9 5 kFmtBitBlt 22 10 kFmtUnused (-1) (-1)
      kFmtUnused (-1) (-1) [IS_TERTIARY_OP, REG_USE0, SETS_CCODES]
      "tst" "!0r, !1l" kFixupNone
  | .kA64Tst3rro =>
    ENCODING_MAP (WIDE kA64Tst3rro) (SF_VARIANTS 0x6a00001f)
      kFmtRegR 9 5 kFmtRegR 20 16 kFmtShift (-1) (-1)
      kFmtUnused (-1) (-1) [IS_TERTIARY_OP, REG_USE01, SETS_CCODES]
      "tst" "!0r, !1r!2o" kFixupNone
  | .kA64Tbnz3rht =>
    ENCODING_MAP (WIDE kA64Tbnz3rht) (CUSTOM_VARIANTS 0x37000000 0x37000000)
      kFmtRegR 4 0 kFmtImm6Shift (-1) (-1) kFmtBitBlt 18 5
      kFmtUnused (-1) (-1) [IS_TERTIARY_OP, REG_USE0, IS_BRANCH, NEEDS_FIXUP, SETS_CCODES]
      "tbnz" "!0r, #!1h, !2t" kFixupTBxZ
  | .kA64Tbz3rht =>
    ENCODING_MAP (WIDE kA64Tbz3rht) (CUSTOM_VARIANTS 0x36000000 0x36000000)
      kFmtRegR 4 0 kFmtImm6Shift (-1) (-1) kFmtBitBlt 18 5
      kFmtUnused (-1) (-1) [IS_TERTIARY_OP, REG_USE0, IS_BRANCH, NEEDS_FIXUP, SETS_CCODES]
      "tbz" "!0r, #!1h, !2t" kFixupTBxZ
  | .kA64Ubfm4rrdd =>
    ENCODING_MAP (WIDE kA64Ubfm4rrdd) (SF_N_VARIANTS 0x53000000)
      kFmtRegR 4 0 kFmtRegR 9 5 kFmtBitBlt 21 16
      kFmtBitBlt 15 10 [IS_QUAD_OP, REG_DEF0_USE1]
      "ubfm" "!0r, !1r, !2d, !3d" kFixupNone

/-! ## Build configuration -/

/-- Build-time constants and register queries that the encoder uses and whose definitions
(`globals.h`, `base/logging.h`, `reg_storage.h`, `arm64_lir.h`) are not among the sources.
They are parameters of the embedding. The register queries take the operand value from
which the code builds its `RegStorage`. -/
structure BuildConfig where
  kIsDebugBuild : Bool
  kEnableDChecks : Bool
  kFailOnSizeError : Bool
  kReportSizeError : Bool
  IsFloat : Nat → Bool
  IsDouble : Nat → Bool
  Is64Bit : Nat → Bool
  A64_REGSTORAGE_IS_SP_OR_ZR : Nat → Bool
  A64_REG_IS_ZR : Nat → Bool

/-- The macro `DCHECK(cond)`: a fault when the condition fails in a build with `DCHECK`s,
nothing otherwise. -/
def DCHECK (cfg : BuildConfig) (cond : Bool) (msg : String) : Except Fault Unit :=
  if cfg.kEnableDChecks && !cond then .error (.dcheck msg) else .ok ()

/-! ## The operand encoder (`EncodeLIRs`, loop body) -/

/-- Register usage requirements that `EncodeLIRs` derives from a register field kind. -/
structure RegWants where
  want_float : Bool
  want_64_bit : Bool
  want_var_size : Bool
  want_zero : Bool
  deriving DecidableEq, Repr

/-- The `switch (kind)` of the register usage checks, with its fall-throughs; `none` is the
`default:` case. -/
def regWants : A64EncodingKind → Option RegWants
  | kFmtRegX => some ⟨false, true, false, true⟩
  | kFmtRegW => some ⟨false, false, false, true⟩
  | kFmtRegR => some ⟨false, false, true, true⟩
  | kFmtRegXOrSp => some ⟨false, true, false, false⟩
  | kFmtRegWOrSp => some ⟨false, false, false, false⟩
  | kFmtRegROrSp => some ⟨false, false, true, false⟩
  | kFmtRegD => some ⟨true, true, false, false⟩
  | kFmtRegS => some ⟨true, false, false, false⟩
  | kFmtRegF => some ⟨true, false, true, false⟩
  | _ => none

/-- The test "expected != nullptr" of the register usage checks: some requirement is not
satisfied by the register in `operand`. -/
def regMismatch (cfg : BuildConfig) (w : RegWants) (opcode_is_wide : Bool) (operand : Nat)
    (is_zero : Bool) : Bool :=
  let want_64_bit := if w.want_var_size then opcode_is_wide else w.want_64_bit
  if w.want_float then
    if !cfg.IsFloat operand then true
    else if cfg.IsDouble operand != want_64_bit then true
    else false
  else
    if cfg.IsFloat operand then true
    else if cfg.Is64Bit operand != want_64_bit then true
    else if cfg.A64_REGSTORAGE_IS_SP_OR_ZR operand && (is_zero != w.want_zero) then true
    else false

/-- The register usage checks made for a register field in a debug build; a mismatch is
fatal when `kFailOnSizeError` is set and a warning otherwise. -/
def regCheck (cfg : BuildConfig) (kind : A64EncodingKind) (opcode_is_wide : Bool)
    (operand : Nat) : Except Fault Unit :=
  let is_zero := cfg.A64_REG_IS_ZR operand
  if cfg.kIsDebugBuild && (cfg.kFailOnSizeError || cfg.kReportSizeError) then
    match regWants kind with
    | none => .error (.fatal "Bad fmt for arg n.")
    | some w =>
      if regMismatch cfg w opcode_is_wide operand is_zero then
        if cfg.kFailOnSizeError then .error (.fatal "Bad argument n.") else .ok ()
      else .ok ()
  else .ok ()

/-- The value that a register or bit-string field contributes:
`(operand << start) & ((1 << (end + 1)) - 1)`, in 32-bit arithmetic. -/
def fieldValue (operand : Nat) (start end_ : Int) : Nat :=
  wrap32 (operand <<< start.toNat) &&& wrap32 ((1 <<< (end_ + 1).toNat) + 4294967295)

/-- The value of a `kFmtShift` or `kFmtExtend` operand. -/
def shiftExtendValue (operand : Nat) : Nat :=
  wrap32 ((operand &&& 0x3f) <<< 10) ||| wrap32 (((operand &&& 0x1c0) >>> 6) <<< 21)

/-- The value of a `kFmtImm21` operand. -/
def imm21Value (operand : Nat) : Nat :=
  wrap32 ((operand &&& 0x3) <<< 29) ||| wrap32 (((operand &&& 0x1ffffc) >>> 2) <<< 5)

/-- The value of a `kFmtImm6Shift` operand. -/
def imm6ShiftValue (operand : Nat) : Nat :=
  wrap32 ((operand &&& 0x1f) <<< 19) ||| wrap32 (((operand &&& 0x20) >>> 5) <<< 31)

/-- Outcome of one round of the operand loop: go on with the next operand, or leave the
loop (`i = 4`). -/
inductive ArgStep where
  | next (bits : Nat)
  | done (bits : Nat)
  deriving DecidableEq, Repr

/-- One round of the loop `for (int i = 0; i < 4; i++)` of `EncodeLIRs`. -/
def encodeArg (cfg : BuildConfig) (encoder : A64EncodingMap) (lir : LIR)
    (opcode_is_wide : Bool) (i : Nat) (bits : Nat) : Except Fault ArgStep :=
  match encoder.field_loc[i]? with
  | none => .error .nullDeref
  | some loc =>
    let kind := loc.kind
    let operand := toU32 (lir.operands.get i)
    if kind.val ≤ kFmtBitBlt.val then
      match (if kind.val < kFmtBitBlt.val then regCheck cfg kind opcode_is_wide operand
             else .ok ()) with
      | .error e => .error e
      | .ok _ => .ok (.next (bits ||| fieldValue operand loc.start loc.end_))
    else
      match kind with
      | kFmtSkip => .ok (.next bits)
      | kFmtUnused => .ok (.done bits)
      | kFmtShift | kFmtExtend =>
        match DCHECK cfg (((operand &&& (1 <<< 6)) == 0) == (kind == kFmtShift))
            "DCHECK_EQ((operand & (1 << 6)) == 0, kind == kFmtShift)" with
        | .error e => .error e
        | .ok _ => .ok (.next (bits ||| shiftExtendValue operand))
      | kFmtImm21 => .ok (.next (bits ||| imm21Value operand))
      | kFmtImm6Shift => .ok (.next (bits ||| imm6ShiftValue operand))
      | _ => .error (.fatal "Bad fmt for arg.")

/-- The loop `for (int i = 0; i < 4; i++)` of `EncodeLIRs`, started at round `i` with
`n` rounds left. -/
def encodeArgs (cfg : BuildConfig) (encoder : A64EncodingMap) (lir : LIR)
    (opcode_is_wide : Bool) : Nat → Nat → Nat → Except Fault Nat
  | 0, _, bits => .ok bits
  | n + 1, i, bits =>
    match encodeArg cfg encoder lir opcode_is_wide i bits with
    | .error e => .error e
    | .ok (.done bits) => .ok bits
    | .ok (.next bits) => encodeArgs cfg encoder lir opcode_is_wide n (i + 1) bits

/-- The word that `EncodeLIRs` builds for a record with a real opcode that is not flagged
`is_nop`. -/
def encodeInsn (cfg : BuildConfig) (lir : LIR) (opcode : A64Opcode) : Except Fault Nat :=
  let opcode_is_wide := IS_WIDE lir.opcode
  let encoder := EncodingMap opcode
  let bits := if opcode_is_wide then encoder.xskeleton else encoder.wskeleton
  match DCHECK cfg (!opcode_is_wide || IS_WIDE encoder.opcode)
      "DCHECK(!opcode_is_wide || IS_WIDE(encoder->opcode))" with
  | .error e => .error e
  | .ok _ =>
    match encodeArgs cfg encoder lir opcode_is_wide 4 0 bits with
    | .error e => .error e
    | .ok bits =>
      match DCHECK cfg (encoder.size == 4) "DCHECK_EQ(encoder->size, 4)" with
      | .error e => .error e
      | .ok _ => .ok bits

/-- The four bytes stored for a word, lowest byte first. -/
def wordBytes (bits : Nat) : List Nat :=
  [bits &&& 0xff, (bits >>> 8) &&& 0xff, (bits >>> 16) &&& 0xff, (bits >>> 24) &&& 0xff]

/-- The constant `PADDING_NOP`. -/
def PADDING_NOP : Nat := 0xd503201f

/-- The function `Arm64Mir2Lir::EncodeLIRs`, on the arena `lirs`. The third argument is the
list of bytes stored so far from `write_buffer` on (`write_pos - write_buffer` is its
length); the result is the arena and the bytes stored when the walk reaches `nullptr`.
The macro `NEXT_LIR(lir)` is the member `next`. The first argument bounds the number of
records of the walk. -/
def EncodeLIRsFrom (cfg : BuildConfig) :
    Nat → List LIR → List Nat → Option Nat → Except Fault (List LIR × List Nat)
  | _, lirs, out, none => .ok (lirs, out)
  | 0, _, _, some _ => .error .outOfFuel
  | fuel + 1, lirs, out, some p =>
    match lirs[p]? with
    | none => .error .nullDeref
    | some lir0 =>
      let lir := { lir0 with offset := wrap32 out.length }
      let lirs := lirs.set p lir
      match UNWIDE lir.opcode with
      | .pseudo _ => EncodeLIRsFrom cfg fuel lirs out lir.next
      | .insn opcode =>
        if !lir.flags.is_nop then
          match encodeInsn cfg lir opcode with
          | .error e => .error e
          | .ok bits => EncodeLIRsFrom cfg fuel lirs (out ++ wordBytes bits) lir.next
        else EncodeLIRsFrom cfg fuel lirs out lir.next

/-- The function `Arm64Mir2Lir::EncodeLIRs(write_pos, lir)`: the arena after the call, the
bytes stored from `write_pos` on, and the returned position. -/
def EncodeLIRs (cfg : BuildConfig) (fuel : Nat) (lirs : List LIR) (write_pos : Nat)
    (lir : Option Nat) : Except Fault (List LIR × List Nat × Nat) :=
  match EncodeLIRsFrom cfg fuel lirs [] lir with
  | .error e => .error e
  | .ok (lirs, out) => .ok (lirs, out, write_pos + out.length)


/-! ## The assembler state and the helpers of the resolver -/

/-- Result of one pass over the fixup chain. -/
inductive AssemblerStatus where
  | kSuccess
  | kRetryAll
  deriving DecidableEq, Repr

/-- The members of `Arm64Mir2Lir` that the assembler uses: the arena of records, the ends
of the instruction list, the head of the fixup chain, the data offsets, the code buffer,
and the offsets of the embedded data tables (switch tables and fill-array data) that
`UnwrapPointer<EmbeddedData>` finds for a wrapped pointer. -/
structure Mir2Lir where
  lirs : List LIR
  first_lir_insn_ : Option Nat
  last_lir_insn_ : Option Nat
  first_fixup_ : Option Nat
  data_offset_ : Nat
  total_size_ : Nat
  code_buffer_ : List Nat
  embedded_data : List Nat
  deriving DecidableEq, Repr

/-- Everything the resolver takes from outside the sources: the build configuration, the
options of the compilation unit, the instruction set features, and the helpers
`EncodeLogicalImmediate`, `As32BitReg` and `AssignDataOffsets`' callees. -/
structure Env extends BuildConfig where
  /-- The test `cu_->disable_opt & (1 << kSafeOptimizations)`. -/
  safe_optimizations_disabled : Bool
  NeedFixCortexA53_835769 : Bool
  MAX_ASSEMBLER_RETRIES : Nat
  /-- Takes `is_wide` and the 64-bit value. -/
  EncodeLogicalImmediate : Bool → Nat → Int
  /-- The register number of `As32BitReg(reg)` for the register in an operand. -/
  As32BitReg : Int → Int
  kPseudoPseudoAlign4 : Int
  kArmCondEq : Int
  kArmCondNe : Int
  /-- Whether an attribute flag of the table contains the bit `IS_LOAD`. -/
  flagIsLoad : OpFlag → Bool
  /-- Whether an attribute flag of the table contains the bit `IS_STORE`. -/
  flagIsStore : OpFlag → Bool
  /-- The calls `AssignLiteralOffset`, `AssignSwitchTablesOffset` and
  `AssignFillArrayDataOffset`, as a map of the state that starts at `data_offset_`. -/
  assignData : Mir2Lir → Mir2Lir

/-- The value of an arbitrary integer after reduction to `int32_t` (two's complement). -/
def wrapI32 (x : Int) : Int := (x + 2147483648) % 4294967296 - 2147483648

/-- Arithmetic shift right of a signed value, `x >> n`. -/
def asr (x : Int) (n : Nat) : Int := x >>> n

/-- Modelled from the spec: the macro `IS_SIGNED_IMM(size, value)` of `arm64_lir.h` (not
among the sources), the test that `value` lies in the signed range of `size` bits. -/
def IS_SIGNED_IMM (size : Nat) (value : Int) : Bool :=
  decide (-((2 : Int) ^ (size - 1)) ≤ value ∧ value < (2 : Int) ^ (size - 1))

/-- The macro `IS_SIGNED_IMM14`. -/
def IS_SIGNED_IMM14 (value : Int) : Bool := IS_SIGNED_IMM 14 value

/-- The macro `IS_SIGNED_IMM19`. -/
def IS_SIGNED_IMM19 (value : Int) : Bool := IS_SIGNED_IMM 19 value

/-- The macro `IS_SIGNED_IMM21`. -/
def IS_SIGNED_IMM21 (value : Int) : Bool := IS_SIGNED_IMM 21 value

/-- The macro `IS_SIGNED_IMM26`. -/
def IS_SIGNED_IMM26 (value : Int) : Bool := IS_SIGNED_IMM 26 value

/-- The macro `ALIGNED_DATA_OFFSET(offset)`, `((offset) + 0x7) & ~0x7` on `uint32_t`. -/
def ALIGNED_DATA_OFFSET (offset : Nat) : Nat := wrap32 (offset + 0x7) &&& 0xfffffff8

/-- Read through a record pointer. -/
def getLIR (lirs : List LIR) (p : Option Nat) : Except Fault LIR :=
  match p with
  | none => .error .nullDeref
  | some i =>
    match lirs[i]? with
    | none => .error .nullDeref
    | some lir => .ok lir

/-- Write through a record pointer: the record is replaced by its image under `f`. -/
def updLIR (lirs : List LIR) (p : Option Nat) (f : LIR → LIR) : Except Fault (List LIR) :=
  match getLIR lirs p with
  | .error e => .error e
  | .ok lir => .ok (lirs.set (p.getD 0) (f lir))

/-- The function `Arm64Mir2Lir::ReplaceFixup`: `new_lir` replaces `orig_lir` in the fixup
chain. -/
def ReplaceFixup (m : Mir2Lir) (prev_lir orig_lir new_lir : Option Nat) :
    Except Fault Mir2Lir := do
  let orig ← getLIR m.lirs orig_lir
  let lirs ← updLIR m.lirs new_lir fun l => { l with pcrel_next := orig.pcrel_next }
  let m := { m with lirs := lirs }
  let m ←
    if prev_lir == none then pure { m with first_fixup_ := new_lir }
    else do
      let lirs ← updLIR m.lirs prev_lir fun l => { l with pcrel_next := new_lir }
      pure { m with lirs := lirs }
  let lirs ← updLIR m.lirs orig_lir fun l =>
    { l with flags := { l.flags with fixup := kFixupNone } }
  pure { m with lirs := lirs }

/-- The function `Arm64Mir2Lir::InsertFixupBefore`: `new_lir` is put before `orig_lir` in
the fixup chain. -/
def InsertFixupBefore (cfg : BuildConfig) (m : Mir2Lir) (prev_lir orig_lir new_lir : Option Nat) :
    Except Fault Mir2Lir := do
  let lirs ← updLIR m.lirs new_lir fun l => { l with pcrel_next := orig_lir }
  let m := { m with lirs := lirs }
  if prev_lir == none then pure { m with first_fixup_ := new_lir }
  else do
    let prev ← getLIR m.lirs prev_lir
    DCHECK cfg (prev.pcrel_next == orig_lir) "DCHECK(prev_lir->u.a.pcrel_next == orig_lir)"
    let lirs ← updLIR m.lirs prev_lir fun l => { l with pcrel_next := new_lir }
    pure { m with lirs := lirs }

/-- The loop of `GetPrevEmittingLIR`: skip records that are flagged `is_nop` or are
pseudo-ops, going backwards. -/
def prevEmittingFrom (lirs : List LIR) : Nat → Option Nat → Except Fault (Option Nat)
  | _, none => .ok none
  | 0, some _ => .error .outOfFuel
  | fuel + 1, some p =>
    match lirs[p]? with
    | none => .error .nullDeref
    | some prev_lir =>
      if prev_lir.flags.is_nop || IsPseudoLirOp (UNWIDE prev_lir.opcode) then
        prevEmittingFrom lirs fuel prev_lir.prev
      else .ok (some p)

/-- The function `GetPrevEmittingLIR`: the record that emits the instruction before `lir`,
or `nullptr`. -/
def GetPrevEmittingLIR (cfg : BuildConfig) (lirs : List LIR) (fuel : Nat) (lir : Option Nat) :
    Except Fault (Option Nat) := do
  DCHECK cfg (lir != none) "DCHECK(lir != nullptr)"
  let l ← getLIR lirs lir
  prevEmittingFrom lirs fuel l.prev

/-- Modelled from the spec: `RawLIR` (in `mir_to_lir-inl.h`, not among the sources)
allocates a record with the given offset in the method, opcode, operands and target; the
other members are zero. -/
def RawLIR (dalvik_offset : Nat) (opcode : Opcode) (op0 op1 op2 op3 op4 : Int)
    (target : Option Nat) : LIR :=
  ⟨0, dalvik_offset, opcode, none, none, target, ⟨false, 0, false, 0, kFixupNone⟩, none,
    ⟨op0, op1, op2, op3, op4⟩⟩

/-- Modelled from the spec: `InsertLIRAfter` (in `codegen_util.cc`, not among the
sources) puts `new_lir` in the instruction list, immediately after `current_lir`. -/
def InsertLIRAfter (lirs : List LIR) (current_lir new_lir : Option Nat) :
    Except Fault (List LIR) := do
  let cur ← getLIR lirs current_lir
  let lirs ← updLIR lirs new_lir fun l => { l with prev := current_lir, next := cur.next }
  let lirs ← updLIR lirs current_lir fun l => { l with next := new_lir }
  if cur.next == none then pure lirs
  else updLIR lirs cur.next fun l => { l with prev := new_lir }

/-- Modelled from the spec: `InsertLIRBefore` (in `codegen_util.cc`, not among the
sources) puts `new_lir` in the instruction list, immediately before `current_lir`. -/
def InsertLIRBefore (lirs : List LIR) (current_lir new_lir : Option Nat) :
    Except Fault (List LIR) := do
  let cur ← getLIR lirs current_lir
  let lirs ← updLIR lirs new_lir fun l => { l with prev := cur.prev, next := current_lir }
  let lirs ← updLIR lirs current_lir fun l => { l with prev := new_lir }
  if cur.prev == none then pure lirs
  else updLIR lirs cur.prev fun l => { l with next := new_lir }

/-! ## `LinkFixupInsns` -/

/-- The loop of `Arm64Mir2Lir::LinkFixupInsns`, from the record `lir` up to `end_lir`. The
state is the arena, `first_fixup_`, `last_fixup` and `offset`. -/
def linkLoop (env : Env) (end_lir : Option Nat) :
    Nat → List LIR → Option Nat → Option Nat → Nat → Option Nat →
      Except Fault (List LIR × Option Nat × Nat)
  | fuel, lirs, first_fixup_, last_fixup, offset, lir =>
    if lir = end_lir then .ok (lirs, first_fixup_, offset)
    else
      match fuel with
      | 0 => .error .outOfFuel
      | fuel + 1 => do
        let l ← getLIR lirs lir
        let opcode := UNWIDE l.opcode
        if !l.flags.is_nop then
          if l.flags.fixup != kFixupNone then
            let lirs ←
              match opcode with
              | .insn op =>
                updLIR lirs lir fun l => { l with flags :=
                  { l.flags with size := (EncodingMap op).size, fixup := (EncodingMap op).fixup } }
              | .pseudo code => do
                DCHECK env.toBuildConfig (code != env.kPseudoPseudoAlign4)
                  "DCHECK_NE(static_cast<int>(opcode), kPseudoPseudoAlign4)"
                updLIR lirs lir fun l => { l with flags :=
                  { l.flags with size := 0, fixup := kFixupLabel } }
            -- Link into the fixup chain.
            let lirs ← updLIR lirs lir fun l =>
              { l with flags := { l.flags with use_def_invalid := true }, pcrel_next := none }
            let (lirs, first_fixup_) ←
              if first_fixup_ == none then
                (pure (lirs, lir) : Except Fault (List LIR × Option Nat))
              else do
                let lirs ← updLIR lirs last_fixup fun l => { l with pcrel_next := lir }
                pure (lirs, first_fixup_)
            let last_fixup := lir
            let lirs ← updLIR lirs lir fun l => { l with offset := offset }
            let l ← getLIR lirs lir
            linkLoop env end_lir fuel lirs first_fixup_ last_fixup
              (wrap32 (offset + l.flags.size)) l.next
          else
            linkLoop env end_lir fuel lirs first_fixup_ last_fixup
              (wrap32 (offset + l.flags.size)) l.next
        else linkLoop env end_lir fuel lirs first_fixup_ last_fixup offset l.next

/-- The function `Arm64Mir2Lir::LinkFixupInsns(head_lir, tail_lir, offset)`: the state
after the call and the returned offset. -/
def LinkFixupInsns (env : Env) (fuel : Nat) (m : Mir2Lir) (head_lir tail_lir : Option Nat)
    (offset : Nat) : Except Fault (Mir2Lir × Nat) := do
  let tail ← getLIR m.lirs tail_lir
  let end_lir := tail.next
  let (lirs, first_fixup_, offset) ←
    linkLoop env end_lir fuel m.lirs m.first_fixup_ none offset head_lir
  pure ({ m with lirs := lirs, first_fixup_ := first_fixup_ }, offset)

/-- The function `Arm64Mir2Lir::AssignDataOffsets`. -/
def AssignDataOffsets (env : Env) (m : Mir2Lir) : Mir2Lir := env.assignData m


/-! ## The fixup loop of `AssembleLIR` -/

/-- The local variables of one pass over the fixup chain. -/
structure FixupLocals where
  offset_adjustment : Int
  res : AssemblerStatus
  prev_lir : Option Nat
  lir : Option Nat
  deriving DecidableEq, Repr

/-- The computation shared by the branch and load cases: the signed byte distance
`int32_t delta = target - pc`, where `target` is the offset of the target record, advanced
by `offset_adjustment` when the target has not been visited in this pass. -/
def fixupDelta (env : Env) (lirs : List LIR) (lir : LIR) (offset_adjustment : Int) :
    Except Fault Int := do
  DCHECK env.toBuildConfig (lir.target != none) "DCHECK(target_lir)"
  let target_lir ← getLIR lirs lir.target
  let pc := lir.offset
  let target := wrap32 (target_lir.offset +
    toU32 (if target_lir.flags.generation == lir.flags.generation then 0 else offset_adjustment))
  let delta := wrapI32 ((target : Int) - (pc : Int))
  DCHECK env.toBuildConfig (delta % 4 == 0) "DCHECK_ALIGNED(delta, 4)"
  pure delta

/-- The value of the `int` expression `1 << n` (for counts of 32 and more, which C++
leaves undefined, the bit is shifted out). -/
def intShl1 (n : Int) : Int := wrapI32 ((1 <<< n.toNat : Nat) : Int)

/-- The value of an `int` after conversion to `uint64_t`. -/
def toU64 (x : Int) : Nat := (x % 18446744073709551616).toNat

/-- Whether the attribute flags of an entry contain `IS_LOAD` or `IS_STORE`:
`(flags & IS_LOAD) != 0 || (flags & IS_STORE) != 0`. -/
def isLoadOrStore (env : Env) (flags : List OpFlag) : Bool :=
  flags.any env.flagIsLoad || flags.any env.flagIsStore

/-- The case `kFixupT1Branch` of the resolver, for the record at `p`. -/
def fixupT1Branch (env : Env) (m : Mir2Lir) (loc : FixupLocals) (p : Nat) :
    Except Fault (Mir2Lir × FixupLocals) := do
  let lir ← getLIR m.lirs (some p)
  let delta ← fixupDelta env m.lirs lir loc.offset_adjustment
  if !IS_SIGNED_IMM26 (asr delta 2) then
    throw (.fatal "Invalid jump range in kFixupT1Branch")
  else
    let lirs ← updLIR m.lirs (some p) fun l =>
      { l with operands := l.operands.set 0 (asr delta 2) }
    let lir ← getLIR lirs (some p)
    if !env.safe_optimizations_disabled && lir.operands.get 0 == 1 then
      -- Useless branch.
      let offset_adjustment := loc.offset_adjustment - lir.flags.size
      let lirs ← updLIR lirs (some p) fun l =>
        { l with flags := { l.flags with is_nop := true, fixup := kFixupNone } }
      pure ({ m with lirs := lirs },
        { loc with offset_adjustment := offset_adjustment, res := .kRetryAll })
    else pure ({ m with lirs := lirs }, loc)

/-- The cases `kFixupLoad`, `kFixupCBxZ` and `kFixupCondBranch` of the resolver. -/
def fixupCondBranch (env : Env) (m : Mir2Lir) (loc : FixupLocals) (p : Nat) :
    Except Fault (Mir2Lir × FixupLocals) := do
  let lir ← getLIR m.lirs (some p)
  let delta ← fixupDelta env m.lirs lir loc.offset_adjustment
  if !IS_SIGNED_IMM19 (asr delta 2) then
    throw (.fatal "Invalid jump range in kFixupLoad")
  else
    let lirs ← updLIR m.lirs (some p) fun l =>
      { l with operands := l.operands.set 1 (asr delta 2) }
    pure ({ m with lirs := lirs }, loc)

/-- The start of the case `kFixupTBxZ`: the checks of the bit index against the operand
width; in a debug build a wide `tbz/tbnz` with a bit index below 32 is made narrow. The
result is the arena. -/
def tbxzCheckWidth (env : Env) (lirs : List LIR) (lir : LIR) (p : Nat) :
    Except Fault (List LIR) :=
  let opcode := lir.opcode
  let imm := lir.operands.get 1
  if imm ≥ 32 then do
    DCHECK env.toBuildConfig (IS_WIDE opcode) "DCHECK(IS_WIDE(opcode))"
    pure lirs
  else if env.kIsDebugBuild && IS_WIDE opcode then
    -- "tbz/tbnz x0, #imm(<32)" is the same with "tbz/tbnz w0, #imm(<32)"
    updLIR lirs (some p) fun l =>
      { l with opcode := ⟨UNWIDE opcode, false⟩,
               operands := l.operands.set 0 (env.As32BitReg (lir.operands.get 0)) }
  else pure lirs

/-- The rewriting of an out-of-range `tbz/tbnz` in the case `kFixupTBxZ`: the record at `p`
becomes `tst Rt, #(1 << imm)`, a new conditional branch to the old target is put after it
in the instruction list and takes its place in the fixup chain, and the pass asks for a
retry. `opcode` is the opcode that the record had when the case was entered, `lir` the
record as it is now. -/
def tbxzWiden (env : Env) (generation : Nat) (m : Mir2Lir) (loc : FixupLocals) (p : Nat)
    (opcode : Opcode) (lirs : List LIR) (lir : LIR) :
    Except Fault (Mir2Lir × FixupLocals × Bool) := do
  let dalvik_offset := lir.dalvik_offset
  let targetLIR := lir.target
  -- "tbz/tbnz Rt, #imm, label" -> "tst Rt, #(1<<imm)".
  let offset_adjustment := loc.offset_adjustment - lir.flags.size
  let encodedImm := env.EncodeLogicalImmediate (IS_WIDE opcode)
    (toU64 (intShl1 (lir.operands.get 1)))
  DCHECK env.toBuildConfig (encodedImm != -1) "DCHECK_NE(encodedImm, -1)"
  let lirs ← updLIR lirs (some p) fun l =>
    { l with opcode := if IS_WIDE opcode then WIDE kA64Tst2rl else kA64Tst2rl,
             operands := l.operands.set 1 encodedImm,
             target := none,
             flags := { l.flags with fixup := (EncodingMap kA64Tst2rl).fixup,
                                     size := (EncodingMap kA64Tst2rl).size } }
  let lir ← getLIR lirs (some p)
  let offset_adjustment := offset_adjustment + lir.flags.size
  -- Insert "beq/bneq label".
  let opcode := UNWIDE opcode
  DCHECK env.toBuildConfig (opcode == .insn kA64Tbz3rht || opcode == .insn kA64Tbnz3rht)
    "DCHECK(opcode == kA64Tbz3rht || opcode == kA64Tbnz3rht)"
  let new_lir := some lirs.length
  let lirs := lirs ++ [RawLIR dalvik_offset kA64B2ct
    (if opcode == .insn kA64Tbz3rht then env.kArmCondEq else env.kArmCondNe) 0 0 0 0 targetLIR]
  let lirs ← InsertLIRAfter lirs (some p) new_lir
  let lir ← getLIR lirs (some p)
  let lirs ← updLIR lirs new_lir fun l =>
    { l with offset := wrap32 (lir.offset + lir.flags.size),
             flags := { l.flags with generation := generation,
                                     fixup := (EncodingMap kA64B2ct).fixup,
                                     size := (EncodingMap kA64B2ct).size } }
  let new ← getLIR lirs new_lir
  let offset_adjustment := offset_adjustment + new.flags.size
  -- lir no longer pcrel, unlink and link in new_lir.
  let m ← ReplaceFixup { m with lirs := lirs } loc.prev_lir (some p) new_lir
  let new ← getLIR m.lirs new_lir
  pure (m, { offset_adjustment := offset_adjustment, res := .kRetryAll,
             prev_lir := new_lir, lir := new.pcrel_next }, true)

/-- The case `kFixupTBxZ` of the resolver. The last component of the result tells whether
the case ended with `continue` (the branch was replaced by two instructions and the locals
`prev_lir` and `lir` are already set) rather than `break`. -/
def fixupTBxZ (env : Env) (generation : Nat) (m : Mir2Lir) (loc : FixupLocals) (p : Nat) :
    Except Fault (Mir2Lir × FixupLocals × Bool) := do
  let lir ← getLIR m.lirs (some p)
  let opcode := lir.opcode
  let reg := toU32 (lir.operands.get 0)
  let imm := lir.operands.get 1
  DCHECK env.toBuildConfig (IS_WIDE opcode == env.Is64Bit reg)
    "DCHECK_EQ(IS_WIDE(opcode), reg.Is64Bit())"
  DCHECK env.toBuildConfig (decide (imm < 64)) "DCHECK_LT(imm, 64)"
  let lirs ← tbxzCheckWidth env m.lirs lir p
  -- Fix-up branch offset.
  let lir ← getLIR lirs (some p)
  let delta ← fixupDelta env lirs lir loc.offset_adjustment
  -- Check if branch offset can be encoded in tbz/tbnz.
  if !IS_SIGNED_IMM14 (asr delta 2) then
    tbxzWiden env generation m loc p opcode lirs lir
  else
    let lirs ← updLIR lirs (some p) fun l =>
      { l with operands := l.operands.set 2 (asr delta 2) }
    pure ({ m with lirs := lirs }, loc, false)

/-- The signed distance `delta` of the case `kFixupAdr`, from one of three sources: the
target record, the embedded data table named by operand 2, or operand 1 itself. -/
def adrDelta (m : Mir2Lir) (lir : LIR) (offset_adjustment : Int) : Except Fault Int :=
  if lir.target != none then do
    let target_lir ← getLIR m.lirs lir.target
    let target_offs := wrap32 (toU32
      (if target_lir.flags.generation == lir.flags.generation then 0
       else offset_adjustment) + target_lir.offset)
    pure (wrapI32 ((target_offs : Int) - (lir.offset : Int)))
  else if lir.operands.get 2 ≥ 0 then
    match m.embedded_data[(lir.operands.get 2).toNat]? with
    | none => throw .nullDeref
    | some tab_offset =>
      pure (wrapI32 ((tab_offset : Int) + offset_adjustment - (lir.offset : Int)))
  else
    -- No fixup: this usage allows to retrieve the current PC.
    pure (lir.operands.get 1)

/-- The case `kFixupAdr` of the resolver. -/
def fixupAdr (m : Mir2Lir) (loc : FixupLocals) (p : Nat) :
    Except Fault (Mir2Lir × FixupLocals) := do
  let lir ← getLIR m.lirs (some p)
  let delta ← adrDelta m lir loc.offset_adjustment
  if !IS_SIGNED_IMM21 delta then
    throw (.fatal "Jump range above 1MB in kFixupAdr")
  else
    let lirs ← updLIR m.lirs (some p) fun l => { l with operands := l.operands.set 1 delta }
    pure ({ m with lirs := lirs }, loc)

/-- The case `kFixupA53Erratum835769` of the resolver. -/
def fixupA53Erratum835769 (env : Env) (fuel : Nat) (m : Mir2Lir) (loc : FixupLocals) (p : Nat) :
    Except Fault (Mir2Lir × FixupLocals) := do
  let lir ← getLIR m.lirs (some p)
  if env.NeedFixCortexA53_835769 then
    -- Check that this is a 64-bit multiply-accumulate.
    if IS_WIDE lir.opcode then
      let prev_insn ← GetPrevEmittingLIR env.toBuildConfig m.lirs fuel (some p)
      if prev_insn == none then pure (m, loc)
      else
        let prev ← getLIR m.lirs prev_insn
        match UNWIDE prev.opcode with
        | .pseudo _ => throw .nullDeref
        | .insn prev_op =>
          let prev_insn_flags := (EncodingMap prev_op).flags
          -- Check that the instruction preceding the multiply-accumulate is a load or store.
          if isLoadOrStore env prev_insn_flags then
            -- insert a NOP between the load/store and the multiply-accumulate.
            let new_lir := some m.lirs.length
            let lirs := m.lirs ++ [RawLIR lir.dalvik_offset kA64Nop0 0 0 0 0 0 none]
            let lirs ← updLIR lirs new_lir fun l =>
              { l with offset := lir.offset,
                       flags := { l.flags with fixup := kFixupNone,
                                               size := (EncodingMap kA64Nop0).size } }
            let lirs ← InsertLIRBefore lirs (some p) new_lir
            let new ← getLIR lirs new_lir
            let lirs ← updLIR lirs (some p) fun l =>
              { l with offset := wrap32 (l.offset + new.flags.size) }
            pure ({ m with lirs := lirs },
              { loc with offset_adjustment := loc.offset_adjustment + new.flags.size,
                         res := .kRetryAll })
          else pure (m, loc)
    else pure (m, loc)
  else pure (m, loc)

/-- The statement `switch (lir->flags.fixup)` of the inner loop, for the chain node `p`. The
last component of the result tells whether the case ended with `continue`. -/
def fixupSwitch (env : Env) (fuel generation : Nat) (m : Mir2Lir) (loc : FixupLocals) (p : Nat)
    (fixup : FixupKind) : Except Fault (Mir2Lir × FixupLocals × Bool) :=
  match fixup with
  | kFixupLabel | kFixupNone | kFixupVLoad => pure (m, loc, false)
  | kFixupT1Branch => do
    let (m, loc) ← fixupT1Branch env m loc p
    pure (m, loc, false)
  | kFixupLoad | kFixupCBxZ | kFixupCondBranch => do
    let (m, loc) ← fixupCondBranch env m loc p
    pure (m, loc, false)
  | kFixupTBxZ => fixupTBxZ env generation m loc p
  | kFixupAdr => do
    let (m, loc) ← fixupAdr m loc p
    pure (m, loc, false)
  | kFixupA53Erratum835769 => do
    let (m, loc) ← fixupA53Erratum835769 env fuel m loc p
    pure (m, loc, false)
  | kFixupOther => throw (.fatal "Unexpected case")

/-- The body of the inner loop `while (lir != nullptr)` of `AssembleLIR`, for the chain
node `p`: the offset of the node is advanced, its generation is set, the case of its
fixup kind is run, and the walk moves to the next node of the chain. -/
def fixupStep (env : Env) (fuel generation : Nat) (m : Mir2Lir) (loc : FixupLocals) (p : Nat) :
    Except Fault (Mir2Lir × FixupLocals) := do
  let lirs ← updLIR m.lirs (some p) fun l =>
    { l with offset := wrap32 (l.offset + toU32 loc.offset_adjustment),
             flags := { l.flags with generation := generation } }
  let m := { m with lirs := lirs }
  let lir ← getLIR m.lirs (some p)
  let r ← fixupSwitch env fuel generation m loc p lir.flags.fixup
  if r.2.2 then pure (r.1, r.2.1)
  else do
    let lir ← getLIR r.1.lirs (some p)
    pure (r.1, { r.2.1 with prev_lir := some p, lir := lir.pcrel_next })

/-- The inner loop `while (lir != nullptr)` of `AssembleLIR`: one pass over the fixup
chain. -/
def fixupPass (env : Env) (generation : Nat) :
    Nat → Mir2Lir → FixupLocals → Except Fault (Mir2Lir × FixupLocals)
  | fuel, m, loc =>
    match loc.lir with
    | none => .ok (m, loc)
    | some p =>
      match fuel with
      | 0 => .error .outOfFuel
      | fuel + 1 =>
        match fixupStep env (fuel + 1) generation m loc p with
        | .error e => .error e
        | .ok (m, loc) => fixupPass env generation fuel m loc

/-- The loop `while (true)` of `AssembleLIR`. The arguments are the number of rounds the
loop may still make, the fuel of the walks, the state, and the locals `generation`,
`assembler_retries` and `starting_offset`; the result is the state and `starting_offset`
at the `break`. -/
def fixupLoop (env : Env) (fuel : Nat) :
    Nat → Mir2Lir → Nat → Nat → Nat → Except Fault (Mir2Lir × Nat)
  | 0, _, _, _, _ => .error .outOfFuel
  | rounds + 1, m, generation, assembler_retries, starting_offset =>
    let generation := generation ^^^ 1
    match fixupPass env generation fuel m
        { offset_adjustment := 0, res := .kSuccess, prev_lir := none, lir := m.first_fixup_ } with
    | .error e => .error e
    | .ok (m, loc) =>
      if loc.res = .kSuccess then
        match DCHECK env.toBuildConfig (loc.offset_adjustment == 0)
            "DCHECK_EQ(offset_adjustment, 0)" with
        | .error e => .error e
        | .ok _ => .ok (m, starting_offset)
      else
        let assembler_retries := assembler_retries + 1
        if assembler_retries > env.MAX_ASSEMBLER_RETRIES then
          .error (.fatal "Assembler error - too many retries")
        else
          let starting_offset := wrap32 (starting_offset + toU32 loc.offset_adjustment)
          let m := { m with data_offset_ := ALIGNED_DATA_OFFSET starting_offset }
          let m := AssignDataOffsets env m
          fixupLoop env fuel rounds m generation assembler_retries starting_offset

/-- The function `Arm64Mir2Lir::AssembleLIR` up to the end of its fixup loop: the state and
`starting_offset` when the loop is left. -/
def AssembleLIR_resolve (env : Env) (fuel : Nat) (m : Mir2Lir) : Except Fault (Mir2Lir × Nat) := do
  let (m, starting_offset) ← LinkFixupInsns env fuel m m.first_lir_insn_ m.last_lir_insn_ 0
  let m := { m with data_offset_ := ALIGNED_DATA_OFFSET starting_offset }
  let m := AssignDataOffsets env m
  fixupLoop env fuel (env.MAX_ASSEMBLER_RETRIES + 2) m 0 0 starting_offset

/-- The function `Arm64Mir2Lir::AssembleLIR`, up to the installation of the literal pools:
the fixups are resolved and the code buffer is built (resized to `starting_offset` and
filled by `EncodeLIRs`). -/
def AssembleLIR (env : Env) (fuel : Nat) (m : Mir2Lir) : Except Fault Mir2Lir := do
  let (m, starting_offset) ← AssembleLIR_resolve env fuel m
  -- Build the CodeBuffer.
  DCHECK env.toBuildConfig (decide (m.data_offset_ ≤ m.total_size_))
    "DCHECK_LE(data_offset_, total_size_)"
  let (lirs, out, write_pos) ← EncodeLIRs env.toBuildConfig fuel m.lirs 0 m.first_lir_insn_
  DCHECK env.toBuildConfig (wrap32 write_pos == starting_offset)
    "DCHECK_EQ(static_cast<CodeOffset>(write_pos - &code_buffer_[0]), starting_offset)"
  let code_buffer_ := (out ++ List.replicate (starting_offset - out.length) 0).take starting_offset
  DCHECK env.toBuildConfig (m.data_offset_ == ALIGNED_DATA_OFFSET code_buffer_.length)
    "DCHECK_EQ(data_offset_, ALIGNED_DATA_OFFSET(code_buffer_.size()))"
  pure { m with lirs := lirs, code_buffer_ := code_buffer_ }


/-! ## Concrete inputs used to evaluate the definitions -/

deriving instance DecidableEq for Except

/-- A build without debug checks (`NDEBUG`). -/
def releaseConfig : BuildConfig :=
  ⟨false, false, false, false, fun _ => false, fun _ => false, fun _ => false,
    fun _ => false, fun _ => false⟩

/-- A build with `DCHECK`s, in which the register queries accept every operand. -/
def debugConfig : BuildConfig :=
  ⟨true, true, false, false, fun _ => false, fun _ => false, fun _ => false,
    fun _ => false, fun _ => false⟩

/-- A record with the given opcode and operands `operands[0..3]`, everything else zero. -/
def mkLIR (opcode : Opcode) (op0 op1 op2 op3 : Int) : LIR :=
  ⟨0, 0, opcode, none, none, none, ⟨false, 0, false, 0, kFixupNone⟩, none,
    ⟨op0, op1, op2, op3, 0⟩⟩

/-- The spec's formula for a simple field: "mask the operand to (end-start+1) bits, shift
left by start". -/
def specFieldValue (operand start end_ : Nat) : Nat :=
  (operand % 2 ^ (end_ - start + 1)) <<< start

/-- Bits `[end:start]` of a word. -/
def readField (word start end_ : Nat) : Nat :=
  (word >>> start) % 2 ^ (end_ - start + 1)

/-- The signed value of the low `n + 1` bits of `v` (sign extension from bit `n`). -/
def signExtend (n : Nat) (v : Nat) : Int :=
  if v % 2 ^ (n + 1) < 2 ^ n then ((v % 2 ^ (n + 1) : Nat) : Int)
  else ((v % 2 ^ (n + 1) : Nat) : Int) - ((2 ^ (n + 1) : Nat) : Int)

/-- The 21-bit immediate `immhi:immlo` of an `adr` word: bits `[23:5]` above bits
`[30:29]`. -/
def adrImm (word : Nat) : Nat :=
  (readField word 5 23) <<< 2 ||| readField word 29 30

/-- A field descriptor is simple when its kind is a register kind or `kFmtBitBlt`. -/
def FieldLoc.isSimple (loc : FieldLoc) : Bool := decide (loc.kind.val ≤ kFmtBitBlt.val)

/-- The word bits `[end:start]` of a field, as a mask. -/
def FieldLoc.mask (loc : FieldLoc) : Nat :=
  (2 ^ (loc.end_ + 1).toNat - 1) - (2 ^ loc.start.toNat - 1)

/-- Every simple field of the entry lies on zero bits of both skeletons. -/
def skeletonsClear (e : A64EncodingMap) : Bool :=
  e.field_loc.all fun loc =>
    !loc.isSimple || (e.wskeleton &&& loc.mask == 0 && e.xskeleton &&& loc.mask == 0)

/-- The value that a round of the operand loop ORs into the word for a field of the given
descriptor (0 for `kFmtSkip` and `kFmtUnused`, which add nothing). -/
def argValue (loc : FieldLoc) (operand : Nat) : Nat :=
  if loc.kind.val ≤ kFmtBitBlt.val then fieldValue operand loc.start loc.end_
  else
    match loc.kind with
    | kFmtShift | kFmtExtend => shiftExtendValue operand
    | kFmtImm21 => imm21Value operand
    | kFmtImm6Shift => imm6ShiftValue operand
    | _ => 0

/-- The word bits that a field of the given descriptor can set, as a mask: `[end:start]`
for a simple field, `[23:21]` and `[15:10]` for `kFmtShift` and `kFmtExtend`, `[30:29]` and
`[23:5]` for `kFmtImm21`, bit 31 and `[23:19]` for `kFmtImm6Shift`. -/
def FieldLoc.touchMask (loc : FieldLoc) : Nat :=
  if loc.kind.val ≤ kFmtBitBlt.val then loc.mask
  else
    match loc.kind with
    | kFmtShift | kFmtExtend => 0x00e0fc00
    | kFmtImm21 => 0x60ffffe0
    | kFmtImm6Shift => 0x80f80000
    | _ => 0

/-- The mask of field `j` of an entry, 0 for the field `skip`. -/
def maskAt (e : A64EncodingMap) (skip j : Nat) : Nat :=
  if j = skip then 0
  else
    match e.field_loc[j]? with
    | some loc => loc.touchMask
    | none => 0

/-- A simple field has a range `0 ≤ start ≤ end ≤ 30`. -/
def FieldLoc.rangeOk (loc : FieldLoc) : Bool :=
  !loc.isSimple || (decide (0 ≤ loc.start) && decide (loc.start ≤ loc.end_)
    && decide (loc.end_ ≤ 30))

/-- Field `i` of the entry, when simple, is reached by the operand loop (no field before it
is `kFmtUnused`) and owns its bits: on the bits of its range the skeleton chosen by `wide`
is zero and no other field of the entry can set them; moreover every simple field of the
entry has a range `0 ≤ start ≤ end ≤ 30`. -/
def fieldIsolated (e : A64EncodingMap) (wide : Bool) (i : Nat) : Bool :=
  match e.field_loc[i]? with
  | none => true
  | some loc =>
    !loc.isSimple ||
      (e.field_loc.all FieldLoc.rangeOk &&
       (e.field_loc.take i).all (fun l => l.kind != kFmtUnused) &&
       ((if wide then e.xskeleton else e.wskeleton) ||| maskAt e i 0 ||| maskAt e i 1
          ||| maskAt e i 2 ||| maskAt e i 3) &&& loc.mask == 0)

/-- Every simple field of the entry is isolated, for both skeletons; `skip` excepts field 2
of the wide form. -/
def entryIsolated (e : A64EncodingMap) (skip : Bool) : Bool :=
  [false, true].all fun wide => (List.range 4).all fun i =>
    (skip && wide && i == 2) || fieldIsolated e wide i

/-- The records that a walk along `next` visits from `p` until it reaches `e`:
`NextSeg lirs e p idxs` holds when these are the records `idxs`, in this order. -/
def NextSeg (lirs : List LIR) (e : Option Nat) : Option Nat → List Nat → Prop
  | p, [] => p = e
  | p, i :: rest =>
    p ≠ e ∧ p = some i ∧ ∃ lir, lirs[i]? = some lir ∧ NextSeg lirs e lir.next rest

/-- The instruction list that starts at `p`: the records reached along `next` until
`nullptr`. -/
def NextPath (lirs : List LIR) (p : Option Nat) (idxs : List Nat) : Prop :=
  NextSeg lirs none p idxs

/-- A record for which `EncodeLIRs` stores a word: not a pseudo-op and not flagged
`is_nop`. -/
def emits (lir : LIR) : Bool := !IsPseudoLirOp (UNWIDE lir.opcode) && !lir.flags.is_nop

/-- The test `emits` for the record at an index of the arena. -/
def emitsAt (lirs : List LIR) (i : Nat) : Bool :=
  match lirs[i]? with
  | some lir => emits lir
  | none => false

/-- A record without its offset. -/
def eraseOffset (lir : LIR) : LIR := { lir with offset := 0 }

/-- Two arenas that agree up to the offsets of their records. -/
def EqOff (a b : List LIR) : Prop := a.map eraseOffset = b.map eraseOffset

/-- The word that the operand encoder builds for the record at index `i` (0 when there is
none). -/
def wordAt (cfg : BuildConfig) (lirs : List LIR) (i : Nat) : Nat :=
  match lirs[i]? with
  | none => 0
  | some r =>
    match r.opcode.base with
    | .pseudo _ => 0
    | .insn op =>
      match encodeInsn cfg r op with
      | .ok w => w
      | .error _ => 0

/-- The bytes that the records `idxs` contribute when the word of record `i` is
`word i`. -/
def emittedBytes (lirs : List LIR) (word : Nat → Nat) (idxs : List Nat) : List Nat :=
  ((idxs.filter (emitsAt lirs)).map fun i => wordBytes (word i)).flatten

/-- A record `WIDE(kA64Nop0)` alone in its arena. -/
def wideNopList : List LIR := [mkLIR (WIDE kA64Nop0) 0 0 0 0]


/-! ## Notions used to state the properties of the resolver -/

/-- An environment of the resolver on top of a build configuration: safe optimizations
enabled, a target that needs the Cortex-A53 fix, 50 retries, and data offsets that are left
alone. -/
def mkEnv (cfg : BuildConfig) : Env :=
  { toBuildConfig := cfg, safe_optimizations_disabled := false,
    NeedFixCortexA53_835769 := true, MAX_ASSEMBLER_RETRIES := 50,
    EncodeLogicalImmediate := fun _ v => (v : Int), As32BitReg := fun r => r,
    kPseudoPseudoAlign4 := -3, kArmCondEq := 0, kArmCondNe := 1,
    flagIsLoad := fun f => f == IS_LOAD || f == IS_LOAD_OFF || f == IS_LOADX,
    flagIsStore := fun f => f == IS_STORE || f == IS_STORE_OFF || f == IS_STOREX,
    assignData := fun m => m }

/-- The size that `LinkFixupInsns` leaves in a record not flagged `is_nop`: the size is set
again when the record has a fixup kind (to the size of the table entry for a real opcode,
to 0 for a pseudo-op) and is kept otherwise. -/
def linkedSize (lir : LIR) : Nat :=
  if lir.flags.fixup != kFixupNone then
    match UNWIDE lir.opcode with
    | .insn op => (EncodingMap op).size
    | .pseudo _ => 0
  else lir.flags.size

/-- The contribution of the record at index `i` to the offsets that `LinkFixupInsns`
assigns: nothing when the record is flagged `is_nop`, its size `linkedSize` otherwise. -/
def sizeAt (lirs : List LIR) (i : Nat) : Nat :=
  match lirs[i]? with
  | some l => if l.flags.is_nop then 0 else linkedSize l
  | none => 0

/-- The sum of the sizes `linkedSize` of the records `idxs` that are not flagged `is_nop`. -/
def sizeSum (lirs : List LIR) (idxs : List Nat) : Nat := (idxs.map (sizeAt lirs)).sum

/-- A record without its link in the fixup chain. -/
def erasePcrel (lir : LIR) : LIR := { lir with pcrel_next := none }

/-- The fixup kind that `LinkFixupInsns` leaves in a record that had one: the kind of the
table entry for a real opcode, `kFixupLabel` for a pseudo-op. -/
def linkedFixup (lir : LIR) : FixupKind :=
  match UNWIDE lir.opcode with
  | .insn op => (EncodingMap op).fixup
  | .pseudo _ => kFixupLabel

/-- The record that `LinkFixupInsns` leaves for a record with a fixup kind, not flagged
`is_nop`, that it meets when the running offset is `offset`. -/
def linkedRec (r : LIR) (offset : Nat) : LIR :=
  { r with offset := offset,
           flags := { r.flags with size := linkedSize r, fixup := linkedFixup r,
                                   use_def_invalid := true },
           pcrel_next := none }

/-- The check `DCHECK_NE(opcode, kPseudoPseudoAlign4)` of `LinkFixupInsns` does not stop
the record. -/
def alignOk (env : Env) (r : LIR) : Prop :=
  ∀ c, r.opcode.base = .pseudo c → env.kEnableDChecks = true → c ≠ env.kPseudoPseudoAlign4

/-- What `LinkFixupInsns` makes of a record it meets when the running offset is `offset`:
the record `linkedRec` when it has a fixup kind and is not flagged `is_nop`, the record
itself otherwise. -/
def linkResult (r : LIR) (offset : Nat) : LIR :=
  if r.flags.is_nop = false ∧ r.flags.fixup ≠ kFixupNone then linkedRec r offset else r

/-- The sum of `flags.size` over the records `idxs` that are not flagged `is_nop`. -/
def flagsSizeSum (lirs : List LIR) (idxs : List Nat) : Nat :=
  (idxs.map fun i =>
    match lirs[i]? with
    | some l => if l.flags.is_nop then 0 else l.flags.size
    | none => 0).sum

/-- The label that ends `branchStream`. -/
def branchStreamLabel : LIR :=
  ⟨0, 0, ⟨.pseudo (-1), false⟩, none, some 1, none, ⟨false, 0, false, 0, kFixupLabel⟩, none,
    ⟨0, 0, 0, 0, 0⟩⟩

/-- A stream of three records, a conditional branch to the label at its end, a `ret` and
the label, in a state before `AssembleLIR`. -/
def branchStream : Mir2Lir :=
  { lirs := [⟨0, 0, kA64B2ct, some 1, none, some 2, ⟨false, 4, false, 0, kFixupLabel⟩, none,
                ⟨0, 0, 0, 0, 0⟩⟩,
             ⟨0, 0, kA64Ret, some 2, some 0, none, ⟨false, 4, false, 0, kFixupNone⟩, none,
                ⟨0, 0, 0, 0, 0⟩⟩,
             branchStreamLabel],
    first_lir_insn_ := some 0, last_lir_insn_ := some 2, first_fixup_ := none,
    data_offset_ := 0, total_size_ := 0, code_buffer_ := [], embedded_data := [] }

/-- The conditional branch of `branchStream` after the fixup loop. -/
def branchResolved : LIR :=
  ⟨0, 0, kA64B2ct, some 1, none, some 2, ⟨false, 4, true, 1, kFixupCondBranch⟩, some 2,
    ⟨0, 2, 0, 0, 0⟩⟩

/-- The state `branchStream` after `LinkFixupInsns`. -/
def branchStreamLinked : Mir2Lir :=
  { branchStream with
    lirs := [⟨0, 0, kA64B2ct, some 1, none, some 2, ⟨false, 4, true, 0, kFixupCondBranch⟩,
                some 2, ⟨0, 0, 0, 0, 0⟩⟩,
             ⟨0, 0, kA64Ret, some 2, some 0, none, ⟨false, 4, false, 0, kFixupNone⟩, none,
                ⟨0, 0, 0, 0, 0⟩⟩,
             ⟨8, 0, ⟨.pseudo (-1), false⟩, none, some 1, none,
                ⟨false, 0, true, 0, kFixupLabel⟩, none, ⟨0, 0, 0, 0, 0⟩⟩],
    first_fixup_ := some 0 }

/-- The state `branchStream` at the exit of the fixup loop. -/
def branchStreamResolved : Mir2Lir :=
  { branchStream with
    lirs := [branchResolved,
             ⟨0, 0, kA64Ret, some 2, some 0, none, ⟨false, 4, false, 0, kFixupNone⟩, none,
                ⟨0, 0, 0, 0, 0⟩⟩,
             ⟨8, 0, ⟨.pseudo (-1), false⟩, none, some 1, none,
                ⟨false, 0, true, 1, kFixupLabel⟩, none, ⟨0, 0, 0, 0, 0⟩⟩],
    first_fixup_ := some 0 }

/-- The displacement `(target.offset - lir.offset) >> 2` of a record, from the offsets
stored in the arena (the difference is taken in `uint32_t` and read as `int32_t`, the shift
is arithmetic); `none` when the record has no target in the arena. -/
def displacement (lirs : List LIR) (lir : LIR) : Option Int :=
  match lir.target with
  | none => none
  | some t =>
    match lirs[t]? with
    | none => none
    | some target => some (asr (wrapI32 ((target.offset : Int) - (lir.offset : Int))) 2)

/-- A record holds the displacement of its stored offsets in the operand slot of its fixup
kind: slot 1 for `kFixupCondBranch`, `kFixupCBxZ` and `kFixupLoad`, slot 0 for
`kFixupT1Branch`, slot 2 for `kFixupTBxZ`; nothing is asked of the other kinds. -/
def HoldsDisplacement (lirs : List LIR) (lir : LIR) : Prop :=
  match lir.flags.fixup with
  | kFixupCondBranch | kFixupCBxZ | kFixupLoad =>
    displacement lirs lir = some (lir.operands.get 1)
  | kFixupT1Branch => displacement lirs lir = some (lir.operands.get 0)
  | kFixupTBxZ => displacement lirs lir = some (lir.operands.get 2)
  | _ => True

/-- The nodes of the fixup chain that starts at `p`: the records reached from `p` along
`pcrel_next`. -/
inductive InFixupChain (lirs : List LIR) : Option Nat → Nat → Prop where
  | head {i : Nat} {r : LIR} : lirs[i]? = some r → InFixupChain lirs (some i) i
  | tail {j i : Nat} {r : LIR} :
    lirs[j]? = some r → InFixupChain lirs r.pcrel_next i → InFixupChain lirs (some j) i

/-- The second record has the offset, chain link, target and flags of the first. -/
def SameLinks (r r1 : LIR) : Prop :=
  r1.offset = r.offset ∧ r1.pcrel_next = r.pcrel_next ∧ r1.target = r.target ∧
    r1.flags = r.flags

/-- What a pass without retry keeps of an arena: its length and, for every record, the
chain link, the target, the fixup kind, the offset as a `uint32_t`, and the displacement
property once it holds. -/
def PassKeeps (lirs lirs' : List LIR) : Prop :=
  lirs'.length = lirs.length ∧
  ∀ (j : Nat) (r : LIR), lirs[j]? = some r →
    ∃ r' : LIR, lirs'[j]? = some r' ∧ r'.pcrel_next = r.pcrel_next ∧
    r'.target = r.target ∧ r'.flags.fixup = r.flags.fixup ∧
    r'.offset % 4294967296 = r.offset % 4294967296 ∧
    (HoldsDisplacement lirs r → HoldsDisplacement lirs' r')


/-! ## Further concrete streams -/

/-- A stream of three records in a state before `AssembleLIR`: an unconditional branch to
the label that follows it, the label, and a `ret`. -/
def elideStream : Mir2Lir :=
  { lirs := [⟨0, 0, kA64B1t, some 1, none, some 1, ⟨false, 4, false, 0, kFixupLabel⟩, none,
                ⟨0, 0, 0, 0, 0⟩⟩,
             ⟨0, 0, ⟨.pseudo (-1), false⟩, some 2, some 0, none,
                ⟨false, 0, false, 0, kFixupLabel⟩, none, ⟨0, 0, 0, 0, 0⟩⟩,
             ⟨0, 0, kA64Ret, none, some 1, none, ⟨false, 4, false, 0, kFixupNone⟩, none,
                ⟨0, 0, 0, 0, 0⟩⟩],
    first_lir_insn_ := some 0, last_lir_insn_ := some 2, first_fixup_ := none,
    data_offset_ := 0, total_size_ := 8, code_buffer_ := [], embedded_data := [] }

/-- An environment that allows no retry at all. -/
def noRetryEnv : Env := { mkEnv releaseConfig with MAX_ASSEMBLER_RETRIES := 0 }

/-- The state `elideStream` after `LinkFixupInsns`. -/
def elideStreamLinked : Mir2Lir :=
  { elideStream with
    lirs := [⟨0, 0, kA64B1t, some 1, none, some 1, ⟨false, 4, true, 0, kFixupT1Branch⟩, some 1,
                ⟨0, 0, 0, 0, 0⟩⟩,
             ⟨4, 0, ⟨.pseudo (-1), false⟩, some 2, some 0, none,
                ⟨false, 0, true, 0, kFixupLabel⟩, none, ⟨0, 0, 0, 0, 0⟩⟩,
             ⟨0, 0, kA64Ret, none, some 1, none, ⟨false, 4, false, 0, kFixupNone⟩, none,
                ⟨0, 0, 0, 0, 0⟩⟩],
    first_fixup_ := some 0 }

/-- The state `elideStreamLinked` after the first pass of the fixup loop, which elides the
branch. -/
def elideStreamElided : Mir2Lir :=
  { elideStream with
    lirs := [⟨0, 0, kA64B1t, some 1, none, some 1, ⟨true, 4, true, 1, kFixupNone⟩, some 1,
                ⟨1, 0, 0, 0, 0⟩⟩,
             ⟨0, 0, ⟨.pseudo (-1), false⟩, some 2, some 0, none,
                ⟨false, 0, true, 1, kFixupLabel⟩, none, ⟨0, 0, 0, 0, 0⟩⟩,
             ⟨0, 0, kA64Ret, none, some 1, none, ⟨false, 4, false, 0, kFixupNone⟩, none,
                ⟨0, 0, 0, 0, 0⟩⟩],
    first_fixup_ := some 0 }

/-! ## Notions used to state the properties of a pass over the fixup chain -/

/-- A computation that does not end in a call of `LOG(FATAL)`. -/
def FatalFree {α : Type} (x : Except Fault α) : Prop := ∀ s, x ≠ .error (.fatal s)

/-- The arena with the record at `i` replaced by its image under `f` (the arena itself when
it has no record `i`): what a write through the pointer `i` leaves. -/
def updAt (lirs : List LIR) (i : Nat) (f : LIR → LIR) : List LIR :=
  match lirs[i]? with
  | some r => lirs.set i (f r)
  | none => lirs

/-- A chain node as the body of the inner loop of `AssembleLIR` leaves it before the
`switch`: `lir->offset += offset_adjustment; lir->flags.generation = generation`. -/
def visitRec (r : LIR) (offset_adjustment : Int) (generation : Nat) : LIR :=
  { r with offset := wrap32 (r.offset + toU32 offset_adjustment),
           flags := { r.flags with generation := generation } }

/-- The state in which the `switch` of the inner loop runs for the chain node `p`. -/
def visitState (m : Mir2Lir) (offset_adjustment : Int) (generation p : Nat) : Mir2Lir :=
  { m with lirs := updAt m.lirs p fun r => visitRec r offset_adjustment generation }

/-- A pass over the chain that starts in the state `(m, loc)` with the given fuel comes,
after some rounds of its loop that all succeed, to the state `(m', loc')` with the fuel
`fuel'`. -/
inductive PassReaches (env : Env) (generation : Nat) :
    Nat → Mir2Lir → FixupLocals → Nat → Mir2Lir → FixupLocals → Prop where
  | here (fuel : Nat) (m : Mir2Lir) (loc : FixupLocals) :
    PassReaches env generation fuel m loc fuel m loc
  | step {fuel fuel' p : Nat} {m m1 m' : Mir2Lir} {loc loc1 loc' : FixupLocals} :
    loc.lir = some p → fixupStep env (fuel + 1) generation m loc p = .ok (m1, loc1) →
    PassReaches env generation fuel m1 loc1 fuel' m' loc' →
    PassReaches env generation (fuel + 1) m loc fuel' m' loc'

/-- The chain node `p`, visited in the state `(m, loc)`, is out of range for its kind:
`delta >> 2` is no signed 26-bit value for `kFixupT1Branch`, no signed 19-bit value for
`kFixupCondBranch`, `kFixupCBxZ` and `kFixupLoad`, or `delta` is no signed 21-bit value for
`kFixupAdr`; `msg` is the message of the fatal error of the case. -/
def RangeViolation (env : Env) (generation : Nat) (m : Mir2Lir) (loc : FixupLocals) (p : Nat)
    (msg : String) : Prop :=
  ∃ (r : LIR) (d : Int), m.lirs[p]? = some r ∧
    ((r.flags.fixup = kFixupT1Branch ∧
        fixupDelta env (visitState m loc.offset_adjustment generation p).lirs
          (visitRec r loc.offset_adjustment generation) loc.offset_adjustment = .ok d ∧
        IS_SIGNED_IMM26 (asr d 2) = false ∧ msg = "Invalid jump range in kFixupT1Branch") ∨
     ((r.flags.fixup = kFixupCondBranch ∨ r.flags.fixup = kFixupCBxZ ∨
          r.flags.fixup = kFixupLoad) ∧
        fixupDelta env (visitState m loc.offset_adjustment generation p).lirs
          (visitRec r loc.offset_adjustment generation) loc.offset_adjustment = .ok d ∧
        IS_SIGNED_IMM19 (asr d 2) = false ∧ msg = "Invalid jump range in kFixupLoad") ∨
     (r.flags.fixup = kFixupAdr ∧
        adrDelta (visitState m loc.offset_adjustment generation p)
          (visitRec r loc.offset_adjustment generation) loc.offset_adjustment = .ok d ∧
        IS_SIGNED_IMM21 d = false ∧ msg = "Jump range above 1MB in kFixupAdr"))

/-- A linked stream whose conditional branch is 2 MiB before its target label. -/
def farStream : Mir2Lir :=
  { lirs := [⟨0, 0, kA64B2ct, some 1, none, some 1, ⟨false, 4, true, 0, kFixupCondBranch⟩,
                some 1, ⟨0, 0, 0, 0, 0⟩⟩,
             ⟨2097152, 0, ⟨.pseudo (-1), false⟩, none, some 0, none,
                ⟨false, 0, true, 0, kFixupLabel⟩, none, ⟨0, 0, 0, 0, 0⟩⟩],
    first_lir_insn_ := some 0, last_lir_insn_ := some 1, first_fixup_ := some 0,
    data_offset_ := 0, total_size_ := 0, code_buffer_ := [], embedded_data := [] }

/-! ## The list and chain operations of the resolver, in closed form -/

/-- The arena after `InsertLIRAfter(current_lir, new_lir)`. -/
def insertedAfter (lirs : List LIR) (a b : Nat) (next : Option Nat) : List LIR :=
  let l2 := updAt (updAt lirs b fun l => { l with prev := some a, next := next }) a
    fun l => { l with next := some b }
  match next with
  | none => l2
  | some q => updAt l2 q fun l => { l with prev := some b }

/-- The arena after `InsertLIRBefore(current_lir, new_lir)`. -/
def insertedBefore (lirs : List LIR) (a b : Nat) (prev : Option Nat) : List LIR :=
  let l2 := updAt (updAt lirs b fun l => { l with prev := prev, next := some a }) a
    fun l => { l with prev := some b }
  match prev with
  | none => l2
  | some q => updAt l2 q fun l => { l with next := some b }

/-- The arena after `ReplaceFixup(prev_lir, orig_lir, new_lir)`. -/
def replacedFixup (lirs : List LIR) (prev_lir : Option Nat) (orig new : Nat)
    (pcrel_next : Option Nat) : List LIR :=
  let l1 := updAt lirs new fun l => { l with pcrel_next := pcrel_next }
  let l2 :=
    match prev_lir with
    | none => l1
    | some c => updAt l1 c fun l => { l with pcrel_next := some new }
  updAt l2 orig fun l => { l with flags := { l.flags with fixup := kFixupNone } }

/-- The arena after the rewriting of an out-of-range `tbz/tbnz` at `p` (the record `r`, in
the arena `lirs`): the record becomes `tst`, a conditional branch is allocated at the end
of the arena, put after `p` in the instruction list and in the place of `p` in the fixup
chain. `opcode` is the opcode of the record when the case was entered. -/
def widenedArena (env : Env) (generation : Nat) (prev_lir : Option Nat) (p : Nat)
    (opcode : Opcode) (lirs : List LIR) (r : LIR) : List LIR :=
  let l1 := updAt lirs p fun l =>
    { l with opcode := if IS_WIDE opcode then WIDE kA64Tst2rl else kA64Tst2rl,
             operands := l.operands.set 1
               (env.EncodeLogicalImmediate (IS_WIDE opcode) (toU64 (intShl1 (r.operands.get 1)))),
             target := none,
             flags := { l.flags with fixup := (EncodingMap kA64Tst2rl).fixup,
                                     size := (EncodingMap kA64Tst2rl).size } }
  let l2 := l1 ++ [RawLIR r.dalvik_offset kA64B2ct
    (if UNWIDE opcode == .insn kA64Tbz3rht then env.kArmCondEq else env.kArmCondNe) 0 0 0 0
    r.target]
  let l3 := insertedAfter l2 p lirs.length r.next
  let l4 := updAt l3 lirs.length fun l =>
    { l with offset := wrap32 (r.offset + (EncodingMap kA64Tst2rl).size),
             flags := { l.flags with generation := generation,
                                     fixup := (EncodingMap kA64B2ct).fixup,
                                     size := (EncodingMap kA64B2ct).size } }
  replacedFixup l4 prev_lir p lirs.length r.pcrel_next

/-- The record of a `tbz/tbnz` after the checks of its bit index: in a debug build a wide
record with a bit index below 32 is made narrow. -/
def tbxzNarrowed (env : Env) (r : LIR) : LIR :=
  if r.operands.get 1 ≥ 32 then r
  else if env.kIsDebugBuild && IS_WIDE r.opcode then
    { r with opcode := ⟨UNWIDE r.opcode, false⟩,
             operands := r.operands.set 0 (env.As32BitReg (r.operands.get 0)) }
  else r

/-- The arena after the insertion of a `nop` before the multiply-accumulate at `p` (the
record `r`, in the arena `lirs`). -/
def nopInsertedArena (lirs : List LIR) (p : Nat) (r : LIR) : List LIR :=
  let l1 := lirs ++ [RawLIR r.dalvik_offset kA64Nop0 0 0 0 0 0 none]
  let l2 := updAt l1 lirs.length fun l =>
    { l with offset := r.offset,
             flags := { l.flags with fixup := kFixupNone, size := (EncodingMap kA64Nop0).size } }
  let l3 := insertedBefore l2 p lirs.length r.prev
  updAt l3 p fun l => { l with offset := wrap32 (l.offset + (EncodingMap kA64Nop0).size) }

/-! ## The layout of a stream -/

/-- The members of a record on which the layout of the stream depends: its links in the
instruction list and in the fixup chain, its offset, and the flags `is_nop`, `size` and
`fixup`. -/
structure Layout where
  next : Option Nat
  prev : Option Nat
  pcrel_next : Option Nat
  offset : Nat
  is_nop : Bool
  size : Nat
  fixup : FixupKind
  deriving DecidableEq, Repr

/-- The layout members of a record. -/
def LIR.layout (r : LIR) : Layout :=
  ⟨r.next, r.prev, r.pcrel_next, r.offset, r.flags.is_nop, r.flags.size, r.flags.fixup⟩

/-- The layout of an arena: the layout members of the record at every index. -/
def layoutOf (lirs : List LIR) : Nat → Option Layout := fun j => (lirs[j]?).map LIR.layout

/-- The records `idxs` are those met on the walk from `p` to `e` along the link `sel`. -/
def Seg (sel : Layout → Option Nat) (L : Nat → Option Layout) (e : Option Nat) :
    Option Nat → List Nat → Prop
  | p, [] => p = e
  | p, i :: rest => p = some i ∧ ∃ l, L i = some l ∧ Seg sel L e (sel l) rest

/-- The bytes that the record at `i` takes in the stream: its size unless it is flagged
`is_nop`. -/
def lsize (L : Nat → Option Layout) (i : Nat) : Nat :=
  match L i with
  | some l => if l.is_nop then 0 else l.size
  | none => 0

/-- The bytes that the records `idxs` take in the stream. -/
def lsum (L : Nat → Option Layout) (idxs : List Nat) : Nat := (idxs.map (lsize L)).sum

/-- The record at `c` has, once the pending adjustment `d` is added, the offset `acc` as a
`uint32_t`. -/
def OffsetAt (L : Nat → Option Layout) (d acc : Int) (c : Nat) : Prop :=
  ∃ l, L c = some l ∧ l.offset < 4294967296 ∧ ((l.offset : Int) + d - acc) % 4294967296 = 0

/-- Along a list of records, each with a mark that tells whether it is a node of the fixup
chain: every marked record has, once the pending adjustment `d` is added, the offset that
the sizes of the records before it give, starting from `acc`. -/
def MarkedOffs (L : Nat → Option Layout) (d : Int) : List (Nat × Bool) → Int → Prop
  | [], _ => True
  | (i, b) :: rest, acc => (b = true → OffsetAt L d acc i) ∧ MarkedOffs L d rest (acc + lsize L i)

/-- The member `prev` of every record of the list is the record before it (`pv` for the
first). -/
def PrevLinked (L : Nat → Option Layout) : Option Nat → List Nat → Prop
  | _, [] => True
  | pv, i :: rest => (∃ l, L i = some l ∧ l.prev = pv) ∧ PrevLinked L (some i) rest

/-- The marked records of a list, in order. -/
def chainOf (marked : List (Nat × Bool)) : List Nat := (marked.filter Prod.snd).map Prod.fst

/-- The records of a marked list, in order. -/
def insnsOf (marked : List (Nat × Bool)) : List Nat := marked.map Prod.fst

/-- A chain node that is flagged `is_nop` has the kind `kFixupNone`. -/
def NopInert (L : Nat → Option Layout) (marked : List (Nat × Bool)) : Prop :=
  ∀ c l, (c, true) ∈ marked → L c = some l → l.is_nop = true → l.fixup = kFixupNone

/-- The invariant of a pass over the fixup chain, on the layout `L` of an arena of `N`
records. The instruction list is `ma ++ mb`, its marked records are the fixup chain, in
this order; the pass has visited the nodes in `ma` and is about to visit `cur`, the first
node in `mb`, after `prev`, the last node in `ma`. The nodes visited have the offsets that
the sizes of the records before them give, and the others have them once the pending
adjustment `d` is added. -/
structure PassInv (L : Nat → Option Layout) (N : Nat) (first_insn first_fixup : Option Nat)
    (d : Int) (cur prev : Option Nat) (ma mb : List (Nat × Bool)) : Prop where
  insns : Seg Layout.next L none first_insn (insnsOf (ma ++ mb))
  chain : Seg Layout.pcrel_next L none first_fixup (chainOf (ma ++ mb))
  cur_eq : cur = (chainOf mb).head?
  prev_eq : prev = (chainOf ma).getLast?
  prevs : PrevLinked L none (insnsOf (ma ++ mb))
  inert : NopInert L (ma ++ mb)
  visited : MarkedOffs L 0 ma 0
  pending : MarkedOffs L d mb (lsum L (insnsOf ma))
  bound : ∀ j, N ≤ j → L j = none

/-! ## The layouts after the rewriting rounds of a pass -/

/-- The layout after the round that replaces the out-of-range `tbz/tbnz` at `p` (layout
`l`, pending adjustment `d`, predecessor `prev_lir` in the chain) by `tst` and a
conditional branch, which is the new record `n`. -/
def widenedLayout (L : Nat → Option Layout) (n p : Nat) (l : Layout) (d : Int)
    (prev_lir : Option Nat) : Nat → Option Layout := fun j =>
  if j = n then
    some ⟨l.next, some p, l.pcrel_next, wrap32 (wrap32 (l.offset + toU32 d) + 4), false, 4,
      kFixupCondBranch⟩
  else if j = p then
    some ⟨some n, l.prev, l.pcrel_next, wrap32 (l.offset + toU32 d), l.is_nop, 4, kFixupNone⟩
  else if l.next = some j then (L j).map fun x => { x with prev := some n }
  else if prev_lir = some j then (L j).map fun x => { x with pcrel_next := some n }
  else L j

/-- The layout after the round that puts a `nop`, the new record `n`, before the
multiply-accumulate at `p` (layout `l`, pending adjustment `d`). -/
def nopInsertedLayout (L : Nat → Option Layout) (n p : Nat) (l : Layout) (d : Int) :
    Nat → Option Layout := fun j =>
  if j = n then
    some ⟨some p, l.prev, none, wrap32 (l.offset + toU32 d), false, 4, kFixupNone⟩
  else if j = p then
    some { l with prev := some n, offset := wrap32 (wrap32 (l.offset + toU32 d) + 4) }
  else if l.prev = some j then (L j).map fun x => { x with next := some n }
  else L j

/-! ## The invariant of the fixup chain -/

/-- The layout after `LinkFixupInsns` has linked the record `i`, which takes the layout
`li`, behind the last node `c` of the chain (if there is one). -/
def linkedLayout (L : Nat → Option Layout) (i : Nat) (li : Layout) (c : Option Nat) :
    Nat → Option Layout := fun j =>
  if j = i then some li
  else if c = some j then (L j).map fun x => { x with pcrel_next := some i }
  else L j

/-- The invariant of the loop of `LinkFixupInsns`, on the layout `L` of the arena. The
instruction list is `insnsOf ma ++ rest`; the loop has passed the records in `ma`, of
which it has linked the marked ones into the chain, in this order, and is about to visit
`cur`, the first record of `rest`; `offset` is the sum of the sizes of the records passed,
as a `uint32_t`. -/
structure LinkInv (L : Nat → Option Layout) (first_insn first_fixup last_fixup cur : Option Nat)
    (offset : Nat) (ma : List (Nat × Bool)) (rest : List Nat) : Prop where
  insns : Seg Layout.next L none first_insn (insnsOf ma ++ rest)
  cur_eq : cur = rest.head?
  chain : Seg Layout.pcrel_next L none first_fixup (chainOf ma)
  last_eq : chainOf ma ≠ [] → last_fixup = (chainOf ma).getLast?
  prevs : PrevLinked L none (insnsOf ma ++ rest)
  emitting : ∀ c l, (c, true) ∈ ma → L c = some l → l.is_nop = false
  visited : MarkedOffs L 0 ma 0
  offset_lt : offset < 4294967296
  offset_eq : ((offset : Int) - lsum L (insnsOf ma)) % 4294967296 = 0

/-- The invariant of the fixup chain between the passes of the resolver: the instruction
list from `first_lir_insn_` is a doubly linked list that ends at `nullptr`; the fixup chain
from `first_fixup_` consists of the marked records of this list, in the order of the list;
a chain node that is flagged `is_nop` has the kind `kFixupNone`; and the offset of every
chain node is the sum of the sizes of the records before it that are not flagged `is_nop`,
as a `uint32_t`. -/
def ChainInv (m : Mir2Lir) : Prop :=
  ∃ marked : List (Nat × Bool),
    Seg Layout.next (layoutOf m.lirs) none m.first_lir_insn_ (insnsOf marked) ∧
    Seg Layout.pcrel_next (layoutOf m.lirs) none m.first_fixup_ (chainOf marked) ∧
    PrevLinked (layoutOf m.lirs) none (insnsOf marked) ∧
    NopInert (layoutOf m.lirs) marked ∧
    MarkedOffs (layoutOf m.lirs) 0 marked 0

/-- The fixup chain that starts at `p`: the records reached along `pcrel_next` until
`nullptr`. -/
def PcrelPath (lirs : List LIR) : Option Nat → List Nat → Prop
  | p, [] => p = none
  | p, i :: rest => p = some i ∧ ∃ lir, lirs[i]? = some lir ∧ PcrelPath lirs lir.pcrel_next rest

/-- The offset stored in the record at an index of the arena. -/
def offsetOf (lirs : List LIR) (i : Nat) : Nat :=
  match lirs[i]? with
  | some l => l.offset
  | none => 0

/-- The state in which `AssembleLIR` calls `LinkFixupInsns`: no fixup chain yet, and the
records from `first_lir_insn_` to `last_lir_insn_` are a doubly linked list that ends at
`nullptr`, none of them a `kPseudoPseudoAlign4` with a fixup kind in a build with DCHECKs. -/
def LinkReady (env : Env) (m : Mir2Lir) (insns : List Nat) : Prop :=
  m.first_fixup_ = none ∧ NextPath m.lirs m.first_lir_insn_ insns ∧
  m.last_lir_insn_ = insns.getLast? ∧ insns ≠ [] ∧
  PrevLinked (layoutOf m.lirs) none insns ∧
  ∀ i ∈ insns, ∀ r, m.lirs[i]? = some r → r.flags.is_nop = false →
    r.flags.fixup ≠ kFixupNone → alignOk env r

/-- The property of the fixup chain in the words of the specification: the chain lists
its nodes in the order of the instruction list, the offset of every chain node is the sum
of `flags.size` of the records before it in the instruction list that are not flagged
`is_nop` (as a `uint32_t`), and, when the size of the stream is below `2^32`, the offsets
do not decrease along the chain. -/
def ChainOrdered (m : Mir2Lir) : Prop :=
  ∃ insns chain : List Nat,
    NextPath m.lirs m.first_lir_insn_ insns ∧ PcrelPath m.lirs m.first_fixup_ chain ∧
    chain.Sublist insns ∧
    (∀ k c, insns[k]? = some c → c ∈ chain →
      offsetOf m.lirs c = wrap32 (flagsSizeSum m.lirs (insns.take k))) ∧
    (flagsSizeSum m.lirs insns < 4294967296 →
      (chain.map (offsetOf m.lirs)).Pairwise fun a b => a ≤ b)

/-! ## Notions used to state that a round of the resolver succeeds -/

/-- A computation that returns a result. -/
def Runs {α : Type} (x : Except Fault α) : Prop := ∃ a, x = .ok a

/-- The debug checks of the case `kFixupTBxZ` pass for the record `r`, in a build that has
them: the width of the opcode is that of the register, the bit index is below 64 and is
below 32 for a narrow opcode, the mask has an encoding as a logical immediate, and the
opcode is `tbz` or `tbnz`. -/
def TBxZChecks (env : Env) (r : LIR) : Prop :=
  env.kEnableDChecks = true →
    (IS_WIDE r.opcode == env.Is64Bit (toU32 (r.operands.get 0))) = true ∧
    r.operands.get 1 < 64 ∧ (r.operands.get 1 ≥ 32 → IS_WIDE r.opcode = true) ∧
    env.EncodeLogicalImmediate (IS_WIDE r.opcode) (toU64 (intShl1 (r.operands.get 1))) ≠ -1 ∧
    (UNWIDE r.opcode = .insn kA64Tbz3rht ∨ UNWIDE r.opcode = .insn kA64Tbnz3rht)

/-- A linked stream whose `tbz` is 40000 bytes before its target label, with a `ret`
between them. -/
def tbzFarStream : Mir2Lir :=
  { lirs := [⟨0, 0, kA64Tbz3rht, some 1, none, some 2, ⟨false, 4, true, 0, kFixupTBxZ⟩, some 2,
                ⟨0, 3, 0, 0, 0⟩⟩,
             ⟨4, 0, kA64Ret, some 2, some 0, none, ⟨false, 4, false, 0, kFixupNone⟩, none,
                ⟨0, 0, 0, 0, 0⟩⟩,
             ⟨40000, 0, ⟨.pseudo (-1), false⟩, none, some 1, none,
                ⟨false, 0, true, 0, kFixupLabel⟩, none, ⟨0, 0, 0, 0, 0⟩⟩],
    first_lir_insn_ := some 0, last_lir_insn_ := some 2, first_fixup_ := some 0,
    data_offset_ := 0, total_size_ := 0, code_buffer_ := [], embedded_data := [] }

/-! ## The meaning of the instructions of the rewriting -/

/-- Modelled from the spec: the control transfer of `tbz/tbnz Rt, #imm, label` (ARMv8-A,
not among the sources): `tbz` branches when bit `imm` of the register is 0, `tbnz` when
it is 1. -/
def tbxzTaken (is_tbz : Bool) (reg imm : Nat) : Bool :=
  if is_tbz then !reg.testBit imm else reg.testBit imm

/-- Modelled from the spec: the flag `Z` after `tst Rt, #mask` (ARMv8-A, not among the
sources), set when `Rt & mask` is 0. -/
def tstZ (reg mask : Nat) : Bool := (reg &&& mask) == 0

/-- Modelled from the spec: whether `b.cond` is taken (ARMv8-A, not among the sources):
`b.eq` when `Z` is set, `b.ne` when it is clear; no other condition is considered. -/
def bcondTaken (env : Env) (cond : Int) (z : Bool) : Option Bool :=
  if cond = env.kArmCondEq then some z
  else if cond = env.kArmCondNe then some !z
  else none

/-- A linked stream of a 64-bit load and a 64-bit multiply-accumulate behind it, which is
the only node of the fixup chain. -/
def erratumStream : Mir2Lir :=
  { lirs := [⟨0, 0, ⟨.insn kA64Ldr3rXD, true⟩, some 1, none, none,
                ⟨false, 4, false, 0, kFixupNone⟩, none, ⟨0, 1, 0, 0, 0⟩⟩,
             ⟨4, 0, ⟨.insn kA64Madd4rrrr, true⟩, none, some 0, none,
                ⟨false, 4, true, 0, kFixupA53Erratum835769⟩, none, ⟨0, 1, 2, 3, 0⟩⟩],
    first_lir_insn_ := some 0, last_lir_insn_ := some 1, first_fixup_ := some 1,
    data_offset_ := 0, total_size_ := 0, code_buffer_ := [], embedded_data := [] }
/-! ## States used to exercise the `kFixupAdr` case -/

/-- A stream of an `adr` whose target is the label that follows a `ret`, after
`LinkFixupInsns`, followed in the arena by an `adr` that names the embedded data table 0 and
an `adr` that reads the current PC (no target, operand 2 negative). -/
def adrStream : Mir2Lir :=
  { lirs := [⟨0, 0, kA64Adr2xd, some 1, none, some 2, ⟨false, 4, true, 0, kFixupAdr⟩, some 2,
                ⟨0, 0, 0, 0, 0⟩⟩,
             ⟨0, 0, kA64Ret, some 2, some 0, none, ⟨false, 4, false, 0, kFixupNone⟩, none,
                ⟨0, 0, 0, 0, 0⟩⟩,
             ⟨8, 0, ⟨.pseudo (-1), false⟩, some 3, some 1, none,
                ⟨false, 0, true, 0, kFixupLabel⟩, some 3, ⟨0, 0, 0, 0, 0⟩⟩,
             ⟨8, 0, kA64Adr2xd, some 4, some 2, none, ⟨false, 4, true, 0, kFixupAdr⟩, some 4,
                ⟨0, 0, 0, 0, 0⟩⟩,
             ⟨12, 0, kA64Adr2xd, none, some 3, none, ⟨false, 4, true, 0, kFixupAdr⟩, none,
                ⟨0, 20, -1, 0, 0⟩⟩],
    first_lir_insn_ := some 0, last_lir_insn_ := some 4, first_fixup_ := some 0,
    data_offset_ := 16, total_size_ := 16, code_buffer_ := [], embedded_data := [16] }
/-! ## What the fixup loop leaves alone -/

/-- The second state has the members of the first that a pass over the fixup chain does not
write: all but the arena and the head of the fixup chain. -/
def SameRest (m m1 : Mir2Lir) : Prop :=
  m1.first_lir_insn_ = m.first_lir_insn_ ∧ m1.last_lir_insn_ = m.last_lir_insn_ ∧
  m1.data_offset_ = m.data_offset_ ∧ m1.total_size_ = m.total_size_ ∧
  m1.code_buffer_ = m.code_buffer_ ∧ m1.embedded_data = m.embedded_data
/-! ## The ARM32 assembler (`compiler/utils/arm/assembler_arm32.cc`)

Instruction words (`int32_t`) are held as their 32-bit patterns, naturals below `2 ^ 32`;
offsets and positions (`int`) are integers. -/

/-- The macro `CHECK(cond)`: a call of `LOG(FATAL)` when the condition fails, in every
build. -/
def CHECK (cond : Bool) (msg : String) : Except Fault Unit :=
  if cond then .ok () else .error (.fatal msg)

/-- Modelled from the spec: the constant `kBranchOffsetMask` of `constants_arm.h` (not
among the sources), the 24 offset bits of a branch instruction. -/
def kBranchOffsetMask : Nat := 0x00ffffff

/-- Modelled from the spec: the macro `POPCOUNT` of `base/bit_utils.h` (not among the
sources), the number of bits set in a 32-bit word. -/
def POPCOUNT (x : Nat) : Nat := ((List.range 32).filter fun i => x.testBit i).length

/-- Modelled from the spec: the function `IsInt(N, value)` of `base/bit_utils.h` (not
among the sources), the test that `value` lies in the signed range of `N` bits. -/
def IsInt (N : Nat) (value : Int) : Bool :=
  decide (-((2 : Int) ^ (N - 1)) ≤ value ∧ value < (2 : Int) ^ (N - 1))

/-- The function `Arm32Assembler::EncodeBranchOffset(offset, inst)`: the word `inst` with
the branch offset put in its 24 offset bits. -/
def Arm32Assembler.EncodeBranchOffset (offset : Int) (inst : Nat) : Except Fault Nat := do
  -- The offset is off by 8 due to the way the ARM CPUs read PC.
  let offset := wrapI32 (offset - 8)
  CHECK (offset % 4 == 0) "CHECK_ALIGNED(offset, 4)"
  CHECK (IsInt (POPCOUNT kBranchOffsetMask) offset)
    "CHECK(IsInt(POPCOUNT(kBranchOffsetMask), offset))"
  -- Properly preserve only the bits supported in the instruction.
  let offset := asr offset 2
  let offset := toU32 offset &&& kBranchOffsetMask
  pure ((inst &&& (4294967295 - kBranchOffsetMask)) ||| offset)

/-- The function `Arm32Assembler::DecodeBranchOffset(inst)`: sign-extend, left-shift by 2,
then add 8, `((((inst & kBranchOffsetMask) << 8) >> 6) + 8)`. -/
def Arm32Assembler.DecodeBranchOffset (inst : Nat) : Int :=
  wrapI32 (asr (toI32 (wrap32 ((inst &&& kBranchOffsetMask) <<< 8))) 6 + 8)
/-- The enumeration `ShifterOperand::Type`. -/
inductive ShifterOperandType where
  | kUnknown
  | kRegister
  | kImmediate
  deriving DecidableEq, Repr

/-- The members of the class `ShifterOperand` (`assembler_arm.h`); registers and shifts are
held as the values of their enumerations. -/
structure ShifterOperand where
  type_ : ShifterOperandType
  rm_ : Int
  rs_ : Int
  is_rotate_ : Bool
  is_shift_ : Bool
  shift_ : Int
  rotate_ : Nat
  immed_ : Nat
  deriving DecidableEq, Repr

/-- Modelled from the spec: the constant `kImmed8Bits` of `constants_arm.h` (not among the
sources), the width of the immediate of a shifter operand. -/
def kImmed8Bits : Nat := 8

/-- The loop `for (int rot = 0; rot < 16; rot++)` of `ShifterOperandCanHoldArm32`, from the
rotation `rot` on, with the number of rounds that are left. For `rot = 0` the C++ shift
`immediate >> 32` is undefined; a shift that clears the word and a shift that takes its
count modulo 32 both give `imm8 = immediate`, as here. -/
def shifterOperandLoop (immediate : Nat) (shifter_op : ShifterOperand) :
    Nat → Nat → Bool × ShifterOperand
  | 0, _ => (false, shifter_op)
  | n + 1, rot =>
    let imm8 := wrap32 (immediate <<< (2 * rot)) ||| (immediate >>> (32 - 2 * rot))
    if imm8 < 1 <<< kImmed8Bits then
      (true, { shifter_op with type_ := .kImmediate, is_rotate_ := true, rotate_ := rot,
                               immed_ := imm8 })
    else shifterOperandLoop immediate shifter_op n (rot + 1)

/-- The function `Arm32Assembler::ShifterOperandCanHoldArm32(immediate, shifter_op)`: the
returned flag and the operand that `shifter_op` points to after the call. -/
def Arm32Assembler.ShifterOperandCanHoldArm32 (immediate : Nat) (shifter_op : ShifterOperand) :
    Bool × ShifterOperand :=
  -- Avoid the more expensive test for frequent small immediate values.
  if immediate < 1 <<< kImmed8Bits then
    (true, { shifter_op with type_ := .kImmediate, is_rotate_ := true, rotate_ := 0,
                             immed_ := immediate })
  else shifterOperandLoop immediate shifter_op 16 0

/-- The 32-bit word `x` rotated right by `n` bits, for `n ≤ 32`. -/
def rotateRight32 (x n : Nat) : Nat := wrap32 ((x >>> n) ||| (x <<< (32 - n)))

/-- The immediate fits an ARM shifter operand with the rotation `rot`: it is an 8-bit value
rotated right by `2 * rot` bits. -/
def FitsShifterOperand (immediate rot : Nat) : Prop :=
  ∃ imm8, imm8 < 256 ∧ immediate = rotateRight32 imm8 (2 * rot)
/-- A `nop` followed by a `ret`, both with the offset 0 that `RawLIR` leaves. -/
def nopRetList : List LIR :=
  [⟨0, 0, kA64Nop0, some 1, none, none, ⟨false, 4, false, 0, kFixupNone⟩, none,
      ⟨0, 0, 0, 0, 0⟩⟩,
   ⟨0, 0, kA64Ret, none, some 0, none, ⟨false, 4, false, 0, kFixupNone⟩, none,
      ⟨0, 0, 0, 0, 0⟩⟩]
/-- Modelled from the spec: the class `Label` of `utils/assembler.h` (not among the
sources), a position in the stream that is bound or still linked to the branches that wait
for it. Its member `position_` is 0 for an unused label, the position of the last linked
branch plus the size of a pointer for a linked label, and minus the bound position minus
the size of a pointer for a bound label. -/
structure Label where
  position_ : Int
  deriving DecidableEq, Repr

/-- Modelled from the spec: `Label::IsBound` (`utils/assembler.h`, not among the
sources). -/
def Label.IsBound (label : Label) : Bool := decide (label.position_ < 0)

/-- Modelled from the spec: `Label::IsUnused` (`utils/assembler.h`, not among the
sources). -/
def Label.IsUnused (label : Label) : Bool := decide (label.position_ = 0)

/-- Modelled from the spec: `Label::IsLinked` (`utils/assembler.h`, not among the
sources). -/
def Label.IsLinked (label : Label) : Bool := decide (label.position_ > 0)

/-- Modelled from the spec: `Label::Position` (`utils/assembler.h`, not among the
sources), the position of a bound label or of the last branch linked to a linked label.
The first argument is `sizeof(void*)`. -/
def Label.Position (kPointerSize : Nat) (label : Label) : Except Fault Int := do
  CHECK (!label.IsUnused) "CHECK(!IsUnused())"
  pure (if label.IsBound then wrapI32 (-label.position_ - kPointerSize)
    else wrapI32 (label.position_ - kPointerSize))

/-- Modelled from the spec: `Label::BindTo` (`utils/assembler.h`, not among the
sources). -/
def Label.BindTo (kPointerSize : Nat) (label : Label) (position : Int) : Except Fault Label := do
  CHECK (!label.IsBound) "CHECK(!IsBound())"
  let label : Label := ⟨wrapI32 (-position - kPointerSize)⟩
  CHECK label.IsBound "CHECK(IsBound())"
  pure label

/-- Modelled from the spec: `Label::LinkTo` (`utils/assembler.h`, not among the
sources). -/
def Label.LinkTo (kPointerSize : Nat) (label : Label) (position : Int) : Except Fault Label := do
  CHECK (!label.IsBound) "CHECK(!IsBound())"
  let label : Label := ⟨wrapI32 (position + kPointerSize)⟩
  CHECK label.IsLinked "CHECK(IsLinked())"
  pure label

/-- The word stored in the four bytes from position `p` of a buffer, lowest byte first. -/
def load32 (buffer : List Nat) (p : Nat) : Nat :=
  buffer.getD p 0 + 256 * buffer.getD (p + 1) 0 + 65536 * buffer.getD (p + 2) 0
    + 16777216 * buffer.getD (p + 3) 0

/-- Modelled from the spec: `AssemblerBuffer::Load<int32_t>` (`utils/assembler.h`, not
among the sources), the word at a position of the buffer of bytes. -/
def AssemblerBuffer.Load (buffer : List Nat) (position : Int) : Except Fault Nat := do
  CHECK (decide (0 ≤ position ∧ position + 4 ≤ buffer.length))
    "CHECK_LE(position, Size() - static_cast<int>(sizeof(T)))"
  pure (load32 buffer position.toNat)

/-- Modelled from the spec: `AssemblerBuffer::Store<int32_t>` (`utils/assembler.h`, not
among the sources), which overwrites the word at a position of the buffer. -/
def AssemblerBuffer.Store (buffer : List Nat) (position : Int) (value : Nat) :
    Except Fault (List Nat) := do
  CHECK (decide (0 ≤ position ∧ position + 4 ≤ buffer.length))
    "CHECK_LE(position, Size() - static_cast<int>(sizeof(T)))"
  pure (buffer.take position.toNat ++ wordBytes value ++ buffer.drop (position.toNat + 4))

/-- Modelled from the spec: the constant `kNoCondition` of `constants_arm.h` (not among
the sources). -/
def kNoCondition : Int := -1

/-- Modelled from the spec: the constant `kConditionShift` of `constants_arm.h` (not among
the sources). -/
def kConditionShift : Nat := 28

/-- Modelled from the spec: the constant `kTypeShift` of `constants_arm.h` (not among the
sources). -/
def kTypeShift : Nat := 25

/-- Modelled from the spec: the constant `kLinkShift` of `constants_arm.h` (not among the
sources). -/
def kLinkShift : Nat := 24

/-- The function `Arm32Assembler::Emit(value)`: the buffer with the word appended
(`AssemblerBuffer::Emit<int32_t>`). -/
def Arm32Assembler.Emit (buffer_ : List Nat) (value : Nat) : List Nat :=
  buffer_ ++ wordBytes value

/-- The function `Arm32Assembler::EmitType5(cond, offset, link)`. -/
def Arm32Assembler.EmitType5 (buffer_ : List Nat) (cond : Int) (offset : Int) (link : Bool) :
    Except Fault (List Nat) := do
  CHECK (cond != kNoCondition) "CHECK_NE(cond, kNoCondition)"
  let encoding := wrap32 (toU32 cond <<< kConditionShift) ||| (5 <<< kTypeShift)
    ||| ((if link then 1 else 0) <<< kLinkShift)
  let word ← Arm32Assembler.EncodeBranchOffset offset encoding
  pure (Arm32Assembler.Emit buffer_ word)

/-- The function `Arm32Assembler::EmitBranch(cond, label, link)`: the buffer and the label
after the call. The first argument is `sizeof(void*)`. -/
def Arm32Assembler.EmitBranch (kPointerSize : Nat) (buffer_ : List Nat) (cond : Int)
    (label : Label) (link : Bool) : Except Fault (List Nat × Label) :=
  if label.IsBound then do
    let pos ← label.Position kPointerSize
    let buffer_ ← Arm32Assembler.EmitType5 buffer_ cond
      (wrapI32 (pos - wrapI32 buffer_.length)) link
    pure (buffer_, label)
  else do
    let position := wrapI32 buffer_.length
    -- Use the offset field of the branch instruction for linking the sites.
    let buffer_' ← Arm32Assembler.EmitType5 buffer_ cond label.position_ link
    let label ← label.LinkTo kPointerSize position
    pure (buffer_', label)

/-- The loop `while (label->IsLinked())` of `Arm32Assembler::Bind`. The second argument is
`bound_pc`, the third bounds the number of rounds. -/
def Arm32Assembler.bindLoop (kPointerSize : Nat) (bound_pc : Int) :
    Nat → List Nat → Label → Except Fault (List Nat × Label)
  | fuel, buffer_, label =>
    if label.IsLinked then
      match fuel with
      | 0 => .error .outOfFuel
      | fuel + 1 => do
        let position ← label.Position kPointerSize
        let next ← AssemblerBuffer.Load buffer_ position
        let encoded ← Arm32Assembler.EncodeBranchOffset (wrapI32 (bound_pc - position)) next
        let buffer_ ← AssemblerBuffer.Store buffer_ position encoded
        Arm32Assembler.bindLoop kPointerSize bound_pc fuel buffer_
          ⟨Arm32Assembler.DecodeBranchOffset next⟩
    else .ok (buffer_, label)

/-- The function `Arm32Assembler::Bind(label)`: the buffer and the label after the call.
The first argument is `sizeof(void*)`, the second bounds the number of rounds of the
loop. -/
def Arm32Assembler.Bind (kPointerSize fuel : Nat) (buffer_ : List Nat) (label : Label) :
    Except Fault (List Nat × Label) := do
  CHECK (!label.IsBound) "CHECK(!label->IsBound())"
  let bound_pc := wrapI32 buffer_.length
  let (buffer_, label) ← Arm32Assembler.bindLoop kPointerSize bound_pc fuel buffer_ label
  let label ← label.BindTo kPointerSize bound_pc
  pure (buffer_, label)

/-- The branches that wait for a label, latest first: `LinkedSites k buffer pos sites`
holds when `pos`, the member `position_` of the label, and the offset fields of the branch
words at the positions `sites` form the chain that `EmitBranch` builds. The last branch is
at `pos - k`, the offset field of each branch decodes to the `position_` that the label had
when the branch was emitted, 0 for the first; every branch lies in the buffer, after the
branches emitted before it. -/
def LinkedSites (kPointerSize : Nat) (buffer : List Nat) : Int → List Nat → Prop
  | pos, [] => pos = 0
  | pos, p :: rest =>
    pos = (p : Int) + kPointerSize ∧ p + 4 ≤ buffer.length ∧ (∀ q ∈ rest, q + 4 ≤ p) ∧
    LinkedSites kPointerSize buffer (Arm32Assembler.DecodeBranchOffset (load32 buffer p)) rest
/-- The states in which branches have been emitted to one label that is not bound yet:
`Emitted k buffer label sites` holds when the buffer and the label arise from a buffer of
bytes and an unused label by calls of `EmitBranch` for the label, at the positions `sites`
(latest first), and calls of `Emit` for other instructions in between. -/
inductive Emitted (kPointerSize : Nat) : List Nat → Label → List Nat → Prop where
  | start (buffer : List Nat) : (∀ b ∈ buffer, b < 256) → Emitted kPointerSize buffer ⟨0⟩ []
  | branch {buffer buffer' : List Nat} {label label' : Label} {sites : List Nat}
      (cond : Int) (link : Bool) :
    Emitted kPointerSize buffer label sites →
    Arm32Assembler.EmitBranch kPointerSize buffer cond label link = .ok (buffer', label') →
    Emitted kPointerSize buffer' label' (buffer.length :: sites)
  | other {buffer : List Nat} {label : Label} {sites : List Nat} (value : Nat) :
    Emitted kPointerSize buffer label sites →
    Emitted kPointerSize (Arm32Assembler.Emit buffer value) label sites
/-- A buffer with a branch to a label at position 0 (condition `AL`, not yet bound),
followed by 2097153 words `mov r0, r0`: 8388616 bytes. -/
def farBranchBuffer : List Nat :=
  wordBytes 0xeafffffe ++ (List.replicate 2097153 (wordBytes 0xe1a00000)).flatten
/-! ## Notions used to state that a pass over a resolved chain changes nothing -/

/-- The byte distance `target - pc` of a record, from the offsets stored in the arena (the
difference is taken in `uint32_t` and read as `int32_t`); `none` when the record has no
target in the arena. -/
def storedDelta (lirs : List LIR) (lir : LIR) : Option Int :=
  match lir.target with
  | none => none
  | some t =>
    match lirs[t]? with
    | none => none
    | some target => some (wrapI32 ((target.offset : Int) - (lir.offset : Int)))

/-- What a round of the fixup loop reads of a record that is not its node: the offset as a
`uint32_t`, the link `prev`, the flag `is_nop` and the opcode without its width. -/
def readOf (l : LIR) : Nat × Option Nat × Bool × OpcodeBase :=
  (l.offset % 4294967296, l.prev, l.flags.is_nop, l.opcode.base)

/-- Two arenas in which the rounds of the fixup loop read the same of every record. -/
def SameReads (lirs lirs' : List LIR) : Prop :=
  ∀ j : Nat, (lirs'[j]?).map readOf = (lirs[j]?).map readOf

/-- The case `kFixupA53Erratum835769` inserts nothing for the record `r`: the target does
not need the fix, the record is not wide, no instruction is emitted before it, or the
instruction emitted before it is neither a load nor a store. -/
def A53Skips (env : Env) (fuel : Nat) (lirs : List LIR) (r : LIR) : Prop :=
  env.NeedFixCortexA53_835769 = false ∨ IS_WIDE r.opcode = false ∨
    prevEmittingFrom lirs fuel r.prev = .ok none ∨
    ∃ q prev op, prevEmittingFrom lirs fuel r.prev = .ok (some q) ∧
      lirs[q]? = some prev ∧ UNWIDE prev.opcode = .insn op ∧
      isLoadOrStore env (EncodingMap op).flags = false

/-- The distance `d` of the record passes the check `DCHECK_ALIGNED(delta, 4)`. -/
def DeltaChecked (env : Env) (lirs : List LIR) (r : LIR) (d : Int) : Prop :=
  storedDelta lirs r = some d ∧ (env.kEnableDChecks = true → d % 4 = 0)

/-- A record on which the case of its fixup kind has nothing left to do when no adjustment
is pending: its offset is a `uint32_t`, the checks of the case pass, the distance is in the
range of the case, and the operand slot of the case holds the value that the case stores;
a `tbz/tbnz` is as narrow as the case makes it, no `nop` is due before a
multiply-accumulate. -/
def Settled (env : Env) (fuel : Nat) (m : Mir2Lir) (r : LIR) : Prop :=
  r.offset < 4294967296 ∧
  match r.flags.fixup with
  | kFixupLabel | kFixupNone | kFixupVLoad => True
  | kFixupT1Branch =>
    ∃ d, DeltaChecked env m.lirs r d ∧ IS_SIGNED_IMM26 (asr d 2) = true ∧
      (!env.safe_optimizations_disabled && asr d 2 == 1) = false ∧
      r.operands.get 0 = asr d 2
  | kFixupLoad | kFixupCBxZ | kFixupCondBranch =>
    ∃ d, DeltaChecked env m.lirs r d ∧ IS_SIGNED_IMM19 (asr d 2) = true ∧
      r.operands.get 1 = asr d 2
  | kFixupTBxZ =>
    (env.kEnableDChecks = true →
      (IS_WIDE r.opcode == env.Is64Bit (toU32 (r.operands.get 0))) = true ∧
      r.operands.get 1 < 64 ∧ (r.operands.get 1 ≥ 32 → IS_WIDE r.opcode = true)) ∧
    tbxzNarrowed env r = r ∧
    ∃ d, DeltaChecked env m.lirs r d ∧ IS_SIGNED_IMM14 (asr d 2) = true ∧
      r.operands.get 2 = asr d 2
  | kFixupAdr =>
    ∃ d, adrDelta m r 0 = .ok d ∧ IS_SIGNED_IMM21 d = true ∧ r.operands.get 1 = d
  | kFixupA53Erratum835769 => A53Skips env fuel m.lirs r
  | kFixupOther => False

/-- The fixup chain from `p` on consists of settled records; the round for the `k`-th of
them runs with the fuel that a pass with fuel `fuel` gives it. -/
def SettledChain (env : Env) (m : Mir2Lir) : Nat → Option Nat → Prop
  | _, none => True
  | 0, some _ => False
  | fuel + 1, some p =>
    ∃ r, m.lirs[p]? = some r ∧ Settled env (fuel + 1) m r ∧ SettledChain env m fuel r.pcrel_next

/-- The record with another generation flag. -/
def withGeneration (r : LIR) (generation : Nat) : LIR :=
  { r with flags := { r.flags with generation := generation } }

/-- The second state is the first one up to the generation flags of the records: the
offsets, the operands, the opcodes, the instruction list and the fixup chain are the
same. -/
def SameUpToGeneration (m m' : Mir2Lir) : Prop :=
  m' = { m with lirs := m'.lirs } ∧ m'.lirs.length = m.lirs.length ∧
  ∀ (j : Nat) (r : LIR), m.lirs[j]? = some r →
    ∃ g, m'.lirs[j]? = some (withGeneration r g)

/-- What a pass without retry, whose rounds run with fuel `fuel` at most, keeps of a
state: everything but the arena, in the arena what the rounds read of the records, the
chain links, and for every record that it is settled. -/
def PassSettles (env : Env) (fuel : Nat) (m m' : Mir2Lir) : Prop :=
  m' = { m with lirs := m'.lirs } ∧ SameReads m.lirs m'.lirs ∧
  ∀ (j : Nat) (r : LIR), m.lirs[j]? = some r →
    ∃ r', m'.lirs[j]? = some r' ∧ r'.pcrel_next = r.pcrel_next ∧
      ∀ f, fuel ≤ f → Settled env f m r → Settled env f m' r'
/-! ## Notions used to bound the number of passes of the resolver -/

/-- The fixup kinds whose case can rewrite the stream: `kFixupT1Branch` (elision),
`kFixupTBxZ` (widening) and `kFixupA53Erratum835769` (insertion of a `nop`). -/
def isRewriteKind : FixupKind → Bool
  | kFixupT1Branch | kFixupTBxZ | kFixupA53Erratum835769 => true
  | _ => false

/-- The record at an index of the arena has a kind whose case can rewrite the stream. -/
def hasRewriteKind (lirs : List LIR) (j : Nat) : Bool :=
  match lirs[j]? with
  | none => false
  | some r => isRewriteKind r.flags.fixup

/-- A record at which `GetPrevEmittingLIR` stops for good and which is no load or store: it
is not flagged `is_nop`, its kind is neither `kFixupT1Branch` nor `kFixupTBxZ` (so that no
round elides or replaces it), and it is an instruction whose attribute flags contain
neither `IS_LOAD` nor `IS_STORE`. -/
def stableRec (env : Env) (r : LIR) : Bool :=
  !r.flags.is_nop && r.flags.fixup != kFixupT1Branch && r.flags.fixup != kFixupTBxZ &&
    match r.opcode.base with
    | .insn op => !isLoadOrStore env (EncodingMap op).flags
    | .pseudo _ => false

/-- The record behind the pointer `q` is one at which `GetPrevEmittingLIR` stops for good
and which is no load or store. -/
def guarded (env : Env) (lirs : List LIR) (q : Option Nat) : Bool :=
  match q with
  | none => false
  | some q =>
    match lirs[q]? with
    | none => false
    | some rq => stableRec env rq

/-- The record at an index of the arena can still rewrite the stream: it has the kind
`kFixupT1Branch` or `kFixupTBxZ`, or the kind `kFixupA53Erratum835769` and its `prev` is
not guarded. -/
def rewritable (env : Env) (lirs : List LIR) (j : Nat) : Bool :=
  match lirs[j]? with
  | none => false
  | some r =>
    match r.flags.fixup with
    | kFixupT1Branch | kFixupTBxZ => true
    | kFixupA53Erratum835769 => !guarded env lirs r.prev
    | _ => false

/-- What a round of the fixup loop keeps of the arena, as far as later rewritings are
concerned: a record keeps its kind or gets the kind `kFixupNone`; unless its kind is
`kFixupT1Branch` or `kFixupTBxZ` it keeps its flag `is_nop` and its opcode (up to the
width); its `prev` is as before or is guarded; and a record that the round allocates has
the kind `kFixupNone` or `kFixupCondBranch`. -/
structure RoundFrame (env : Env) (lirs lirs1 : List LIR) : Prop where
  keeps : ∀ (j : Nat) (r : LIR), lirs[j]? = some r → ∃ r1, lirs1[j]? = some r1 ∧
    (r1.flags.fixup = r.flags.fixup ∨ r1.flags.fixup = kFixupNone) ∧
    (r.flags.fixup ≠ kFixupT1Branch → r.flags.fixup ≠ kFixupTBxZ →
      r1.flags.is_nop = r.flags.is_nop ∧ r1.opcode.base = r.opcode.base) ∧
    (r1.prev = r.prev ∨ guarded env lirs1 r1.prev = true)
  fresh : ∀ (j : Nat) (r1 : LIR), lirs.length ≤ j → lirs1[j]? = some r1 →
    r1.flags.fixup = kFixupNone ∨ r1.flags.fixup = kFixupCondBranch

/-- The invariant of the resolver between two passes, relative to the list `C` of the nodes
of the initial fixup chain: the invariant of the chain holds, every node of the chain is in
`C` or has a kind that rewrites nothing, and the nodes in `C` are records of the arena. -/
def LoopInv (C : List Nat) (m : Mir2Lir) : Prop :=
  (∃ marked : List (Nat × Bool),
    Seg Layout.next (layoutOf m.lirs) none m.first_lir_insn_ (insnsOf marked) ∧
    Seg Layout.pcrel_next (layoutOf m.lirs) none m.first_fixup_ (chainOf marked) ∧
    PrevLinked (layoutOf m.lirs) none (insnsOf marked) ∧
    NopInert (layoutOf m.lirs) marked ∧
    MarkedOffs (layoutOf m.lirs) 0 marked 0 ∧
    ∀ c ∈ chainOf marked, c ∈ C ∨ hasRewriteKind m.lirs c = false) ∧
  ∀ c ∈ C, c < m.lirs.length

/-- The number of passes of the loop `while (true)` of `AssembleLIR` that end with
`res != kSuccess`, in a run of at most `rounds` rounds from a state: the value that the
local `assembler_retries` reaches from zero when the limit `MAX_ASSEMBLER_RETRIES` is left
aside. The arguments are those of `fixupLoop`. -/
def retryPasses (env : Env) (fuel : Nat) : Nat → Mir2Lir → Nat → Nat → Nat
  | 0, _, _, _ => 0
  | rounds + 1, m, generation, starting_offset =>
    let generation := generation ^^^ 1
    match fixupPass env generation fuel m
        { offset_adjustment := 0, res := .kSuccess, prev_lir := none, lir := m.first_fixup_ } with
    | .error _ => 0
    | .ok (m, loc) =>
      if loc.res = .kSuccess then 0
      else
        let starting_offset := wrap32 (starting_offset + toU32 loc.offset_adjustment)
        let m := { m with data_offset_ := ALIGNED_DATA_OFFSET starting_offset }
        let m := AssignDataOffsets env m
        retryPasses env fuel rounds m generation starting_offset + 1
/-! ## The entries of the table with `FLOAT_VARIANTS` -/

/-- The opcodes whose entry of `EncodingMap` takes its skeletons from the macro
`FLOAT_VARIANTS`, in the order of the table. -/
def floatVariantOpcodes : List A64Opcode :=
  [kA64Fabs2ff, kA64Fadd3fff, kA64Fcmp1f, kA64Fcmp2ff, kA64Fcvtzs2wf, kA64Fcvtzs2xf,
   kA64Fdiv3fff, kA64Fmax3fff, kA64Fmin3fff, kA64Fmov2ff, kA64Fmov2fI, kA64Fmul3fff,
   kA64Fneg2ff, kA64Frintp2ff, kA64Frintm2ff, kA64Frintn2ff, kA64Frintz2ff, kA64Fsqrt2ff,
   kA64Fsub3fff, kA64Scvtf2fw, kA64Scvtf2fx]
/-- A linked stream whose wide `tbnz x0, #31` is 40000 bytes before its target label, with
a `ret` between them. -/
def tbnzWideStream : Mir2Lir :=
  { lirs := [⟨0, 0, WIDE kA64Tbnz3rht, some 1, none, some 2, ⟨false, 4, true, 0, kFixupTBxZ⟩,
                some 2, ⟨0, 31, 0, 0, 0⟩⟩,
             ⟨4, 0, kA64Ret, some 2, some 0, none, ⟨false, 4, false, 0, kFixupNone⟩, none,
                ⟨0, 0, 0, 0, 0⟩⟩,
             ⟨40000, 0, ⟨.pseudo (-1), false⟩, none, some 1, none,
                ⟨false, 0, true, 0, kFixupLabel⟩, none, ⟨0, 0, 0, 0, 0⟩⟩],
    first_lir_insn_ := some 0, last_lir_insn_ := some 2, first_fixup_ := some 0,
    data_offset_ := 0, total_size_ := 0, code_buffer_ := [], embedded_data := [] }
/-! ## The ARM32 assembler: data-processing and VFP instructions

The emitters of `assembler_arm32.cc` that `LoadImmediate`, `AddConstant`, `LoadSImmediate`
and `LoadDImmediate` use. Registers and conditions are the values of their enumerations
(`int`), instruction words are naturals below `2 ^ 32`, and the buffer is the list of the
bytes emitted. The function `ShifterOperand::encodingArm` is defined in
`assembler_arm.cc`, which is not among the sources: it is a parameter of the emitters. -/

/-- Modelled from the spec: the constants `B0 .. B31` of `constants_arm.h` (not among the
sources), `Bn = 1 << n`. -/
def B (n : Nat) : Nat := 1 <<< n

/-- Modelled from the spec: the constant `kOpcodeShift` of `constants_arm.h` (not among
the sources). -/
def kOpcodeShift : Nat := 21

/-- Modelled from the spec: the constant `kSShift` of `constants_arm.h` (not among the
sources). -/
def kSShift : Nat := 20

/-- Modelled from the spec: the constant `kRnShift` of `constants_arm.h` (not among the
sources). -/
def kRnShift : Nat := 16

/-- Modelled from the spec: the constant `kRdShift` of `constants_arm.h` (not among the
sources). -/
def kRdShift : Nat := 12

/-- Modelled from the spec: the enumerator `kNoRegister` of `enum Register`
(`constants_arm.h`, not among the sources); the core registers `R0 .. R15` have the values
0 to 15. -/
def kNoRegister : Int := -1

/-- Modelled from the spec: the enumerator `R0` of `enum Register`. -/
def R0 : Int := 0

/-- Modelled from the spec: the enumerator `IP` of `enum Register`, the register `R12`. -/
def IP : Int := 12

/-- Modelled from the spec: the enumerator `SP` of `enum Register`, the register `R13`. -/
def SP : Int := 13

/-- Modelled from the spec: the enumerator `PC` of `enum Register`, the register `R15`. -/
def PC : Int := 15

/-- Modelled from the spec: the enumerator `AL` of `enum Condition` (`constants_arm.h`,
not among the sources), the condition "always"; the conditions have the values 0 to 14. -/
def AL : Int := 14

/-- Modelled from the spec: the enumerator `kNoSRegister` of `enum SRegister`
(`constants_arm.h`, not among the sources); `S0 .. S31` have the values 0 to 31. -/
def kNoSRegister : Int := -1

/-- Modelled from the spec: the enumerator `S0` of `enum SRegister`. -/
def S0 : Int := 0

/-- Modelled from the spec: the enumerator `kNoDRegister` of `enum DRegister`
(`constants_arm.h`, not among the sources); `D0 .. D31` have the values 0 to 31. -/
def kNoDRegister : Int := -1

/-- Modelled from the spec: the enumerator `D0` of `enum DRegister`. -/
def D0 : Int := 0

/-- Modelled from the spec: the enumerator `kNoShift` of `enum Shift` (`constants_arm.h`,
not among the sources). -/
def kNoShift : Int := -1

/-- Modelled from the spec: the enumerator `SUB` of `enum Opcode` (`constants_arm.h`, not
among the sources), the opcode field of a data-processing instruction. -/
def SUB : Nat := 2

/-- Modelled from the spec: the enumerator `ADD` of `enum Opcode`. -/
def ADD : Nat := 4

/-- Modelled from the spec: the enumerator `MOV` of `enum Opcode`. -/
def MOV : Nat := 13

/-- Modelled from the spec: the enumerator `MVN` of `enum Opcode`. -/
def MVN : Nat := 15

/-- The enumeration `SetCc` of `assembler_arm.h`. -/
inductive SetCc where
  | kCcDontCare
  | kCcSet
  | kCcKeep
  deriving DecidableEq, Repr

/-- The constructor `ShifterOperand()`. -/
def ShifterOperand.empty : ShifterOperand :=
  ⟨.kUnknown, kNoRegister, kNoRegister, false, false, kNoShift, 0, 0⟩

/-- The constructor `ShifterOperand(Register rm)`. -/
def ShifterOperand.ofRegister (rm : Int) : ShifterOperand :=
  ⟨.kRegister, rm, kNoRegister, false, false, kNoShift, 0, 0⟩

/-- The function `ShifterOperand::is_valid`. -/
def ShifterOperand.is_valid (so : ShifterOperand) : Bool :=
  so.type_ == .kImmediate || so.type_ == .kRegister

/-- The function `ShifterOperand::type`: the value of the enumerator, 0 for `kRegister` and
1 for `kImmediate`, as a `uint32_t`. -/
def ShifterOperand.type (so : ShifterOperand) : Except Fault Nat := do
  CHECK so.is_valid "CHECK(is_valid())"
  pure (match so.type_ with
    | .kUnknown => 4294967295
    | .kRegister => 0
    | .kImmediate => 1)

/-- The function `Arm32Assembler::EmitType01`. The first argument stands for
`ShifterOperand::encodingArm`. -/
def Arm32Assembler.EmitType01 (encodingArm : ShifterOperand → Nat) (buffer_ : List Nat)
    (cond : Int) (type : Nat) (opcode : Nat) (set_cc : SetCc) (rn rd : Int)
    (so : ShifterOperand) : Except Fault (List Nat) := do
  CHECK (rd != kNoRegister) "CHECK_NE(rd, kNoRegister)"
  CHECK (cond != kNoCondition) "CHECK_NE(cond, kNoCondition)"
  let encoding := wrap32 (toU32 cond <<< kConditionShift) |||
                  wrap32 (type <<< kTypeShift) |||
                  wrap32 (opcode <<< kOpcodeShift) |||
                  wrap32 ((if set_cc = .kCcSet then 1 else 0) <<< kSShift) |||
                  wrap32 (toU32 rn <<< kRnShift) |||
                  wrap32 (toU32 rd <<< kRdShift) |||
                  wrap32 (encodingArm so)
  pure (Arm32Assembler.Emit buffer_ encoding)

/-- The function `Arm32Assembler::mov`. -/
def Arm32Assembler.mov (encodingArm : ShifterOperand → Nat) (buffer_ : List Nat) (rd : Int)
    (so : ShifterOperand) (cond : Int) (set_cc : SetCc) : Except Fault (List Nat) := do
  let type ← so.type
  Arm32Assembler.EmitType01 encodingArm buffer_ cond type MOV set_cc R0 rd so

/-- The function `Arm32Assembler::mvn`. -/
def Arm32Assembler.mvn (encodingArm : ShifterOperand → Nat) (buffer_ : List Nat) (rd : Int)
    (so : ShifterOperand) (cond : Int) (set_cc : SetCc) : Except Fault (List Nat) := do
  let type ← so.type
  Arm32Assembler.EmitType01 encodingArm buffer_ cond type MVN set_cc R0 rd so

/-- The function `Arm32Assembler::add`. -/
def Arm32Assembler.add (encodingArm : ShifterOperand → Nat) (buffer_ : List Nat)
    (rd rn : Int) (so : ShifterOperand) (cond : Int) (set_cc : SetCc) :
    Except Fault (List Nat) := do
  let type ← so.type
  Arm32Assembler.EmitType01 encodingArm buffer_ cond type ADD set_cc rn rd so

/-- The function `Arm32Assembler::sub`. -/
def Arm32Assembler.sub (encodingArm : ShifterOperand → Nat) (buffer_ : List Nat)
    (rd rn : Int) (so : ShifterOperand) (cond : Int) (set_cc : SetCc) :
    Except Fault (List Nat) := do
  let type ← so.type
  Arm32Assembler.EmitType01 encodingArm buffer_ cond type SUB set_cc rn rd so

/-- The function `Arm32Assembler::movw`; `imm16` is a `uint16_t`. -/
def Arm32Assembler.movw (buffer_ : List Nat) (rd : Int) (imm16 : Nat) (cond : Int) :
    Except Fault (List Nat) := do
  CHECK (cond != kNoCondition) "CHECK_NE(cond, kNoCondition)"
  let encoding := wrap32 (toU32 cond <<< kConditionShift) |||
                  B 25 ||| B 24 ||| wrap32 ((imm16 >>> 12) <<< 16) |||
                  wrap32 (toU32 rd <<< kRdShift) ||| (imm16 &&& 0xfff)
  pure (Arm32Assembler.Emit buffer_ encoding)

/-- The function `Arm32Assembler::movt`; `imm16` is a `uint16_t`. -/
def Arm32Assembler.movt (buffer_ : List Nat) (rd : Int) (imm16 : Nat) (cond : Int) :
    Except Fault (List Nat) := do
  CHECK (cond != kNoCondition) "CHECK_NE(cond, kNoCondition)"
  let encoding := wrap32 (toU32 cond <<< kConditionShift) |||
                  B 25 ||| B 24 ||| B 22 ||| wrap32 ((imm16 >>> 12) <<< 16) |||
                  wrap32 (toU32 rd <<< kRdShift) ||| (imm16 &&& 0xfff)
  pure (Arm32Assembler.Emit buffer_ encoding)

/-- Modelled from the spec: the function `Low16Bits` of `utils.h` (not among the sources),
the low half of a 32-bit value as a `uint16_t`. -/
def Low16Bits (value : Nat) : Nat := value &&& 0xffff

/-- Modelled from the spec: the function `High16Bits` of `utils.h` (not among the
sources), the high half of a 32-bit value as a `uint16_t`. -/
def High16Bits (value : Nat) : Nat := (value >>> 16) &&& 0xffff

/-- The `int32_t` expression `~value`. -/
def bitNot32 (value : Int) : Int := -value - 1

/-- The function `Arm32Assembler::LoadImmediate(rd, value, cond)`: the buffer after the
call. -/
def Arm32Assembler.LoadImmediate (encodingArm : ShifterOperand → Nat) (buffer_ : List Nat)
    (rd : Int) (value : Int) (cond : Int) : Except Fault (List Nat) :=
  let shifter_op := ShifterOperand.empty
  let (holds, shifter_op) := Arm32Assembler.ShifterOperandCanHoldArm32 (toU32 value) shifter_op
  if holds then
    Arm32Assembler.mov encodingArm buffer_ rd shifter_op cond .kCcDontCare
  else
    let (holds, shifter_op) :=
      Arm32Assembler.ShifterOperandCanHoldArm32 (toU32 (bitNot32 value)) shifter_op
    if holds then
      Arm32Assembler.mvn encodingArm buffer_ rd shifter_op cond .kCcDontCare
    else do
      let buffer_ ← Arm32Assembler.movw buffer_ rd (Low16Bits (toU32 value)) cond
      let value_high := High16Bits (toU32 value)
      if value_high != 0 then
        Arm32Assembler.movt buffer_ rd value_high cond
      else pure buffer_

/-- The function `Arm32Assembler::AddConstant(rd, rn, value, cond, set_cc)`: the buffer
after the call. -/
def Arm32Assembler.AddConstant (encodingArm : ShifterOperand → Nat) (buffer_ : List Nat)
    (rd rn : Int) (value : Int) (cond : Int) (set_cc : SetCc) : Except Fault (List Nat) :=
  if value = 0 ∧ set_cc ≠ .kCcSet then
    if rd ≠ rn then
      Arm32Assembler.mov encodingArm buffer_ rd (ShifterOperand.ofRegister rn) cond set_cc
    else pure buffer_
  else
    -- We prefer to select the shorter code sequence rather than selecting add for
    -- positive values and sub for negatives ones.
    let shifter_op := ShifterOperand.empty
    let (holds, shifter_op) :=
      Arm32Assembler.ShifterOperandCanHoldArm32 (toU32 value) shifter_op
    if holds then
      Arm32Assembler.add encodingArm buffer_ rd rn shifter_op cond set_cc
    else
      let (holds, shifter_op) :=
        Arm32Assembler.ShifterOperandCanHoldArm32 (toU32 (-value)) shifter_op
      if holds then
        Arm32Assembler.sub encodingArm buffer_ rd rn shifter_op cond set_cc
      else do
        CHECK (rn != IP) "CHECK(rn != IP)"
        let (holds, shifter_op) :=
          Arm32Assembler.ShifterOperandCanHoldArm32 (toU32 (bitNot32 value)) shifter_op
        if holds then do
          let buffer_ ← Arm32Assembler.mvn encodingArm buffer_ IP shifter_op cond .kCcKeep
          Arm32Assembler.add encodingArm buffer_ rd rn (ShifterOperand.ofRegister IP) cond
            set_cc
        else
          let (holds, shifter_op) :=
            Arm32Assembler.ShifterOperandCanHoldArm32 (toU32 (bitNot32 (-value))) shifter_op
          if holds then do
            let buffer_ ← Arm32Assembler.mvn encodingArm buffer_ IP shifter_op cond .kCcKeep
            Arm32Assembler.sub encodingArm buffer_ rd rn (ShifterOperand.ofRegister IP) cond
              set_cc
          else do
            let buffer_ ← Arm32Assembler.movw buffer_ IP (Low16Bits (toU32 value)) cond
            let value_high := High16Bits (toU32 value)
            let buffer_ ← (if value_high != 0 then
              Arm32Assembler.movt buffer_ IP value_high cond else pure buffer_)
            Arm32Assembler.add encodingArm buffer_ rd rn (ShifterOperand.ofRegister IP) cond
              set_cc

/-! ## The meaning of the instructions that the ARM32 assembler emits -/

/-- Modelled from the spec: the value of the second operand of a data-processing
instruction word (ARMv7-A, not among the sources): with bit 25 set, the 8-bit immediate in
bits `[7:0]` rotated right by twice bits `[11:8]`; with bit 25 clear and bits `[11:4]`
zero, the register in bits `[3:0]`; shifted registers are not modelled. -/
def armOperand2 (w : Nat) (regs : Nat → Nat) : Option Nat :=
  if w / 33554432 % 2 = 1 then some (rotateRight32 (w % 256) (2 * (w / 256 % 16)))
  else if w / 16 % 256 = 0 then some (regs (w % 16))
  else none

/-- Modelled from the spec: the effect on the core registers of an instruction word whose
condition holds (ARMv7-A, not among the sources), for the instructions that
`LoadImmediate` and `AddConstant` emit: `movw` and `movt` (bits `[27:20]` equal to `0x30`
and `0x34`, the 16-bit immediate in bits `[19:16]` and `[11:0]`), and the data-processing
instructions `mov`, `mvn`, `add` and `sub` (bits `[27:26]` zero, the opcode in bits
`[24:21]`, `Rn` in `[19:16]`, `Rd` in `[15:12]`). Registers are read from the register file
as they are (the offset of a read of `PC` is not modelled), the flags are not modelled, and
the result is `none` for every other word. -/
def armEffect (w : Nat) (regs : Nat → Nat) : Option (Nat → Nat) :=
  let rd := w / 4096 % 16
  let rn := w / 65536 % 16
  let imm16 := (w / 65536 % 16) * 4096 + w % 4096
  if w / 1048576 % 256 = 0x30 then
    some (Function.update regs rd imm16)
  else if w / 1048576 % 256 = 0x34 then
    some (Function.update regs rd (regs rd % 65536 + imm16 * 65536))
  else if w / 67108864 % 4 = 0 then
    match armOperand2 w regs with
    | none => none
    | some op2 =>
      let opcode := w / 2097152 % 16
      if opcode = MOV then some (Function.update regs rd op2)
      else if opcode = MVN then some (Function.update regs rd (4294967295 - op2))
      else if opcode = ADD then some (Function.update regs rd (wrap32 (regs rn + op2)))
      else if opcode = SUB then
        some (Function.update regs rd (wrap32 (regs rn + 4294967296 - op2)))
      else none
  else none

/-- Modelled from the spec: the effect on the core registers of the instruction words
stored in a list of bytes, lowest byte first, executed in order with their conditions
holding; `none` when a word is not modelled or the bytes are no whole number of words. -/
def armRun : List Nat → (Nat → Nat) → Option (Nat → Nat)
  | [], regs => some regs
  | b0 :: b1 :: b2 :: b3 :: rest, regs =>
    match armEffect (b0 + 256 * b1 + 65536 * b2 + 16777216 * b3) regs with
    | none => none
    | some regs => armRun rest regs
  | _, _ => none

/-- Modelled from the spec: what `ShifterOperand::encodingArm` (`assembler_arm.cc`, not
among the sources) returns for the operands that `LoadImmediate` and `AddConstant` build,
which are bits `[11:0]` of a data-processing instruction as the architecture reads them:
the rotation above the 8-bit immediate for an immediate operand, and the register number
for an unshifted register. -/
def EncodesOperand2 (encodingArm : ShifterOperand → Nat) : Prop :=
  (∀ so : ShifterOperand, so.type_ = .kImmediate → so.is_rotate_ = true →
    encodingArm so = (so.rotate_ <<< 8) ||| so.immed_) ∧
  (∀ rm : Int, encodingArm (ShifterOperand.ofRegister rm) = toU32 rm)

/-- An implementation of `encodingArm` for immediate operands and unshifted registers. -/
def encodingArmPlain (so : ShifterOperand) : Nat :=
  match so.type_ with
  | .kImmediate => (so.rotate_ <<< 8) ||| so.immed_
  | .kRegister => toU32 so.rm_
  | .kUnknown => 0
/-! ## The ARM32 assembler: immediates of the floating-point registers

A `float` or `double` argument is held as its bit pattern (`bit_cast<uint32_t, float>`,
`bit_cast<uint64_t, double>`): 2.0 is `0x40000000` as a `float` and `0x4000000000000000` as
a `double`, and 0.0 is the pattern 0 (IEEE 754). -/

/-- The function `Arm32Assembler::EmitVFPsss`. -/
def Arm32Assembler.EmitVFPsss (buffer_ : List Nat) (cond : Int) (opcode : Nat)
    (sd sn sm : Int) : Except Fault (List Nat) := do
  CHECK (sd != kNoSRegister) "CHECK_NE(sd, kNoSRegister)"
  CHECK (sn != kNoSRegister) "CHECK_NE(sn, kNoSRegister)"
  CHECK (sm != kNoSRegister) "CHECK_NE(sm, kNoSRegister)"
  CHECK (cond != kNoCondition) "CHECK_NE(cond, kNoCondition)"
  let encoding := wrap32 (toU32 cond <<< kConditionShift) |||
                  B 27 ||| B 26 ||| B 25 ||| B 11 ||| B 9 ||| opcode |||
                  wrap32 ((toU32 sd &&& 1) * B 22) |||
                  wrap32 (toU32 (asr sn 1) * B 16) |||
                  wrap32 (toU32 (asr sd 1) * B 12) |||
                  wrap32 ((toU32 sn &&& 1) * B 7) |||
                  wrap32 ((toU32 sm &&& 1) * B 5) |||
                  toU32 (asr sm 1)
  pure (Arm32Assembler.Emit buffer_ encoding)

/-- The function `Arm32Assembler::EmitVFPddd`. -/
def Arm32Assembler.EmitVFPddd (buffer_ : List Nat) (cond : Int) (opcode : Nat)
    (dd dn dm : Int) : Except Fault (List Nat) := do
  CHECK (dd != kNoDRegister) "CHECK_NE(dd, kNoDRegister)"
  CHECK (dn != kNoDRegister) "CHECK_NE(dn, kNoDRegister)"
  CHECK (dm != kNoDRegister) "CHECK_NE(dm, kNoDRegister)"
  CHECK (cond != kNoCondition) "CHECK_NE(cond, kNoCondition)"
  let encoding := wrap32 (toU32 cond <<< kConditionShift) |||
                  B 27 ||| B 26 ||| B 25 ||| B 11 ||| B 9 ||| B 8 ||| opcode |||
                  wrap32 (toU32 (asr dd 4) * B 22) |||
                  wrap32 ((toU32 dn &&& 0xf) * B 16) |||
                  wrap32 ((toU32 dd &&& 0xf) * B 12) |||
                  wrap32 (toU32 (asr dn 4) * B 7) |||
                  wrap32 (toU32 (asr dm 4) * B 5) |||
                  (toU32 dm &&& 0xf)
  pure (Arm32Assembler.Emit buffer_ encoding)

/-- The function `Arm32Assembler::vmovs(SRegister sd, SRegister sm, Condition cond)`. -/
def Arm32Assembler.vmovs_reg (buffer_ : List Nat) (sd sm : Int) (cond : Int) :
    Except Fault (List Nat) :=
  Arm32Assembler.EmitVFPsss buffer_ cond (B 23 ||| B 21 ||| B 20 ||| B 6) sd S0 sm

/-- The function `Arm32Assembler::vmovs(SRegister sd, float s_imm, Condition cond)`: the
buffer after the call and the returned flag. `s_imm` is the bit pattern of the `float`. -/
def Arm32Assembler.vmovs (buffer_ : List Nat) (sd : Int) (s_imm : Nat) (cond : Int) :
    Except Fault (List Nat × Bool) :=
  let imm32 := s_imm
  if ((imm32 &&& ((1 <<< 19) - 1)) == 0) &&
      ((((imm32 >>> 25) &&& ((1 <<< 6) - 1)) == (1 <<< 5)) ||
       (((imm32 >>> 25) &&& ((1 <<< 6) - 1)) == ((1 <<< 5) - 1))) then do
    let imm8 := ((((imm32 >>> 31) <<< 7) ||| (((imm32 >>> 29) &&& 1) <<< 6) |||
        ((imm32 >>> 19) &&& ((1 <<< 6) - 1))) &&& 0xff)
    let buffer_ ← Arm32Assembler.EmitVFPsss buffer_ cond
      (B 23 ||| B 21 ||| B 20 ||| ((imm8 >>> 4) * B 16) ||| (imm8 &&& 0xf)) sd S0 S0
    pure (buffer_, true)
  else pure (buffer_, false)

/-- The function `Arm32Assembler::vmovd(DRegister dd, double d_imm, Condition cond)`: the
buffer after the call and the returned flag. `d_imm` is the bit pattern of the
`double`. -/
def Arm32Assembler.vmovd (buffer_ : List Nat) (dd : Int) (d_imm : Nat) (cond : Int) :
    Except Fault (List Nat × Bool) :=
  let imm64 := d_imm
  if ((imm64 &&& ((1 <<< 48) - 1)) == 0) &&
      ((((imm64 >>> 54) &&& ((1 <<< 9) - 1)) == (1 <<< 8)) ||
       (((imm64 >>> 54) &&& ((1 <<< 9) - 1)) == ((1 <<< 8) - 1))) then do
    let imm8 := ((((imm64 >>> 63) <<< 7) ||| (((imm64 >>> 61) &&& 1) <<< 6) |||
        ((imm64 >>> 48) &&& ((1 <<< 6) - 1))) &&& 0xff)
    let buffer_ ← Arm32Assembler.EmitVFPddd buffer_ cond
      (B 23 ||| B 21 ||| B 20 ||| ((imm8 >>> 4) * B 16) ||| B 8 ||| (imm8 &&& 0xf)) dd D0 D0
    pure (buffer_, true)
  else pure (buffer_, false)

/-- The function `Arm32Assembler::vsubs`. -/
def Arm32Assembler.vsubs (buffer_ : List Nat) (sd sn sm : Int) (cond : Int) :
    Except Fault (List Nat) :=
  Arm32Assembler.EmitVFPsss buffer_ cond (B 21 ||| B 20 ||| B 6) sd sn sm

/-- The function `Arm32Assembler::vsubd`. -/
def Arm32Assembler.vsubd (buffer_ : List Nat) (dd dn dm : Int) (cond : Int) :
    Except Fault (List Nat) :=
  Arm32Assembler.EmitVFPddd buffer_ cond (B 21 ||| B 20 ||| B 6) dd dn dm

/-- The function `Arm32Assembler::vmovsr`. -/
def Arm32Assembler.vmovsr (buffer_ : List Nat) (sn : Int) (rt : Int) (cond : Int) :
    Except Fault (List Nat) := do
  CHECK (sn != kNoSRegister) "CHECK_NE(sn, kNoSRegister)"
  CHECK (rt != kNoRegister) "CHECK_NE(rt, kNoRegister)"
  CHECK (rt != SP) "CHECK_NE(rt, SP)"
  CHECK (rt != PC) "CHECK_NE(rt, PC)"
  CHECK (cond != kNoCondition) "CHECK_NE(cond, kNoCondition)"
  let encoding := wrap32 (toU32 cond <<< kConditionShift) |||
                  B 27 ||| B 26 ||| B 25 |||
                  wrap32 (toU32 (asr sn 1) * B 16) |||
                  wrap32 (toU32 rt * B 12) ||| B 11 ||| B 9 |||
                  wrap32 ((toU32 sn &&& 1) * B 7) ||| B 4
  pure (Arm32Assembler.Emit buffer_ encoding)

/-- The function `ArmAssembler::LoadSImmediate(sd, value, cond)` of `assembler_arm.h`: the
buffer after the call. `value` is the bit pattern of the `float`. -/
def ArmAssembler.LoadSImmediate (encodingArm : ShifterOperand → Nat) (buffer_ : List Nat)
    (sd : Int) (value : Nat) (cond : Int) : Except Fault (List Nat) := do
  let (buffer_, done) ← Arm32Assembler.vmovs buffer_ sd value cond
  if !done then
    let int_value := toI32 value
    if int_value == toI32 0 then do
      -- 0.0 is quite common, so we special case it by loading
      -- 2.0 in `sd` and then substracting it.
      let (buffer_, success) ← Arm32Assembler.vmovs buffer_ sd 0x40000000 cond
      CHECK success "CHECK(success)"
      Arm32Assembler.vsubs buffer_ sd sd sd cond
    else do
      let buffer_ ← Arm32Assembler.LoadImmediate encodingArm buffer_ IP int_value cond
      Arm32Assembler.vmovsr buffer_ sd IP cond
  else pure buffer_

/-- Modelled from the spec: the function `Low32Bits` of `utils.h` (not among the
sources). -/
def Low32Bits (value : Nat) : Nat := value &&& 0xffffffff

/-- Modelled from the spec: the function `High32Bits` of `utils.h` (not among the
sources). -/
def High32Bits (value : Nat) : Nat := (value >>> 32) &&& 0xffffffff

/-- The function `ArmAssembler::LoadDImmediate(sd, value, cond)` of `assembler_arm.h`: the
buffer after the call. `value` is the bit pattern of the `double`. -/
def ArmAssembler.LoadDImmediate (encodingArm : ShifterOperand → Nat) (buffer_ : List Nat)
    (sd : Int) (value : Nat) (cond : Int) : Except Fault (List Nat) := do
  let (buffer_, done) ← Arm32Assembler.vmovd buffer_ sd value cond
  if !done then
    let int_value := value
    if int_value == 0 then do
      -- 0.0 is quite common, so we special case it by loading
      -- 2.0 in `sd` and then substracting it.
      let (buffer_, success) ← Arm32Assembler.vmovd buffer_ sd 0x4000000000000000 cond
      CHECK success "CHECK(success)"
      Arm32Assembler.vsubd buffer_ sd sd sd cond
    else
      if sd < 16 then do
        let low := wrapI32 (sd * 2)
        let high := wrapI32 (low + 1)
        let buffer_ ← ArmAssembler.LoadSImmediate encodingArm buffer_ low
          (Low32Bits int_value) cond
        if High32Bits int_value == Low32Bits int_value then
          Arm32Assembler.vmovs_reg buffer_ high low AL
        else
          ArmAssembler.LoadSImmediate encodingArm buffer_ high (High32Bits int_value) cond
      else
        throw (.fatal "Unimplemented loading of double into a D register that cannot be split")
  else pure buffer_
/-! ## Notions used to relate the size of the code to `starting_offset` -/

/-- The sizes of the records `idxs` are those of what `EncodeLIRs` stores for them: of the
records that are not flagged `is_nop`, every instruction has `flags.size` 4 and every
pseudo-op has `flags.size` 0. -/
def SizesAsEmitted (lirs : List LIR) (idxs : List Nat) : Prop :=
  ∀ i ∈ idxs, ∀ r, lirs[i]? = some r → r.flags.is_nop = false →
    r.flags.size = if IsPseudoLirOp (UNWIDE r.opcode) then 0 else 4

/-- The invariant of the resolver between two passes that ties the local `starting_offset`
to the stream: the invariant of the fixup chain holds, the sizes of the records of the
instruction list are those of what `EncodeLIRs` stores for them, and `starting_offset` is
the sum of the sizes of the records that are not flagged `is_nop`, as a `uint32_t`. -/
def StreamInv (m : Mir2Lir) (starting_offset : Nat) : Prop :=
  ∃ marked : List (Nat × Bool),
    Seg Layout.next (layoutOf m.lirs) none m.first_lir_insn_ (insnsOf marked) ∧
    Seg Layout.pcrel_next (layoutOf m.lirs) none m.first_fixup_ (chainOf marked) ∧
    PrevLinked (layoutOf m.lirs) none (insnsOf marked) ∧
    NopInert (layoutOf m.lirs) marked ∧
    MarkedOffs (layoutOf m.lirs) 0 marked 0 ∧
    SizesAsEmitted m.lirs (insnsOf marked) ∧
    starting_offset = wrap32 (lsum (layoutOf m.lirs) (insnsOf marked))
/-! ## Notions used to state what the generation flag tells during a pass -/

/-- The marks of a pass with generation `generation` that started from the arena `lirs0`,
when it has visited the chain nodes of `ma` and those of `mb` are pending: the nodes
visited carry the generation of the pass, the pending ones do not and still have the
offsets that they had when the pass started. -/
def PassMarks (generation : Nat) (lirs0 lirs : List LIR) (ma mb : List (Nat × Bool)) : Prop :=
  (∀ c ∈ chainOf ma, ∀ r, lirs[c]? = some r → r.flags.generation = generation) ∧
  (∀ c ∈ chainOf mb, ∀ r, lirs[c]? = some r →
    r.flags.generation ≠ generation ∧ ∃ r0, lirs0[c]? = some r0 ∧ r.offset = r0.offset)
/-! ## What `AssignDataOffsets` may write -/

/-- Modelled from the spec: the calls `AssignLiteralOffset`, `AssignSwitchTablesOffset` and
`AssignFillArrayDataOffset` of `AssignDataOffsets` (in `codegen_util.cc`, not among the
sources) assign byte offsets to the literal pool entries, the switch tables and the
fill-array blocks that follow the code. Of the state they may write `total_size_`, the
offsets of the embedded data tables and the member `offset` of records that are not in the
instruction list (the literals); they leave alone the heads of the instruction list and of
the fixup chain, `data_offset_`, every member but `offset` of every record, and every
record of the instruction list. -/
def AssignsDataOnly (env : Env) : Prop :=
  ∀ m : Mir2Lir,
    (env.assignData m).first_lir_insn_ = m.first_lir_insn_ ∧
    (env.assignData m).first_fixup_ = m.first_fixup_ ∧
    (env.assignData m).data_offset_ = m.data_offset_ ∧
    (∀ j : Nat, ((env.assignData m).lirs[j]?).map eraseOffset = (m.lirs[j]?).map eraseOffset) ∧
    ∀ insns : List Nat, NextPath m.lirs m.first_lir_insn_ insns →
      ∀ j ∈ insns, (env.assignData m).lirs[j]? = m.lirs[j]?
/-! ## Notions used to state that the resolver ends -/

/-- A computation that does not stop for want of fuel: it returns, or it stops at a fault
of the code. The fuel is the bound that the model puts on the walks over the linked
records; a walk of the code that ends is one that does not use it up. -/
def FuelFree {α : Type} (x : Except Fault α) : Prop := x ≠ .error .outOfFuel
/-! ## Streams with one forward conditional branch -/

/-- A stream of `N` four-byte instructions and one label in a state before `AssembleLIR`.
The records `0 .. N` of the arena are the instruction list, in this order; the record
`N - 1` is the label, a pseudo-op, which stands immediately before the last instruction,
the record `N`; the other records are instructions of four bytes. The records with a fixup
kind are the label and a conditional branch `kA64B2ct` at index `i` before the label, whose
target is the label. Nothing is required of the member `offset` of any record. -/
structure ForwardBranchStream (N i : Nat) (m : Mir2Lir) : Prop where
  length : m.lirs.length = N + 1
  first : m.first_lir_insn_ = some 0
  last : m.last_lir_insn_ = some N
  no_chain : m.first_fixup_ = none
  forward : i + 1 < N
  links : ∀ k r, m.lirs[k]? = some r →
    r.next = (if k + 1 < N + 1 then some (k + 1) else none) ∧ r.flags.is_nop = false
  insn : ∀ k r, m.lirs[k]? = some r → k ≠ N - 1 →
    r.flags.size = 4 ∧ ∃ op, r.opcode.base = .insn op
  plain : ∀ k r, m.lirs[k]? = some r → k ≠ i → k ≠ N - 1 → r.flags.fixup = kFixupNone
  branch : ∃ b, m.lirs[i]? = some b ∧ b.opcode = (kA64B2ct : Opcode) ∧
    b.flags.fixup ≠ kFixupNone ∧ b.target = some (N - 1)
  label : ∃ t c, m.lirs[N - 1]? = some t ∧ t.opcode.base = .pseudo c ∧
    t.flags.fixup ≠ kFixupNone

/-- The record at index `k` of the stream `forwardBranchStream N i`: the branch `b.eq` to
the label at index `i`, the label at index `N - 1`, a `nop` elsewhere. The offset of every
record is 0, as `RawLIR` leaves it. -/
def forwardBranchRec (N i k : Nat) : LIR :=
  if k = i then
    ⟨0, 0, kA64B2ct, if k + 1 < N + 1 then some (k + 1) else none,
      if k = 0 then none else some (k - 1), some (N - 1),
      ⟨false, 4, false, 0, kFixupCondBranch⟩, none, ⟨0, 0, 0, 0, 0⟩⟩
  else if k = N - 1 then
    ⟨0, 0, ⟨.pseudo (-1), false⟩, if k + 1 < N + 1 then some (k + 1) else none,
      if k = 0 then none else some (k - 1), none,
      ⟨false, 0, false, 0, kFixupLabel⟩, none, ⟨0, 0, 0, 0, 0⟩⟩
  else
    ⟨0, 0, kA64Nop0, if k + 1 < N + 1 then some (k + 1) else none,
      if k = 0 then none else some (k - 1), none,
      ⟨false, 4, false, 0, kFixupNone⟩, none, ⟨0, 0, 0, 0, 0⟩⟩

/-- A stream of `N` four-byte instructions with a conditional branch at index `i` to the
label before the last one, in a state before `AssembleLIR`. -/
def forwardBranchStream (N i : Nat) : Mir2Lir :=
  { lirs := (List.range (N + 1)).map (forwardBranchRec N i),
    first_lir_insn_ := some 0, last_lir_insn_ := some N, first_fixup_ := none,
    data_offset_ := 0, total_size_ := 0, code_buffer_ := [], embedded_data := [] }

/-- A stream of three four-byte instructions in a state before `AssembleLIR`, whose only
record with a fixup kind is the conditional branch `b.eq` at index 1; the target of the
branch is the last instruction itself, the record 2, which has no fixup kind. The offset of
every record is 0, as `RawLIR` leaves it. -/
def plainTargetStream : Mir2Lir :=
  { lirs := [⟨0, 0, kA64Nop0, some 1, none, none, ⟨false, 4, false, 0, kFixupNone⟩, none,
                ⟨0, 0, 0, 0, 0⟩⟩,
             ⟨0, 0, kA64B2ct, some 2, some 0, some 2,
                ⟨false, 4, false, 0, kFixupCondBranch⟩, none, ⟨0, 0, 0, 0, 0⟩⟩,
             ⟨0, 0, kA64Nop0, none, some 1, none, ⟨false, 4, false, 0, kFixupNone⟩, none,
                ⟨0, 0, 0, 0, 0⟩⟩],
    first_lir_insn_ := some 0, last_lir_insn_ := some 2, first_fixup_ := none,
    data_offset_ := 0, total_size_ := 0, code_buffer_ := [], embedded_data := [] }

/-- The record of the branch of a forward-branch stream after `LinkFixupInsns`: offset
`4 * i`, linked to the label in the fixup chain. -/
def linkedBranch (N i : Nat) (b : LIR) : LIR :=
  { linkedRec b (4 * i) with pcrel_next := some (N - 1) }

/-- The record of the label of a forward-branch stream after `LinkFixupInsns`: offset
`4 * (N - 1)`, the last node of the fixup chain. -/
def linkedLabel (N : Nat) (t : LIR) : LIR := linkedRec t (4 * (N - 1))

/-- The record of the branch of a forward-branch stream after the layout pass and one pass
of the fixup loop with the given generation: offset `4 * i`, operand 1 the distance
`N - 1 - i` in instructions. -/
def resolvedBranch (N i generation : Nat) (b : LIR) : LIR :=
  { linkedBranch N i b with
    flags := { (linkedBranch N i b).flags with generation := generation },
    operands := b.operands.set 1 ((N - 1 - i : Nat) : Int) }

/-- The record of the label of a forward-branch stream after the layout pass and one pass
of the fixup loop with the given generation. -/
def resolvedLabel (N generation : Nat) (t : LIR) : LIR :=
  { linkedLabel N t with flags := { (linkedLabel N t).flags with generation := generation } }

/-- The state in which the fixup loop of `AssembleLIR` starts for a forward-branch stream
whose branch record is `b` and whose label is `t`. -/
def linkedStream (env : Env) (N i : Nat) (m : Mir2Lir) (b t : LIR) : Mir2Lir :=
  AssignDataOffsets env
    { m with
      lirs := (m.lirs.set i (linkedBranch N i b)).set (N - 1) (linkedLabel N t),
      first_fixup_ := some i,
      data_offset_ := ALIGNED_DATA_OFFSET (4 * N) }

/-- The state in which the fixup loop of `AssembleLIR` ends for a forward-branch stream
whose branch record is `b` and whose label is `t`. -/
def resolvedStream (env : Env) (N i : Nat) (m : Mir2Lir) (b t : LIR) : Mir2Lir :=
  { linkedStream env N i m b t with
    lirs := ((linkedStream env N i m b t).lirs.set i (resolvedBranch N i 1 b)).set (N - 1)
      (resolvedLabel N 1 t) }
/-! ## The run of the resolver after a round -/

/-- The loop `while (true)` of `AssembleLIR`, run with the fuel `fuel` for each pass, comes
from a state of a pass (its generation, the fuel left, the state and the locals) to a later
state of the same pass, or, when that pass has come to its end (`lir == nullptr`) with
`res != kSuccess`, to a state of a later pass: the loop then assigns `data_offset_` (the
value `x`, which is `ALIGNED_DATA_OFFSET(starting_offset)`), calls `AssignDataOffsets` and
starts the next pass at `first_fixup_` with the other generation. The limit on the number
of retries is left aside. -/
inductive RunReaches (env : Env) (fuel : Nat) :
    Nat → Nat → Mir2Lir → FixupLocals → Nat → Nat → Mir2Lir → FixupLocals → Prop where
  | pass {generation f f' : Nat} {m m' : Mir2Lir} {loc loc' : FixupLocals} :
    PassReaches env generation f m loc f' m' loc' →
    RunReaches env fuel generation f m loc generation f' m' loc'
  | retry {generation f f1 g' f' : Nat} {m m1 m' : Mir2Lir} {loc loc1 loc' : FixupLocals}
    (x : Nat) :
    PassReaches env generation f m loc f1 m1 loc1 → loc1.lir = none →
    loc1.res ≠ .kSuccess →
    RunReaches env fuel (generation ^^^ 1) fuel
      (AssignDataOffsets env { m1 with data_offset_ := x })
      { offset_adjustment := 0, res := .kSuccess, prev_lir := none,
        lir := (AssignDataOffsets env { m1 with data_offset_ := x }).first_fixup_ }
      g' f' m' loc' →
    RunReaches env fuel generation f m loc g' f' m' loc'

/-- The record at `p` can bring no further `nop` into the stream: it has the kind
`kFixupA53Erratum835769` or `kFixupNone`, and it is not rewritable, that is, with the kind
`kFixupA53Erratum835769` its `prev` is a record which is not flagged `is_nop` and which is
an instruction that is no load or store. -/
def erratumSettled (env : Env) (lirs : List LIR) (p : Nat) : Prop :=
  ∃ node, lirs[p]? = some node ∧
    (node.flags.fixup = kFixupA53Erratum835769 ∨ node.flags.fixup = kFixupNone) ∧
    rewritable env lirs p = false

/-- A stream of three records in a state before `AssembleLIR`: a 64-bit load, a label, and
a 64-bit multiply-accumulate. -/
def erratumSkipStream : Mir2Lir :=
  { lirs := [⟨0, 0, ⟨.insn kA64Ldr3rXD, true⟩, some 1, none, none,
                ⟨false, 4, false, 0, kFixupNone⟩, none, ⟨0, 1, 0, 0, 0⟩⟩,
             ⟨0, 0, ⟨.pseudo (-1), false⟩, some 2, some 0, none,
                ⟨false, 0, false, 0, kFixupLabel⟩, none, ⟨0, 0, 0, 0, 0⟩⟩,
             ⟨0, 0, ⟨.insn kA64Madd4rrrr, true⟩, none, some 1, none,
                ⟨false, 4, false, 0, kFixupA53Erratum835769⟩, none, ⟨0, 1, 2, 3, 0⟩⟩],
    first_lir_insn_ := some 0, last_lir_insn_ := some 2, first_fixup_ := none,
    data_offset_ := 0, total_size_ := 0, code_buffer_ := [], embedded_data := [] }

/-- The state `erratumSkipStream` after `LinkFixupInsns`. -/
def erratumSkipLinked : Mir2Lir :=
  { erratumSkipStream with
    lirs := [⟨0, 0, ⟨.insn kA64Ldr3rXD, true⟩, some 1, none, none,
                ⟨false, 4, false, 0, kFixupNone⟩, none, ⟨0, 1, 0, 0, 0⟩⟩,
             ⟨4, 0, ⟨.pseudo (-1), false⟩, some 2, some 0, none,
                ⟨false, 0, true, 0, kFixupLabel⟩, some 2, ⟨0, 0, 0, 0, 0⟩⟩,
             ⟨4, 0, ⟨.insn kA64Madd4rrrr, true⟩, none, some 1, none,
                ⟨false, 4, true, 0, kFixupA53Erratum835769⟩, none, ⟨0, 1, 2, 3, 0⟩⟩],
    first_fixup_ := some 1 }
/-! ## A sample `AssignDataOffsets` with a literal pool -/

/-- The instruction list from `p` on, as the list of its records, when the walk along
`next` ends within `fuel` records. -/
def insnWalk (lirs : List LIR) : Nat → Option Nat → Option (List Nat)
  | _, none => some []
  | 0, some _ => none
  | fuel + 1, some i =>
    match lirs[i]? with
    | none => none
    | some r => (insnWalk lirs fuel r.next).map fun rest => i :: rest

/-- The records of an arena (from the index `j` on) with the offsets of a literal pool that
starts at `offset`: the records outside the list `insns` are taken for the literals of the
pool, of 8 bytes each, in the order of the arena. -/
def poolOffsets (insns : List Nat) : List LIR → Nat → Nat → List LIR
  | [], _, _ => []
  | r :: rest, j, offset =>
    if j ∈ insns then r :: poolOffsets insns rest (j + 1) offset
    else { r with offset := offset } :: poolOffsets insns rest (j + 1) (offset + 8)

/-- Modelled from the spec: a sample of `AssignDataOffsets` for a unit with a literal pool
and no switch tables or fill-array data: byte offsets are assigned to the literal pool
entries, in order, immediately following the code region, from `data_offset_` on, and
`total_size_` is the end of the pool. The literals are the records of the arena that are
not on the instruction list. -/
def poolAssign (m : Mir2Lir) : Mir2Lir :=
  match insnWalk m.lirs m.lirs.length m.first_lir_insn_ with
  | none => m
  | some insns =>
    { m with
      lirs := poolOffsets insns m.lirs 0 m.data_offset_,
      total_size_ :=
        m.data_offset_ + 8 * ((List.range m.lirs.length).filter fun j => j ∉ insns).length }

/-- The environment `mkEnv` with the sample `AssignDataOffsets` of a literal pool. -/
def poolEnv (cfg : BuildConfig) : Env := { mkEnv cfg with assignData := poolAssign }

/-- A stream of four records in a state before `AssembleLIR`, and a literal: a load of the
literal, an unconditional branch to the label that follows it, the label, and a `ret`; the
literal is the record 4, which is not on the instruction list. -/
def poolStream : Mir2Lir :=
  { lirs := [⟨0, 0, kA64Ldr2rp, some 1, none, some 4, ⟨false, 4, false, 0, kFixupLoad⟩, none,
                ⟨0, 0, 0, 0, 0⟩⟩,
             ⟨0, 0, kA64B1t, some 2, some 0, some 2, ⟨false, 4, false, 0, kFixupT1Branch⟩,
                none, ⟨0, 0, 0, 0, 0⟩⟩,
             ⟨0, 0, ⟨.pseudo (-1), false⟩, some 3, some 1, none,
                ⟨false, 0, false, 0, kFixupLabel⟩, none, ⟨0, 0, 0, 0, 0⟩⟩,
             ⟨0, 0, kA64Ret, none, some 2, none, ⟨false, 4, false, 0, kFixupNone⟩, none,
                ⟨0, 0, 0, 0, 0⟩⟩,
             ⟨0, 0, ⟨.pseudo (-1), false⟩, none, none, none,
                ⟨false, 0, false, 0, kFixupNone⟩, none, ⟨305419896, 0, 0, 0, 0⟩⟩],
    first_lir_insn_ := some 0, last_lir_insn_ := some 3, first_fixup_ := none,
    data_offset_ := 0, total_size_ := 0, code_buffer_ := [], embedded_data := [] }

/-- The state `poolStream` when the fixup loop of `AssembleLIR` starts: after
`LinkFixupInsns`, which returns 12, and the sample `AssignDataOffsets`, which puts the
literal at `ALIGNED_DATA_OFFSET(12) = 16`. -/
def poolStreamLinked : Mir2Lir :=
  { lirs := [⟨0, 0, kA64Ldr2rp, some 1, none, some 4, ⟨false, 4, true, 0, kFixupLoad⟩, some 1,
                ⟨0, 0, 0, 0, 0⟩⟩,
             ⟨4, 0, kA64B1t, some 2, some 0, some 2, ⟨false, 4, true, 0, kFixupT1Branch⟩,
                some 2, ⟨0, 0, 0, 0, 0⟩⟩,
             ⟨8, 0, ⟨.pseudo (-1), false⟩, some 3, some 1, none,
                ⟨false, 0, true, 0, kFixupLabel⟩, none, ⟨0, 0, 0, 0, 0⟩⟩,
             ⟨0, 0, kA64Ret, none, some 2, none, ⟨false, 4, false, 0, kFixupNone⟩, none,
                ⟨0, 0, 0, 0, 0⟩⟩,
             ⟨16, 0, ⟨.pseudo (-1), false⟩, none, none, none,
                ⟨false, 0, false, 0, kFixupNone⟩, none, ⟨305419896, 0, 0, 0, 0⟩⟩],
    first_lir_insn_ := some 0, last_lir_insn_ := some 3, first_fixup_ := some 0,
    data_offset_ := 16, total_size_ := 24, code_buffer_ := [], embedded_data := [] }

/-! ## Bit-level lemmas -/

theorem testBit_wrap32 (x i : Nat) :
    (wrap32 x).testBit i = (decide (i < 32) && x.testBit i) := by
  show (x % 2 ^ 32).testBit i = _
  exact Nat.testBit_mod_two_pow x 32 i

theorem wrap32_lt (x : Nat) : wrap32 x < 4294967296 := by
  unfold wrap32; omega

theorem toU32_lt (x : Int) : toU32 x < 4294967296 := by
  unfold toU32; omega

/-- Two words below `2 ^ 32` are equal when their low 32 bits agree. -/
theorem eq_of_testBit_lt32 {x y : Nat} (hx : x < 4294967296) (hy : y < 4294967296)
    (h : ∀ i, i < 32 → x.testBit i = y.testBit i) : x = y := by
  apply Nat.eq_of_testBit_eq
  intro i
  by_cases hi : i < 32
  · exact h i hi
  · have hp : (4294967296 : Nat) ≤ 2 ^ i := by
      have : (2 : Nat) ^ 32 ≤ 2 ^ i := Nat.pow_le_pow_right (by norm_num) (by omega)
      simpa using this
    rw [Nat.testBit_lt_two_pow (by omega), Nat.testBit_lt_two_pow (by omega)]

/-- The mask `(1 << (end + 1)) - 1` of a field whose end is at most 30. -/
theorem fieldMask_eq (e : Nat) (he : e ≤ 30) :
    wrap32 ((1 <<< (e + 1)) + 4294967295) = 2 ^ (e + 1) - 1 := by
  have h1 : (2 : Nat) ^ (e + 1) ≤ 2 ^ 31 := Nat.pow_le_pow_right (by norm_num) (by omega)
  have h2 : 0 < (2 : Nat) ^ (e + 1) := Nat.pos_pow_of_pos _ (by norm_num)
  rw [Nat.shiftLeft_eq, Nat.one_mul]
  unfold wrap32
  norm_num at h1
  omega

theorem fieldValue_eq_mod (operand s e : Nat) (hse : s ≤ e) (he : e ≤ 30) :
    fieldValue operand s e = (operand % 2 ^ (e - s + 1)) * 2 ^ s := by
  unfold fieldValue
  have hm : ((e : Int) + 1).toNat = e + 1 := by omega
  have hs : ((s : Int)).toNat = s := by omega
  rw [hm, hs, fieldMask_eq e he, Nat.and_pow_two_sub_one_eq_mod, Nat.shiftLeft_eq]
  unfold wrap32
  have hd : (2 : Nat) ^ (e + 1) ∣ 4294967296 := by
    have : (2 : Nat) ^ (e + 1) ∣ 2 ^ 32 := Nat.pow_dvd_pow 2 (by omega)
    simpa using this
  rw [Nat.mod_mod_of_dvd _ hd]
  have hsplit : (2 : Nat) ^ (e + 1) = 2 ^ (e - s + 1) * 2 ^ s := by
    rw [← Nat.pow_add]; congr 1; omega
  rw [hsplit, Nat.mul_mod_mul_right]

/-! ## C2: the field value of the code is the spec's formula -/

theorem encodeArg_simple (cfg : BuildConfig) (encoder : A64EncodingMap) (lir : LIR)
    (wide : Bool) (i bits : Nat) (loc : FieldLoc) (hloc : encoder.field_loc[i]? = some loc)
    (hkind : loc.kind.val ≤ kFmtBitBlt.val) (s : ArgStep)
    (h : encodeArg cfg encoder lir wide i bits = .ok s) :
    s = .next (bits ||| fieldValue (toU32 (lir.operands.get i)) loc.start loc.end_) := by
  unfold encodeArg at h
  rw [hloc] at h
  simp only [hkind, if_true] at h
  split at h
  · cases h
  · injection h with h
    exact h.symm

/-- C2: for every 32-bit operand and every simple field (a register kind or `kFmtBitBlt`)
with `0 ≤ start ≤ end ≤ 30`, the value that `EncodeLIRs` ORs into the word,
`(operand << start) & ((1 << (end + 1)) - 1)` in 32-bit arithmetic, is the spec's formula:
the operand masked to its low `end - start + 1` bits and then shifted left by `start`. The
operand is the `uint32_t` read from an arbitrary `int32_t` operand slot; the second part
says that this is what a round of the operand loop adds for such a field. -/
theorem fieldValue_refines_spec (operand : Int) (start end_ : Nat)
    (hse : start ≤ end_) (he : end_ ≤ 30) :
    fieldValue (toU32 operand) (start : Int) (end_ : Int)
      = specFieldValue (toU32 operand) start end_ ∧
    ∀ (cfg : BuildConfig) (encoder : A64EncodingMap) (lir : LIR) (wide : Bool) (i bits : Nat)
      (kind : A64EncodingKind) (s : ArgStep),
      encoder.field_loc[i]? = some ⟨kind, end_, start⟩ → kind.val ≤ kFmtBitBlt.val →
      lir.operands.get i = operand → encodeArg cfg encoder lir wide i bits = .ok s →
      s = .next (bits ||| specFieldValue (toU32 operand) start end_) := by
  have key : fieldValue (toU32 operand) (start : Int) (end_ : Int)
      = specFieldValue (toU32 operand) start end_ := by
    rw [fieldValue_eq_mod (toU32 operand) start end_ hse he]
    unfold specFieldValue
    rw [Nat.shiftLeft_eq]
  refine ⟨key, ?_⟩
  intro cfg encoder lir wide i bits kind s hloc hkind hop h
  rw [encodeArg_simple cfg encoder lir wide i bits _ hloc hkind s h, hop]
  show ArgStep.next (bits ||| fieldValue (toU32 operand) (start : Int) (end_ : Int)) = _
  rw [key]

theorem fieldValue_refines_spec_witness :
    5 ≤ 9 ∧ 9 ≤ 30 ∧
      fieldValue (toU32 (-29)) ((5 : Nat) : Int) ((9 : Nat) : Int)
        = specFieldValue (toU32 (-29)) 5 9 ∧
      encodeArg releaseConfig (EncodingMap kA64Adc3rrr) (mkLIR kA64Adc3rrr 0 (-29) 0 0) false 1
          0x1a000000 = .ok (.next (0x1a000000 ||| specFieldValue (toU32 (-29)) 5 9)) :=
  ⟨by decide, by decide,
    (fieldValue_refines_spec (-29) 5 9 (by decide) (by decide)).1,
    by
      have h := (fieldValue_refines_spec (-29) 5 9 (by decide) (by decide)).2 releaseConfig
        (EncodingMap kA64Adc3rrr) (mkLIR kA64Adc3rrr 0 (-29) 0 0) false 1 0x1a000000 kFmtRegR
        (.next (0x1a000000 ||| fieldValue (toU32 (-29)) 5 9)) (by decide) (by decide) rfl
        (by decide)
      rw [← h]
      decide⟩

/-! ## Bits of the operand values -/

theorem fieldValue_lt (operand : Nat) (s e : Int) : fieldValue operand s e < 4294967296 := by
  unfold fieldValue
  exact lt_of_le_of_lt Nat.and_le_left (wrap32_lt _)

theorem testBit_fieldValue (operand : Nat) (s e : Int) (h0 : 0 ≤ s) (hse : s ≤ e)
    (he : e ≤ 30) (k : Nat) :
    (fieldValue operand s e).testBit k
      = (decide (s.toNat ≤ k ∧ k ≤ e.toNat) && operand.testBit (k - s.toNat)) := by
  have hs : s = ((s.toNat : Nat) : Int) := by omega
  have hee : e = ((e.toNat : Nat) : Int) := by omega
  have h1 : s.toNat ≤ e.toNat := by omega
  have h2 : e.toNat ≤ 30 := by omega
  rw [hs, hee, fieldValue_eq_mod operand s.toNat e.toNat h1 h2, ← Nat.shiftLeft_eq,
    Nat.testBit_shiftLeft, Nat.testBit_mod_two_pow]
  simp only [Int.toNat_ofNat]
  by_cases hk : s.toNat ≤ k
  · by_cases hk2 : k ≤ e.toNat
    · have : k - s.toNat < e.toNat - s.toNat + 1 := by omega
      simp [hk, hk2, this]
    · have : ¬ (k - s.toNat < e.toNat - s.toNat + 1) := by omega
      simp [hk, hk2, this]
  · simp [hk]

theorem testBit_0x3 (k : Nat) : Nat.testBit 0x3 k = decide (k < 2) :=
  Nat.testBit_two_pow_sub_one 2 k

theorem testBit_0x1ffffc (k : Nat) : Nat.testBit 0x1ffffc k = decide (2 ≤ k ∧ k < 21) := by
  have h : (0x1ffffc : Nat) = (2 ^ 19 - 1) <<< 2 := by decide
  rw [h, Nat.testBit_shiftLeft, Nat.testBit_two_pow_sub_one]
  by_cases h2 : 2 ≤ k
  · by_cases h3 : k < 21
    · have : k - 2 < 19 := by omega
      simp [h2, h3, this]
    · have : ¬ (k - 2 < 19) := by omega
      simp [h2, h3, this]
  · simp [h2]

theorem imm21Value_lt (operand : Nat) : imm21Value operand < 4294967296 := by
  unfold imm21Value
  have h := @Nat.or_lt_two_pow _ _ 32 (show wrap32 ((operand &&& 0x3) <<< 29) < 2 ^ 32 from
    wrap32_lt _) (show wrap32 (((operand &&& 0x1ffffc) >>> 2) <<< 5) < 2 ^ 32 from wrap32_lt _)
  simpa using h

theorem testBit_imm21Value (operand k : Nat) :
    (imm21Value operand).testBit k
      = if k = 29 ∨ k = 30 then operand.testBit (k - 29)
        else if 5 ≤ k ∧ k ≤ 23 then operand.testBit (k - 3) else false := by
  by_cases hk : k < 32
  · unfold imm21Value
    interval_cases k <;>
      simp [-Nat.testBit_zero, testBit_wrap32, Nat.testBit_or, Nat.testBit_and,
        Nat.testBit_shiftLeft, Nat.testBit_shiftRight, testBit_0x3, testBit_0x1ffffc]
  · have hp : (4294967296 : Nat) ≤ 2 ^ k := by
      have : (2 : Nat) ^ 32 ≤ 2 ^ k := Nat.pow_le_pow_right (by norm_num) (by omega)
      simpa using this
    rw [Nat.testBit_lt_two_pow (lt_of_lt_of_le (imm21Value_lt operand) hp)]
    have h1 : ¬ (k = 29 ∨ k = 30) := by omega
    have h2 : ¬ (5 ≤ k ∧ k ≤ 23) := by omega
    simp [h1, h2]

theorem testBit_readField (word s e k : Nat) :
    (readField word s e).testBit k = (decide (k < e - s + 1) && word.testBit (s + k)) := by
  unfold readField
  rw [Nat.testBit_mod_two_pow, Nat.testBit_shiftRight]

/-! ## C6: the split 21-bit immediate of `adr` -/

theorem encodeInsn_adr (cfg : BuildConfig) (lir : LIR) (hw : lir.opcode.wide = false) :
    encodeInsn cfg lir kA64Adr2xd
      = match regCheck cfg kFmtRegX false (toU32 lir.operands.o0) with
        | .error e => .error e
        | .ok _ => .ok ((0x10000000 ||| fieldValue (toU32 lir.operands.o0) 0 4)
            ||| imm21Value (toU32 lir.operands.o1)) := by
  simp [encodeInsn, EncodingMap, ENCODING_MAP, NO_VARIANTS, CUSTOM_VARIANTS, encodeArgs,
    encodeArg, DCHECK, IS_WIDE, A64EncodingKind.val, hw, Operands.get]
  cases regCheck cfg kFmtRegX false (toU32 lir.operands.o0) <;> simp

theorem regCheck_release (cfg : BuildConfig) (h : cfg.kIsDebugBuild = false)
    (kind : A64EncodingKind) (wide : Bool) (operand : Nat) :
    regCheck cfg kind wide operand = .ok () := by
  simp [regCheck, h]

theorem testBit_0x10000000 (k : Nat) : Nat.testBit 0x10000000 k = decide (k = 28) := by
  have h : (0x10000000 : Nat) = 2 ^ 28 := by norm_num
  rw [h, Nat.testBit_two_pow]
  by_cases hk : k = 28
  · simp [hk]
  · have : ¬ (28 = k) := fun h => hk h.symm
    simp [hk, this]

theorem adrImm_encoded (u0 u1 : Nat) :
    adrImm ((0x10000000 ||| fieldValue u0 0 4) ||| imm21Value u1) = u1 % 2 ^ 21 := by
  apply Nat.eq_of_testBit_eq
  intro k
  unfold adrImm
  rw [Nat.testBit_mod_two_pow]
  by_cases hk : k < 21
  · interval_cases k <;>
      simp [-Nat.testBit_zero, Nat.testBit_or, Nat.testBit_shiftLeft, testBit_readField,
        testBit_imm21Value, testBit_fieldValue, testBit_0x10000000]
  · have h1 : ¬ (k - 2 < 19) := by omega
    have h2 : ¬ (k < 2) := by omega
    simp [Nat.testBit_or, Nat.testBit_shiftLeft, testBit_readField, hk, h1, h2]

theorem signExtend20_toU32 (d : Int) (hlo : -1048576 ≤ d) (hhi : d < 1048576) :
    signExtend 20 (toU32 d % 2 ^ 21) = d := by
  unfold signExtend toU32
  norm_num
  split <;> omega

/-- C6: the `kFmtImm21` kind places operand bits `[1:0]` in word bits `[30:29]` and operand
bits `[20:2]` in word bits `[23:5]` and sets no other bit; hence, for every signed byte
delta `d` with `-2^20 ≤ d < 2^20` in operand slot 1 of an `adr` record, the word is built
whenever the register check of slot 0 does not stop the encoder (always in a build without
debug checks), and sign-extending the 21-bit value `immhi:immlo` read back from it gives
`d`. -/
theorem imm21_roundtrip (cfg : BuildConfig) (lir : LIR) (d : Int)
    (hop : lir.opcode = (kA64Adr2xd : Opcode)) (hd : lir.operands.o1 = d)
    (hlo : -1048576 ≤ d) (hhi : d < 1048576) :
    (∀ operand k, (imm21Value (toU32 operand)).testBit k
        = if k = 29 ∨ k = 30 then (toU32 operand).testBit (k - 29)
          else if 5 ≤ k ∧ k ≤ 23 then (toU32 operand).testBit (k - 3) else false) ∧
    (cfg.kIsDebugBuild = false → ∃ w, encodeInsn cfg lir kA64Adr2xd = .ok w) ∧
    (∀ w, encodeInsn cfg lir kA64Adr2xd = .ok w → signExtend 20 (adrImm w) = d) := by
  have hw : lir.opcode.wide = false := by rw [hop]
  refine ⟨fun operand k => testBit_imm21Value _ k, ?_, ?_⟩
  · intro hrel
    rw [encodeInsn_adr cfg lir hw, regCheck_release cfg hrel]
    exact ⟨_, rfl⟩
  · intro w hwd
    rw [encodeInsn_adr cfg lir hw] at hwd
    cases hr : regCheck cfg kFmtRegX false (toU32 lir.operands.o0) with
    | error e => rw [hr] at hwd; cases hwd
    | ok u =>
      rw [hr] at hwd
      injection hwd with hwd
      rw [← hwd, adrImm_encoded, hd]
      exact signExtend20_toU32 d hlo hhi

theorem imm21_roundtrip_witness :
    (mkLIR kA64Adr2xd 3 (-4) 7 0).opcode = (kA64Adr2xd : Opcode) ∧
    (∃ w, encodeInsn releaseConfig (mkLIR kA64Adr2xd 3 (-4) 7 0) kA64Adr2xd = .ok w) ∧
    (∀ w, encodeInsn releaseConfig (mkLIR kA64Adr2xd 3 (-4) 7 0) kA64Adr2xd = .ok w →
      signExtend 20 (adrImm w) = -4) :=
  ⟨rfl,
    (imm21_roundtrip releaseConfig (mkLIR kA64Adr2xd 3 (-4) 7 0) (-4) rfl rfl (by decide)
      (by decide)).2.1 rfl,
    (imm21_roundtrip releaseConfig (mkLIR kA64Adr2xd 3 (-4) 7 0) (-4) rfl rfl (by decide)
      (by decide)).2.2⟩

/-! ## C5: entries without operand fields -/

/-- C5: an entry without operand fields encodes to a constant: for every value of the
operand slots (and of every other member of the record) `kA64Nop0` encodes to `0xd503201f`
and `kA64Ret` to `0xd65f03c0`, in every build; and every entry whose first field is
`kFmtUnused` encodes to its skeleton. -/
theorem no_operand_encoding_constant (cfg : BuildConfig) (lir : LIR) :
    encodeInsn cfg { lir with opcode := kA64Nop0 } kA64Nop0 = .ok 0xd503201f ∧
    encodeInsn cfg { lir with opcode := kA64Ret } kA64Ret = .ok 0xd65f03c0 ∧
    ∀ op : A64Opcode, op = kA64Nop0 ∨ op = kA64Ret ∨
      ((EncodingMap op).field_loc[0]?.map FieldLoc.kind ≠ some kFmtUnused) := by
  refine ⟨?_, ?_, ?_⟩
  · simp [encodeInsn, EncodingMap, ENCODING_MAP, NO_VARIANTS, CUSTOM_VARIANTS, encodeArgs,
      encodeArg, DCHECK, IS_WIDE, A64EncodingKind.val]
  · simp [encodeInsn, EncodingMap, ENCODING_MAP, NO_VARIANTS, CUSTOM_VARIANTS, encodeArgs,
      encodeArg, DCHECK, IS_WIDE, A64EncodingKind.val]
  · intro op
    cases op <;> simp [EncodingMap, ENCODING_MAP]

/-! ## C7: operands from the first unused field on are not read -/

theorem encodeArg_congr (cfg : BuildConfig) (encoder : A64EncodingMap) (l1 l2 : LIR)
    (wide : Bool) (i bits : Nat) (h : l1.operands.get i = l2.operands.get i) :
    encodeArg cfg encoder l1 wide i bits = encodeArg cfg encoder l2 wide i bits := by
  unfold encodeArg
  rw [h]

theorem encodeArg_unused (cfg : BuildConfig) (encoder : A64EncodingMap) (lir : LIR)
    (wide : Bool) (i bits : Nat) (loc : FieldLoc) (hloc : encoder.field_loc[i]? = some loc)
    (hk : loc.kind = kFmtUnused) :
    encodeArg cfg encoder lir wide i bits = .ok (.done bits) := by
  unfold encodeArg
  rw [hloc]
  simp [hk, A64EncodingKind.val]

theorem encodeArgs_congr (cfg : BuildConfig) (encoder : A64EncodingMap) (l1 l2 : LIR)
    (wide : Bool) (i : Nat) (loc : FieldLoc) (hloc : encoder.field_loc[i]? = some loc)
    (hk : loc.kind = kFmtUnused)
    (h : ∀ j, j < i → l1.operands.get j = l2.operands.get j) :
    ∀ (n j bits : Nat), j ≤ i → i < j + n →
      encodeArgs cfg encoder l1 wide n j bits = encodeArgs cfg encoder l2 wide n j bits := by
  intro n
  induction n with
  | zero => intro j bits _ h2; omega
  | succ n ih =>
    intro j bits h1 h2
    unfold encodeArgs
    by_cases hji : j = i
    · subst hji
      rw [encodeArg_unused cfg encoder l1 wide j bits loc hloc hk,
        encodeArg_unused cfg encoder l2 wide j bits loc hloc hk]
    · rw [encodeArg_congr cfg encoder l1 l2 wide j bits (h j (by omega))]
      cases encodeArg cfg encoder l2 wide j bits with
      | error e => rfl
      | ok s =>
        cases s with
        | done b => rfl
        | next b => exact ih (j + 1) b (by omega) (by omega)

/-- C7: for every table entry whose field `i` is `kFmtUnused`, the outcome of the encoder
(the word, or the failed check) does not depend on `operands[i] .. operands[3]`: two
records with the same opcode and the same operands before slot `i` encode alike. -/
theorem unused_field_ends_operands (cfg : BuildConfig) (op : A64Opcode) (i : Nat)
    (l1 l2 : LIR) (loc : FieldLoc) (hi : i < 4)
    (hloc : (EncodingMap op).field_loc[i]? = some loc) (hk : loc.kind = kFmtUnused)
    (hop : l1.opcode = l2.opcode)
    (h : ∀ j, j < i → l1.operands.get j = l2.operands.get j) :
    encodeInsn cfg l1 op = encodeInsn cfg l2 op := by
  have key : ∀ bits, encodeArgs cfg (EncodingMap op) l1 (IS_WIDE l2.opcode) 4 0 bits
      = encodeArgs cfg (EncodingMap op) l2 (IS_WIDE l2.opcode) 4 0 bits := fun bits =>
    encodeArgs_congr cfg (EncodingMap op) l1 l2 (IS_WIDE l2.opcode) i loc hloc hk h 4 0 bits
      (by omega) (by omega)
  simp only [encodeInsn, hop, key]

theorem unused_field_ends_operands_witness :
    (2 < 4) ∧ (EncodingMap kA64Adr2xd).field_loc[2]? = some ⟨kFmtUnused, -1, -1⟩ ∧
    encodeInsn releaseConfig (mkLIR kA64Adr2xd 3 (-4) 7 0) kA64Adr2xd
      = encodeInsn releaseConfig (mkLIR kA64Adr2xd 3 (-4) (-1) 99) kA64Adr2xd ∧
    encodeInsn releaseConfig (mkLIR kA64Adr2xd 3 (-4) 7 0) kA64Adr2xd = .ok 0x10ffffe3 :=
  ⟨by decide, rfl,
    unused_field_ends_operands releaseConfig kA64Adr2xd 2 (mkLIR kA64Adr2xd 3 (-4) 7 0)
      (mkLIR kA64Adr2xd 3 (-4) (-1) 99) ⟨kFmtUnused, -1, -1⟩ (by decide) rfl rfl rfl
      (fun j hj => by
        have hj2 : j = 0 ∨ j = 1 := by omega
        rcases hj2 with rfl | rfl <;> rfl),
    by decide⟩

/-! ## C4: the bytes stored by `EncodeLIRs` -/

theorem encodeInsn_eraseOffset (cfg : BuildConfig) (lir : LIR) (op : A64Opcode) :
    encodeInsn cfg (eraseOffset lir) op = encodeInsn cfg lir op := rfl

theorem encodeInsn_setOffset (cfg : BuildConfig) (lir : LIR) (op : A64Opcode) (o : Nat) :
    encodeInsn cfg { lir with offset := o } op = encodeInsn cfg lir op := rfl

theorem EqOff.get {a b : List LIR} (h : EqOff a b) {i : Nat} {l : LIR} (hl : a[i]? = some l) :
    ∃ l', b[i]? = some l' ∧ eraseOffset l' = eraseOffset l := by
  have h1 : (a.map eraseOffset)[i]? = (b.map eraseOffset)[i]? := by rw [h]
  rw [List.getElem?_map, List.getElem?_map, hl] at h1
  cases hb : b[i]? with
  | none => rw [hb] at h1; cases h1
  | some l' =>
    rw [hb] at h1
    refine ⟨l', rfl, ?_⟩
    simpa using h1.symm

theorem EqOff.set_offset {a b : List LIR} (h : EqOff a b) {i : Nat} {l : LIR}
    (hl : b[i]? = some l) (o : Nat) : EqOff a (b.set i { l with offset := o }) := by
  unfold EqOff at *
  rw [h, List.map_set]
  apply List.ext_getElem?
  intro j
  rw [List.getElem?_set]
  by_cases hij : i = j
  · subst hij
    have hlt : i < (List.map eraseOffset b).length := by
      rw [List.length_map]
      exact (List.getElem?_eq_some_iff.mp hl).1
    simp only [if_true, hlt, List.getElem?_map, hl]
    rfl
  · simp [hij]

theorem eraseOffset_fields {l l' : LIR} (h : eraseOffset l' = eraseOffset l) :
    l'.opcode = l.opcode ∧ l'.next = l.next ∧ l'.flags = l.flags ∧ l'.operands = l.operands := by
  have h1 := congrArg LIR.opcode h
  have h2 := congrArg LIR.next h
  have h3 := congrArg LIR.flags h
  have h4 := congrArg LIR.operands h
  exact ⟨h1, h2, h3, h4⟩

theorem EncodeLIRsFrom_bytes (cfg : BuildConfig) (lirs0 : List LIR) (word : Nat → Nat) :
    ∀ (idxs : List Nat) (lirs : List LIR) (out : List Nat) (head : Option Nat) (fuel : Nat),
      EqOff lirs0 lirs → NextPath lirs0 head idxs → idxs.length ≤ fuel →
      (∀ i ∈ idxs, ∀ lir op, lirs0[i]? = some lir → lir.opcode.base = .insn op →
        lir.flags.is_nop = false → encodeInsn cfg lir op = .ok (word i)) →
      ∃ lirs', EncodeLIRsFrom cfg fuel lirs out head
          = .ok (lirs', out ++ emittedBytes lirs0 word idxs) ∧ EqOff lirs0 lirs' := by
  intro idxs
  induction idxs with
  | nil =>
    intro lirs out head fuel heq hpath _ _
    have hh : head = none := hpath
    subst hh
    refine ⟨lirs, ?_, heq⟩
    cases fuel <;> simp [EncodeLIRsFrom, emittedBytes]
  | cons i rest ih =>
    intro lirs out head fuel heq hpath hfuel hword
    obtain ⟨_, hhead, l0, hl0, hrest⟩ := hpath
    subst hhead
    obtain ⟨l, hl, hel⟩ := heq.get hl0
    obtain ⟨hop, hnext, hflags, _⟩ := eraseOffset_fields hel
    cases fuel with
    | zero => simp at hfuel
    | succ fuel =>
      have hfuel' : rest.length ≤ fuel := by simpa using hfuel
      have heq' := heq.set_offset hl (wrap32 out.length)
      have hword' : ∀ j ∈ rest, ∀ lir op, lirs0[j]? = some lir → lir.opcode.base = .insn op →
          lir.flags.is_nop = false → encodeInsn cfg lir op = .ok (word j) :=
        fun j hj => hword j (List.mem_cons_of_mem _ hj)
      unfold EncodeLIRsFrom
      simp only [hl]
      cases hb : l0.opcode.base with
      | pseudo c =>
        have hb' : UNWIDE l.opcode = .pseudo c := by rw [hop]; exact hb
        simp only [hb']
        obtain ⟨lirs', hrun, heq''⟩ := ih _ out l.next fuel heq' (hnext ▸ hrest) hfuel' hword'
        refine ⟨lirs', ?_, heq''⟩
        rw [hrun]
        have hem : emitsAt lirs0 i = false := by
          simp [emitsAt, hl0, emits, UNWIDE, hb, IsPseudoLirOp]
        simp [emittedBytes, List.filter_cons, hem]
      | insn op =>
        have hb' : UNWIDE l.opcode = .insn op := by rw [hop]; exact hb
        simp only [hb']
        cases hn : l0.flags.is_nop with
        | true =>
          have hn' : l.flags.is_nop = true := by rw [hflags]; exact hn
          simp only [hn']
          obtain ⟨lirs', hrun, heq''⟩ := ih _ out l.next fuel heq' (hnext ▸ hrest) hfuel' hword'
          refine ⟨lirs', ?_, heq''⟩
          simp only [Bool.not_true, Bool.false_eq_true, if_false]
          rw [hrun]
          have hem : emitsAt lirs0 i = false := by
            simp [emitsAt, hl0, emits, hn]
          simp [emittedBytes, List.filter_cons, hem]
        | false =>
          have hn' : l.flags.is_nop = false := by rw [hflags]; exact hn
          have henc : encodeInsn cfg { l with offset := wrap32 out.length } op = .ok (word i) := by
            rw [encodeInsn_setOffset, ← encodeInsn_eraseOffset, hel, encodeInsn_eraseOffset]
            exact hword i (List.mem_cons_self _ _) l0 op hl0 hb hn
          simp only [hn', henc]
          obtain ⟨lirs', hrun, heq''⟩ :=
            ih _ (out ++ wordBytes (word i)) l.next fuel heq' (hnext ▸ hrest) hfuel' hword'
          refine ⟨lirs', ?_, heq''⟩
          simp only [Bool.not_false, if_true]
          rw [hrun]
          have hem : emitsAt lirs0 i = true := by
            simp [emitsAt, hl0, emits, UNWIDE, hb, IsPseudoLirOp, hn]
          simp [emittedBytes, List.filter_cons, hem]

theorem wordBytes_length (w : Nat) : (wordBytes w).length = 4 := rfl

theorem emittedBytes_length (lirs : List LIR) (word : Nat → Nat) (idxs : List Nat) :
    (emittedBytes lirs word idxs).length = 4 * (idxs.filter (emitsAt lirs)).length := by
  unfold emittedBytes
  induction idxs.filter (emitsAt lirs) with
  | nil => rfl
  | cons a t ih =>
    simp only [List.map_cons, List.flatten_cons, List.length_append, List.length_cons, ih,
      wordBytes_length]
    omega

theorem field_loc_length (op : A64Opcode) : (EncodingMap op).field_loc.length = 4 := by
  cases op <;> rfl

theorem encodeArg_release (cfg : BuildConfig) (hd : cfg.kIsDebugBuild = false)
    (hc : cfg.kEnableDChecks = false) (encoder : A64EncodingMap) (lir : LIR) (wide : Bool)
    (i bits : Nat) (hi : i < encoder.field_loc.length) :
    ∃ s, encodeArg cfg encoder lir wide i bits = .ok s := by
  unfold encodeArg
  rw [List.getElem?_eq_getElem hi]
  simp only [regCheck_release cfg hd, DCHECK, hc]
  cases encoder.field_loc[i].kind <;> simp [A64EncodingKind.val]

theorem encodeArgs_release (cfg : BuildConfig) (hd : cfg.kIsDebugBuild = false)
    (hc : cfg.kEnableDChecks = false) (encoder : A64EncodingMap) (lir : LIR) (wide : Bool) :
    ∀ (n i bits : Nat), i + n ≤ encoder.field_loc.length →
      ∃ w, encodeArgs cfg encoder lir wide n i bits = .ok w := by
  intro n
  induction n with
  | zero => intro i bits _; exact ⟨bits, rfl⟩
  | succ n ih =>
    intro i bits h
    unfold encodeArgs
    obtain ⟨s, hs⟩ := encodeArg_release cfg hd hc encoder lir wide i bits (by omega)
    rw [hs]
    cases s with
    | done b => exact ⟨b, rfl⟩
    | next b => exact ih (i + 1) b (by omega)

/-- In a build without debug checks the operand encoder builds a word for every record. -/
theorem encodeInsn_release (cfg : BuildConfig) (hd : cfg.kIsDebugBuild = false)
    (hc : cfg.kEnableDChecks = false) (lir : LIR) (op : A64Opcode) :
    ∃ w, encodeInsn cfg lir op = .ok w := by
  obtain ⟨w, hw⟩ := encodeArgs_release cfg hd hc (EncodingMap op) lir (IS_WIDE lir.opcode) 4 0
    (if IS_WIDE lir.opcode then (EncodingMap op).xskeleton else (EncodingMap op).wskeleton)
    (by rw [field_loc_length])
  refine ⟨w, ?_⟩
  simp only [encodeInsn, DCHECK, hc, hw]
  rfl

theorem wordAt_spec (cfg : BuildConfig) (lirs : List LIR) (i : Nat) (r : LIR) (op : A64Opcode)
    (hr : lirs[i]? = some r) (hop : r.opcode.base = .insn op) (w : Nat)
    (hw : encodeInsn cfg r op = .ok w) : encodeInsn cfg r op = .ok (wordAt cfg lirs i) := by
  simp only [wordAt, hr, hop, hw]

/-- C4: for every instruction list (the records `idxs` reached from `lir` along `next`),
`EncodeLIRs` stores exactly the concatenation, in list order, of the little-endian 4-byte
images of the words of the records that are neither pseudo-ops nor flagged `is_nop`,
stores nothing for the other records, and returns the start position advanced by 4 times
the number of emitting records. This holds in every build without debug checks, and in
the other builds whenever no check of the operand encoder stops an emitting record. -/
theorem EncodeLIRs_bytes (cfg : BuildConfig) (lirs : List LIR) (write_pos : Nat)
    (lir : Option Nat) (idxs : List Nat) (fuel : Nat)
    (hpath : NextPath lirs lir idxs) (hfuel : idxs.length ≤ fuel)
    (hchecks : (cfg.kIsDebugBuild = false ∧ cfg.kEnableDChecks = false) ∨
      ∀ i ∈ idxs, ∀ r op, lirs[i]? = some r → r.opcode.base = .insn op →
        r.flags.is_nop = false → ∃ w, encodeInsn cfg r op = .ok w) :
    ∃ lirs', EncodeLIRs cfg fuel lirs write_pos lir
      = .ok (lirs',
          ((idxs.filter (emitsAt lirs)).map fun i =>
            [wordAt cfg lirs i &&& 0xff, (wordAt cfg lirs i >>> 8) &&& 0xff,
              (wordAt cfg lirs i >>> 16) &&& 0xff, (wordAt cfg lirs i >>> 24) &&& 0xff]).flatten,
          write_pos + 4 * (idxs.filter (emitsAt lirs)).length) := by
  have hword : ∀ i ∈ idxs, ∀ r op, lirs[i]? = some r → r.opcode.base = .insn op →
      r.flags.is_nop = false → encodeInsn cfg r op = .ok (wordAt cfg lirs i) := by
    intro i hi r op hr hop hn
    rcases hchecks with ⟨hd, hc⟩ | hall
    · obtain ⟨w, hw⟩ := encodeInsn_release cfg hd hc r op
      exact wordAt_spec cfg lirs i r op hr hop w hw
    · obtain ⟨w, hw⟩ := hall i hi r op hr hop hn
      exact wordAt_spec cfg lirs i r op hr hop w hw
  obtain ⟨lirs', hrun, _⟩ :=
    EncodeLIRsFrom_bytes cfg lirs (wordAt cfg lirs) idxs lirs [] lir fuel rfl hpath hfuel hword
  refine ⟨lirs', ?_⟩
  unfold EncodeLIRs
  rw [hrun]
  simp only [List.nil_append, emittedBytes_length]
  rfl

theorem EncodeLIRs_bytes_witness :
    NextPath [mkLIR kA64Ret 0 0 0 0] (some 0) [0] ∧
    ∃ lirs', EncodeLIRs releaseConfig 1 [mkLIR kA64Ret 0 0 0 0] 16 (some 0)
      = .ok (lirs',
          (([0].filter (emitsAt [mkLIR kA64Ret 0 0 0 0])).map fun i =>
            [wordAt releaseConfig [mkLIR kA64Ret 0 0 0 0] i &&& 0xff,
              (wordAt releaseConfig [mkLIR kA64Ret 0 0 0 0] i >>> 8) &&& 0xff,
              (wordAt releaseConfig [mkLIR kA64Ret 0 0 0 0] i >>> 16) &&& 0xff,
              (wordAt releaseConfig [mkLIR kA64Ret 0 0 0 0] i >>> 24) &&& 0xff]).flatten,
          16 + 4 * ([0].filter (emitsAt [mkLIR kA64Ret 0 0 0 0])).length) :=
  ⟨⟨by decide, rfl, _, rfl, rfl⟩,
    EncodeLIRs_bytes releaseConfig [mkLIR kA64Ret 0 0 0 0] 16 (some 0) [0] 1
      ⟨by decide, rfl, _, rfl, rfl⟩ (by decide) (Or.inl ⟨rfl, rfl⟩)⟩

/-! ## C9: a wide opcode on an entry without wide form -/

theorem EncodeLIRsFrom_wide_dcheck (cfg : BuildConfig) (hc : cfg.kEnableDChecks = true)
    (lirs0 : List LIR) (p : Nat) (r : LIR) (op : A64Opcode) (hr : lirs0[p]? = some r)
    (hop : r.opcode = ⟨.insn op, true⟩) (hnop : r.flags.is_nop = false)
    (hnw : IS_WIDE (EncodingMap op).opcode = false) :
    ∀ (idxs : List Nat) (lirs : List LIR) (out : List Nat) (head : Option Nat) (fuel : Nat),
      EqOff lirs0 lirs → NextPath lirs0 head idxs → p ∈ idxs →
      ∃ e, EncodeLIRsFrom cfg fuel lirs out head = .error e := by
  intro idxs
  induction idxs with
  | nil => intro _ _ _ _ _ _ hp; simp at hp
  | cons i rest ih =>
    intro lirs out head fuel heq hpath hp
    obtain ⟨_, hhead, l0, hl0, hrest⟩ := hpath
    subst hhead
    obtain ⟨l, hl, hel⟩ := heq.get hl0
    obtain ⟨hopc, hnext, hflags, _⟩ := eraseOffset_fields hel
    cases fuel with
    | zero => exact ⟨_, rfl⟩
    | succ fuel =>
      have heq' := heq.set_offset hl (wrap32 out.length)
      unfold EncodeLIRsFrom
      simp only [hl]
      by_cases hip : i = p
      · subst hip
        rw [hl0] at hr
        injection hr with hr
        subst hr
        have hb' : UNWIDE l.opcode = .insn op := by rw [hopc, hop]; rfl
        have hn' : l.flags.is_nop = false := by rw [hflags]; exact hnop
        have hw' : IS_WIDE l.opcode = true := by rw [hopc, hop]; rfl
        have henc : encodeInsn cfg { l with offset := wrap32 out.length } op
            = .error (.dcheck "DCHECK(!opcode_is_wide || IS_WIDE(encoder->opcode))") := by
          rw [encodeInsn_setOffset]
          simp [encodeInsn, hw', hnw, DCHECK, hc]
        simp only [hb', hn', henc]
        exact ⟨_, rfl⟩
      · have hp' : p ∈ rest := by
          rcases List.mem_cons.mp hp with h | h
          · exact absurd h.symm hip
          · exact h
        have hrec := fun out' => ih _ out' l.next fuel heq' (hnext ▸ hrest) hp'
        cases hb : UNWIDE l.opcode with
        | pseudo c => exact hrec out
        | insn op' =>
          simp only []
          cases hn : l.flags.is_nop with
          | true => simpa using hrec out
          | false =>
            simp only [Bool.not_false, if_true]
            cases henc : encodeInsn cfg { l with offset := wrap32 out.length } op' with
            | error e => exact ⟨e, rfl⟩
            | ok bits => exact hrec _

/-- C9 as amended: in a build with `DCHECK`s, `EncodeLIRs` does not return on an
instruction list that holds a record, not flagged `is_nop`, whose opcode carries the wide
flag while its table entry defines no wide form (the `opcode` of the entry is not
`WIDE`, as for the `NO_VARIANTS` entries `kA64Adr2xd`, `kA64B1t` and `kA64Nop0`);
no word is stored for such a record. -/
theorem wide_without_variant_fatal (cfg : BuildConfig) (hc : cfg.kEnableDChecks = true)
    (lirs : List LIR) (write_pos : Nat) (lir : Option Nat) (idxs : List Nat) (fuel : Nat)
    (p : Nat) (r : LIR) (op : A64Opcode)
    (hpath : NextPath lirs lir idxs) (hp : p ∈ idxs) (hr : lirs[p]? = some r)
    (hop : r.opcode = ⟨.insn op, true⟩) (hnop : r.flags.is_nop = false)
    (hnw : IS_WIDE (EncodingMap op).opcode = false) :
    (∃ e, EncodeLIRs cfg fuel lirs write_pos lir = .error e) ∧
    IS_WIDE (EncodingMap kA64Adr2xd).opcode = false ∧
    IS_WIDE (EncodingMap kA64B1t).opcode = false ∧
    IS_WIDE (EncodingMap kA64Nop0).opcode = false := by
  refine ⟨?_, by decide, by decide, by decide⟩
  obtain ⟨e, he⟩ := EncodeLIRsFrom_wide_dcheck cfg hc lirs p r op hr hop hnop hnw idxs lirs []
    lir fuel rfl hpath hp
  exact ⟨e, by unfold EncodeLIRs; rw [he]⟩

theorem wide_without_variant_fatal_witness :
    debugConfig.kEnableDChecks = true ∧ NextPath wideNopList (some 0) [0] ∧
    (∃ e, EncodeLIRs debugConfig 1 wideNopList 0 (some 0) = .error e) :=
  ⟨rfl, ⟨by decide, rfl, _, rfl, rfl⟩,
    (wide_without_variant_fatal debugConfig rfl wideNopList 0 (some 0) [0] 1 0
      (mkLIR (WIDE kA64Nop0) 0 0 0 0) kA64Nop0 ⟨by decide, rfl, _, rfl, rfl⟩
      (List.mem_cons_self _ _) rfl rfl rfl rfl).1⟩

/-- C9, counterexample: in a build without `DCHECK`s, `EncodeLIRs` stores a word for the
record `WIDE(kA64Nop0)`, the wide skeleton 0 of the entry. -/
theorem wide_without_variant_emitted :
    EncodeLIRs releaseConfig 1 wideNopList 0 (some 0) = .ok (wideNopList, [0, 0, 0, 0], 4) := by
  decide

/-! ## C8 and C3: the wide skeleton of `kA64Ldrsh4rXxd` -/

/-- C8, evaluated: the wide skeleton `0x78906800` of `kA64Ldrsh4rXxd` has bit 20 set, inside
the register field `[20:16]` of operand 2, so the entry fails the test that every simple
field lies on zero bits of both skeletons; every other entry of the table passes it. -/
theorem ldrsh_wide_skeleton_overlaps_field :
    (EncodingMap kA64Ldrsh4rXxd).field_loc[2]? = some ⟨kFmtRegX, 20, 16⟩ ∧
    (EncodingMap kA64Ldrsh4rXxd).xskeleton = 0x78906800 ∧
    (EncodingMap kA64Ldrsh4rXxd).xskeleton &&& (⟨kFmtRegX, 20, 16⟩ : FieldLoc).mask = 0x100000 ∧
    skeletonsClear (EncodingMap kA64Ldrsh4rXxd) = false ∧
    ∀ op : A64Opcode, op = kA64Ldrsh4rXxd ∨ skeletonsClear (EncodingMap op) = true := by
  refine ⟨by decide, by decide, by decide, by decide, ?_⟩
  intro op
  cases op <;> first | exact Or.inl rfl | exact Or.inr (by decide)

theorem testBit_0x78906800 (k : Nat) (hk : 16 ≤ k) (hk2 : k ≤ 20) :
    Nat.testBit 0x78906800 k = decide (k = 20) := by
  interval_cases k <;> decide

theorem testBit_16 (k : Nat) : Nat.testBit 16 k = decide (k = 4) := by
  have h : (16 : Nat) = 2 ^ 4 := by norm_num
  rw [h, Nat.testBit_two_pow]
  by_cases hk : k = 4
  · simp [hk]
  · have : ¬ (4 = k) := fun h => hk h.symm
    simp [hk, this]

/-! ## Read-back of a simple field -/

theorem entryIsolated_table (op : A64Opcode) :
    entryIsolated (EncodingMap op) (decide (op = kA64Ldrsh4rXxd)) = true := by
  cases op <;> decide

theorem testBit_mask (loc : FieldLoc) (h0 : 0 ≤ loc.start) (hse : loc.start ≤ loc.end_)
    (k : Nat) :
    loc.mask.testBit k = decide (loc.start.toNat ≤ k ∧ k ≤ loc.end_.toNat) := by
  have h1 : (loc.end_ + 1).toNat = (loc.end_.toNat - loc.start.toNat + 1) + loc.start.toNat := by
    omega
  have h2 : loc.mask = (2 ^ (loc.end_.toNat - loc.start.toNat + 1) - 1) <<< loc.start.toNat := by
    unfold FieldLoc.mask
    rw [h1, Nat.shiftLeft_eq, pow_add, Nat.sub_mul, one_mul]
    have hp : 1 ≤ 2 ^ loc.start.toNat := Nat.one_le_two_pow
    have hq : 2 ^ loc.start.toNat
        ≤ 2 ^ (loc.end_.toNat - loc.start.toNat + 1) * 2 ^ loc.start.toNat :=
      Nat.le_mul_of_pos_left _ (Nat.two_pow_pos _)
    omega
  rw [h2, Nat.testBit_shiftLeft, Nat.testBit_two_pow_sub_one]
  by_cases hk : loc.start.toNat ≤ k
  · by_cases hk2 : k ≤ loc.end_.toNat
    · have : k - loc.start.toNat < loc.end_.toNat - loc.start.toNat + 1 := by omega
      simp [hk, hk2, this]
    · have : ¬ (k - loc.start.toNat < loc.end_.toNat - loc.start.toNat + 1) := by omega
      simp [hk, hk2, this]
  · simp [hk]

theorem testBit_0x3f (k : Nat) : Nat.testBit 0x3f k = decide (k < 6) :=
  Nat.testBit_two_pow_sub_one 6 k

theorem testBit_0x1f (k : Nat) : Nat.testBit 0x1f k = decide (k < 5) :=
  Nat.testBit_two_pow_sub_one 5 k

theorem testBit_0x1c0 (k : Nat) : Nat.testBit 0x1c0 k = decide (6 ≤ k ∧ k < 9) := by
  have h : (0x1c0 : Nat) = (2 ^ 3 - 1) <<< 6 := by decide
  rw [h, Nat.testBit_shiftLeft, Nat.testBit_two_pow_sub_one]
  by_cases h2 : 6 ≤ k
  · by_cases h3 : k < 9
    · have : k - 6 < 3 := by omega
      simp [h2, h3, this]
    · have : ¬ (k - 6 < 3) := by omega
      simp [h2, h3, this]
  · simp [h2]

theorem testBit_0x20 (k : Nat) : Nat.testBit 0x20 k = decide (k = 5) := by
  have h : (0x20 : Nat) = 2 ^ 5 := by norm_num
  rw [h, Nat.testBit_two_pow]
  by_cases hk : k = 5
  · simp [hk]
  · have : ¬ (5 = k) := fun h => hk h.symm
    simp [hk, this]

theorem testBit_ge32 {v : Nat} (hv : v < 4294967296) {k : Nat} (hk : ¬ k < 32) :
    v.testBit k = false := by
  have hp : (4294967296 : Nat) ≤ 2 ^ k := by
    have : (2 : Nat) ^ 32 ≤ 2 ^ k := Nat.pow_le_pow_right (by norm_num) (by omega)
    simpa using this
  exact Nat.testBit_lt_two_pow (lt_of_lt_of_le hv hp)

theorem or_wrap32_lt (a b : Nat) : wrap32 a ||| wrap32 b < 4294967296 := by
  have h := @Nat.or_lt_two_pow _ _ 32 (show wrap32 a < 2 ^ 32 from wrap32_lt _)
    (show wrap32 b < 2 ^ 32 from wrap32_lt _)
  simpa using h

/-- Bits of a `kFmtShift` or `kFmtExtend` value: operand bits `[5:0]` in word bits `[15:10]`
and operand bits `[8:6]` in word bits `[23:21]`. -/
theorem testBit_shiftExtendValue (operand k : Nat) :
    (shiftExtendValue operand).testBit k
      = if 10 ≤ k ∧ k ≤ 15 then operand.testBit (k - 10)
        else if 21 ≤ k ∧ k ≤ 23 then operand.testBit (k - 15) else false := by
  by_cases hk : k < 32
  · unfold shiftExtendValue
    interval_cases k <;>
      simp [-Nat.testBit_zero, testBit_wrap32, Nat.testBit_or, Nat.testBit_and,
        Nat.testBit_shiftLeft, Nat.testBit_shiftRight, testBit_0x3f, testBit_0x1c0]
  · rw [testBit_ge32 (show shiftExtendValue operand < 4294967296 from or_wrap32_lt _ _) hk]
    have h1 : ¬ (10 ≤ k ∧ k ≤ 15) := by omega
    have h2 : ¬ (21 ≤ k ∧ k ≤ 23) := by omega
    simp [h1, h2]

/-- Bits of a `kFmtImm6Shift` value: operand bits `[4:0]` in word bits `[23:19]` and operand
bit 5 in word bit 31. -/
theorem testBit_imm6ShiftValue (operand k : Nat) :
    (imm6ShiftValue operand).testBit k
      = if 19 ≤ k ∧ k ≤ 23 then operand.testBit (k - 19)
        else if k = 31 then operand.testBit 5 else false := by
  by_cases hk : k < 32
  · unfold imm6ShiftValue
    interval_cases k <;>
      simp [-Nat.testBit_zero, testBit_wrap32, Nat.testBit_or, Nat.testBit_and,
        Nat.testBit_shiftLeft, Nat.testBit_shiftRight, testBit_0x1f, testBit_0x20]
  · rw [testBit_ge32 (show imm6ShiftValue operand < 4294967296 from or_wrap32_lt _ _) hk]
    have h1 : ¬ (19 ≤ k ∧ k ≤ 23) := by omega
    have h2 : ¬ (k = 31) := by omega
    simp [h1, h2]

theorem testBit_0x00e0fc00 (k : Nat) :
    Nat.testBit 0x00e0fc00 k = decide ((10 ≤ k ∧ k ≤ 15) ∨ (21 ≤ k ∧ k ≤ 23)) := by
  by_cases hk : k < 32
  · interval_cases k <;> decide
  · rw [testBit_ge32 (by norm_num) hk]
    have : ¬ ((10 ≤ k ∧ k ≤ 15) ∨ (21 ≤ k ∧ k ≤ 23)) := by omega
    simp [this]

theorem testBit_0x60ffffe0 (k : Nat) :
    Nat.testBit 0x60ffffe0 k = decide (k = 29 ∨ k = 30 ∨ (5 ≤ k ∧ k ≤ 23)) := by
  by_cases hk : k < 32
  · interval_cases k <;> decide
  · rw [testBit_ge32 (by norm_num) hk]
    have : ¬ (k = 29 ∨ k = 30 ∨ (5 ≤ k ∧ k ≤ 23)) := by omega
    simp [this]

theorem testBit_0x80f80000 (k : Nat) :
    Nat.testBit 0x80f80000 k = decide ((19 ≤ k ∧ k ≤ 23) ∨ k = 31) := by
  by_cases hk : k < 32
  · interval_cases k <;> decide
  · rw [testBit_ge32 (by norm_num) hk]
    have : ¬ ((19 ≤ k ∧ k ≤ 23) ∨ k = 31) := by omega
    simp [this]

/-- A field sets only bits of its mask. -/
theorem argValue_touchMask (loc : FieldLoc) (hr : loc.rangeOk = true) (operand k : Nat)
    (h : (argValue loc operand).testBit k = true) : loc.touchMask.testBit k = true := by
  unfold argValue at h
  unfold FieldLoc.touchMask
  by_cases hs : loc.kind.val ≤ kFmtBitBlt.val
  · simp only [hs, if_true] at h ⊢
    have hr2 : 0 ≤ loc.start ∧ loc.start ≤ loc.end_ ∧ loc.end_ ≤ 30 := by
      simpa [FieldLoc.rangeOk, FieldLoc.isSimple, hs, and_assoc] using hr
    rw [testBit_fieldValue _ _ _ hr2.1 hr2.2.1 hr2.2.2] at h
    rw [testBit_mask _ hr2.1 hr2.2.1]
    simp only [Bool.and_eq_true] at h
    exact h.1
  · simp only [hs, if_false] at h ⊢
    cases hk : loc.kind <;> rw [hk] at h hs <;>
      first
      | exact absurd (by decide) hs
      | (simp only [Nat.zero_testBit] at h; exact absurd h (by decide))
      | (rw [testBit_shiftExtendValue] at h
         show Nat.testBit 0x00e0fc00 k = true
         rw [testBit_0x00e0fc00]
         split at h
         · simp [*]
         · split at h
           · simp [*]
           · exact absurd h (by decide))
      | (rw [testBit_imm21Value] at h
         show Nat.testBit 0x60ffffe0 k = true
         rw [testBit_0x60ffffe0]
         split at h
         · rename_i h1
           rcases h1 with h1 | h1 <;> simp [h1]
         · split at h
           · simp [*]
           · exact absurd h (by decide))
      | (rw [testBit_imm6ShiftValue] at h
         show Nat.testBit 0x80f80000 k = true
         rw [testBit_0x80f80000]
         split at h
         · simp [*]
         · split at h
           · simp [*]
           · exact absurd h (by decide))

theorem encodeArg_ok (cfg : BuildConfig) (e : A64EncodingMap) (lir : LIR) (wide : Bool)
    (i bits : Nat) (s : ArgStep) (h : encodeArg cfg e lir wide i bits = .ok s) :
    ∃ loc, e.field_loc[i]? = some loc ∧
      ((loc.kind = kFmtUnused ∧ s = .done bits) ∨
       (loc.kind ≠ kFmtUnused ∧
         s = .next (bits ||| argValue loc (toU32 (lir.operands.get i))))) := by
  unfold encodeArg at h
  cases hl : e.field_loc[i]? with
  | none => rw [hl] at h; cases h
  | some loc =>
    rw [hl] at h
    refine ⟨loc, rfl, ?_⟩
    by_cases hs : loc.kind.val ≤ kFmtBitBlt.val
    · simp only [hs, if_true] at h
      right
      refine ⟨?_, ?_⟩
      · intro hk
        rw [hk] at hs
        exact absurd hs (by decide)
      · split at h
        · cases h
        · injection h with h
          rw [← h]
          simp only [argValue, hs, if_true]
    · simp only [hs, if_false] at h
      unfold argValue
      simp only [hs, if_false]
      cases hk : loc.kind <;> rw [hk] at h hs <;>
        first
        | exact absurd (by decide) hs
        | (left
           injection h with h
           exact ⟨rfl, h.symm⟩)
        | (right
           refine ⟨by decide, ?_⟩
           first
           | (injection h with h
              simpa using h.symm)
           | (dsimp only at h
              split at h
              · cases h
              · injection h with h
                simpa using h.symm))

theorem encodeArgs_upper (cfg : BuildConfig) (e : A64EncodingMap) (lir : LIR) (wide : Bool) :
    ∀ (n i bits w : Nat), encodeArgs cfg e lir wide n i bits = .ok w →
      ∀ k, w.testBit k = true →
        bits.testBit k = true ∨
        ∃ j loc, i ≤ j ∧ j < i + n ∧ e.field_loc[j]? = some loc ∧
          (argValue loc (toU32 (lir.operands.get j))).testBit k = true := by
  intro n
  induction n with
  | zero =>
    intro i bits w h k hk
    simp only [encodeArgs] at h
    injection h with h
    rw [← h] at hk
    exact Or.inl hk
  | succ n ih =>
    intro i bits w h k hk
    rw [encodeArgs] at h
    cases hs : encodeArg cfg e lir wide i bits with
    | error err => rw [hs] at h; cases h
    | ok s =>
      rw [hs] at h
      obtain ⟨loc, hloc, hcase⟩ := encodeArg_ok cfg e lir wide i bits s hs
      rcases hcase with ⟨_, rfl⟩ | ⟨_, rfl⟩
      · injection h with h
        rw [← h] at hk
        exact Or.inl hk
      · rcases ih (i + 1) _ w h k hk with h1 | ⟨j, l, h1, h2, h3, h4⟩
        · rw [Nat.testBit_or, Bool.or_eq_true] at h1
          rcases h1 with h1 | h1
          · exact Or.inl h1
          · exact Or.inr ⟨i, loc, le_refl _, by omega, hloc, h1⟩
        · exact Or.inr ⟨j, l, by omega, by omega, h3, h4⟩

theorem encodeArgs_mono (cfg : BuildConfig) (e : A64EncodingMap) (lir : LIR) (wide : Bool) :
    ∀ (n i bits w : Nat), encodeArgs cfg e lir wide n i bits = .ok w →
      ∀ k, bits.testBit k = true → w.testBit k = true := by
  intro n
  induction n with
  | zero =>
    intro i bits w h k hk
    simp only [encodeArgs] at h
    injection h with h
    rw [← h]
    exact hk
  | succ n ih =>
    intro i bits w h k hk
    rw [encodeArgs] at h
    cases hs : encodeArg cfg e lir wide i bits with
    | error err => rw [hs] at h; cases h
    | ok s =>
      rw [hs] at h
      obtain ⟨loc, _, hcase⟩ := encodeArg_ok cfg e lir wide i bits s hs
      rcases hcase with ⟨_, rfl⟩ | ⟨_, rfl⟩
      · injection h with h
        rw [← h]
        exact hk
      · refine ih (i + 1) _ w h k ?_
        rw [Nat.testBit_or, hk, Bool.true_or]

theorem encodeArgs_lower (cfg : BuildConfig) (e : A64EncodingMap) (lir : LIR) (wide : Bool)
    (j : Nat) (loc : FieldLoc) (hloc : e.field_loc[j]? = some loc)
    (hreach : ∀ j2 l, j2 < j → e.field_loc[j2]? = some l → l.kind ≠ kFmtUnused) :
    ∀ (n i bits w : Nat), encodeArgs cfg e lir wide n i bits = .ok w → i ≤ j → j < i + n →
      ∀ k, (argValue loc (toU32 (lir.operands.get j))).testBit k = true →
        w.testBit k = true := by
  intro n
  induction n with
  | zero =>
    intro i bits w _ h1 h2
    omega
  | succ n ih =>
    intro i bits w h h1 h2 k hk
    rw [encodeArgs] at h
    cases hs : encodeArg cfg e lir wide i bits with
    | error err => rw [hs] at h; cases h
    | ok s =>
      rw [hs] at h
      obtain ⟨l, hl, hcase⟩ := encodeArg_ok cfg e lir wide i bits s hs
      by_cases hij : i = j
      · subst hij
        rw [hloc] at hl
        injection hl with hl
        subst hl
        rcases hcase with ⟨hu, _⟩ | ⟨_, rfl⟩
        · have hz : argValue loc (toU32 (lir.operands.get i)) = 0 := by
            unfold argValue
            rw [hu]
            rfl
          rw [hz, Nat.zero_testBit] at hk
          cases hk
        · refine encodeArgs_mono cfg e lir wide n (i + 1) _ w h k ?_
          rw [Nat.testBit_or, hk, Bool.or_true]
      · rcases hcase with ⟨hu, _⟩ | ⟨_, rfl⟩
        · exact absurd hu (hreach i l (by omega) hl)
        · exact ih (i + 1) _ w h (by omega) (by omega) k hk

theorem fieldIsolated_of_table (op : A64Opcode) (wide : Bool) (i : Nat) (hi : i < 4)
    (hne : ¬ (op = kA64Ldrsh4rXxd ∧ wide = true ∧ i = 2)) :
    fieldIsolated (EncodingMap op) wide i = true := by
  have h := entryIsolated_table op
  unfold entryIsolated at h
  rw [List.all_eq_true] at h
  have h1 := h wide (by cases wide <;> simp)
  rw [List.all_eq_true] at h1
  have h2 := h1 i (List.mem_range.mpr hi)
  rw [Bool.or_eq_true] at h2
  rcases h2 with h2 | h2
  · exfalso
    apply hne
    simp only [Bool.and_eq_true, decide_eq_true_eq, beq_iff_eq] at h2
    exact ⟨h2.1.1, h2.1.2, h2.2⟩
  · exact h2

/-- Read-back of a simple field: whenever the operand encoder builds a word for a record,
bits `[end:start]` of the word are the low `end - start + 1` bits of the operand of every
simple field of the entry, except for field 2 of the wide form of `kA64Ldrsh4rXxd`. -/
theorem simple_field_readback (cfg : BuildConfig) (lir : LIR) (op : A64Opcode) (i : Nat)
    (loc : FieldLoc) (w : Nat) (hw : encodeInsn cfg lir op = .ok w)
    (hloc : (EncodingMap op).field_loc[i]? = some loc)
    (hs : loc.kind.val ≤ kFmtBitBlt.val)
    (hne : ¬ (op = kA64Ldrsh4rXxd ∧ IS_WIDE lir.opcode = true ∧ i = 2)) :
    readField w loc.start.toNat loc.end_.toNat
      = toU32 (lir.operands.get i) % 2 ^ (loc.end_.toNat - loc.start.toNat + 1) := by
  have hi : i < 4 := by
    have := (List.getElem?_eq_some_iff.mp hloc).1
    rwa [field_loc_length] at this
  have hiso := fieldIsolated_of_table op (IS_WIDE lir.opcode) i hi hne
  unfold fieldIsolated at hiso
  rw [hloc] at hiso
  have hsimple : loc.isSimple = true := by simp [FieldLoc.isSimple, hs]
  simp only [hsimple, Bool.not_true, Bool.false_or, Bool.and_eq_true, beq_iff_eq] at hiso
  obtain ⟨⟨hrange, hreach⟩, hmask⟩ := hiso
  rw [List.all_eq_true] at hrange hreach
  have hr : loc.rangeOk = true := hrange loc (List.mem_iff_getElem?.mpr ⟨i, hloc⟩)
  have hr2 : 0 ≤ loc.start ∧ loc.start ≤ loc.end_ ∧ loc.end_ ≤ 30 := by
    simpa [FieldLoc.rangeOk, FieldLoc.isSimple, hs, and_assoc] using hr
  have hreach2 : ∀ j2 l, j2 < i → (EncodingMap op).field_loc[j2]? = some l →
      l.kind ≠ kFmtUnused := by
    intro j2 l hj hl
    have hm : l ∈ (EncodingMap op).field_loc.take i := by
      refine List.mem_iff_getElem?.mpr ⟨j2, ?_⟩
      rw [List.getElem?_take_of_lt hj]
      exact hl
    simpa using hreach l hm
  -- the word is the result of the operand loop on the skeleton
  have hargs : encodeArgs cfg (EncodingMap op) lir (IS_WIDE lir.opcode) 4 0
      (if IS_WIDE lir.opcode then (EncodingMap op).xskeleton else (EncodingMap op).wskeleton)
        = .ok w := by
    simp only [encodeInsn] at hw
    split at hw
    · cases hw
    · split at hw
      · cases hw
      · split at hw
        · cases hw
        · rename_i b hb _ _ _
          rw [hb]
          exact hw
  apply Nat.eq_of_testBit_eq
  intro k
  rw [testBit_readField, Nat.testBit_mod_two_pow]
  by_cases hk : k < loc.end_.toNat - loc.start.toNat + 1
  · simp only [hk, decide_True, Bool.true_and]
    have hval : (argValue loc (toU32 (lir.operands.get i))).testBit (loc.start.toNat + k)
        = (toU32 (lir.operands.get i)).testBit k := by
      simp only [argValue, hs, if_true]
      rw [testBit_fieldValue _ _ _ hr2.1 hr2.2.1 hr2.2.2]
      have h1 : loc.start.toNat ≤ loc.start.toNat + k ∧ loc.start.toNat + k ≤ loc.end_.toNat := by
        omega
      simp [h1]
    have hM : loc.mask.testBit (loc.start.toNat + k) = true := by
      rw [testBit_mask _ hr2.1 hr2.2.1]
      have h1 : loc.start.toNat ≤ loc.start.toNat + k ∧ loc.start.toNat + k ≤ loc.end_.toNat := by
        omega
      simp [h1]
    have hbits := congrArg (fun v => Nat.testBit v (loc.start.toNat + k)) hmask
    simp only [Nat.testBit_and, Nat.testBit_or, hM, Bool.and_true, Nat.zero_testBit,
      Bool.or_eq_false_iff] at hbits
    obtain ⟨⟨⟨⟨hskel, hm0⟩, hm1⟩, hm2⟩, hm3⟩ := hbits
    cases hx : (toU32 (lir.operands.get i)).testBit k with
    | true =>
      exact encodeArgs_lower cfg (EncodingMap op) lir (IS_WIDE lir.opcode) i loc hloc hreach2
        4 0 _ w hargs (Nat.zero_le _) (by omega) _ (by rw [hval, hx])
    | false =>
      cases hwk : w.testBit (loc.start.toNat + k) with
      | false => rfl
      | true =>
        exfalso
        rcases encodeArgs_upper cfg (EncodingMap op) lir (IS_WIDE lir.opcode) 4 0 _ w hargs _ hwk
          with h1 | ⟨j, l, _, hj, hl, h1⟩
        · rw [hskel] at h1
          cases h1
        · by_cases hji : j = i
          · subst hji
            rw [hloc] at hl
            injection hl with hl
            subst hl
            rw [hval, hx] at h1
            cases h1
          · have hlr : l.rangeOk = true := hrange l (List.mem_iff_getElem?.mpr ⟨j, hl⟩)
            have ht := argValue_touchMask l hlr _ _ h1
            have hma : (maskAt (EncodingMap op) i j).testBit (loc.start.toNat + k) = true := by
              simp only [maskAt, hji, if_false, hl]
              exact ht
            have hj4 : j < 4 := by omega
            interval_cases j
            · rw [hm0] at hma; cases hma
            · rw [hm1] at hma; cases hma
            · rw [hm2] at hma; cases hma
            · rw [hm3] at hma; cases hma
  · simp [hk]

/-- C3, evaluated: for the wide form of `kA64Ldrsh4rXxd`, whatever the operands, bits
`[20:16]` of the encoded word are not the low five bits of operand 2 but these bits with
bit 4 forced to 1 (the wide skeleton has bit 20 set); the register x0 reads back as 16.
For every other simple field of the table, and whenever the encoder builds a word, reading
bits `[end:start]` of the word gives the operand modulo `2 ^ (end - start + 1)`. -/
theorem ldrsh_wide_field_readback (a b c d : Int) :
    (EncodingMap kA64Ldrsh4rXxd).field_loc[2]? = some ⟨kFmtRegX, 20, 16⟩ ∧
    (∃ w, encodeInsn releaseConfig (mkLIR (WIDE kA64Ldrsh4rXxd) a b c d) kA64Ldrsh4rXxd = .ok w ∧
      readField w 16 20 = (toU32 c % 2 ^ (20 - 16 + 1)) ||| 16) ∧
    encodeInsn releaseConfig (mkLIR (WIDE kA64Ldrsh4rXxd) 0 0 0 0) kA64Ldrsh4rXxd
      = .ok 0x78906800 ∧
    readField 0x78906800 16 20 = 16 ∧ toU32 0 % 2 ^ (20 - 16 + 1) = 0 ∧
    ∀ (cfg : BuildConfig) (lir : LIR) (op : A64Opcode) (i : Nat) (loc : FieldLoc) (w : Nat),
      encodeInsn cfg lir op = .ok w → (EncodingMap op).field_loc[i]? = some loc →
      loc.kind.val ≤ kFmtBitBlt.val →
      ¬ (op = kA64Ldrsh4rXxd ∧ IS_WIDE lir.opcode = true ∧ i = 2) →
      readField w loc.start.toNat loc.end_.toNat
        = toU32 (lir.operands.get i) % 2 ^ (loc.end_.toNat - loc.start.toNat + 1) := by
  refine ⟨by decide, ?_, by decide, by decide, by decide, ?_⟩
  · refine ⟨((((0x78906800 ||| fieldValue (toU32 a) 0 4) ||| fieldValue (toU32 b) 5 9)
      ||| fieldValue (toU32 c) 16 20) ||| fieldValue (toU32 d) 12 12), ?_, ?_⟩
    · simp [encodeInsn, EncodingMap, ENCODING_MAP, CUSTOM_VARIANTS, encodeArgs, encodeArg,
        DCHECK, IS_WIDE, WIDE, A64EncodingKind.val, mkLIR, Operands.get, releaseConfig, regCheck]
    · apply Nat.eq_of_testBit_eq
      intro k
      rw [testBit_readField]
      simp only [Nat.testBit_or, Nat.testBit_mod_two_pow]
      by_cases hk : k < 5
      · interval_cases k <;>
          simp [-Nat.testBit_zero, Nat.testBit_or, testBit_fieldValue, testBit_0x78906800,
            testBit_16]
      · have h16 : (16 : Nat) < 2 ^ k := by
          have : (2 : Nat) ^ 5 ≤ 2 ^ k := Nat.pow_le_pow_right (by norm_num) (by omega)
          omega
        have : ¬ (k < 20 - 16 + 1) := by omega
        simp [this, Nat.testBit_lt_two_pow h16]
  · intro cfg lir op i loc w hw hloc hs hne
    exact simple_field_readback cfg lir op i loc w hw hloc hs hne

theorem ldrsh_wide_field_readback_witness :
    readField 0x1a0003a0 5 9 = toU32 (-3) % 2 ^ (9 - 5 + 1) :=
  (ldrsh_wide_field_readback 0 0 0 0).2.2.2.2.2 releaseConfig
    (mkLIR kA64Adc3rrr 0 (-3) 0 0) kA64Adc3rrr 1 ⟨kFmtRegR, 9, 5⟩ 0x1a0003a0
    (by decide) (by decide) (by decide) (by decide)
/-! ## Walks along `next` -/

theorem NextSeg.unique {lirs : List LIR} {e : Option Nat} :
    ∀ {l1 l2 : List Nat} {p : Option Nat}, NextSeg lirs e p l1 → NextSeg lirs e p l2 → l1 = l2 := by
  intro l1
  induction l1 with
  | nil =>
    intro l2 p h1 h2
    cases l2 with
    | nil => rfl
    | cons j r2 => exact absurd h1 h2.1
  | cons i rest ih =>
    intro l2 p h1 h2
    obtain ⟨hne, hp, lir, hlir, hrest⟩ := h1
    cases l2 with
    | nil => exact absurd h2 hne
    | cons j r2 =>
      obtain ⟨_, hp2, lir2, hlir2, hrest2⟩ := h2
      rw [hp] at hp2
      injection hp2 with hij
      subst hij
      rw [hlir] at hlir2
      injection hlir2 with hl
      subst hl
      rw [ih hrest hrest2]

theorem NextSeg.suffix {lirs : List LIR} {e : Option Nat} :
    ∀ {a b : List Nat} {p : Option Nat}, NextSeg lirs e p (a ++ b) → ∃ q, NextSeg lirs e q b := by
  intro a
  induction a with
  | nil => intro b p h; exact ⟨p, h⟩
  | cons i rest ih =>
    intro b p h
    obtain ⟨_, _, lir, _, hrest⟩ := h
    exact ih hrest

theorem NextSeg.nodup {lirs : List LIR} {e : Option Nat} :
    ∀ {idxs : List Nat} {p : Option Nat}, NextSeg lirs e p idxs → idxs.Nodup := by
  intro idxs
  induction idxs with
  | nil => intro _ _; exact List.nodup_nil
  | cons i rest ih =>
    intro p h
    have hfull := h
    obtain ⟨_, hp, lir, hlir, hrest⟩ := h
    refine List.nodup_cons.mpr ⟨?_, ih hrest⟩
    intro hmem
    obtain ⟨a, b, hab⟩ := List.append_of_mem hmem
    have hsuf : ∃ q, NextSeg lirs e q (i :: b) := by
      rw [hab] at hrest
      exact NextSeg.suffix hrest
    obtain ⟨q, hq⟩ := hsuf
    have hqi : q = some i := hq.2.1
    rw [hqi, ← hp] at hq
    have := NextSeg.unique hq hfull
    injection this with _ hb
    have hlen : rest.length = (a ++ i :: b).length := by rw [hab]
    rw [hb] at hlen
    simp at hlen
    omega

theorem NextSeg.congr {lirs lirs' : List LIR} {e : Option Nat} :
    ∀ {idxs : List Nat} {p : Option Nat}, (∀ j ∈ idxs, lirs'[j]? = lirs[j]?) →
      NextSeg lirs e p idxs → NextSeg lirs' e p idxs := by
  intro idxs
  induction idxs with
  | nil => intro p _ h; exact h
  | cons i rest ih =>
    intro p hsame h
    obtain ⟨hne, hp, lir, hlir, hrest⟩ := h
    refine ⟨hne, hp, lir, ?_, ih (fun j hj => hsame j (List.mem_cons_of_mem _ hj)) hrest⟩
    rw [hsame i (List.mem_cons_self _ _)]
    exact hlir

theorem sizeAt_congr {lirs lirs' : List LIR} {j : Nat} (h : lirs'[j]? = lirs[j]?) :
    sizeAt lirs' j = sizeAt lirs j := by
  unfold sizeAt; rw [h]

theorem sizeSum_congr {lirs lirs' : List LIR} :
    ∀ {idxs : List Nat}, (∀ j ∈ idxs, lirs'[j]? = lirs[j]?) →
      sizeSum lirs' idxs = sizeSum lirs idxs := by
  intro idxs
  induction idxs with
  | nil => intro _; rfl
  | cons i rest ih =>
    intro hsame
    have h1 := ih (fun j hj => hsame j (List.mem_cons_of_mem _ hj))
    unfold sizeSum at *
    simp only [List.map_cons, List.sum_cons, h1, sizeAt_congr (hsame i (List.mem_cons_self _ _))]

theorem sizeSum_cons (lirs : List LIR) (i : Nat) (rest : List Nat) :
    sizeSum lirs (i :: rest) = sizeAt lirs i + sizeSum lirs rest := by
  simp [sizeSum]

theorem wrap32_add_wrap32 (a b : Nat) : wrap32 (wrap32 a + b) = wrap32 (a + b) := by
  unfold wrap32; omega

theorem wrap32_of_lt {a : Nat} (h : a < 4294967296) : wrap32 a = a := by
  unfold wrap32; omega

theorem getLIR_some {lirs : List LIR} {i : Nat} {r : LIR} (h : lirs[i]? = some r) :
    getLIR lirs (some i) = .ok r := by
  simp [getLIR, h]

theorem updLIR_some {lirs : List LIR} {i : Nat} {r : LIR} (h : lirs[i]? = some r)
    (f : LIR → LIR) : updLIR lirs (some i) f = .ok (lirs.set i (f r)) := by
  simp [updLIR, getLIR, h]

theorem getElem?_set_self_of_some {lirs : List LIR} {i : Nat} {r : LIR} (h : lirs[i]? = some r)
    (v : LIR) : (lirs.set i v)[i]? = some v := by
  rw [List.getElem?_set]
  have : i < lirs.length := (List.getElem?_eq_some_iff.mp h).1
  simp [this]

theorem size_eq_four (op : A64Opcode) : (EncodingMap op).size = 4 := by
  cases op <;> rfl

/-! ## C10: `LinkFixupInsns` -/

theorem linkLoop_nop (env : Env) (e : Option Nat) (fuel : Nat) (lirs : List LIR)
    (first last : Option Nat) (offset i : Nat) (r : LIR) (hne : some i ≠ e)
    (hr : lirs[i]? = some r) (hnop : r.flags.is_nop = true) :
    linkLoop env e (fuel + 1) lirs first last offset (some i)
      = linkLoop env e fuel lirs first last offset r.next := by
  rw [linkLoop]
  simp [hne, getLIR_some hr, hnop, bind, Except.bind]

theorem linkLoop_nofixup (env : Env) (e : Option Nat) (fuel : Nat) (lirs : List LIR)
    (first last : Option Nat) (offset i : Nat) (r : LIR) (hne : some i ≠ e)
    (hr : lirs[i]? = some r) (hnop : r.flags.is_nop = false) (hfx : r.flags.fixup = kFixupNone) :
    linkLoop env e (fuel + 1) lirs first last offset (some i)
      = linkLoop env e fuel lirs first last (wrap32 (offset + r.flags.size)) r.next := by
  rw [linkLoop]
  simp [hne, getLIR_some hr, hnop, hfx, bind, Except.bind]

theorem updLIR_set_self {lirs : List LIR} {i : Nat} {r : LIR} (h : lirs[i]? = some r)
    (v : LIR) (f : LIR → LIR) : updLIR (lirs.set i v) (some i) f = .ok (lirs.set i (f v)) := by
  rw [updLIR_some (getElem?_set_self_of_some h v), List.set_set]

theorem getLIR_set_self {lirs : List LIR} {i : Nat} {r : LIR} (h : lirs[i]? = some r)
    (v : LIR) : getLIR (lirs.set i v) (some i) = .ok v :=
  getLIR_some (getElem?_set_self_of_some h v)

theorem linkLoop_fixup_first (env : Env) (e : Option Nat) (fuel : Nat) (lirs : List LIR)
    (last : Option Nat) (offset i : Nat) (r : LIR) (hne : some i ≠ e)
    (hr : lirs[i]? = some r) (hnop : r.flags.is_nop = false) (hfx : r.flags.fixup ≠ kFixupNone)
    (hal : alignOk env r) :
    linkLoop env e (fuel + 1) lirs none last offset (some i)
      = linkLoop env e fuel (lirs.set i (linkedRec r offset)) (some i) (some i)
          (wrap32 (offset + linkedSize r)) r.next := by
  rw [linkLoop]
  cases hop : r.opcode.base with
  | insn op =>
    simp [hne, getLIR_some hr, hnop, hfx, bind, Except.bind, UNWIDE, hop, updLIR_some hr,
      updLIR_set_self hr, getLIR_set_self hr, pure, Except.pure, linkedRec, linkedSize,
      linkedFixup]
  | pseudo c =>
    have hd : DCHECK env.toBuildConfig (c != env.kPseudoPseudoAlign4)
        "DCHECK_NE(static_cast<int>(opcode), kPseudoPseudoAlign4)" = .ok () := by
      unfold DCHECK
      cases hk : env.kEnableDChecks with
      | false => simp
      | true => simp [hal c hop hk]
    simp [hne, getLIR_some hr, hnop, hfx, bind, Except.bind, UNWIDE, hop, updLIR_some hr,
      updLIR_set_self hr, getLIR_set_self hr, pure, Except.pure, linkedRec, linkedSize,
      linkedFixup, hd]

theorem linkLoop_fixup_next (env : Env) (e : Option Nat) (fuel : Nat) (lirs : List LIR)
    (f l : Nat) (rl : LIR) (offset i : Nat) (r : LIR) (hne : some i ≠ e)
    (hr : lirs[i]? = some r) (hnop : r.flags.is_nop = false) (hfx : r.flags.fixup ≠ kFixupNone)
    (hal : alignOk env r) (hl : lirs[l]? = some rl) (hli : l ≠ i) :
    linkLoop env e (fuel + 1) lirs (some f) (some l) offset (some i)
      = linkLoop env e fuel
          (((lirs.set i { linkedRec r offset with offset := r.offset }).set l
            { rl with pcrel_next := some i }).set i (linkedRec r offset))
          (some f) (some i) (wrap32 (offset + linkedSize r)) r.next := by
  have hl1 : ∀ v, (lirs.set i v)[l]? = some rl := by
    intro v; rw [List.getElem?_set_ne (Ne.symm hli)]; exact hl
  have hi2 : ∀ v w, ((lirs.set i v).set l w)[i]? = some v := by
    intro v w
    rw [List.getElem?_set_ne hli]
    exact getElem?_set_self_of_some hr v
  rw [linkLoop]
  cases hop : r.opcode.base with
  | insn op =>
    simp [hne, getLIR_some hr, hnop, hfx, bind, Except.bind, UNWIDE, hop, updLIR_some hr,
      updLIR_set_self hr, pure, Except.pure, linkedRec, linkedSize,
      linkedFixup, updLIR_some (hl1 _), updLIR_some (hi2 _ _),
      getLIR_some (getElem?_set_self_of_some (hi2 _ _) _)]
  | pseudo c =>
    have hd : DCHECK env.toBuildConfig (c != env.kPseudoPseudoAlign4)
        "DCHECK_NE(static_cast<int>(opcode), kPseudoPseudoAlign4)" = .ok () := by
      unfold DCHECK
      cases hk : env.kEnableDChecks with
      | false => simp
      | true => simp [hal c hop hk]
    simp [hne, getLIR_some hr, hnop, hfx, bind, Except.bind, UNWIDE, hop, updLIR_some hr,
      updLIR_set_self hr, pure, Except.pure, linkedRec, linkedSize,
      linkedFixup, updLIR_some (hl1 _), updLIR_some (hi2 _ _),
      getLIR_some (getElem?_set_self_of_some (hi2 _ _) _), hd]

theorem sizeAt_of_some {lirs : List LIR} {i : Nat} {r : LIR} (hr : lirs[i]? = some r) :
    sizeAt lirs i = if r.flags.is_nop then 0 else linkedSize r := by
  simp [sizeAt, hr]

/-- One round of the loop of `LinkFixupInsns`, at the record `i`: the loop goes on from
`next` with an arena in which only record `i` and the link of `last_fixup` have changed. -/
theorem linkLoop_step (env : Env) (e : Option Nat) (fuel : Nat) (lirs : List LIR)
    (first last : Option Nat) (offset i : Nat) (r : LIR) (hne : some i ≠ e)
    (hr : lirs[i]? = some r) (hoff : offset < 4294967296)
    (hlast : first ≠ none → ∃ l rl, last = some l ∧ l ≠ i ∧ lirs[l]? = some rl)
    (hal : r.flags.is_nop = false → r.flags.fixup ≠ kFixupNone → alignOk env r) :
    ∃ lirs1 first1 last1,
      linkLoop env e (fuel + 1) lirs first last offset (some i)
        = linkLoop env e fuel lirs1 first1 last1 (wrap32 (offset + sizeAt lirs i)) r.next ∧
      lirs1.length = lirs.length ∧
      (∀ j, j ≠ i → (lirs1[j]?).map erasePcrel = (lirs[j]?).map erasePcrel) ∧
      (∀ j, j ≠ i → some j ≠ last → lirs1[j]? = lirs[j]?) ∧
      (r.flags.is_nop = false → r.flags.fixup ≠ kFixupNone →
        lirs1[i]? = some (linkedRec r offset)) ∧
      (r.flags.is_nop = true ∨ r.flags.fixup = kFixupNone → lirs1[i]? = some r) ∧
      (last1 = last ∨ last1 = some i) ∧
      (first1 ≠ none → ∃ l rl, last1 = some l ∧ lirs1[l]? = some rl) := by
  have hkeep : first ≠ none → ∃ l rl, last = some l ∧ lirs[l]? = some rl := by
    intro hf
    obtain ⟨l, rl, h1, _, h3⟩ := hlast hf
    exact ⟨l, rl, h1, h3⟩
  cases hnop : r.flags.is_nop with
  | true =>
    refine ⟨lirs, first, last, ?_, rfl, fun _ _ => rfl, fun _ _ _ => rfl, ?_, fun _ => hr,
      Or.inl rfl, hkeep⟩
    · rw [linkLoop_nop env e fuel lirs first last offset i r hne hr hnop,
        sizeAt_of_some hr, hnop]
      simp only [if_true, Nat.add_zero, wrap32_of_lt hoff]
    · intro h; cases h
  | false =>
    by_cases hfx : r.flags.fixup = kFixupNone
    · refine ⟨lirs, first, last, ?_, rfl, fun _ _ => rfl, fun _ _ _ => rfl, ?_, fun _ => hr,
        Or.inl rfl, hkeep⟩
      · rw [linkLoop_nofixup env e fuel lirs first last offset i r hne hr hnop hfx,
          sizeAt_of_some hr, hnop]
        simp [linkedSize, hfx]
      · intro _ h; exact absurd hfx h
    · have hsz : sizeAt lirs i = linkedSize r := by
        rw [sizeAt_of_some hr, hnop]; simp
      cases hfirst : first with
      | none =>
        refine ⟨lirs.set i (linkedRec r offset), some i, some i, ?_, List.length_set _ _ _,
          ?_, ?_, fun _ _ => getElem?_set_self_of_some hr _, ?_, Or.inr rfl, ?_⟩
        · rw [linkLoop_fixup_first env e fuel lirs last offset i r hne hr hnop hfx
            (hal hnop hfx), hsz]
        · intro j hj
          rw [List.getElem?_set_ne (Ne.symm hj)]
        · intro j hj _
          rw [List.getElem?_set_ne (Ne.symm hj)]
        · intro h
          rcases h with h | h
          · cases h
          · exact absurd h hfx
        · intro _
          exact ⟨i, _, rfl, getElem?_set_self_of_some hr _⟩
      | some f =>
        obtain ⟨l, rl, hl1, hli, hl3⟩ := hlast (by rw [hfirst]; simp)
        subst hl1
        have hlen : i < lirs.length := (List.getElem?_eq_some_iff.mp hr).1
        have hllen : l < lirs.length := (List.getElem?_eq_some_iff.mp hl3).1
        refine ⟨((lirs.set i { linkedRec r offset with offset := r.offset }).set l
            { rl with pcrel_next := some i }).set i (linkedRec r offset), some f, some i, ?_,
          ?_, ?_, ?_, ?_, ?_, Or.inr rfl, ?_⟩
        · rw [linkLoop_fixup_next env e fuel lirs f l rl offset i r hne hr hnop hfx
            (hal hnop hfx) hl3 hli, hsz]
        · simp
        · intro j hj
          rw [List.getElem?_set_ne (Ne.symm hj)]
          by_cases hjl : j = l
          · subst hjl
            rw [List.getElem?_set_self (by simpa using hllen), hl3]
            rfl
          · rw [List.getElem?_set_ne (Ne.symm hjl), List.getElem?_set_ne (Ne.symm hj)]
        · intro j hj hjl
          have hjl' : j ≠ l := fun h => hjl (by rw [h])
          rw [List.getElem?_set_ne (Ne.symm hj), List.getElem?_set_ne (Ne.symm hjl'),
            List.getElem?_set_ne (Ne.symm hj)]
        · intro _ _
          rw [List.getElem?_set_self (by simpa using hlen)]
        · intro h
          rcases h with h | h
          · cases h
          · exact absurd h hfx
        · intro _
          refine ⟨i, linkedRec r offset, rfl, ?_⟩
          rw [List.getElem?_set_self (by simpa using hlen)]


theorem linkLoop_spec (env : Env) (e : Option Nat) :
    ∀ (rest : List Nat) (lirs : List LIR) (first last : Option Nat) (offset : Nat)
      (lir : Option Nat) (fuel : Nat),
      NextSeg lirs e lir rest → rest.length ≤ fuel → offset < 4294967296 →
      (∀ l, last = some l → l ∉ rest) →
      (first ≠ none → ∃ l rl, last = some l ∧ lirs[l]? = some rl) →
      (∀ i ∈ rest, ∀ r, lirs[i]? = some r → r.flags.is_nop = false →
        r.flags.fixup ≠ kFixupNone → alignOk env r) →
      ∃ lirs' first',
        linkLoop env e fuel lirs first last offset lir
          = .ok (lirs', first', wrap32 (offset + sizeSum lirs rest)) ∧
        (∀ j, j ∉ rest → (lirs'[j]?).map erasePcrel = (lirs[j]?).map erasePcrel) ∧
        (∀ k i r, rest[k]? = some i → lirs[i]? = some r →
          ∃ r', lirs'[i]? = some r' ∧ erasePcrel r'
            = erasePcrel (linkResult r (wrap32 (offset + sizeSum lirs (rest.take k))))) := by
  intro rest
  induction rest with
  | nil =>
    intro lirs first last offset lir fuel hseg _ hoff _ _ _
    have hle : lir = e := hseg
    refine ⟨lirs, first, ?_, fun _ _ => rfl, ?_⟩
    · rw [linkLoop.eq_def]
      simp [hle, sizeSum, wrap32_of_lt hoff]
    · intro k i r hk
      simp at hk
  | cons i rest ih =>
    intro lirs first last offset lir fuel hseg hfuel hoff hl1 hl2 hal
    have hnd := NextSeg.nodup hseg
    obtain ⟨hne, hp, r, hr, hrest⟩ := hseg
    subst hp
    have hi : i ∉ rest := (List.nodup_cons.mp hnd).1
    cases fuel with
    | zero => simp at hfuel
    | succ fuel =>
      have hfuel' : rest.length ≤ fuel := by simpa using hfuel
      have hlast' : first ≠ none → ∃ l rl, last = some l ∧ l ≠ i ∧ lirs[l]? = some rl := by
        intro hf
        obtain ⟨l, rl, h1, h2⟩ := hl2 hf
        refine ⟨l, rl, h1, ?_, h2⟩
        intro hli
        exact hl1 l h1 (by rw [hli]; exact List.mem_cons_self _ _)
      obtain ⟨lirs1, first1, last1, hstep, _, hframe1, hsame1, hfix1, hkeep1, hlastc, hlast1⟩ :=
        linkLoop_step env e fuel lirs first last offset i r hne hr hoff hlast'
          (hal i (List.mem_cons_self _ _) r hr)
      have hsame : ∀ j ∈ rest, lirs1[j]? = lirs[j]? := by
        intro j hj
        refine hsame1 j (fun h => hi (h ▸ hj)) ?_
        intro hjl
        exact hl1 j hjl.symm (List.mem_cons_of_mem _ hj)
      have hl1' : ∀ l, last1 = some l → l ∉ rest := by
        intro l hl
        rcases hlastc with h | h
        · rw [h] at hl
          exact fun hm => hl1 l hl (List.mem_cons_of_mem _ hm)
        · rw [h] at hl
          injection hl with hl
          rw [← hl]; exact hi
      have hal' : ∀ j ∈ rest, ∀ r, lirs1[j]? = some r → r.flags.is_nop = false →
          r.flags.fixup ≠ kFixupNone → alignOk env r := by
        intro j hj r' hr'
        rw [hsame j hj] at hr'
        exact hal j (List.mem_cons_of_mem _ hj) r' hr'
      obtain ⟨lirs', first', hrun, hframe, hrecs⟩ :=
        ih lirs1 first1 last1 (wrap32 (offset + sizeAt lirs i)) r.next fuel
          (NextSeg.congr hsame hrest) hfuel' (wrap32_lt _) hl1' hlast1 hal'
      refine ⟨lirs', first', ?_, ?_, ?_⟩
      · rw [hstep, hrun, sizeSum_congr hsame, sizeSum_cons, wrap32_add_wrap32, Nat.add_assoc]
      · intro j hj
        have hji : j ≠ i := fun h => hj (h ▸ List.mem_cons_self _ _)
        have hjr : j ∉ rest := fun h => hj (List.mem_cons_of_mem _ h)
        rw [hframe j hjr, hframe1 j hji]
      · intro k i' r' hk hr'
        cases k with
        | zero =>
          simp only [List.getElem?_cons_zero, Option.some.injEq] at hk
          subst hk
          rw [hr] at hr'
          injection hr' with hr'
          subst hr'
          have h1 : lirs1[i]? = some (linkResult r offset) := by
            unfold linkResult
            by_cases hc : r.flags.is_nop = false ∧ r.flags.fixup ≠ kFixupNone
            · rw [if_pos hc]; exact hfix1 hc.1 hc.2
            · rw [if_neg hc]
              apply hkeep1
              by_cases hn : r.flags.is_nop = true
              · exact Or.inl hn
              · refine Or.inr ?_
                by_contra hf
                exact hc ⟨by simpa using hn, hf⟩
          have h2 := hframe i hi
          rw [h1] at h2
          cases hq : lirs'[i]? with
          | none => rw [hq] at h2; cases h2
          | some q =>
            rw [hq] at h2
            refine ⟨q, rfl, ?_⟩
            simp only [Option.map_some', Option.some.injEq] at h2
            rw [h2]
            simp [sizeSum, wrap32_of_lt hoff]
        | succ k =>
          simp only [List.getElem?_cons_succ] at hk
          have hmem : i' ∈ rest := List.mem_iff_getElem?.mpr ⟨k, hk⟩
          have hr1 : lirs1[i']? = some r' := by rw [hsame i' hmem]; exact hr'
          obtain ⟨q, hq, hqe⟩ := hrecs k i' r' hk hr1
          refine ⟨q, hq, ?_⟩
          rw [hqe]
          have hsub : ∀ j ∈ rest.take k, lirs1[j]? = lirs[j]? :=
            fun j hj => hsame j (List.mem_of_mem_take hj)
          rw [sizeSum_congr hsub, List.take_succ_cons, sizeSum_cons, wrap32_add_wrap32,
            Nat.add_assoc]

theorem linkResult_flags (r : LIR) (offset : Nat) :
    (linkResult r offset).flags.is_nop = r.flags.is_nop ∧
    (r.flags.is_nop = false → (linkResult r offset).flags.size = linkedSize r) := by
  unfold linkResult
  by_cases hc : r.flags.is_nop = false ∧ r.flags.fixup ≠ kFixupNone
  · rw [if_pos hc]
    exact ⟨rfl, fun _ => rfl⟩
  · rw [if_neg hc]
    refine ⟨rfl, fun hn => ?_⟩
    have hf : r.flags.fixup = kFixupNone := by
      by_contra hf
      exact hc ⟨hn, hf⟩
    simp [linkedSize, hf]

theorem sizeSum_eq_flagsSizeSum {lirs lirs' : List LIR} :
    ∀ (idxs : List Nat),
      (∀ i ∈ idxs, ∀ r, lirs[i]? = some r → ∃ r', lirs'[i]? = some r' ∧
        r'.flags.is_nop = r.flags.is_nop ∧ (r.flags.is_nop = false → r'.flags.size = linkedSize r)) →
      (∀ i ∈ idxs, ∃ r, lirs[i]? = some r) →
      sizeSum lirs idxs = flagsSizeSum lirs' idxs := by
  intro idxs
  induction idxs with
  | nil => intro _ _; rfl
  | cons i rest ih =>
    intro h hex
    have h1 := ih (fun j hj => h j (List.mem_cons_of_mem _ hj))
      (fun j hj => hex j (List.mem_cons_of_mem _ hj))
    obtain ⟨r, hr⟩ := hex i (List.mem_cons_self _ _)
    obtain ⟨r', hr', hnop, hsz⟩ := h i (List.mem_cons_self _ _) r hr
    rw [sizeSum_cons, h1]
    simp only [flagsSizeSum, List.map_cons, List.sum_cons, hr', sizeAt_of_some hr, hnop]
    cases hn : r.flags.is_nop with
    | true => simp
    | false => simp [hsz hn]

theorem NextSeg.mem_valid {lirs : List LIR} {e : Option Nat} :
    ∀ {idxs : List Nat} {p : Option Nat}, NextSeg lirs e p idxs →
      ∀ i ∈ idxs, ∃ r, lirs[i]? = some r := by
  intro idxs
  induction idxs with
  | nil => intro _ _ i hi; simp at hi
  | cons j rest ih =>
    intro p h i hi
    obtain ⟨_, _, lir, hlir, hrest⟩ := h
    rcases List.mem_cons.mp hi with h1 | h1
    · exact ⟨lir, h1 ▸ hlir⟩
    · exact ih hrest i h1

/-- C10: `LinkFixupInsns(head, tail, offset)`, called with an empty fixup chain on the
records `idxs` from `head` to `tail`, returns `offset` plus the sum of `flags.size` over
the records that are not flagged `is_nop` (sizes as the call leaves them, sum in
`uint32_t`). Every record of the list with a fixup kind that is not flagged `is_nop` has
its size set to 4 when it is a real opcode and to 0, with kind `kFixupLabel`, when it is a
pseudo-op, and its offset set to `offset` plus the sizes of the records before it that are
not flagged `is_nop`; every other member of it but its chain link, and every other record
of the list, is left as it was. -/
theorem LinkFixupInsns_offsets (env : Env) (fuel : Nat) (m : Mir2Lir) (head tail : Option Nat)
    (offset : Nat) (tl : LIR) (idxs : List Nat)
    (htail : getLIR m.lirs tail = .ok tl) (hseg : NextSeg m.lirs tl.next head idxs)
    (hfuel : idxs.length ≤ fuel) (hoff : offset < 4294967296)
    (hfirst : m.first_fixup_ = none)
    (hal : ∀ i ∈ idxs, ∀ r, m.lirs[i]? = some r → r.flags.is_nop = false →
      r.flags.fixup ≠ kFixupNone → alignOk env r) :
    ∃ m', LinkFixupInsns env fuel m head tail offset
        = .ok (m', wrap32 (offset + flagsSizeSum m'.lirs idxs)) ∧
      ∀ k i r, idxs[k]? = some i → m.lirs[i]? = some r →
        ∃ r', m'.lirs[i]? = some r' ∧
          erasePcrel r' = erasePcrel
            (linkResult r (wrap32 (offset + flagsSizeSum m'.lirs (idxs.take k)))) ∧
          (r.flags.is_nop = false → r.flags.fixup ≠ kFixupNone →
            r'.offset = wrap32 (offset + flagsSizeSum m'.lirs (idxs.take k)) ∧
            (∀ op, r.opcode.base = .insn op →
              r'.flags.size = 4 ∧ r'.flags.fixup = (EncodingMap op).fixup) ∧
            (∀ c, r.opcode.base = .pseudo c →
              r'.flags.size = 0 ∧ r'.flags.fixup = kFixupLabel)) := by
  obtain ⟨lirs', first', hrun, _, hrecs⟩ :=
    linkLoop_spec env tl.next idxs m.lirs m.first_fixup_ none offset head fuel hseg hfuel hoff
      (fun l h => by cases h) (fun h => absurd hfirst h) hal
  have hvalid := NextSeg.mem_valid hseg
  have hflags : ∀ i ∈ idxs, ∀ r, m.lirs[i]? = some r → ∃ r', lirs'[i]? = some r' ∧
      r'.flags.is_nop = r.flags.is_nop ∧
      (r.flags.is_nop = false → r'.flags.size = linkedSize r) := by
    intro i hi r hr
    obtain ⟨k, hk⟩ := List.mem_iff_getElem?.mp hi
    obtain ⟨r', hr', he⟩ := hrecs k i r hk hr
    have hf := congrArg LIR.flags he
    have hf' : r'.flags = (linkResult r (wrap32 (offset + sizeSum m.lirs (idxs.take k)))).flags :=
      hf
    refine ⟨r', hr', ?_, ?_⟩
    · rw [hf']; exact (linkResult_flags r _).1
    · intro hn; rw [hf']; exact (linkResult_flags r _).2 hn
  have hsum : ∀ k, sizeSum m.lirs (idxs.take k) = flagsSizeSum lirs' (idxs.take k) := by
    intro k
    exact sizeSum_eq_flagsSizeSum (idxs.take k)
      (fun i hi => hflags i (List.mem_of_mem_take hi))
      (fun i hi => hvalid i (List.mem_of_mem_take hi))
  have hsumAll : sizeSum m.lirs idxs = flagsSizeSum lirs' idxs :=
    sizeSum_eq_flagsSizeSum idxs hflags hvalid
  refine ⟨{ m with lirs := lirs', first_fixup_ := first' }, ?_, ?_⟩
  · simp only [LinkFixupInsns, htail, bind, Except.bind, hrun, pure, Except.pure, hsumAll]
  · intro k i r hk hr
    obtain ⟨r', hr', he⟩ := hrecs k i r hk hr
    rw [hsum k] at he
    refine ⟨r', hr', he, ?_⟩
    intro hn hf
    have hlink : linkResult r (wrap32 (offset + flagsSizeSum lirs' (idxs.take k)))
        = linkedRec r (wrap32 (offset + flagsSizeSum lirs' (idxs.take k))) := by
      unfold linkResult
      rw [if_pos ⟨hn, hf⟩]
    rw [hlink] at he
    have ho := congrArg LIR.offset he
    have hfl := congrArg LIR.flags he
    have ho' : r'.offset = wrap32 (offset + flagsSizeSum lirs' (idxs.take k)) := ho
    have hfl' : r'.flags
        = (linkedRec r (wrap32 (offset + flagsSizeSum lirs' (idxs.take k)))).flags := hfl
    refine ⟨ho', ?_, ?_⟩
    · intro op hop
      rw [hfl']
      simp [linkedRec, linkedSize, linkedFixup, UNWIDE, hop, hf, size_eq_four]
    · intro c hop
      rw [hfl']
      simp [linkedRec, linkedSize, linkedFixup, UNWIDE, hop, hf]

/-! ## C1: the displacements at the exit of the fixup loop -/

theorem bind_ok {α β : Type} {x : Except Fault α} {f : α → Except Fault β} {b : β}
    (h : (x >>= f) = .ok b) : ∃ a, x = .ok a ∧ f a = .ok b := by
  cases x with
  | error e => cases h
  | ok a => exact ⟨a, rfl, h⟩

theorem getLIR_ok {lirs : List LIR} {p : Option Nat} {r : LIR} (h : getLIR lirs p = .ok r) :
    ∃ i, p = some i ∧ lirs[i]? = some r := by
  unfold getLIR at h
  cases p with
  | none => cases h
  | some i =>
    refine ⟨i, rfl, ?_⟩
    simp only at h
    cases hq : lirs[i]? with
    | none => rw [hq] at h; cases h
    | some q => rw [hq] at h; injection h with h; rw [h]

theorem updLIR_ok {lirs lirs' : List LIR} {p : Nat} {f : LIR → LIR}
    (h : updLIR lirs (some p) f = .ok lirs') :
    ∃ r, lirs[p]? = some r ∧ lirs' = lirs.set p (f r) := by
  unfold updLIR at h
  cases hg : getLIR lirs (some p) with
  | error e => rw [hg] at h; cases h
  | ok r =>
    rw [hg] at h
    obtain ⟨i, hi, hr⟩ := getLIR_ok hg
    injection hi with hi
    subst hi
    injection h with h
    exact ⟨r, hr, h.symm⟩

theorem wrapI32_wrap32_sub (a b : Nat) :
    wrapI32 (((wrap32 (a + toU32 0) : Nat) : Int) - (b : Int)) = wrapI32 ((a : Int) - (b : Int)) := by
  unfold wrapI32 wrap32 toU32
  omega

theorem wrapI32_congr_left {a a' : Nat} (h : a' % 4294967296 = a % 4294967296) (b : Nat) :
    wrapI32 ((a' : Int) - (b : Int)) = wrapI32 ((a : Int) - (b : Int)) := by
  unfold wrapI32
  omega

/-- With no adjustment pending, the distance that the resolver computes for a record is
the difference of the stored offsets of its target and of the record. -/
theorem fixupDelta_zero {env : Env} {lirs : List LIR} {lir : LIR} {d : Int}
    (h : fixupDelta env lirs lir 0 = .ok d) :
    ∃ t tl, lir.target = some t ∧ lirs[t]? = some tl ∧
      d = wrapI32 ((tl.offset : Int) - (lir.offset : Int)) := by
  unfold fixupDelta at h
  obtain ⟨_, _, h⟩ := bind_ok h
  obtain ⟨tl, htl, h⟩ := bind_ok h
  obtain ⟨_, _, h⟩ := bind_ok h
  obtain ⟨t, ht, htl'⟩ := getLIR_ok htl
  refine ⟨t, tl, ht, htl', ?_⟩
  simp only [pure, Except.pure, ite_self] at h
  injection h with h
  rw [← h, wrapI32_wrap32_sub]

theorem getLIR_some_inv {lirs : List LIR} {p : Nat} {r : LIR} (h : getLIR lirs (some p) = .ok r) :
    lirs[p]? = some r := by
  obtain ⟨i, hi, hr⟩ := getLIR_ok h
  injection hi with hi
  rw [hi]; exact hr

theorem operands_get_set (o : Operands) (i : Nat) (v : Int) (hi : i < 5) :
    (o.set i v).get i = v := by
  have h : i = 0 ∨ i = 1 ∨ i = 2 ∨ i = 3 ∨ i = 4 := by omega
  rcases h with h | h | h | h | h <;> subst h <;> rfl

theorem fixupCondBranch_zero {env : Env} {m m1 : Mir2Lir} {loc loc1 : FixupLocals} {p : Nat}
    (h : fixupCondBranch env m loc p = .ok (m1, loc1)) (hadj : loc.offset_adjustment = 0) :
    ∃ r r1 t tl, m.lirs[p]? = some r ∧ m1 = { m with lirs := m.lirs.set p r1 } ∧ loc1 = loc ∧
      SameLinks r r1 ∧ r.target = some t ∧ m.lirs[t]? = some tl ∧
      r1.operands.get 1 = asr (wrapI32 ((tl.offset : Int) - (r.offset : Int))) 2 := by
  unfold fixupCondBranch at h
  obtain ⟨r, hr, h⟩ := bind_ok h
  obtain ⟨d, hd, h⟩ := bind_ok h
  rw [hadj] at hd
  obtain ⟨t, tl, ht, htl, hde⟩ := fixupDelta_zero hd
  have hr' := getLIR_some_inv hr
  split at h
  · cases h
  · obtain ⟨lirs', hl, h⟩ := bind_ok h
    obtain ⟨r2, hr2, hset⟩ := updLIR_ok hl
    rw [hr'] at hr2
    injection hr2 with hr2
    subst hr2
    simp only [pure, Except.pure] at h
    injection h with h
    injection h with h1 h2
    refine ⟨r, { r with operands := r.operands.set 1 (asr d 2) }, t, tl, hr', ?_, h2.symm,
      ⟨rfl, rfl, rfl, rfl⟩, ht, htl, ?_⟩
    · rw [← h1, hset]
    · show (r.operands.set 1 (asr d 2)).get 1 = _
      rw [operands_get_set _ _ _ (by decide), hde]

theorem fixupT1Branch_zero {env : Env} {m m1 : Mir2Lir} {loc loc1 : FixupLocals} {p : Nat}
    (h : fixupT1Branch env m loc p = .ok (m1, loc1)) (hadj : loc.offset_adjustment = 0)
    (hres : loc1.res = .kSuccess) :
    ∃ r r1 t tl, m.lirs[p]? = some r ∧ m1 = { m with lirs := m.lirs.set p r1 } ∧ loc1 = loc ∧
      SameLinks r r1 ∧ r.target = some t ∧ m.lirs[t]? = some tl ∧
      r1.operands.get 0 = asr (wrapI32 ((tl.offset : Int) - (r.offset : Int))) 2 := by
  unfold fixupT1Branch at h
  obtain ⟨r, hr, h⟩ := bind_ok h
  obtain ⟨d, hd, h⟩ := bind_ok h
  rw [hadj] at hd
  obtain ⟨t, tl, ht, htl, hde⟩ := fixupDelta_zero hd
  have hr' := getLIR_some_inv hr
  split at h
  · cases h
  · obtain ⟨lirs', hl, h⟩ := bind_ok h
    obtain ⟨r2, hr2, hset⟩ := updLIR_ok hl
    rw [hr'] at hr2
    injection hr2 with hr2
    subst hr2
    obtain ⟨lir2, _, h⟩ := bind_ok h
    split at h
    · obtain ⟨lirs3, _, h⟩ := bind_ok h
      simp only [pure, Except.pure] at h
      injection h with h
      injection h with h1 h2
      rw [← h2] at hres
      cases hres
    · simp only [pure, Except.pure] at h
      injection h with h
      injection h with h1 h2
      refine ⟨r, { r with operands := r.operands.set 0 (asr d 2) }, t, tl, hr', ?_, h2.symm,
        ⟨rfl, rfl, rfl, rfl⟩, ht, htl, ?_⟩
      · rw [← h1, hset]
      · show (r.operands.set 0 (asr d 2)).get 0 = _
        rw [operands_get_set _ _ _ (by decide), hde]

theorem fixupAdr_frame {m m1 : Mir2Lir} {loc loc1 : FixupLocals} {p : Nat}
    (h : fixupAdr m loc p = .ok (m1, loc1)) :
    ∃ r r1, m.lirs[p]? = some r ∧ m1 = { m with lirs := m.lirs.set p r1 } ∧ loc1 = loc ∧
      SameLinks r r1 := by
  unfold fixupAdr at h
  obtain ⟨r, hr, h⟩ := bind_ok h
  obtain ⟨d, _, h⟩ := bind_ok h
  have hr' := getLIR_some_inv hr
  split at h
  · cases h
  · obtain ⟨lirs', hl, h⟩ := bind_ok h
    obtain ⟨r2, hr2, hset⟩ := updLIR_ok hl
    rw [hr'] at hr2
    injection hr2 with hr2
    subst hr2
    simp only [pure, Except.pure] at h
    injection h with h
    injection h with h1 h2
    refine ⟨r, { r with operands := r.operands.set 1 d }, hr', ?_, h2.symm, ⟨rfl, rfl, rfl, rfl⟩⟩
    rw [← h1, hset]

theorem set_self_of_some {lirs : List LIR} {p : Nat} {r : LIR} (h : lirs[p]? = some r) :
    lirs.set p r = lirs := by
  apply List.ext_getElem?
  intro j
  rw [List.getElem?_set]
  by_cases hj : p = j
  · subst hj
    have : p < lirs.length := (List.getElem?_eq_some_iff.mp h).1
    simp [this, h]
  · simp [hj]

theorem fixupA53_success {env : Env} {fuel : Nat} {m m1 : Mir2Lir} {loc loc1 : FixupLocals}
    {p : Nat} (h : fixupA53Erratum835769 env fuel m loc p = .ok (m1, loc1))
    (hres : loc1.res = .kSuccess) :
    ∃ r, m.lirs[p]? = some r ∧ m1 = m ∧ loc1 = loc := by
  unfold fixupA53Erratum835769 at h
  obtain ⟨r, hr, h⟩ := bind_ok h
  have hr' := getLIR_some_inv hr
  have hdone : ∀ {x : Except Fault (Mir2Lir × FixupLocals)}, x = pure (m, loc) →
      x = .ok (m1, loc1) → ∃ r, m.lirs[p]? = some r ∧ m1 = m ∧ loc1 = loc := by
    intro x hx hx'
    rw [hx] at hx'
    simp only [pure, Except.pure] at hx'
    injection hx' with hx'
    injection hx' with h1 h2
    exact ⟨r, hr', h1.symm, h2.symm⟩
  split at h
  · split at h
    · obtain ⟨prev_insn, _, h⟩ := bind_ok h
      split at h
      · exact hdone rfl h
      · obtain ⟨prev, _, h⟩ := bind_ok h
        split at h
        · cases h
        · dsimp only at h
          split at h
          · obtain ⟨lirs2, _, h⟩ := bind_ok h
            obtain ⟨lirs3, _, h⟩ := bind_ok h
            obtain ⟨new, _, h⟩ := bind_ok h
            obtain ⟨lirs4, _, h⟩ := bind_ok h
            simp only [pure, Except.pure] at h
            injection h with h
            injection h with h1 h2
            rw [← h2] at hres
            cases hres
          · exact hdone rfl h
    · exact hdone rfl h
  · exact hdone rfl h

theorem tbxzWiden_retry {env : Env} {generation : Nat} {m m1 : Mir2Lir}
    {loc loc1 : FixupLocals} {p : Nat} {opcode : Opcode} {lirs : List LIR} {lir : LIR} {c : Bool}
    (h : tbxzWiden env generation m loc p opcode lirs lir = .ok (m1, loc1, c)) :
    loc1.res = .kRetryAll := by
  unfold tbxzWiden at h
  dsimp only at h
  obtain ⟨_, _, h⟩ := bind_ok h
  obtain ⟨_, _, h⟩ := bind_ok h
  obtain ⟨_, _, h⟩ := bind_ok h
  obtain ⟨_, _, h⟩ := bind_ok h
  obtain ⟨_, _, h⟩ := bind_ok h
  obtain ⟨_, _, h⟩ := bind_ok h
  obtain ⟨_, _, h⟩ := bind_ok h
  obtain ⟨_, _, h⟩ := bind_ok h
  obtain ⟨_, _, h⟩ := bind_ok h
  obtain ⟨_, _, h⟩ := bind_ok h
  simp only [pure, Except.pure] at h
  injection h with h
  injection h with h1 h2
  injection h2 with h2 h3
  rw [← h2]

theorem tbxzCheckWidth_frame {env : Env} {lirs lirs1 : List LIR} {r : LIR} {p : Nat}
    (hr : lirs[p]? = some r) (h : tbxzCheckWidth env lirs r p = .ok lirs1) :
    ∃ r2, lirs1 = lirs.set p r2 ∧ SameLinks r r2 := by
  unfold tbxzCheckWidth at h
  dsimp only at h
  split at h
  · obtain ⟨_, _, h⟩ := bind_ok h
    simp only [pure, Except.pure] at h
    injection h with h
    exact ⟨r, by rw [← h, set_self_of_some hr], ⟨rfl, rfl, rfl, rfl⟩⟩
  · split at h
    · obtain ⟨r0, hr0, hset⟩ := updLIR_ok h
      rw [hr] at hr0
      injection hr0 with hr0
      subst hr0
      exact ⟨_, hset, ⟨rfl, rfl, rfl, rfl⟩⟩
    · simp only [pure, Except.pure] at h
      injection h with h
      exact ⟨r, by rw [← h, set_self_of_some hr], ⟨rfl, rfl, rfl, rfl⟩⟩

theorem fixupTBxZ_zero {env : Env} {generation : Nat} {m m1 : Mir2Lir} {loc loc1 : FixupLocals}
    {p : Nat} {c : Bool}
    (h : fixupTBxZ env generation m loc p = .ok (m1, loc1, c)) (hadj : loc.offset_adjustment = 0)
    (hres : loc1.res = .kSuccess) :
    c = false ∧
    ∃ r r1 t tl, m.lirs[p]? = some r ∧ m1 = { m with lirs := m.lirs.set p r1 } ∧ loc1 = loc ∧
      SameLinks r r1 ∧ r.target = some t ∧ m.lirs[t]? = some tl ∧
      r1.operands.get 2 = asr (wrapI32 ((tl.offset : Int) - (r.offset : Int))) 2 := by
  unfold fixupTBxZ at h
  obtain ⟨r, hr, h⟩ := bind_ok h
  have hr' := getLIR_some_inv hr
  dsimp only at h
  obtain ⟨_, _, h⟩ := bind_ok h
  obtain ⟨_, _, h⟩ := bind_ok h
  obtain ⟨lirs1, hl1, h⟩ := bind_ok h
  obtain ⟨r2, hlirs1, hs2⟩ := tbxzCheckWidth_frame hr' hl1
  obtain ⟨lir2, hlir2, h⟩ := bind_ok h
  have hlir2' : lirs1[p]? = some lir2 := getLIR_some_inv hlir2
  have hr2 : lir2 = r2 := by
    rw [hlirs1, getElem?_set_self_of_some hr'] at hlir2'
    injection hlir2' with h'
    exact h'.symm
  rw [hr2] at h
  obtain ⟨d, hd, h⟩ := bind_ok h
  rw [hadj] at hd
  obtain ⟨t, tl, ht, htl, hde⟩ := fixupDelta_zero hd
  split at h
  · -- the branch is replaced by two instructions: the pass asks for a retry
    have := tbxzWiden_retry h
    rw [hres] at this
    cases this
  · obtain ⟨lirs3, hl3, h⟩ := bind_ok h
    obtain ⟨r3, hr3, hset⟩ := updLIR_ok hl3
    rw [hlirs1, getElem?_set_self_of_some hr'] at hr3
    injection hr3 with hr3
    rw [← hr3] at hset
    simp only [pure, Except.pure] at h
    injection h with h
    injection h with h1 h2
    injection h2 with h2 h3
    obtain ⟨ho, hp, htg, hf⟩ := hs2
    -- the target record, in the arena before the case
    have htl0 : ∃ tl0, m.lirs[t]? = some tl0 ∧ tl0.offset = tl.offset := by
      rw [hlirs1] at htl
      by_cases htp : t = p
      · subst htp
        rw [getElem?_set_self_of_some hr'] at htl
        injection htl with htl
        exact ⟨r, hr', by rw [← htl, ho]⟩
      · rw [List.getElem?_set_ne (Ne.symm htp)] at htl
        exact ⟨tl, htl, rfl⟩
    obtain ⟨tl0, htl0, hoff0⟩ := htl0
    refine ⟨h3.symm, r, { r2 with operands := r2.operands.set 2 (asr d 2) }, t, tl0, hr', ?_,
      h2.symm, ⟨ho, hp, htg, hf⟩, by rw [← htg]; exact ht, htl0, ?_⟩
    · rw [← h1, hset, hlirs1, List.set_set]
    · show (r2.operands.set 2 (asr d 2)).get 2 = _
      rw [operands_get_set _ _ _ (by decide), hde, hoff0, ho]

theorem displacement_of_case {lirs : List LIR} {p t : Nat} {r0 r1 tl : LIR}
    (h0 : lirs[p]? = some r0) (hs : SameLinks r0 r1) (ht : r0.target = some t)
    (htl : lirs[t]? = some tl) :
    displacement (lirs.set p r1) r1
      = some (asr (wrapI32 ((tl.offset : Int) - (r0.offset : Int))) 2) := by
  obtain ⟨ho, _, htg, _⟩ := hs
  unfold displacement
  rw [htg, ht]
  by_cases htp : t = p
  · subst htp
    rw [h0] at htl
    injection htl with htl
    simp only [getElem?_set_self_of_some h0, ho, ← htl]
  · simp only [List.getElem?_set_ne (Ne.symm htp), htl, ho]

/-- What a step of the pass does to its node when no adjustment is pending and the step
does not ask for a retry. -/
theorem fixupStep_success {env : Env} {fuel generation : Nat} {m m1 : Mir2Lir}
    {loc loc1 : FixupLocals} {p : Nat}
    (h : fixupStep env fuel generation m loc p = .ok (m1, loc1))
    (hadj : loc.offset_adjustment = 0) (hres : loc1.res = .kSuccess) :
    ∃ r r1, m.lirs[p]? = some r ∧ m1 = { m with lirs := m.lirs.set p r1 } ∧
      loc1 = { loc with prev_lir := some p, lir := r.pcrel_next } ∧
      r1.pcrel_next = r.pcrel_next ∧ r1.target = r.target ∧ r1.flags.fixup = r.flags.fixup ∧
      r1.offset % 4294967296 = r.offset % 4294967296 ∧
      HoldsDisplacement (m.lirs.set p r1) r1 := by
  unfold fixupStep at h
  obtain ⟨lirs0, hl0, h⟩ := bind_ok h
  obtain ⟨r, hr, hset0⟩ := updLIR_ok hl0
  dsimp only at h
  obtain ⟨lir0, hlir0, h⟩ := bind_ok h
  have hlir0' := getLIR_some_inv hlir0
  rw [hset0, getElem?_set_self_of_some hr] at hlir0'
  injection hlir0' with hlir0'
  have h0 : lirs0[p]? = some lir0 := by
    rw [hset0, getElem?_set_self_of_some hr, hlir0']
  obtain ⟨⟨m', loc', c⟩, hcase, h⟩ := bind_ok h
  dsimp only at h
  -- the outcome of the case of the fixup kind
  have key : c = false ∧ loc' = loc ∧ ∃ r1, m' = { m with lirs := lirs0.set p r1 } ∧
      SameLinks lir0 r1 ∧ HoldsDisplacement (lirs0.set p r1) r1 := by
    have hres' : loc'.res = .kSuccess := by
      split at h
      · simp only [pure, Except.pure] at h
        injection h with h
        injection h with _ h2
        rw [h2]; exact hres
      · obtain ⟨_, _, h⟩ := bind_ok h
        simp only [pure, Except.pure] at h
        injection h with h
        injection h with _ h2
        rw [← h2] at hres
        exact hres
    have hplain : ∀ {x : Except Fault (Mir2Lir × FixupLocals × Bool)},
        x = pure ({ m with lirs := lirs0 }, loc, false) → x = .ok (m', loc', c) →
        HoldsDisplacement lirs0 lir0 →
        c = false ∧ loc' = loc ∧ ∃ r1, m' = { m with lirs := lirs0.set p r1 } ∧
          SameLinks lir0 r1 ∧ HoldsDisplacement (lirs0.set p r1) r1 := by
      intro x hx hx' hd
      rw [hx] at hx'
      simp only [pure, Except.pure] at hx'
      injection hx' with hx'
      injection hx' with h1 h2
      injection h2 with h2 h3
      refine ⟨h3.symm, h2.symm, lir0, ?_, ⟨rfl, rfl, rfl, rfl⟩, ?_⟩
      · rw [← h1, set_self_of_some h0]
      · rw [set_self_of_some h0]; exact hd
    unfold fixupSwitch at hcase
    split at hcase
    · exact hplain rfl hcase (by simp [HoldsDisplacement, *])
    · exact hplain rfl hcase (by simp [HoldsDisplacement, *])
    · exact hplain rfl hcase (by simp [HoldsDisplacement, *])
    · -- kFixupT1Branch
      rename_i hfix
      obtain ⟨⟨m2, loc2⟩, hc, hcase⟩ := bind_ok hcase
      simp only [pure, Except.pure] at hcase
      injection hcase with hcase
      injection hcase with h1 h2
      injection h2 with h2 h3
      subst h1; subst h2
      obtain ⟨r', r1, t, tl, hr', hm, hloc, hs, ht, htl, hop⟩ :=
        fixupT1Branch_zero hc hadj hres'
      have hr'' : lirs0[p]? = some r' := hr'
      rw [h0] at hr''
      injection hr'' with hr''
      subst hr''
      refine ⟨h3.symm, hloc, r1, hm, hs, ?_⟩
      have hf : r1.flags.fixup = kFixupT1Branch := by rw [hs.2.2.2]; exact hfix
      simp only [HoldsDisplacement, hf]
      rw [displacement_of_case h0 hs ht htl, hop]
    · -- kFixupLoad
      rename_i hfix
      obtain ⟨⟨m2, loc2⟩, hc, hcase⟩ := bind_ok hcase
      simp only [pure, Except.pure] at hcase
      injection hcase with hcase
      injection hcase with h1 h2
      injection h2 with h2 h3
      subst h1; subst h2
      obtain ⟨r', r1, t, tl, hr', hm, hloc, hs, ht, htl, hop⟩ := fixupCondBranch_zero hc hadj
      have hr'' : lirs0[p]? = some r' := hr'
      rw [h0] at hr''
      injection hr'' with hr''
      subst hr''
      refine ⟨h3.symm, hloc, r1, hm, hs, ?_⟩
      have hf : r1.flags.fixup = kFixupLoad := by rw [hs.2.2.2]; exact hfix
      simp only [HoldsDisplacement, hf]
      rw [displacement_of_case h0 hs ht htl, hop]
    · -- kFixupCBxZ
      rename_i hfix
      obtain ⟨⟨m2, loc2⟩, hc, hcase⟩ := bind_ok hcase
      simp only [pure, Except.pure] at hcase
      injection hcase with hcase
      injection hcase with h1 h2
      injection h2 with h2 h3
      subst h1; subst h2
      obtain ⟨r', r1, t, tl, hr', hm, hloc, hs, ht, htl, hop⟩ := fixupCondBranch_zero hc hadj
      have hr'' : lirs0[p]? = some r' := hr'
      rw [h0] at hr''
      injection hr'' with hr''
      subst hr''
      refine ⟨h3.symm, hloc, r1, hm, hs, ?_⟩
      have hf : r1.flags.fixup = kFixupCBxZ := by rw [hs.2.2.2]; exact hfix
      simp only [HoldsDisplacement, hf]
      rw [displacement_of_case h0 hs ht htl, hop]
    · -- kFixupCondBranch
      rename_i hfix
      obtain ⟨⟨m2, loc2⟩, hc, hcase⟩ := bind_ok hcase
      simp only [pure, Except.pure] at hcase
      injection hcase with hcase
      injection hcase with h1 h2
      injection h2 with h2 h3
      subst h1; subst h2
      obtain ⟨r', r1, t, tl, hr', hm, hloc, hs, ht, htl, hop⟩ := fixupCondBranch_zero hc hadj
      have hr'' : lirs0[p]? = some r' := hr'
      rw [h0] at hr''
      injection hr'' with hr''
      subst hr''
      refine ⟨h3.symm, hloc, r1, hm, hs, ?_⟩
      have hf : r1.flags.fixup = kFixupCondBranch := by rw [hs.2.2.2]; exact hfix
      simp only [HoldsDisplacement, hf]
      rw [displacement_of_case h0 hs ht htl, hop]
    · -- kFixupTBxZ
      rename_i hfix
      obtain ⟨hcf, r', r1, t, tl, hr', hm, hloc, hs, ht, htl, hop⟩ :=
        fixupTBxZ_zero hcase hadj hres'
      have hr'' : lirs0[p]? = some r' := hr'
      rw [h0] at hr''
      injection hr'' with hr''
      subst hr''
      refine ⟨hcf, hloc, r1, hm, hs, ?_⟩
      have hf : r1.flags.fixup = kFixupTBxZ := by rw [hs.2.2.2]; exact hfix
      simp only [HoldsDisplacement, hf]
      rw [displacement_of_case h0 hs ht htl, hop]
    · -- kFixupAdr
      rename_i hfix
      obtain ⟨⟨m2, loc2⟩, hc, hcase⟩ := bind_ok hcase
      simp only [pure, Except.pure] at hcase
      injection hcase with hcase
      injection hcase with h1 h2
      injection h2 with h2 h3
      subst h1; subst h2
      obtain ⟨r', r1, hr', hm, hloc, hs⟩ := fixupAdr_frame hc
      refine ⟨h3.symm, hloc, r1, hm, ?_, ?_⟩
      · have hr'' : lirs0[p]? = some r' := hr'
        rw [h0] at hr''
        injection hr'' with hr''
        rw [hr'']; exact hs
      · have hf : r1.flags.fixup = kFixupAdr := by
          have hr'' : lirs0[p]? = some r' := hr'
          rw [h0] at hr''
          injection hr'' with hr''
          rw [hs.2.2.2, ← hr'']; exact hfix
        simp only [HoldsDisplacement, hf]
    · -- kFixupA53Erratum835769
      rename_i hfix
      obtain ⟨⟨m2, loc2⟩, hc, hcase⟩ := bind_ok hcase
      simp only [pure, Except.pure] at hcase
      injection hcase with hcase
      injection hcase with h1 h2
      injection h2 with h2 h3
      subst h1; subst h2
      obtain ⟨_, _, hm, hloc⟩ := fixupA53_success hc hres'
      refine ⟨h3.symm, hloc, lir0, ?_, ⟨rfl, rfl, rfl, rfl⟩, ?_⟩
      · rw [hm, set_self_of_some h0]
      · rw [set_self_of_some h0]
        simp only [HoldsDisplacement, hfix]
    · cases hcase
  obtain ⟨hc, hloc, r1, hm', hs, hd⟩ := key
  subst hc
  simp only [Bool.false_eq_true, if_false] at h
  obtain ⟨lirp, hlirp, h⟩ := bind_ok h
  have hlirp' := getLIR_some_inv hlirp
  rw [hm'] at hlirp'
  simp only at hlirp'
  rw [getElem?_set_self_of_some h0] at hlirp'
  injection hlirp' with hlirp'
  simp only [pure, Except.pure] at h
  injection h with h
  injection h with h1 h2
  obtain ⟨ho, hp, htg, hf⟩ := hs
  have hset : lirs0.set p r1 = m.lirs.set p r1 := by rw [hset0, List.set_set]
  refine ⟨r, r1, hr, ?_, ?_, ?_, ?_, ?_, ?_, ?_⟩
  · rw [← h1, hm', hset]
  · rw [← h2, hloc, ← hlirp', hp, ← hlir0']
  · rw [hp, ← hlir0']
  · rw [htg, ← hlir0']
  · rw [hf, ← hlir0']
  · rw [ho, ← hlir0']
    show wrap32 (r.offset + toU32 loc.offset_adjustment) % 4294967296 = _
    rw [hadj]
    unfold wrap32 toU32
    omega
  · rw [← hset]; exact hd

/-! ### A pass never takes back a request for a retry -/

theorem fixupT1Branch_res {env : Env} {m m1 : Mir2Lir} {loc loc1 : FixupLocals} {p : Nat}
    (h : fixupT1Branch env m loc p = .ok (m1, loc1)) :
    loc1.res = loc.res ∨ loc1.res = .kRetryAll := by
  unfold fixupT1Branch at h
  obtain ⟨r, _, h⟩ := bind_ok h
  obtain ⟨d, _, h⟩ := bind_ok h
  split at h
  · cases h
  · obtain ⟨lirs', _, h⟩ := bind_ok h
    obtain ⟨lir2, _, h⟩ := bind_ok h
    split at h
    · obtain ⟨lirs3, _, h⟩ := bind_ok h
      simp only [pure, Except.pure] at h
      injection h with h
      injection h with h1 h2
      rw [← h2]; exact Or.inr rfl
    · simp only [pure, Except.pure] at h
      injection h with h
      injection h with h1 h2
      rw [← h2]; exact Or.inl rfl

theorem fixupCondBranch_res {env : Env} {m m1 : Mir2Lir} {loc loc1 : FixupLocals} {p : Nat}
    (h : fixupCondBranch env m loc p = .ok (m1, loc1)) : loc1.res = loc.res := by
  unfold fixupCondBranch at h
  obtain ⟨r, _, h⟩ := bind_ok h
  obtain ⟨d, _, h⟩ := bind_ok h
  split at h
  · cases h
  · obtain ⟨lirs', _, h⟩ := bind_ok h
    simp only [pure, Except.pure] at h
    injection h with h
    injection h with h1 h2
    rw [← h2]

theorem fixupTBxZ_res {env : Env} {generation : Nat} {m m1 : Mir2Lir} {loc loc1 : FixupLocals}
    {p : Nat} {c : Bool} (h : fixupTBxZ env generation m loc p = .ok (m1, loc1, c)) :
    loc1.res = loc.res ∨ loc1.res = .kRetryAll := by
  unfold fixupTBxZ at h
  obtain ⟨r, _, h⟩ := bind_ok h
  dsimp only at h
  obtain ⟨_, _, h⟩ := bind_ok h
  obtain ⟨_, _, h⟩ := bind_ok h
  obtain ⟨lirs1, _, h⟩ := bind_ok h
  obtain ⟨lir2, _, h⟩ := bind_ok h
  obtain ⟨d, _, h⟩ := bind_ok h
  split at h
  · exact Or.inr (tbxzWiden_retry h)
  · obtain ⟨lirs3, _, h⟩ := bind_ok h
    simp only [pure, Except.pure] at h
    injection h with h
    injection h with h1 h2
    injection h2 with h2 h3
    rw [← h2]; exact Or.inl rfl

theorem fixupAdr_res {m m1 : Mir2Lir} {loc loc1 : FixupLocals} {p : Nat}
    (h : fixupAdr m loc p = .ok (m1, loc1)) : loc1.res = loc.res := by
  obtain ⟨_, _, _, _, hloc, _⟩ := fixupAdr_frame h
  rw [hloc]

theorem fixupA53_res {env : Env} {fuel : Nat} {m m1 : Mir2Lir} {loc loc1 : FixupLocals}
    {p : Nat} (h : fixupA53Erratum835769 env fuel m loc p = .ok (m1, loc1)) :
    loc1.res = loc.res ∨ loc1.res = .kRetryAll := by
  cases hres : loc1.res with
  | kRetryAll => exact Or.inr rfl
  | kSuccess =>
    obtain ⟨_, _, _, hloc⟩ := fixupA53_success h hres
    rw [← hres, hloc]
    exact Or.inl rfl

theorem fixupSwitch_res {env : Env} {fuel generation : Nat} {m m1 : Mir2Lir}
    {loc loc1 : FixupLocals} {p : Nat} {k : FixupKind} {c : Bool}
    (h : fixupSwitch env fuel generation m loc p k = .ok (m1, loc1, c)) :
    loc1.res = loc.res ∨ loc1.res = .kRetryAll := by
  unfold fixupSwitch at h
  have hpair : ∀ {x : Except Fault (Mir2Lir × FixupLocals)},
      (∀ a b, x = .ok (a, b) → b.res = loc.res ∨ b.res = .kRetryAll) →
      (x >>= fun r => (pure (r.1, r.2, false) : Except Fault (Mir2Lir × FixupLocals × Bool)))
        = .ok (m1, loc1, c) →
      loc1.res = loc.res ∨ loc1.res = .kRetryAll := by
    intro x hx hb
    obtain ⟨⟨a, b⟩, hab, hb⟩ := bind_ok hb
    simp only [pure, Except.pure] at hb
    injection hb with hb
    injection hb with h1 h2
    injection h2 with h2 h3
    rw [← h2]
    exact hx a b hab
  have hplain : ∀ {x : Except Fault (Mir2Lir × FixupLocals × Bool)},
      x = pure (m, loc, false) → x = .ok (m1, loc1, c) →
      loc1.res = loc.res ∨ loc1.res = .kRetryAll := by
    intro x hx hx'
    rw [hx] at hx'
    simp only [pure, Except.pure] at hx'
    injection hx' with hx'
    injection hx' with h1 h2
    injection h2 with h2 h3
    rw [← h2]; exact Or.inl rfl
  split at h
  · exact hplain rfl h
  · exact hplain rfl h
  · exact hplain rfl h
  · exact hpair (fun a b hab => fixupT1Branch_res hab) h
  · exact hpair (fun a b hab => Or.inl (fixupCondBranch_res hab)) h
  · exact hpair (fun a b hab => Or.inl (fixupCondBranch_res hab)) h
  · exact hpair (fun a b hab => Or.inl (fixupCondBranch_res hab)) h
  · exact fixupTBxZ_res h
  · exact hpair (fun a b hab => Or.inl (fixupAdr_res hab)) h
  · exact hpair (fun a b hab => fixupA53_res hab) h
  · cases h

theorem fixupStep_res {env : Env} {fuel generation : Nat} {m m1 : Mir2Lir}
    {loc loc1 : FixupLocals} {p : Nat}
    (h : fixupStep env fuel generation m loc p = .ok (m1, loc1)) :
    loc1.res = loc.res ∨ loc1.res = .kRetryAll := by
  unfold fixupStep at h
  obtain ⟨lirs0, _, h⟩ := bind_ok h
  dsimp only at h
  obtain ⟨lir0, _, h⟩ := bind_ok h
  obtain ⟨⟨m', loc', c⟩, hcase, h⟩ := bind_ok h
  have hc := fixupSwitch_res hcase
  dsimp only at h
  split at h
  · simp only [pure, Except.pure] at h
    injection h with h
    injection h with _ h2
    rw [← h2]; exact hc
  · obtain ⟨_, _, h⟩ := bind_ok h
    simp only [pure, Except.pure] at h
    injection h with h
    injection h with _ h2
    rw [← h2]; exact hc

theorem fixupPass_retry {env : Env} {generation : Nat} :
    ∀ (fuel : Nat) (m : Mir2Lir) (loc : FixupLocals) (m' : Mir2Lir) (loc' : FixupLocals),
      fixupPass env generation fuel m loc = .ok (m', loc') → loc.res = .kRetryAll →
      loc'.res = .kRetryAll := by
  intro fuel
  induction fuel with
  | zero =>
    intro m loc m' loc' h hres
    unfold fixupPass at h
    cases hl : loc.lir with
    | none =>
      rw [hl] at h
      injection h with h
      injection h with _ h2
      rw [← h2]; exact hres
    | some p => rw [hl] at h; cases h
  | succ fuel ih =>
    intro m loc m' loc' h hres
    unfold fixupPass at h
    cases hl : loc.lir with
    | none =>
      rw [hl] at h
      injection h with h
      injection h with _ h2
      rw [← h2]; exact hres
    | some p =>
      rw [hl] at h
      dsimp only at h
      cases hs : fixupStep env (fuel + 1) generation m loc p with
      | error e => rw [hs] at h; cases h
      | ok v =>
        obtain ⟨m1, loc1⟩ := v
        rw [hs] at h
        refine ih m1 loc1 m' loc' h ?_
        rcases fixupStep_res hs with h1 | h1
        · rw [h1]; exact hres
        · exact h1

theorem PassKeeps.refl (lirs : List LIR) : PassKeeps lirs lirs :=
  ⟨rfl, fun _ r hr => ⟨r, hr, rfl, rfl, rfl, rfl, id⟩⟩

theorem PassKeeps.trans {a b c : List LIR} (h1 : PassKeeps a b) (h2 : PassKeeps b c) :
    PassKeeps a c := by
  refine ⟨h2.1.trans h1.1, ?_⟩
  intro j r hr
  obtain ⟨r', hr', e1, e2, e3, e4, e5⟩ := h1.2 j r hr
  obtain ⟨r'', hr'', f1, f2, f3, f4, f5⟩ := h2.2 j r' hr'
  exact ⟨r'', hr'', f1.trans e1, f2.trans e2, f3.trans e3, f4.trans e4, fun h => f5 (e5 h)⟩

/-- The displacement of a record does not change when another record of the arena is
replaced by one with the same offset as a `uint32_t`. -/
theorem displacement_set {lirs : List LIR} {p : Nat} {r0 r1 : LIR} (h0 : lirs[p]? = some r0)
    (ho : r1.offset % 4294967296 = r0.offset % 4294967296) (r : LIR) :
    displacement (lirs.set p r1) r = displacement lirs r := by
  unfold displacement
  cases ht : r.target with
  | none => rfl
  | some t =>
    by_cases htp : t = p
    · subst htp
      simp only [getElem?_set_self_of_some h0, h0, wrapI32_congr_left ho]
    · simp only [List.getElem?_set_ne (Ne.symm htp)]

theorem HoldsDisplacement_set {lirs : List LIR} {p : Nat} {r0 r1 : LIR}
    (h0 : lirs[p]? = some r0) (ho : r1.offset % 4294967296 = r0.offset % 4294967296) (r : LIR)
    (h : HoldsDisplacement lirs r) : HoldsDisplacement (lirs.set p r1) r := by
  unfold HoldsDisplacement at *
  rw [displacement_set h0 ho]
  exact h

theorem fixupStep_keeps {env : Env} {fuel generation : Nat} {m m1 : Mir2Lir}
    {loc loc1 : FixupLocals} {p : Nat}
    (h : fixupStep env fuel generation m loc p = .ok (m1, loc1))
    (hadj : loc.offset_adjustment = 0) (hres : loc1.res = .kSuccess) :
    ∃ r r1, m.lirs[p]? = some r ∧ m1.lirs[p]? = some r1 ∧ loc1.lir = r.pcrel_next ∧
      loc1.offset_adjustment = 0 ∧ m1.first_fixup_ = m.first_fixup_ ∧
      HoldsDisplacement m1.lirs r1 ∧ PassKeeps m.lirs m1.lirs := by
  obtain ⟨r, r1, hr, hm, hloc, hp, htg, hf, ho, hd⟩ := fixupStep_success h hadj hres
  refine ⟨r, r1, hr, ?_, ?_, ?_, ?_, ?_, ?_⟩
  · rw [hm]; exact getElem?_set_self_of_some hr r1
  · rw [hloc]
  · rw [hloc]; exact hadj
  · rw [hm]
  · rw [hm]; exact hd
  · rw [hm]
    refine ⟨List.length_set _ _ _, ?_⟩
    intro j q hq
    by_cases hj : j = p
    · subst hj
      rw [hr] at hq
      injection hq with hq
      subst hq
      exact ⟨r1, getElem?_set_self_of_some hr r1, hp, htg, hf, ho, fun _ => hd⟩
    · refine ⟨q, ?_, rfl, rfl, rfl, rfl, HoldsDisplacement_set hr ho q⟩
      show (m.lirs.set p r1)[j]? = some q
      rw [List.getElem?_set_ne (Ne.symm hj)]; exact hq

/-- A pass that starts without pending adjustment and ends without a request for a retry
leaves every node of the chain it walked with the displacement of the stored offsets. -/
theorem fixupPass_success {env : Env} {generation : Nat} :
    ∀ (fuel : Nat) (m : Mir2Lir) (loc : FixupLocals) (m' : Mir2Lir) (loc' : FixupLocals),
      fixupPass env generation fuel m loc = .ok (m', loc') → loc.offset_adjustment = 0 →
      loc'.res = .kSuccess →
      PassKeeps m.lirs m'.lirs ∧ m'.first_fixup_ = m.first_fixup_ ∧
      ∀ i, InFixupChain m'.lirs loc.lir i → ∀ r', m'.lirs[i]? = some r' →
        HoldsDisplacement m'.lirs r' := by
  intro fuel
  induction fuel with
  | zero =>
    intro m loc m' loc' h _ _
    unfold fixupPass at h
    cases hl : loc.lir with
    | none =>
      rw [hl] at h
      injection h with h
      injection h with h1 _
      subst h1
      exact ⟨PassKeeps.refl _, rfl, fun i hi => by cases hi⟩
    | some p => rw [hl] at h; cases h
  | succ fuel ih =>
    intro m loc m' loc' h hadj hres
    unfold fixupPass at h
    cases hl : loc.lir with
    | none =>
      rw [hl] at h
      injection h with h
      injection h with h1 _
      subst h1
      exact ⟨PassKeeps.refl _, rfl, fun i hi => by cases hi⟩
    | some p =>
      rw [hl] at h
      dsimp only at h
      cases hs : fixupStep env (fuel + 1) generation m loc p with
      | error e => rw [hs] at h; cases h
      | ok v =>
        obtain ⟨m1, loc1⟩ := v
        rw [hs] at h
        have hres1 : loc1.res = .kSuccess := by
          cases hr1 : loc1.res with
          | kSuccess => rfl
          | kRetryAll =>
            have := fixupPass_retry fuel m1 loc1 m' loc' h hr1
            rw [hres] at this
            cases this
        obtain ⟨r, r1, hr, hr1, hnext, hadj1, hfirst1, hd1, hk1⟩ :=
          fixupStep_keeps hs hadj hres1
        obtain ⟨hk, hfirst, hchain⟩ := ih m1 loc1 m' loc' h hadj1 hres
        refine ⟨hk1.trans hk, hfirst.trans hfirst1, ?_⟩
        obtain ⟨rp, hrp, hrp1, _, _, _, hrp5⟩ := hk.2 p r1 hr1
        intro i hi q hq
        cases hi with
        | head _ =>
          rw [hrp] at hq
          injection hq with hq
          rw [← hq]
          exact hrp5 hd1
        | tail hj hrest =>
          rename_i rj
          rw [hrp] at hj
          injection hj with hj
          obtain ⟨r1', hr1', hpc, _⟩ := hk1.2 p r hr
          rw [hr1] at hr1'
          injection hr1' with hr1'
          rw [← hj, hrp1, hr1', hpc, ← hnext] at hrest
          exact hchain i hrest q hq


/-- C1: when the fixup loop of `AssembleLIR` exits with success, every node of the fixup
chain that is still a branch or a literal load holds the displacement of the offsets
stored at loop exit: `operands[1] == (target.offset - node.offset) >> 2` for
`kFixupCondBranch`, `kFixupCBxZ` and `kFixupLoad`, `operands[0]` likewise for
`kFixupT1Branch` and `operands[2]` for `kFixupTBxZ` (the difference is the one of the code,
taken in `uint32_t` and read as `int32_t`). -/
theorem fixupLoop_displacements (env : Env) (fuel : Nat) :
    ∀ (rounds : Nat) (m : Mir2Lir) (generation assembler_retries starting_offset : Nat)
      (m' : Mir2Lir) (final_offset : Nat),
      fixupLoop env fuel rounds m generation assembler_retries starting_offset
        = .ok (m', final_offset) →
      ∀ i r, InFixupChain m'.lirs m'.first_fixup_ i → m'.lirs[i]? = some r →
        HoldsDisplacement m'.lirs r := by
  intro rounds
  induction rounds with
  | zero =>
    intro m generation assembler_retries starting_offset m' final_offset h
    cases h
  | succ rounds ih =>
    intro m generation assembler_retries starting_offset m' final_offset h
    unfold fixupLoop at h
    dsimp only at h
    cases hp : fixupPass env (generation ^^^ 1) fuel m
        { offset_adjustment := 0, res := .kSuccess, prev_lir := none, lir := m.first_fixup_ } with
    | error e => rw [hp] at h; cases h
    | ok v =>
      obtain ⟨m1, loc1⟩ := v
      rw [hp] at h
      dsimp only at h
      split at h
      · rename_i hres
        split at h
        · cases h
        · injection h with h
          injection h with h1 _
          subst h1
          obtain ⟨_, hfirst, hchain⟩ := fixupPass_success fuel m _ m1 loc1 hp rfl hres
          intro i r hi hr
          rw [hfirst] at hi
          exact hchain i hi r hr
      · split at h
        · cases h
        · exact ih _ _ _ _ m' final_offset h

theorem fixupLoop_displacements_witness :
    fixupLoop (mkEnv releaseConfig) 3 52 branchStreamLinked 0 0 8
      = .ok (branchStreamResolved, 8) ∧
    InFixupChain branchStreamResolved.lirs branchStreamResolved.first_fixup_ 0 ∧
    HoldsDisplacement branchStreamResolved.lirs branchResolved ∧
    displacement branchStreamResolved.lirs branchResolved = some 2 :=
  ⟨by decide, InFixupChain.head (r := branchResolved) rfl,
    fixupLoop_displacements (mkEnv releaseConfig) 3 52 branchStreamLinked 0 0 8
      branchStreamResolved 8 (by decide) 0 branchResolved
      (InFixupChain.head (r := branchResolved) rfl) rfl,
    by decide⟩

theorem LinkFixupInsns_offsets_witness :
    getLIR branchStream.lirs (some 2) = .ok branchStreamLabel ∧
    NextSeg branchStream.lirs branchStreamLabel.next (some 0) [0, 1, 2] ∧
    branchStream.first_fixup_ = none ∧
    LinkFixupInsns (mkEnv releaseConfig) 3 branchStream (some 0) (some 2) 0
      = .ok (branchStreamLinked, 8) ∧
    ∃ m', LinkFixupInsns (mkEnv releaseConfig) 3 branchStream (some 0) (some 2) 0
        = .ok (m', wrap32 (0 + flagsSizeSum m'.lirs [0, 1, 2])) :=
  ⟨rfl, ⟨by decide, rfl, _, rfl, by decide, rfl, _, rfl, by decide, rfl, _, rfl, rfl⟩, rfl,
    by decide,
    (LinkFixupInsns_offsets (mkEnv releaseConfig) 3 branchStream (some 0) (some 2) 0
      branchStreamLabel [0, 1, 2] rfl
      ⟨by decide, rfl, _, rfl, by decide, rfl, _, rfl, by decide, rfl, _, rfl, rfl⟩
      (by decide) (by decide) rfl
      (fun _ _ _ _ _ _ _ _ hk => by cases hk)).imp fun _ h => h.1⟩


/-! ## C14: the range of `kFixupCBxZ` -/

theorem IS_SIGNED_IMM19_iff (v : Int) :
    IS_SIGNED_IMM19 v = true ↔ -262144 ≤ v ∧ v < 262144 := by
  unfold IS_SIGNED_IMM19 IS_SIGNED_IMM
  rw [decide_eq_true_iff]
  norm_num

/-- What the cases `kFixupLoad`, `kFixupCBxZ` and `kFixupCondBranch` make of a node whose
distance has been computed: a fatal error when `delta >> 2` is not a signed 19-bit value,
and the displacement stored in operand 1 otherwise. -/
theorem fixupCondBranch_eq (env : Env) (m : Mir2Lir) (loc : FixupLocals) (p : Nat) (r : LIR)
    (d : Int) (hr : m.lirs[p]? = some r)
    (hd : fixupDelta env m.lirs r loc.offset_adjustment = .ok d) :
    fixupCondBranch env m loc p =
      if IS_SIGNED_IMM19 (asr d 2) then
        .ok ({ m with lirs := m.lirs.set p { r with operands := r.operands.set 1 (asr d 2) } },
          loc)
      else .error (.fatal "Invalid jump range in kFixupLoad") := by
  unfold fixupCondBranch
  simp only [getLIR_some hr, bind, Except.bind, hd]
  cases hi : IS_SIGNED_IMM19 (asr d 2) with
  | true => simp [updLIR_some hr, pure, Except.pure, bind, Except.bind]
  | false => simp [throw, throwThe, MonadExceptOf.throw]

/-- C14, refuted: no state and no node are accepted by the case of a conditional branch
and rejected by the case of `cbz/cbnz`; the two fixup kinds share one case of the
resolver. -/
theorem cbxz_range_not_narrower :
    ¬ ∃ (env : Env) (fuel generation : Nat) (m : Mir2Lir) (loc : FixupLocals) (p : Nat)
        (res : Mir2Lir × FixupLocals × Bool) (e : Fault),
      fixupSwitch env fuel generation m loc p kFixupCondBranch = .ok res ∧
      fixupSwitch env fuel generation m loc p kFixupCBxZ = .error e := by
  rintro ⟨env, fuel, generation, m, loc, p, res, e, h1, h2⟩
  have h : fixupSwitch env fuel generation m loc p kFixupCBxZ
      = fixupSwitch env fuel generation m loc p kFixupCondBranch := rfl
  rw [h, h1] at h2
  cases h2

/-- C14 as amended: the resolver verifies `kFixupCBxZ` against the same signed range as
`kFixupCondBranch` (and `kFixupLoad`): for a node whose distance `delta` has been computed,
either case stores the displacement when `-2^18 ≤ delta >> 2 < 2^18` and stops with the
fatal error "Invalid jump range in kFixupLoad" otherwise. -/
theorem cbxz_same_range (env : Env) (fuel generation : Nat) (m : Mir2Lir) (loc : FixupLocals)
    (p : Nat) (r : LIR) (d : Int) (hr : m.lirs[p]? = some r)
    (hd : fixupDelta env m.lirs r loc.offset_adjustment = .ok d) :
    fixupSwitch env fuel generation m loc p kFixupCBxZ
      = fixupSwitch env fuel generation m loc p kFixupCondBranch ∧
    (-262144 ≤ asr d 2 ∧ asr d 2 < 262144 →
      fixupSwitch env fuel generation m loc p kFixupCBxZ
        = .ok ({ m with lirs := m.lirs.set p { r with operands := r.operands.set 1 (asr d 2) } },
            loc, false)) ∧
    (¬ (-262144 ≤ asr d 2 ∧ asr d 2 < 262144) →
      fixupSwitch env fuel generation m loc p kFixupCBxZ
        = .error (.fatal "Invalid jump range in kFixupLoad")) := by
  have hsw : fixupSwitch env fuel generation m loc p kFixupCBxZ
      = (fixupCondBranch env m loc p >>= fun x => pure (x.1, x.2, false)) := rfl
  refine ⟨rfl, ?_, ?_⟩
  · intro hin
    rw [hsw, fixupCondBranch_eq env m loc p r d hr hd, if_pos ((IS_SIGNED_IMM19_iff _).mpr hin)]
    rfl
  · intro hout
    have hf : IS_SIGNED_IMM19 (asr d 2) = false := by
      cases hi : IS_SIGNED_IMM19 (asr d 2) with
      | false => rfl
      | true => exact absurd ((IS_SIGNED_IMM19_iff _).mp hi) hout
    rw [hsw, fixupCondBranch_eq env m loc p r d hr hd, hf]
    rfl

theorem cbxz_same_range_witness :
    fixupSwitch (mkEnv releaseConfig) 0 1 branchStreamLinked ⟨0, .kSuccess, none, some 0⟩ 0
        kFixupCBxZ
      = .ok (
        { branchStreamLinked with
          lirs := branchStreamLinked.lirs.set 0
            ⟨0, 0, kA64B2ct, some 1, none, some 2, ⟨false, 4, true, 0, kFixupCondBranch⟩,
              some 2, ⟨0, 2, 0, 0, 0⟩⟩ },
        ⟨0, .kSuccess, none, some 0⟩, false) :=
  (cbxz_same_range (mkEnv releaseConfig) 0 1 branchStreamLinked ⟨0, .kSuccess, none, some 0⟩ 0
    ⟨0, 0, kA64B2ct, some 1, none, some 2, ⟨false, 4, true, 0, kFixupCondBranch⟩, some 2,
      ⟨0, 0, 0, 0, 0⟩⟩ 8 rfl (by decide)).2.1 (by decide)

/-! ## C19: no adjustment is pending when a pass asks for no retry -/

theorem fixupPass_adjustment (env : Env) (generation : Nat) :
    ∀ (fuel : Nat) (m : Mir2Lir) (loc : FixupLocals) (m' : Mir2Lir) (loc' : FixupLocals),
      fixupPass env generation fuel m loc = .ok (m', loc') → loc.offset_adjustment = 0 →
      loc'.res = .kSuccess → loc'.offset_adjustment = 0 := by
  intro fuel
  induction fuel with
  | zero =>
    intro m loc m' loc' h hadj _
    unfold fixupPass at h
    cases hl : loc.lir with
    | none =>
      rw [hl] at h
      injection h with h
      injection h with _ h2
      rw [← h2]; exact hadj
    | some p => rw [hl] at h; cases h
  | succ fuel ih =>
    intro m loc m' loc' h hadj hres
    unfold fixupPass at h
    cases hl : loc.lir with
    | none =>
      rw [hl] at h
      injection h with h
      injection h with _ h2
      rw [← h2]; exact hadj
    | some p =>
      rw [hl] at h
      dsimp only at h
      cases hs : fixupStep env (fuel + 1) generation m loc p with
      | error e => rw [hs] at h; cases h
      | ok v =>
        obtain ⟨m1, loc1⟩ := v
        rw [hs] at h
        have hres1 : loc1.res = .kSuccess := by
          cases hr1 : loc1.res with
          | kSuccess => rfl
          | kRetryAll =>
            have := fixupPass_retry fuel m1 loc1 m' loc' h hr1
            rw [hres] at this
            cases this
        obtain ⟨_, _, _, _, _, hadj1, _⟩ := fixupStep_keeps hs hadj hres1
        exact ih m1 loc1 m' loc' h hadj1 hres

/-- C19: whenever a pass over the fixup chain, started as the loop of `AssembleLIR` starts
it (`offset_adjustment = 0`, `res = kSuccess`), finishes with `res == kSuccess`, the
accumulated `offset_adjustment` is exactly 0; the check `DCHECK_EQ(offset_adjustment, 0)`
passes and the loop is left with the state of the pass. -/
theorem fixupPass_success_adjustment_zero (env : Env) (fuel rounds generation : Nat)
    (m m' : Mir2Lir) (loc' : FixupLocals) (assembler_retries starting_offset : Nat)
    (h : fixupPass env (generation ^^^ 1) fuel m
      { offset_adjustment := 0, res := .kSuccess, prev_lir := none, lir := m.first_fixup_ }
        = .ok (m', loc'))
    (hres : loc'.res = .kSuccess) :
    loc'.offset_adjustment = 0 ∧
    DCHECK env.toBuildConfig (loc'.offset_adjustment == 0) "DCHECK_EQ(offset_adjustment, 0)"
      = .ok () ∧
    fixupLoop env fuel (rounds + 1) m generation assembler_retries starting_offset
      = .ok (m', starting_offset) := by
  have h0 := fixupPass_adjustment env (generation ^^^ 1) fuel m _ m' loc' h rfl hres
  refine ⟨h0, ?_, ?_⟩
  · simp [DCHECK, h0]
  · unfold fixupLoop
    simp [h, hres, DCHECK, h0]

theorem fixupPass_success_adjustment_zero_witness :
    fixupPass (mkEnv debugConfig) (0 ^^^ 1) 3 branchStreamLinked
        { offset_adjustment := 0, res := .kSuccess, prev_lir := none,
          lir := branchStreamLinked.first_fixup_ }
      = .ok (branchStreamResolved, ⟨0, .kSuccess, some 2, none⟩) ∧
    fixupLoop (mkEnv debugConfig) 3 (0 + 1) branchStreamLinked 0 0 8
      = .ok (branchStreamResolved, 8) :=
  ⟨by decide,
    (fixupPass_success_adjustment_zero (mkEnv debugConfig) 3 0 0 branchStreamLinked
      branchStreamResolved ⟨0, .kSuccess, some 2, none⟩ 0 8 (by decide) rfl).2.2⟩

/-! ## C20: the retry budget -/

theorem DCHECK_error {cfg : BuildConfig} {c : Bool} {msg : String} {e : Fault}
    (h : DCHECK cfg c msg = .error e) : e = .dcheck msg := by
  unfold DCHECK at h
  split at h
  · injection h with h
    exact h.symm
  · cases h

/-- One round of the loop `while (true)` after a pass that asked for a retry. -/
theorem fixupLoop_retry_round (env : Env) (fuel rounds generation : Nat) (m m1 : Mir2Lir)
    (loc1 : FixupLocals) (assembler_retries starting_offset : Nat)
    (h : fixupPass env (generation ^^^ 1) fuel m
      { offset_adjustment := 0, res := .kSuccess, prev_lir := none, lir := m.first_fixup_ }
        = .ok (m1, loc1))
    (hres : loc1.res ≠ .kSuccess) :
    fixupLoop env fuel (rounds + 1) m generation assembler_retries starting_offset =
      if assembler_retries + 1 > env.MAX_ASSEMBLER_RETRIES then
        .error (.fatal "Assembler error - too many retries")
      else
        fixupLoop env fuel rounds
          (AssignDataOffsets env
            { m1 with
              data_offset_ :=
                ALIGNED_DATA_OFFSET (wrap32 (starting_offset + toU32 loc1.offset_adjustment)) })
          (generation ^^^ 1) (assembler_retries + 1)
          (wrap32 (starting_offset + toU32 loc1.offset_adjustment)) := by
  rw [fixupLoop]
  simp only [h, hres, if_false]

/-- Rounds beyond `MAX_ASSEMBLER_RETRIES + 1 - assembler_retries` are never used. -/
theorem fixupLoop_rounds_stable (env : Env) (fuel : Nat) :
    ∀ (n : Nat) (m : Mir2Lir) (generation assembler_retries starting_offset k : Nat),
      assembler_retries + n = env.MAX_ASSEMBLER_RETRIES →
      fixupLoop env fuel (n + 1 + k) m generation assembler_retries starting_offset
        = fixupLoop env fuel (n + 1) m generation assembler_retries starting_offset := by
  intro n
  induction n with
  | zero =>
    intro m generation assembler_retries starting_offset k hn
    have e1 : 0 + 1 + k = k + 1 := by omega
    rw [e1]
    cases hp : fixupPass env (generation ^^^ 1) fuel m
        { offset_adjustment := 0, res := .kSuccess, prev_lir := none, lir := m.first_fixup_ } with
    | error e =>
      rw [fixupLoop, fixupLoop]
      simp only [hp]
    | ok v =>
      obtain ⟨m1, loc1⟩ := v
      by_cases hres : loc1.res = .kSuccess
      · rw [fixupLoop, fixupLoop]
        simp only [hp, hres, if_true]
      · rw [fixupLoop_retry_round env fuel k generation m m1 loc1 _ _ hp hres,
          fixupLoop_retry_round env fuel 0 generation m m1 loc1 _ _ hp hres]
        have : assembler_retries + 1 > env.MAX_ASSEMBLER_RETRIES := by omega
        simp only [this, if_true]
  | succ n ih =>
    intro m generation assembler_retries starting_offset k hn
    have e1 : n + 1 + 1 + k = (n + 1 + k) + 1 := by omega
    rw [e1]
    cases hp : fixupPass env (generation ^^^ 1) fuel m
        { offset_adjustment := 0, res := .kSuccess, prev_lir := none, lir := m.first_fixup_ } with
    | error e =>
      rw [fixupLoop, fixupLoop]
      simp only [hp]
    | ok v =>
      obtain ⟨m1, loc1⟩ := v
      by_cases hres : loc1.res = .kSuccess
      · rw [fixupLoop, fixupLoop]
        simp only [hp, hres, if_true]
      · rw [fixupLoop_retry_round env fuel (n + 1 + k) generation m m1 loc1 _ _ hp hres,
          fixupLoop_retry_round env fuel (n + 1) generation m m1 loc1 _ _ hp hres]
        have : ¬ (assembler_retries + 1 > env.MAX_ASSEMBLER_RETRIES) := by omega
        simp only [this, if_false]
        exact ih _ _ _ _ k (by omega)

/-- With `MAX_ASSEMBLER_RETRIES + 1 - assembler_retries` rounds the loop does not run out of
rounds: when it reports that a walk ran out of fuel, a pass over the chain did. -/
theorem fixupLoop_rounds_suffice (env : Env) (fuel : Nat) :
    ∀ (n : Nat) (m : Mir2Lir) (generation assembler_retries starting_offset : Nat),
      assembler_retries + n = env.MAX_ASSEMBLER_RETRIES →
      fixupLoop env fuel (n + 1) m generation assembler_retries starting_offset
        = .error .outOfFuel →
      ∃ (m0 : Mir2Lir) (g : Nat), fixupPass env g fuel m0
        { offset_adjustment := 0, res := .kSuccess, prev_lir := none, lir := m0.first_fixup_ }
          = .error .outOfFuel := by
  intro n
  induction n with
  | zero =>
    intro m generation assembler_retries starting_offset hn h
    cases hp : fixupPass env (generation ^^^ 1) fuel m
        { offset_adjustment := 0, res := .kSuccess, prev_lir := none, lir := m.first_fixup_ } with
    | error e =>
      rw [fixupLoop] at h
      simp only [hp] at h
      injection h with h
      exact ⟨m, generation ^^^ 1, by rw [hp, h]⟩
    | ok v =>
      obtain ⟨m1, loc1⟩ := v
      by_cases hres : loc1.res = .kSuccess
      · rw [fixupLoop] at h
        simp only [hp, hres, if_true] at h
        split at h
        · rename_i e he
          injection h with h
          rw [h] at he
          exact absurd (DCHECK_error he) (by simp)
        · cases h
      · rw [fixupLoop_retry_round env fuel 0 generation m m1 loc1 _ _ hp hres] at h
        have : assembler_retries + 1 > env.MAX_ASSEMBLER_RETRIES := by omega
        simp only [this, if_true] at h
        cases h
  | succ n ih =>
    intro m generation assembler_retries starting_offset hn h
    cases hp : fixupPass env (generation ^^^ 1) fuel m
        { offset_adjustment := 0, res := .kSuccess, prev_lir := none, lir := m.first_fixup_ } with
    | error e =>
      rw [fixupLoop] at h
      simp only [hp] at h
      injection h with h
      exact ⟨m, generation ^^^ 1, by rw [hp, h]⟩
    | ok v =>
      obtain ⟨m1, loc1⟩ := v
      by_cases hres : loc1.res = .kSuccess
      · rw [fixupLoop] at h
        simp only [hp, hres, if_true] at h
        split at h
        · rename_i e he
          injection h with h
          rw [h] at he
          exact absurd (DCHECK_error he) (by simp)
        · cases h
      · rw [fixupLoop_retry_round env fuel (n + 1) generation m m1 loc1 _ _ hp hres] at h
        have : ¬ (assembler_retries + 1 > env.MAX_ASSEMBLER_RETRIES) := by omega
        simp only [this, if_false] at h
        exact ih _ _ _ _ (by omega) h

theorem AssembleLIR_error (env : Env) (fuel : Nat) (m : Mir2Lir) (e : Fault)
    (h : AssembleLIR_resolve env fuel m = .error e) : AssembleLIR env fuel m = .error e := by
  unfold AssembleLIR
  rw [h]
  rfl

/-- C20: after a pass that asked for a retry the loop of `AssembleLIR` counts the retry and
stops with the fatal error "Assembler error - too many retries" as soon as the count
exceeds `MAX_ASSEMBLER_RETRIES`, and otherwise goes on with the next pass; `AssembleLIR`
then fails with the same error and builds no code buffer. Hence the loop makes at most
`MAX_ASSEMBLER_RETRIES + 1 - assembler_retries` passes: more rounds than that are never
used, and with that many rounds the loop does not run out of rounds. -/
theorem too_many_retries_fatal (env : Env) (fuel rounds generation : Nat) (m m1 : Mir2Lir)
    (loc1 : FixupLocals) (assembler_retries starting_offset : Nat)
    (h : fixupPass env (generation ^^^ 1) fuel m
      { offset_adjustment := 0, res := .kSuccess, prev_lir := none, lir := m.first_fixup_ }
        = .ok (m1, loc1))
    (hres : loc1.res ≠ .kSuccess) :
    (assembler_retries + 1 > env.MAX_ASSEMBLER_RETRIES →
      fixupLoop env fuel (rounds + 1) m generation assembler_retries starting_offset
        = .error (.fatal "Assembler error - too many retries")) ∧
    (assembler_retries + 1 ≤ env.MAX_ASSEMBLER_RETRIES →
      fixupLoop env fuel (rounds + 1) m generation assembler_retries starting_offset
        = fixupLoop env fuel rounds
            (AssignDataOffsets env
              { m1 with
                data_offset_ :=
                  ALIGNED_DATA_OFFSET
                    (wrap32 (starting_offset + toU32 loc1.offset_adjustment)) })
            (generation ^^^ 1) (assembler_retries + 1)
            (wrap32 (starting_offset + toU32 loc1.offset_adjustment))) ∧
    (∀ (m0 : Mir2Lir) (g r s k : Nat), r ≤ env.MAX_ASSEMBLER_RETRIES →
      fixupLoop env fuel (env.MAX_ASSEMBLER_RETRIES + 1 - r + k) m0 g r s
        = fixupLoop env fuel (env.MAX_ASSEMBLER_RETRIES + 1 - r) m0 g r s) ∧
    (∀ (m0 : Mir2Lir) (g r s : Nat), r ≤ env.MAX_ASSEMBLER_RETRIES →
      fixupLoop env fuel (env.MAX_ASSEMBLER_RETRIES + 1 - r) m0 g r s = .error .outOfFuel →
      ∃ (m2 : Mir2Lir) (g2 : Nat), fixupPass env g2 fuel m2
        { offset_adjustment := 0, res := .kSuccess, prev_lir := none, lir := m2.first_fixup_ }
          = .error .outOfFuel) ∧
    (∀ m0 : Mir2Lir,
      AssembleLIR_resolve env fuel m0 = .error (.fatal "Assembler error - too many retries") →
      AssembleLIR env fuel m0 = .error (.fatal "Assembler error - too many retries")) := by
  have hround := fixupLoop_retry_round env fuel rounds generation m m1 loc1 assembler_retries
    starting_offset h hres
  refine ⟨?_, ?_, ?_, ?_, ?_⟩
  · intro hgt
    rw [hround, if_pos hgt]
  · intro hle
    have : ¬ (assembler_retries + 1 > env.MAX_ASSEMBLER_RETRIES) := by omega
    rw [hround, if_neg this]
  · intro m0 g r s k hr
    have e1 : env.MAX_ASSEMBLER_RETRIES + 1 - r = (env.MAX_ASSEMBLER_RETRIES - r) + 1 := by omega
    rw [e1]
    exact fixupLoop_rounds_stable env fuel _ m0 g r s k (by omega)
  · intro m0 g r s hr hout
    have e1 : env.MAX_ASSEMBLER_RETRIES + 1 - r = (env.MAX_ASSEMBLER_RETRIES - r) + 1 := by omega
    rw [e1] at hout
    exact fixupLoop_rounds_suffice env fuel _ m0 g r s (by omega) hout
  · intro m0 hm0
    exact AssembleLIR_error env fuel m0 _ hm0

theorem too_many_retries_fatal_witness :
    fixupPass noRetryEnv (0 ^^^ 1) 3 elideStreamLinked
        { offset_adjustment := 0, res := .kSuccess, prev_lir := none,
          lir := elideStreamLinked.first_fixup_ }
      = .ok (elideStreamElided, ⟨-4, .kRetryAll, some 1, none⟩) ∧
    fixupLoop noRetryEnv 3 (0 + 1) elideStreamLinked 0 0 8
      = .error (.fatal "Assembler error - too many retries") :=
  ⟨by decide,
    (too_many_retries_fatal noRetryEnv 3 0 0 elideStreamLinked elideStreamElided
      ⟨-4, .kRetryAll, some 1, none⟩ 0 8 (by decide) (by decide)).1 (by decide)⟩

/-! ## C12: the displacement fields -/

theorem signExtend_toU32_18 (x : Int) (hlo : -262144 ≤ x) (hhi : x < 262144) :
    signExtend 18 (toU32 x % 2 ^ (23 - 5 + 1)) = x := by
  unfold signExtend toU32
  norm_num
  split <;> omega

theorem signExtend_toU32_25 (x : Int) (hlo : -33554432 ≤ x) (hhi : x < 33554432) :
    signExtend 25 (toU32 x % 2 ^ (25 - 0 + 1)) = x := by
  unfold signExtend toU32
  norm_num
  split <;> omega

theorem signExtend_toU32_13 (x : Int) (hlo : -8192 ≤ x) (hhi : x < 8192) :
    signExtend 13 (toU32 x % 2 ^ (18 - 5 + 1)) = x := by
  unfold signExtend toU32
  norm_num
  split <;> omega

theorem asr_two_mul (d : Int) (h : d % 4 = 0) : asr d 2 * 4 = d := by
  unfold asr
  rw [Int.shiftRight_eq_div_pow]
  norm_num
  omega

/-- The displacement fields of the table: operand 1 in `[23:5]` for the entries of kind
`kFixupCondBranch`, `kFixupCBxZ` and `kFixupLoad`, operand 0 in `[25:0]` for
`kFixupT1Branch`, operand 2 in `[18:5]` for `kFixupTBxZ`. -/
theorem displacement_fields (op : A64Opcode) :
    (((EncodingMap op).fixup = kFixupCondBranch ∨ (EncodingMap op).fixup = kFixupCBxZ ∨
        (EncodingMap op).fixup = kFixupLoad) →
      (EncodingMap op).field_loc[1]? = some ⟨kFmtBitBlt, 23, 5⟩) ∧
    ((EncodingMap op).fixup = kFixupT1Branch →
      (EncodingMap op).field_loc[0]? = some ⟨kFmtBitBlt, 25, 0⟩) ∧
    ((EncodingMap op).fixup = kFixupTBxZ →
      (EncodingMap op).field_loc[2]? = some ⟨kFmtBitBlt, 18, 5⟩) := by
  cases op <;> decide

/-- C12: for every byte distance `d` that is a multiple of 4, the displacement `d >> 2` that
the resolver stores is encoded without loss. Whenever the encoder builds a word for a
record that holds `d >> 2` in the operand of its fixup kind (operand 1, field `[23:5]`, for
`b.cond`, `cbz/cbnz` and the literal loads with `-2^18 ≤ d/4 < 2^18`; operand 0, field
`[25:0]`, for `b` with `-2^25 ≤ d/4 < 2^25`; operand 2, field `[18:5]`, for `tbz/tbnz` with
`-2^13 ≤ d/4 < 2^13`), sign-extending the field read back from the word and multiplying by
4 gives `d`. In a build without debug checks the encoder builds a word for every record. -/
theorem displacement_roundtrip (cfg : BuildConfig) (lir : LIR) (op : A64Opcode) (w : Nat)
    (d : Int) (hd4 : d % 4 = 0) (hw : encodeInsn cfg lir op = .ok w) :
    (cfg.kIsDebugBuild = false → cfg.kEnableDChecks = false →
      ∀ l : LIR, ∃ w1, encodeInsn cfg l op = .ok w1) ∧
    (((EncodingMap op).fixup = kFixupCondBranch ∨ (EncodingMap op).fixup = kFixupCBxZ ∨
        (EncodingMap op).fixup = kFixupLoad) →
      lir.operands.get 1 = asr d 2 → -262144 ≤ asr d 2 → asr d 2 < 262144 →
      (EncodingMap op).field_loc[1]? = some ⟨kFmtBitBlt, 23, 5⟩ ∧
        signExtend 18 (readField w 5 23) * 4 = d) ∧
    ((EncodingMap op).fixup = kFixupT1Branch →
      lir.operands.get 0 = asr d 2 → -33554432 ≤ asr d 2 → asr d 2 < 33554432 →
      (EncodingMap op).field_loc[0]? = some ⟨kFmtBitBlt, 25, 0⟩ ∧
        signExtend 25 (readField w 0 25) * 4 = d) ∧
    ((EncodingMap op).fixup = kFixupTBxZ →
      lir.operands.get 2 = asr d 2 → -8192 ≤ asr d 2 → asr d 2 < 8192 →
      (EncodingMap op).field_loc[2]? = some ⟨kFmtBitBlt, 18, 5⟩ ∧
        signExtend 13 (readField w 5 18) * 4 = d) := by
  have hf := displacement_fields op
  have hne : ∀ i, (EncodingMap op).fixup ≠ kFixupNone →
      ¬ (op = kA64Ldrsh4rXxd ∧ IS_WIDE lir.opcode = true ∧ i = 2) := by
    intro i hk hc
    apply hk
    rw [hc.1]
    rfl
  refine ⟨fun h1 h2 l => encodeInsn_release cfg h1 h2 l op, ?_, ?_, ?_⟩
  · intro hk ho hlo hhi
    have hloc := hf.1 hk
    refine ⟨hloc, ?_⟩
    have hrb := simple_field_readback cfg lir op 1 _ w hw hloc (by decide)
      (hne 1 (by rcases hk with h | h | h <;> rw [h] <;> decide))
    have hrb2 : readField w 5 23 = toU32 (lir.operands.get 1) % 2 ^ (23 - 5 + 1) := hrb
    rw [hrb2, ho, signExtend_toU32_18 _ hlo hhi, asr_two_mul d hd4]
  · intro hk ho hlo hhi
    have hloc := hf.2.1 hk
    refine ⟨hloc, ?_⟩
    have hrb := simple_field_readback cfg lir op 0 _ w hw hloc (by decide)
      (hne 0 (by rw [hk]; decide))
    have hrb2 : readField w 0 25 = toU32 (lir.operands.get 0) % 2 ^ (25 - 0 + 1) := hrb
    rw [hrb2, ho, signExtend_toU32_25 _ hlo hhi, asr_two_mul d hd4]
  · intro hk ho hlo hhi
    have hloc := hf.2.2 hk
    refine ⟨hloc, ?_⟩
    have hrb := simple_field_readback cfg lir op 2 _ w hw hloc (by decide)
      (hne 2 (by rw [hk]; decide))
    have hrb2 : readField w 5 18 = toU32 (lir.operands.get 2) % 2 ^ (18 - 5 + 1) := hrb
    rw [hrb2, ho, signExtend_toU32_13 _ hlo hhi, asr_two_mul d hd4]

theorem displacement_roundtrip_witness :
    encodeInsn releaseConfig (mkLIR kA64B2ct 0 (-2) 0 0) kA64B2ct = .ok 0x54ffffc0 ∧
    signExtend 18 (readField 0x54ffffc0 5 23) * 4 = -8 :=
  ⟨by decide,
    ((displacement_roundtrip releaseConfig (mkLIR kA64B2ct 0 (-2) 0 0) kA64B2ct 0x54ffffc0 (-8)
      (by decide) (by decide)).2.1 (Or.inl rfl) (by decide) (by decide) (by decide)).2⟩

/-! ## The cases of the resolver, as equations -/

theorem FatalFree.pure {α : Type} (a : α) : FatalFree (pure a : Except Fault α) := by
  intro s h; cases h

theorem FatalFree.bind {α β : Type} {x : Except Fault α} {f : α → Except Fault β}
    (hx : FatalFree x) (hf : ∀ a, FatalFree (f a)) : FatalFree (x >>= f) := by
  intro s h
  cases x with
  | error e =>
    have : e = .fatal s := by
      injection h
    exact hx s (by rw [this])
  | ok a => exact hf a s h

theorem FatalFree.getLIR (lirs : List LIR) (p : Option Nat) : FatalFree (getLIR lirs p) := by
  intro s h
  unfold art.getLIR at h
  split at h
  · cases h
  · split at h <;> cases h

theorem FatalFree.updLIR (lirs : List LIR) (p : Option Nat) (f : LIR → LIR) :
    FatalFree (updLIR lirs p f) := by
  intro s h
  unfold art.updLIR at h
  split at h
  · rename_i e he
    injection h with h
    rw [h] at he
    exact FatalFree.getLIR lirs p s he
  · cases h

theorem FatalFree.DCHECK (cfg : BuildConfig) (c : Bool) (msg : String) :
    FatalFree (DCHECK cfg c msg) := by
  intro s h
  have := DCHECK_error h
  cases this

theorem FatalFree.ite {α : Type} {c : Prop} [Decidable c] {x y : Except Fault α}
    (hx : FatalFree x) (hy : FatalFree y) : FatalFree (if c then x else y) := by
  split
  · exact hx
  · exact hy

theorem FatalFree.fixupDelta (env : Env) (lirs : List LIR) (lir : LIR) (adj : Int) :
    FatalFree (fixupDelta env lirs lir adj) := by
  unfold art.fixupDelta
  repeat' (first
    | exact FatalFree.getLIR _ _
    | exact FatalFree.DCHECK _ _ _
    | exact FatalFree.pure _
    | apply FatalFree.bind
    | intro _)

theorem FatalFree.InsertLIRAfter (lirs : List LIR) (a b : Option Nat) :
    FatalFree (InsertLIRAfter lirs a b) := by
  unfold art.InsertLIRAfter
  repeat' (first
    | exact FatalFree.getLIR _ _
    | exact FatalFree.updLIR _ _ _
    | exact FatalFree.pure _
    | apply FatalFree.bind
    | apply FatalFree.ite
    | intro _)

theorem FatalFree.InsertLIRBefore (lirs : List LIR) (a b : Option Nat) :
    FatalFree (InsertLIRBefore lirs a b) := by
  unfold art.InsertLIRBefore
  repeat' (first
    | exact FatalFree.getLIR _ _
    | exact FatalFree.updLIR _ _ _
    | exact FatalFree.pure _
    | apply FatalFree.bind
    | apply FatalFree.ite
    | intro _)

theorem FatalFree.ReplaceFixup (m : Mir2Lir) (a b c : Option Nat) :
    FatalFree (ReplaceFixup m a b c) := by
  unfold art.ReplaceFixup
  repeat' (first
    | exact FatalFree.getLIR _ _
    | exact FatalFree.updLIR _ _ _
    | exact FatalFree.pure _
    | apply FatalFree.bind
    | apply FatalFree.ite
    | intro _)

theorem FatalFree.tbxzWiden (env : Env) (generation : Nat) (m : Mir2Lir) (loc : FixupLocals)
    (p : Nat) (opcode : Opcode) (lirs : List LIR) (lir : LIR) :
    FatalFree (tbxzWiden env generation m loc p opcode lirs lir) := by
  unfold art.tbxzWiden
  repeat' (first
    | exact FatalFree.getLIR _ _
    | exact FatalFree.updLIR _ _ _
    | exact FatalFree.DCHECK _ _ _
    | exact FatalFree.InsertLIRAfter _ _ _
    | exact FatalFree.ReplaceFixup _ _ _ _
    | exact FatalFree.pure _
    | apply FatalFree.bind
    | apply FatalFree.ite
    | intro _)

theorem FatalFree.tbxzCheckWidth (env : Env) (lirs : List LIR) (lir : LIR) (p : Nat) :
    FatalFree (tbxzCheckWidth env lirs lir p) := by
  unfold art.tbxzCheckWidth
  repeat' (first
    | exact FatalFree.getLIR _ _
    | exact FatalFree.updLIR _ _ _
    | exact FatalFree.DCHECK _ _ _
    | exact FatalFree.pure _
    | apply FatalFree.bind
    | apply FatalFree.ite
    | intro _)

theorem FatalFree.fixupTBxZ (env : Env) (generation : Nat) (m : Mir2Lir) (loc : FixupLocals)
    (p : Nat) : FatalFree (fixupTBxZ env generation m loc p) := by
  unfold art.fixupTBxZ
  repeat' (first
    | exact FatalFree.getLIR _ _
    | exact FatalFree.updLIR _ _ _
    | exact FatalFree.DCHECK _ _ _
    | exact FatalFree.fixupDelta _ _ _ _
    | exact FatalFree.tbxzCheckWidth _ _ _ _
    | exact FatalFree.tbxzWiden _ _ _ _ _ _ _ _
    | exact FatalFree.pure _
    | apply FatalFree.bind
    | apply FatalFree.ite
    | intro _)

theorem FatalFree.prevEmittingFrom (lirs : List LIR) :
    ∀ (fuel : Nat) (p : Option Nat), FatalFree (prevEmittingFrom lirs fuel p) := by
  intro fuel
  induction fuel with
  | zero =>
    intro p s h
    cases p <;> simp [art.prevEmittingFrom] at h
  | succ fuel ih =>
    intro p s h
    cases p with
    | none => simp [art.prevEmittingFrom] at h
    | some q =>
      rw [art.prevEmittingFrom] at h
      split at h
      · cases h
      · split at h
        · exact ih _ s h
        · cases h

theorem FatalFree.GetPrevEmittingLIR (cfg : BuildConfig) (lirs : List LIR) (fuel : Nat)
    (lir : Option Nat) : FatalFree (GetPrevEmittingLIR cfg lirs fuel lir) := by
  unfold art.GetPrevEmittingLIR
  repeat' (first
    | exact FatalFree.getLIR _ _
    | exact FatalFree.DCHECK _ _ _
    | exact FatalFree.prevEmittingFrom _ _ _
    | apply FatalFree.bind
    | intro _)

theorem FatalFree.fixupA53Erratum835769 (env : Env) (fuel : Nat) (m : Mir2Lir)
    (loc : FixupLocals) (p : Nat) : FatalFree (fixupA53Erratum835769 env fuel m loc p) := by
  unfold art.fixupA53Erratum835769
  apply FatalFree.bind (FatalFree.getLIR _ _)
  intro lir
  apply FatalFree.ite
  · apply FatalFree.ite
    · apply FatalFree.bind (FatalFree.GetPrevEmittingLIR _ _ _ _)
      intro prev_insn
      apply FatalFree.ite
      · exact FatalFree.pure _
      · apply FatalFree.bind (FatalFree.getLIR _ _)
        intro prev
        split
        · intro s h; cases h
        · dsimp only
          repeat' (first
            | exact FatalFree.getLIR _ _
            | exact FatalFree.updLIR _ _ _
            | exact FatalFree.InsertLIRBefore _ _ _
            | exact FatalFree.pure _
            | apply FatalFree.bind
            | apply FatalFree.ite
            | intro _)
    · exact FatalFree.pure _
  · exact FatalFree.pure _

theorem updAt_of_some {lirs : List LIR} {i : Nat} {r : LIR} (h : lirs[i]? = some r)
    (f : LIR → LIR) : updAt lirs i f = lirs.set i (f r) := by
  simp [updAt, h]

theorem length_updAt (lirs : List LIR) (i : Nat) (f : LIR → LIR) :
    (updAt lirs i f).length = lirs.length := by
  unfold updAt
  split <;> simp

theorem getElem?_updAt (lirs : List LIR) (i j : Nat) (f : LIR → LIR) :
    (updAt lirs i f)[j]? = if j = i then (lirs[j]?).map f else lirs[j]? := by
  unfold updAt
  by_cases hji : j = i
  · subst hji
    cases hr : lirs[j]? with
    | none => simp [hr]
    | some r => simp [hr, getElem?_set_self_of_some hr]
  · simp only [hji, if_false]
    split
    · rw [List.getElem?_set_ne (Ne.symm hji)]
    · rfl

theorem updLIR_eq_updAt {lirs : List LIR} {i : Nat} {r : LIR} (h : lirs[i]? = some r)
    (f : LIR → LIR) : updLIR lirs (some i) f = .ok (updAt lirs i f) := by
  rw [updLIR_some h, updAt_of_some h]

/-- The body of the inner loop for the chain node `p`: the `switch` runs in the state in
which the node has been visited, and unless it ends with `continue` the walk moves on
along `pcrel_next`. -/
theorem fixupStep_eq (env : Env) (fuel generation : Nat) (m : Mir2Lir) (loc : FixupLocals)
    (p : Nat) (r : LIR) (hr : m.lirs[p]? = some r) :
    fixupStep env fuel generation m loc p =
      (fixupSwitch env fuel generation (visitState m loc.offset_adjustment generation p) loc p
          r.flags.fixup >>= fun res =>
        if res.2.2 then pure (res.1, res.2.1)
        else getLIR res.1.lirs (some p) >>= fun lir =>
          pure (res.1, { res.2.1 with prev_lir := some p, lir := lir.pcrel_next })) := by
  unfold fixupStep visitState
  rw [updAt_of_some hr]
  simp only [updLIR_some hr, bind, Except.bind, getLIR_some (getElem?_set_self_of_some hr _)]
  rfl

theorem visitState_get (m : Mir2Lir) (adj : Int) (generation p : Nat) (r : LIR)
    (hr : m.lirs[p]? = some r) :
    (visitState m adj generation p).lirs[p]? = some (visitRec r adj generation) := by
  unfold visitState
  simp [getElem?_updAt, hr]

/-- The case `kFixupT1Branch` for a node whose distance has been computed. -/
theorem fixupT1Branch_eq (env : Env) (m : Mir2Lir) (loc : FixupLocals) (p : Nat) (r : LIR)
    (d : Int) (hr : m.lirs[p]? = some r)
    (hd : fixupDelta env m.lirs r loc.offset_adjustment = .ok d) :
    fixupT1Branch env m loc p =
      if IS_SIGNED_IMM26 (asr d 2) then
        if !env.safe_optimizations_disabled && asr d 2 == 1 then
          .ok (
            { m with
              lirs := m.lirs.set p
                { r with operands := r.operands.set 0 (asr d 2),
                         flags := { r.flags with is_nop := true, fixup := kFixupNone } } },
            { loc with offset_adjustment := loc.offset_adjustment - r.flags.size,
                       res := .kRetryAll })
        else
          .ok ({ m with lirs := m.lirs.set p { r with operands := r.operands.set 0 (asr d 2) } },
            loc)
      else .error (.fatal "Invalid jump range in kFixupT1Branch") := by
  unfold fixupT1Branch
  simp only [getLIR_some hr, bind, Except.bind, hd]
  cases hi : IS_SIGNED_IMM26 (asr d 2) with
  | false => simp [throw, throwThe, MonadExceptOf.throw]
  | true =>
    have hget : ({ r with operands := r.operands.set 0 (asr d 2) } : LIR).operands.get 0
        = asr d 2 := operands_get_set _ 0 _ (by decide)
    by_cases hc : (!env.safe_optimizations_disabled && asr d 2 == 1) = true
    · simp [updLIR_some hr, pure, Except.pure, bind, Except.bind,
        getLIR_some (getElem?_set_self_of_some hr _), hget, hc,
        updLIR_some (getElem?_set_self_of_some hr _), List.set_set]
    · simp [updLIR_some hr, pure, Except.pure, bind, Except.bind,
        getLIR_some (getElem?_set_self_of_some hr _), hget, hc]

/-- The case `kFixupAdr` for a node whose distance has been computed. -/
theorem fixupAdr_eq (m : Mir2Lir) (loc : FixupLocals) (p : Nat) (r : LIR)
    (d : Int) (hr : m.lirs[p]? = some r)
    (hd : adrDelta m r loc.offset_adjustment = .ok d) :
    fixupAdr m loc p =
      if IS_SIGNED_IMM21 d then
        .ok ({ m with lirs := m.lirs.set p { r with operands := r.operands.set 1 d } }, loc)
      else .error (.fatal "Jump range above 1MB in kFixupAdr") := by
  unfold fixupAdr
  simp only [getLIR_some hr, bind, Except.bind, hd]
  cases hi : IS_SIGNED_IMM21 d with
  | true => simp [updLIR_some hr, pure, Except.pure, bind, Except.bind]
  | false => simp [throw, throwThe, MonadExceptOf.throw]

theorem FatalFree.adrDelta (m : Mir2Lir) (lir : LIR) (adj : Int) :
    FatalFree (adrDelta m lir adj) := by
  unfold art.adrDelta
  apply FatalFree.ite
  · exact FatalFree.bind (FatalFree.getLIR _ _) fun _ => FatalFree.pure _
  · apply FatalFree.ite
    · split
      · intro s h; cases h
      · exact FatalFree.pure _
    · exact FatalFree.pure _

/-! ## C13: range violations -/

theorem bind_error {α β : Type} {x : Except Fault α} {f : α → Except Fault β} {e : Fault}
    (h : (x >>= f) = .error e) : x = .error e ∨ ∃ a, x = .ok a ∧ f a = .error e := by
  cases x with
  | error e1 =>
    left
    have : e1 = e := by injection h
    rw [this]
  | ok a => exact Or.inr ⟨a, rfl, h⟩

theorem fixupStep_none (env : Env) (fuel generation : Nat) (m : Mir2Lir) (loc : FixupLocals)
    (p : Nat) (hr : m.lirs[p]? = none) :
    fixupStep env fuel generation m loc p = .error .nullDeref := by
  unfold fixupStep
  simp [updLIR, getLIR, hr, bind, Except.bind]

/-- A fatal error of a round of the inner loop, other than the one of the `default:` case,
is a range violation of the visited node. -/
theorem fixupStep_fatal (env : Env) (fuel generation : Nat) (m : Mir2Lir) (loc : FixupLocals)
    (p : Nat) (msg : String)
    (h : fixupStep env fuel generation m loc p = .error (.fatal msg))
    (hmsg : msg ≠ "Unexpected case") : RangeViolation env generation m loc p msg := by
  cases hr : m.lirs[p]? with
  | none =>
    rw [fixupStep_none env fuel generation m loc p hr] at h
    cases h
  | some r =>
    have hr0 := visitState_get m loc.offset_adjustment generation p r hr
    rw [fixupStep_eq env fuel generation m loc p r hr] at h
    rcases bind_error h with h | ⟨res, _, h⟩
    · -- the switch
      cases hk : r.flags.fixup <;> rw [hk] at h
      case kFixupOther =>
        exfalso
        apply hmsg
        simp only [fixupSwitch, throw, throwThe, MonadExceptOf.throw] at h
        injection h with h
        injection h with h
        exact h.symm
      case kFixupNone => cases h
      case kFixupLabel => cases h
      case kFixupVLoad => cases h
      case kFixupT1Branch =>
        have h1 : fixupT1Branch env (visitState m loc.offset_adjustment generation p) loc p
            = .error (.fatal msg) := by
          simp only [fixupSwitch] at h
          rcases bind_error h with h | ⟨a, _, h⟩
          · exact h
          · cases h
        cases hd : fixupDelta env (visitState m loc.offset_adjustment generation p).lirs
            (visitRec r loc.offset_adjustment generation) loc.offset_adjustment with
        | error e =>
          exfalso
          unfold fixupT1Branch at h1
          simp only [getLIR_some hr0, bind, Except.bind, hd] at h1
          injection h1 with h1
          rw [h1] at hd
          exact FatalFree.fixupDelta _ _ _ _ msg hd
        | ok d =>
          rw [fixupT1Branch_eq env _ loc p _ d hr0 hd] at h1
          refine ⟨r, d, hr, Or.inl ⟨hk, hd, ?_, ?_⟩⟩
          · cases hi : IS_SIGNED_IMM26 (asr d 2) with
            | false => rfl
            | true =>
              rw [hi] at h1
              simp only [if_true] at h1
              split at h1 <;> cases h1
          · cases hi : IS_SIGNED_IMM26 (asr d 2) with
            | false =>
              rw [hi] at h1
              simp only [Bool.false_eq_true, if_false] at h1
              injection h1 with h1
              injection h1 with h1
              exact h1.symm
            | true =>
              rw [hi] at h1
              simp only [if_true] at h1
              split at h1 <;> cases h1
      case kFixupA53Erratum835769 =>
        exfalso
        simp only [fixupSwitch] at h
        rcases bind_error h with h | ⟨a, _, h⟩
        · exact FatalFree.fixupA53Erratum835769 _ _ _ _ _ msg h
        · cases h
      case kFixupTBxZ =>
        exfalso
        simp only [fixupSwitch] at h
        exact FatalFree.fixupTBxZ _ _ _ _ _ msg h
      case kFixupAdr =>
        have h1 : fixupAdr (visitState m loc.offset_adjustment generation p) loc p
            = .error (.fatal msg) := by
          simp only [fixupSwitch] at h
          rcases bind_error h with h | ⟨a, _, h⟩
          · exact h
          · cases h
        cases hd : adrDelta (visitState m loc.offset_adjustment generation p)
            (visitRec r loc.offset_adjustment generation) loc.offset_adjustment with
        | error e =>
          exfalso
          unfold fixupAdr at h1
          simp only [getLIR_some hr0, bind, Except.bind, hd] at h1
          injection h1 with h1
          rw [h1] at hd
          exact FatalFree.adrDelta _ _ _ msg hd
        | ok d =>
          rw [fixupAdr_eq _ loc p _ d hr0 hd] at h1
          refine ⟨r, d, hr, Or.inr (Or.inr ⟨hk, hd, ?_, ?_⟩)⟩
          · cases hi : IS_SIGNED_IMM21 d with
            | false => rfl
            | true =>
              rw [hi] at h1
              cases h1
          · cases hi : IS_SIGNED_IMM21 d with
            | false =>
              rw [hi] at h1
              simp only [Bool.false_eq_true, if_false] at h1
              injection h1 with h1
              injection h1 with h1
              exact h1.symm
            | true =>
              rw [hi] at h1
              cases h1
      all_goals
        have h1 : fixupCondBranch env (visitState m loc.offset_adjustment generation p) loc p
            = .error (.fatal msg) := by
          simp only [fixupSwitch] at h
          rcases bind_error h with h | ⟨a, _, h⟩
          · exact h
          · cases h
        cases hd : fixupDelta env (visitState m loc.offset_adjustment generation p).lirs
            (visitRec r loc.offset_adjustment generation) loc.offset_adjustment with
        | error e =>
          exfalso
          unfold fixupCondBranch at h1
          simp only [getLIR_some hr0, bind, Except.bind, hd] at h1
          injection h1 with h1
          rw [h1] at hd
          exact FatalFree.fixupDelta _ _ _ _ msg hd
        | ok d =>
          rw [fixupCondBranch_eq env _ loc p _ d hr0 hd] at h1
          refine ⟨r, d, hr, Or.inr (Or.inl ⟨by simp [hk], hd, ?_, ?_⟩)⟩
          · cases hi : IS_SIGNED_IMM19 (asr d 2) with
            | false => rfl
            | true =>
              rw [hi] at h1
              cases h1
          · cases hi : IS_SIGNED_IMM19 (asr d 2) with
            | false =>
              rw [hi] at h1
              simp only [Bool.false_eq_true, if_false] at h1
              injection h1 with h1
              injection h1 with h1
              exact h1.symm
            | true =>
              rw [hi] at h1
              cases h1
    · -- the move to the next node
      exfalso
      split at h
      · cases h
      · rcases bind_error h with h | ⟨a, _, h⟩
        · exact FatalFree.getLIR _ _ msg h
        · cases h

theorem PassReaches.reach_trans {env : Env} {generation : Nat} :
    ∀ {f1 f2 f3 : Nat} {m1 m2 m3 : Mir2Lir} {l1 l2 l3 : FixupLocals},
      PassReaches env generation f1 m1 l1 f2 m2 l2 →
      PassReaches env generation f2 m2 l2 f3 m3 l3 →
      PassReaches env generation f1 m1 l1 f3 m3 l3 := by
  intro f1 f2 f3 m1 m2 m3 l1 l2 l3 h1 h2
  induction h1 with
  | here _ _ _ => exact h2
  | step hl hs _ ih => exact PassReaches.step hl hs (ih h2)

/-- A pass fails exactly when a round of its loop fails in a state that the pass reaches,
or when the walk runs out of fuel. -/
theorem fixupPass_error_iff (env : Env) (generation : Nat) (e : Fault) :
    ∀ (fuel : Nat) (m : Mir2Lir) (loc : FixupLocals),
      fixupPass env generation fuel m loc = .error e ↔
        (∃ (fuel' : Nat) (m' : Mir2Lir) (loc' : FixupLocals) (p : Nat),
          PassReaches env generation fuel m loc (fuel' + 1) m' loc' ∧ loc'.lir = some p ∧
          fixupStep env (fuel' + 1) generation m' loc' p = .error e) ∨
        (e = .outOfFuel ∧ ∃ (m' : Mir2Lir) (loc' : FixupLocals) (p : Nat),
          PassReaches env generation fuel m loc 0 m' loc' ∧ loc'.lir = some p) := by
  intro fuel
  induction fuel with
  | zero =>
    intro m loc
    constructor
    · intro h
      unfold fixupPass at h
      cases hl : loc.lir with
      | none => rw [hl] at h; cases h
      | some p =>
        rw [hl] at h
        injection h with h
        exact Or.inr ⟨h.symm, m, loc, p, PassReaches.here _ _ _, hl⟩
    · rintro (⟨fuel', m', loc', p, hreach, _, _⟩ | ⟨he, m', loc', p, hreach, hl⟩)
      · cases hreach
      · cases hreach
        unfold fixupPass
        rw [hl, he]
  | succ fuel ih =>
    intro m loc
    constructor
    · intro h
      unfold fixupPass at h
      cases hl : loc.lir with
      | none => rw [hl] at h; cases h
      | some p =>
        rw [hl] at h
        dsimp only at h
        cases hs : fixupStep env (fuel + 1) generation m loc p with
        | error e1 =>
          rw [hs] at h
          injection h with h
          exact Or.inl ⟨fuel, m, loc, p, PassReaches.here _ _ _, hl, by rw [hs, h]⟩
        | ok v =>
          obtain ⟨m1, loc1⟩ := v
          rw [hs] at h
          rcases (ih m1 loc1).mp h with ⟨fuel', m', loc', q, hreach, hq, herr⟩ |
            ⟨he, m', loc', q, hreach, hq⟩
          · exact Or.inl ⟨fuel', m', loc', q, PassReaches.step hl hs hreach, hq, herr⟩
          · exact Or.inr ⟨he, m', loc', q, PassReaches.step hl hs hreach, hq⟩
    · rintro (⟨fuel', m', loc', p, hreach, hl, herr⟩ | ⟨he, m', loc', p, hreach, hl⟩)
      · cases hreach with
        | here _ _ _ =>
          unfold fixupPass
          rw [hl]
          dsimp only
          rw [herr]
        | step hl1 hs hrest =>
          unfold fixupPass
          rw [hl1]
          dsimp only
          rw [hs]
          exact (ih _ _).mpr (Or.inl ⟨fuel', m', loc', p, hrest, hl, herr⟩)
      · cases hreach with
        | step hl1 hs hrest =>
          unfold fixupPass
          rw [hl1]
          dsimp only
          rw [hs]
          exact (ih _ _).mpr (Or.inr ⟨he, m', loc', p, hrest, hl⟩)

/-- A pass succeeds exactly when it reaches the end of the chain. -/
theorem fixupPass_ok_iff (env : Env) (generation : Nat) (m' : Mir2Lir) (loc' : FixupLocals) :
    ∀ (fuel : Nat) (m : Mir2Lir) (loc : FixupLocals),
      fixupPass env generation fuel m loc = .ok (m', loc') ↔
        ∃ fuel', PassReaches env generation fuel m loc fuel' m' loc' ∧ loc'.lir = none := by
  intro fuel
  induction fuel with
  | zero =>
    intro m loc
    constructor
    · intro h
      unfold fixupPass at h
      cases hl : loc.lir with
      | none =>
        rw [hl] at h
        injection h with h
        injection h with h1 h2
        subst h1; subst h2
        exact ⟨0, PassReaches.here _ _ _, hl⟩
      | some p => rw [hl] at h; cases h
    · rintro ⟨fuel', hreach, hl⟩
      cases hreach
      unfold fixupPass
      rw [hl]
  | succ fuel ih =>
    intro m loc
    constructor
    · intro h
      unfold fixupPass at h
      cases hl : loc.lir with
      | none =>
        rw [hl] at h
        injection h with h
        injection h with h1 h2
        subst h1; subst h2
        exact ⟨fuel + 1, PassReaches.here _ _ _, hl⟩
      | some p =>
        rw [hl] at h
        dsimp only at h
        cases hs : fixupStep env (fuel + 1) generation m loc p with
        | error e1 => rw [hs] at h; cases h
        | ok v =>
          obtain ⟨m1, loc1⟩ := v
          rw [hs] at h
          obtain ⟨fuel', hreach, hl'⟩ := (ih m1 loc1).mp h
          exact ⟨fuel', PassReaches.step hl hs hreach, hl'⟩
    · rintro ⟨fuel', hreach, hl⟩
      cases hreach with
      | here _ _ _ =>
        unfold fixupPass
        rw [hl]
      | step hl1 hs hrest =>
        unfold fixupPass
        rw [hl1]
        dsimp only
        rw [hs]
        exact (ih _ _).mpr ⟨fuel', hrest, hl⟩

/-- A range violation of the visited node is a fatal error of the round. -/
theorem fixupStep_of_violation (env : Env) (fuel generation : Nat) (m : Mir2Lir)
    (loc : FixupLocals) (p : Nat) (msg : String)
    (h : RangeViolation env generation m loc p msg) :
    fixupStep env fuel generation m loc p = .error (.fatal msg) ∧ msg ≠ "Unexpected case" := by
  obtain ⟨r, d, hr, hcase⟩ := h
  have hr0 := visitState_get m loc.offset_adjustment generation p r hr
  rw [fixupStep_eq env fuel generation m loc p r hr]
  rcases hcase with ⟨hk, hd, hi, hm⟩ | ⟨hk, hd, hi, hm⟩ | ⟨hk, hd, hi, hm⟩
  · rw [hk, hm]
    refine ⟨?_, by decide⟩
    simp only [fixupSwitch]
    rw [fixupT1Branch_eq env _ loc p _ d hr0 hd, hi]
    rfl
  · rw [hm]
    refine ⟨?_, by decide⟩
    rcases hk with hk | hk | hk <;> rw [hk] <;> simp only [fixupSwitch] <;>
      rw [fixupCondBranch_eq env _ loc p _ d hr0 hd, hi] <;> rfl
  · rw [hk, hm]
    refine ⟨?_, by decide⟩
    simp only [fixupSwitch]
    rw [fixupAdr_eq _ loc p _ d hr0 hd, hi]
    rfl

theorem fixupStep_in_range_T1 (env : Env) (fuel generation : Nat) (m : Mir2Lir)
    (loc : FixupLocals) (p : Nat) (r : LIR) (d : Int) (hr : m.lirs[p]? = some r)
    (hk : r.flags.fixup = kFixupT1Branch)
    (hd : fixupDelta env (visitState m loc.offset_adjustment generation p).lirs
      (visitRec r loc.offset_adjustment generation) loc.offset_adjustment = .ok d)
    (hi : IS_SIGNED_IMM26 (asr d 2) = true) :
    ∃ m1 loc1 r1, fixupStep env fuel generation m loc p = .ok (m1, loc1) ∧
      m1.lirs[p]? = some r1 ∧ r1.operands.get 0 = asr d 2 := by
  have hr0 := visitState_get m loc.offset_adjustment generation p r hr
  rw [fixupStep_eq env fuel generation m loc p r hr, hk]
  simp only [fixupSwitch]
  rw [fixupT1Branch_eq env _ loc p _ d hr0 hd, hi]
  simp only [if_true]
  split
  · simp only [bind, Except.bind, pure, Except.pure, Bool.false_eq_true, if_false,
      getLIR_some (getElem?_set_self_of_some hr0 _)]
    exact ⟨_, _, _, rfl, getElem?_set_self_of_some hr0 _, operands_get_set _ 0 _ (by decide)⟩
  · simp only [bind, Except.bind, pure, Except.pure, Bool.false_eq_true, if_false,
      getLIR_some (getElem?_set_self_of_some hr0 _)]
    exact ⟨_, _, _, rfl, getElem?_set_self_of_some hr0 _, operands_get_set _ 0 _ (by decide)⟩

theorem fixupStep_in_range_cond (env : Env) (fuel generation : Nat) (m : Mir2Lir)
    (loc : FixupLocals) (p : Nat) (r : LIR) (d : Int) (hr : m.lirs[p]? = some r)
    (hk : r.flags.fixup = kFixupCondBranch ∨ r.flags.fixup = kFixupCBxZ ∨
      r.flags.fixup = kFixupLoad)
    (hd : fixupDelta env (visitState m loc.offset_adjustment generation p).lirs
      (visitRec r loc.offset_adjustment generation) loc.offset_adjustment = .ok d)
    (hi : IS_SIGNED_IMM19 (asr d 2) = true) :
    ∃ m1 loc1 r1, fixupStep env fuel generation m loc p = .ok (m1, loc1) ∧
      m1.lirs[p]? = some r1 ∧ r1.operands.get 1 = asr d 2 := by
  have hr0 := visitState_get m loc.offset_adjustment generation p r hr
  rw [fixupStep_eq env fuel generation m loc p r hr]
  rcases hk with hk | hk | hk <;> rw [hk] <;> simp only [fixupSwitch] <;>
    rw [fixupCondBranch_eq env _ loc p _ d hr0 hd, hi] <;>
    simp only [bind, Except.bind, pure, Except.pure, Bool.false_eq_true, if_false, if_true,
      getLIR_some (getElem?_set_self_of_some hr0 _)] <;>
    exact ⟨_, _, _, rfl, getElem?_set_self_of_some hr0 _, operands_get_set _ 1 _ (by decide)⟩

theorem fixupStep_in_range_adr (env : Env) (fuel generation : Nat) (m : Mir2Lir)
    (loc : FixupLocals) (p : Nat) (r : LIR) (d : Int) (hr : m.lirs[p]? = some r)
    (hk : r.flags.fixup = kFixupAdr)
    (hd : adrDelta (visitState m loc.offset_adjustment generation p)
      (visitRec r loc.offset_adjustment generation) loc.offset_adjustment = .ok d)
    (hi : IS_SIGNED_IMM21 d = true) :
    ∃ m1 loc1 r1, fixupStep env fuel generation m loc p = .ok (m1, loc1) ∧
      m1.lirs[p]? = some r1 ∧ r1.operands.get 1 = d := by
  have hr0 := visitState_get m loc.offset_adjustment generation p r hr
  rw [fixupStep_eq env fuel generation m loc p r hr, hk]
  simp only [fixupSwitch]
  rw [fixupAdr_eq _ loc p _ d hr0 hd, hi]
  simp only [bind, Except.bind, pure, Except.pure, Bool.false_eq_true, if_false, if_true,
    getLIR_some (getElem?_set_self_of_some hr0 _)]
  exact ⟨_, _, _, rfl, getElem?_set_self_of_some hr0 _, operands_get_set _ 1 _ (by decide)⟩

/-- C13: a pass of the resolver stops with the fatal error of a range check exactly when a
node that it visits is out of range for its kind (`delta >> 2` no signed 26-bit value for
`kFixupT1Branch`, no signed 19-bit value for `kFixupCondBranch`, `kFixupCBxZ` and
`kFixupLoad`, `delta` no signed 21-bit value for `kFixupAdr`); the only other call of
`LOG(FATAL)` in a pass is the one of the `default:` case. For a node of these kinds that is
in range the round raises no error and stores the displacement as computed. -/
theorem range_violation_fatal (env : Env) (generation fuel : Nat) (m : Mir2Lir)
    (loc : FixupLocals) :
    (∀ msg : String,
      (fixupPass env generation fuel m loc = .error (.fatal msg) ∧ msg ≠ "Unexpected case") ↔
        ∃ (fuel' : Nat) (m' : Mir2Lir) (loc' : FixupLocals) (p : Nat),
          PassReaches env generation fuel m loc (fuel' + 1) m' loc' ∧ loc'.lir = some p ∧
          RangeViolation env generation m' loc' p msg) ∧
    (∀ (p : Nat) (r : LIR) (d : Int), m.lirs[p]? = some r →
      (r.flags.fixup = kFixupT1Branch →
        fixupDelta env (visitState m loc.offset_adjustment generation p).lirs
          (visitRec r loc.offset_adjustment generation) loc.offset_adjustment = .ok d →
        IS_SIGNED_IMM26 (asr d 2) = true →
        ∃ m1 loc1 r1, fixupStep env fuel generation m loc p = .ok (m1, loc1) ∧
          m1.lirs[p]? = some r1 ∧ r1.operands.get 0 = asr d 2) ∧
      (r.flags.fixup = kFixupCondBranch ∨ r.flags.fixup = kFixupCBxZ ∨
          r.flags.fixup = kFixupLoad →
        fixupDelta env (visitState m loc.offset_adjustment generation p).lirs
          (visitRec r loc.offset_adjustment generation) loc.offset_adjustment = .ok d →
        IS_SIGNED_IMM19 (asr d 2) = true →
        ∃ m1 loc1 r1, fixupStep env fuel generation m loc p = .ok (m1, loc1) ∧
          m1.lirs[p]? = some r1 ∧ r1.operands.get 1 = asr d 2) ∧
      (r.flags.fixup = kFixupAdr →
        adrDelta (visitState m loc.offset_adjustment generation p)
          (visitRec r loc.offset_adjustment generation) loc.offset_adjustment = .ok d →
        IS_SIGNED_IMM21 d = true →
        ∃ m1 loc1 r1, fixupStep env fuel generation m loc p = .ok (m1, loc1) ∧
          m1.lirs[p]? = some r1 ∧ r1.operands.get 1 = d)) := by
  refine ⟨?_, ?_⟩
  · intro msg
    constructor
    · rintro ⟨h, hmsg⟩
      rcases (fixupPass_error_iff env generation _ fuel m loc).mp h with
        ⟨fuel', m', loc', p, hreach, hl, herr⟩ | ⟨he, _⟩
      · exact ⟨fuel', m', loc', p, hreach, hl,
          fixupStep_fatal env _ generation m' loc' p msg herr hmsg⟩
      · cases he
    · rintro ⟨fuel', m', loc', p, hreach, hl, hv⟩
      obtain ⟨herr, hmsg⟩ := fixupStep_of_violation env (fuel' + 1) generation m' loc' p msg hv
      exact ⟨(fixupPass_error_iff env generation _ fuel m loc).mpr
        (Or.inl ⟨fuel', m', loc', p, hreach, hl, herr⟩), hmsg⟩
  · intro p r d hr
    exact ⟨fun hk hd hi => fixupStep_in_range_T1 env fuel generation m loc p r d hr hk hd hi,
      fun hk hd hi => fixupStep_in_range_cond env fuel generation m loc p r d hr hk hd hi,
      fun hk hd hi => fixupStep_in_range_adr env fuel generation m loc p r d hr hk hd hi⟩

theorem range_violation_fatal_witness :
    RangeViolation (mkEnv releaseConfig) 1 farStream ⟨0, .kSuccess, none, some 0⟩ 0
      "Invalid jump range in kFixupLoad" ∧
    fixupPass (mkEnv releaseConfig) 1 2 farStream ⟨0, .kSuccess, none, some 0⟩
      = .error (.fatal "Invalid jump range in kFixupLoad") :=
  have hv : RangeViolation (mkEnv releaseConfig) 1 farStream ⟨0, .kSuccess, none, some 0⟩ 0
      "Invalid jump range in kFixupLoad" :=
    ⟨⟨0, 0, kA64B2ct, some 1, none, some 1, ⟨false, 4, true, 0, kFixupCondBranch⟩, some 1,
        ⟨0, 0, 0, 0, 0⟩⟩, 2097152, rfl,
      Or.inr (Or.inl ⟨Or.inl rfl, by decide, by decide, rfl⟩)⟩
  ⟨hv, (((range_violation_fatal (mkEnv releaseConfig) 1 2 farStream
      ⟨0, .kSuccess, none, some 0⟩).1 "Invalid jump range in kFixupLoad").mpr
        ⟨1, farStream, ⟨0, .kSuccess, none, some 0⟩, 0, PassReaches.here _ _ _, rfl, hv⟩).1⟩

/-! ## The list and chain operations, in closed form -/

theorem updLIR_ok_updAt {lirs lirs' : List LIR} {p : Option Nat} {f : LIR → LIR}
    (h : updLIR lirs p f = .ok lirs') :
    ∃ i, p = some i ∧ i < lirs.length ∧ lirs' = updAt lirs i f := by
  cases p with
  | none => simp [updLIR, getLIR] at h
  | some i =>
    obtain ⟨r, hr, hset⟩ := updLIR_ok h
    refine ⟨i, rfl, (List.getElem?_eq_some_iff.mp hr).1, ?_⟩
    rw [hset, updAt_of_some hr]

theorem updLIR_updAt_of_lt {lirs : List LIR} {i : Nat} (h : i < lirs.length) (f : LIR → LIR) :
    updLIR lirs (some i) f = .ok (updAt lirs i f) := by
  have hr : lirs[i]? = some lirs[i] := List.getElem?_eq_getElem h
  exact updLIR_eq_updAt hr f

theorem InsertLIRAfter_ok {lirs lirs' : List LIR} {a b : Nat}
    (h : InsertLIRAfter lirs (some a) (some b) = .ok lirs') :
    ∃ cur, lirs[a]? = some cur ∧ b < lirs.length ∧
      (∀ q, cur.next = some q → q < lirs.length) ∧
      lirs' = insertedAfter lirs a b cur.next := by
  unfold InsertLIRAfter at h
  obtain ⟨cur, hcur, h⟩ := bind_ok h
  have hcur' := getLIR_some_inv hcur
  obtain ⟨l1, h1, h⟩ := bind_ok h
  obtain ⟨i1, hi1, hb, e1⟩ := updLIR_ok_updAt h1
  injection hi1 with hi1
  subst hi1
  obtain ⟨l2, h2, h⟩ := bind_ok h
  obtain ⟨i2, hi2, _, e2⟩ := updLIR_ok_updAt h2
  injection hi2 with hi2
  subst hi2
  refine ⟨cur, hcur', hb, ?_, ?_⟩
  · intro q hq
    rw [hq] at h
    simp only [beq_iff_eq, if_false] at h
    obtain ⟨i3, hi3, hlt, _⟩ := updLIR_ok_updAt h
    injection hi3 with hi3
    subst hi3
    rw [e2, length_updAt, e1, length_updAt] at hlt
    exact hlt
  · unfold insertedAfter
    cases hn : cur.next with
    | none =>
      rw [hn] at h
      simp only [beq_self_eq_true, if_true, pure, Except.pure] at h
      injection h with h
      rw [← h, e2, e1, hn]
    | some q =>
      rw [hn] at h
      simp only [beq_iff_eq, if_false] at h
      obtain ⟨i3, hi3, _, e3⟩ := updLIR_ok_updAt h
      injection hi3 with hi3
      subst hi3
      rw [e3, e2, e1, hn]

theorem InsertLIRBefore_ok {lirs lirs' : List LIR} {a b : Nat}
    (h : InsertLIRBefore lirs (some a) (some b) = .ok lirs') :
    ∃ cur, lirs[a]? = some cur ∧ b < lirs.length ∧
      (∀ q, cur.prev = some q → q < lirs.length) ∧
      lirs' = insertedBefore lirs a b cur.prev := by
  unfold InsertLIRBefore at h
  obtain ⟨cur, hcur, h⟩ := bind_ok h
  have hcur' := getLIR_some_inv hcur
  obtain ⟨l1, h1, h⟩ := bind_ok h
  obtain ⟨i1, hi1, hb, e1⟩ := updLIR_ok_updAt h1
  injection hi1 with hi1
  subst hi1
  obtain ⟨l2, h2, h⟩ := bind_ok h
  obtain ⟨i2, hi2, _, e2⟩ := updLIR_ok_updAt h2
  injection hi2 with hi2
  subst hi2
  refine ⟨cur, hcur', hb, ?_, ?_⟩
  · intro q hq
    rw [hq] at h
    simp only [beq_iff_eq, if_false] at h
    obtain ⟨i3, hi3, hlt, _⟩ := updLIR_ok_updAt h
    injection hi3 with hi3
    subst hi3
    rw [e2, length_updAt, e1, length_updAt] at hlt
    exact hlt
  · unfold insertedBefore
    cases hn : cur.prev with
    | none =>
      rw [hn] at h
      simp only [beq_self_eq_true, if_true, pure, Except.pure] at h
      injection h with h
      rw [← h, e2, e1, hn]
    | some q =>
      rw [hn] at h
      simp only [beq_iff_eq, if_false] at h
      obtain ⟨i3, hi3, _, e3⟩ := updLIR_ok_updAt h
      injection hi3 with hi3
      subst hi3
      rw [e3, e2, e1, hn]

theorem ReplaceFixup_ok {m m' : Mir2Lir} {prev_lir : Option Nat} {orig new : Nat}
    (h : ReplaceFixup m prev_lir (some orig) (some new) = .ok m') :
    ∃ o, m.lirs[orig]? = some o ∧ new < m.lirs.length ∧
      (∀ c, prev_lir = some c → c < m.lirs.length) ∧
      m' = { m with lirs := replacedFixup m.lirs prev_lir orig new o.pcrel_next,
                    first_fixup_ := if prev_lir = none then some new else m.first_fixup_ } := by
  unfold ReplaceFixup at h
  obtain ⟨o, ho, h⟩ := bind_ok h
  have ho' := getLIR_some_inv ho
  obtain ⟨l1, h1, h⟩ := bind_ok h
  obtain ⟨i1, hi1, hnew, e1⟩ := updLIR_ok_updAt h1
  injection hi1 with hi1
  subst hi1
  dsimp only at h
  cases hp : prev_lir with
  | none =>
    rw [hp] at h
    simp only [beq_self_eq_true, if_true] at h
    obtain ⟨y, hy, h⟩ := bind_ok h
    simp only [pure, Except.pure] at hy
    injection hy with hy
    subst hy
    obtain ⟨l3, h3, h⟩ := bind_ok h
    obtain ⟨i3, hi3, _, e3⟩ := updLIR_ok_updAt h3
    injection hi3 with hi3
    subst hi3
    simp only [pure, Except.pure] at h
    injection h with h
    refine ⟨o, ho', hnew, (fun c hc => by cases hc), ?_⟩
    rw [← h, e3]
    simp only [replacedFixup, e1, if_true]
  | some c =>
    rw [hp] at h
    simp only [beq_iff_eq, if_false] at h
    obtain ⟨l2, h2a, h⟩ := bind_ok h
    obtain ⟨i2, hi2, hc, e2⟩ := updLIR_ok_updAt h2a
    injection hi2 with hi2
    subst hi2
    obtain ⟨y, hy, h⟩ := bind_ok h
    simp only [pure, Except.pure] at hy
    injection hy with hy
    subst hy
    obtain ⟨l3, h3, h⟩ := bind_ok h
    obtain ⟨i3, hi3, _, e3⟩ := updLIR_ok_updAt h3
    injection hi3 with hi3
    subst hi3
    simp only [pure, Except.pure] at h
    injection h with h
    refine ⟨o, ho', hnew, ?_, ?_⟩
    · intro c' hc'
      injection hc' with hc'
      subst hc'
      rw [e1, length_updAt] at hc
      exact hc
    · rw [← h, e3]
      simp [replacedFixup, e2, e1]

theorem map_updAt_of_preserve {β : Type} (g : LIR → β) (lirs : List LIR) (i j : Nat)
    (f : LIR → LIR) (hg : ∀ l, g (f l) = g l) :
    ((updAt lirs i f)[j]?).map g = (lirs[j]?).map g := by
  rw [getElem?_updAt]
  split
  · cases lirs[j]? with
    | none => rfl
    | some l => simp [hg]
  · rfl

theorem length_insertedAfter (lirs : List LIR) (a b : Nat) (next : Option Nat) :
    (insertedAfter lirs a b next).length = lirs.length := by
  unfold insertedAfter
  cases next <;> simp [length_updAt]

theorem length_insertedBefore (lirs : List LIR) (a b : Nat) (prev : Option Nat) :
    (insertedBefore lirs a b prev).length = lirs.length := by
  unfold insertedBefore
  cases prev <;> simp [length_updAt]

theorem length_replacedFixup (lirs : List LIR) (c : Option Nat) (a b : Nat)
    (nx : Option Nat) : (replacedFixup lirs c a b nx).length = lirs.length := by
  unfold replacedFixup
  cases c <;> simp [length_updAt]

/-- A member of the records that the insertion into the instruction list does not write is
the same before and after. -/
theorem map_insertedAfter {β : Type} (g : LIR → β) (lirs : List LIR) (a b j : Nat)
    (next : Option Nat) (hg : ∀ (l : LIR) (x y : Option Nat), g { l with prev := x, next := y } = g l) :
    ((insertedAfter lirs a b next)[j]?).map g = (lirs[j]?).map g := by
  unfold insertedAfter
  cases next with
  | none =>
    dsimp only
    rw [map_updAt_of_preserve g _ _ _ _ (fun l => hg l l.prev (some b)),
      map_updAt_of_preserve g _ _ _ _ (fun l => hg l (some a) none)]
  | some q =>
    dsimp only
    rw [map_updAt_of_preserve g _ _ _ _ (fun l => hg l (some b) l.next),
      map_updAt_of_preserve g _ _ _ _ (fun l => hg l l.prev (some b)),
      map_updAt_of_preserve g _ _ _ _ (fun l => hg l (some a) (some q))]

theorem map_insertedBefore {β : Type} (g : LIR → β) (lirs : List LIR) (a b j : Nat)
    (prev : Option Nat) (hg : ∀ (l : LIR) (x y : Option Nat), g { l with prev := x, next := y } = g l) :
    ((insertedBefore lirs a b prev)[j]?).map g = (lirs[j]?).map g := by
  unfold insertedBefore
  cases prev with
  | none =>
    dsimp only
    rw [map_updAt_of_preserve g _ _ _ _ (fun l => hg l (some b) l.next),
      map_updAt_of_preserve g _ _ _ _ (fun l => hg l none (some a))]
  | some q =>
    dsimp only
    rw [map_updAt_of_preserve g _ _ _ _ (fun l => hg l l.prev (some b)),
      map_updAt_of_preserve g _ _ _ _ (fun l => hg l (some b) l.next),
      map_updAt_of_preserve g _ _ _ _ (fun l => hg l (some q) (some a))]

theorem getElem?_append_new (lirs : List LIR) (x : LIR) :
    (lirs ++ [x])[lirs.length]? = some x := by
  simp

theorem getElem?_append_old (lirs : List LIR) (x : LIR) {j : Nat} (h : j < lirs.length) :
    (lirs ++ [x])[j]? = lirs[j]? := by
  rw [List.getElem?_append_left h]

/-- The rewriting of an out-of-range `tbz/tbnz`, when it succeeds. -/
theorem tbxzWiden_ok {env : Env} {generation : Nat} {m m1 : Mir2Lir} {loc loc1 : FixupLocals}
    {p : Nat} {opcode : Opcode} {lirs : List LIR} {r : LIR} {c : Bool}
    (h : tbxzWiden env generation m loc p opcode lirs r = .ok (m1, loc1, c))
    (hr : lirs[p]? = some r) (hprev : loc.prev_lir ≠ some lirs.length) :
    m1 = { m with
           lirs := widenedArena env generation loc.prev_lir p opcode lirs r,
           first_fixup_ := if loc.prev_lir = none then some lirs.length else m.first_fixup_ } ∧
    loc1 = { offset_adjustment := loc.offset_adjustment - r.flags.size
               + (EncodingMap kA64Tst2rl).size + (EncodingMap kA64B2ct).size,
             res := .kRetryAll, prev_lir := some lirs.length, lir := r.pcrel_next } ∧
    c = true ∧ (∀ q, r.next = some q → q < lirs.length + 1) ∧
    (∀ q, loc.prev_lir = some q → q < lirs.length) := by
  have hp : p < lirs.length := (List.getElem?_eq_some_iff.mp hr).1
  unfold tbxzWiden at h
  dsimp only at h
  obtain ⟨_, _, h⟩ := bind_ok h
  obtain ⟨lA, hA, h⟩ := bind_ok h
  obtain ⟨i1, hi1, _, eA⟩ := updLIR_ok_updAt hA
  injection hi1 with hi1
  subst hi1
  obtain ⟨tst, htst, h⟩ := bind_ok h
  have htst' := getLIR_some_inv htst
  have htstv : tst = { r with
      opcode := if IS_WIDE opcode then WIDE kA64Tst2rl else kA64Tst2rl,
      operands := r.operands.set 1
        (env.EncodeLogicalImmediate (IS_WIDE opcode) (toU64 (intShl1 (r.operands.get 1)))),
      target := none,
      flags := { r.flags with fixup := (EncodingMap kA64Tst2rl).fixup,
                              size := (EncodingMap kA64Tst2rl).size } } := by
    rw [eA, getElem?_updAt, if_pos rfl, hr] at htst'
    injection htst' with htst'
    exact htst'.symm
  obtain ⟨_, _, h⟩ := bind_ok h
  obtain ⟨lC, hC, h⟩ := bind_ok h
  have hlenA : lA.length = lirs.length := by rw [eA, length_updAt]
  rw [hlenA] at hC h
  obtain ⟨cur, hcur, _, hq, eC⟩ := InsertLIRAfter_ok hC
  have hcurv : cur = tst := by
    rw [List.getElem?_append_left (by rw [hlenA]; exact hp), htst'] at hcur
    injection hcur with hcur
    exact hcur.symm
  have hnext : cur.next = r.next := by rw [hcurv, htstv]
  rw [hnext] at eC hq
  obtain ⟨lirC, hlirC, h⟩ := bind_ok h
  have hlirC' := getLIR_some_inv hlirC
  have hoffC : lirC.offset = r.offset := by
    have := map_insertedAfter LIR.offset (lA ++ [RawLIR r.dalvik_offset kA64B2ct
      (if (UNWIDE opcode == OpcodeBase.insn kA64Tbz3rht) = true then env.kArmCondEq
       else env.kArmCondNe) 0 0 0 0 r.target]) p lirs.length p r.next (fun _ _ _ => rfl)
    rw [← eC, hlirC', List.getElem?_append_left (by rw [hlenA]; exact hp), htst'] at this
    simp only [Option.map_some'] at this
    injection this with this
    rw [this, htstv]
  have hszC : lirC.flags.size = (EncodingMap kA64Tst2rl).size := by
    have := map_insertedAfter (fun l => l.flags.size) (lA ++ [RawLIR r.dalvik_offset kA64B2ct
      (if (UNWIDE opcode == OpcodeBase.insn kA64Tbz3rht) = true then env.kArmCondEq
       else env.kArmCondNe) 0 0 0 0 r.target]) p lirs.length p r.next (fun _ _ _ => rfl)
    rw [← eC, hlirC', List.getElem?_append_left (by rw [hlenA]; exact hp), htst'] at this
    simp only [Option.map_some'] at this
    injection this with this
    rw [this, htstv]
  obtain ⟨lD, hD, h⟩ := bind_ok h
  obtain ⟨i2, hi2, _, eD⟩ := updLIR_ok_updAt hD
  injection hi2 with hi2
  subst hi2
  obtain ⟨new, hnew, h⟩ := bind_ok h
  have hnew' := getLIR_some_inv hnew
  have hnewsz : new.flags.size = (EncodingMap kA64B2ct).size := by
    rw [eD, getElem?_updAt, if_pos rfl] at hnew'
    cases hx : lC[lirs.length]? with
    | none => rw [hx] at hnew'; cases hnew'
    | some x =>
      rw [hx] at hnew'
      simp only [Option.map_some'] at hnew'
      injection hnew' with hnew'
      rw [← hnew']
  obtain ⟨m2, hm2, h⟩ := bind_ok h
  obtain ⟨o, ho, _, hc, em2⟩ := ReplaceFixup_ok hm2
  dsimp only at ho hc em2
  have hlenC : lC.length = lirs.length + 1 := by
    rw [eC, length_insertedAfter, List.length_append, hlenA]
    rfl
  have hlenD : lD.length = lirs.length + 1 := by rw [eD, length_updAt, hlenC]
  have hopc : o.pcrel_next = r.pcrel_next := by
    have h1 : (lD[p]?).map LIR.pcrel_next = (lC[p]?).map LIR.pcrel_next := by
      rw [eD]
      exact map_updAt_of_preserve LIR.pcrel_next lC lirs.length p _ (fun _ => rfl)
    have h2 := map_insertedAfter LIR.pcrel_next (lA ++ [RawLIR r.dalvik_offset kA64B2ct
      (if (UNWIDE opcode == OpcodeBase.insn kA64Tbz3rht) = true then env.kArmCondEq
       else env.kArmCondNe) 0 0 0 0 r.target]) p lirs.length p r.next (fun _ _ _ => rfl)
    rw [ho] at h1
    rw [← eC, List.getElem?_append_left (by rw [hlenA]; exact hp), htst'] at h2
    rw [h2] at h1
    simp only [Option.map_some'] at h1
    injection h1 with h1
    rw [h1, htstv]
  obtain ⟨new2, hnew2, h⟩ := bind_ok h
  have hnew2' := getLIR_some_inv hnew2
  simp only [pure, Except.pure] at h
  injection h with h
  injection h with h1 h2
  injection h2 with h2 h3
  have harena : m2.lirs = widenedArena env generation loc.prev_lir p opcode lirs r := by
    rw [em2]
    simp only [widenedArena]
    rw [hopc, eD, eC, eA, hoffC, hszC]
  have hnew2pc : new2.pcrel_next = r.pcrel_next := by
    rw [em2] at hnew2'
    dsimp only at hnew2'
    unfold replacedFixup at hnew2'
    dsimp only at hnew2'
    rw [getElem?_updAt] at hnew2'
    have hpn : lirs.length ≠ p := by omega
    rw [if_neg hpn] at hnew2'
    cases hpl : loc.prev_lir with
    | none =>
      rw [hpl] at hnew2'
      dsimp only at hnew2'
      rw [getElem?_updAt, if_pos rfl] at hnew2'
      cases hx : lD[lirs.length]? with
      | none => rw [hx] at hnew2'; cases hnew2'
      | some x =>
        rw [hx] at hnew2'
        simp only [Option.map_some'] at hnew2'
        injection hnew2' with hnew2'
        rw [← hnew2', hopc]
    | some q =>
      rw [hpl] at hnew2'
      dsimp only at hnew2'
      have hqn : lirs.length ≠ q := by
        intro hq2
        apply hprev
        rw [hpl, hq2]
      rw [getElem?_updAt, if_neg hqn, getElem?_updAt, if_pos rfl] at hnew2'
      cases hx : lD[lirs.length]? with
      | none => rw [hx] at hnew2'; cases hnew2'
      | some x =>
        rw [hx] at hnew2'
        simp only [Option.map_some'] at hnew2'
        injection hnew2' with hnew2'
        rw [← hnew2', hopc]
  refine ⟨?_, ?_, h3.symm, ?_, ?_⟩
  · rw [← h1, em2]
    have := harena
    rw [em2] at this
    dsimp only at this ⊢
    rw [this]
  · rw [← h2, hnew2pc, hnewsz, htstv]
  · intro q hq2
    have := hq q hq2
    rw [List.length_append, hlenA] at this
    exact this
  · intro q hq2
    have := hc q hq2
    rw [hlenD] at this
    have hne : q ≠ lirs.length := by
      intro he
      apply hprev
      rw [hq2, he]
    omega

theorem tbxzCheckWidth_ok {env : Env} {lirs lirs1 : List LIR} {r : LIR} {p : Nat}
    (hr : lirs[p]? = some r) (h : tbxzCheckWidth env lirs r p = .ok lirs1) :
    lirs1 = lirs.set p (tbxzNarrowed env r) := by
  unfold tbxzCheckWidth at h
  dsimp only at h
  split at h
  · rename_i h32
    obtain ⟨_, _, h⟩ := bind_ok h
    simp only [pure, Except.pure] at h
    injection h with h
    have e : tbxzNarrowed env r = r := by simp only [tbxzNarrowed, h32, if_true]
    rw [← h, e, set_self_of_some hr]
  · rename_i h32
    split at h
    · rename_i hdbg
      obtain ⟨r0, hr0, hset⟩ := updLIR_ok h
      rw [hr] at hr0
      injection hr0 with hr0
      subst hr0
      rw [hset]
      simp only [tbxzNarrowed, h32, if_false, hdbg, if_true]
    · rename_i hdbg
      simp only [pure, Except.pure] at h
      injection h with h
      have e : tbxzNarrowed env r = r := by simp [tbxzNarrowed, h32, hdbg]
      rw [← h, e, set_self_of_some hr]

/-- The case `kFixupTBxZ`, when it succeeds: the displacement is stored in operand 2 when
`delta >> 2` is a signed 14-bit value, and the branch is rewritten otherwise. -/
theorem fixupTBxZ_ok {env : Env} {generation : Nat} {m m1 : Mir2Lir} {loc loc1 : FixupLocals}
    {p : Nat} {r : LIR} {c : Bool}
    (h : fixupTBxZ env generation m loc p = .ok (m1, loc1, c))
    (hr : m.lirs[p]? = some r) (hprev : loc.prev_lir ≠ some m.lirs.length) :
    ∃ d, fixupDelta env (m.lirs.set p (tbxzNarrowed env r)) (tbxzNarrowed env r)
        loc.offset_adjustment = .ok d ∧
      ((IS_SIGNED_IMM14 (asr d 2) = true ∧
          m1 = { m with
                 lirs := m.lirs.set p
                   { tbxzNarrowed env r with
                     operands := (tbxzNarrowed env r).operands.set 2 (asr d 2) } } ∧
          loc1 = loc ∧ c = false) ∨
       (IS_SIGNED_IMM14 (asr d 2) = false ∧
          m1 = { m with
                 lirs := widenedArena env generation loc.prev_lir p r.opcode
                   (m.lirs.set p (tbxzNarrowed env r)) (tbxzNarrowed env r),
                 first_fixup_ :=
                   if loc.prev_lir = none then some m.lirs.length else m.first_fixup_ } ∧
          loc1 = { offset_adjustment := loc.offset_adjustment - r.flags.size
                     + (EncodingMap kA64Tst2rl).size + (EncodingMap kA64B2ct).size,
                   res := .kRetryAll, prev_lir := some m.lirs.length, lir := r.pcrel_next } ∧
          c = true ∧ (∀ q, r.next = some q → q < m.lirs.length + 1) ∧
          (∀ q, loc.prev_lir = some q → q < m.lirs.length))) := by
  unfold fixupTBxZ at h
  obtain ⟨r0, hr0, h⟩ := bind_ok h
  have hr0' := getLIR_some_inv hr0
  rw [hr] at hr0'
  injection hr0' with hr0'
  subst hr0'
  dsimp only at h
  obtain ⟨_, _, h⟩ := bind_ok h
  obtain ⟨_, _, h⟩ := bind_ok h
  obtain ⟨lirs1, hl1, h⟩ := bind_ok h
  have e1 := tbxzCheckWidth_ok hr hl1
  subst e1
  obtain ⟨r1, hr1, h⟩ := bind_ok h
  have hr1' := getLIR_some_inv hr1
  have hr1v : (m.lirs.set p (tbxzNarrowed env r))[p]? = some (tbxzNarrowed env r) :=
    getElem?_set_self_of_some hr _
  rw [hr1v] at hr1'
  injection hr1' with hr1'
  subst hr1'
  obtain ⟨d, hd, h⟩ := bind_ok h
  refine ⟨d, hd, ?_⟩
  have hnar : (tbxzNarrowed env r).flags = r.flags ∧
      (tbxzNarrowed env r).pcrel_next = r.pcrel_next ∧ (tbxzNarrowed env r).next = r.next := by
    unfold tbxzNarrowed
    split
    · exact ⟨rfl, rfl, rfl⟩
    · split
      · exact ⟨rfl, rfl, rfl⟩
      · exact ⟨rfl, rfl, rfl⟩
  cases hi : IS_SIGNED_IMM14 (asr d 2) with
  | true =>
    left
    rw [hi] at h
    simp only [Bool.not_true, Bool.false_eq_true, if_false] at h
    obtain ⟨lirs2, hl2, h⟩ := bind_ok h
    obtain ⟨r2, hr2, hset⟩ := updLIR_ok hl2
    rw [hr1v] at hr2
    injection hr2 with hr2
    subst hr2
    simp only [pure, Except.pure] at h
    injection h with h
    injection h with h1 h2
    injection h2 with h2 h3
    refine ⟨rfl, ?_, h2.symm, h3.symm⟩
    rw [← h1, hset, List.set_set]
  | false =>
    right
    rw [hi] at h
    simp only [Bool.not_false, if_true] at h
    have hlen : (m.lirs.set p (tbxzNarrowed env r)).length = m.lirs.length := by simp
    obtain ⟨e1, e2, e3, e4, e5⟩ := tbxzWiden_ok h hr1v (by rw [hlen]; exact hprev)
    rw [hlen] at e1 e2 e4 e5
    rw [hnar.1, hnar.2.1] at e2
    rw [hnar.2.2] at e4
    exact ⟨rfl, e1, e2, e3, e4, e5⟩

theorem GetPrevEmittingLIR_eq (cfg : BuildConfig) (lirs : List LIR) (fuel p : Nat) (r : LIR)
    (hr : lirs[p]? = some r) :
    GetPrevEmittingLIR cfg lirs fuel (some p) = prevEmittingFrom lirs fuel r.prev := by
  unfold GetPrevEmittingLIR
  simp [DCHECK, getLIR_some hr, bind, Except.bind]

/-- The case `kFixupA53Erratum835769`, when it succeeds: a `nop` is put before a wide
multiply-accumulate whose previous emitting record is a load or a store on a target that
needs the fix, and nothing changes otherwise. -/
theorem fixupA53_ok {env : Env} {fuel : Nat} {m m1 : Mir2Lir} {loc loc1 : FixupLocals}
    {p : Nat} {r : LIR} (h : fixupA53Erratum835769 env fuel m loc p = .ok (m1, loc1))
    (hr : m.lirs[p]? = some r) :
    (m1 = m ∧ loc1 = loc ∧
      (env.NeedFixCortexA53_835769 = false ∨ IS_WIDE r.opcode = false ∨
        prevEmittingFrom m.lirs fuel r.prev = .ok none ∨
        ∃ q prev op, prevEmittingFrom m.lirs fuel r.prev = .ok (some q) ∧
          m.lirs[q]? = some prev ∧ UNWIDE prev.opcode = .insn op ∧
          isLoadOrStore env (EncodingMap op).flags = false)) ∨
    (env.NeedFixCortexA53_835769 = true ∧ IS_WIDE r.opcode = true ∧
      (∃ q prev op, prevEmittingFrom m.lirs fuel r.prev = .ok (some q) ∧
        m.lirs[q]? = some prev ∧ UNWIDE prev.opcode = .insn op ∧
        isLoadOrStore env (EncodingMap op).flags = true) ∧
      m1 = { m with lirs := nopInsertedArena m.lirs p r } ∧
      loc1 = { loc with
               offset_adjustment := loc.offset_adjustment + (EncodingMap kA64Nop0).size,
               res := .kRetryAll } ∧
      (∀ q, r.prev = some q → q < m.lirs.length + 1)) := by
  have hp : p < m.lirs.length := (List.getElem?_eq_some_iff.mp hr).1
  unfold fixupA53Erratum835769 at h
  obtain ⟨r0, hr0, h⟩ := bind_ok h
  have hr0' := getLIR_some_inv hr0
  rw [hr] at hr0'
  injection hr0' with hr0'
  subst hr0'
  have hdone : ∀ {x : Except Fault (Mir2Lir × FixupLocals)}, x = pure (m, loc) →
      x = .ok (m1, loc1) → m1 = m ∧ loc1 = loc := by
    intro x hx hx'
    rw [hx] at hx'
    simp only [pure, Except.pure] at hx'
    injection hx' with hx'
    injection hx' with h1 h2
    exact ⟨h1.symm, h2.symm⟩
  cases hfix : env.NeedFixCortexA53_835769 with
  | false =>
    rw [hfix] at h
    obtain ⟨e1, e2⟩ := hdone rfl h
    exact Or.inl ⟨e1, e2, Or.inl rfl⟩
  | true =>
    rw [hfix] at h
    simp only [if_true] at h
    cases hw : IS_WIDE r.opcode with
    | false =>
      rw [hw] at h
      obtain ⟨e1, e2⟩ := hdone rfl h
      exact Or.inl ⟨e1, e2, Or.inr (Or.inl rfl)⟩
    | true =>
      rw [hw] at h
      simp only [if_true] at h
      obtain ⟨prev_insn, hprev, h⟩ := bind_ok h
      rw [GetPrevEmittingLIR_eq env.toBuildConfig m.lirs fuel p r hr] at hprev
      cases prev_insn with
      | none =>
        simp only [beq_self_eq_true, if_true] at h
        obtain ⟨e1, e2⟩ := hdone rfl h
        exact Or.inl ⟨e1, e2, Or.inr (Or.inr (Or.inl hprev))⟩
      | some q =>
        simp only [beq_iff_eq, if_false] at h
        obtain ⟨prev, hpr, h⟩ := bind_ok h
        have hpr' := getLIR_some_inv hpr
        split at h
        · cases h
        · rename_i op hop
          cases hls : isLoadOrStore env (EncodingMap op).flags with
          | false =>
            rw [hls] at h
            obtain ⟨e1, e2⟩ := hdone rfl h
            exact Or.inl ⟨e1, e2, Or.inr (Or.inr (Or.inr ⟨q, prev, op, hprev, hpr', hop, hls⟩))⟩
          | true =>
            rw [hls] at h
            simp only [if_true] at h
            right
            obtain ⟨l2, h2, h⟩ := bind_ok h
            obtain ⟨i2, hi2, _, e2⟩ := updLIR_ok_updAt h2
            injection hi2 with hi2
            subst hi2
            obtain ⟨l3, h3, h⟩ := bind_ok h
            obtain ⟨cur, hcur, _, hq, e3⟩ := InsertLIRBefore_ok h3
            have hcurv : cur.prev = r.prev := by
              have hx : (l2[p]?).map LIR.prev
                  = ((m.lirs ++ [RawLIR r.dalvik_offset kA64Nop0 0 0 0 0 0 none])[p]?).map
                      LIR.prev := by
                rw [e2]
                exact map_updAt_of_preserve LIR.prev _ m.lirs.length p _ (fun _ => rfl)
              rw [hcur, List.getElem?_append_left hp, hr] at hx
              simp only [Option.map_some'] at hx
              injection hx
            rw [hcurv] at e3 hq
            obtain ⟨new, hnew, h⟩ := bind_ok h
            have hnew' := getLIR_some_inv hnew
            have hnewsz : new.flags.size = (EncodingMap kA64Nop0).size := by
              have := map_insertedBefore (fun l => l.flags.size) l2 p m.lirs.length
                m.lirs.length r.prev (fun _ _ _ => rfl)
              rw [← e3, hnew', e2, getElem?_updAt, if_pos rfl, getElem?_append_new] at this
              simp only [Option.map_some'] at this
              injection this
            obtain ⟨l4, h4, h⟩ := bind_ok h
            obtain ⟨i4, hi4, _, e4⟩ := updLIR_ok_updAt h4
            injection hi4 with hi4
            subst hi4
            simp only [pure, Except.pure] at h
            injection h with h
            injection h with h1 h2
            refine ⟨rfl, rfl, ⟨q, prev, op, hprev, hpr', hop, hls⟩, ?_, ?_, ?_⟩
            · rw [← h1, e4, e3, e2, hnewsz]
              rfl
            · rw [← h2, hnewsz]
            · intro q2 hq2
              have := hq q2 hq2
              rw [e2, length_updAt, List.length_append] at this
              exact this

/-! ## Walks and sums on the layout of an arena -/

theorem Seg.seg_append {sel : Layout → Option Nat} {L : Nat → Option Layout} {e : Option Nat} :
    ∀ {xs ys : List Nat} {p : Option Nat},
      Seg sel L e p (xs ++ ys) ↔ ∃ mid, Seg sel L mid p xs ∧ Seg sel L e mid ys := by
  intro xs
  induction xs with
  | nil =>
    intro ys p
    constructor
    · intro h
      exact ⟨p, rfl, h⟩
    · rintro ⟨mid, h1, h2⟩
      have : p = mid := h1
      rw [this]
      exact h2
  | cons i rest ih =>
    intro ys p
    constructor
    · rintro ⟨hp, l, hl, h⟩
      obtain ⟨mid, h1, h2⟩ := ih.mp h
      exact ⟨mid, ⟨hp, l, hl, h1⟩, h2⟩
    · rintro ⟨mid, ⟨hp, l, hl, h1⟩, h2⟩
      exact ⟨hp, l, hl, ih.mpr ⟨mid, h1, h2⟩⟩

theorem Seg.seg_congr {sel : Layout → Option Nat} {L L' : Nat → Option Layout} {e : Option Nat} :
    ∀ {idxs : List Nat} {p : Option Nat},
      (∀ i ∈ idxs, (L' i).map sel = (L i).map sel) → Seg sel L e p idxs → Seg sel L' e p idxs := by
  intro idxs
  induction idxs with
  | nil => intro p _ h; exact h
  | cons i rest ih =>
    intro p hL h
    obtain ⟨hp, l, hl, h⟩ := h
    have h1 := hL i (List.mem_cons_self _ _)
    rw [hl] at h1
    cases hl' : L' i with
    | none => rw [hl'] at h1; cases h1
    | some l' =>
      rw [hl'] at h1
      simp only [Option.map_some'] at h1
      injection h1 with h1
      refine ⟨hp, l', hl', ?_⟩
      rw [h1]
      exact ih (fun j hj => hL j (List.mem_cons_of_mem _ hj)) h

theorem Seg.mem_some {sel : Layout → Option Nat} {L : Nat → Option Layout} {e : Option Nat} :
    ∀ {idxs : List Nat} {p : Option Nat}, Seg sel L e p idxs →
      ∀ i ∈ idxs, ∃ l, L i = some l := by
  intro idxs
  induction idxs with
  | nil => intro _ _ i hi; simp at hi
  | cons j rest ih =>
    intro p h i hi
    obtain ⟨_, l, hl, hrest⟩ := h
    rcases List.mem_cons.mp hi with h1 | h1
    · exact ⟨l, h1 ▸ hl⟩
    · exact ih hrest i h1

theorem Seg.seg_unique {sel : Layout → Option Nat} {L : Nat → Option Layout} :
    ∀ {xs ys : List Nat} {p : Option Nat}, Seg sel L none p xs → Seg sel L none p ys →
      xs = ys := by
  intro xs
  induction xs with
  | nil =>
    intro ys p h1 h2
    cases ys with
    | nil => rfl
    | cons j r2 =>
      have e1 : p = none := h1
      rw [e1] at h2
      cases h2.1
  | cons i rest ih =>
    intro ys p h1 h2
    obtain ⟨hp, l, hl, hrest⟩ := h1
    cases ys with
    | nil =>
      have e2 : p = none := h2
      rw [e2] at hp
      cases hp
    | cons j r2 =>
      obtain ⟨hp2, l2, hl2, hrest2⟩ := h2
      rw [hp] at hp2
      injection hp2 with hp2
      subst hp2
      rw [hl] at hl2
      injection hl2 with hl2
      subst hl2
      rw [ih hrest hrest2]

/-- A walk that ends at `nullptr` meets no record twice. -/
theorem Seg.seg_nodup {sel : Layout → Option Nat} {L : Nat → Option Layout} :
    ∀ {idxs : List Nat} {p : Option Nat}, Seg sel L none p idxs → idxs.Nodup := by
  intro idxs
  induction idxs with
  | nil => intro _ _; exact List.nodup_nil
  | cons i rest ih =>
    intro p h
    obtain ⟨hp, l, hl, hrest⟩ := h
    refine List.nodup_cons.mpr ⟨?_, ih hrest⟩
    intro hmem
    obtain ⟨xs, ys, hsplit⟩ := List.append_of_mem hmem
    rw [hsplit] at hrest
    obtain ⟨mid, h1, h2⟩ := Seg.seg_append.mp hrest
    obtain ⟨hmid, l', hl', h3⟩ := h2
    rw [hl] at hl'
    injection hl' with hl'
    subst hl'
    -- the walk from `sel l` along `ys` ends, and so does the longer one along `xs ++ i :: ys`
    have hlong : Seg sel L none (sel l) (xs ++ i :: ys) :=
      Seg.seg_append.mpr ⟨mid, h1, hmid, l, hl, h3⟩
    have := Seg.seg_unique h3 hlong
    have hlen := congrArg List.length this
    simp at hlen
    omega

theorem lsum_nil (L : Nat → Option Layout) : lsum L [] = 0 := rfl

theorem lsum_cons (L : Nat → Option Layout) (i : Nat) (rest : List Nat) :
    lsum L (i :: rest) = lsize L i + lsum L rest := by
  simp [lsum]

theorem lsum_append (L : Nat → Option Layout) (xs ys : List Nat) :
    lsum L (xs ++ ys) = lsum L xs + lsum L ys := by
  simp [lsum]

theorem lsize_congr {L L' : Nat → Option Layout} {i : Nat}
    (h : (L' i).map (fun l => (l.is_nop, l.size)) = (L i).map (fun l => (l.is_nop, l.size))) :
    lsize L' i = lsize L i := by
  unfold lsize
  cases h1 : L i with
  | none =>
    rw [h1] at h
    cases h2 : L' i with
    | none => rfl
    | some l' => rw [h2] at h; cases h
  | some l =>
    rw [h1] at h
    cases h2 : L' i with
    | none => rw [h2] at h; cases h
    | some l' =>
      rw [h2] at h
      simp only [Option.map_some', Option.some.injEq, Prod.mk.injEq] at h
      simp only [h.1, h.2]

theorem lsum_congr {L L' : Nat → Option Layout} :
    ∀ {idxs : List Nat}, (∀ i ∈ idxs, lsize L' i = lsize L i) → lsum L' idxs = lsum L idxs := by
  intro idxs
  induction idxs with
  | nil => intro _; rfl
  | cons i rest ih =>
    intro h
    rw [lsum_cons, lsum_cons, h i (List.mem_cons_self _ _),
      ih (fun j hj => h j (List.mem_cons_of_mem _ hj))]

theorem insnsOf_append (xs ys : List (Nat × Bool)) :
    insnsOf (xs ++ ys) = insnsOf xs ++ insnsOf ys := by
  simp [insnsOf]

theorem chainOf_append (xs ys : List (Nat × Bool)) :
    chainOf (xs ++ ys) = chainOf xs ++ chainOf ys := by
  simp [chainOf]

theorem chainOf_cons_true (i : Nat) (rest : List (Nat × Bool)) :
    chainOf ((i, true) :: rest) = i :: chainOf rest := by
  simp [chainOf]

theorem chainOf_cons_false (i : Nat) (rest : List (Nat × Bool)) :
    chainOf ((i, false) :: rest) = chainOf rest := by
  simp [chainOf]

theorem mem_insnsOf_of_mem {c : Nat} {b : Bool} {marked : List (Nat × Bool)}
    (h : (c, b) ∈ marked) : c ∈ insnsOf marked :=
  List.mem_map.mpr ⟨(c, b), h, rfl⟩

theorem mem_chainOf {c : Nat} {marked : List (Nat × Bool)} :
    c ∈ chainOf marked ↔ (c, true) ∈ marked := by
  simp [chainOf]

theorem OffsetAt.at_congr {L L' : Nat → Option Layout} {d acc : Int} {c : Nat}
    (h : (L' c).map Layout.offset = (L c).map Layout.offset) (ho : OffsetAt L d acc c) :
    OffsetAt L' d acc c := by
  obtain ⟨l, hl, hlt, hmod⟩ := ho
  rw [hl] at h
  cases hl' : L' c with
  | none => rw [hl'] at h; cases h
  | some l' =>
    rw [hl'] at h
    simp only [Option.map_some', Option.some.injEq] at h
    exact ⟨l', hl', by rw [h]; exact hlt, by rw [h]; exact hmod⟩

theorem OffsetAt.shift {L : Nat → Option Layout} {d acc : Int} {c : Nat} (s : Int)
    (ho : OffsetAt L d acc c) : OffsetAt L (d + s) (acc + s) c := by
  obtain ⟨l, hl, hlt, hmod⟩ := ho
  unfold OffsetAt
  refine ⟨l, hl, hlt, ?_⟩
  have e : (l.offset : Int) + (d + s) - (acc + s) = (l.offset : Int) + d - acc := by ring
  rw [e]
  exact hmod

theorem MarkedOffs.offs_append {L : Nat → Option Layout} {d : Int} :
    ∀ {xs ys : List (Nat × Bool)} {acc : Int},
      MarkedOffs L d (xs ++ ys) acc ↔
        MarkedOffs L d xs acc ∧ MarkedOffs L d ys (acc + lsum L (insnsOf xs)) := by
  intro xs
  induction xs with
  | nil =>
    intro ys acc
    simp [MarkedOffs, insnsOf, lsum]
  | cons x rest ih =>
    intro ys acc
    obtain ⟨i, b⟩ := x
    have e : acc + ((lsum L (insnsOf ((i, b) :: rest)) : Nat) : Int)
        = acc + (lsize L i : Int) + ((lsum L (insnsOf rest) : Nat) : Int) := by
      have : insnsOf ((i, b) :: rest) = i :: insnsOf rest := rfl
      rw [this, lsum_cons]
      push_cast
      ring
    rw [e]
    show ((b = true → OffsetAt L d acc i) ∧ MarkedOffs L d (rest ++ ys) (acc + lsize L i)) ↔
      ((b = true → OffsetAt L d acc i) ∧ MarkedOffs L d rest (acc + lsize L i)) ∧
        MarkedOffs L d ys (acc + (lsize L i : Int) + ((lsum L (insnsOf rest) : Nat) : Int))
    rw [ih]
    tauto

theorem lsize_congr3 {L L' : Nat → Option Layout} {i : Nat}
    (h : (L' i).map (fun l => (l.offset, l.is_nop, l.size))
      = (L i).map (fun l => (l.offset, l.is_nop, l.size))) : lsize L' i = lsize L i := by
  apply lsize_congr
  have := congrArg (Option.map (fun x : Nat × Bool × Nat => (x.2.1, x.2.2))) h
  simpa [Option.map_map, Function.comp] using this

theorem MarkedOffs.offs_congr {L L' : Nat → Option Layout} {d : Int} :
    ∀ {xs : List (Nat × Bool)} {acc : Int},
      (∀ i ∈ insnsOf xs, (L' i).map (fun l => (l.offset, l.is_nop, l.size))
        = (L i).map (fun l => (l.offset, l.is_nop, l.size))) →
      MarkedOffs L d xs acc → MarkedOffs L' d xs acc := by
  intro xs
  induction xs with
  | nil => intro _ _ _; trivial
  | cons x rest ih =>
    intro acc hL h
    obtain ⟨i, b⟩ := x
    obtain ⟨h1, h2⟩ := h
    have hi := hL i (by simp [insnsOf])
    have hoff : (L' i).map Layout.offset = (L i).map Layout.offset := by
      have := congrArg (Option.map (fun x : Nat × Bool × Nat => x.1)) hi
      simpa [Option.map_map, Function.comp] using this
    refine ⟨fun hb => OffsetAt.at_congr hoff (h1 hb), ?_⟩
    rw [lsize_congr3 hi]
    exact ih (fun j hj => hL j (by
      simp only [insnsOf, List.map_cons, List.mem_cons]
      exact Or.inr hj)) h2

theorem lsum_congr3 {L L' : Nat → Option Layout} {idxs : List Nat}
    (h : ∀ i ∈ idxs, (L' i).map (fun l => (l.offset, l.is_nop, l.size))
      = (L i).map (fun l => (l.offset, l.is_nop, l.size))) : lsum L' idxs = lsum L idxs :=
  lsum_congr fun i hi => lsize_congr3 (h i hi)

theorem MarkedOffs.offs_shift {L : Nat → Option Layout} {d : Int} (s : Int) :
    ∀ {xs : List (Nat × Bool)} {acc : Int},
      MarkedOffs L d xs acc → MarkedOffs L (d + s) xs (acc + s) := by
  intro xs
  induction xs with
  | nil => intro _ _; trivial
  | cons x rest ih =>
    intro acc h
    obtain ⟨i, b⟩ := x
    obtain ⟨h1, h2⟩ := h
    refine ⟨fun hb => (h1 hb).shift s, ?_⟩
    have e : acc + s + (lsize L i : Int) = acc + (lsize L i : Int) + s := by ring
    rw [e]
    exact ih h2

/-- Records that are no chain nodes have no condition on their offsets. -/
theorem MarkedOffs.unmarked {L : Nat → Option Layout} {d d' : Int} :
    ∀ {xs : List (Nat × Bool)} {acc : Int}, chainOf xs = [] → MarkedOffs L d xs acc →
      MarkedOffs L d' xs acc := by
  intro xs
  induction xs with
  | nil => intro _ _ _; trivial
  | cons x rest ih =>
    intro acc hc h
    obtain ⟨i, b⟩ := x
    cases b with
    | true => simp [chainOf] at hc
    | false =>
      rw [chainOf_cons_false] at hc
      exact ⟨(fun hb => by cases hb), ih hc h.2⟩

theorem PrevLinked.prev_append {L : Nat → Option Layout} :
    ∀ {xs ys : List Nat} {pv : Option Nat},
      PrevLinked L pv (xs ++ ys) ↔
        PrevLinked L pv xs ∧ PrevLinked L (if xs = [] then pv else xs.getLast?) ys := by
  intro xs
  induction xs with
  | nil => intro ys pv; simp [PrevLinked]
  | cons i rest ih =>
    intro ys pv
    have hlast : (if i :: rest = [] then pv else (i :: rest).getLast?)
        = (if rest = [] then some i else rest.getLast?) := by
      cases rest with
      | nil => simp
      | cons j r2 => simp [List.getLast?_cons_cons]
    rw [hlast]
    show ((∃ l, L i = some l ∧ l.prev = pv) ∧ PrevLinked L (some i) (rest ++ ys)) ↔
      ((∃ l, L i = some l ∧ l.prev = pv) ∧ PrevLinked L (some i) rest) ∧
        PrevLinked L (if rest = [] then some i else rest.getLast?) ys
    rw [ih]
    tauto

theorem PrevLinked.prev_congr {L L' : Nat → Option Layout} :
    ∀ {xs : List Nat} {pv : Option Nat},
      (∀ i ∈ xs, (L' i).map Layout.prev = (L i).map Layout.prev) → PrevLinked L pv xs →
      PrevLinked L' pv xs := by
  intro xs
  induction xs with
  | nil => intro _ _ _; trivial
  | cons i rest ih =>
    intro pv hL h
    obtain ⟨⟨l, hl, hp⟩, h2⟩ := h
    have h1 := hL i (List.mem_cons_self _ _)
    rw [hl] at h1
    cases hl' : L' i with
    | none => rw [hl'] at h1; cases h1
    | some l' =>
      rw [hl'] at h1
      simp only [Option.map_some', Option.some.injEq] at h1
      exact ⟨⟨l', hl', by rw [h1]; exact hp⟩,
        ih (fun j hj => hL j (List.mem_cons_of_mem _ hj)) h2⟩

/-! ## The invariant of a pass -/

theorem chainOf_head_split :
    ∀ {mb : List (Nat × Bool)} {p : Nat}, (chainOf mb).head? = some p →
      ∃ u mbt, mb = u ++ (p, true) :: mbt ∧ chainOf u = [] := by
  intro mb
  induction mb with
  | nil => intro p h; simp [chainOf] at h
  | cons x rest ih =>
    intro p h
    obtain ⟨i, b⟩ := x
    cases b with
    | true =>
      rw [chainOf_cons_true] at h
      simp only [List.head?_cons, Option.some.injEq] at h
      subst h
      exact ⟨[], rest, rfl, rfl⟩
    | false =>
      rw [chainOf_cons_false] at h
      obtain ⟨u, mbt, hsplit, hu⟩ := ih h
      exact ⟨(i, false) :: u, mbt, by rw [hsplit]; rfl, by rw [chainOf_cons_false]; exact hu⟩

/-- The records before the node that the pass is about to visit can all be counted among
those that it has passed. -/
theorem PassInv.normalize {L : Nat → Option Layout} {N : Nat} {fi ff : Option Nat} {d : Int}
    {p : Nat} {prev : Option Nat} {ma mb : List (Nat × Bool)}
    (h : PassInv L N fi ff d (some p) prev ma mb) :
    ∃ ma' mbt, ma' ++ (p, true) :: mbt = ma ++ mb ∧
      PassInv L N fi ff d (some p) prev ma' ((p, true) :: mbt) := by
  obtain ⟨u, mbt, hsplit, hu⟩ := chainOf_head_split h.cur_eq.symm
  refine ⟨ma ++ u, mbt, by rw [hsplit, List.append_assoc], ?_⟩
  have e : (ma ++ u) ++ (p, true) :: mbt = ma ++ mb := by rw [hsplit, List.append_assoc]
  have hp := h.pending
  rw [hsplit, MarkedOffs.offs_append] at hp
  exact {
    insns := by rw [e]; exact h.insns
    chain := by rw [e]; exact h.chain
    cur_eq := by rw [chainOf_cons_true]; rfl
    prev_eq := by rw [chainOf_append, hu, List.append_nil]; exact h.prev_eq
    prevs := by rw [e]; exact h.prevs
    inert := by rw [e]; exact h.inert
    visited := by
      rw [MarkedOffs.offs_append]
      refine ⟨h.visited, ?_⟩
      have := @MarkedOffs.unmarked L d 0 _ _ hu hp.1
      simpa using this
    pending := by
      rw [insnsOf_append, lsum_append]
      have := hp.2
      push_cast
      exact this
    bound := h.bound }

theorem Seg.head_eq {sel : Layout → Option Nat} {L : Nat → Option Layout} {e : Option Nat}
    {xs : List Nat} {p : Option Nat} (h : Seg sel L e p xs) :
    p = match xs with
      | [] => e
      | i :: _ => some i := by
  cases xs with
  | nil => exact h
  | cons i rest => exact h.1

theorem Seg.head?_eq {sel : Layout → Option Nat} {L : Nat → Option Layout}
    {xs : List Nat} {p : Option Nat} (h : Seg sel L none p xs) : p = xs.head? := by
  cases xs with
  | nil => exact h
  | cons i rest => exact h.1

/-- A walk that ended at `p` ends at `n` once the link of its last record is turned to `n`
(or, when the walk is empty, once it starts at `n`). -/
theorem Seg.redirect_last {sel : Layout → Option Nat} {L L' : Nat → Option Layout}
    {e : Option Nat} {n : Nat} :
    ∀ {xs : List Nat} {s : Option Nat}, Seg sel L e s xs → xs.Nodup →
      (∀ j ∈ xs, ∃ l l', L j = some l ∧ L' j = some l' ∧
        sel l' = if xs.getLast? = some j then some n else sel l) →
      Seg sel L' (some n) (if xs = [] then some n else s) xs := by
  intro xs
  induction xs with
  | nil => intro s _ _ _; rfl
  | cons i rest ih =>
    intro s h hnd hL
    obtain ⟨hs, l, hl, hrest⟩ := h
    obtain ⟨l0, l', hl0, hl', hsel⟩ := hL i (List.mem_cons_self _ _)
    rw [hl] at hl0
    injection hl0 with hl0
    subst hl0
    simp only [List.cons_ne_nil, if_false]
    refine ⟨hs, l', hl', ?_⟩
    have hnd' := (List.nodup_cons.mp hnd).2
    cases rest with
    | nil =>
      simp only [List.getLast?_singleton, if_true] at hsel
      rw [hsel]
      rfl
    | cons j r2 =>
      have hne : ¬ ((i :: j :: r2).getLast? = some i) := by
        intro hlast
        have hmem : i ∈ j :: r2 := by
          rw [List.getLast?_cons_cons] at hlast
          exact List.mem_of_getLast?_eq_some hlast
        exact (List.nodup_cons.mp hnd).1 hmem
      rw [if_neg hne] at hsel
      rw [hsel]
      have := ih hrest hnd' (fun k hk => by
        obtain ⟨lk, lk', h1, h2, h3⟩ := hL k (List.mem_cons_of_mem _ hk)
        rw [List.getLast?_cons_cons] at h3
        exact ⟨lk, lk', h1, h2, h3⟩)
      simp only [List.cons_ne_nil, if_false] at this
      exact this

/-- The first record of a list takes a new record as its `prev`. -/
theorem PrevLinked.redirect_head {L L' : Nat → Option Layout} {pv pv' : Option Nat} :
    ∀ {ys : List Nat}, PrevLinked L pv ys → ys.Nodup →
      (∀ j ∈ ys, ∃ l l', L j = some l ∧ L' j = some l' ∧
        l'.prev = if ys.head? = some j then pv' else l.prev) →
      PrevLinked L' pv' ys := by
  intro ys h hnd hL
  cases ys with
  | nil => trivial
  | cons i rest =>
    obtain ⟨⟨l, hl, hp⟩, hrest⟩ := h
    obtain ⟨l0, l', hl0, hl', hprev⟩ := hL i (List.mem_cons_self _ _)
    simp only [List.head?_cons, if_true] at hprev
    refine ⟨⟨l', hl', hprev⟩, ?_⟩
    apply PrevLinked.prev_congr _ hrest
    intro j hj
    obtain ⟨lj, lj', hlj, hlj', hpj⟩ := hL j (List.mem_cons_of_mem _ hj)
    have hji : j ≠ i := by
      intro hji
      rw [hji] at hj
      exact (List.nodup_cons.mp hnd).1 hj
    have : ¬ ((i :: rest).head? = some j) := by
      simp only [List.head?_cons, Option.some.injEq]
      exact fun h => hji h.symm
    rw [if_neg this] at hpj
    rw [hlj, hlj']
    simp [hpj]

/-- What the invariant says at the node that the pass is about to visit. -/
theorem PassInv.at_node {L : Nat → Option Layout} {N : Nat} {fi ff : Option Nat} {d : Int}
    {p : Nat} {prev : Option Nat} {ma mbt : List (Nat × Bool)}
    (h : PassInv L N fi ff d (some p) prev ma ((p, true) :: mbt)) :
    ∃ l, L p = some l ∧
      Seg Layout.next L (some p) fi (insnsOf ma) ∧
      Seg Layout.next L none l.next (insnsOf mbt) ∧
      Seg Layout.pcrel_next L (some p) ff (chainOf ma) ∧
      Seg Layout.pcrel_next L none l.pcrel_next (chainOf mbt) ∧
      PrevLinked L none (insnsOf ma) ∧ l.prev = (insnsOf ma).getLast? ∧
      PrevLinked L (some p) (insnsOf mbt) ∧
      OffsetAt L d (lsum L (insnsOf ma)) p ∧
      MarkedOffs L d mbt (lsum L (insnsOf ma) + lsize L p) ∧
      (insnsOf ma ++ p :: insnsOf mbt).Nodup ∧
      (∀ i ∈ insnsOf ma ++ p :: insnsOf mbt, i < N) := by
  have hins := h.insns
  rw [insnsOf_append] at hins
  have hnd : (insnsOf ma ++ p :: insnsOf mbt).Nodup := Seg.seg_nodup hins
  have hsome := Seg.mem_some hins
  obtain ⟨mid, hi1, hi2⟩ := Seg.seg_append.mp hins
  obtain ⟨hmid, l, hl, hi3⟩ := hi2
  subst hmid
  have hch := h.chain
  rw [chainOf_append, chainOf_cons_true] at hch
  obtain ⟨mid, hc1, hc2⟩ := Seg.seg_append.mp hch
  obtain ⟨hmid, l2, hl2, hc3⟩ := hc2
  subst hmid
  rw [hl] at hl2
  injection hl2 with hl2
  subst hl2
  have hpv := h.prevs
  rw [insnsOf_append] at hpv
  obtain ⟨hp1, hp2⟩ := PrevLinked.prev_append.mp hpv
  obtain ⟨⟨l3, hl3, hp3⟩, hp4⟩ := hp2
  rw [hl] at hl3
  injection hl3 with hl3
  subst hl3
  have hp3' : l.prev = (insnsOf ma).getLast? := by
    rw [hp3]
    split
    · rename_i he
      rw [he]
      rfl
    · rfl
  obtain ⟨ho, hm⟩ := h.pending
  refine ⟨l, hl, hi1, hi3, hc1, hc3, hp1, hp3', hp4, ho rfl, hm, hnd, ?_⟩
  intro i hi
  obtain ⟨li, hli⟩ := hsome i hi
  by_contra hlt
  have := h.bound i (by omega)
  rw [this] at hli
  cases hli

/-! ## The rounds of a pass keep the invariant -/

theorem wrap_offset_mod (a : Nat) (d acc : Int) (h : ((a : Int) + d - acc) % 4294967296 = 0) :
    ((wrap32 (a + toU32 d) : Nat) : Int) % 4294967296 = acc % 4294967296 ∧
    wrap32 (a + toU32 d) < 4294967296 := by
  unfold wrap32 toU32
  omega

/-- A round that leaves the layout of its node as it is, up to its offset, or that elides
the node (`elide`: the node is flagged `is_nop`, its kind becomes `kFixupNone`, and the
pending adjustment is reduced by its size). -/
theorem PassInv.step_node {L L' : Nat → Option Layout} {N : Nat} {fi ff : Option Nat}
    {d : Int} {p : Nat} {prev : Option Nat} {ma mbt : List (Nat × Bool)} {l l' : Layout}
    (elide : Bool)
    (h : PassInv L N fi ff d (some p) prev ma ((p, true) :: mbt))
    (hl : L p = some l) (hL' : ∀ j, L' j = if j = p then some l' else L j)
    (hnext : l'.next = l.next) (hprev : l'.prev = l.prev)
    (hpcrel : l'.pcrel_next = l.pcrel_next) (hsize : l'.size = l.size)
    (hoff : l'.offset = wrap32 (l.offset + toU32 d))
    (hnop : l'.is_nop = (elide || l.is_nop))
    (hfix : l'.fixup = if elide then kFixupNone else l.fixup)
    (hkind : elide = true → l.fixup ≠ kFixupNone) :
    PassInv L' N fi ff (if elide then d - l.size else d) l.pcrel_next (some p)
      (ma ++ [(p, true)]) mbt := by
  obtain ⟨l0, hl0, hi1, hi3, hc1, hc3, hp1, hp3, hp4, ho, hm, hnd, hlt⟩ := h.at_node
  rw [hl] at hl0
  injection hl0 with hl0
  subst hl0
  have hpma : p ∉ insnsOf ma := by
    intro hmem
    have := List.nodup_append.mp hnd
    exact this.2.2 hmem (List.mem_cons_self _ _)
  have hpmb : p ∉ insnsOf mbt := by
    have := (List.nodup_append.mp hnd).2.1
    exact (List.nodup_cons.mp this).1
  have hLne : ∀ j, j ≠ p → L' j = L j := by
    intro j hj
    rw [hL', if_neg hj]
  have hLp : L' p = some l' := by rw [hL', if_pos rfl]
  have hLma : ∀ j ∈ insnsOf ma, L' j = L j := fun j hj =>
    hLne j (fun e => hpma (e ▸ hj))
  have hLmb : ∀ j ∈ insnsOf mbt, L' j = L j := fun j hj =>
    hLne j (fun e => hpmb (e ▸ hj))
  have hall : (ma ++ [(p, true)]) ++ mbt = ma ++ (p, true) :: mbt := by simp
  have hnopl : elide = true → l.is_nop = false := by
    intro he
    cases hn : l.is_nop with
    | false => rfl
    | true =>
      exfalso
      exact hkind he (h.inert p l (by simp) hl hn)
  have hsum : lsum L' (insnsOf ma) = lsum L (insnsOf ma) :=
    lsum_congr fun i hi => by unfold lsize; rw [hLma i hi]
  exact {
    insns := by
      rw [hall]
      apply Seg.seg_congr _ h.insns
      intro j _
      by_cases hj : j = p
      · rw [hj, hLp, hl]
        simp [hnext]
      · rw [hLne j hj]
    chain := by
      rw [hall]
      apply Seg.seg_congr _ h.chain
      intro j _
      by_cases hj : j = p
      · rw [hj, hLp, hl]
        simp [hpcrel]
      · rw [hLne j hj]
    cur_eq := Seg.head?_eq hc3
    prev_eq := by simp [chainOf]
    prevs := by
      rw [hall]
      apply PrevLinked.prev_congr _ h.prevs
      intro j _
      by_cases hj : j = p
      · rw [hj, hLp, hl]
        simp [hprev]
      · rw [hLne j hj]
    inert := by
      intro c lc hc hlc hn
      by_cases hj : c = p
      · subst hj
        rw [hLp] at hlc
        injection hlc with hlc
        subst hlc
        cases elide with
        | true => simpa using hfix
        | false =>
          simp only [Bool.false_or] at hnop
          simp only [Bool.false_eq_true, if_false] at hfix
          rw [hfix]
          exact h.inert c l (by simp) hl (by rw [← hnop]; exact hn)
      · rw [hLne c hj] at hlc
        exact h.inert c lc (by rw [hall] at hc; exact hc) hlc hn
    visited := by
      rw [MarkedOffs.offs_append]
      refine ⟨MarkedOffs.offs_congr (fun i hi => by rw [hLma i hi]) h.visited, ?_, trivial⟩
      intro _
      obtain ⟨l1, hl1, _, hmod⟩ := ho
      rw [hl] at hl1
      injection hl1 with hl1
      subst hl1
      have := wrap_offset_mod l.offset d _ hmod
      refine ⟨l', hLp, by rw [hoff]; exact this.2, ?_⟩
      rw [hoff, hsum]
      simp only [zero_add]
      omega
    pending := by
      have hcong : MarkedOffs L' d mbt (lsum L (insnsOf ma) + lsize L p) :=
        MarkedOffs.offs_congr (fun i hi => by rw [hLmb i hi]) hm
      rw [insnsOf_append, lsum_append, hsum]
      have e1 : insnsOf [(p, true)] = [p] := rfl
      rw [e1, lsum_cons, lsum_nil, Nat.add_zero]
      cases elide with
      | false =>
        simp only [Bool.false_or] at hnop
        have : lsize L' p = lsize L p := by
          unfold lsize
          rw [hLp, hl]
          simp [hnop, hsize]
        rw [this]
        push_cast
        simpa using hcong
      | true =>
        simp only [Bool.true_or] at hnop
        have h1 : lsize L' p = 0 := by
          unfold lsize
          rw [hLp]
          simp [hnop]
        have h2 : lsize L p = l.size := by
          unfold lsize
          rw [hl]
          simp [hnopl rfl]
        rw [h1]
        rw [h2] at hcong
        have := hcong.offs_shift (-(l.size : Int))
        simp only [if_true]
        have e2 : d + -(l.size : Int) = d - l.size := by ring
        have e3 : ((lsum L (insnsOf ma) : Nat) : Int) + (l.size : Int) + -(l.size : Int)
            = ((lsum L (insnsOf ma) + 0 : Nat) : Int) := by
          push_cast
          ring
        rw [e2, e3] at this
        exact this
    bound := by
      intro j hj
      have hp : p < N := hlt p (by simp)
      rw [hLne j (by omega)]
      exact h.bound j hj }

theorem widenedLayout_new (L : Nat → Option Layout) (n p : Nat) (l : Layout) (d : Int)
    (prev : Option Nat) :
    widenedLayout L n p l d prev n
      = some ⟨l.next, some p, l.pcrel_next, wrap32 (wrap32 (l.offset + toU32 d) + 4), false, 4,
          kFixupCondBranch⟩ := by
  simp [widenedLayout]

theorem widenedLayout_node (L : Nat → Option Layout) {n p : Nat} (l : Layout) (d : Int)
    (prev : Option Nat) (hpn : p ≠ n) :
    widenedLayout L n p l d prev p
      = some ⟨some n, l.prev, l.pcrel_next, wrap32 (l.offset + toU32 d), l.is_nop, 4,
          kFixupNone⟩ := by
  simp [widenedLayout, hpn]

theorem widenedLayout_next (L : Nat → Option Layout) {n p j : Nat} (l : Layout) (d : Int)
    (prev : Option Nat) (hn : j ≠ n) (hp : j ≠ p) :
    (widenedLayout L n p l d prev j).map Layout.next = (L j).map Layout.next := by
  unfold widenedLayout
  rw [if_neg hn, if_neg hp]
  split_ifs <;> cases L j <;> rfl

theorem widenedLayout_sizes (L : Nat → Option Layout) {n p j : Nat} (l : Layout) (d : Int)
    (prev : Option Nat) (hn : j ≠ n) (hp : j ≠ p) :
    (widenedLayout L n p l d prev j).map (fun x => (x.offset, x.is_nop, x.size))
      = (L j).map (fun x => (x.offset, x.is_nop, x.size)) := by
  unfold widenedLayout
  rw [if_neg hn, if_neg hp]
  split_ifs <;> cases L j <;> rfl

theorem widenedLayout_inert (L : Nat → Option Layout) {n p j : Nat} (l : Layout) (d : Int)
    (prev : Option Nat) (hn : j ≠ n) (hp : j ≠ p) :
    (widenedLayout L n p l d prev j).map (fun x => (x.is_nop, x.fixup))
      = (L j).map (fun x => (x.is_nop, x.fixup)) := by
  unfold widenedLayout
  rw [if_neg hn, if_neg hp]
  split_ifs <;> cases L j <;> rfl

theorem widenedLayout_prev (L : Nat → Option Layout) {n p j : Nat} (l : Layout) (d : Int)
    (prev : Option Nat) (hn : j ≠ n) (hp : j ≠ p) (hq : l.next ≠ some j) :
    (widenedLayout L n p l d prev j).map Layout.prev = (L j).map Layout.prev := by
  unfold widenedLayout
  rw [if_neg hn, if_neg hp, if_neg hq]
  split_ifs <;> cases L j <;> rfl

theorem widenedLayout_prev_next (L : Nat → Option Layout) {n p j : Nat} (l : Layout) (d : Int)
    (prev : Option Nat) (hn : j ≠ n) (hp : j ≠ p) (hq : l.next = some j) :
    (widenedLayout L n p l d prev j).map Layout.prev = (L j).map fun _ => some n := by
  unfold widenedLayout
  rw [if_neg hn, if_neg hp, if_pos hq]
  cases L j <;> rfl

theorem widenedLayout_pcrel (L : Nat → Option Layout) {n p j : Nat} (l : Layout) (d : Int)
    (prev : Option Nat) (hn : j ≠ n) (hp : j ≠ p) (hc : prev ≠ some j) :
    (widenedLayout L n p l d prev j).map Layout.pcrel_next = (L j).map Layout.pcrel_next := by
  unfold widenedLayout
  rw [if_neg hn, if_neg hp, if_neg hc]
  split_ifs <;> cases L j <;> rfl

theorem widenedLayout_pcrel_prev (L : Nat → Option Layout) {n p j : Nat} (l : Layout) (d : Int)
    (prev : Option Nat) (hn : j ≠ n) (hp : j ≠ p) (hq : l.next ≠ some j) (hc : prev = some j) :
    (widenedLayout L n p l d prev j).map Layout.pcrel_next = (L j).map fun _ => some n := by
  unfold widenedLayout
  rw [if_neg hn, if_neg hp, if_neg hq, if_pos hc]
  cases L j <;> rfl

theorem mem_widened_marked {c p n : Nat} {ma mbt : List (Nat × Bool)}
    (hc : (c, true) ∈ (ma ++ [(p, false), (n, true)]) ++ mbt) :
    (c, true) ∈ ma ∨ c = n ∨ (c, true) ∈ mbt := by
  simp only [List.mem_append, List.mem_cons, Prod.mk.injEq, Bool.true_eq_false, and_false,
    and_true, List.not_mem_nil, or_false, false_or] at hc
  tauto

theorem getLast?_mem_of_eq {α : Type} {xs : List α} {a : α} (h : xs.getLast? = some a) :
    a ∈ xs := List.mem_of_getLast?_eq_some h

/-- A round that replaces an out-of-range `tbz/tbnz` by `tst` and a conditional branch
keeps the invariant: the branch takes the place of the node in the chain, and the pending
adjustment grows by the eight bytes of the two instructions less the size of the node. -/
theorem PassInv.step_widen {L : Nat → Option Layout} {N : Nat} {fi ff : Option Nat}
    {d : Int} {p : Nat} {prev : Option Nat} {ma mbt : List (Nat × Bool)} {l : Layout}
    (h : PassInv L N fi ff d (some p) prev ma ((p, true) :: mbt))
    (hl : L p = some l) (hkind : l.fixup ≠ kFixupNone) :
    PassInv (widenedLayout L N p l d prev) (N + 1) fi (if prev = none then some N else ff)
      (d - l.size + 8) l.pcrel_next (some N) (ma ++ [(p, false), (N, true)]) mbt := by
  obtain ⟨l0, hl0, hi1, hi3, hc1, hc3, hp1, hp3, hp4, ho, hm, hnd, hlt⟩ := h.at_node
  rw [hl] at hl0
  injection hl0 with hl0
  subst hl0
  have hdis := (List.nodup_append.mp hnd).2.2
  have hnd2 := (List.nodup_append.mp hnd).2.1
  have hpma : p ∉ insnsOf ma := fun hmem => hdis hmem (List.mem_cons_self _ _)
  have hpmb : p ∉ insnsOf mbt := (List.nodup_cons.mp hnd2).1
  have hpN : p ≠ N := Nat.ne_of_lt (hlt p (by simp))
  have hNa : ∀ j ∈ insnsOf ma, j ≠ N := fun j hj => Nat.ne_of_lt (hlt j (by simp [hj]))
  have hNb : ∀ j ∈ insnsOf mbt, j ≠ N := fun j hj => Nat.ne_of_lt (hlt j (by simp [hj]))
  have hpa : ∀ j ∈ insnsOf ma, j ≠ p := fun j hj e => hpma (e ▸ hj)
  have hpb : ∀ j ∈ insnsOf mbt, j ≠ p := fun j hj e => hpmb (e ▸ hj)
  have hnext : l.next = (insnsOf mbt).head? := Seg.head?_eq hi3
  have hqa : ∀ j ∈ insnsOf ma, l.next ≠ some j := by
    intro j hj e
    rw [hnext] at e
    exact hdis hj (List.mem_cons_of_mem _ (List.mem_of_mem_head? e))
  have hprev : prev = (chainOf ma).getLast? := h.prev_eq
  have hcsub : ∀ j ∈ chainOf ma, j ∈ insnsOf ma := fun j hj =>
    mem_insnsOf_of_mem (mem_chainOf.mp hj)
  have hcb : ∀ j ∈ insnsOf mbt, prev ≠ some j := by
    intro j hj e
    rw [hprev] at e
    exact hdis (hcsub j (getLast?_mem_of_eq e)) (List.mem_cons_of_mem _ hj)
  have hnop : l.is_nop = false := by
    cases hn : l.is_nop with
    | false => rfl
    | true => exact absurd (h.inert p l (by simp) hl hn) hkind
  have hsizep : lsize L p = l.size := by
    unfold lsize
    rw [hl]
    simp [hnop]
  have hsizep' : lsize (widenedLayout L N p l d prev) p = 4 := by
    unfold lsize
    rw [widenedLayout_node L l d prev hpN]
    simp [hnop]
  have hsizeN : lsize (widenedLayout L N p l d prev) N = 4 := by
    unfold lsize
    rw [widenedLayout_new]
    simp
  have hsum : lsum (widenedLayout L N p l d prev) (insnsOf ma) = lsum L (insnsOf ma) :=
    lsum_congr3 fun i hi => widenedLayout_sizes L l d prev (hNa i hi) (hpa i hi)
  have hall : insnsOf ((ma ++ [(p, false), (N, true)]) ++ mbt)
      = insnsOf ma ++ (p :: N :: insnsOf mbt) := by
    simp [insnsOf]
  have hallc : chainOf ((ma ++ [(p, false), (N, true)]) ++ mbt)
      = chainOf ma ++ (N :: chainOf mbt) := by
    simp [chainOf]
  exact {
    insns := by
      rw [hall, Seg.seg_append]
      refine ⟨some p, Seg.seg_congr (fun i hi =>
        widenedLayout_next L l d prev (hNa i hi) (hpa i hi)) hi1, rfl, _,
        widenedLayout_node L l d prev hpN, rfl, _, widenedLayout_new L N p l d prev, ?_⟩
      exact Seg.seg_congr (fun i hi => widenedLayout_next L l d prev (hNb i hi) (hpb i hi)) hi3
    chain := by
      rw [hallc, Seg.seg_append]
      refine ⟨some N, ?_, rfl, _, widenedLayout_new L N p l d prev, ?_⟩
      · have hndc : (chainOf ma).Nodup := Seg.seg_nodup (Seg.seg_append.mpr ⟨_, hc1,
          (show Seg Layout.pcrel_next L none (some p) (p :: chainOf mbt) from
            ⟨rfl, l, hl, hc3⟩)⟩) |>.sublist (List.sublist_append_left _ _)
        have := @Seg.redirect_last Layout.pcrel_next L (widenedLayout L N p l d prev) (some p) N _ _ hc1 hndc
          (by
            intro j hj
            obtain ⟨lj, hlj⟩ := Seg.mem_some hc1 j hj
            have hja := hcsub j hj
            by_cases hc : prev = some j
            · have e := widenedLayout_pcrel_prev L l d prev (hNa j hja) (hpa j hja)
                (hqa j hja) hc
              rw [hlj] at e
              cases hw : widenedLayout L N p l d prev j with
              | none => rw [hw] at e; cases e
              | some l' =>
                rw [hw] at e
                refine ⟨lj, l', hlj, rfl, ?_⟩
                rw [← hprev, if_pos hc]
                simpa using e
            · have e := widenedLayout_pcrel L l d prev (hNa j hja) (hpa j hja) hc
              rw [hlj] at e
              cases hw : widenedLayout L N p l d prev j with
              | none => rw [hw] at e; cases e
              | some l' =>
                rw [hw] at e
                refine ⟨lj, l', hlj, rfl, ?_⟩
                rw [← hprev, if_neg hc]
                simpa using e)
        have e2 : (if chainOf ma = [] then some N else ff)
            = (if prev = none then some N else ff) := by
          rw [hprev]
          simp [List.getLast?_eq_none_iff]
        rw [← e2]
        exact this
      · exact Seg.seg_congr (fun i hi => by
          have hib := mem_insnsOf_of_mem (mem_chainOf.mp hi)
          exact widenedLayout_pcrel L l d prev (hNb i hib) (hpb i hib) (hcb i hib)) hc3
    cur_eq := Seg.head?_eq hc3
    prev_eq := by simp [chainOf]
    prevs := by
      rw [hall, PrevLinked.prev_append]
      refine ⟨PrevLinked.prev_congr (fun i hi =>
        widenedLayout_prev L l d prev (hNa i hi) (hpa i hi) (hqa i hi)) hp1,
        ⟨_, widenedLayout_node L l d prev hpN, ?_⟩,
        ⟨_, widenedLayout_new L N p l d prev, rfl⟩, ?_⟩
      · show l.prev = _
        rw [hp3]
        cases hma : insnsOf ma with
        | nil => simp
        | cons a as => simp
      · apply PrevLinked.redirect_head hp4 (List.nodup_cons.mp hnd2).2
        intro j hj
        obtain ⟨lj, hlj⟩ := Seg.mem_some hi3 j hj
        by_cases hq : l.next = some j
        · have e := widenedLayout_prev_next L l d prev (hNb j hj) (hpb j hj) hq
          rw [hlj] at e
          cases hw : widenedLayout L N p l d prev j with
          | none => rw [hw] at e; cases e
          | some l' =>
            rw [hw] at e
            refine ⟨lj, l', hlj, rfl, ?_⟩
            rw [← hnext, if_pos hq]
            simpa using e
        · have e := widenedLayout_prev L l d prev (hNb j hj) (hpb j hj) hq
          rw [hlj] at e
          cases hw : widenedLayout L N p l d prev j with
          | none => rw [hw] at e; cases e
          | some l' =>
            rw [hw] at e
            refine ⟨lj, l', hlj, rfl, ?_⟩
            rw [← hnext, if_neg hq]
            simpa using e
    inert := by
      intro c lc hc hlc hn
      by_cases hcN : c = N
      · subst hcN
        rw [widenedLayout_new] at hlc
        injection hlc with hlc
        subst hlc
        cases hn
      · have hc3 := mem_widened_marked hc
        have hcp : c ≠ p := by
          intro e
          subst e
          rcases hc3 with hc | hc | hc
          · exact hpma (mem_insnsOf_of_mem hc)
          · exact hcN hc
          · exact hpmb (mem_insnsOf_of_mem hc)
        have hmem : (c, true) ∈ ma ++ (p, true) :: mbt := by
          simp only [List.mem_append, List.mem_cons, Prod.mk.injEq, and_true]
          rcases hc3 with hc | hc | hc
          · exact Or.inl hc
          · exact absurd hc hcN
          · exact Or.inr (Or.inr hc)
        have e := widenedLayout_inert L l d prev hcN hcp
        rw [hlc] at e
        cases hLc : L c with
        | none => rw [hLc] at e; cases e
        | some lc0 =>
          rw [hLc] at e
          simp only [Option.map_some', Option.some.injEq, Prod.mk.injEq] at e
          rw [e.2]
          exact h.inert c lc0 hmem hLc (by rw [← e.1]; exact hn)
    visited := by
      rw [MarkedOffs.offs_append]
      refine ⟨MarkedOffs.offs_congr (fun i hi =>
        widenedLayout_sizes L l d prev (hNa i hi) (hpa i hi)) h.visited, ?_⟩
      simp only [MarkedOffs, Bool.false_eq_true, false_implies, true_and, forall_const,
        and_true]
      obtain ⟨l1, hl1, _, hmod⟩ := ho
      rw [hl] at hl1
      injection hl1 with hl1
      subst hl1
      have hw := wrap_offset_mod l.offset d _ hmod
      refine ⟨_, widenedLayout_new L N p l d prev, ?_, ?_⟩
      · show wrap32 _ < _
        unfold wrap32
        omega
      · rw [hsum, hsizep']
        show (((wrap32 (wrap32 (l.offset + toU32 d) + 4) : Nat) : Int) + 0
          - (0 + ((lsum L (insnsOf ma) : Nat) : Int) + ((4 : Nat) : Int))) % 4294967296 = 0
        generalize wrap32 (l.offset + toU32 d) = w at hw
        unfold wrap32
        push_cast
        omega
    pending := by
      have hcong : MarkedOffs (widenedLayout L N p l d prev) d mbt
          (lsum L (insnsOf ma) + lsize L p) :=
        MarkedOffs.offs_congr (fun i hi =>
          widenedLayout_sizes L l d prev (hNb i hi) (hpb i hi)) hm
      have e1 : insnsOf (ma ++ [(p, false), (N, true)]) = insnsOf ma ++ [p, N] := by
        simp [insnsOf]
      rw [e1, lsum_append, hsum, lsum_cons, lsum_cons, lsum_nil, hsizep', hsizeN]
      rw [hsizep] at hcong
      have := hcong.offs_shift (8 - (l.size : Int))
      have e2 : d + (8 - (l.size : Int)) = d - l.size + 8 := by ring
      have e3 : ((lsum L (insnsOf ma) : Nat) : Int) + (l.size : Int) + (8 - (l.size : Int))
          = ((lsum L (insnsOf ma) + (4 + (4 + 0)) : Nat) : Int) := by
        push_cast
        ring
      rw [e2, e3] at this
      exact this
    bound := by
      intro j hj
      have hp : p < N := hlt p (by simp)
      unfold widenedLayout
      have hLj : L j = none := h.bound j (by omega)
      rw [if_neg (by omega), if_neg (by omega), hLj]
      split_ifs <;> rfl }

theorem nopInsertedLayout_new (L : Nat → Option Layout) (n p : Nat) (l : Layout) (d : Int) :
    nopInsertedLayout L n p l d n
      = some ⟨some p, l.prev, none, wrap32 (l.offset + toU32 d), false, 4, kFixupNone⟩ := by
  simp [nopInsertedLayout]

theorem nopInsertedLayout_node (L : Nat → Option Layout) {n p : Nat} (l : Layout) (d : Int)
    (hpn : p ≠ n) :
    nopInsertedLayout L n p l d p
      = some { l with prev := some n, offset := wrap32 (wrap32 (l.offset + toU32 d) + 4) } := by
  simp [nopInsertedLayout, hpn]

theorem nopInsertedLayout_prev (L : Nat → Option Layout) {n p j : Nat} (l : Layout) (d : Int)
    (hn : j ≠ n) (hp : j ≠ p) :
    (nopInsertedLayout L n p l d j).map Layout.prev = (L j).map Layout.prev := by
  unfold nopInsertedLayout
  rw [if_neg hn, if_neg hp]
  split_ifs <;> cases L j <;> rfl

theorem nopInsertedLayout_pcrel (L : Nat → Option Layout) {n p j : Nat} (l : Layout) (d : Int)
    (hn : j ≠ n) (hp : j ≠ p) :
    (nopInsertedLayout L n p l d j).map Layout.pcrel_next = (L j).map Layout.pcrel_next := by
  unfold nopInsertedLayout
  rw [if_neg hn, if_neg hp]
  split_ifs <;> cases L j <;> rfl

theorem nopInsertedLayout_sizes (L : Nat → Option Layout) {n p j : Nat} (l : Layout) (d : Int)
    (hn : j ≠ n) (hp : j ≠ p) :
    (nopInsertedLayout L n p l d j).map (fun x => (x.offset, x.is_nop, x.size))
      = (L j).map (fun x => (x.offset, x.is_nop, x.size)) := by
  unfold nopInsertedLayout
  rw [if_neg hn, if_neg hp]
  split_ifs <;> cases L j <;> rfl

theorem nopInsertedLayout_inert (L : Nat → Option Layout) {n p j : Nat} (l : Layout) (d : Int)
    (hn : j ≠ n) (hp : j ≠ p) :
    (nopInsertedLayout L n p l d j).map (fun x => (x.is_nop, x.fixup))
      = (L j).map (fun x => (x.is_nop, x.fixup)) := by
  unfold nopInsertedLayout
  rw [if_neg hn, if_neg hp]
  split_ifs <;> cases L j <;> rfl

theorem nopInsertedLayout_next (L : Nat → Option Layout) {n p j : Nat} (l : Layout) (d : Int)
    (hn : j ≠ n) (hp : j ≠ p) (hq : l.prev ≠ some j) :
    (nopInsertedLayout L n p l d j).map Layout.next = (L j).map Layout.next := by
  unfold nopInsertedLayout
  rw [if_neg hn, if_neg hp, if_neg hq]

theorem nopInsertedLayout_next_prev (L : Nat → Option Layout) {n p j : Nat} (l : Layout)
    (d : Int) (hn : j ≠ n) (hp : j ≠ p) (hq : l.prev = some j) :
    (nopInsertedLayout L n p l d j).map Layout.next = (L j).map fun _ => some n := by
  unfold nopInsertedLayout
  rw [if_neg hn, if_neg hp, if_pos hq]
  cases L j <;> rfl

theorem mem_nop_marked {c p n : Nat} {ma mbt : List (Nat × Bool)}
    (hc : (c, true) ∈ (ma ++ [(n, false), (p, true)]) ++ mbt) :
    (c, true) ∈ ma ++ (p, true) :: mbt := by
  simp only [List.mem_append, List.mem_cons, Prod.mk.injEq, Bool.true_eq_false, and_false,
    and_true, List.not_mem_nil, or_false, false_or] at hc
  simp only [List.mem_append, List.mem_cons, Prod.mk.injEq, and_true]
  tauto

/-- A round that puts a `nop` before a multiply-accumulate keeps the invariant: the `nop`
stands immediately before the node, at the offset that the node had, and the pending
adjustment grows by its four bytes. -/
theorem PassInv.step_nop {L : Nat → Option Layout} {N : Nat} {fi ff : Option Nat}
    {d : Int} {p q : Nat} {prev : Option Nat} {ma mbt : List (Nat × Bool)} {l : Layout}
    (h : PassInv L N fi ff d (some p) prev ma ((p, true) :: mbt))
    (hl : L p = some l) (hq : l.prev = some q) :
    PassInv (nopInsertedLayout L N p l d) (N + 1) fi ff (d + 4) l.pcrel_next (some p)
      (ma ++ [(N, false), (p, true)]) mbt := by
  obtain ⟨l0, hl0, hi1, hi3, hc1, hc3, hp1, hp3, hp4, ho, hm, hnd, hlt⟩ := h.at_node
  rw [hl] at hl0
  injection hl0 with hl0
  subst hl0
  have hdis := (List.nodup_append.mp hnd).2.2
  have hnd1 := (List.nodup_append.mp hnd).1
  have hnd2 := (List.nodup_append.mp hnd).2.1
  have hpma : p ∉ insnsOf ma := fun hmem => hdis hmem (List.mem_cons_self _ _)
  have hpmb : p ∉ insnsOf mbt := (List.nodup_cons.mp hnd2).1
  have hpN : p ≠ N := Nat.ne_of_lt (hlt p (by simp))
  have hNa : ∀ j ∈ insnsOf ma, j ≠ N := fun j hj => Nat.ne_of_lt (hlt j (by simp [hj]))
  have hNb : ∀ j ∈ insnsOf mbt, j ≠ N := fun j hj => Nat.ne_of_lt (hlt j (by simp [hj]))
  have hpa : ∀ j ∈ insnsOf ma, j ≠ p := fun j hj e => hpma (e ▸ hj)
  have hpb : ∀ j ∈ insnsOf mbt, j ≠ p := fun j hj e => hpmb (e ▸ hj)
  have hqb : ∀ j ∈ insnsOf mbt, l.prev ≠ some j := by
    intro j hj e
    rw [hp3] at e
    exact hdis (getLast?_mem_of_eq e) (List.mem_cons_of_mem _ hj)
  have hne : insnsOf ma ≠ [] := by
    intro e
    rw [hp3, e] at hq
    cases hq
  have hsizep : lsize (nopInsertedLayout L N p l d) p = lsize L p := by
    unfold lsize
    rw [nopInsertedLayout_node L l d hpN, hl]
  have hsizeN : lsize (nopInsertedLayout L N p l d) N = 4 := by
    unfold lsize
    rw [nopInsertedLayout_new]
    simp
  have hsum : lsum (nopInsertedLayout L N p l d) (insnsOf ma) = lsum L (insnsOf ma) :=
    lsum_congr3 fun i hi => nopInsertedLayout_sizes L l d (hNa i hi) (hpa i hi)
  have hall : insnsOf ((ma ++ [(N, false), (p, true)]) ++ mbt)
      = insnsOf ma ++ (N :: p :: insnsOf mbt) := by
    simp [insnsOf]
  have hallc : chainOf ((ma ++ [(N, false), (p, true)]) ++ mbt)
      = chainOf (ma ++ (p, true) :: mbt) := by
    simp [chainOf]
  exact {
    insns := by
      rw [hall, Seg.seg_append]
      refine ⟨some N, ?_, rfl, _, nopInsertedLayout_new L N p l d, rfl, _,
        nopInsertedLayout_node L l d hpN, ?_⟩
      · have := @Seg.redirect_last Layout.next L (nopInsertedLayout L N p l d) (some p) N _ _ hi1 hnd1
          (by
            intro j hj
            obtain ⟨lj, hlj⟩ := Seg.mem_some hi1 j hj
            by_cases hc : l.prev = some j
            · have e := nopInsertedLayout_next_prev L l d (hNa j hj) (hpa j hj) hc
              rw [hlj] at e
              cases hw : nopInsertedLayout L N p l d j with
              | none => rw [hw] at e; cases e
              | some l' =>
                rw [hw] at e
                refine ⟨lj, l', hlj, rfl, ?_⟩
                rw [← hp3, if_pos hc]
                simpa using e
            · have e := nopInsertedLayout_next L l d (hNa j hj) (hpa j hj) hc
              rw [hlj] at e
              cases hw : nopInsertedLayout L N p l d j with
              | none => rw [hw] at e; cases e
              | some l' =>
                rw [hw] at e
                refine ⟨lj, l', hlj, rfl, ?_⟩
                rw [← hp3, if_neg hc]
                simpa using e)
        rw [if_neg hne] at this
        exact this
      · exact Seg.seg_congr (fun i hi =>
          nopInsertedLayout_next L l d (hNb i hi) (hpb i hi) (hqb i hi)) hi3
    chain := by
      rw [hallc]
      apply Seg.seg_congr _ h.chain
      intro j hj
      have hjm : j ∈ insnsOf (ma ++ (p, true) :: mbt) :=
        mem_insnsOf_of_mem (mem_chainOf.mp hj)
      have hjN : j ≠ N := Nat.ne_of_lt (hlt j (by simpa [insnsOf] using hjm))
      by_cases hjp : j = p
      · rw [hjp, nopInsertedLayout_node L l d hpN, hl]
        rfl
      · exact nopInsertedLayout_pcrel L l d hjN hjp
    cur_eq := Seg.head?_eq hc3
    prev_eq := by simp [chainOf]
    prevs := by
      rw [hall, PrevLinked.prev_append]
      refine ⟨PrevLinked.prev_congr (fun i hi =>
        nopInsertedLayout_prev L l d (hNa i hi) (hpa i hi)) hp1,
        ⟨_, nopInsertedLayout_new L N p l d, ?_⟩,
        ⟨_, nopInsertedLayout_node L l d hpN, rfl⟩, ?_⟩
      · show l.prev = _
        rw [hp3, if_neg hne]
      · exact PrevLinked.prev_congr (fun i hi =>
          nopInsertedLayout_prev L l d (hNb i hi) (hpb i hi)) hp4
    inert := by
      intro c lc hc hlc hn
      have hmem := mem_nop_marked hc
      have hcm : c ∈ insnsOf (ma ++ (p, true) :: mbt) := mem_insnsOf_of_mem hmem
      have hcN : c ≠ N := Nat.ne_of_lt (hlt c (by simpa [insnsOf] using hcm))
      by_cases hcp : c = p
      · subst hcp
        rw [nopInsertedLayout_node L l d hpN] at hlc
        injection hlc with hlc
        subst hlc
        exact h.inert c l hmem hl hn
      · have e := nopInsertedLayout_inert L l d hcN hcp
        rw [hlc] at e
        cases hLc : L c with
        | none => rw [hLc] at e; cases e
        | some lc0 =>
          rw [hLc] at e
          simp only [Option.map_some', Option.some.injEq, Prod.mk.injEq] at e
          rw [e.2]
          exact h.inert c lc0 hmem hLc (by rw [← e.1]; exact hn)
    visited := by
      rw [MarkedOffs.offs_append]
      refine ⟨MarkedOffs.offs_congr (fun i hi =>
        nopInsertedLayout_sizes L l d (hNa i hi) (hpa i hi)) h.visited, ?_⟩
      simp only [MarkedOffs, Bool.false_eq_true, false_implies, true_and, forall_const,
        and_true]
      obtain ⟨l1, hl1, _, hmod⟩ := ho
      rw [hl] at hl1
      injection hl1 with hl1
      subst hl1
      have hw := wrap_offset_mod l.offset d _ hmod
      refine ⟨_, nopInsertedLayout_node L l d hpN, ?_, ?_⟩
      · show wrap32 _ < _
        unfold wrap32
        omega
      · rw [hsum, hsizeN]
        show (((wrap32 (wrap32 (l.offset + toU32 d) + 4) : Nat) : Int) + 0
          - (0 + ((lsum L (insnsOf ma) : Nat) : Int) + ((4 : Nat) : Int))) % 4294967296 = 0
        generalize wrap32 (l.offset + toU32 d) = w at hw
        unfold wrap32
        push_cast
        omega
    pending := by
      have hcong : MarkedOffs (nopInsertedLayout L N p l d) d mbt
          (lsum L (insnsOf ma) + lsize L p) :=
        MarkedOffs.offs_congr (fun i hi =>
          nopInsertedLayout_sizes L l d (hNb i hi) (hpb i hi)) hm
      have e1 : insnsOf (ma ++ [(N, false), (p, true)]) = insnsOf ma ++ [N, p] := by
        simp [insnsOf]
      rw [e1, lsum_append, hsum, lsum_cons, lsum_cons, lsum_nil, hsizep, hsizeN]
      have := hcong.offs_shift 4
      have e3 : ((lsum L (insnsOf ma) : Nat) : Int) + (lsize L p : Int) + 4
          = ((lsum L (insnsOf ma) + (4 + (lsize L p + 0)) : Nat) : Int) := by
        push_cast
        ring
      rw [e3] at this
      exact this
    bound := by
      intro j hj
      have hp : p < N := hlt p (by simp)
      unfold nopInsertedLayout
      have hLj : L j = none := h.bound j (by omega)
      rw [if_neg (by omega), if_neg (by omega), hLj]
      split_ifs <;> rfl }

/-! ## The effect of a round on the layout -/

theorem tbxzNarrowed_layout (env : Env) (r : LIR) : (tbxzNarrowed env r).layout = r.layout := by
  unfold tbxzNarrowed
  split_ifs <;> rfl

/-- The four effects that the `switch` of a round can have on the arena: it changes the
visited record in members that the layout does not depend on; it elides the record; it
replaces it by `tst` and a conditional branch; or it puts a `nop` before it. -/
theorem fixupSwitch_cases {env : Env} {fuel generation : Nat} {m : Mir2Lir}
    {loc : FixupLocals} {p : Nat} {r : LIR} {res : Mir2Lir × FixupLocals × Bool}
    (hr : m.lirs[p]? = some r)
    (h : fixupSwitch env fuel generation m loc p r.flags.fixup = .ok res)
    (hprev : loc.prev_lir ≠ some m.lirs.length) :
    (∃ r1, r1.layout = r.layout ∧ res = ({ m with lirs := m.lirs.set p r1 }, loc, false)) ∨
    (∃ r1, r.flags.fixup ≠ kFixupNone ∧
      r1.layout = { r.layout with is_nop := true, fixup := kFixupNone } ∧
      res = ({ m with lirs := m.lirs.set p r1 },
        { loc with offset_adjustment := loc.offset_adjustment - r.flags.size,
                   res := .kRetryAll }, false)) ∨
    (r.flags.fixup ≠ kFixupNone ∧ ∃ rN, rN.layout = r.layout ∧
      res = ({ m with
               lirs := widenedArena env generation loc.prev_lir p r.opcode
                 (m.lirs.set p rN) rN,
               first_fixup_ :=
                 if loc.prev_lir = none then some m.lirs.length else m.first_fixup_ },
        { offset_adjustment := loc.offset_adjustment - r.flags.size + 8,
          res := .kRetryAll, prev_lir := some m.lirs.length, lir := r.pcrel_next }, true)) ∨
    (∃ q, r.prev = some q ∧
      res = ({ m with lirs := nopInsertedArena m.lirs p r },
        { loc with offset_adjustment := loc.offset_adjustment + 4, res := .kRetryAll },
        false)) := by
  have hself : ({ m with lirs := m.lirs.set p r } : Mir2Lir) = m := by
    rw [set_self_of_some hr]
  cases hk : r.flags.fixup <;> rw [hk] at h
  case kFixupNone =>
    left
    refine ⟨r, rfl, ?_⟩
    rw [hself]
    simp only [fixupSwitch, pure, Except.pure] at h
    injection h with h
    exact h.symm
  case kFixupLabel =>
    left
    refine ⟨r, rfl, ?_⟩
    rw [hself]
    simp only [fixupSwitch, pure, Except.pure] at h
    injection h with h
    exact h.symm
  case kFixupVLoad =>
    left
    refine ⟨r, rfl, ?_⟩
    rw [hself]
    simp only [fixupSwitch, pure, Except.pure] at h
    injection h with h
    exact h.symm
  case kFixupOther =>
    simp only [fixupSwitch, throw, throwThe, MonadExceptOf.throw] at h
    cases h
  case kFixupT1Branch =>
    simp only [fixupSwitch] at h
    obtain ⟨a, h1, h2⟩ := bind_ok h
    simp only [pure, Except.pure] at h2
    injection h2 with h2
    subst h2
    cases hd : fixupDelta env m.lirs r loc.offset_adjustment with
    | error e =>
      exfalso
      unfold fixupT1Branch at h1
      simp only [getLIR_some hr, bind, Except.bind, hd] at h1
      cases h1
    | ok d =>
      rw [fixupT1Branch_eq env m loc p r d hr hd] at h1
      split at h1
      · split at h1
        · right
          left
          injection h1 with h1
          subst h1
          exact ⟨{ r with operands := r.operands.set 0 (asr d 2),
                          flags := { r.flags with is_nop := true, fixup := kFixupNone } },
            by simp [hk], rfl, rfl⟩
        · left
          injection h1 with h1
          subst h1
          exact ⟨{ r with operands := r.operands.set 0 (asr d 2) }, rfl, rfl⟩
      · cases h1
  case kFixupLoad =>
    simp only [fixupSwitch] at h
    obtain ⟨a, h1, h2⟩ := bind_ok h
    simp only [pure, Except.pure] at h2
    injection h2 with h2
    subst h2
    cases hd : fixupDelta env m.lirs r loc.offset_adjustment with
    | error e =>
      exfalso
      unfold fixupCondBranch at h1
      simp only [getLIR_some hr, bind, Except.bind, hd] at h1
      cases h1
    | ok d =>
      rw [fixupCondBranch_eq env m loc p r d hr hd] at h1
      split at h1
      · left
        injection h1 with h1
        subst h1
        exact ⟨{ r with operands := r.operands.set 1 (asr d 2) }, rfl, rfl⟩
      · cases h1
  case kFixupCBxZ =>
    simp only [fixupSwitch] at h
    obtain ⟨a, h1, h2⟩ := bind_ok h
    simp only [pure, Except.pure] at h2
    injection h2 with h2
    subst h2
    cases hd : fixupDelta env m.lirs r loc.offset_adjustment with
    | error e =>
      exfalso
      unfold fixupCondBranch at h1
      simp only [getLIR_some hr, bind, Except.bind, hd] at h1
      cases h1
    | ok d =>
      rw [fixupCondBranch_eq env m loc p r d hr hd] at h1
      split at h1
      · left
        injection h1 with h1
        subst h1
        exact ⟨{ r with operands := r.operands.set 1 (asr d 2) }, rfl, rfl⟩
      · cases h1
  case kFixupCondBranch =>
    simp only [fixupSwitch] at h
    obtain ⟨a, h1, h2⟩ := bind_ok h
    simp only [pure, Except.pure] at h2
    injection h2 with h2
    subst h2
    cases hd : fixupDelta env m.lirs r loc.offset_adjustment with
    | error e =>
      exfalso
      unfold fixupCondBranch at h1
      simp only [getLIR_some hr, bind, Except.bind, hd] at h1
      cases h1
    | ok d =>
      rw [fixupCondBranch_eq env m loc p r d hr hd] at h1
      split at h1
      · left
        injection h1 with h1
        subst h1
        exact ⟨{ r with operands := r.operands.set 1 (asr d 2) }, rfl, rfl⟩
      · cases h1
  case kFixupAdr =>
    simp only [fixupSwitch] at h
    obtain ⟨a, h1, h2⟩ := bind_ok h
    simp only [pure, Except.pure] at h2
    injection h2 with h2
    subst h2
    cases hd : adrDelta m r loc.offset_adjustment with
    | error e =>
      exfalso
      unfold fixupAdr at h1
      simp only [getLIR_some hr, bind, Except.bind, hd] at h1
      cases h1
    | ok d =>
      rw [fixupAdr_eq m loc p r d hr hd] at h1
      split at h1
      · left
        injection h1 with h1
        subst h1
        exact ⟨{ r with operands := r.operands.set 1 d }, rfl, rfl⟩
      · cases h1
  case kFixupTBxZ =>
    simp only [fixupSwitch] at h
    obtain ⟨m1, loc1, c⟩ := res
    obtain ⟨d, _, hcase⟩ := fixupTBxZ_ok h hr hprev
    rcases hcase with ⟨_, hm1, hloc1, hc⟩ | ⟨_, hm1, hloc1, hc, _, _⟩
    · left
      refine ⟨{ tbxzNarrowed env r with
                operands := (tbxzNarrowed env r).operands.set 2 (asr d 2) }, ?_,
        by rw [hm1, hloc1, hc]⟩
      exact tbxzNarrowed_layout env r
    · right
      right
      left
      refine ⟨by simp [hk], tbxzNarrowed env r, tbxzNarrowed_layout env r, ?_⟩
      rw [hm1, hloc1, hc]
      have e1 : (EncodingMap kA64Tst2rl).size = 4 := by decide
      have e2 : (EncodingMap kA64B2ct).size = 4 := by decide
      rw [e1, e2]
      have e3 : loc.offset_adjustment - (r.flags.size : Int) + ((4 : Nat) : Int) + ((4 : Nat) : Int)
          = loc.offset_adjustment - r.flags.size + 8 := by
        push_cast
        ring
      rw [e3]
  case kFixupA53Erratum835769 =>
    simp only [fixupSwitch] at h
    obtain ⟨a, h1, h2⟩ := bind_ok h
    simp only [pure, Except.pure] at h2
    injection h2 with h2
    subst h2
    obtain ⟨m1, loc1⟩ := a
    rcases fixupA53_ok h1 hr with ⟨hm1, hloc1, _⟩ | ⟨_, _, ⟨q, prev, op, hq, _⟩, hm1, hloc1, _⟩
    · left
      refine ⟨r, rfl, ?_⟩
      rw [hself, hm1, hloc1]
    · right
      right
      right
      cases hp : r.prev with
      | none =>
        rw [hp] at hq
        cases fuel <;> simp [prevEmittingFrom] at hq
      | some q0 =>
        refine ⟨q0, rfl, ?_⟩
        rw [hm1, hloc1]
        have e1 : (EncodingMap kA64Nop0).size = 4 := by decide
        rw [e1]
        rfl

/-! ## The layouts of the rewritten arenas -/

theorem layoutOf_set {lirs : List LIR} {p : Nat} {r : LIR} (hr : lirs[p]? = some r)
    (r1 : LIR) (j : Nat) :
    layoutOf (lirs.set p r1) j = if j = p then some r1.layout else layoutOf lirs j := by
  unfold layoutOf
  by_cases hj : j = p
  · subst hj
    rw [if_pos rfl, getElem?_set_self_of_some hr]
    rfl
  · rw [if_neg hj, List.getElem?_set_ne (Ne.symm hj)]

theorem widenedLayout_congr {L L' : Nat → Option Layout} (n p : Nat) (l : Layout) (d : Int)
    (prev : Option Nat) (h : ∀ j, j ≠ p → L' j = L j) :
    widenedLayout L' n p l d prev = widenedLayout L n p l d prev := by
  funext j
  unfold widenedLayout
  by_cases hp : j = p
  · simp [hp]
  · rw [h j hp]

theorem nopInsertedLayout_congr {L L' : Nat → Option Layout} (n p : Nat) (l : Layout)
    (d : Int) (h : ∀ j, j ≠ p → L' j = L j) :
    nopInsertedLayout L' n p l d = nopInsertedLayout L n p l d := by
  funext j
  unfold nopInsertedLayout
  by_cases hp : j = p
  · simp [hp]
  · rw [h j hp]

theorem getElem?_append_self (lirs : List LIR) (x : LIR) :
    (lirs ++ [x])[lirs.length]? = some x := by
  simp

theorem getElem?_append_lt {lirs : List LIR} (x : LIR) {j : Nat} (h : j < lirs.length) :
    (lirs ++ [x])[j]? = lirs[j]? := by
  rw [List.getElem?_append_left h]

theorem getElem?_append_gt {lirs : List LIR} (x : LIR) {j : Nat} (h : lirs.length < j) :
    (lirs ++ [x])[j]? = none := by
  rw [List.getElem?_eq_none]
  simp
  omega

theorem getElem?_updAt_append (lirs : List LIR) (p : Nat) (f : LIR → LIR) (x : LIR) (j : Nat) :
    (updAt lirs p f ++ [x])[j]?
      = if j = lirs.length then some x else if j = p then (lirs[j]?).map f else lirs[j]? := by
  rcases Nat.lt_trichotomy j lirs.length with h | h | h
  · rw [List.getElem?_append_left (by rw [length_updAt]; exact h), getElem?_updAt,
      if_neg (Nat.ne_of_lt h)]
  · subst h
    rw [if_pos rfl]
    have := getElem?_append_new (updAt lirs p f) x
    rw [length_updAt] at this
    exact this
  · rw [if_neg (Nat.ne_of_gt h), List.getElem?_eq_none (by simp [length_updAt]; omega),
      List.getElem?_eq_none (Nat.le_of_lt h)]
    simp

/-- The layout of the arena after the rewriting of a `tbz/tbnz`. -/
theorem layoutOf_widenedArena (env : Env) (generation : Nat) (prev : Option Nat) {p : Nat}
    (opcode : Opcode) {lirs : List LIR} {r : LIR} (l : Layout) (d : Int)
    (hr : lirs[p]? = some r)
    (hl : r.layout = { l with offset := wrap32 (l.offset + toU32 d) })
    (hnp : l.next ≠ some p) (hnn : l.next ≠ some lirs.length)
    (hcp : prev ≠ some p) (hcn : prev ≠ some lirs.length)
    (hnc : ∀ j, l.next = some j → prev ≠ some j) :
    layoutOf (widenedArena env generation prev p opcode lirs r)
      = widenedLayout (layoutOf lirs) lirs.length p l d prev := by
  have hplt : p < lirs.length := by
    rcases Nat.lt_or_ge p lirs.length with h | h
    · exact h
    · rw [List.getElem?_eq_none h] at hr
      cases hr
  have hpn : p ≠ lirs.length := Nat.ne_of_lt hplt
  have e1 : r.next = l.next := congrArg Layout.next hl
  have e2 : r.prev = l.prev := congrArg Layout.prev hl
  have e3 : r.pcrel_next = l.pcrel_next := congrArg Layout.pcrel_next hl
  have e4 : r.offset = wrap32 (l.offset + toU32 d) := congrArg Layout.offset hl
  have e5 : r.flags.is_nop = l.is_nop := congrArg Layout.is_nop hl
  have s1 : (EncodingMap kA64Tst2rl).size = 4 := by decide
  have s2 : (EncodingMap kA64B2ct).size = 4 := by decide
  have s3 : (EncodingMap kA64Tst2rl).fixup = kFixupNone := by decide
  have s4 : (EncodingMap kA64B2ct).fixup = kFixupCondBranch := by decide
  rw [← e1] at hnp hnn hnc
  funext j
  unfold widenedLayout
  rw [← e1, ← e2, ← e3, ← e4, ← e5]
  unfold layoutOf widenedArena replacedFixup insertedAfter
  by_cases hjn : j = lirs.length
  · subst hjn
    cases hnext : r.next with
    | none =>
      cases hprev : prev with
      | none =>
        simp [-List.getElem?_eq_getElem, getElem?_updAt, getElem?_updAt_append, Ne.symm hpn,
          LIR.layout, RawLIR, s1, s2, s3, s4]
      | some c =>
        have hc : lirs.length ≠ c := fun e => hcn (by rw [hprev, e])
        simp [-List.getElem?_eq_getElem, getElem?_updAt, getElem?_updAt_append, Ne.symm hpn,
          LIR.layout, RawLIR, s1, s2, s3, s4, hc]
    | some q =>
      have hq : lirs.length ≠ q := fun e => hnn (by rw [hnext, e])
      cases hprev : prev with
      | none =>
        simp [-List.getElem?_eq_getElem, getElem?_updAt, getElem?_updAt_append, Ne.symm hpn,
          LIR.layout, RawLIR, s1, s2, s3, s4, hq]
      | some c =>
        have hc : lirs.length ≠ c := fun e => hcn (by rw [hprev, e])
        simp [-List.getElem?_eq_getElem, getElem?_updAt, getElem?_updAt_append, Ne.symm hpn,
          LIR.layout, RawLIR, s1, s2, s3, s4, hc, hq]
  · rw [if_neg hjn]
    by_cases hjp : j = p
    · subst hjp
      cases hnext : r.next with
      | none =>
        cases hprev : prev with
        | none =>
          simp [-List.getElem?_eq_getElem, getElem?_updAt, getElem?_updAt_append, hpn, hr,
            LIR.layout, RawLIR, s1, s2, s3, s4, hnext]
        | some c =>
          have hc : j ≠ c := fun e => hcp (by rw [hprev, e])
          simp [-List.getElem?_eq_getElem, getElem?_updAt, getElem?_updAt_append, hpn, hr,
            LIR.layout, RawLIR, s1, s2, s3, s4, hc, hnext]
      | some q =>
        have hq : j ≠ q := fun e => hnp (by rw [hnext, e])
        cases hprev : prev with
        | none =>
          simp [-List.getElem?_eq_getElem, getElem?_updAt, getElem?_updAt_append, hpn, hr,
            LIR.layout, RawLIR, s1, s2, s3, s4, hq, hnext]
        | some c =>
          have hc : j ≠ c := fun e => hcp (by rw [hprev, e])
          simp [-List.getElem?_eq_getElem, getElem?_updAt, getElem?_updAt_append, hpn, hr,
            LIR.layout, RawLIR, s1, s2, s3, s4, hc, hq, hnext]
    · rw [if_neg hjp]
      cases hnext : r.next with
      | none =>
        cases hprev : prev with
        | none =>
          simp [-List.getElem?_eq_getElem, getElem?_updAt, getElem?_updAt_append, hjn, hjp]
        | some c =>
          by_cases hjc : j = c
          · subst hjc
            simp [-List.getElem?_eq_getElem, getElem?_updAt, getElem?_updAt_append, hjn, hjp]
            cases lirs[j]? <;> rfl
          · simp [-List.getElem?_eq_getElem, getElem?_updAt, getElem?_updAt_append, hjn, hjp,
              hjc, Ne.symm hjc]
      | some q =>
        cases hprev : prev with
        | none =>
          by_cases hjq : j = q
          · subst hjq
            simp [-List.getElem?_eq_getElem, getElem?_updAt, getElem?_updAt_append, hjn, hjp]
            cases lirs[j]? <;> rfl
          · simp [-List.getElem?_eq_getElem, getElem?_updAt, getElem?_updAt_append, hjn, hjp,
              hjq, Ne.symm hjq]
        | some c =>
          have hqc : q ≠ c := fun e => hnc q hnext (by rw [hprev, e])
          by_cases hjq : j = q
          · subst hjq
            simp [-List.getElem?_eq_getElem, getElem?_updAt, getElem?_updAt_append, hjn, hjp,
              hqc]
            cases lirs[j]? <;> rfl
          · by_cases hjc : j = c
            · subst hjc
              simp [-List.getElem?_eq_getElem, getElem?_updAt, getElem?_updAt_append, hjn, hjp,
                hjq, Ne.symm hjq]
              cases lirs[j]? <;> rfl
            · simp [-List.getElem?_eq_getElem, getElem?_updAt, getElem?_updAt_append, hjn,
                hjp, hjq, hjc, Ne.symm hjq, Ne.symm hjc]

theorem getElem?_append_one (lirs : List LIR) (x : LIR) (j : Nat) :
    (lirs ++ [x])[j]? = if j = lirs.length then some x else lirs[j]? := by
  rcases Nat.lt_trichotomy j lirs.length with h | h | h
  · rw [List.getElem?_append_left h, if_neg (Nat.ne_of_lt h)]
  · subst h
    rw [if_pos rfl]
    exact getElem?_append_new lirs x
  · rw [if_neg (Nat.ne_of_gt h), List.getElem?_eq_none (by simp; omega),
      List.getElem?_eq_none (Nat.le_of_lt h)]

/-- The layout of the arena after the insertion of a `nop`. -/
theorem layoutOf_nopInsertedArena {p : Nat} {lirs : List LIR} {r : LIR} (l : Layout) (d : Int)
    (hr : lirs[p]? = some r)
    (hl : r.layout = { l with offset := wrap32 (l.offset + toU32 d) })
    (hqp : l.prev ≠ some p) (hqn : l.prev ≠ some lirs.length) :
    layoutOf (nopInsertedArena lirs p r)
      = nopInsertedLayout (layoutOf lirs) lirs.length p l d := by
  have hplt : p < lirs.length := by
    rcases Nat.lt_or_ge p lirs.length with h | h
    · exact h
    · rw [List.getElem?_eq_none h] at hr
      cases hr
  have hpn : p ≠ lirs.length := Nat.ne_of_lt hplt
  have e1 : r.next = l.next := congrArg Layout.next hl
  have e2 : r.prev = l.prev := congrArg Layout.prev hl
  have e3 : r.pcrel_next = l.pcrel_next := congrArg Layout.pcrel_next hl
  have e4 : r.offset = wrap32 (l.offset + toU32 d) := congrArg Layout.offset hl
  have e5 : r.flags.is_nop = l.is_nop := congrArg Layout.is_nop hl
  have e6 : r.flags.size = l.size := congrArg Layout.size hl
  have e7 : r.flags.fixup = l.fixup := congrArg Layout.fixup hl
  have s1 : (EncodingMap kA64Nop0).size = 4 := by decide
  rw [← e2] at hqp hqn
  funext j
  unfold nopInsertedLayout
  rw [← e1, ← e2, ← e3, ← e4, ← e5, ← e6, ← e7]
  unfold layoutOf nopInsertedArena insertedBefore
  by_cases hjn : j = lirs.length
  · subst hjn
    cases hprev : r.prev with
    | none =>
      simp [-List.getElem?_eq_getElem, getElem?_updAt, getElem?_append_one, Ne.symm hpn,
        LIR.layout, RawLIR, s1]
    | some q =>
      have hq : lirs.length ≠ q := fun e => hqn (by rw [hprev, e])
      simp [-List.getElem?_eq_getElem, getElem?_updAt, getElem?_append_one, Ne.symm hpn,
        LIR.layout, RawLIR, s1, hq]
  · rw [if_neg hjn]
    by_cases hjp : j = p
    · subst hjp
      cases hprev : r.prev with
      | none =>
        simp [-List.getElem?_eq_getElem, getElem?_updAt, getElem?_append_one, hpn, hr,
          LIR.layout, RawLIR, s1]
      | some q =>
        have hq : j ≠ q := fun e => hqp (by rw [hprev, e])
        simp [-List.getElem?_eq_getElem, getElem?_updAt, getElem?_append_one, hpn, hr,
          LIR.layout, RawLIR, s1, hq]
    · rw [if_neg hjp]
      cases hprev : r.prev with
      | none =>
        simp [-List.getElem?_eq_getElem, getElem?_updAt, getElem?_append_one, hjn, hjp]
      | some q =>
        by_cases hjq : j = q
        · subst hjq
          simp [-List.getElem?_eq_getElem, getElem?_updAt, getElem?_append_one, hjn, hjp]
          cases lirs[j]? <;> rfl
        · simp [-List.getElem?_eq_getElem, getElem?_updAt, getElem?_append_one, hjn, hjp,
            hjq, Ne.symm hjq]

/-! ## A round of the pass keeps the invariant -/

theorem PassInv.distinct {L : Nat → Option Layout} {N : Nat} {fi ff : Option Nat}
    {d : Int} {p : Nat} {prev : Option Nat} {ma mbt : List (Nat × Bool)} {l : Layout}
    (h : PassInv L N fi ff d (some p) prev ma ((p, true) :: mbt)) (hl : L p = some l) :
    p < N ∧ l.next ≠ some p ∧ l.next ≠ some N ∧ prev ≠ some p ∧ prev ≠ some N ∧
      (∀ j, l.next = some j → prev ≠ some j) ∧ l.prev ≠ some p ∧ l.prev ≠ some N := by
  obtain ⟨l0, hl0, hi1, hi3, hc1, hc3, hp1, hp3, hp4, ho, hm, hnd, hlt⟩ := h.at_node
  rw [hl] at hl0
  injection hl0 with hl0
  subst hl0
  have hdis := (List.nodup_append.mp hnd).2.2
  have hnd2 := (List.nodup_append.mp hnd).2.1
  have hpma : p ∉ insnsOf ma := fun hmem => hdis hmem (List.mem_cons_self _ _)
  have hpmb : p ∉ insnsOf mbt := (List.nodup_cons.mp hnd2).1
  have hNa : ∀ j ∈ insnsOf ma, j ≠ N := fun j hj => Nat.ne_of_lt (hlt j (by simp [hj]))
  have hNb : ∀ j ∈ insnsOf mbt, j ≠ N := fun j hj => Nat.ne_of_lt (hlt j (by simp [hj]))
  have hnext : l.next = (insnsOf mbt).head? := Seg.head?_eq hi3
  have hprev : prev = (chainOf ma).getLast? := h.prev_eq
  have hcsub : ∀ j ∈ chainOf ma, j ∈ insnsOf ma := fun j hj =>
    mem_insnsOf_of_mem (mem_chainOf.mp hj)
  have hnm : ∀ j, l.next = some j → j ∈ insnsOf mbt := by
    intro j e
    rw [hnext] at e
    exact List.mem_of_mem_head? e
  have hcm : ∀ j, prev = some j → j ∈ insnsOf ma := by
    intro j e
    rw [hprev] at e
    exact hcsub j (getLast?_mem_of_eq e)
  have hqm : ∀ j, l.prev = some j → j ∈ insnsOf ma := by
    intro j e
    rw [hp3] at e
    exact getLast?_mem_of_eq e
  refine ⟨hlt p (by simp), fun e => hpmb (hnm p e), fun e => hNb N (hnm N e) rfl,
    fun e => hpma (hcm p e), fun e => hNa N (hcm N e) rfl, ?_,
    fun e => hpma (hqm p e), fun e => hNa N (hqm N e) rfl⟩
  intro j e1 e2
  exact hdis (hcm j e2) (List.mem_cons_of_mem _ (hnm j e1))

theorem layoutOf_get {lirs : List LIR} {p : Nat} {l : Layout} (h : layoutOf lirs p = some l) :
    ∃ r, lirs[p]? = some r ∧ r.layout = l := by
  unfold layoutOf at h
  cases hr : lirs[p]? with
  | none => rw [hr] at h; cases h
  | some r =>
    rw [hr] at h
    injection h with h
    exact ⟨r, rfl, h⟩

theorem layoutOf_none_of_length (lirs : List LIR) (j : Nat) (h : lirs.length ≤ j) :
    layoutOf lirs j = none := by
  unfold layoutOf
  rw [List.getElem?_eq_none h]
  rfl

theorem length_widenedArena (env : Env) (generation : Nat) (prev : Option Nat) (p : Nat)
    (opcode : Opcode) (lirs : List LIR) (r : LIR) :
    (widenedArena env generation prev p opcode lirs r).length = lirs.length + 1 := by
  unfold widenedArena
  simp [length_replacedFixup, length_updAt, length_insertedAfter]

theorem length_nopInsertedArena (lirs : List LIR) (p : Nat) (r : LIR) :
    (nopInsertedArena lirs p r).length = lirs.length + 1 := by
  unfold nopInsertedArena
  simp [length_updAt, length_insertedBefore]

theorem layoutOf_visitState (m : Mir2Lir) (adj : Int) (generation p : Nat) {j : Nat}
    (hj : j ≠ p) :
    layoutOf (visitState m adj generation p).lirs j = layoutOf m.lirs j := by
  unfold layoutOf visitState
  rw [getElem?_updAt, if_neg hj]

/-- A round of the inner loop that succeeds keeps the invariant of the pass. -/
theorem fixupStep_inv {env : Env} {fuel generation : Nat} {m m1 : Mir2Lir}
    {loc loc1 : FixupLocals} {p : Nat} {ma mb : List (Nat × Bool)}
    (hinv : PassInv (layoutOf m.lirs) m.lirs.length m.first_lir_insn_ m.first_fixup_
      loc.offset_adjustment (some p) loc.prev_lir ma mb)
    (h : fixupStep env fuel generation m loc p = .ok (m1, loc1)) :
    ∃ ma1 mb1, PassInv (layoutOf m1.lirs) m1.lirs.length m1.first_lir_insn_ m1.first_fixup_
      loc1.offset_adjustment loc1.lir loc1.prev_lir ma1 mb1 := by
  obtain ⟨ma0, mbt, _, hn⟩ := hinv.normalize
  obtain ⟨l, hl, _⟩ := hn.at_node
  obtain ⟨hpN, hnp, hnn, hcp, hcn, hnc, hqp, hqn⟩ := hn.distinct hl
  obtain ⟨r, hr, hrl⟩ := layoutOf_get hl
  have hrV := visitState_get m loc.offset_adjustment generation p r hr
  have hlenV : (visitState m loc.offset_adjustment generation p).lirs.length = m.lirs.length :=
    length_updAt _ _ _
  have hlV : (visitRec r loc.offset_adjustment generation).layout
      = { l with offset := wrap32 (l.offset + toU32 loc.offset_adjustment) } := by
    rw [← hrl]
    rfl
  rw [fixupStep_eq env fuel generation m loc p r hr] at h
  obtain ⟨res, hsw, hrest⟩ := bind_ok h
  have hsw2 : fixupSwitch env fuel generation
      (visitState m loc.offset_adjustment generation p) loc p
      (visitRec r loc.offset_adjustment generation).flags.fixup = .ok res := hsw
  rcases fixupSwitch_cases hrV hsw2 (by rw [hlenV]; exact hcn) with
    ⟨r1, hr1, hres⟩ | ⟨r1, hk, hr1, hres⟩ | ⟨hk, rN, hrN, hres⟩ | ⟨q, hq, hres⟩
  · -- the layout of the node is kept
    subst hres
    have hget : getLIR ((visitState m loc.offset_adjustment generation p).lirs.set p r1)
        (some p) = .ok r1 := getLIR_some (getElem?_set_self_of_some hrV r1)
    simp only [Bool.false_eq_true, if_false, hget, bind, Except.bind, pure, Except.pure]
      at hrest
    injection hrest with hrest
    injection hrest with hm1 hloc1
    subst hm1
    subst hloc1
    refine ⟨ma0 ++ [(p, true)], mbt, ?_⟩
    have hL : ∀ j, layoutOf ((visitState m loc.offset_adjustment generation p).lirs.set p r1) j
        = if j = p then some r1.layout else layoutOf m.lirs j := by
      intro j
      rw [layoutOf_set hrV]
      by_cases hj : j = p
      · rw [if_pos hj, if_pos hj]
      · rw [if_neg hj, if_neg hj, layoutOf_visitState m _ _ _ hj]
    have := PassInv.step_node false hn hl hL
      (by rw [hr1, hlV]) (by rw [hr1, hlV]) (by rw [hr1, hlV]) (by rw [hr1, hlV])
      (by rw [hr1, hlV]) (by rw [hr1, hlV]; rfl) (by rw [hr1, hlV]; rfl)
      (fun e => by cases e)
    simp only [Bool.false_eq_true, if_false] at this
    have e1 : r1.pcrel_next = l.pcrel_next := congrArg Layout.pcrel_next (hr1.trans hlV)
    show PassInv _ ((visitState m loc.offset_adjustment generation p).lirs.set p r1).length
      m.first_lir_insn_ m.first_fixup_ loc.offset_adjustment r1.pcrel_next (some p) _ _
    rw [List.length_set, hlenV, e1]
    exact this
  · -- the node is elided
    subst hres
    have hget : getLIR ((visitState m loc.offset_adjustment generation p).lirs.set p r1)
        (some p) = .ok r1 := getLIR_some (getElem?_set_self_of_some hrV r1)
    simp only [Bool.false_eq_true, if_false, hget, bind, Except.bind, pure, Except.pure]
      at hrest
    injection hrest with hrest
    injection hrest with hm1 hloc1
    subst hm1
    subst hloc1
    refine ⟨ma0 ++ [(p, true)], mbt, ?_⟩
    have hL : ∀ j, layoutOf ((visitState m loc.offset_adjustment generation p).lirs.set p r1) j
        = if j = p then some r1.layout else layoutOf m.lirs j := by
      intro j
      rw [layoutOf_set hrV]
      by_cases hj : j = p
      · rw [if_pos hj, if_pos hj]
      · rw [if_neg hj, if_neg hj, layoutOf_visitState m _ _ _ hj]
    have hkl : l.fixup ≠ kFixupNone := by
      rw [← hrl]
      exact hk
    have := PassInv.step_node true hn hl hL
      (by rw [hr1, hlV]) (by rw [hr1, hlV]) (by rw [hr1, hlV]) (by rw [hr1, hlV])
      (by rw [hr1, hlV]) (by rw [hr1, hlV]; rfl) (by rw [hr1, hlV]; rfl)
      (fun _ => hkl)
    simp only [if_true] at this
    have e1 : r1.pcrel_next = l.pcrel_next := by
      have := congrArg Layout.pcrel_next hr1
      rw [hlV] at this
      exact this
    have e2 : (visitRec r loc.offset_adjustment generation).flags.size = l.size := by
      rw [← hrl]
      rfl
    show PassInv _ ((visitState m loc.offset_adjustment generation p).lirs.set p r1).length
      m.first_lir_insn_ m.first_fixup_
      (loc.offset_adjustment - (visitRec r loc.offset_adjustment generation).flags.size)
      r1.pcrel_next (some p) _ _
    rw [List.length_set, hlenV, e1, e2]
    exact this
  · -- the node is replaced by two instructions
    subst hres
    simp only [if_true, bind, Except.bind, pure, Except.pure] at hrest
    injection hrest with hrest
    injection hrest with hm1 hloc1
    subst hm1
    subst hloc1
    refine ⟨ma0 ++ [(p, false), (m.lirs.length, true)], mbt, ?_⟩
    have hkl : l.fixup ≠ kFixupNone := by
      rw [← hrl]
      exact hk
    have hrN2 : ((visitState m loc.offset_adjustment generation p).lirs.set p rN)[p]?
        = some rN := getElem?_set_self_of_some hrV rN
    have hlen2 : ((visitState m loc.offset_adjustment generation p).lirs.set p rN).length
        = m.lirs.length := by rw [List.length_set, hlenV]
    have hlay := layoutOf_widenedArena env generation loc.prev_lir
      (visitRec r loc.offset_adjustment generation).opcode l loc.offset_adjustment hrN2
      (hrN.trans hlV) hnp (by rw [hlen2]; exact hnn) hcp (by rw [hlen2]; exact hcn) hnc
    rw [hlen2, widenedLayout_congr (L := layoutOf m.lirs) _ _ _ _ _ (by
      intro j hj
      rw [layoutOf_set hrV, if_neg hj, layoutOf_visitState m _ _ _ hj])] at hlay
    have := PassInv.step_widen hn hl hkl
    have e2 : (visitRec r loc.offset_adjustment generation).flags.size = l.size := by
      rw [← hrl]
      rfl
    have e3 : (visitRec r loc.offset_adjustment generation).pcrel_next = l.pcrel_next := by
      rw [← hrl]
      rfl
    show PassInv (layoutOf (widenedArena env generation loc.prev_lir p _ _ rN))
      (widenedArena env generation loc.prev_lir p _ _ rN).length m.first_lir_insn_
      (if loc.prev_lir = none
        then some (visitState m loc.offset_adjustment generation p).lirs.length
        else m.first_fixup_)
      (loc.offset_adjustment - (visitRec r loc.offset_adjustment generation).flags.size + 8)
      (visitRec r loc.offset_adjustment generation).pcrel_next
      (some (visitState m loc.offset_adjustment generation p).lirs.length) _ _
    rw [hlay, length_widenedArena, hlen2, hlenV, e2, e3]
    exact this
  · -- a nop is put before the node
    subst hres
    have hlay := layoutOf_nopInsertedArena l loc.offset_adjustment hrV hlV hqp
      (by rw [hlenV]; exact hqn)
    rw [hlenV, nopInsertedLayout_congr (L := layoutOf m.lirs) _ _ _ _ (by
      intro j hj
      rw [layoutOf_visitState m _ _ _ hj])] at hlay
    have hpl : layoutOf (nopInsertedArena (visitState m loc.offset_adjustment generation p).lirs
        p (visitRec r loc.offset_adjustment generation)) p = _ :=
      (congrFun hlay p).trans (nopInsertedLayout_node _ l _ (Nat.ne_of_lt hpN))
    obtain ⟨rp, hrp, hrpl⟩ := layoutOf_get hpl
    simp only [Bool.false_eq_true, if_false, getLIR_some hrp, bind, Except.bind, pure,
      Except.pure] at hrest
    injection hrest with hrest
    injection hrest with hm1 hloc1
    subst hm1
    subst hloc1
    refine ⟨ma0 ++ [(m.lirs.length, false), (p, true)], mbt, ?_⟩
    have hq2 : l.prev = some q := by
      rw [← hrl]
      exact hq
    have := PassInv.step_nop hn hl hq2
    have e3 : rp.pcrel_next = l.pcrel_next := by
      have := congrArg Layout.pcrel_next hrpl
      exact this
    show PassInv (layoutOf (nopInsertedArena _ p _)) (nopInsertedArena _ p _).length
      m.first_lir_insn_ m.first_fixup_ (loc.offset_adjustment + 4) rp.pcrel_next (some p) _ _
    rw [hlay, length_nopInsertedArena, hlenV, e3]
    exact this

/-! ## A pass keeps the invariant of the chain -/

theorem PassReaches.inv {env : Env} {generation : Nat} {fuel fuel' : Nat} {m m' : Mir2Lir}
    {loc loc' : FixupLocals}
    (hreach : PassReaches env generation fuel m loc fuel' m' loc') :
    ∀ ma mb, PassInv (layoutOf m.lirs) m.lirs.length m.first_lir_insn_ m.first_fixup_
        loc.offset_adjustment loc.lir loc.prev_lir ma mb →
      ∃ ma1 mb1, PassInv (layoutOf m'.lirs) m'.lirs.length m'.first_lir_insn_ m'.first_fixup_
        loc'.offset_adjustment loc'.lir loc'.prev_lir ma1 mb1 := by
  induction hreach with
  | here _ _ _ => intro ma mb h; exact ⟨ma, mb, h⟩
  | step hl hs _ ih =>
    intro ma mb h
    rw [hl] at h
    obtain ⟨ma1, mb1, h1⟩ := fixupStep_inv h hs
    exact ih ma1 mb1 h1

theorem ChainInv.start {m : Mir2Lir} (h : ChainInv m) :
    ∃ mb, PassInv (layoutOf m.lirs) m.lirs.length m.first_lir_insn_ m.first_fixup_ 0
      m.first_fixup_ none [] mb := by
  obtain ⟨marked, h1, h2, h3, h4, h5⟩ := h
  exact ⟨marked, {
    insns := h1
    chain := h2
    cur_eq := Seg.head?_eq h2
    prev_eq := rfl
    prevs := h3
    inert := h4
    visited := trivial
    pending := h5
    bound := fun j hj => layoutOf_none_of_length _ j hj }⟩

theorem PassInv.finish {m : Mir2Lir} {d : Int} {prev : Option Nat} {ma mb : List (Nat × Bool)}
    (h : PassInv (layoutOf m.lirs) m.lirs.length m.first_lir_insn_ m.first_fixup_ d none prev
      ma mb) : ChainInv m := by
  have hmb : chainOf mb = [] := by
    have := h.cur_eq
    cases hc : chainOf mb with
    | nil => rfl
    | cons a as => rw [hc] at this; cases this
  refine ⟨ma ++ mb, h.insns, h.chain, h.prevs, h.inert, ?_⟩
  rw [MarkedOffs.offs_append]
  refine ⟨h.visited, ?_⟩
  have := @MarkedOffs.unmarked (layoutOf m.lirs) d 0 _ _ hmb h.pending
  simpa using this

/-- A pass over the fixup chain that comes to its end keeps the invariant of the chain. -/
theorem fixupPass_ChainInv {env : Env} {generation fuel : Nat} {m m' : Mir2Lir}
    {loc' : FixupLocals} (hinv : ChainInv m)
    (h : fixupPass env generation fuel m
      { offset_adjustment := 0, res := .kSuccess, prev_lir := none, lir := m.first_fixup_ }
      = .ok (m', loc')) : ChainInv m' := by
  obtain ⟨mb, h0⟩ := hinv.start
  obtain ⟨fuel', hreach, hl⟩ := (fixupPass_ok_iff env generation m' loc' fuel m _).mp h
  obtain ⟨ma1, mb1, h1⟩ := hreach.inv [] mb h0
  rw [hl] at h1
  exact h1.finish

/-! ## The invariant in the words of the specification -/

theorem Seg.nextPath {lirs : List LIR} :
    ∀ {idxs : List Nat} {p : Option Nat},
      Seg Layout.next (layoutOf lirs) none p idxs → NextPath lirs p idxs := by
  intro idxs
  induction idxs with
  | nil => intro p h; exact h
  | cons i rest ih =>
    intro p h
    obtain ⟨hp, l, hl, hrest⟩ := h
    obtain ⟨r, hr, hrl⟩ := layoutOf_get hl
    refine ⟨(by rw [hp]; exact fun e => by cases e), hp, r, hr, ?_⟩
    have : r.next = l.next := congrArg Layout.next hrl
    rw [this]
    exact ih hrest

theorem NextPath.seg {lirs : List LIR} :
    ∀ {idxs : List Nat} {p : Option Nat},
      NextPath lirs p idxs → Seg Layout.next (layoutOf lirs) none p idxs := by
  intro idxs
  induction idxs with
  | nil => intro p h; exact h
  | cons i rest ih =>
    intro p h
    obtain ⟨_, hp, r, hr, hrest⟩ := h
    refine ⟨hp, r.layout, by unfold layoutOf; rw [hr]; rfl, ?_⟩
    exact ih hrest

theorem Seg.pcrelPath {lirs : List LIR} :
    ∀ {idxs : List Nat} {p : Option Nat},
      Seg Layout.pcrel_next (layoutOf lirs) none p idxs → PcrelPath lirs p idxs := by
  intro idxs
  induction idxs with
  | nil => intro p h; exact h
  | cons i rest ih =>
    intro p h
    obtain ⟨hp, l, hl, hrest⟩ := h
    obtain ⟨r, hr, hrl⟩ := layoutOf_get hl
    refine ⟨hp, r, hr, ?_⟩
    have : r.pcrel_next = l.pcrel_next := congrArg Layout.pcrel_next hrl
    rw [this]
    exact ih hrest

theorem lsize_layoutOf (lirs : List LIR) (i : Nat) :
    lsize (layoutOf lirs) i
      = match lirs[i]? with
        | some l => if l.flags.is_nop then 0 else l.flags.size
        | none => 0 := by
  unfold lsize layoutOf
  cases lirs[i]? <;> rfl

theorem lsum_layoutOf (lirs : List LIR) (idxs : List Nat) :
    lsum (layoutOf lirs) idxs = flagsSizeSum lirs idxs := by
  unfold lsum flagsSizeSum
  congr 1
  apply List.map_congr_left
  intro i _
  exact lsize_layoutOf lirs i

theorem chainOf_sublist (marked : List (Nat × Bool)) :
    (chainOf marked).Sublist (insnsOf marked) := by
  unfold chainOf insnsOf
  exact List.Sublist.map _ (List.filter_sublist _)

/-- The offset of a marked record, by its place in the list. -/
theorem MarkedOffs.at_index {L : Nat → Option Layout} {d : Int} :
    ∀ {xs : List (Nat × Bool)} {acc : Int} {k c : Nat}, MarkedOffs L d xs acc →
      xs[k]? = some (c, true) → OffsetAt L d (acc + lsum L (insnsOf (xs.take k))) c := by
  intro xs
  induction xs with
  | nil => intro acc k c _ hk; simp at hk
  | cons x rest ih =>
    intro acc k c h hk
    obtain ⟨i, b⟩ := x
    obtain ⟨h1, h2⟩ := h
    cases k with
    | zero =>
      simp only [List.getElem?_cons_zero, Option.some.injEq, Prod.mk.injEq] at hk
      obtain ⟨hi, hb⟩ := hk
      subst hi
      have := h1 hb
      simpa [insnsOf, lsum] using this
    | succ k =>
      simp only [List.getElem?_cons_succ] at hk
      have := ih h2 hk
      have e : acc + (lsize L i : Int) + (lsum L (insnsOf (rest.take k)) : Int)
          = acc + (lsum L (insnsOf (((i, b) :: rest).take (k + 1))) : Int) := by
        have : insnsOf (((i, b) :: rest).take (k + 1)) = i :: insnsOf (rest.take k) := rfl
        rw [this, lsum_cons]
        push_cast
        ring
      rw [e] at this
      exact this

theorem insnsOf_take (xs : List (Nat × Bool)) (k : Nat) :
    insnsOf (xs.take k) = (insnsOf xs).take k := by
  unfold insnsOf
  rw [List.map_take]

theorem marked_of_mem_chain {marked : List (Nat × Bool)} (hnd : (insnsOf marked).Nodup)
    {k c : Nat} (hk : (insnsOf marked)[k]? = some c) (hc : c ∈ chainOf marked) :
    marked[k]? = some (c, true) := by
  have hmem := mem_chainOf.mp hc
  obtain ⟨k1, hk1⟩ := List.mem_iff_getElem?.mp hmem
  have hk1i : (insnsOf marked)[k1]? = some c := by
    unfold insnsOf
    rw [List.getElem?_map, hk1]
    rfl
  have hlt : k < (insnsOf marked).length := by
    rcases Nat.lt_or_ge k (insnsOf marked).length with h | h
    · exact h
    · rw [List.getElem?_eq_none h] at hk
      cases hk
  have e : k = k1 := List.getElem?_inj hlt hnd (hk.trans hk1i.symm)
  rw [e]
  exact hk1

theorem offsetOf_of_OffsetAt {lirs : List LIR} {acc : Nat} {c : Nat}
    (h : OffsetAt (layoutOf lirs) 0 (acc : Int) c) : offsetOf lirs c = wrap32 acc := by
  obtain ⟨l, hl, hlt, hmod⟩ := h
  obtain ⟨r, hr, hrl⟩ := layoutOf_get hl
  have e : r.offset = l.offset := congrArg Layout.offset hrl
  unfold offsetOf wrap32
  rw [hr]
  show r.offset = _
  rw [e]
  omega

theorem MarkedOffs.sorted {lirs : List LIR} :
    ∀ {xs : List (Nat × Bool)} {acc : Nat}, MarkedOffs (layoutOf lirs) 0 xs (acc : Int) →
      acc + lsum (layoutOf lirs) (insnsOf xs) < 4294967296 →
      (∀ c ∈ chainOf xs, acc ≤ offsetOf lirs c) ∧
      ((chainOf xs).map (offsetOf lirs)).Pairwise fun a b => a ≤ b := by
  intro xs
  induction xs with
  | nil =>
    intro acc _ _
    exact ⟨(fun c hc => by cases hc), List.Pairwise.nil⟩
  | cons x rest ih =>
    intro acc h hlt
    obtain ⟨i, b⟩ := x
    obtain ⟨h1, h2⟩ := h
    have hins : insnsOf ((i, b) :: rest) = i :: insnsOf rest := rfl
    rw [hins, lsum_cons] at hlt
    have h2n : MarkedOffs (layoutOf lirs) 0 rest ((acc + lsize (layoutOf lirs) i : Nat) : Int) := by
      push_cast
      exact h2
    obtain ⟨ih1, ih2⟩ := ih h2n (by omega)
    cases b with
    | false =>
      rw [chainOf_cons_false]
      exact ⟨fun c hc => Nat.le_trans (Nat.le_add_right _ _) (ih1 c hc), ih2⟩
    | true =>
      rw [chainOf_cons_true]
      have hoff : offsetOf lirs i = acc := by
        rw [offsetOf_of_OffsetAt (h1 rfl)]
        unfold wrap32
        omega
      refine ⟨?_, ?_⟩
      · intro c hc
        rcases List.mem_cons.mp hc with hc | hc
        · rw [hc, hoff]
        · exact Nat.le_trans (Nat.le_add_right _ _) (ih1 c hc)
      · rw [List.map_cons, List.pairwise_cons]
        refine ⟨?_, ih2⟩
        intro a ha
        obtain ⟨c, hc, hca⟩ := List.mem_map.mp ha
        rw [hoff, ← hca]
        exact Nat.le_trans (Nat.le_add_right _ _) (ih1 c hc)

/-- The invariant of the chain gives the property that the specification states. -/
theorem ChainInv.ordered {m : Mir2Lir} (h : ChainInv m) : ChainOrdered m := by
  obtain ⟨marked, h1, h2, _, _, h5⟩ := h
  have hnd : (insnsOf marked).Nodup := Seg.seg_nodup h1
  refine ⟨insnsOf marked, chainOf marked, Seg.nextPath h1, Seg.pcrelPath h2,
    chainOf_sublist marked, ?_, ?_⟩
  · intro k c hk hc
    have hm := marked_of_mem_chain hnd hk hc
    have ho := MarkedOffs.at_index h5 hm
    rw [insnsOf_take, lsum_layoutOf] at ho
    have e : (0 : Int) + ((flagsSizeSum m.lirs ((insnsOf marked).take k) : Nat) : Int)
        = ((flagsSizeSum m.lirs ((insnsOf marked).take k) : Nat) : Int) := by ring
    rw [e] at ho
    exact offsetOf_of_OffsetAt ho
  · intro hlt
    rw [← lsum_layoutOf] at hlt
    have h5n : MarkedOffs (layoutOf m.lirs) 0 marked ((0 : Nat) : Int) := h5
    exact (MarkedOffs.sorted h5n (by omega)).2

/-! ## `LinkFixupInsns` establishes the invariant of the chain -/

theorem LinkInv.at_cur {L : Nat → Option Layout} {fi first last : Option Nat} {cur : Option Nat}
    {offset i : Nat} {ma : List (Nat × Bool)} {rest : List Nat}
    (h : LinkInv L fi first last cur offset ma (i :: rest)) :
    cur = some i ∧ ∃ l, L i = some l ∧ l.next = rest.head? ∧
      (insnsOf ma ++ i :: rest).Nodup := by
  have hnd := Seg.seg_nodup h.insns
  obtain ⟨mid, _, hseg⟩ := Seg.seg_append.mp h.insns
  obtain ⟨_, l, hl, hrest⟩ := hseg
  exact ⟨h.cur_eq, l, hl, Seg.head?_eq hrest, hnd⟩

/-- The loop of `LinkFixupInsns` passes a record without linking it. -/
theorem LinkInv.skip {L : Nat → Option Layout} {fi first last cur : Option Nat}
    {offset i : Nat} {ma : List (Nat × Bool)} {rest : List Nat} {l : Layout}
    (h : LinkInv L fi first last cur offset ma (i :: rest)) (hl : L i = some l) :
    LinkInv L fi first last l.next (wrap32 (offset + lsize L i)) (ma ++ [(i, false)]) rest := by
  obtain ⟨_, l0, hl0, hnext, _⟩ := h.at_cur
  rw [hl] at hl0
  injection hl0 with hl0
  subst hl0
  have e1 : insnsOf (ma ++ [(i, false)]) ++ rest = insnsOf ma ++ i :: rest := by
    simp [insnsOf]
  have e2 : chainOf (ma ++ [(i, false)]) = chainOf ma := by
    simp [chainOf]
  exact {
    insns := by rw [e1]; exact h.insns
    cur_eq := hnext
    chain := by rw [e2]; exact h.chain
    last_eq := by rw [e2]; exact h.last_eq
    prevs := by rw [e1]; exact h.prevs
    emitting := by
      intro c lc hc hlc
      have : (c, true) ∈ ma := by
        simpa using hc
      exact h.emitting c lc this hlc
    visited := by
      rw [MarkedOffs.offs_append]
      refine ⟨h.visited, ?_⟩
      simp [MarkedOffs]
    offset_lt := by
      unfold wrap32
      omega
    offset_eq := by
      have := h.offset_eq
      have e3 : insnsOf (ma ++ [(i, false)]) = insnsOf ma ++ [i] := by simp [insnsOf]
      rw [e3, lsum_append, lsum_cons, lsum_nil]
      unfold wrap32
      push_cast
      omega }

theorem linkedLayout_self (L : Nat → Option Layout) (i : Nat) (li : Layout) (c : Option Nat) :
    linkedLayout L i li c i = some li := by
  simp [linkedLayout]

theorem linkedLayout_keep {L : Nat → Option Layout} {i j : Nat} (li : Layout) (c : Option Nat)
    (hj : j ≠ i) :
    (linkedLayout L i li c j).map
        (fun x => (x.next, x.prev, x.offset, x.is_nop, x.size, x.fixup))
      = (L j).map (fun x => (x.next, x.prev, x.offset, x.is_nop, x.size, x.fixup)) := by
  unfold linkedLayout
  rw [if_neg hj]
  split_ifs <;> cases L j <;> rfl

theorem linkedLayout_pcrel {L : Nat → Option Layout} {i j : Nat} (li : Layout) (c : Option Nat)
    (hj : j ≠ i) {lj : Layout} (hlj : L j = some lj) :
    ∃ l1, linkedLayout L i li c j = some l1 ∧
      l1.pcrel_next = if c = some j then some i else lj.pcrel_next := by
  unfold linkedLayout
  rw [if_neg hj, hlj]
  by_cases hc : c = some j
  · rw [if_pos hc, if_pos hc]
    exact ⟨_, rfl, rfl⟩
  · rw [if_neg hc, if_neg hc]
    exact ⟨_, rfl, rfl⟩

theorem map_fields_next {a b : Option Layout}
    (h : a.map (fun x => (x.next, x.prev, x.offset, x.is_nop, x.size, x.fixup))
      = b.map (fun x => (x.next, x.prev, x.offset, x.is_nop, x.size, x.fixup))) :
    a.map Layout.next = b.map Layout.next ∧ a.map Layout.prev = b.map Layout.prev ∧
    a.map (fun l => (l.offset, l.is_nop, l.size)) = b.map (fun l => (l.offset, l.is_nop, l.size)) ∧
    a.map Layout.is_nop = b.map Layout.is_nop := by
  cases a <;> cases b <;> simp at h ⊢
  obtain ⟨h1, h2, h3, h4, h5, _⟩ := h
  exact ⟨h1, h2, ⟨h3, h4, h5⟩, h4⟩

/-- The loop of `LinkFixupInsns` links a record into the chain. -/
theorem LinkInv.link {L : Nat → Option Layout} {fi first last cur : Option Nat}
    {offset i : Nat} {ma : List (Nat × Bool)} {rest : List Nat} {l : Layout}
    (h : LinkInv L fi first last cur offset ma (i :: rest)) (hl : L i = some l)
    (sz : Nat) (fk : FixupKind) :
    LinkInv (linkedLayout L i ⟨l.next, l.prev, none, offset, false, sz, fk⟩
        (chainOf ma).getLast?) fi
      (if chainOf ma = [] then some i else first) (some i) l.next (wrap32 (offset + sz))
      (ma ++ [(i, true)]) rest := by
  obtain ⟨_, l0, hl0, hnext, hnd⟩ := h.at_cur
  rw [hl] at hl0
  injection hl0 with hl0
  subst hl0
  have hdis := (List.nodup_append.mp hnd).2.2
  have hnd2 := (List.nodup_append.mp hnd).2.1
  have hia : ∀ j ∈ insnsOf ma, j ≠ i := fun j hj e =>
    hdis hj (by rw [e]; exact List.mem_cons_self _ _)
  have hib : ∀ j ∈ rest, j ≠ i := fun j hj e =>
    (List.nodup_cons.mp hnd2).1 (e ▸ hj)
  have e1 : insnsOf (ma ++ [(i, true)]) ++ rest = insnsOf ma ++ i :: rest := by
    simp [insnsOf]
  have e2 : chainOf (ma ++ [(i, true)]) = chainOf ma ++ [i] := by
    simp [chainOf]
  have hkeep : ∀ j, j ≠ i → _ := fun j hj =>
    map_fields_next (linkedLayout_keep (L := L) ⟨l.next, l.prev, none, offset, false, sz, fk⟩
      (chainOf ma).getLast? hj)
  have hself := linkedLayout_self L i ⟨l.next, l.prev, none, offset, false, sz, fk⟩
    (chainOf ma).getLast?
  have hsum : lsum (linkedLayout L i ⟨l.next, l.prev, none, offset, false, sz, fk⟩
      (chainOf ma).getLast?) (insnsOf ma) = lsum L (insnsOf ma) :=
    lsum_congr3 fun j hj => (hkeep j (hia j hj)).2.2.1
  have hsz : lsize (linkedLayout L i ⟨l.next, l.prev, none, offset, false, sz, fk⟩
      (chainOf ma).getLast?) i = sz := by
    unfold lsize
    rw [hself]
    simp
  exact {
    insns := by
      rw [e1]
      apply Seg.seg_congr _ h.insns
      intro j _
      by_cases hj : j = i
      · rw [hj, hself, hl]
        rfl
      · exact (hkeep j hj).1
    cur_eq := hnext
    chain := by
      rw [e2, Seg.seg_append]
      refine ⟨some i, ?_, rfl, _, hself, rfl⟩
      apply Seg.redirect_last h.chain (Seg.seg_nodup h.chain)
      intro j hj
      obtain ⟨lj, hlj⟩ := Seg.mem_some h.chain j hj
      have hji : j ≠ i := hia j (mem_insnsOf_of_mem (mem_chainOf.mp hj))
      obtain ⟨l1, hl1, hp1⟩ := linkedLayout_pcrel
        ⟨l.next, l.prev, none, offset, false, sz, fk⟩ (chainOf ma).getLast? hji hlj
      exact ⟨lj, l1, hlj, hl1, hp1⟩
    last_eq := by
      intro _
      rw [e2]
      simp
    prevs := by
      rw [e1]
      apply PrevLinked.prev_congr _ h.prevs
      intro j _
      by_cases hj : j = i
      · rw [hj, hself, hl]
        rfl
      · exact (hkeep j hj).2.1
    emitting := by
      intro c lc hc hlc
      by_cases hci : c = i
      · subst hci
        rw [hself] at hlc
        injection hlc with hlc
        rw [← hlc]
      · have hcm : (c, true) ∈ ma := by
          simpa [hci] using hc
        have e := (hkeep c hci).2.2.2
        rw [hlc] at e
        cases hLc : L c with
        | none => rw [hLc] at e; cases e
        | some lc0 =>
          rw [hLc] at e
          simp only [Option.map_some', Option.some.injEq] at e
          rw [e]
          exact h.emitting c lc0 hcm hLc
    visited := by
      rw [MarkedOffs.offs_append]
      refine ⟨MarkedOffs.offs_congr (fun j hj => (hkeep j (hia j hj)).2.2.1) h.visited, ?_⟩
      simp only [MarkedOffs, forall_const, and_true]
      refine ⟨_, hself, h.offset_lt, ?_⟩
      rw [hsum]
      have := h.offset_eq
      show ((offset : Int) + 0 - (0 + ((lsum L (insnsOf ma) : Nat) : Int))) % 4294967296 = 0
      omega
    offset_lt := by
      unfold wrap32
      omega
    offset_eq := by
      have := h.offset_eq
      have e3 : insnsOf (ma ++ [(i, true)]) = insnsOf ma ++ [i] := by simp [insnsOf]
      rw [e3, lsum_append, lsum_cons, lsum_nil, hsum, hsz]
      unfold wrap32
      push_cast
      omega }

theorem linkedRec_layout (r : LIR) (offset : Nat) (hnop : r.flags.is_nop = false) :
    (linkedRec r offset).layout
      = ⟨r.layout.next, r.layout.prev, none, offset, false, linkedSize r, linkedFixup r⟩ := by
  unfold linkedRec LIR.layout
  simp [hnop]

/-- The loop of `LinkFixupInsns` comes to its end, given fuel for the records of the
instruction list, and keeps its invariant. -/
theorem linkLoop_inv (env : Env) (fi : Option Nat) :
    ∀ (rest : List Nat) (lirs : List LIR) (first last cur : Option Nat) (offset fuel : Nat)
      (ma : List (Nat × Bool)),
      LinkInv (layoutOf lirs) fi first last cur offset ma rest → rest.length ≤ fuel →
      (∀ j ∈ rest, ∀ r, lirs[j]? = some r → r.flags.is_nop = false →
        r.flags.fixup ≠ kFixupNone → alignOk env r) →
      ∃ lirs1 first1 last1 off1 marked,
        linkLoop env none fuel lirs first last offset cur = .ok (lirs1, first1, off1) ∧
        LinkInv (layoutOf lirs1) fi first1 last1 none off1 marked [] := by
  intro rest
  induction rest with
  | nil =>
    intro lirs first last cur offset fuel ma h _ _
    have hc : cur = none := h.cur_eq
    refine ⟨lirs, first, last, offset, ma, ?_, ?_⟩
    · rw [linkLoop.eq_def]
      simp [hc]
    · rw [← hc]
      exact h
  | cons i rest ih =>
    intro lirs first last cur offset fuel ma h hfuel halign
    obtain ⟨hcur, l, hl, hnext, hnd⟩ := h.at_cur
    obtain ⟨r, hr, hrl⟩ := layoutOf_get hl
    have hrn : r.next = l.next := congrArg Layout.next hrl
    have hne : some i ≠ (none : Option Nat) := fun e => by cases e
    have hdis := (List.nodup_append.mp hnd).2.2
    have hnd2 := (List.nodup_append.mp hnd).2.1
    cases fuel with
    | zero => simp at hfuel
    | succ fuel =>
      have hfuel1 : rest.length ≤ fuel := by
        simp only [List.length_cons] at hfuel
        omega
      rw [hcur]
      cases hnop : r.flags.is_nop with
      | true =>
        rw [linkLoop_nop env none fuel lirs first last offset i r hne hr hnop, hrn]
        have hs := h.skip hl
        have e : lsize (layoutOf lirs) i = 0 := by
          rw [lsize_layoutOf, hr]
          simp [hnop]
        rw [e, Nat.add_zero, wrap32_of_lt h.offset_lt] at hs
        exact ih lirs first last l.next offset fuel _ hs hfuel1
          (fun j hj => halign j (List.mem_cons_of_mem _ hj))
      | false =>
        by_cases hfx : r.flags.fixup = kFixupNone
        · rw [linkLoop_nofixup env none fuel lirs first last offset i r hne hr hnop hfx, hrn]
          have hs := h.skip hl
          have e : lsize (layoutOf lirs) i = r.flags.size := by
            rw [lsize_layoutOf, hr]
            simp [hnop]
          rw [e] at hs
          exact ih lirs first last l.next _ fuel _ hs hfuel1
            (fun j hj => halign j (List.mem_cons_of_mem _ hj))
        · have hal := halign i (List.mem_cons_self _ _) r hr hnop hfx
          have hk := h.link hl (linkedSize r) (linkedFixup r)
          have hfirst : first = (chainOf ma).head? := Seg.head?_eq h.chain
          have hli : (linkedRec r offset).layout
              = ⟨l.next, l.prev, none, offset, false, linkedSize r, linkedFixup r⟩ := by
            rw [linkedRec_layout r offset hnop, hrl]
          cases hch : chainOf ma with
          | nil =>
            rw [hch] at hfirst
            simp only [List.head?_nil] at hfirst
            rw [hfirst, linkLoop_fixup_first env none fuel lirs last offset i r hne hr hnop hfx
              hal, hrn]
            have hlay : layoutOf (lirs.set i (linkedRec r offset))
                = linkedLayout (layoutOf lirs) i
                    ⟨l.next, l.prev, none, offset, false, linkedSize r, linkedFixup r⟩
                    (chainOf ma).getLast? := by
              funext j
              rw [layoutOf_set hr, hch]
              unfold linkedLayout
              by_cases hj : j = i
              · rw [if_pos hj, if_pos hj, hli]
              · rw [if_neg hj, if_neg hj]
                simp
            rw [← hlay, hch] at hk
            simp only [if_true] at hk
            apply ih _ _ _ _ _ fuel _ hk hfuel1
            intro j hj r' hr'
            have hji : j ≠ i := fun e => (List.nodup_cons.mp hnd2).1 (e ▸ hj)
            rw [List.getElem?_set_ne (Ne.symm hji)] at hr'
            exact halign j (List.mem_cons_of_mem _ hj) r' hr'
          | cons a as =>
            have hne2 : chainOf ma ≠ [] := by rw [hch]; exact List.cons_ne_nil _ _
            have hlast := h.last_eq hne2
            obtain ⟨c, hc⟩ : ∃ c, (chainOf ma).getLast? = some c := by
              cases hg : (chainOf ma).getLast? with
              | none => exact absurd (List.getLast?_eq_none_iff.mp hg) hne2
              | some c => exact ⟨c, rfl⟩
            have hcmem : c ∈ chainOf ma := getLast?_mem_of_eq hc
            have hcins : c ∈ insnsOf ma := mem_insnsOf_of_mem (mem_chainOf.mp hcmem)
            have hci : c ≠ i := fun e => hdis hcins (by rw [e]; exact List.mem_cons_self _ _)
            obtain ⟨lc, hlc⟩ := Seg.mem_some h.chain c hcmem
            obtain ⟨rc, hrc, hrcl⟩ := layoutOf_get hlc
            rw [hch] at hfirst
            simp only [List.head?_cons] at hfirst
            rw [hfirst, hlast, hc]
            rw [linkLoop_fixup_next env none fuel lirs a c rc offset i r hne hr hnop hfx hal
              hrc hci, hrn]
            have hlay : layoutOf
                (((lirs.set i { linkedRec r offset with offset := r.offset }).set c
                  { rc with pcrel_next := some i }).set i (linkedRec r offset))
                = linkedLayout (layoutOf lirs) i
                    ⟨l.next, l.prev, none, offset, false, linkedSize r, linkedFixup r⟩
                    (chainOf ma).getLast? := by
              funext j
              unfold linkedLayout layoutOf
              rw [hc]
              by_cases hj : j = i
              · subst hj
                rw [if_pos rfl, List.getElem?_set_self (by
                  rw [List.length_set, List.length_set]
                  exact (List.getElem?_eq_some_iff.mp hr).1)]
                rw [← hli]
                rfl
              · rw [if_neg hj, List.getElem?_set_ne (Ne.symm hj)]
                by_cases hjc : j = c
                · subst hjc
                  rw [if_pos rfl, List.getElem?_set_self (by
                    rw [List.length_set]
                    exact (List.getElem?_eq_some_iff.mp hrc).1), hrc]
                  rfl
                · rw [if_neg (fun e => hjc (by injection e with e; exact e.symm)),
                    List.getElem?_set_ne (Ne.symm hjc), List.getElem?_set_ne (Ne.symm hj)]
            rw [← hlay, hch] at hk
            simp only [List.cons_ne_nil, if_false] at hk
            rw [hfirst] at hk
            apply ih _ _ _ _ _ fuel _ hk hfuel1
            intro j hj r' hr'
            have hji : j ≠ i := fun e => (List.nodup_cons.mp hnd2).1 (e ▸ hj)
            have hjc : j ≠ c := fun e => hdis hcins (by
              rw [← e]
              exact List.mem_cons_of_mem _ hj)
            rw [List.getElem?_set_ne (Ne.symm hji), List.getElem?_set_ne (Ne.symm hjc),
              List.getElem?_set_ne (Ne.symm hji)] at hr'
            exact halign j (List.mem_cons_of_mem _ hj) r' hr'

theorem Seg.last_none {sel : Layout → Option Nat} {L : Nat → Option Layout} :
    ∀ {xs : List Nat} {p : Option Nat} {t : Nat}, Seg sel L none p xs → xs.getLast? = some t →
      ∃ l, L t = some l ∧ sel l = none := by
  intro xs
  induction xs with
  | nil => intro p t _ ht; simp at ht
  | cons i rest ih =>
    intro p t h ht
    obtain ⟨_, l, hl, hrest⟩ := h
    cases rest with
    | nil =>
      simp only [List.getLast?_singleton, Option.some.injEq] at ht
      subst ht
      exact ⟨l, hl, hrest⟩
    | cons j r2 =>
      rw [List.getLast?_cons_cons] at ht
      exact ih hrest ht

theorem LinkInv.link_finish {m : Mir2Lir} {first last : Option Nat} {off : Nat}
    {marked : List (Nat × Bool)} {lirs : List LIR}
    (h : LinkInv (layoutOf lirs) m.first_lir_insn_ first last none off marked []) :
    ChainInv { m with lirs := lirs, first_fixup_ := first } := by
  refine ⟨marked, ?_, h.chain, ?_, ?_, h.visited⟩
  · have := h.insns
    rw [List.append_nil] at this
    exact this
  · have := h.prevs
    rw [List.append_nil] at this
    exact this
  · intro c l hc hl hn
    rw [h.emitting c l hc hl] at hn
    cases hn

/-- From a well-formed instruction list without a chain, `LinkFixupInsns` returns, given
fuel for the records of the list, and leaves a state with the invariant of the chain. -/
theorem LinkFixupInsns_ChainInv {env : Env} {fuel : Nat} {m : Mir2Lir} {insns : List Nat}
    (h : LinkReady env m insns) (hfuel : insns.length ≤ fuel) :
    ∃ m1 off, LinkFixupInsns env fuel m m.first_lir_insn_ m.last_lir_insn_ 0 = .ok (m1, off) ∧
      ChainInv m1 := by
  obtain ⟨hff, hpath, hlast, hne, hprev, halign⟩ := h
  have hseg := hpath.seg
  obtain ⟨t, ht⟩ : ∃ t, insns.getLast? = some t := by
    cases hg : insns.getLast? with
    | none => exact absurd (List.getLast?_eq_none_iff.mp hg) hne
    | some t => exact ⟨t, rfl⟩
  obtain ⟨lt, hlt, hltn⟩ := Seg.last_none hseg ht
  obtain ⟨rt, hrt, hrtl⟩ := layoutOf_get hlt
  have hrtn : rt.next = none := by
    have : rt.next = lt.next := congrArg Layout.next hrtl
    rw [this]
    exact hltn
  have h0 : LinkInv (layoutOf m.lirs) m.first_lir_insn_ none none m.first_lir_insn_ 0 []
      insns := {
    insns := hseg
    cur_eq := Seg.head?_eq hseg
    chain := rfl
    last_eq := fun hc => absurd rfl hc
    prevs := hprev
    emitting := fun c l hc => by cases hc
    visited := trivial
    offset_lt := by decide
    offset_eq := by simp [insnsOf, lsum] }
  obtain ⟨lirs1, first1, last1, off1, marked, hrun, hinv⟩ :=
    linkLoop_inv env m.first_lir_insn_ insns m.lirs none none m.first_lir_insn_ 0 fuel [] h0
      hfuel halign
  refine ⟨{ m with lirs := lirs1, first_fixup_ := first1 }, off1, ?_, hinv.link_finish⟩
  unfold LinkFixupInsns
  rw [hlast, ht, getLIR_some hrt]
  simp only [bind, Except.bind, hrtn, hff, hrun, pure, Except.pure]

/-! ## C11: the invariant of the fixup chain -/

theorem ChainInv.chain_congr {m1 m2 : Mir2Lir} (h : ChainInv m1) (hl : m2.lirs = m1.lirs)
    (hi : m2.first_lir_insn_ = m1.first_lir_insn_) (hf : m2.first_fixup_ = m1.first_fixup_) :
    ChainInv m2 := by
  unfold ChainInv
  rw [hl, hi, hf]
  exact h

/-- The fixup loop keeps the invariant of the chain, when the assignment of the data
offsets between two passes leaves the records and the heads of the two lists alone. -/
theorem fixupLoop_ChainInv {env : Env} {fuel : Nat}
    (hdata : ∀ m, (env.assignData m).lirs = m.lirs ∧
      (env.assignData m).first_lir_insn_ = m.first_lir_insn_ ∧
      (env.assignData m).first_fixup_ = m.first_fixup_) :
    ∀ (rounds : Nat) (m : Mir2Lir) (generation assembler_retries starting_offset : Nat)
      (m1 : Mir2Lir) (so : Nat), ChainInv m →
      fixupLoop env fuel rounds m generation assembler_retries starting_offset = .ok (m1, so) →
      ChainInv m1 := by
  intro rounds
  induction rounds with
  | zero =>
    intro m generation assembler_retries starting_offset m1 so _ h
    unfold fixupLoop at h
    cases h
  | succ rounds ih =>
    intro m generation assembler_retries starting_offset m1 so hinv h
    unfold fixupLoop at h
    dsimp only at h
    cases hp : fixupPass env (generation ^^^ 1) fuel m
        { offset_adjustment := 0, res := .kSuccess, prev_lir := none, lir := m.first_fixup_ } with
    | error e => rw [hp] at h; cases h
    | ok v =>
      obtain ⟨m2, loc2⟩ := v
      rw [hp] at h
      dsimp only at h
      have hinv2 : ChainInv m2 := fixupPass_ChainInv hinv hp
      by_cases hres : loc2.res = .kSuccess
      · rw [if_pos hres] at h
        split at h
        · cases h
        · injection h with h
          injection h with h1 h2
          rw [← h1]
          exact hinv2
      · rw [if_neg hres] at h
        split at h
        · cases h
        · apply ih _ _ _ _ _ _ _ h
          exact hinv2.chain_congr (hdata _).1 (hdata _).2.1 (hdata _).2.2

/-- C11. The invariant of the fixup chain (`ChainInv`: the instruction list is a doubly
linked list, the chain consists of marked records of it in the order of the list, and the
offset of every chain node is the sum of `flags.size` of the records before it that are not
flagged `is_nop`, as a `uint32_t`) holds after `LinkFixupInsns`, which returns on every
well-formed instruction list given fuel for its records; it holds after every pass of the
fixup loop that comes to its end, whether the pass elides branches, replaces `tbz/tbnz` or
inserts `nop`s, and so after the loop; and it gives the property in the words of the
specification (`ChainOrdered`): the chain is a sublist of the instruction list, every
chain node has the offset that the sizes before it give, and the offsets do not decrease
along the chain when the stream is smaller than `2^32` bytes. -/
theorem chain_invariant (env : Env) :
    (∀ (fuel : Nat) (m : Mir2Lir) (insns : List Nat), LinkReady env m insns →
      insns.length ≤ fuel →
      ∃ m1 off, LinkFixupInsns env fuel m m.first_lir_insn_ m.last_lir_insn_ 0 = .ok (m1, off) ∧
        ChainInv m1) ∧
    (∀ (generation fuel : Nat) (m m1 : Mir2Lir) (loc1 : FixupLocals), ChainInv m →
      fixupPass env generation fuel m
        { offset_adjustment := 0, res := .kSuccess, prev_lir := none, lir := m.first_fixup_ }
          = .ok (m1, loc1) →
      ChainInv m1) ∧
    ((∀ m, (env.assignData m).lirs = m.lirs ∧
        (env.assignData m).first_lir_insn_ = m.first_lir_insn_ ∧
        (env.assignData m).first_fixup_ = m.first_fixup_) →
      ∀ (fuel rounds : Nat) (m : Mir2Lir) (generation assembler_retries starting_offset : Nat)
        (m1 : Mir2Lir) (so : Nat), ChainInv m →
        fixupLoop env fuel rounds m generation assembler_retries starting_offset
          = .ok (m1, so) →
        ChainInv m1) ∧
    (∀ m, ChainInv m → ChainOrdered m) :=
  ⟨fun _ _ _ h hfuel => LinkFixupInsns_ChainInv h hfuel,
    fun _ _ _ _ _ hinv h => fixupPass_ChainInv hinv h,
    fun hdata _ rounds m g r s m1 so hinv h =>
      fixupLoop_ChainInv hdata rounds m g r s m1 so hinv h,
    fun _ h => h.ordered⟩

theorem chain_invariant_witness :
    LinkReady (mkEnv releaseConfig) elideStream [0, 1, 2] ∧
    LinkFixupInsns (mkEnv releaseConfig) 3 elideStream (some 0) (some 2) 0
      = .ok (elideStreamLinked, 8) ∧
    fixupPass (mkEnv releaseConfig) 1 3 elideStreamLinked
        { offset_adjustment := 0, res := .kSuccess, prev_lir := none, lir := some 0 }
      = .ok (elideStreamElided, ⟨-4, .kRetryAll, some 1, none⟩) ∧
    ChainOrdered elideStreamLinked ∧ ChainOrdered elideStreamElided := by
  have hready : LinkReady (mkEnv releaseConfig) elideStream [0, 1, 2] := by
    refine ⟨rfl, ?_, rfl, by decide, ?_, ?_⟩
    · simp [NextPath, NextSeg, elideStream]
    · simp [PrevLinked, layoutOf, LIR.layout, elideStream]
    · intro i _ r _ _ _ c _ hk
      cases hk
  have hlink : LinkFixupInsns (mkEnv releaseConfig) 3 elideStream (some 0) (some 2) 0
      = .ok (elideStreamLinked, 8) := by decide
  have hpass : fixupPass (mkEnv releaseConfig) 1 3 elideStreamLinked
        { offset_adjustment := 0, res := .kSuccess, prev_lir := none, lir := some 0 }
      = .ok (elideStreamElided, ⟨-4, .kRetryAll, some 1, none⟩) := by decide
  obtain ⟨m1, off, hrun, hinv⟩ :=
    (chain_invariant (mkEnv releaseConfig)).1 3 elideStream [0, 1, 2] hready (by decide)
  have hm1 : m1 = elideStreamLinked := by
    have e : LinkFixupInsns (mkEnv releaseConfig) 3 elideStream elideStream.first_lir_insn_
        elideStream.last_lir_insn_ 0 = .ok (elideStreamLinked, 8) := hlink
    rw [e] at hrun
    injection hrun with hrun
    injection hrun with h1 _
    exact h1.symm
  rw [hm1] at hinv
  have hinv2 := (chain_invariant (mkEnv releaseConfig)).2.1 1 3 elideStreamLinked
    elideStreamElided _ hinv hpass
  exact ⟨hready, hlink, hpass, (chain_invariant (mkEnv releaseConfig)).2.2.2 _ hinv,
    (chain_invariant (mkEnv releaseConfig)).2.2.2 _ hinv2⟩

/-! ## C15: a branch to the next instruction is elided -/

/-- A round of the inner loop at a node of the kind `kFixupT1Branch` that is in range. -/
theorem fixupStep_T1_eq (env : Env) (fuel generation : Nat) (m : Mir2Lir)
    (loc : FixupLocals) (p : Nat) (r : LIR) (d : Int) (hr : m.lirs[p]? = some r)
    (hk : r.flags.fixup = kFixupT1Branch)
    (hd : fixupDelta env (visitState m loc.offset_adjustment generation p).lirs
      (visitRec r loc.offset_adjustment generation) loc.offset_adjustment = .ok d)
    (hi : IS_SIGNED_IMM26 (asr d 2) = true) :
    fixupStep env fuel generation m loc p =
      if !env.safe_optimizations_disabled && asr d 2 == 1 then
        .ok (
          { m with
            lirs := m.lirs.set p
              { visitRec r loc.offset_adjustment generation with
                operands := r.operands.set 0 (asr d 2),
                flags := { (visitRec r loc.offset_adjustment generation).flags with
                           is_nop := true, fixup := kFixupNone } } },
          { offset_adjustment := loc.offset_adjustment - r.flags.size, res := .kRetryAll,
            prev_lir := some p, lir := r.pcrel_next })
      else
        .ok (
          { m with
            lirs := m.lirs.set p
              { visitRec r loc.offset_adjustment generation with
                operands := r.operands.set 0 (asr d 2) } },
          { loc with prev_lir := some p, lir := r.pcrel_next }) := by
  have hr0 := visitState_get m loc.offset_adjustment generation p r hr
  have hset : ∀ x, (visitState m loc.offset_adjustment generation p).lirs.set p x
      = m.lirs.set p x := by
    intro x
    unfold visitState
    rw [updAt_of_some hr]
    exact List.set_set _ _ _ _
  rw [fixupStep_eq env fuel generation m loc p r hr, hk]
  simp only [fixupSwitch]
  rw [fixupT1Branch_eq env _ loc p _ d hr0 hd, hi]
  simp only [if_true]
  split
  · simp only [bind, Except.bind, pure, Except.pure, Bool.false_eq_true, if_false,
      getLIR_some (getElem?_set_self_of_some hr0 _)]
    rw [hset]
    rfl
  · simp only [bind, Except.bind, pure, Except.pure, Bool.false_eq_true, if_false,
      getLIR_some (getElem?_set_self_of_some hr0 _)]
    rw [hset]
    rfl

theorem emitsAt_set_ne {lirs : List LIR} {p i : Nat} (x : LIR) (h : i ≠ p) :
    emitsAt (lirs.set p x) i = emitsAt lirs i := by
  unfold emitsAt
  rw [List.getElem?_set_ne (Ne.symm h)]

theorem filter_emitsAt_set_not_mem {lirs : List LIR} {p : Nat} (x : LIR) :
    ∀ {idxs : List Nat}, p ∉ idxs →
      idxs.filter (emitsAt (lirs.set p x)) = idxs.filter (emitsAt lirs) := by
  intro idxs hp
  apply List.filter_congr
  intro i hi
  exact emitsAt_set_ne x (fun e => hp (e ▸ hi))

/-- When a record that emitted is replaced by one that does not, the instruction list has
one emitting record less. -/
theorem filter_emitsAt_set {lirs : List LIR} {p : Nat} {r r1 : LIR} (hr : lirs[p]? = some r)
    (he : emits r = true) (he1 : emits r1 = false) :
    ∀ {idxs : List Nat}, idxs.Nodup → p ∈ idxs →
      (idxs.filter (emitsAt (lirs.set p r1))).length + 1
        = (idxs.filter (emitsAt lirs)).length := by
  intro idxs
  induction idxs with
  | nil => intro _ hp; cases hp
  | cons i rest ih =>
    intro hnd hp
    have hnd' := List.nodup_cons.mp hnd
    by_cases hip : i = p
    · subst hip
      have h0 : emitsAt lirs i = true := by
        unfold emitsAt
        rw [hr]
        exact he
      have h1 : emitsAt (lirs.set i r1) i = false := by
        unfold emitsAt
        rw [getElem?_set_self_of_some hr]
        exact he1
      rw [List.filter_cons_of_neg (by rw [h1]; exact Bool.false_ne_true),
        List.filter_cons_of_pos h0, filter_emitsAt_set_not_mem r1 hnd'.1]
      rfl
    · have hp' : p ∈ rest := by
        rcases List.mem_cons.mp hp with h | h
        · exact absurd h.symm hip
        · exact h
      have hi : emitsAt (lirs.set p r1) i = emitsAt lirs i := emitsAt_set_ne r1 hip
      cases hb : emitsAt lirs i with
      | true =>
        rw [List.filter_cons_of_pos (by rw [hi, hb]), List.filter_cons_of_pos hb]
        simp only [List.length_cons]
        rw [ih hnd'.2 hp']
      | false =>
        rw [List.filter_cons_of_neg (by rw [hi, hb]; exact Bool.false_ne_true),
          List.filter_cons_of_neg (by rw [hb]; exact Bool.false_ne_true)]
        exact ih hnd'.2 hp'

/-- In a build without checks, `EncodeLIRs` stores four bytes for every emitting record of
the instruction list. -/
theorem EncodeLIRs_release_length (cfg : BuildConfig) (hd : cfg.kIsDebugBuild = false)
    (hc : cfg.kEnableDChecks = false) (lirs : List LIR) (write_pos : Nat) (head : Option Nat)
    (idxs : List Nat) (fuel : Nat) (hpath : NextPath lirs head idxs)
    (hfuel : idxs.length ≤ fuel) :
    ∃ lirs1 out, EncodeLIRs cfg fuel lirs write_pos head
        = .ok (lirs1, out, write_pos + out.length) ∧
      out.length = 4 * (idxs.filter (emitsAt lirs)).length := by
  have hword : ∀ i ∈ idxs, ∀ r op, lirs[i]? = some r → r.opcode.base = .insn op →
      r.flags.is_nop = false → encodeInsn cfg r op = .ok (wordAt cfg lirs i) := by
    intro i _ r op hr hop _
    obtain ⟨w, hw⟩ := encodeInsn_release cfg hd hc r op
    exact wordAt_spec cfg lirs i r op hr hop w hw
  obtain ⟨lirs1, hrun, _⟩ :=
    EncodeLIRsFrom_bytes cfg lirs (wordAt cfg lirs) idxs lirs [] head fuel rfl hpath hfuel hword
  refine ⟨lirs1, emittedBytes lirs (wordAt cfg lirs) idxs, ?_, emittedBytes_length _ _ _⟩
  unfold EncodeLIRs
  rw [hrun]
  rfl

theorem NextPath.set_same_next {lirs : List LIR} {p : Nat} {r r1 : LIR}
    (hr : lirs[p]? = some r) (hn : r1.next = r.next) {head : Option Nat} {idxs : List Nat}
    (h : NextPath lirs head idxs) : NextPath (lirs.set p r1) head idxs := by
  apply Seg.nextPath
  apply Seg.seg_congr _ h.seg
  intro i _
  rw [layoutOf_set hr]
  by_cases hi : i = p
  · rw [if_pos hi, hi]
    unfold layoutOf
    rw [hr]
    exact congrArg some hn
  · rw [if_neg hi]

theorem NextPath.path_nodup {lirs : List LIR} {head : Option Nat} {idxs : List Nat}
    (h : NextPath lirs head idxs) : idxs.Nodup := Seg.seg_nodup h.seg

theorem T1Branch_size_table :
    ∀ op : A64Opcode, (EncodingMap op).fixup = kFixupT1Branch → (EncodingMap op).size = 4 := by
  intro op
  cases op <;> decide

/-- C15. A round of the inner loop at an unconditional branch (kind `kFixupT1Branch`) whose
`delta >> 2` is a signed 26-bit value succeeds and changes only the record of the branch.
With safe optimizations enabled and `delta >> 2 == 1` (the target is the instruction that
follows the branch) the record is flagged `is_nop`, its kind becomes `kFixupNone`,
`offset_adjustment` decreases by `flags.size` (which is 4 for a record that has the size
and kind of its table entry), a retry is requested, the record no longer emits, and in a
build without checks `EncodeLIRs` stores 4 bytes less for every instruction list that
contains the branch. With safe optimizations disabled, or for another `delta`, the record
keeps `is_nop` and its kind, and `offset_adjustment` and `res` are unchanged. -/
theorem useless_branch_elided (env : Env) (fuel generation : Nat) (m : Mir2Lir)
    (loc : FixupLocals) (p : Nat) (r : LIR) (d : Int) (hr : m.lirs[p]? = some r)
    (hk : r.flags.fixup = kFixupT1Branch)
    (hd : fixupDelta env (visitState m loc.offset_adjustment generation p).lirs
      (visitRec r loc.offset_adjustment generation) loc.offset_adjustment = .ok d)
    (hi : IS_SIGNED_IMM26 (asr d 2) = true) :
    ∃ m1 loc1 r1, fixupStep env fuel generation m loc p = .ok (m1, loc1) ∧
      m1 = { m with lirs := m.lirs.set p r1 } ∧
      r1.opcode = r.opcode ∧ r1.next = r.next ∧ r1.flags.size = r.flags.size ∧
      loc1.prev_lir = some p ∧ loc1.lir = r.pcrel_next ∧
      (env.safe_optimizations_disabled = false → asr d 2 = 1 →
        r1.flags.is_nop = true ∧ r1.flags.fixup = kFixupNone ∧
        loc1.offset_adjustment = loc.offset_adjustment - r.flags.size ∧
        loc1.res = .kRetryAll ∧ emits r1 = false ∧
        (∀ op, r.opcode.base = .insn op → r.flags.size = (EncodingMap op).size →
          r.flags.fixup = (EncodingMap op).fixup →
          loc1.offset_adjustment = loc.offset_adjustment - 4) ∧
        (∀ (head : Option Nat) (idxs : List Nat) (fuel1 : Nat),
          env.kIsDebugBuild = false → env.kEnableDChecks = false →
          NextPath m.lirs head idxs → idxs.length ≤ fuel1 → p ∈ idxs → emits r = true →
          ∃ l0 o0 l1 o1,
            EncodeLIRs env.toBuildConfig fuel1 m.lirs 0 head = .ok (l0, o0, 0 + o0.length) ∧
            EncodeLIRs env.toBuildConfig fuel1 m1.lirs 0 head = .ok (l1, o1, 0 + o1.length) ∧
            o1.length + 4 = o0.length)) ∧
      (env.safe_optimizations_disabled = true ∨ asr d 2 ≠ 1 →
        r1.flags.is_nop = r.flags.is_nop ∧ r1.flags.fixup = kFixupT1Branch ∧
        loc1.offset_adjustment = loc.offset_adjustment ∧ loc1.res = loc.res) := by
  have heq := fixupStep_T1_eq env fuel generation m loc p r d hr hk hd hi
  by_cases hc : (!env.safe_optimizations_disabled && asr d 2 == 1) = true
  · rw [if_pos hc] at heq
    have hdis : env.safe_optimizations_disabled = false := by
      cases h : env.safe_optimizations_disabled with
      | false => rfl
      | true => rw [h] at hc; simp at hc
    have hone : asr d 2 = 1 := by
      rw [hdis] at hc
      simpa using hc
    refine ⟨_, _, _, heq, rfl, rfl, rfl, rfl, rfl, rfl, ?_, ?_⟩
    · intro _ _
      refine ⟨rfl, rfl, rfl, rfl, ?_, ?_, ?_⟩
      · simp [emits]
      · intro op hop hsz hfx
        have h4 : (EncodingMap op).size = 4 :=
          T1Branch_size_table op (by rw [← hfx]; exact hk)
        show loc.offset_adjustment - (r.flags.size : Int) = loc.offset_adjustment - 4
        rw [hsz, h4]
        rfl
      · intro head idxs fuel1 hdb hck hpath hfuel hmem hem
        obtain ⟨l0, o0, hrun0, hlen0⟩ := EncodeLIRs_release_length env.toBuildConfig hdb hck
          m.lirs 0 head idxs fuel1 hpath hfuel
        have hpath1 := @NextPath.set_same_next m.lirs p r
          { visitRec r loc.offset_adjustment generation with
            operands := r.operands.set 0 (asr d 2),
            flags := { (visitRec r loc.offset_adjustment generation).flags with
                       is_nop := true, fixup := kFixupNone } } hr rfl head idxs hpath
        obtain ⟨l1, o1, hrun1, hlen1⟩ := EncodeLIRs_release_length env.toBuildConfig hdb hck
          _ 0 head idxs fuel1 hpath1 hfuel
        refine ⟨l0, o0, l1, o1, hrun0, hrun1, ?_⟩
        have hcount := @filter_emitsAt_set m.lirs p r
          { visitRec r loc.offset_adjustment generation with
            operands := r.operands.set 0 (asr d 2),
            flags := { (visitRec r loc.offset_adjustment generation).flags with
                       is_nop := true, fixup := kFixupNone } } hr hem (by simp [emits]) idxs
          hpath.path_nodup hmem
        rw [hlen0, hlen1, ← hcount]
        ring
    · intro h
      rcases h with h | h
      · rw [hdis] at h
        cases h
      · exact absurd hone h
  · rw [if_neg hc] at heq
    refine ⟨_, _, _, heq, rfl, rfl, rfl, rfl, rfl, rfl, ?_, ?_⟩
    · intro hdis hone
      exfalso
      apply hc
      rw [hdis, hone]
      rfl
    · intro _
      exact ⟨rfl, hk, rfl, rfl⟩

theorem useless_branch_elided_witness :
    (∃ m1 loc1 r1, fixupStep (mkEnv releaseConfig) 3 1 elideStreamLinked
        ⟨0, .kSuccess, none, some 0⟩ 0 = .ok (m1, loc1) ∧
      m1 = { elideStreamLinked with lirs := elideStreamLinked.lirs.set 0 r1 } ∧
      r1.flags.is_nop = true ∧ r1.flags.fixup = kFixupNone ∧
      loc1.offset_adjustment = -4 ∧ loc1.res = .kRetryAll ∧ emits r1 = false) ∧
    (AssembleLIR (mkEnv releaseConfig) 3 elideStream).map Mir2Lir.code_buffer_
      = .ok [192, 3, 95, 214] ∧
    (AssembleLIR { mkEnv releaseConfig with safe_optimizations_disabled := true } 3
        elideStream).map Mir2Lir.code_buffer_
      = .ok [1, 0, 0, 20, 192, 3, 95, 214] := by
  obtain ⟨m1, loc1, r1, h1, h2, _, _, _, _, _, h3, _⟩ :=
    useless_branch_elided (mkEnv releaseConfig) 3 1 elideStreamLinked
      ⟨0, .kSuccess, none, some 0⟩ 0
      ⟨0, 0, kA64B1t, some 1, none, some 1, ⟨false, 4, true, 0, kFixupT1Branch⟩, some 1,
        ⟨0, 0, 0, 0, 0⟩⟩ 4 rfl rfl (by decide) (by decide)
  obtain ⟨h4, h5, h6, h7, h8, _⟩ := h3 rfl (by decide)
  exact ⟨⟨m1, loc1, r1, h1, h2, h4, h5, h6, h7, h8⟩, by decide, by decide⟩

/-! ## The rewriting rounds succeed -/

theorem Runs.runs_bind {α β : Type} {x : Except Fault α} {f : α → Except Fault β}
    (hx : Runs x) (hf : ∀ a, x = .ok a → Runs (f a)) : Runs (x >>= f) := by
  obtain ⟨a, ha⟩ := hx
  obtain ⟨b, hb⟩ := hf a ha
  exact ⟨b, by rw [ha]; exact hb⟩

theorem Runs.runs_pure {α : Type} (a : α) : Runs (pure a : Except Fault α) := ⟨a, rfl⟩

theorem getLIR_runs {lirs : List LIR} {i : Nat} (h : i < lirs.length) :
    Runs (getLIR lirs (some i)) :=
  ⟨lirs[i], getLIR_some (List.getElem?_eq_getElem h)⟩

theorem updLIR_runs {lirs : List LIR} {i : Nat} (f : LIR → LIR) (h : i < lirs.length) :
    Runs (updLIR lirs (some i) f) :=
  ⟨_, updLIR_some (List.getElem?_eq_getElem h) f⟩

theorem updLIR_length {lirs lirs1 : List LIR} {p : Option Nat} {f : LIR → LIR}
    (h : updLIR lirs p f = .ok lirs1) : lirs1.length = lirs.length := by
  obtain ⟨i, _, _, e⟩ := updLIR_ok_updAt h
  rw [e, length_updAt]

theorem DCHECK_runs {cfg : BuildConfig} {cond : Bool} (msg : String)
    (h : cfg.kEnableDChecks = true → cond = true) : DCHECK cfg cond msg = .ok () := by
  unfold DCHECK
  cases hk : cfg.kEnableDChecks with
  | false => simp
  | true => simp [h hk]

theorem InsertLIRAfter_runs {lirs : List LIR} {a b : Nat} {cur : LIR}
    (ha : lirs[a]? = some cur) (hb : b < lirs.length)
    (hq : ∀ q, cur.next = some q → q < lirs.length) :
    Runs (InsertLIRAfter lirs (some a) (some b)) := by
  have halt : a < lirs.length := (List.getElem?_eq_some_iff.mp ha).1
  unfold InsertLIRAfter
  rw [getLIR_some ha]
  apply Runs.runs_bind (updLIR_runs _ hb)
  intro l1 h1
  have e1 := updLIR_length h1
  apply Runs.runs_bind (updLIR_runs _ (by rw [e1]; exact halt))
  intro l2 h2
  have e2 := updLIR_length h2
  cases hn : cur.next with
  | none => exact ⟨l2, by simp only [beq_self_eq_true, if_true]; rfl⟩
  | some q =>
    simp only [beq_iff_eq, if_false]
    exact updLIR_runs _ (by rw [e2, e1]; exact hq q hn)

theorem InsertLIRBefore_runs {lirs : List LIR} {a b : Nat} {cur : LIR}
    (ha : lirs[a]? = some cur) (hb : b < lirs.length)
    (hq : ∀ q, cur.prev = some q → q < lirs.length) :
    Runs (InsertLIRBefore lirs (some a) (some b)) := by
  have halt : a < lirs.length := (List.getElem?_eq_some_iff.mp ha).1
  unfold InsertLIRBefore
  rw [getLIR_some ha]
  apply Runs.runs_bind (updLIR_runs _ hb)
  intro l1 h1
  have e1 := updLIR_length h1
  apply Runs.runs_bind (updLIR_runs _ (by rw [e1]; exact halt))
  intro l2 h2
  have e2 := updLIR_length h2
  cases hn : cur.prev with
  | none => exact ⟨l2, by simp only [beq_self_eq_true, if_true]; rfl⟩
  | some q =>
    simp only [beq_iff_eq, if_false]
    exact updLIR_runs _ (by rw [e2, e1]; exact hq q hn)

theorem ReplaceFixup_runs {m : Mir2Lir} {prev_lir : Option Nat} {orig new : Nat}
    (ho : orig < m.lirs.length) (hn : new < m.lirs.length)
    (hc : ∀ c, prev_lir = some c → c < m.lirs.length) :
    Runs (ReplaceFixup m prev_lir (some orig) (some new)) := by
  unfold ReplaceFixup
  apply Runs.runs_bind (getLIR_runs ho)
  intro o _
  apply Runs.runs_bind (updLIR_runs _ hn)
  intro l1 h1
  have e1 := updLIR_length h1
  dsimp only
  cases hp : prev_lir with
  | none =>
    simp only [beq_self_eq_true, if_true]
    apply Runs.runs_bind (Runs.runs_pure _)
    intro m2 hm2
    simp only [pure, Except.pure] at hm2
    injection hm2 with hm2
    subst hm2
    apply Runs.runs_bind (updLIR_runs _ (by show orig < l1.length; rw [e1]; exact ho))
    intro l3 _
    exact Runs.runs_pure _
  | some c =>
    simp only [beq_iff_eq, if_false]
    apply Runs.runs_bind (updLIR_runs _ (by show c < l1.length; rw [e1]; exact hc c hp))
    intro l2 h2
    have e2 := updLIR_length h2
    apply Runs.runs_bind (Runs.runs_pure _)
    intro m2 hm2
    simp only [pure, Except.pure] at hm2
    injection hm2 with hm2
    subst hm2
    apply Runs.runs_bind (updLIR_runs _ (by show orig < l2.length; rw [e2, e1]; exact ho))
    intro l3 _
    exact Runs.runs_pure _

theorem tbxzCheckWidth_runs {env : Env} {lirs : List LIR} {r : LIR} {p : Nat}
    (hp : p < lirs.length)
    (hchk : env.kEnableDChecks = true → r.operands.get 1 ≥ 32 → IS_WIDE r.opcode = true) :
    Runs (tbxzCheckWidth env lirs r p) := by
  unfold tbxzCheckWidth
  dsimp only
  split
  · rename_i h32
    rw [DCHECK_runs _ (fun hk => hchk hk h32)]
    exact Runs.runs_pure _
  · split
    · exact updLIR_runs _ hp
    · exact Runs.runs_pure _

/-- The rewriting of an out-of-range `tbz/tbnz` succeeds when the checks pass and the
pointers of the record and of the pass lead to records. -/
theorem tbxzWiden_runs {env : Env} {generation : Nat} {m : Mir2Lir} {loc : FixupLocals}
    {p : Nat} {opcode : Opcode} {lirs : List LIR} {r : LIR}
    (hr : lirs[p]? = some r)
    (hchk : env.kEnableDChecks = true →
      env.EncodeLogicalImmediate (IS_WIDE opcode) (toU64 (intShl1 (r.operands.get 1))) ≠ -1 ∧
      (UNWIDE opcode = .insn kA64Tbz3rht ∨ UNWIDE opcode = .insn kA64Tbnz3rht))
    (hq : ∀ q, r.next = some q → q < lirs.length)
    (hc : ∀ c, loc.prev_lir = some c → c < lirs.length) :
    Runs (tbxzWiden env generation m loc p opcode lirs r) := by
  have hp : p < lirs.length := (List.getElem?_eq_some_iff.mp hr).1
  unfold tbxzWiden
  dsimp only
  apply Runs.runs_bind ⟨(), DCHECK_runs _ (fun hk => by simpa using (hchk hk).1)⟩
  intro _ _
  apply Runs.runs_bind (updLIR_runs _ hp)
  intro lA hA
  have eA := updLIR_length hA
  obtain ⟨r0, hr0, hlA⟩ := updLIR_ok hA
  rw [hr] at hr0
  injection hr0 with hr0
  subst hr0
  have htst := getElem?_set_self_of_some hr
    ({ r with
       opcode := if IS_WIDE opcode then WIDE kA64Tst2rl else kA64Tst2rl,
       operands := r.operands.set 1
         (env.EncodeLogicalImmediate (IS_WIDE opcode) (toU64 (intShl1 (r.operands.get 1)))),
       target := none,
       flags := { r.flags with fixup := (EncodingMap kA64Tst2rl).fixup,
                               size := (EncodingMap kA64Tst2rl).size } } : LIR)
  rw [← hlA] at htst
  rw [getLIR_some htst]
  apply Runs.runs_bind ⟨_, rfl⟩
  intro tst htst2
  injection htst2 with htst2
  subst htst2
  apply Runs.runs_bind ⟨(), DCHECK_runs _ (fun hk => by
    rcases (hchk hk).2 with h | h <;> simp [h])⟩
  intro _ _
  dsimp only
  have hins := @InsertLIRAfter_runs
    (lA ++ [RawLIR r.dalvik_offset kA64B2ct
      (if (UNWIDE opcode == OpcodeBase.insn kA64Tbz3rht) = true then env.kArmCondEq
       else env.kArmCondNe) 0 0 0 0 r.target]) p lA.length _
    (by rw [List.getElem?_append_left (by rw [eA]; exact hp)]; exact htst)
    (by simp)
    (by
      intro q hq2
      have := hq q hq2
      simp only [List.length_append, List.length_singleton]
      omega)
  apply Runs.runs_bind hins
  intro lC hC
  obtain ⟨_, _, _, _, eC⟩ := InsertLIRAfter_ok hC
  have hlenC : lC.length = lirs.length + 1 := by
    rw [eC, length_insertedAfter, List.length_append, eA]
    rfl
  apply Runs.runs_bind (getLIR_runs (by rw [hlenC]; omega))
  intro lirC _
  apply Runs.runs_bind (updLIR_runs _ (by rw [hlenC, eA]; omega))
  intro lD hD
  have hlenD : lD.length = lirs.length + 1 := by rw [updLIR_length hD, hlenC]
  apply Runs.runs_bind (getLIR_runs (by rw [hlenD, eA]; omega))
  intro new _
  apply Runs.runs_bind (@ReplaceFixup_runs { m with lirs := lD } loc.prev_lir p lA.length
    (by show p < lD.length; rw [hlenD]; omega)
    (by show lA.length < lD.length; rw [hlenD, eA]; omega)
    (by
      intro c hc2
      have := hc c hc2
      show c < lD.length
      rw [hlenD]
      omega))
  intro m2 hm2
  obtain ⟨_, _, _, _, em2⟩ := ReplaceFixup_ok hm2
  have hlen2 : m2.lirs.length = lirs.length + 1 := by
    rw [em2]
    show (replacedFixup lD _ _ _ _).length = _
    rw [length_replacedFixup, hlenD]
  apply Runs.runs_bind (getLIR_runs (by rw [hlen2, eA]; omega))
  intro new2 _
  exact Runs.runs_pure _

theorem tbxzNarrowed_fields (env : Env) (r : LIR) :
    (tbxzNarrowed env r).next = r.next ∧ (tbxzNarrowed env r).operands.get 1 = r.operands.get 1 ∧
    (tbxzNarrowed env r).target = r.target ∧ (tbxzNarrowed env r).flags = r.flags ∧
    (tbxzNarrowed env r).dalvik_offset = r.dalvik_offset := by
  unfold tbxzNarrowed
  split_ifs
  · exact ⟨rfl, rfl, rfl, rfl, rfl⟩
  · refine ⟨rfl, ?_, rfl, rfl, rfl⟩
    cases r.operands
    rfl
  · exact ⟨rfl, rfl, rfl, rfl, rfl⟩

/-- The case `kFixupTBxZ` succeeds when the checks pass, the distance to the target can be
computed, and the pointers of the record and of the pass lead to records. -/
theorem fixupTBxZ_runs {env : Env} {generation : Nat} {m : Mir2Lir} {loc : FixupLocals}
    {p : Nat} {r : LIR} {d : Int} (hr : m.lirs[p]? = some r) (hchk : TBxZChecks env r)
    (hd : fixupDelta env (m.lirs.set p (tbxzNarrowed env r)) (tbxzNarrowed env r)
      loc.offset_adjustment = .ok d)
    (hq : ∀ q, r.next = some q → q < m.lirs.length)
    (hc : ∀ c, loc.prev_lir = some c → c < m.lirs.length) :
    Runs (fixupTBxZ env generation m loc p) := by
  have hp : p < m.lirs.length := (List.getElem?_eq_some_iff.mp hr).1
  obtain ⟨hf1, hf2, _, _, _⟩ := tbxzNarrowed_fields env r
  unfold fixupTBxZ
  rw [getLIR_some hr]
  apply Runs.runs_bind ⟨_, rfl⟩
  intro r0 hr0
  injection hr0 with hr0
  subst hr0
  dsimp only
  apply Runs.runs_bind ⟨(), DCHECK_runs _ (fun hk => (hchk hk).1)⟩
  intro _ _
  apply Runs.runs_bind ⟨(), DCHECK_runs _ (fun hk => by simpa using (hchk hk).2.1)⟩
  intro _ _
  apply Runs.runs_bind (tbxzCheckWidth_runs hp (fun hk => (hchk hk).2.2.1))
  intro lirs1 h1
  have e1 := tbxzCheckWidth_ok hr h1
  subst e1
  rw [getLIR_some (getElem?_set_self_of_some hr _)]
  apply Runs.runs_bind ⟨_, rfl⟩
  intro r1 hr1
  injection hr1 with hr1
  subst hr1
  rw [hd]
  apply Runs.runs_bind ⟨_, rfl⟩
  intro d1 hd1
  injection hd1 with hd1
  subst hd1
  split
  · apply tbxzWiden_runs (getElem?_set_self_of_some hr _)
    · intro hk
      rw [hf2]
      exact (hchk hk).2.2.2
    · intro q hq2
      rw [hf1] at hq2
      rw [List.length_set]
      exact hq q hq2
    · intro c hc2
      rw [List.length_set]
      exact hc c hc2
  · apply Runs.runs_bind (updLIR_runs _ (by rw [List.length_set]; exact hp))
    intro _ _
    exact Runs.runs_pure _

/-- The members of the records that the list and chain operations of the rewriting do not
write. -/
theorem widenedArena_content (env : Env) (generation : Nat) (prev : Option Nat) (p : Nat)
    (opcode : Opcode) (lirs : List LIR) (r : LIR) (j : Nat) :
    ((widenedArena env generation prev p opcode lirs r)[j]?).map
        (fun l => (l.dalvik_offset, l.opcode, l.target, l.operands))
      = (((updAt lirs p fun l =>
            { l with opcode := if IS_WIDE opcode then WIDE kA64Tst2rl else kA64Tst2rl,
                     operands := l.operands.set 1
                       (env.EncodeLogicalImmediate (IS_WIDE opcode)
                         (toU64 (intShl1 (r.operands.get 1)))),
                     target := none,
                     flags := { l.flags with fixup := (EncodingMap kA64Tst2rl).fixup,
                                             size := (EncodingMap kA64Tst2rl).size } })
          ++ [RawLIR r.dalvik_offset kA64B2ct
            (if UNWIDE opcode == .insn kA64Tbz3rht then env.kArmCondEq else env.kArmCondNe)
            0 0 0 0 r.target])[j]?).map
          (fun l => (l.dalvik_offset, l.opcode, l.target, l.operands)) := by
  unfold widenedArena replacedFixup
  dsimp only
  cases prev with
  | none =>
    dsimp only
    refine (map_updAt_of_preserve _ _ _ _ _ ?_).trans ?_
    · intro _; rfl
    refine (map_updAt_of_preserve _ _ _ _ _ ?_).trans ?_
    · intro _; rfl
    refine (map_updAt_of_preserve _ _ _ _ _ ?_).trans ?_
    · intro _; rfl
    exact map_insertedAfter _ _ _ _ _ _ (fun _ _ _ => rfl)
  | some c =>
    dsimp only
    refine (map_updAt_of_preserve _ _ _ _ _ ?_).trans ?_
    · intro _; rfl
    refine (map_updAt_of_preserve _ _ _ _ _ ?_).trans ?_
    · intro _; rfl
    refine (map_updAt_of_preserve _ _ _ _ _ ?_).trans ?_
    · intro _; rfl
    refine (map_updAt_of_preserve _ _ _ _ _ ?_).trans ?_
    · intro _; rfl
    exact map_insertedAfter _ _ _ _ _ _ (fun _ _ _ => rfl)

theorem TBxZ_size_table :
    ∀ op : A64Opcode, (EncodingMap op).fixup = kFixupTBxZ → (EncodingMap op).size = 4 := by
  intro op
  cases op <;> decide

/-! ## C16: an out-of-range `tbz/tbnz` becomes `tst` and a conditional branch -/

theorem tbxzNarrowed_visit_operands (env : Env) (r : LIR) (adj : Int) (generation : Nat) :
    (tbxzNarrowed env (visitRec r adj generation)).operands = (tbxzNarrowed env r).operands := by
  simp only [tbxzNarrowed, visitRec]
  split_ifs <;> rfl

/-- A round of the inner loop at an out-of-range `tbz/tbnz`: the round succeeds and the
arena, the lists and the locals of the pass are as the rewriting leaves them. -/
theorem fixupStep_widen (env : Env) (fuel generation : Nat) (m : Mir2Lir)
    (loc : FixupLocals) (p q : Nat) (r : LIR) (d : Int)
    (hr : m.lirs[p]? = some r) (hk : r.flags.fixup = kFixupTBxZ) (hchk : TBxZChecks env r)
    (hd : fixupDelta env
      ((visitState m loc.offset_adjustment generation p).lirs.set p
        (tbxzNarrowed env (visitRec r loc.offset_adjustment generation)))
      (tbxzNarrowed env (visitRec r loc.offset_adjustment generation))
      loc.offset_adjustment = .ok d)
    (hfar : IS_SIGNED_IMM14 (asr d 2) = false)
    (hnext : r.next = some q) (hq : q < m.lirs.length) (hqp : q ≠ p)
    (hprev : ∀ c, loc.prev_lir = some c → c < m.lirs.length ∧ c ≠ p ∧ c ≠ q) :
    ∃ m1 node new,
      fixupStep env fuel generation m loc p
        = .ok (m1, { offset_adjustment := loc.offset_adjustment - r.flags.size + 8,
                     res := .kRetryAll, prev_lir := some m.lirs.length,
                     lir := r.pcrel_next }) ∧
      m1.lirs.length = m.lirs.length + 1 ∧
      m1.lirs[p]? = some node ∧ m1.lirs[m.lirs.length]? = some new ∧
      node.opcode = (if IS_WIDE r.opcode then WIDE kA64Tst2rl else kA64Tst2rl) ∧
      node.target = none ∧
      node.operands = (tbxzNarrowed env r).operands.set 1
        (env.EncodeLogicalImmediate (IS_WIDE r.opcode) (toU64 (intShl1 (r.operands.get 1)))) ∧
      node.layout = { next := some m.lirs.length, prev := r.prev, pcrel_next := r.pcrel_next,
                      offset := wrap32 (r.offset + toU32 loc.offset_adjustment),
                      is_nop := r.flags.is_nop, size := 4, fixup := kFixupNone } ∧
      new.opcode = kA64B2ct ∧ new.target = r.target ∧
      new.operands = ⟨if UNWIDE r.opcode == .insn kA64Tbz3rht then env.kArmCondEq
                      else env.kArmCondNe, 0, 0, 0, 0⟩ ∧
      new.layout = { next := some q, prev := some p, pcrel_next := r.pcrel_next,
                     offset := wrap32 (node.offset + 4), is_nop := false, size := 4,
                     fixup := kFixupCondBranch } ∧
      emits new = true ∧ emits node = !r.flags.is_nop ∧
      (∃ rq, m1.lirs[q]? = some rq ∧ rq.prev = some m.lirs.length) ∧
      (∀ c, loc.prev_lir = some c →
        ∃ rc, m1.lirs[c]? = some rc ∧ rc.pcrel_next = some m.lirs.length) ∧
      m1.first_fixup_ = (if loc.prev_lir = none then some m.lirs.length else m.first_fixup_) ∧
      m1.first_lir_insn_ = m.first_lir_insn_ ∧
      layoutOf m1.lirs = widenedLayout (layoutOf m.lirs) m.lirs.length p r.layout
        loc.offset_adjustment loc.prev_lir ∧
      (∀ op, r.opcode.base = .insn op → r.flags.size = (EncodingMap op).size →
        r.flags.fixup = (EncodingMap op).fixup →
        loc.offset_adjustment - (r.flags.size : Int) + 8 = loc.offset_adjustment + 4) := by
  have hplt : p < m.lirs.length := (List.getElem?_eq_some_iff.mp hr).1
  have hrV := visitState_get m loc.offset_adjustment generation p r hr
  have hlenV : (visitState m loc.offset_adjustment generation p).lirs.length = m.lirs.length :=
    length_updAt _ _ _
  obtain ⟨res, hres⟩ := @fixupTBxZ_runs env generation
    (visitState m loc.offset_adjustment generation p) loc p
    (visitRec r loc.offset_adjustment generation) d hrV hchk hd
    (by
      intro q1 hq1
      rw [hlenV]
      have : r.next = some q1 := hq1
      rw [hnext] at this
      injection this with this
      rw [← this]
      exact hq)
    (by
      intro c hc
      rw [hlenV]
      exact (hprev c hc).1)
  obtain ⟨m1, loc1, c⟩ := res
  have hcn : loc.prev_lir ≠ some m.lirs.length := by
    intro e
    exact absurd (hprev _ e).1 (Nat.lt_irrefl _)
  obtain ⟨d1, hd1, hcase⟩ := fixupTBxZ_ok hres hrV (by rw [hlenV]; exact hcn)
  rw [hd] at hd1
  injection hd1 with hd1
  subst hd1
  rcases hcase with ⟨hnear, _⟩ | ⟨_, hm1, hloc1, hc, _, _⟩
  · rw [hfar] at hnear
    cases hnear
  subst hc
  have hstep : fixupStep env fuel generation m loc p = .ok (m1, loc1) := by
    rw [fixupStep_eq env fuel generation m loc p r hr, hk]
    simp only [fixupSwitch]
    rw [hres]
    rfl
  obtain ⟨hf1, hf2, hf3, hf4, hf5⟩ :=
    tbxzNarrowed_fields env (visitRec r loc.offset_adjustment generation)
  have hnarp : ((visitState m loc.offset_adjustment generation p).lirs.set p
      (tbxzNarrowed env (visitRec r loc.offset_adjustment generation)))[p]?
      = some (tbxzNarrowed env (visitRec r loc.offset_adjustment generation)) :=
    getElem?_set_self_of_some hrV _
  have hlen2 : ((visitState m loc.offset_adjustment generation p).lirs.set p
      (tbxzNarrowed env (visitRec r loc.offset_adjustment generation))).length
      = m.lirs.length := by rw [List.length_set, hlenV]
  have hlnar : (tbxzNarrowed env (visitRec r loc.offset_adjustment generation)).layout
      = { r.layout with offset := wrap32 (r.layout.offset + toU32 loc.offset_adjustment) } := by
    rw [tbxzNarrowed_layout]
    rfl
  have hlay := layoutOf_widenedArena env generation loc.prev_lir
    (visitRec r loc.offset_adjustment generation).opcode r.layout loc.offset_adjustment hnarp
    hlnar
    (by show r.next ≠ some p; rw [hnext]; exact fun e => hqp (by injection e))
    (by
      show r.next ≠ some _
      rw [hlen2, hnext]
      exact fun e => absurd hq (by injection e with e; rw [e]; exact Nat.lt_irrefl _))
    (fun e => (hprev p e).2.1 rfl) (by rw [hlen2]; exact hcn)
    (by
      intro j hj hc
      have : r.next = some j := hj
      rw [hnext] at this
      injection this with this
      exact (hprev j hc).2.2 this.symm)
  rw [hlen2, widenedLayout_congr (L := layoutOf m.lirs) _ _ _ _ _ (by
    intro j hj
    rw [layoutOf_set hrV, if_neg hj, layoutOf_visitState m _ _ _ hj])] at hlay
  have hm1l : m1.lirs = widenedArena env generation loc.prev_lir p
      (visitRec r loc.offset_adjustment generation).opcode
      ((visitState m loc.offset_adjustment generation p).lirs.set p
        (tbxzNarrowed env (visitRec r loc.offset_adjustment generation)))
      (tbxzNarrowed env (visitRec r loc.offset_adjustment generation)) := by rw [hm1]
  rw [← hm1l] at hlay
  have hpN : p ≠ m.lirs.length := Nat.ne_of_lt hplt
  -- the two records
  have hnodeL : layoutOf m1.lirs p = _ :=
    (congrFun hlay p).trans (widenedLayout_node _ r.layout _ _ hpN)
  have hnewL : layoutOf m1.lirs m.lirs.length = _ :=
    (congrFun hlay m.lirs.length).trans (widenedLayout_new _ _ _ r.layout _ _)
  obtain ⟨node, hnode, hnodel⟩ := layoutOf_get hnodeL
  obtain ⟨new, hnew, hnewl⟩ := layoutOf_get hnewL
  have hcon := fun j => widenedArena_content env generation loc.prev_lir p
      (visitRec r loc.offset_adjustment generation).opcode
      ((visitState m loc.offset_adjustment generation p).lirs.set p
        (tbxzNarrowed env (visitRec r loc.offset_adjustment generation)))
      (tbxzNarrowed env (visitRec r loc.offset_adjustment generation)) j
  have hconp := hcon p
  rw [← hm1l, hnode, getElem?_updAt_append, if_neg (by rw [hlen2]; exact hpN), if_pos rfl,
    hnarp] at hconp
  simp only [Option.map_some', Option.some.injEq, Prod.mk.injEq] at hconp
  obtain ⟨_, hno, hnt, hnops⟩ := hconp
  have hconn := hcon m.lirs.length
  rw [← hm1l, hnew, getElem?_updAt_append, if_pos hlen2.symm] at hconn
  simp only [Option.map_some', Option.some.injEq, Prod.mk.injEq] at hconn
  obtain ⟨_, hwo, hwt, hwops⟩ := hconn
  have hnoff : node.offset = wrap32 (r.offset + toU32 loc.offset_adjustment) := by
    have := congrArg Layout.offset hnodel
    exact this
  have hnnop : node.flags.is_nop = r.flags.is_nop := by
    have := congrArg Layout.is_nop hnodel
    exact this
  have hwnop : new.flags.is_nop = false := by
    have := congrArg Layout.is_nop hnewl
    exact this
  refine ⟨m1, node, new, ?_, ?_, hnode, hnew, hno, hnt, ?_, hnodel, hwo, ?_, ?_, ?_, ?_, ?_,
    ?_, ?_, ?_, ?_, hlay, ?_⟩
  · rw [hstep, hloc1]
    have e1 : (EncodingMap kA64Tst2rl).size = 4 := by decide
    have e2 : (EncodingMap kA64B2ct).size = 4 := by decide
    rw [e1, e2, hlenV]
    have e3 : loc.offset_adjustment
        - ((visitRec r loc.offset_adjustment generation).flags.size : Int)
        + ((4 : Nat) : Int) + ((4 : Nat) : Int) = loc.offset_adjustment - r.flags.size + 8 := by
      show loc.offset_adjustment - (r.flags.size : Int) + ((4 : Nat) : Int) + ((4 : Nat) : Int)
        = _
      push_cast
      ring
    rw [e3]
    rfl
  · rw [hm1l, length_widenedArena, hlen2]
  · rw [hnops, tbxzNarrowed_visit_operands, (tbxzNarrowed_fields env r).2.1]
    rfl
  · rw [hwt, hf3]
    rfl
  · rw [hwops]
    rfl
  · have e : r.layout.next = some q := hnext
    rw [hnewl, hnoff, e]
    rfl
  · unfold emits
    rw [hwo, hwnop]
    rfl
  · unfold emits
    rw [hno, hnnop]
    split_ifs <;> rfl
  · have hql := (congrFun hlay q).trans (by
      unfold widenedLayout
      rw [if_neg (Nat.ne_of_lt hq), if_neg hqp, if_pos (show r.layout.next = some q from hnext)])
    have hqlt : q < m.lirs.length := hq
    obtain ⟨lq, hlq⟩ : ∃ lq, layoutOf m.lirs q = some lq :=
      ⟨_, by unfold layoutOf; rw [List.getElem?_eq_getElem hqlt]; rfl⟩
    rw [hlq] at hql
    obtain ⟨rq, hrq, hrql⟩ := layoutOf_get hql
    exact ⟨rq, hrq, congrArg Layout.prev hrql⟩
  · intro c hc
    obtain ⟨hclt, hcp, hcq⟩ := hprev c hc
    have hcl := (congrFun hlay c).trans (by
      unfold widenedLayout
      rw [if_neg (Nat.ne_of_lt hclt), if_neg hcp,
        if_neg (show ¬ r.layout.next = some c from by
          show ¬ r.next = some c
          rw [hnext]
          exact fun e => hcq (by injection e with e; exact e.symm)),
        if_pos hc])
    obtain ⟨lc, hlc⟩ : ∃ lc, layoutOf m.lirs c = some lc :=
      ⟨_, by unfold layoutOf; rw [List.getElem?_eq_getElem hclt]; rfl⟩
    rw [hlc] at hcl
    obtain ⟨rc, hrc, hrcl⟩ := layoutOf_get hcl
    exact ⟨rc, hrc, congrArg Layout.pcrel_next hrcl⟩
  · rw [hm1, hlenV]
    rfl
  · rw [hm1]
    rfl
  · intro op hop hsz hfx
    have h4 : (EncodingMap op).size = 4 := TBxZ_size_table op (by rw [← hfx]; exact hk)
    rw [hsz, h4]
    push_cast
    ring

/-- C16. A round of the inner loop at a `tbz/tbnz` node (kind `kFixupTBxZ`) whose
`delta >> 2` is no signed 14-bit value succeeds, when the debug checks of the case pass and
the node has a successor in the instruction list, and rewrites the node into two
instructions. The node becomes `kA64Tst2rl`, wide exactly when its opcode was wide, with
the encoded mask `1 << imm` as operand 1, no target, kind `kFixupNone` and size 4. A new
`kA64B2ct` record (the last record of the arena) with the target of the node, condition
`eq` for `tbz` and `ne` for `tbnz`, kind `kFixupCondBranch` and size 4 stands immediately
after the node in the instruction list (between the node and its old successor), at the
offset of the node plus 4, and takes the place of the node in the fixup chain (behind the
predecessor `prev_lir`, or as `first_fixup_`, and before the old successor of the node in
the chain). The pass continues behind the new record with `res = kRetryAll`, and
`offset_adjustment` grows by 8 less the old size of the node, which is 4 bytes for a
record that has the size and kind of its table entry. -/
theorem tbxz_out_of_range_rewritten (env : Env) (fuel generation : Nat) (m : Mir2Lir)
    (loc : FixupLocals) (p q : Nat) (r : LIR) (d : Int)
    (hr : m.lirs[p]? = some r) (hk : r.flags.fixup = kFixupTBxZ) (hchk : TBxZChecks env r)
    (hd : fixupDelta env
      ((visitState m loc.offset_adjustment generation p).lirs.set p
        (tbxzNarrowed env (visitRec r loc.offset_adjustment generation)))
      (tbxzNarrowed env (visitRec r loc.offset_adjustment generation))
      loc.offset_adjustment = .ok d)
    (hfar : IS_SIGNED_IMM14 (asr d 2) = false)
    (hnext : r.next = some q) (hq : q < m.lirs.length) (hqp : q ≠ p)
    (hprev : ∀ c, loc.prev_lir = some c → c < m.lirs.length ∧ c ≠ p ∧ c ≠ q) :
    ∃ m1 node new,
      fixupStep env fuel generation m loc p
        = .ok (m1, { offset_adjustment := loc.offset_adjustment - r.flags.size + 8,
                     res := .kRetryAll, prev_lir := some m.lirs.length,
                     lir := r.pcrel_next }) ∧
      m1.lirs.length = m.lirs.length + 1 ∧
      m1.lirs[p]? = some node ∧ m1.lirs[m.lirs.length]? = some new ∧
      node.opcode = (if IS_WIDE r.opcode then WIDE kA64Tst2rl else kA64Tst2rl) ∧
      node.target = none ∧
      node.operands = (tbxzNarrowed env r).operands.set 1
        (env.EncodeLogicalImmediate (IS_WIDE r.opcode) (toU64 (intShl1 (r.operands.get 1)))) ∧
      node.layout = { next := some m.lirs.length, prev := r.prev, pcrel_next := r.pcrel_next,
                      offset := wrap32 (r.offset + toU32 loc.offset_adjustment),
                      is_nop := r.flags.is_nop, size := 4, fixup := kFixupNone } ∧
      new.opcode = kA64B2ct ∧ new.target = r.target ∧
      new.operands = ⟨if UNWIDE r.opcode == .insn kA64Tbz3rht then env.kArmCondEq
                      else env.kArmCondNe, 0, 0, 0, 0⟩ ∧
      new.layout = { next := some q, prev := some p, pcrel_next := r.pcrel_next,
                     offset := wrap32 (node.offset + 4), is_nop := false, size := 4,
                     fixup := kFixupCondBranch } ∧
      emits new = true ∧ emits node = !r.flags.is_nop ∧
      (∃ rq, m1.lirs[q]? = some rq ∧ rq.prev = some m.lirs.length) ∧
      (∀ c, loc.prev_lir = some c →
        ∃ rc, m1.lirs[c]? = some rc ∧ rc.pcrel_next = some m.lirs.length) ∧
      m1.first_fixup_ = (if loc.prev_lir = none then some m.lirs.length else m.first_fixup_) ∧
      m1.first_lir_insn_ = m.first_lir_insn_ ∧
      layoutOf m1.lirs = widenedLayout (layoutOf m.lirs) m.lirs.length p r.layout
        loc.offset_adjustment loc.prev_lir ∧
      (∀ op, r.opcode.base = .insn op → r.flags.size = (EncodingMap op).size →
        r.flags.fixup = (EncodingMap op).fixup →
        loc.offset_adjustment - (r.flags.size : Int) + 8 = loc.offset_adjustment + 4) :=
  fixupStep_widen env fuel generation m loc p q r d hr hk hchk hd hfar hnext hq hqp hprev

theorem tbxz_out_of_range_rewritten_witness :
    ∃ m1 node new,
      fixupStep (mkEnv releaseConfig) 3 1 tbzFarStream ⟨0, .kSuccess, none, some 0⟩ 0
        = .ok (m1, ⟨0 - 4 + 8, .kRetryAll, some 3, some 2⟩) ∧
      m1.lirs.length = 4 ∧ m1.lirs[0]? = some node ∧ m1.lirs[3]? = some new ∧
      node.opcode = (kA64Tst2rl : Opcode) ∧ node.target = none ∧
      new.opcode = (kA64B2ct : Opcode) ∧
      new.target = some 2 ∧ new.operands = ⟨0, 0, 0, 0, 0⟩ ∧
      new.layout = { next := some 1, prev := some 0, pcrel_next := some 2,
                     offset := wrap32 (node.offset + 4), is_nop := false, size := 4,
                     fixup := kFixupCondBranch } ∧
      m1.first_fixup_ = some 3 := by
  obtain ⟨m1, node, new, h1, h2, h3, h4, h5, h6, _, _, h9, h10, h11, h12, _, _, _, _, h17,
      _⟩ :=
    tbxz_out_of_range_rewritten (mkEnv releaseConfig) 3 1 tbzFarStream
      ⟨0, .kSuccess, none, some 0⟩ 0 1
      ⟨0, 0, kA64Tbz3rht, some 1, none, some 2, ⟨false, 4, true, 0, kFixupTBxZ⟩, some 2,
        ⟨0, 3, 0, 0, 0⟩⟩ 40000 rfl rfl (fun hk => absurd hk (by decide)) (by decide)
      (by decide) rfl (by decide) (by decide) (fun c hc => by cases hc)
  exact ⟨m1, node, new, h1, h2, h3, h4, h5, h6, h9, h10, h11, h12, h17⟩

/-! ## The test of a single bit -/

theorem and_two_pow_eq_zero (reg imm : Nat) :
    (reg &&& 2 ^ imm = 0) ↔ reg.testBit imm = false := by
  constructor
  · intro h
    have := congrArg (fun x => x.testBit imm) h
    simpa [Nat.testBit_and, Nat.testBit_two_pow_self] using this
  · intro h
    apply Nat.eq_of_testBit_eq
    intro i
    simp only [Nat.testBit_and, Nat.testBit_two_pow, Nat.zero_testBit, Bool.and_eq_false_imp,
      decide_eq_true_eq]
    intro hi
    rw [decide_eq_false_iff_not]
    intro heq
    subst heq
    rw [h] at hi
    cases hi

theorem tstZ_two_pow (reg imm : Nat) : tstZ reg (2 ^ imm) = !reg.testBit imm := by
  unfold tstZ
  cases hb : reg.testBit imm with
  | false =>
    have := (and_two_pow_eq_zero reg imm).mpr hb
    simp [this]
  | true =>
    have : reg &&& 2 ^ imm ≠ 0 := fun h => by
      have := (and_two_pow_eq_zero reg imm).mp h
      rw [hb] at this
      cases this
    simp [this]

theorem intShl1_small (imm : Int) (h0 : 0 ≤ imm) (h1 : imm < 31) :
    toU64 (intShl1 imm) = 2 ^ imm.toNat := by
  obtain ⟨k, rfl⟩ := Int.eq_ofNat_of_zero_le h0
  have hk : k < 31 := by omega
  interval_cases k <;> decide

/-! ## C18: the `nop` against the Cortex-A53 erratum 835769 -/

theorem prevEmittingFrom_congr {lirs lirs1 : List LIR}
    (h : ∀ j : Nat, (lirs1[j]?).map (fun l : LIR => (l.flags.is_nop, l.opcode, l.prev))
      = (lirs[j]?).map (fun l : LIR => (l.flags.is_nop, l.opcode, l.prev))) :
    ∀ (fuel : Nat) (s : Option Nat),
      prevEmittingFrom lirs1 fuel s = prevEmittingFrom lirs fuel s := by
  intro fuel
  induction fuel with
  | zero =>
    intro s
    cases s <;> rfl
  | succ fuel ih =>
    intro s
    cases s with
    | none => rfl
    | some q =>
      have hq := h q
      unfold prevEmittingFrom
      cases h1 : lirs1[q]? with
      | none =>
        rw [h1] at hq
        cases h0 : lirs[q]? with
        | none => rfl
        | some r0 => rw [h0] at hq; cases hq
      | some r1 =>
        rw [h1] at hq
        cases h0 : lirs[q]? with
        | none => rw [h0] at hq; cases hq
        | some r0 =>
          rw [h0] at hq
          simp only [Option.map_some', Option.some.injEq, Prod.mk.injEq] at hq
          obtain ⟨e1, e2, e3⟩ := hq
          dsimp only
          rw [e1, e2, e3, ih]

theorem prevEmittingFrom_visitState (m : Mir2Lir) (adj : Int) (generation p fuel : Nat)
    (s : Option Nat) :
    prevEmittingFrom (visitState m adj generation p).lirs fuel s
      = prevEmittingFrom m.lirs fuel s := by
  apply prevEmittingFrom_congr
  intro j
  unfold visitState
  exact map_updAt_of_preserve _ _ _ _ _ (fun _ => rfl)

/-- The case `kFixupA53Erratum835769` inserts nothing on a target without the erratum, for
a narrow opcode, without an emitting record before the node, and behind a record that is
no load or store. -/
theorem fixupA53_skip {env : Env} {fuel : Nat} {m : Mir2Lir} {loc : FixupLocals} {p : Nat}
    {r : LIR} (hr : m.lirs[p]? = some r)
    (h : env.NeedFixCortexA53_835769 = false ∨ IS_WIDE r.opcode = false ∨
      prevEmittingFrom m.lirs fuel r.prev = .ok none ∨
      ∃ q prev op, prevEmittingFrom m.lirs fuel r.prev = .ok (some q) ∧
        m.lirs[q]? = some prev ∧ UNWIDE prev.opcode = .insn op ∧
        isLoadOrStore env (EncodingMap op).flags = false) :
    fixupA53Erratum835769 env fuel m loc p = .ok (m, loc) := by
  unfold fixupA53Erratum835769
  rw [getLIR_some hr]
  simp only [bind, Except.bind]
  cases hfix : env.NeedFixCortexA53_835769 with
  | false => rfl
  | true =>
    simp only [if_true]
    cases hw : IS_WIDE r.opcode with
    | false => rfl
    | true =>
      simp only [if_true]
      rw [GetPrevEmittingLIR_eq env.toBuildConfig m.lirs fuel p r hr]
      rcases h with h | h | h | ⟨q, prev, op, h1, h2, h3, h4⟩
      · rw [hfix] at h; cases h
      · rw [hw] at h; cases h
      · rw [h]
        rfl
      · rw [h1]
        simp only [beq_iff_eq, if_false, getLIR_some h2, h3, h4, Bool.false_eq_true]
        rfl

/-- The case `kFixupA53Erratum835769` succeeds when it inserts a `nop`. -/
theorem fixupA53_runs {env : Env} {fuel : Nat} {m : Mir2Lir} {loc : FixupLocals} {p : Nat}
    {r : LIR} {q0 : Nat} {prev : LIR} {op : A64Opcode} (hr : m.lirs[p]? = some r)
    (h1 : prevEmittingFrom m.lirs fuel r.prev = .ok (some q0)) (h2 : m.lirs[q0]? = some prev)
    (h3 : UNWIDE prev.opcode = .insn op)
    (hq : ∀ q, r.prev = some q → q < m.lirs.length) :
    Runs (fixupA53Erratum835769 env fuel m loc p) := by
  have hp : p < m.lirs.length := (List.getElem?_eq_some_iff.mp hr).1
  unfold fixupA53Erratum835769
  rw [getLIR_some hr]
  apply Runs.runs_bind ⟨_, rfl⟩
  intro r0 hr0
  injection hr0 with hr0
  subst hr0
  split
  · split
    · rw [GetPrevEmittingLIR_eq env.toBuildConfig m.lirs fuel p r hr, h1]
      apply Runs.runs_bind ⟨_, rfl⟩
      intro s hs
      injection hs with hs
      subst hs
      simp only [beq_iff_eq, if_false]
      rw [getLIR_some h2]
      apply Runs.runs_bind ⟨_, rfl⟩
      intro pv hpv
      injection hpv with hpv
      subst hpv
      rw [h3]
      dsimp only
      split
      · have hlen : (m.lirs ++ [RawLIR r.dalvik_offset kA64Nop0 0 0 0 0 0 none]).length
            = m.lirs.length + 1 := by simp
        apply Runs.runs_bind (updLIR_runs _ (by rw [hlen]; omega))
        intro l2 h2u
        have e2 := updLIR_length h2u
        obtain ⟨_, _, _, e2f⟩ := updLIR_ok_updAt h2u
        have hcur : l2[p]? = some r := by
          obtain ⟨i, hi, _, e⟩ := updLIR_ok_updAt h2u
          injection hi with hi
          subst hi
          rw [e, getElem?_updAt, if_neg (Nat.ne_of_lt hp), List.getElem?_append_left hp]
          exact hr
        apply Runs.runs_bind (InsertLIRBefore_runs hcur (by rw [e2, hlen]; omega) (by
          intro q hq2
          have := hq q hq2
          rw [e2, hlen]
          omega))
        intro l3 h3i
        obtain ⟨_, _, _, _, e3⟩ := InsertLIRBefore_ok h3i
        have hlen3 : l3.length = m.lirs.length + 1 := by
          rw [e3, length_insertedBefore, e2, hlen]
        apply Runs.runs_bind (getLIR_runs (by rw [hlen3]; omega))
        intro new _
        apply Runs.runs_bind (updLIR_runs _ (by rw [hlen3]; omega))
        intro l4 _
        exact Runs.runs_pure _
      · exact Runs.runs_pure _
    · exact Runs.runs_pure _
  · exact Runs.runs_pure _

theorem nopInsertedArena_opcode (lirs : List LIR) (p : Nat) (r : LIR) (j : Nat) :
    ((nopInsertedArena lirs p r)[j]?).map LIR.opcode
      = ((lirs ++ [RawLIR r.dalvik_offset kA64Nop0 0 0 0 0 0 none])[j]?).map LIR.opcode := by
  unfold nopInsertedArena
  dsimp only
  refine (map_updAt_of_preserve _ _ _ _ _ ?_).trans ?_
  · intro _; rfl
  refine (map_insertedBefore LIR.opcode _ _ _ _ _ (fun _ _ _ => rfl)).trans ?_
  refine (map_updAt_of_preserve _ _ _ _ _ ?_).trans ?_
  · intro _; rfl
  rfl

/-- A round of the inner loop at a multiply-accumulate that gets a `nop`: the round
succeeds and the arena is as the insertion leaves it. -/
theorem fixupStep_nop_insert (env : Env) (fuel generation : Nat) (m : Mir2Lir)
    (loc : FixupLocals) (p q q0 : Nat) (r prev : LIR) (op : A64Opcode)
    (hr : m.lirs[p]? = some r) (hk : r.flags.fixup = kFixupA53Erratum835769)
    (hfix : env.NeedFixCortexA53_835769 = true) (hw : IS_WIDE r.opcode = true)
    (hq : r.prev = some q) (hqlt : q < m.lirs.length) (hqp : q ≠ p)
    (h1 : prevEmittingFrom m.lirs fuel r.prev = .ok (some q0)) (h2 : m.lirs[q0]? = some prev)
    (h3 : UNWIDE prev.opcode = .insn op)
    (h4 : isLoadOrStore env (EncodingMap op).flags = true) :
    ∃ m1 nop node,
      fixupStep env fuel generation m loc p
        = .ok (m1, { offset_adjustment := loc.offset_adjustment + 4, res := .kRetryAll,
                     prev_lir := some p, lir := r.pcrel_next }) ∧
      m1.lirs.length = m.lirs.length + 1 ∧
      m1.lirs[m.lirs.length]? = some nop ∧ m1.lirs[p]? = some node ∧
      nop.opcode = (kA64Nop0 : Opcode) ∧
      nop.layout = { next := some p, prev := some q, pcrel_next := none,
                     offset := wrap32 (r.offset + toU32 loc.offset_adjustment),
                     is_nop := false, size := 4, fixup := kFixupNone } ∧
      emits nop = true ∧
      node.opcode = r.opcode ∧
      node.layout = { r.layout with
                      prev := some m.lirs.length,
                      offset := wrap32 (wrap32 (r.offset + toU32 loc.offset_adjustment) + 4) } ∧
      (∃ rq, m1.lirs[q]? = some rq ∧ rq.next = some m.lirs.length) ∧
      m1.first_lir_insn_ = m.first_lir_insn_ ∧ m1.first_fixup_ = m.first_fixup_ ∧
      layoutOf m1.lirs = nopInsertedLayout (layoutOf m.lirs) m.lirs.length p r.layout
        loc.offset_adjustment := by
  have hplt : p < m.lirs.length := (List.getElem?_eq_some_iff.mp hr).1
  have hpN : p ≠ m.lirs.length := Nat.ne_of_lt hplt
  have hrV := visitState_get m loc.offset_adjustment generation p r hr
  have hlenV : (visitState m loc.offset_adjustment generation p).lirs.length = m.lirs.length :=
    length_updAt _ _ _
  have h1V : prevEmittingFrom (visitState m loc.offset_adjustment generation p).lirs fuel
      (visitRec r loc.offset_adjustment generation).prev = .ok (some q0) := by
    rw [prevEmittingFrom_visitState]
    exact h1
  obtain ⟨prevV, h2V, h3V⟩ : ∃ pv, (visitState m loc.offset_adjustment generation p).lirs[q0]?
      = some pv ∧ UNWIDE pv.opcode = .insn op := by
    have := @map_updAt_of_preserve _ LIR.opcode m.lirs p q0
      (fun r => visitRec r loc.offset_adjustment generation) (fun _ => rfl)
    rw [h2] at this
    cases hx : (updAt m.lirs p fun r => visitRec r loc.offset_adjustment generation)[q0]? with
    | none => rw [hx] at this; cases this
    | some pv =>
      rw [hx] at this
      simp only [Option.map_some', Option.some.injEq] at this
      exact ⟨pv, hx, by rw [this]; exact h3⟩
  obtain ⟨res, hres⟩ := @fixupA53_runs env fuel
    (visitState m loc.offset_adjustment generation p) loc p
    (visitRec r loc.offset_adjustment generation) q0 prevV op hrV h1V h2V h3V
    (by
      intro q1 hq1
      rw [hlenV]
      have : r.prev = some q1 := hq1
      rw [hq] at this
      injection this with this
      rw [← this]
      exact hqlt)
  obtain ⟨m1, loc1⟩ := res
  rcases fixupA53_ok hres hrV with ⟨_, _, hno⟩ | ⟨_, _, _, hm1, hloc1, _⟩
  · exfalso
    rcases hno with h | h | h | ⟨qx, pvx, opx, hx1, hx2, hx3, hx4⟩
    · rw [hfix] at h; cases h
    · have : IS_WIDE r.opcode = false := h
      rw [hw] at this; cases this
    · rw [h1V] at h; cases h
    · rw [h1V] at hx1
      injection hx1 with hx1
      injection hx1 with hx1
      subst hx1
      rw [h2V] at hx2
      injection hx2 with hx2
      subst hx2
      rw [h3V] at hx3
      injection hx3 with hx3
      subst hx3
      rw [h4] at hx4
      cases hx4
  have hlV : (visitRec r loc.offset_adjustment generation).layout
      = { r.layout with offset := wrap32 (r.layout.offset + toU32 loc.offset_adjustment) } := rfl
  have hlay := layoutOf_nopInsertedArena r.layout loc.offset_adjustment hrV hlV
    (by show r.prev ≠ some p; rw [hq]; exact fun e => hqp (by injection e))
    (by
      show r.prev ≠ some _
      rw [hlenV, hq]
      exact fun e => absurd hqlt (by injection e with e; rw [e]; exact Nat.lt_irrefl _))
  rw [hlenV, nopInsertedLayout_congr (L := layoutOf m.lirs) _ _ _ _ (by
    intro j hj
    rw [layoutOf_visitState m _ _ _ hj])] at hlay
  have hm1l : m1.lirs = nopInsertedArena (visitState m loc.offset_adjustment generation p).lirs
      p (visitRec r loc.offset_adjustment generation) := by rw [hm1]
  rw [← hm1l] at hlay
  have hnodeL : layoutOf m1.lirs p = _ :=
    (congrFun hlay p).trans (nopInsertedLayout_node _ r.layout _ hpN)
  have hnopL : layoutOf m1.lirs m.lirs.length = _ :=
    (congrFun hlay m.lirs.length).trans (nopInsertedLayout_new _ _ _ r.layout _)
  obtain ⟨node, hnode, hnodel⟩ := layoutOf_get hnodeL
  obtain ⟨nop, hnop, hnopl⟩ := layoutOf_get hnopL
  have hopn := nopInsertedArena_opcode (visitState m loc.offset_adjustment generation p).lirs p
    (visitRec r loc.offset_adjustment generation) m.lirs.length
  rw [← hm1l, hnop, getElem?_append_one, if_pos hlenV.symm] at hopn
  simp only [Option.map_some', Option.some.injEq] at hopn
  have hopp := nopInsertedArena_opcode (visitState m loc.offset_adjustment generation p).lirs p
    (visitRec r loc.offset_adjustment generation) p
  rw [← hm1l, hnode, getElem?_append_one, if_neg (by rw [hlenV]; exact hpN), hrV] at hopp
  simp only [Option.map_some', Option.some.injEq] at hopp
  have hstep : fixupStep env fuel generation m loc p
      = .ok (m1, { loc1 with prev_lir := some p, lir := node.pcrel_next }) := by
    rw [fixupStep_eq env fuel generation m loc p r hr, hk]
    simp only [fixupSwitch]
    rw [hres]
    simp only [bind, Except.bind, pure, Except.pure, Bool.false_eq_true, if_false,
      getLIR_some hnode]
  have hnnop : nop.flags.is_nop = false := congrArg Layout.is_nop hnopl
  refine ⟨m1, nop, node, ?_, ?_, hnop, hnode, hopn, ?_, ?_, hopp, hnodel, ?_, ?_, ?_, hlay⟩
  · rw [hstep, hloc1]
    have e1 : (EncodingMap kA64Nop0).size = 4 := by decide
    have e2 : node.pcrel_next = r.pcrel_next := congrArg Layout.pcrel_next hnodel
    rw [e1, e2]
    rfl
  · rw [hm1l, length_nopInsertedArena, hlenV]
  · have e : r.layout.prev = some q := hq
    rw [hnopl, e]
    rfl
  · unfold emits
    rw [hopn, hnnop]
    rfl
  · have hql := (congrFun hlay q).trans (by
      unfold nopInsertedLayout
      rw [if_neg (Nat.ne_of_lt hqlt), if_neg hqp, if_pos (show r.layout.prev = some q from hq)])
    obtain ⟨lq, hlq⟩ : ∃ lq, layoutOf m.lirs q = some lq :=
      ⟨_, by unfold layoutOf; rw [List.getElem?_eq_getElem hqlt]; rfl⟩
    rw [hlq] at hql
    obtain ⟨rq, hrq, hrql⟩ := layoutOf_get hql
    exact ⟨rq, hrq, congrArg Layout.next hrql⟩
  · rw [hm1]
    rfl
  · rw [hm1]
    rfl

/-- A round of the inner loop at a multiply-accumulate that gets no `nop`: only the offset
and the generation of the node change. -/
theorem fixupStep_A53_skip (env : Env) (fuel generation : Nat) (m : Mir2Lir)
    (loc : FixupLocals) (p : Nat) (r : LIR)
    (hr : m.lirs[p]? = some r) (hk : r.flags.fixup = kFixupA53Erratum835769)
    (h : env.NeedFixCortexA53_835769 = false ∨ IS_WIDE r.opcode = false ∨
      prevEmittingFrom m.lirs fuel r.prev = .ok none ∨
      ∃ q prev op, prevEmittingFrom m.lirs fuel r.prev = .ok (some q) ∧
        m.lirs[q]? = some prev ∧ UNWIDE prev.opcode = .insn op ∧
        isLoadOrStore env (EncodingMap op).flags = false) :
    fixupStep env fuel generation m loc p
      = .ok ({ m with lirs := m.lirs.set p (visitRec r loc.offset_adjustment generation) },
             { loc with prev_lir := some p, lir := r.pcrel_next }) := by
  have hrV := visitState_get m loc.offset_adjustment generation p r hr
  have hV : visitState m loc.offset_adjustment generation p
      = { m with lirs := m.lirs.set p (visitRec r loc.offset_adjustment generation) } := by
    unfold visitState
    rw [updAt_of_some hr]
  have hskip := @fixupA53_skip env fuel (visitState m loc.offset_adjustment generation p) loc p
    (visitRec r loc.offset_adjustment generation) hrV (by
      rcases h with h | h | h | ⟨q, prev, op, h1, h2, h3, h4⟩
      · exact Or.inl h
      · exact Or.inr (Or.inl h)
      · refine Or.inr (Or.inr (Or.inl ?_))
        rw [prevEmittingFrom_visitState]
        exact h
      · refine Or.inr (Or.inr (Or.inr ?_))
        have := @map_updAt_of_preserve _ LIR.opcode m.lirs p q
          (fun r => visitRec r loc.offset_adjustment generation) (fun _ => rfl)
        rw [h2] at this
        cases hx : (updAt m.lirs p fun r => visitRec r loc.offset_adjustment generation)[q]? with
        | none => rw [hx] at this; cases this
        | some pv =>
          rw [hx] at this
          simp only [Option.map_some', Option.some.injEq] at this
          refine ⟨q, pv, op, ?_, hx, by rw [this]; exact h3, h4⟩
          rw [prevEmittingFrom_visitState]
          exact h1)
  rw [fixupStep_eq env fuel generation m loc p r hr, hk]
  simp only [fixupSwitch]
  rw [hskip]
  simp only [bind, Except.bind, pure, Except.pure, Bool.false_eq_true, if_false,
    getLIR_some hrV]
  rw [hV]
  rfl
/-! ## The three sources of the distance of a `kFixupAdr` node -/

theorem wrapI32_of_range (x : Int) (h1 : -2147483648 ≤ x) (h2 : x < 2147483648) :
    wrapI32 x = x := by
  unfold wrapI32
  omega

theorem wrap32_toU32_add (a : Int) (n : Nat) (h1 : 0 ≤ a + n) (h2 : a + n < 4294967296) :
    ((wrap32 (toU32 a + n) : Nat) : Int) = a + n := by
  unfold wrap32 toU32
  omega

theorem visitState_set (m : Mir2Lir) (adj : Int) (generation p : Nat) (r r1 : LIR)
    (hr : m.lirs[p]? = some r) :
    (visitState m adj generation p).lirs.set p r1 = m.lirs.set p r1 := by
  simp [visitState, updAt, hr]

theorem fixupStep_adr_eq (env : Env) (fuel generation : Nat) (m : Mir2Lir) (loc : FixupLocals)
    (p : Nat) (r : LIR) (d : Int) (hr : m.lirs[p]? = some r) (hk : r.flags.fixup = kFixupAdr)
    (hd : adrDelta (visitState m loc.offset_adjustment generation p)
      (visitRec r loc.offset_adjustment generation) loc.offset_adjustment = .ok d) :
    fixupStep env fuel generation m loc p =
      if IS_SIGNED_IMM21 d then
        .ok (
          { m with
            lirs := m.lirs.set p
              { r with offset := wrap32 (r.offset + toU32 loc.offset_adjustment),
                       flags := { r.flags with generation := generation },
                       operands := r.operands.set 1 d } },
             { loc with prev_lir := some p, lir := r.pcrel_next })
      else .error (.fatal "Jump range above 1MB in kFixupAdr") := by
  rw [fixupStep_eq env fuel generation m loc p r hr, hk]
  have hv := visitState_get m loc.offset_adjustment generation p r hr
  simp only [fixupSwitch]
  rw [fixupAdr_eq _ loc p _ d hv hd]
  by_cases hi : IS_SIGNED_IMM21 d = true
  · simp only [hi, if_true]
    have hlen : p < m.lirs.length := by
      rcases List.getElem?_eq_some_iff.mp hr with ⟨h, _⟩
      exact h
    simp [bind, Except.bind, pure, Except.pure, getLIR, hlen, visitRec, visitState, updAt, hr]
  · simp only [hi, if_false, Bool.false_eq_true]
    rfl

theorem Operands.set_get_self (o : Operands) : o.set 1 (o.get 1) = o := by
  cases o
  rfl

/-- C30: a `kFixupAdr` node takes its distance `delta` from exactly one of three sources.
With a target, `delta` is the offset of the target, advanced by `offset_adjustment` when
the generation flag of the target is not that of the pass (the target has not been visited
in this pass), minus the offset of the node, in `uint32_t` arithmetic read as `int32_t`
(the plain difference when nothing wraps). With no target and a non-negative operand 2 it
is the offset of the embedded data table named by operand 2, plus `offset_adjustment`,
minus the offset of the node. With no target and a negative operand 2 it is operand 1
itself, and the round leaves the operands as they are. In each case the round stores
`delta` itself (a byte distance, not shifted) in operand 1 when it is a signed 21-bit
value, keeping `offset_adjustment` and `res`, and stops with the fatal error of the case
otherwise. The offset of the node is the one the round has just advanced. -/
theorem adr_delta_sources (env : Env) (fuel generation : Nat) (m : Mir2Lir) (loc : FixupLocals)
    (p : Nat) (r : LIR) (hr : m.lirs[p]? = some r) (hk : r.flags.fixup = kFixupAdr) :
    (∀ t tr, r.target = some t →
      (visitState m loc.offset_adjustment generation p).lirs[t]? = some tr →
      adrDelta (visitState m loc.offset_adjustment generation p)
          (visitRec r loc.offset_adjustment generation) loc.offset_adjustment
        = .ok (wrapI32 (((wrap32 (toU32 (if tr.flags.generation = generation then 0
              else loc.offset_adjustment) + tr.offset) : Nat) : Int)
            - ((visitRec r loc.offset_adjustment generation).offset : Int))) ∧
      ∀ a : Int, a = (if tr.flags.generation = generation then 0 else loc.offset_adjustment) →
        0 ≤ (tr.offset : Int) + a → (tr.offset : Int) + a < 4294967296 →
        -2147483648 ≤ (tr.offset : Int) + a
          - ((visitRec r loc.offset_adjustment generation).offset : Int) →
        (tr.offset : Int) + a - ((visitRec r loc.offset_adjustment generation).offset : Int)
          < 2147483648 →
        adrDelta (visitState m loc.offset_adjustment generation p)
            (visitRec r loc.offset_adjustment generation) loc.offset_adjustment
          = .ok ((tr.offset : Int) + a
              - ((visitRec r loc.offset_adjustment generation).offset : Int))) ∧
    (r.target = none → 0 ≤ r.operands.get 2 →
      ∀ tab_offset, m.embedded_data[(r.operands.get 2).toNat]? = some tab_offset →
        adrDelta (visitState m loc.offset_adjustment generation p)
            (visitRec r loc.offset_adjustment generation) loc.offset_adjustment
          = .ok (wrapI32 ((tab_offset : Int) + loc.offset_adjustment
              - ((visitRec r loc.offset_adjustment generation).offset : Int)))) ∧
    (r.target = none → r.operands.get 2 < 0 →
      adrDelta (visitState m loc.offset_adjustment generation p)
          (visitRec r loc.offset_adjustment generation) loc.offset_adjustment
        = .ok (r.operands.get 1) ∧
      (IS_SIGNED_IMM21 (r.operands.get 1) = true →
        ∃ m1 loc1 r1, fixupStep env fuel generation m loc p = .ok (m1, loc1) ∧
          m1.lirs[p]? = some r1 ∧ r1.operands = r.operands)) ∧
    (∀ d, adrDelta (visitState m loc.offset_adjustment generation p)
          (visitRec r loc.offset_adjustment generation) loc.offset_adjustment = .ok d →
      (IS_SIGNED_IMM21 d = true →
        ∃ m1 loc1 r1, fixupStep env fuel generation m loc p = .ok (m1, loc1) ∧
          m1.lirs[p]? = some r1 ∧ r1.operands = r.operands.set 1 d ∧
          r1.operands.get 1 = d ∧ r1.flags.generation = generation ∧
          loc1.offset_adjustment = loc.offset_adjustment ∧ loc1.res = loc.res) ∧
      (IS_SIGNED_IMM21 d = false →
        fixupStep env fuel generation m loc p
          = .error (.fatal "Jump range above 1MB in kFixupAdr"))) := by
  have hlen : p < m.lirs.length := by
    rcases List.getElem?_eq_some_iff.mp hr with ⟨h, _⟩
    exact h
  have hstep : ∀ d, adrDelta (visitState m loc.offset_adjustment generation p)
      (visitRec r loc.offset_adjustment generation) loc.offset_adjustment = .ok d →
      IS_SIGNED_IMM21 d = true →
      ∃ m1 loc1 r1, fixupStep env fuel generation m loc p = .ok (m1, loc1) ∧
        m1.lirs[p]? = some r1 ∧ r1.operands = r.operands.set 1 d ∧
        r1.flags.generation = generation ∧
        loc1.offset_adjustment = loc.offset_adjustment ∧ loc1.res = loc.res := by
    intro d hd hi
    refine ⟨_, _,
      { r with offset := wrap32 (r.offset + toU32 loc.offset_adjustment),
               flags := { r.flags with generation := generation },
               operands := r.operands.set 1 d },
      (fixupStep_adr_eq env fuel generation m loc p r d hr hk hd).trans (if_pos hi),
      ?_, rfl, rfl, rfl, rfl⟩
    simp [hlen]
  have htarget : ∀ t tr, r.target = some t →
      (visitState m loc.offset_adjustment generation p).lirs[t]? = some tr →
      adrDelta (visitState m loc.offset_adjustment generation p)
          (visitRec r loc.offset_adjustment generation) loc.offset_adjustment
        = .ok (wrapI32 (((wrap32 (toU32 (if tr.flags.generation = generation then 0
              else loc.offset_adjustment) + tr.offset) : Nat) : Int)
            - ((visitRec r loc.offset_adjustment generation).offset : Int))) := by
    intro t tr ht htr
    simp [adrDelta, visitRec, ht, getLIR, htr, bind, Except.bind, pure, Except.pure]
  refine ⟨fun t tr ht htr => ⟨htarget t tr ht htr, ?_⟩, ?_, ?_, ?_⟩
  · intro a ha h1 h2 h3 h4
    rw [htarget t tr ht htr, ← ha]
    have e : ((wrap32 (toU32 a + tr.offset) : Nat) : Int) = (tr.offset : Int) + a := by
      rw [wrap32_toU32_add a tr.offset (by omega) (by omega)]
      ring
    rw [e, wrapI32_of_range _ h3 h4]
  · intro ht h2 off hoff
    simp [adrDelta, visitRec, ht, h2, hoff, visitState, pure, Except.pure]
  · intro ht h2
    have hd : adrDelta (visitState m loc.offset_adjustment generation p)
        (visitRec r loc.offset_adjustment generation) loc.offset_adjustment
        = .ok (r.operands.get 1) := by
      have h2' : ¬ (0 ≤ r.operands.get 2) := by omega
      simp [adrDelta, visitRec, ht, h2', pure, Except.pure]
    refine ⟨hd, fun hi => ?_⟩
    obtain ⟨m1, loc1, r1, h, hr1, hops, _⟩ := hstep _ hd hi
    exact ⟨m1, loc1, r1, h, hr1, hops.trans (Operands.set_get_self r.operands)⟩
  · intro d hd
    refine ⟨fun hi => ?_, fun hi => ?_⟩
    · obtain ⟨m1, loc1, r1, h, hr1, hops, hg, ha, hres⟩ := hstep d hd hi
      refine ⟨m1, loc1, r1, h, hr1, hops, ?_, hg, ha, hres⟩
      rw [hops]
      cases r.operands
      rfl
    · rw [fixupStep_adr_eq env fuel generation m loc p r d hr hk hd]
      simp [hi]

theorem adr_delta_sources_witness :
    (adrDelta (visitState adrStream 0 1 0) (visitRec
        ⟨0, 0, kA64Adr2xd, some 1, none, some 2, ⟨false, 4, true, 0, kFixupAdr⟩, some 2,
          ⟨0, 0, 0, 0, 0⟩⟩ 0 1) 0 = .ok 8) ∧
    (∃ m1 loc1 r1, fixupStep (mkEnv releaseConfig) 5 1 adrStream ⟨0, .kSuccess, none, some 0⟩ 0
        = .ok (m1, loc1) ∧ m1.lirs[0]? = some r1 ∧ r1.operands.get 1 = 8) ∧
    (adrDelta (visitState adrStream 0 1 3) (visitRec
        ⟨8, 0, kA64Adr2xd, some 4, some 2, none, ⟨false, 4, true, 0, kFixupAdr⟩, some 4,
          ⟨0, 0, 0, 0, 0⟩⟩ 0 1) 0 = .ok 8) ∧
    (adrDelta (visitState adrStream 0 1 4) (visitRec
        ⟨12, 0, kA64Adr2xd, none, some 3, none, ⟨false, 4, true, 0, kFixupAdr⟩, none,
          ⟨0, 20, -1, 0, 0⟩⟩ 0 1) 0 = .ok 20) :=
  have h0 := adr_delta_sources (mkEnv releaseConfig) 5 1 adrStream ⟨0, .kSuccess, none, some 0⟩ 0
    ⟨0, 0, kA64Adr2xd, some 1, none, some 2, ⟨false, 4, true, 0, kFixupAdr⟩, some 2,
      ⟨0, 0, 0, 0, 0⟩⟩ rfl rfl
  have h3 := adr_delta_sources (mkEnv releaseConfig) 5 1 adrStream ⟨0, .kSuccess, none, some 3⟩ 3
    ⟨8, 0, kA64Adr2xd, some 4, some 2, none, ⟨false, 4, true, 0, kFixupAdr⟩, some 4,
      ⟨0, 0, 0, 0, 0⟩⟩ rfl rfl
  have h4 := adr_delta_sources (mkEnv releaseConfig) 5 1 adrStream ⟨0, .kSuccess, none, some 4⟩ 4
    ⟨12, 0, kA64Adr2xd, none, some 3, none, ⟨false, 4, true, 0, kFixupAdr⟩, none,
      ⟨0, 20, -1, 0, 0⟩⟩ rfl rfl
  have e0 := (h0.1 2 ⟨8, 0, ⟨.pseudo (-1), false⟩, some 3, some 1, none,
      ⟨false, 0, true, 0, kFixupLabel⟩, some 3, ⟨0, 0, 0, 0, 0⟩⟩ rfl rfl).2 0 (by decide)
      (by decide) (by decide) (by decide) (by decide)
  ⟨e0,
   (let ⟨m1, loc1, r1, h, hr1, _, hd, _⟩ := (h0.2.2.2 8 e0).1 (by decide)
    ⟨m1, loc1, r1, h, hr1, hd⟩),
   h3.2.1 rfl (by decide) 16 rfl, (h4.2.2.1 rfl (by decide)).1⟩
/-! ## Masks of high bits -/

/-- Masking with `n` ones that start at bit `k` keeps the bits `k .. k + n - 1`. -/
theorem and_shifted_ones (y n k : Nat) :
    y &&& ((2 ^ n - 1) <<< k) = 2 ^ k * ((y / 2 ^ k) % 2 ^ n) := by
  apply Nat.eq_of_testBit_eq
  intro i
  rw [Nat.testBit_and, Nat.testBit_shiftLeft, Nat.testBit_two_pow_sub_one,
    Nat.testBit_mul_pow_two, Nat.testBit_mod_two_pow, ← Nat.shiftRight_eq_div_pow,
    Nat.testBit_shiftRight]
  by_cases hk : k ≤ i
  · have e : k + (i - k) = i := by omega
    by_cases hn : i - k < n
    · simp [hk, hn, e]
    · simp [hk, hn]
  · simp [hk]

theorem ALIGNED_DATA_OFFSET_eq (x : Nat) (hx : x ≤ 4294967288) :
    ALIGNED_DATA_OFFSET x = 8 * ((x + 7) / 8) := by
  unfold ALIGNED_DATA_OFFSET wrap32
  have h1 : (x + 7) % 4294967296 = x + 7 := Nat.mod_eq_of_lt (by omega)
  have h2 : (0xfffffff8 : Nat) = (2 ^ 29 - 1) <<< 3 := by decide
  rw [h1, h2, and_shifted_ones]
  have h3 : (x + 7) / 2 ^ 3 % 2 ^ 29 = (x + 7) / 8 := by
    norm_num
    omega
  rw [h3]
  norm_num
/-! ## A pass writes only the arena and the head of the fixup chain -/

theorem SameRest.rfl_ (m : Mir2Lir) : SameRest m m := ⟨rfl, rfl, rfl, rfl, rfl, rfl⟩

theorem SameRest.then {m m1 m2 : Mir2Lir} (h1 : SameRest m m1) (h2 : SameRest m1 m2) :
    SameRest m m2 :=
  ⟨h2.1.trans h1.1, h2.2.1.trans h1.2.1, h2.2.2.1.trans h1.2.2.1,
    h2.2.2.2.1.trans h1.2.2.2.1, h2.2.2.2.2.1.trans h1.2.2.2.2.1,
    h2.2.2.2.2.2.trans h1.2.2.2.2.2⟩

theorem fixupT1Branch_rest {env : Env} {m m1 : Mir2Lir} {loc loc1 : FixupLocals} {p : Nat}
    (h : fixupT1Branch env m loc p = .ok (m1, loc1)) : SameRest m m1 := by
  unfold fixupT1Branch at h
  obtain ⟨r, _, h⟩ := bind_ok h
  obtain ⟨d, _, h⟩ := bind_ok h
  split at h
  · cases h
  · obtain ⟨lirs', _, h⟩ := bind_ok h
    obtain ⟨lir2, _, h⟩ := bind_ok h
    split at h
    · obtain ⟨lirs3, _, h⟩ := bind_ok h
      simp only [pure, Except.pure] at h
      injection h with h
      injection h with h1 h2
      rw [← h1]; exact ⟨rfl, rfl, rfl, rfl, rfl, rfl⟩
    · simp only [pure, Except.pure] at h
      injection h with h
      injection h with h1 h2
      rw [← h1]; exact ⟨rfl, rfl, rfl, rfl, rfl, rfl⟩

theorem fixupCondBranch_rest {env : Env} {m m1 : Mir2Lir} {loc loc1 : FixupLocals} {p : Nat}
    (h : fixupCondBranch env m loc p = .ok (m1, loc1)) : SameRest m m1 := by
  unfold fixupCondBranch at h
  obtain ⟨r, _, h⟩ := bind_ok h
  obtain ⟨d, _, h⟩ := bind_ok h
  split at h
  · cases h
  · obtain ⟨lirs', _, h⟩ := bind_ok h
    simp only [pure, Except.pure] at h
    injection h with h
    injection h with h1 h2
    rw [← h1]; exact ⟨rfl, rfl, rfl, rfl, rfl, rfl⟩

theorem ReplaceFixup_rest {m m' : Mir2Lir} {prev_lir orig_lir new_lir : Option Nat}
    (h : ReplaceFixup m prev_lir orig_lir new_lir = .ok m') : SameRest m m' := by
  unfold ReplaceFixup at h
  obtain ⟨o, _, h⟩ := bind_ok h
  obtain ⟨l1, _, h⟩ := bind_ok h
  dsimp only at h
  cases hp : prev_lir with
  | none =>
    rw [hp] at h
    simp only [beq_self_eq_true, if_true] at h
    obtain ⟨y, hy, h⟩ := bind_ok h
    simp only [pure, Except.pure] at hy
    injection hy with hy
    subst hy
    obtain ⟨l3, _, h⟩ := bind_ok h
    simp only [pure, Except.pure] at h
    injection h with h
    rw [← h]; exact ⟨rfl, rfl, rfl, rfl, rfl, rfl⟩
  | some c =>
    rw [hp] at h
    simp only [beq_iff_eq, if_false] at h
    obtain ⟨l2, _, h⟩ := bind_ok h
    obtain ⟨y, hy, h⟩ := bind_ok h
    simp only [pure, Except.pure] at hy
    injection hy with hy
    subst hy
    obtain ⟨l3, _, h⟩ := bind_ok h
    simp only [pure, Except.pure] at h
    injection h with h
    rw [← h]; exact ⟨rfl, rfl, rfl, rfl, rfl, rfl⟩

theorem tbxzWiden_rest {env : Env} {generation : Nat} {m m1 : Mir2Lir}
    {loc loc1 : FixupLocals} {p : Nat} {opcode : Opcode} {lirs : List LIR} {lir : LIR} {c : Bool}
    (h : tbxzWiden env generation m loc p opcode lirs lir = .ok (m1, loc1, c)) :
    SameRest m m1 := by
  unfold tbxzWiden at h
  dsimp only at h
  obtain ⟨_, _, h⟩ := bind_ok h
  obtain ⟨_, _, h⟩ := bind_ok h
  obtain ⟨_, _, h⟩ := bind_ok h
  obtain ⟨_, _, h⟩ := bind_ok h
  obtain ⟨_, _, h⟩ := bind_ok h
  obtain ⟨_, _, h⟩ := bind_ok h
  obtain ⟨_, _, h⟩ := bind_ok h
  obtain ⟨_, _, h⟩ := bind_ok h
  obtain ⟨m2, hm2, h⟩ := bind_ok h
  obtain ⟨_, _, h⟩ := bind_ok h
  simp only [pure, Except.pure] at h
  injection h with h
  injection h with h1 h2
  rw [← h1]
  have h3 := ReplaceFixup_rest hm2
  exact h3

theorem fixupTBxZ_rest {env : Env} {generation : Nat} {m m1 : Mir2Lir} {loc loc1 : FixupLocals}
    {p : Nat} {c : Bool} (h : fixupTBxZ env generation m loc p = .ok (m1, loc1, c)) :
    SameRest m m1 := by
  unfold fixupTBxZ at h
  obtain ⟨r, _, h⟩ := bind_ok h
  dsimp only at h
  obtain ⟨_, _, h⟩ := bind_ok h
  obtain ⟨_, _, h⟩ := bind_ok h
  obtain ⟨lirs1, _, h⟩ := bind_ok h
  obtain ⟨lir2, _, h⟩ := bind_ok h
  obtain ⟨d, _, h⟩ := bind_ok h
  split at h
  · exact tbxzWiden_rest h
  · obtain ⟨lirs3, _, h⟩ := bind_ok h
    simp only [pure, Except.pure] at h
    injection h with h
    injection h with h1 h2
    rw [← h1]; exact ⟨rfl, rfl, rfl, rfl, rfl, rfl⟩

theorem fixupAdr_rest {m m1 : Mir2Lir} {loc loc1 : FixupLocals} {p : Nat}
    (h : fixupAdr m loc p = .ok (m1, loc1)) : SameRest m m1 := by
  obtain ⟨_, _, _, hm, _, _⟩ := fixupAdr_frame h
  rw [hm]; exact ⟨rfl, rfl, rfl, rfl, rfl, rfl⟩

theorem fixupA53_rest {env : Env} {fuel : Nat} {m m1 : Mir2Lir} {loc loc1 : FixupLocals}
    {p : Nat} (h : fixupA53Erratum835769 env fuel m loc p = .ok (m1, loc1)) :
    SameRest m m1 := by
  obtain ⟨r, hr, _⟩ := bind_ok h
  obtain ⟨i, hi, hr⟩ := getLIR_ok hr
  injection hi with hi
  subst hi
  rcases fixupA53_ok h hr with ⟨hm, _⟩ | ⟨_, _, _, hm, _⟩
  · rw [hm]; exact SameRest.rfl_ m
  · rw [hm]; exact ⟨rfl, rfl, rfl, rfl, rfl, rfl⟩

theorem fixupSwitch_rest {env : Env} {fuel generation : Nat} {m m1 : Mir2Lir}
    {loc loc1 : FixupLocals} {p : Nat} {k : FixupKind} {c : Bool}
    (h : fixupSwitch env fuel generation m loc p k = .ok (m1, loc1, c)) : SameRest m m1 := by
  unfold fixupSwitch at h
  have hpair : ∀ {x : Except Fault (Mir2Lir × FixupLocals)},
      (∀ a b, x = .ok (a, b) → SameRest m a) →
      (x >>= fun r => (pure (r.1, r.2, false) : Except Fault (Mir2Lir × FixupLocals × Bool)))
        = .ok (m1, loc1, c) → SameRest m m1 := by
    intro x hx hb
    obtain ⟨⟨a, b⟩, hab, hb⟩ := bind_ok hb
    simp only [pure, Except.pure] at hb
    injection hb with hb
    injection hb with h1 h2
    rw [← h1]
    exact hx a b hab
  have hplain : ∀ {x : Except Fault (Mir2Lir × FixupLocals × Bool)},
      x = pure (m, loc, false) → x = .ok (m1, loc1, c) → SameRest m m1 := by
    intro x hx hx'
    rw [hx] at hx'
    simp only [pure, Except.pure] at hx'
    injection hx' with hx'
    injection hx' with h1 h2
    rw [← h1]; exact SameRest.rfl_ m
  split at h
  · exact hplain rfl h
  · exact hplain rfl h
  · exact hplain rfl h
  · exact hpair (fun a b hab => fixupT1Branch_rest hab) h
  · exact hpair (fun a b hab => fixupCondBranch_rest hab) h
  · exact hpair (fun a b hab => fixupCondBranch_rest hab) h
  · exact hpair (fun a b hab => fixupCondBranch_rest hab) h
  · exact fixupTBxZ_rest h
  · exact hpair (fun a b hab => fixupAdr_rest hab) h
  · exact hpair (fun a b hab => fixupA53_rest hab) h
  · cases h

theorem fixupStep_rest {env : Env} {fuel generation : Nat} {m m1 : Mir2Lir}
    {loc loc1 : FixupLocals} {p : Nat}
    (h : fixupStep env fuel generation m loc p = .ok (m1, loc1)) : SameRest m m1 := by
  unfold fixupStep at h
  obtain ⟨lirs0, _, h⟩ := bind_ok h
  dsimp only at h
  obtain ⟨lir0, _, h⟩ := bind_ok h
  obtain ⟨⟨m', loc', c⟩, hcase, h⟩ := bind_ok h
  have hc := fixupSwitch_rest hcase
  dsimp only at h
  split at h
  · simp only [pure, Except.pure] at h
    injection h with h
    injection h with h1 _
    rw [← h1]; exact hc
  · obtain ⟨_, _, h⟩ := bind_ok h
    simp only [pure, Except.pure] at h
    injection h with h
    injection h with h1 _
    rw [← h1]; exact hc

theorem fixupPass_rest {env : Env} {generation : Nat} :
    ∀ (fuel : Nat) (m : Mir2Lir) (loc : FixupLocals) (m' : Mir2Lir) (loc' : FixupLocals),
      fixupPass env generation fuel m loc = .ok (m', loc') → SameRest m m' := by
  intro fuel
  induction fuel with
  | zero =>
    intro m loc m' loc' h
    unfold fixupPass at h
    cases hl : loc.lir with
    | none =>
      rw [hl] at h
      injection h with h
      injection h with h1 _
      rw [← h1]; exact SameRest.rfl_ m
    | some p => rw [hl] at h; cases h
  | succ fuel ih =>
    intro m loc m' loc' h
    unfold fixupPass at h
    cases hl : loc.lir with
    | none =>
      rw [hl] at h
      injection h with h
      injection h with h1 _
      rw [← h1]; exact SameRest.rfl_ m
    | some p =>
      rw [hl] at h
      dsimp only at h
      cases hs : fixupStep env (fuel + 1) generation m loc p with
      | error e => rw [hs] at h; cases h
      | ok v =>
        obtain ⟨m1, loc1⟩ := v
        rw [hs] at h
        exact (fixupStep_rest hs).then (ih m1 loc1 m' loc' h)
/-! ## The offset of the data region -/

theorem fixupLoop_data_offset {env : Env} {fuel : Nat}
    (hdata : ∀ m, (env.assignData m).data_offset_ = m.data_offset_) :
    ∀ (rounds : Nat) (m : Mir2Lir) (generation assembler_retries starting_offset : Nat)
      (m1 : Mir2Lir) (so : Nat),
      fixupLoop env fuel rounds m generation assembler_retries starting_offset = .ok (m1, so) →
      (m1.data_offset_ = m.data_offset_ ∧ so = starting_offset) ∨
        m1.data_offset_ = ALIGNED_DATA_OFFSET so := by
  intro rounds
  induction rounds with
  | zero =>
    intro m generation assembler_retries starting_offset m1 so h
    unfold fixupLoop at h
    cases h
  | succ rounds ih =>
    intro m generation assembler_retries starting_offset m1 so h
    unfold fixupLoop at h
    dsimp only at h
    cases hp : fixupPass env (generation ^^^ 1) fuel m
        { offset_adjustment := 0, res := .kSuccess, prev_lir := none, lir := m.first_fixup_ } with
    | error e => rw [hp] at h; cases h
    | ok v =>
      obtain ⟨m2, loc2⟩ := v
      rw [hp] at h
      dsimp only at h
      have hrest := fixupPass_rest _ _ _ _ _ hp
      by_cases hres : loc2.res = .kSuccess
      · rw [if_pos hres] at h
        split at h
        · cases h
        · injection h with h
          injection h with h1 h2
          rw [← h1, ← h2]
          exact Or.inl ⟨hrest.2.2.1, rfl⟩
      · rw [if_neg hres] at h
        split at h
        · cases h
        · rcases ih _ _ _ _ _ _ h with ⟨h1, h2⟩ | h1
          · right
            rw [h1, h2]
            exact hdata _
          · exact Or.inr h1

theorem AssembleLIR_resolve_data_offset {env : Env} {fuel : Nat}
    (hdata : ∀ m, (env.assignData m).data_offset_ = m.data_offset_)
    {m m1 : Mir2Lir} {so : Nat} (h : AssembleLIR_resolve env fuel m = .ok (m1, so)) :
    m1.data_offset_ = ALIGNED_DATA_OFFSET so := by
  unfold AssembleLIR_resolve at h
  obtain ⟨⟨m2, so2⟩, _, h⟩ := bind_ok h
  dsimp only at h
  rcases fixupLoop_data_offset hdata _ _ _ _ _ _ _ h with ⟨h1, h2⟩ | h1
  · rw [h1, h2]
    exact hdata _
  · exact h1

/-- C24. The data region starts at the least multiple of 8 that is not below the code
size: for every code size `x ≤ 2 ^ 32 - 8`, `ALIGNED_DATA_OFFSET x` is a multiple of 8 with
`x ≤ ALIGNED_DATA_OFFSET x < x + 8`, and no multiple of 8 lies between; and, when
`AssignDataOffsets` does not write `data_offset_`, the fixup loop is left with
`data_offset_ = ALIGNED_DATA_OFFSET starting_offset` (the loop sets it so before the first
pass and again after every pass that asks for a retry, whether or not `starting_offset`
has changed), and `AssembleLIR` ends with `data_offset_` equal to `ALIGNED_DATA_OFFSET`
of the size of the code buffer. -/
theorem data_offset_aligned (env : Env) (fuel : Nat) :
    (∀ x, x ≤ 4294967288 →
      ALIGNED_DATA_OFFSET x % 8 = 0 ∧ x ≤ ALIGNED_DATA_OFFSET x ∧
      ALIGNED_DATA_OFFSET x < x + 8 ∧
      ∀ y, y % 8 = 0 → x ≤ y → ALIGNED_DATA_OFFSET x ≤ y) ∧
    ((∀ m, (env.assignData m).data_offset_ = m.data_offset_) →
      (∀ (rounds : Nat) (m : Mir2Lir) (generation assembler_retries starting_offset : Nat)
        (m1 : Mir2Lir) (so : Nat),
        fixupLoop env fuel rounds m generation assembler_retries starting_offset
          = .ok (m1, so) →
        (m1.data_offset_ = m.data_offset_ ∧ so = starting_offset) ∨
          m1.data_offset_ = ALIGNED_DATA_OFFSET so) ∧
      (∀ m m1 so, AssembleLIR_resolve env fuel m = .ok (m1, so) →
        m1.data_offset_ = ALIGNED_DATA_OFFSET so) ∧
      (∀ m m1, AssembleLIR env fuel m = .ok m1 →
        m1.data_offset_ = ALIGNED_DATA_OFFSET m1.code_buffer_.length)) := by
  refine ⟨fun x hx => ?_, fun hdata => ⟨fixupLoop_data_offset hdata,
    fun m m1 so h => AssembleLIR_resolve_data_offset hdata h, fun m m1 h => ?_⟩⟩
  · rw [ALIGNED_DATA_OFFSET_eq x hx]
    refine ⟨by omega, by omega, by omega, fun y hy hxy => by omega⟩
  · unfold AssembleLIR at h
    obtain ⟨⟨m2, so⟩, hres, h⟩ := bind_ok h
    dsimp only at h
    obtain ⟨_, _, h⟩ := bind_ok h
    obtain ⟨⟨lirs, out, write_pos⟩, _, h⟩ := bind_ok h
    dsimp only at h
    obtain ⟨_, _, h⟩ := bind_ok h
    obtain ⟨_, _, h⟩ := bind_ok h
    simp only [pure, Except.pure] at h
    injection h with h
    rw [← h]
    have hlen : ((out ++ List.replicate (so - out.length) 0).take so).length = so := by
      simp
      omega
    show m2.data_offset_ = ALIGNED_DATA_OFFSET _
    rw [hlen]
    exact AssembleLIR_resolve_data_offset hdata hres

theorem data_offset_aligned_witness :
    (ALIGNED_DATA_OFFSET 4 = 8 ∧ ALIGNED_DATA_OFFSET 8 = 8 ∧ ALIGNED_DATA_OFFSET 9 = 16) ∧
    (∃ m1, AssembleLIR (mkEnv releaseConfig) 3 elideStream = .ok m1 ∧
      m1.code_buffer_ = [192, 3, 95, 214] ∧ m1.data_offset_ = 8) := by
  refine ⟨⟨by decide, by decide, by decide⟩, ?_⟩
  have hmap : (AssembleLIR (mkEnv releaseConfig) 3 elideStream).map Mir2Lir.code_buffer_
      = .ok [192, 3, 95, 214] := by decide
  cases h : AssembleLIR (mkEnv releaseConfig) 3 elideStream with
  | error e => rw [h] at hmap; cases hmap
  | ok m1 =>
    rw [h] at hmap
    injection hmap with hmap
    refine ⟨m1, rfl, hmap, ?_⟩
    have hd := ((data_offset_aligned (mkEnv releaseConfig) 3).2 (fun _ => rfl)).2.2
      elideStream m1 h
    rw [hd, hmap]
    decide
/-! ## ARM32 branch offsets -/

theorem POPCOUNT_kBranchOffsetMask : POPCOUNT kBranchOffsetMask = 24 := by decide

theorem asr_eq_div (x : Int) (n : Nat) : asr x n = x / ((2 ^ n : Nat) : Int) := by
  unfold asr
  exact Int.shiftRight_eq_div_pow x n

theorem and_kBranchOffsetMask (x : Nat) : x &&& kBranchOffsetMask = x % 16777216 := by
  have h : kBranchOffsetMask = 2 ^ 24 - 1 := by decide
  rw [h, Nat.and_pow_two_sub_one_eq_mod]

theorem and_not_kBranchOffsetMask (x : Nat) :
    x &&& (4294967295 - kBranchOffsetMask) = 16777216 * (x / 16777216 % 256) := by
  have h : 4294967295 - kBranchOffsetMask = (2 ^ 8 - 1) <<< 24 := by decide
  rw [h, and_shifted_ones]
  norm_num

theorem or_low_eq_add (a b : Nat) (hb : b < 16777216) :
    16777216 * a ||| b = 16777216 * a + b := by
  have h := @Nat.mul_add_lt_is_or 24 b (by simpa using hb) a
  simpa using h.symm

theorem EncodeBranchOffset_eq (offset : Int) (inst : Nat)
    (ha : (offset - 8) % 4 = 0) (hlo : -8388608 ≤ offset - 8) (hhi : offset - 8 < 8388608) :
    Arm32Assembler.EncodeBranchOffset offset inst
      = .ok (16777216 * (inst / 16777216 % 256)
          + ((offset - 8) / 4 % 16777216).toNat) := by
  unfold Arm32Assembler.EncodeBranchOffset
  have hw : wrapI32 (offset - 8) = offset - 8 := wrapI32_of_range _ (by omega) (by omega)
  have hint : IsInt (POPCOUNT kBranchOffsetMask) (offset - 8) = true := by
    rw [POPCOUNT_kBranchOffsetMask]
    unfold IsInt
    norm_num
    constructor <;> omega
  have hal : ((offset - 8) % 4 == 0) = true := by simp [ha]
  simp only [hw, hint, hal, CHECK, if_true, bind, Except.bind, pure, Except.pure]
  rw [and_kBranchOffsetMask, and_not_kBranchOffsetMask, asr_eq_div,
    or_low_eq_add _ _ (Nat.mod_lt _ (by norm_num))]
  congr 2
  unfold toU32
  norm_num
  omega

theorem DecodeBranchOffset_eq (hi : Nat) (f : Int) (hlo : -2097152 ≤ f)
    (hhi : f < 2097152) :
    Arm32Assembler.DecodeBranchOffset (16777216 * hi + (f % 16777216).toNat) = f * 4 + 8 := by
  unfold Arm32Assembler.DecodeBranchOffset
  rw [and_kBranchOffsetMask, Nat.shiftLeft_eq, asr_eq_div]
  unfold toI32 wrap32 wrapI32
  norm_num
  omega

theorem testBit_of_div_eq {w inst : Nat} (h : w / 16777216 = inst / 16777216) (i : Nat)
    (hi : 24 ≤ i) : w.testBit i = inst.testBit i := by
  have e : i = 24 + (i - 24) := by omega
  have h2 : w >>> 24 = inst >>> 24 := by
    rw [Nat.shiftRight_eq_div_pow, Nat.shiftRight_eq_div_pow]
    exact h
  rw [e, ← Nat.testBit_shiftRight, ← Nat.testBit_shiftRight, h2]

/-- C26. ARM32 branch offsets round-trip: for every instruction word `inst` and every byte
offset `o` with `o - 8` a multiple of 4 and `-2 ^ 23 ≤ o - 8 < 2 ^ 23`,
`EncodeBranchOffset(o, inst)` passes its checks and returns a word `w` with
`DecodeBranchOffset(w) = o`; `w` differs from `inst` in the 24 offset bits only: the bits
24 and above (link, type and condition) are those of `inst`. -/
theorem branch_offset_roundtrip (inst : Nat) (o : Int) (hinst : inst < 4294967296)
    (ha : (o - 8) % 4 = 0) (hlo : -8388608 ≤ o - 8) (hhi : o - 8 < 8388608) :
    ∃ w, Arm32Assembler.EncodeBranchOffset o inst = .ok w ∧
      Arm32Assembler.DecodeBranchOffset w = o ∧ w < 4294967296 ∧
      w / 16777216 = inst / 16777216 ∧
      ∀ i, 24 ≤ i → w.testBit i = inst.testBit i := by
  have hf : ((o - 8) / 4 % 16777216).toNat < 16777216 := by omega
  have hhi8 : inst / 16777216 % 256 = inst / 16777216 := by omega
  have hdiv : (16777216 * (inst / 16777216 % 256) + ((o - 8) / 4 % 16777216).toNat)
      / 16777216 = inst / 16777216 := by omega
  refine ⟨_, EncodeBranchOffset_eq o inst ha hlo hhi, ?_, by omega, hdiv,
    fun i hi => testBit_of_div_eq hdiv i hi⟩
  rw [DecodeBranchOffset_eq _ ((o - 8) / 4) (by omega) (by omega)]
  omega

theorem branch_offset_roundtrip_witness :
    Arm32Assembler.EncodeBranchOffset (-16) 0xea000000 = .ok 0xeafffffa ∧
    Arm32Assembler.DecodeBranchOffset 0xeafffffa = -16 ∧
    ∃ w, Arm32Assembler.EncodeBranchOffset 4096 0x1b123456 = .ok w ∧
      Arm32Assembler.DecodeBranchOffset w = 4096 ∧ w / 16777216 = 0x1b :=
  ⟨by decide, by decide,
    let ⟨w, h1, h2, _, h3, _⟩ := branch_offset_roundtrip 0x1b123456 4096 (by decide)
      (by decide) (by decide) (by decide)
    ⟨w, h1, h2, h3⟩⟩
/-! ## ARM32 shifter operands -/

theorem or_eq_add_of_lt (i a b : Nat) (hb : b < 2 ^ i) : 2 ^ i * a ||| b = 2 ^ i * a + b :=
  (@Nat.mul_add_lt_is_or i b hb a).symm

/-- The rotation to the left that `ShifterOperandCanHoldArm32` computes, in arithmetic. -/
theorem rotl_eq (x n : Nat) (hn : n ≤ 32) (hx : x < 4294967296) :
    wrap32 (x <<< n) ||| (x >>> (32 - n)) = 2 ^ n * (x % 2 ^ (32 - n)) + x / 2 ^ (32 - n) := by
  have h32 : (4294967296 : Nat) = 2 ^ n * 2 ^ (32 - n) := by
    rw [← Nat.pow_add]
    have : n + (32 - n) = 32 := by omega
    rw [this]
  have h1 : wrap32 (x <<< n) = 2 ^ n * (x % 2 ^ (32 - n)) := by
    unfold wrap32
    rw [Nat.shiftLeft_eq, h32, Nat.mul_comm x, Nat.mul_mod_mul_left]
  have h2 : x / 2 ^ (32 - n) < 2 ^ n := by
    rw [Nat.div_lt_iff_lt_mul (Nat.pos_pow_of_pos _ (by norm_num))]
    rw [← h32]
    exact hx
  rw [h1, Nat.shiftRight_eq_div_pow, or_eq_add_of_lt _ _ _ h2]

theorem rotateRight32_eq (v n : Nat) (hn : n ≤ 32) (hv : v < 4294967296) :
    rotateRight32 v n = 2 ^ (32 - n) * (v % 2 ^ n) + v / 2 ^ n := by
  have h32 : (4294967296 : Nat) = 2 ^ (32 - n) * 2 ^ n := by
    rw [← Nat.pow_add]
    have : 32 - n + n = 32 := by omega
    rw [this]
  have h2 : v / 2 ^ n < 2 ^ (32 - n) := by
    rw [Nat.div_lt_iff_lt_mul (Nat.pos_pow_of_pos _ (by norm_num))]
    rw [← h32]
    exact hv
  have h3 : v % 2 ^ n < 2 ^ n := Nat.mod_lt _ (Nat.pos_pow_of_pos _ (by norm_num))
  have h1 : (v <<< (32 - n)) % 4294967296 = 2 ^ (32 - n) * (v % 2 ^ n) := by
    rw [Nat.shiftLeft_eq, h32, Nat.mul_comm v, Nat.mul_mod_mul_left]
  unfold rotateRight32 wrap32
  have h4 : (v >>> n ||| v <<< (32 - n)) % 4294967296
      = (v >>> n) % 4294967296 ||| (v <<< (32 - n)) % 4294967296 := by
    apply Nat.eq_of_testBit_eq
    intro i
    have e : (4294967296 : Nat) = 2 ^ 32 := by norm_num
    simp only [e, Nat.testBit_mod_two_pow, Nat.testBit_or]
    cases decide (i < 32) <;> simp
  have h5 : (v >>> n) % 4294967296 = v / 2 ^ n := by
    rw [Nat.shiftRight_eq_div_pow]
    apply Nat.mod_eq_of_lt
    calc v / 2 ^ n ≤ v := Nat.div_le_self _ _
      _ < 4294967296 := hv
  rw [h4, h5, h1, Nat.lor_comm, or_eq_add_of_lt _ _ _ h2]

theorem rot_inverse (x v rot : Nat) (hx : x < 4294967296) (hv : v < 4294967296)
    (hr : rot < 16) :
    wrap32 (x <<< (2 * rot)) ||| (x >>> (32 - 2 * rot)) = v ↔
      x = rotateRight32 v (2 * rot) := by
  rw [rotl_eq x (2 * rot) (by omega) hx, rotateRight32_eq v (2 * rot) (by omega) hv]
  interval_cases rot <;> norm_num <;> omega

theorem rotateRight32_lt (v n : Nat) : rotateRight32 v n < 4294967296 := by
  unfold rotateRight32
  exact wrap32_lt _

theorem rotl_lt (x n : Nat) (hx : x < 4294967296) :
    wrap32 (x <<< n) ||| (x >>> (32 - n)) < 4294967296 := by
  have h1 : wrap32 (x <<< n) < 2 ^ 32 := by simpa using wrap32_lt (x <<< n)
  have h2 : x >>> (32 - n) < 2 ^ 32 := by
    rw [Nat.shiftRight_eq_div_pow]
    calc x / 2 ^ (32 - n) ≤ x := Nat.div_le_self _ _
      _ < 2 ^ 32 := by simpa using hx
  simpa using Nat.or_lt_two_pow h1 h2

/-- The loop tries the rotations in increasing order: it returns the first rotation from
`rot` on for which the rotated immediate is below 256, and `false` when there is none. -/
theorem shifterOperandLoop_spec (immediate : Nat) (shifter_op : ShifterOperand) :
    ∀ (n rot : Nat),
      ((shifterOperandLoop immediate shifter_op n rot).1 = true ∧
        ∃ r, rot ≤ r ∧ r < rot + n ∧
          wrap32 (immediate <<< (2 * r)) ||| (immediate >>> (32 - 2 * r)) < 256 ∧
          (∀ r', rot ≤ r' → r' < r →
            ¬ wrap32 (immediate <<< (2 * r')) ||| (immediate >>> (32 - 2 * r')) < 256) ∧
          (shifterOperandLoop immediate shifter_op n rot).2 =
            { shifter_op with
              type_ := .kImmediate, is_rotate_ := true, rotate_ := r,
              immed_ := wrap32 (immediate <<< (2 * r)) ||| (immediate >>> (32 - 2 * r)) }) ∨
      ((shifterOperandLoop immediate shifter_op n rot).1 = false ∧
        (shifterOperandLoop immediate shifter_op n rot).2 = shifter_op ∧
        ∀ r, rot ≤ r → r < rot + n →
          ¬ wrap32 (immediate <<< (2 * r)) ||| (immediate >>> (32 - 2 * r)) < 256) := by
  intro n
  induction n with
  | zero =>
    intro rot
    right
    refine ⟨rfl, rfl, fun r h1 h2 => by omega⟩
  | succ n ih =>
    intro rot
    unfold shifterOperandLoop
    by_cases h : wrap32 (immediate <<< (2 * rot)) ||| (immediate >>> (32 - 2 * rot)) < 256
    · left
      have h' : wrap32 (immediate <<< (2 * rot)) ||| (immediate >>> (32 - 2 * rot))
          < 1 <<< kImmed8Bits := h
      simp only [h', if_true, true_and]
      exact ⟨rot, le_refl _, by omega, h, fun r' h1 h2 => by omega, rfl⟩
    · have h' : ¬ wrap32 (immediate <<< (2 * rot)) ||| (immediate >>> (32 - 2 * rot))
          < 1 <<< kImmed8Bits := h
      simp only [h', if_false]
      rcases ih (rot + 1) with ⟨h1, r, hr1, hr2, hr3, hr4, hr5⟩ | ⟨h1, h2, h3⟩
      · left
        refine ⟨h1, r, by omega, by omega, hr3, fun r' h4 h5 => ?_, hr5⟩
        by_cases e : r' = rot
        · rw [e]; exact h
        · exact hr4 r' (by omega) h5
      · right
        refine ⟨h1, h2, fun r h4 h5 => ?_⟩
        by_cases e : r = rot
        · rw [e]; exact h
        · exact h3 r (by omega) (by omega)

theorem fits_iff_rotl (immediate rot : Nat) (hx : immediate < 4294967296) (hr : rot < 16) :
    FitsShifterOperand immediate rot ↔
      wrap32 (immediate <<< (2 * rot)) ||| (immediate >>> (32 - 2 * rot)) < 256 := by
  constructor
  · rintro ⟨imm8, h8, he⟩
    have h := (rot_inverse immediate imm8 rot hx (by omega) hr).mpr he
    rw [h]
    exact h8
  · intro h
    exact ⟨_, h, (rot_inverse immediate _ rot hx (rotl_lt _ _ hx) hr).mp rfl⟩

theorem rotl_zero (x : Nat) (hx : x < 4294967296) :
    wrap32 (x <<< (2 * 0)) ||| (x >>> (32 - 2 * 0)) = x := by
  rw [rotl_eq x (2 * 0) (by omega) hx]
  norm_num
  omega

/-- What `ShifterOperandCanHoldArm32` returns, for both of its exits. -/
theorem ShifterOperandCanHoldArm32_spec (immediate : Nat) (shifter_op : ShifterOperand)
    (hx : immediate < 4294967296) :
    ((Arm32Assembler.ShifterOperandCanHoldArm32 immediate shifter_op).1 = true ∧
      ∃ r, r < 16 ∧ FitsShifterOperand immediate r ∧
        (∀ r', r' < r → ¬ FitsShifterOperand immediate r') ∧
        (Arm32Assembler.ShifterOperandCanHoldArm32 immediate shifter_op).2 =
          { shifter_op with
            type_ := .kImmediate, is_rotate_ := true, rotate_ := r,
            immed_ := wrap32 (immediate <<< (2 * r)) ||| (immediate >>> (32 - 2 * r)) }) ∨
    ((Arm32Assembler.ShifterOperandCanHoldArm32 immediate shifter_op).1 = false ∧
      (Arm32Assembler.ShifterOperandCanHoldArm32 immediate shifter_op).2 = shifter_op ∧
      ∀ r, r < 16 → ¬ FitsShifterOperand immediate r) := by
  unfold Arm32Assembler.ShifterOperandCanHoldArm32
  by_cases h : immediate < 256
  · left
    have h' : immediate < 1 <<< kImmed8Bits := h
    simp only [h', if_true, true_and]
    refine ⟨0, by norm_num, (fits_iff_rotl immediate 0 hx (by norm_num)).mpr ?_,
      fun r' hr' => by omega, ?_⟩
    · rw [rotl_zero immediate hx]; exact h
    · rw [rotl_zero immediate hx]
  · have h' : ¬ immediate < 1 <<< kImmed8Bits := h
    simp only [h', if_false]
    rcases shifterOperandLoop_spec immediate shifter_op 16 0 with
      ⟨h1, r, _, hr2, hr3, hr4, hr5⟩ | ⟨h1, h2, h3⟩
    · left
      refine ⟨h1, r, by omega, (fits_iff_rotl immediate r hx (by omega)).mpr hr3,
        fun r' hr' hf => ?_, hr5⟩
      exact hr4 r' (Nat.zero_le _) hr' ((fits_iff_rotl immediate r' hx (by omega)).mp hf)
    · right
      refine ⟨h1, h2, fun r hr hf => ?_⟩
      exact h3 r (Nat.zero_le _) (by omega) ((fits_iff_rotl immediate r hx hr).mp hf)

/-- C28. The function `ShifterOperandCanHoldArm32(immediate, op)` returns true if and only
if the 32-bit immediate fits an ARM shifter operand, that is, there are `rot` in `0..15`
and `imm8` in `0..255` with `immediate` equal to `imm8` rotated right by `2 * rot` bits;
it returns false for every other immediate. -/
theorem shifter_operand_fits_iff (immediate : Nat) (shifter_op : ShifterOperand)
    (hx : immediate < 4294967296) :
    ((Arm32Assembler.ShifterOperandCanHoldArm32 immediate shifter_op).1 = true ↔
      ∃ rot imm8, rot < 16 ∧ imm8 < 256 ∧ immediate = rotateRight32 imm8 (2 * rot)) ∧
    ((Arm32Assembler.ShifterOperandCanHoldArm32 immediate shifter_op).1 = false ↔
      ¬ ∃ rot imm8, rot < 16 ∧ imm8 < 256 ∧ immediate = rotateRight32 imm8 (2 * rot)) := by
  have key : (Arm32Assembler.ShifterOperandCanHoldArm32 immediate shifter_op).1 = true ↔
      ∃ rot imm8, rot < 16 ∧ imm8 < 256 ∧ immediate = rotateRight32 imm8 (2 * rot) := by
    rcases ShifterOperandCanHoldArm32_spec immediate shifter_op hx with
      ⟨h1, r, hr, ⟨imm8, h8, he⟩, _⟩ | ⟨h1, _, h3⟩
    · exact ⟨fun _ => ⟨r, imm8, hr, h8, he⟩, fun _ => h1⟩
    · refine ⟨fun h => ?_, fun ⟨rot, imm8, hr, h8, he⟩ => ?_⟩
      · rw [h1] at h; cases h
      · exact absurd ⟨imm8, h8, he⟩ (h3 rot hr)
  refine ⟨key, ?_⟩
  rw [← key]
  simp

theorem shifter_operand_fits_iff_witness :
    (Arm32Assembler.ShifterOperandCanHoldArm32 0xff000000
        ⟨.kUnknown, -1, -1, false, false, -1, 0, 0⟩).1 = true ∧
    (∃ rot imm8, rot < 16 ∧ imm8 < 256 ∧ 0xff000000 = rotateRight32 imm8 (2 * rot)) ∧
    (Arm32Assembler.ShifterOperandCanHoldArm32 0x101
        ⟨.kUnknown, -1, -1, false, false, -1, 0, 0⟩).1 = false ∧
    ¬ ∃ rot imm8, rot < 16 ∧ imm8 < 256 ∧ 0x101 = rotateRight32 imm8 (2 * rot) :=
  ⟨by decide,
    ((shifter_operand_fits_iff 0xff000000 ⟨.kUnknown, -1, -1, false, false, -1, 0, 0⟩
      (by decide)).1).mp (by decide),
    by decide,
    ((shifter_operand_fits_iff 0x101 ⟨.kUnknown, -1, -1, false, false, -1, 0, 0⟩
      (by decide)).2).mp (by decide)⟩

/-- C29. Whenever `ShifterOperandCanHoldArm32(immediate, op)` returns true, `op` contains
the operand: it is an immediate rotate operand (`type_ = kImmediate`, `is_rotate_`) with
`immed_ < 256`, `rotate_ < 16` and `immed_` rotated right by `2 * rotate_` bits equal to
`immediate`, and `rotate_` is the smallest rotation for which such an 8-bit value exists.
The other members of `op` are not written. -/
theorem shifter_operand_holds (immediate : Nat) (shifter_op : ShifterOperand)
    (hx : immediate < 4294967296)
    (ht : (Arm32Assembler.ShifterOperandCanHoldArm32 immediate shifter_op).1 = true) :
    (Arm32Assembler.ShifterOperandCanHoldArm32 immediate shifter_op).2.type_ = .kImmediate ∧
    (Arm32Assembler.ShifterOperandCanHoldArm32 immediate shifter_op).2.is_rotate_ = true ∧
    (Arm32Assembler.ShifterOperandCanHoldArm32 immediate shifter_op).2.immed_ < 256 ∧
    (Arm32Assembler.ShifterOperandCanHoldArm32 immediate shifter_op).2.rotate_ < 16 ∧
    rotateRight32 (Arm32Assembler.ShifterOperandCanHoldArm32 immediate shifter_op).2.immed_
      (2 * (Arm32Assembler.ShifterOperandCanHoldArm32 immediate shifter_op).2.rotate_)
        = immediate ∧
    (∀ rot, rot < (Arm32Assembler.ShifterOperandCanHoldArm32 immediate shifter_op).2.rotate_ →
      ¬ ∃ imm8, imm8 < 256 ∧ immediate = rotateRight32 imm8 (2 * rot)) ∧
    (Arm32Assembler.ShifterOperandCanHoldArm32 immediate shifter_op).2 =
      { shifter_op with
        type_ := .kImmediate, is_rotate_ := true,
        rotate_ := (Arm32Assembler.ShifterOperandCanHoldArm32 immediate shifter_op).2.rotate_,
        immed_ := (Arm32Assembler.ShifterOperandCanHoldArm32 immediate shifter_op).2.immed_ } := by
  rcases ShifterOperandCanHoldArm32_spec immediate shifter_op hx with
    ⟨_, r, hr, hf, hmin, hop⟩ | ⟨h1, _, _⟩
  · have h256 := (fits_iff_rotl immediate r hx hr).mp hf
    rw [hop]
    refine ⟨rfl, rfl, h256, hr, ?_, hmin, rfl⟩
    exact ((rot_inverse immediate _ r hx (rotl_lt _ _ hx) hr).mp rfl).symm
  · rw [h1] at ht; cases ht

theorem shifter_operand_holds_witness :
    (Arm32Assembler.ShifterOperandCanHoldArm32 0x3fc00
        ⟨.kUnknown, -1, -1, false, false, -1, 0, 0⟩)
      = (true, ⟨.kImmediate, -1, -1, true, false, -1, 11, 0xff⟩) ∧
    rotateRight32 0xff (2 * 11) = 0x3fc00 ∧
    ∀ rot, rot < 11 → ¬ ∃ imm8, imm8 < 256 ∧ 0x3fc00 = rotateRight32 imm8 (2 * rot) :=
  have h := shifter_operand_holds 0x3fc00 ⟨.kUnknown, -1, -1, false, false, -1, 0, 0⟩
    (by decide) (by decide)
  ⟨by decide, by decide, h.2.2.2.2.2.1⟩
/-! ## `EncodeLIRs` assigns the offsets of the records -/

theorem EncodeLIRsFrom_offsets (cfg : BuildConfig) (lirs0 : List LIR) :
    ∀ (idxs : List Nat) (lirs : List LIR) (out : List Nat) (head : Option Nat) (fuel : Nat)
      (lirs' : List LIR) (out' : List Nat),
      EqOff lirs0 lirs → NextPath lirs0 head idxs → idxs.Nodup →
      EncodeLIRsFrom cfg fuel lirs out head = .ok (lirs', out') →
      (∀ k i, idxs[k]? = some i → ∃ r', lirs'[i]? = some r' ∧
        r'.offset = wrap32 (out.length + 4 * ((idxs.take k).filter (emitsAt lirs0)).length)) ∧
      ∀ j, j ∉ idxs → lirs'[j]? = lirs[j]? := by
  intro idxs
  induction idxs with
  | nil =>
    intro lirs out head fuel lirs' out' _ hpath _ h
    have hh : head = none := hpath
    subst hh
    have e : lirs' = lirs := by
      cases fuel <;> simp [EncodeLIRsFrom] at h <;> exact h.1.symm
    subst e
    exact ⟨fun k i hk => by simp at hk, fun j _ => rfl⟩
  | cons i rest ih =>
    intro lirs out head fuel lirs' out' heq hpath hnd h
    obtain ⟨_, hhead, l0, hl0, hrest⟩ := hpath
    subst hhead
    obtain ⟨l, hl, hel⟩ := heq.get hl0
    obtain ⟨hop, hnext, hflags, _⟩ := eraseOffset_fields hel
    have hi : i ∉ rest := (List.nodup_cons.mp hnd).1
    have hnd' : rest.Nodup := (List.nodup_cons.mp hnd).2
    have hlen : i < lirs.length := by
      rcases List.getElem?_eq_some_iff.mp hl with ⟨h1, _⟩
      exact h1
    cases fuel with
    | zero => simp [EncodeLIRsFrom] at h
    | succ fuel =>
      have heq' := heq.set_offset hl (wrap32 out.length)
      unfold EncodeLIRsFrom at h
      simp only [hl] at h
      -- the recursive call, whatever bytes the record has contributed
      have key : ∀ out1 : List Nat,
          out1.length = out.length + (if emitsAt lirs0 i then 4 else 0) →
          EncodeLIRsFrom cfg fuel (lirs.set i { l with offset := wrap32 out.length }) out1
            l.next = .ok (lirs', out') →
          (∀ k j, (i :: rest)[k]? = some j → ∃ r', lirs'[j]? = some r' ∧
            r'.offset = wrap32 (out.length
              + 4 * (((i :: rest).take k).filter (emitsAt lirs0)).length)) ∧
          ∀ j, j ∉ i :: rest → lirs'[j]? = lirs[j]? := by
        intro out1 hout1 hrun
        obtain ⟨h1, h2⟩ := ih _ out1 l.next fuel lirs' out' heq' (hnext ▸ hrest) hnd' hrun
        refine ⟨fun k j hk => ?_, fun j hj => ?_⟩
        · cases k with
          | zero =>
            simp only [List.getElem?_cons_zero, Option.some.injEq] at hk
            subst hk
            refine ⟨{ l with offset := wrap32 out.length }, ?_, by simp⟩
            rw [h2 i hi]
            simp [hlen]
          | succ k =>
            simp only [List.getElem?_cons_succ] at hk
            obtain ⟨r', hr', ho⟩ := h1 k j hk
            refine ⟨r', hr', ?_⟩
            rw [ho, hout1]
            by_cases he : emitsAt lirs0 i = true
            · simp only [he, if_true, List.take_succ_cons, List.filter_cons, List.length_cons]
              congr 1
              omega
            · simp only [he, Bool.false_eq_true, if_false, List.take_succ_cons,
                List.filter_cons, Nat.add_zero]
        · have hj1 : j ∉ rest := fun hm => hj (List.mem_cons_of_mem _ hm)
          have hj2 : i ≠ j := fun e => hj (e ▸ List.mem_cons_self _ _)
          rw [h2 j hj1]
          simp [List.getElem?_set, hj2]
      cases hb : l0.opcode.base with
      | pseudo c =>
        have hb' : UNWIDE l.opcode = .pseudo c := by rw [hop]; exact hb
        simp only [hb'] at h
        have hem : emitsAt lirs0 i = false := by
          simp [emitsAt, hl0, emits, UNWIDE, hb, IsPseudoLirOp]
        exact key out (by simp [hem]) h
      | insn op =>
        have hb' : UNWIDE l.opcode = .insn op := by rw [hop]; exact hb
        simp only [hb'] at h
        cases hn : l0.flags.is_nop with
        | true =>
          have hn' : l.flags.is_nop = true := by rw [hflags]; exact hn
          simp only [hn', Bool.not_true, Bool.false_eq_true, if_false] at h
          have hem : emitsAt lirs0 i = false := by
            simp [emitsAt, hl0, emits, hn]
          exact key out (by simp [hem]) h
        | false =>
          have hn' : l.flags.is_nop = false := by rw [hflags]; exact hn
          simp only [hn', Bool.not_false, if_true] at h
          have hem : emitsAt lirs0 i = true := by
            simp [emitsAt, hl0, emits, UNWIDE, hb, IsPseudoLirOp, hn]
          split at h
          · cases h
          · rename_i bits _
            exact key (out ++ wordBytes bits) (by simp [hem, wordBytes_length]) h

/-- C25, counterexample: `EncodeLIRs` writes the offsets of the records. For a `nop`
followed by a `ret`, both with offset 0 before the call, the `ret` has offset 4 after the
call. -/
theorem EncodeLIRs_changes_offset :
    nopRetList.map LIR.offset = [0, 0] ∧
    (EncodeLIRs releaseConfig 2 nopRetList 0 (some 0)).map (fun res => res.1.map LIR.offset)
      = .ok [0, 4] := by
  decide

/-- C25, amended. The function `EncodeLIRs` computes no displacement and writes no member
of a record but its offset, which it assigns (`lir->offset = write_pos - write_buffer`):
for every instruction list whose words the operand encoder builds, the call returns, and
after it the offset of every record of the list is the number of bytes stored before the
record is reached, four for each emitting record that precedes it, as a `uint32_t`; every
other member of every record is as before, and so is every record outside the list. -/
theorem EncodeLIRs_assigns_offsets (cfg : BuildConfig) (lirs : List LIR) (write_pos : Nat)
    (lir : Option Nat) (idxs : List Nat) (fuel : Nat)
    (hpath : NextPath lirs lir idxs) (hfuel : idxs.length ≤ fuel)
    (hchecks : (cfg.kIsDebugBuild = false ∧ cfg.kEnableDChecks = false) ∨
      ∀ i ∈ idxs, ∀ r op, lirs[i]? = some r → r.opcode.base = .insn op →
        r.flags.is_nop = false → ∃ w, encodeInsn cfg r op = .ok w) :
    ∃ lirs' out pos, EncodeLIRs cfg fuel lirs write_pos lir = .ok (lirs', out, pos) ∧
      lirs'.map eraseOffset = lirs.map eraseOffset ∧
      (∀ k i, idxs[k]? = some i → ∃ r', lirs'[i]? = some r' ∧
        r'.offset = wrap32 (4 * ((idxs.take k).filter (emitsAt lirs)).length)) ∧
      ∀ j, j ∉ idxs → lirs'[j]? = lirs[j]? := by
  have hword : ∀ i ∈ idxs, ∀ r op, lirs[i]? = some r → r.opcode.base = .insn op →
      r.flags.is_nop = false → encodeInsn cfg r op = .ok (wordAt cfg lirs i) := by
    intro i hi r op hr hop hn
    rcases hchecks with ⟨hd, hc⟩ | hall
    · obtain ⟨w, hw⟩ := encodeInsn_release cfg hd hc r op
      exact wordAt_spec cfg lirs i r op hr hop w hw
    · obtain ⟨w, hw⟩ := hall i hi r op hr hop hn
      exact wordAt_spec cfg lirs i r op hr hop w hw
  obtain ⟨lirs', hrun, heq⟩ :=
    EncodeLIRsFrom_bytes cfg lirs (wordAt cfg lirs) idxs lirs [] lir fuel rfl hpath hfuel hword
  obtain ⟨h1, h2⟩ := EncodeLIRsFrom_offsets cfg lirs idxs lirs [] lir fuel lirs' _ rfl hpath
    (NextSeg.nodup hpath) hrun
  refine ⟨lirs', [] ++ emittedBytes lirs (wordAt cfg lirs) idxs,
    write_pos + ([] ++ emittedBytes lirs (wordAt cfg lirs) idxs).length, ?_, heq.symm,
    fun k i hk => ?_, h2⟩
  · unfold EncodeLIRs
    rw [hrun]
  · obtain ⟨r', hr', ho⟩ := h1 k i hk
    exact ⟨r', hr', by simpa using ho⟩

theorem EncodeLIRs_assigns_offsets_witness :
    ∃ lirs' out pos, EncodeLIRs releaseConfig 2 nopRetList 0 (some 0) = .ok (lirs', out, pos) ∧
      lirs'.map eraseOffset = nopRetList.map eraseOffset ∧
      (∃ r', lirs'[1]? = some r' ∧ r'.offset = 4) :=
  let ⟨lirs', out, pos, h, he, ho, _⟩ := EncodeLIRs_assigns_offsets releaseConfig nopRetList 0
    (some 0) [0, 1] 2 ⟨by decide, rfl, _, rfl, by decide, rfl, _, rfl, rfl⟩ (by decide)
    (Or.inl ⟨rfl, rfl⟩)
  ⟨lirs', out, pos, h, he, ho 1 1 rfl⟩
/-! ## The buffer of the ARM32 assembler -/

theorem wordBytes_get (w : Nat) :
    wordBytes w = [w % 256, w / 256 % 256, w / 65536 % 256, w / 16777216 % 256] := by
  have h : (0xff : Nat) = 2 ^ 8 - 1 := by norm_num
  simp only [wordBytes, h, Nat.and_pow_two_sub_one_eq_mod, Nat.shiftRight_eq_div_pow]

theorem getD_store (buffer : List Nat) (p w j : Nat) (hp : p + 4 ≤ buffer.length) :
    (buffer.take p ++ wordBytes w ++ buffer.drop (p + 4)).getD j 0 =
      if j < p then buffer.getD j 0
      else if j < p + 4 then (wordBytes w).getD (j - p) 0
      else buffer.getD j 0 := by
  have hl : (buffer.take p).length = p := by simp; omega
  simp only [List.getD_eq_getElem?_getD]
  by_cases h1 : j < p
  · rw [if_pos h1, List.append_assoc, List.getElem?_append_left (by omega),
      List.getElem?_take_of_lt h1]
  · rw [if_neg h1, List.append_assoc, List.getElem?_append_right (by omega), hl]
    by_cases h2 : j < p + 4
    · rw [if_pos h2, List.getElem?_append_left (by simp [wordBytes]; omega)]
    · rw [if_neg h2, List.getElem?_append_right (by simp [wordBytes]; omega)]
      simp only [wordBytes, List.length_cons, List.length_nil, List.getElem?_drop]
      congr 2
      omega

theorem length_store (buffer : List Nat) (p w : Nat) (hp : p + 4 ≤ buffer.length) :
    (buffer.take p ++ wordBytes w ++ buffer.drop (p + 4)).length = buffer.length := by
  simp [wordBytes]
  omega

theorem load32_store_self (buffer : List Nat) (p w : Nat) (hp : p + 4 ≤ buffer.length)
    (hw : w < 4294967296) :
    load32 (buffer.take p ++ wordBytes w ++ buffer.drop (p + 4)) p = w := by
  unfold load32
  rw [getD_store _ _ _ _ hp, getD_store _ _ _ _ hp, getD_store _ _ _ _ hp,
    getD_store _ _ _ _ hp, wordBytes_get]
  simp
  omega

theorem load32_congr (a b : List Nat) (q : Nat)
    (h : ∀ j, q ≤ j → j < q + 4 → a.getD j 0 = b.getD j 0) : load32 a q = load32 b q := by
  unfold load32
  rw [h q (by omega) (by omega), h (q + 1) (by omega) (by omega),
    h (q + 2) (by omega) (by omega), h (q + 3) (by omega) (by omega)]

theorem load32_lt (buffer : List Nat) (p : Nat) (hb : ∀ b ∈ buffer, b < 256) :
    load32 buffer p < 4294967296 := by
  have h : ∀ j, buffer.getD j 0 < 256 := by
    intro j
    rw [List.getD_eq_getElem?_getD]
    cases hj : buffer[j]? with
    | none => simp
    | some b => exact hb b (List.getElem?_mem hj)
  unfold load32
  have := h p
  have := h (p + 1)
  have := h (p + 2)
  have := h (p + 3)
  omega

theorem bytes_store (buffer : List Nat) (p w : Nat) (hb : ∀ b ∈ buffer, b < 256) :
    ∀ b ∈ buffer.take p ++ wordBytes w ++ buffer.drop (p + 4), b < 256 := by
  intro b hm
  rw [wordBytes_get] at hm
  simp only [List.mem_append, List.mem_cons, List.mem_singleton, List.not_mem_nil,
    or_false] at hm
  rcases hm with (hm | hm | hm | hm | hm) | hm
  · exact hb b (List.mem_of_mem_take hm)
  · omega
  · omega
  · omega
  · omega
  · exact hb b (List.mem_of_mem_drop hm)
/-! ## Branches linked to a label and `Bind` -/

theorem EncodeBranchOffset_cases (offset : Int) (inst : Nat) :
    Arm32Assembler.EncodeBranchOffset offset inst =
      if wrapI32 (offset - 8) % 4 = 0 then
        if -8388608 ≤ wrapI32 (offset - 8) ∧ wrapI32 (offset - 8) < 8388608 then
          .ok (16777216 * (inst / 16777216 % 256)
            + (wrapI32 (offset - 8) / 4 % 16777216).toNat)
        else .error (.fatal "CHECK(IsInt(POPCOUNT(kBranchOffsetMask), offset))")
      else .error (.fatal "CHECK_ALIGNED(offset, 4)") := by
  unfold Arm32Assembler.EncodeBranchOffset
  by_cases ha : wrapI32 (offset - 8) % 4 = 0
  · have hal : (wrapI32 (offset - 8) % 4 == 0) = true := by simp [ha]
    by_cases hr : -8388608 ≤ wrapI32 (offset - 8) ∧ wrapI32 (offset - 8) < 8388608
    · have hint : IsInt (POPCOUNT kBranchOffsetMask) (wrapI32 (offset - 8)) = true := by
        rw [POPCOUNT_kBranchOffsetMask]
        unfold IsInt
        norm_num
        constructor <;> omega
      rw [if_pos ha, if_pos hr]
      simp only [hint, hal, CHECK, if_true, bind, Except.bind, pure, Except.pure]
      rw [and_kBranchOffsetMask, and_not_kBranchOffsetMask, asr_eq_div,
        or_low_eq_add _ _ (Nat.mod_lt _ (by norm_num))]
      congr 2
      unfold toU32
      norm_num
      omega
    · have hint : IsInt (POPCOUNT kBranchOffsetMask) (wrapI32 (offset - 8)) = false := by
        rw [POPCOUNT_kBranchOffsetMask]
        unfold IsInt
        norm_num
        intro h1
        by_contra h2
        exact hr ⟨by omega, by omega⟩
      rw [if_pos ha, if_neg hr]
      simp only [hint, hal, CHECK, if_true, bind, Except.bind, if_false, Bool.false_eq_true]
  · have hal : (wrapI32 (offset - 8) % 4 == 0) = false := by simp [ha]
    rw [if_neg ha]
    simp only [hal, CHECK, bind, Except.bind, if_false, Bool.false_eq_true]

theorem LinkedSites.buffer_congr {k : Nat} {a b : List Nat} :
    ∀ {sites : List Nat} {pos : Int}, LinkedSites k a pos sites →
      a.length ≤ b.length →
      (∀ p ∈ sites, ∀ j, p ≤ j → j < p + 4 → b.getD j 0 = a.getD j 0) →
      LinkedSites k b pos sites := by
  intro sites
  induction sites with
  | nil => intro pos h _ _; exact h
  | cons p rest ih =>
    intro pos h hlen hsame
    obtain ⟨h1, h2, h3, h4⟩ := h
    have e : load32 b p = load32 a p :=
      load32_congr b a p (fun j hj1 hj2 => hsame p (List.mem_cons_self _ _) j hj1 hj2)
    refine ⟨h1, by omega, h3, ?_⟩
    rw [e]
    exact ih h4 hlen (fun q hq => hsame q (List.mem_cons_of_mem _ hq))

theorem LinkedSites.pos_bounds {k : Nat} {buffer : List Nat} {sites : List Nat} {pos : Int}
    (h : LinkedSites k buffer pos sites) : 0 ≤ pos ∧ pos ≤ (buffer.length : Int) + k := by
  cases sites with
  | nil =>
    have e : pos = 0 := h
    omega
  | cons p rest =>
    obtain ⟨h1, h2, _, _⟩ := h
    omega

theorem getD_append_left_of_lt (a b : List Nat) (j : Nat) (h : j < a.length) :
    (a ++ b).getD j 0 = a.getD j 0 := by
  simp only [List.getD_eq_getElem?_getD]
  rw [List.getElem?_append_left h]

theorem load32_append_self (buffer : List Nat) (w : Nat) (hw : w < 4294967296) :
    load32 (buffer ++ wordBytes w) buffer.length = w := by
  have h : ∀ i, (buffer ++ wordBytes w).getD (buffer.length + i) 0 = (wordBytes w).getD i 0 := by
    intro i
    simp only [List.getD_eq_getElem?_getD]
    rw [List.getElem?_append_right (by omega)]
    congr 2
    omega
  unfold load32
  have h0 := h 0
  rw [Nat.add_zero] at h0
  rw [h0, h 1, h 2, h 3, wordBytes_get]
  simp
  omega

/-- A branch to a label that is not bound is put at the end of the buffer and becomes the
head of the chain of the label; its bits 24 and above are those of the encoding of the
condition, the type and the link bit. -/
theorem EmitBranch_links {k : Nat} {buffer buffer' : List Nat} {cond : Int} {link : Bool}
    {label label' : Label} {sites : List Nat}
    (hinv : LinkedSites k buffer label.position_ sites)
    (hsize : (buffer.length : Int) + k < 2147483648)
    (h : Arm32Assembler.EmitBranch k buffer cond label link = .ok (buffer', label')) :
    ∃ w, buffer' = buffer ++ wordBytes w ∧ w < 4294967296 ∧
      w / 16777216 = (wrap32 (toU32 cond <<< kConditionShift) ||| (5 <<< kTypeShift)
        ||| ((if link then 1 else 0) <<< kLinkShift)) / 16777216 % 256 ∧
      LinkedSites k buffer' label'.position_ (buffer.length :: sites) := by
  obtain ⟨hp0, hp1⟩ := hinv.pos_bounds
  have hnb : label.IsBound = false := by
    unfold Label.IsBound
    simp
    exact hp0
  unfold Arm32Assembler.EmitBranch at h
  rw [hnb] at h
  simp only [Bool.false_eq_true, if_false] at h
  obtain ⟨b1, hb1, h⟩ := bind_ok h
  obtain ⟨l1, hl1, h⟩ := bind_ok h
  simp only [pure, Except.pure] at h
  injection h with h
  injection h with e1 e2
  subst e1
  subst e2
  unfold Arm32Assembler.EmitType5 at hb1
  obtain ⟨_, _, hb1⟩ := bind_ok hb1
  dsimp only at hb1
  generalize (wrap32 (toU32 cond <<< kConditionShift) ||| (5 <<< kTypeShift)
    ||| ((if link then 1 else 0) <<< kLinkShift)) = enc at hb1 ⊢
  obtain ⟨w, hw, hb1⟩ := bind_ok hb1
  simp only [pure, Except.pure, Arm32Assembler.Emit] at hb1
  injection hb1 with hb1
  rw [EncodeBranchOffset_cases] at hw
  split at hw
  · rename_i ha
    split at hw
    · rename_i hr
      injection hw with hw
      unfold Label.LinkTo at hl1
      obtain ⟨_, _, hl1⟩ := bind_ok hl1
      dsimp only at hl1
      obtain ⟨_, _, hl1⟩ := bind_ok hl1
      simp only [pure, Except.pure] at hl1
      injection hl1 with hl1
      have hwr : wrapI32 (label.position_ - 8) = label.position_ - 8 := by
        unfold wrapI32 at hr ⊢
        omega
      rw [hwr] at hw hr ha
      have hf : ((label.position_ - 8) / 4 % 16777216).toNat < 16777216 := by omega
      have hhi : enc / 16777216 % 256 < 256 := Nat.mod_lt _ (by norm_num)
      have hwlt : w < 4294967296 := by
        rw [← hw]
        generalize ((label.position_ - 8) / 4 % 16777216).toNat = f at hf
        generalize enc / 16777216 % 256 = hi8 at hhi
        omega
      have hwdiv : w / 16777216 = enc / 16777216 % 256 := by
        rw [← hw]
        generalize ((label.position_ - 8) / 4 % 16777216).toNat = f at hf
        generalize enc / 16777216 % 256 = hi8 at hhi
        omega
      have hdec : Arm32Assembler.DecodeBranchOffset w = label.position_ := by
        rw [← hw, DecodeBranchOffset_eq _ ((label.position_ - 8) / 4) (by omega) (by omega)]
        omega
      refine ⟨w, hb1.symm, hwlt, hwdiv, ?_⟩
      clear hw ha hr hf hhi hwr hwdiv
      rw [← hl1, ← hb1]
      refine ⟨?_, by simp [wordBytes], ?_, ?_⟩
      · show wrapI32 (wrapI32 (buffer.length : Int) + k) = (buffer.length : Int) + k
        unfold wrapI32
        omega
      · intro q hq
        cases sites with
        | nil => cases hq
        | cons p rest =>
          obtain ⟨_, h2, h3, _⟩ := hinv
          rcases List.mem_cons.mp hq with e | hq'
          · rw [e]; exact h2
          · have := h3 q hq'
            omega
      · rw [load32_append_self _ _ hwlt, hdec]
        apply hinv.buffer_congr (by simp)
        intro p hp j hj1 hj2
        have hlt : p + 4 ≤ buffer.length := by
          cases sites with
          | nil => cases hp
          | cons p0 rest =>
            obtain ⟨_, h2, h3, _⟩ := hinv
            rcases List.mem_cons.mp hp with e | hp'
            · rw [e]; exact h2
            · have := h3 p hp'
              omega
        exact getD_append_left_of_lt _ _ _ (by omega)
    · cases hw
  · cases hw
theorem wrapI32_natCast (n : Nat) (h : (n : Int) < 2147483648) : wrapI32 (n : Int) = n := by
  unfold wrapI32
  omega

theorem Label.position_linked (k : Nat) (p : Nat) (hk : 0 < k)
    (h : (p : Int) + k < 2147483648) :
    (⟨(p : Int) + k⟩ : Label).IsLinked = true ∧
    (⟨(p : Int) + k⟩ : Label).Position k = .ok (p : Int) := by
  constructor
  · unfold Label.IsLinked
    simp
    omega
  · unfold Label.Position Label.IsUnused Label.IsBound CHECK
    have h1 : ¬ ((p : Int) + k = 0) := by omega
    have h2 : ¬ ((p : Int) + k < 0) := by omega
    simp only [h1, h2, decide_False, Bool.not_false, if_true, bind, Except.bind, pure,
      Except.pure, Bool.false_eq_true, if_false]
    congr 1
    unfold wrapI32
    omega

theorem Load_eq (buffer : List Nat) (p : Nat) (hp : p + 4 ≤ buffer.length) :
    AssemblerBuffer.Load buffer (p : Int) = .ok (load32 buffer p) := by
  unfold AssemblerBuffer.Load CHECK
  have h : (0 ≤ (p : Int) ∧ (p : Int) + 4 ≤ (buffer.length : Int)) := by omega
  simp [h, bind, Except.bind, pure, Except.pure]

theorem Store_eq (buffer : List Nat) (p w : Nat) (hp : p + 4 ≤ buffer.length) :
    AssemblerBuffer.Store buffer (p : Int) w
      = .ok (buffer.take p ++ wordBytes w ++ buffer.drop (p + 4)) := by
  unfold AssemblerBuffer.Store CHECK
  have h : (0 ≤ (p : Int) ∧ (p : Int) + 4 ≤ (buffer.length : Int)) := by omega
  simp [h, bind, Except.bind, pure, Except.pure]

/-- One round of the loop of `Bind` for a label linked to the branch at `p`, when the
distance to the branch can be encoded. -/
theorem bindLoop_step (k P fuel : Nat) (buffer : List Nat) (p : Nat) (hk : 0 < k)
    (hP : (P : Int) + k < 2147483648) (hp : p + 4 ≤ buffer.length) (hlen : buffer.length = P)
    (ha : ((P : Int) - p - 8) % 4 = 0) (hr : (P : Int) - p - 8 < 8388608) :
    Arm32Assembler.bindLoop k (P : Int) (fuel + 1) buffer ⟨(p : Int) + k⟩ =
      Arm32Assembler.bindLoop k (P : Int) fuel
        (buffer.take p ++ wordBytes (16777216 * (load32 buffer p / 16777216 % 256)
          + (((P : Int) - p - 8) / 4 % 16777216).toNat) ++ buffer.drop (p + 4))
        ⟨Arm32Assembler.DecodeBranchOffset (load32 buffer p)⟩ := by
  obtain ⟨h1, h2⟩ := Label.position_linked k p hk (by omega)
  have hw1 : wrapI32 ((P : Int) - p) = (P : Int) - p := by
    unfold wrapI32
    omega
  have hw2 : wrapI32 ((P : Int) - p - 8) = (P : Int) - p - 8 := by
    unfold wrapI32
    omega
  have henc := EncodeBranchOffset_cases ((P : Int) - p) (load32 buffer p)
  rw [hw2, if_pos ha, if_pos ⟨by omega, hr⟩] at henc
  rw [Arm32Assembler.bindLoop]
  simp only [h1, if_true, h2, bind, Except.bind, Load_eq buffer p hp, hw1, henc,
    Store_eq buffer p _ hp]

theorem LinkedSites.site_bounds {k : Nat} {buffer : List Nat} :
    ∀ {sites : List Nat} {pos : Int}, LinkedSites k buffer pos sites →
      ∀ q ∈ sites, q + 4 ≤ buffer.length := by
  intro sites
  induction sites with
  | nil => intro pos _ q hq; cases hq
  | cons p rest ih =>
    intro pos h q hq
    obtain ⟨_, h2, _, h4⟩ := h
    rcases List.mem_cons.mp hq with e | hq'
    · rw [e]; exact h2
    · exact ih h4 q hq'

/-- The loop of `Bind` walks the chain of the label: it patches every branch of the chain
with the distance to `bound_pc` and leaves the label unused. -/
theorem bindLoop_spec (k P : Nat) (hk : 0 < k) (hP : (P : Int) + k < 2147483648) :
    ∀ (sites : List Nat) (buffer : List Nat) (pos : Int) (fuel : Nat),
      LinkedSites k buffer pos sites → sites.length ≤ fuel → buffer.length = P →
      (∀ b ∈ buffer, b < 256) →
      (∀ p ∈ sites, ((P : Int) - p - 8) % 4 = 0 ∧ (P : Int) - p - 8 < 8388608) →
      ∃ buffer', Arm32Assembler.bindLoop k (P : Int) fuel buffer ⟨pos⟩ = .ok (buffer', ⟨0⟩) ∧
        buffer'.length = P ∧
        (∀ p ∈ sites,
          Arm32Assembler.DecodeBranchOffset (load32 buffer' p) = (P : Int) - p ∧
          load32 buffer' p / 16777216 = load32 buffer p / 16777216) ∧
        ∀ j, (∀ p ∈ sites, j < p ∨ p + 4 ≤ j) → buffer'.getD j 0 = buffer.getD j 0 := by
  intro sites
  induction sites with
  | nil =>
    intro buffer pos fuel hinv _ hlen _ _
    have e : pos = 0 := hinv
    subst e
    refine ⟨buffer, ?_, hlen, (fun p hp => (by cases hp)), fun j _ => rfl⟩
    unfold Arm32Assembler.bindLoop
    simp [Label.IsLinked]
  | cons p rest ih =>
    intro buffer pos fuel hinv hfuel hlen hbytes hrange
    have hsites := hinv.site_bounds
    obtain ⟨h1, h2, h3, h4⟩ := hinv
    subst h1
    obtain ⟨ha, hr⟩ := hrange p (List.mem_cons_self _ _)
    cases fuel with
    | zero => simp at hfuel
    | succ fuel =>
      rw [bindLoop_step k P fuel buffer p hk hP h2 hlen ha hr]
      have hnext : load32 buffer p < 4294967296 := load32_lt buffer p hbytes
      generalize hw : 16777216 * (load32 buffer p / 16777216 % 256)
        + (((P : Int) - p - 8) / 4 % 16777216).toNat = w
      have hf : (((P : Int) - p - 8) / 4 % 16777216).toNat < 16777216 := by omega
      have hwlt : w < 4294967296 := by
        rw [← hw]
        generalize (((P : Int) - p - 8) / 4 % 16777216).toNat = f at hf
        generalize hh : load32 buffer p / 16777216 % 256 = hi8
        have : hi8 < 256 := by rw [← hh]; exact Nat.mod_lt _ (by norm_num)
        omega
      have hwdiv : w / 16777216 = load32 buffer p / 16777216 := by
        rw [← hw]
        generalize (((P : Int) - p - 8) / 4 % 16777216).toNat = f at hf
        generalize load32 buffer p = nx at hnext
        omega
      have hwdec : Arm32Assembler.DecodeBranchOffset w = (P : Int) - p := by
        rw [← hw, DecodeBranchOffset_eq _ (((P : Int) - p - 8) / 4) (by omega) (by omega)]
        omega
      clear hw hf ha hr
      have hsame : ∀ j, j < p ∨ p + 4 ≤ j →
          (buffer.take p ++ wordBytes w ++ buffer.drop (p + 4)).getD j 0
            = buffer.getD j 0 := by
        intro j hj
        rw [getD_store _ _ _ _ h2]
        rcases hj with hj | hj
        · rw [if_pos hj]
        · rw [if_neg (by omega), if_neg (by omega)]
      have hinv1 : LinkedSites k (buffer.take p ++ wordBytes w ++ buffer.drop (p + 4))
          (Arm32Assembler.DecodeBranchOffset (load32 buffer p)) rest := by
        apply h4.buffer_congr (by rw [length_store _ _ _ h2])
        intro q hq j hj1 hj2
        have := h3 q hq
        exact hsame j (Or.inl (by omega))
      obtain ⟨buffer', hrun, hlen', hpatched, hrest⟩ :=
        ih _ _ fuel hinv1 (by simpa using hfuel) (by rw [length_store _ _ _ h2]; exact hlen)
          (bytes_store buffer p w hbytes)
          (fun q hq => hrange q (List.mem_cons_of_mem _ hq))
      refine ⟨buffer', hrun, hlen', fun q hq => ?_, fun j hj => ?_⟩
      · rcases List.mem_cons.mp hq with e | hq'
        · subst e
          have e1 : load32 buffer' q = w := by
            rw [load32_congr buffer' _ q (fun j hj1 hj2 =>
              hrest j (fun q' hq' => Or.inr (by have := h3 q' hq'; omega))),
              load32_store_self _ _ _ h2 hwlt]
          rw [e1]
          exact ⟨hwdec, hwdiv⟩
        · obtain ⟨hd, hb⟩ := hpatched q hq'
          refine ⟨hd, hb.trans ?_⟩
          have := h3 q hq'
          rw [load32_congr _ buffer q (fun j hj1 hj2 => hsame j (Or.inl (by omega)))]
      · rw [hrest j (fun q hq => hj q (List.mem_cons_of_mem _ hq))]
        exact hsame j (hj p (List.mem_cons_self _ _))
theorem EmitType5_length {buffer buffer' : List Nat} {cond offset : Int} {link : Bool}
    (h : Arm32Assembler.EmitType5 buffer cond offset link = .ok buffer') :
    buffer'.length = buffer.length + 4 := by
  unfold Arm32Assembler.EmitType5 at h
  obtain ⟨_, _, h⟩ := bind_ok h
  dsimp only at h
  obtain ⟨w, _, h⟩ := bind_ok h
  simp only [pure, Except.pure, Arm32Assembler.Emit] at h
  injection h with h
  rw [← h]
  simp [wordBytes]

theorem EmitBranch_length {k : Nat} {buffer buffer' : List Nat} {cond : Int} {link : Bool}
    {label label' : Label}
    (h : Arm32Assembler.EmitBranch k buffer cond label link = .ok (buffer', label')) :
    buffer'.length = buffer.length + 4 := by
  unfold Arm32Assembler.EmitBranch at h
  split at h
  · obtain ⟨_, _, h⟩ := bind_ok h
    obtain ⟨b1, hb1, h⟩ := bind_ok h
    simp only [pure, Except.pure] at h
    injection h with h
    injection h with e1 _
    rw [← e1]
    exact EmitType5_length hb1
  · obtain ⟨b1, hb1, h⟩ := bind_ok h
    obtain ⟨_, _, h⟩ := bind_ok h
    simp only [pure, Except.pure] at h
    injection h with h
    injection h with e1 _
    rw [← e1]
    exact EmitType5_length hb1

theorem bytes_append_word (buffer : List Nat) (w : Nat) (hb : ∀ b ∈ buffer, b < 256) :
    ∀ b ∈ buffer ++ wordBytes w, b < 256 := by
  intro b hm
  rw [wordBytes_get] at hm
  simp only [List.mem_append, List.mem_cons, List.mem_singleton, List.not_mem_nil,
    or_false] at hm
  rcases hm with hm | hm | hm | hm | hm
  · exact hb b hm
  · omega
  · omega
  · omega
  · omega

/-- The branches emitted to a label that is not bound form the chain of the label. -/
theorem Emitted.linked {k : Nat} {buffer : List Nat} {label : Label} {sites : List Nat}
    (h : Emitted k buffer label sites) :
    (buffer.length : Int) + k < 2147483648 →
      LinkedSites k buffer label.position_ sites ∧ ∀ b ∈ buffer, b < 256 := by
  induction h with
  | start buffer hb => intro _; exact ⟨rfl, hb⟩
  | @branch buffer buffer' label label' sites cond link _ hemit ih =>
    intro hsize
    have hlen := EmitBranch_length hemit
    obtain ⟨hinv, hb⟩ := ih (by omega)
    obtain ⟨w, hbuf, _, _, hlinked⟩ := EmitBranch_links hinv (by omega) hemit
    refine ⟨hlinked, ?_⟩
    rw [hbuf]
    exact bytes_append_word buffer w hb
  | @other buffer label sites value _ ih =>
    intro hsize
    have hlen : (Arm32Assembler.Emit buffer value).length = buffer.length + 4 := by
      simp [Arm32Assembler.Emit, wordBytes]
    obtain ⟨hinv, hb⟩ := ih (by omega)
    refine ⟨?_, bytes_append_word buffer value hb⟩
    apply hinv.buffer_congr (by omega)
    intro p hp j _ hj2
    have := hinv.site_bounds p hp
    exact getD_append_left_of_lt _ _ _ (by omega)

theorem getElem?_eq_of_getD {a b : List Nat} (hlen : a.length = b.length) (j : Nat)
    (h : a.getD j 0 = b.getD j 0) : a[j]? = b[j]? := by
  simp only [List.getD_eq_getElem?_getD] at h
  by_cases hj : j < a.length
  · have hj' : j < b.length := by omega
    rw [List.getElem?_eq_getElem hj, List.getElem?_eq_getElem hj'] at h ⊢
    simpa using h
  · rw [List.getElem?_eq_none (by omega), List.getElem?_eq_none (by omega)]

theorem Label.position_bound (k : Nat) (n : Nat) (hk : 0 < k)
    (h : (n : Int) + k < 2147483648) :
    (⟨-(n : Int) - k⟩ : Label).Position k = .ok (n : Int) := by
  have h1 : ¬ (-(n : Int) - k = 0) := by omega
  have h2 : -(n : Int) - k < 0 := by omega
  have e : wrapI32 (-(-(n : Int) - k) - k) = n := by
    unfold wrapI32
    omega
  simp only [Label.Position, Label.IsUnused, Label.IsBound, CHECK, h1, h2, decide_False,
    decide_True, Bool.not_false, if_true, bind, Except.bind, pure, Except.pure, e]

/-- What `Bind` does for a label with a chain of branches whose distances to the end of the
buffer can be encoded. -/
theorem Bind_spec (k fuel : Nat) (buffer : List Nat) (label : Label) (sites : List Nat)
    (hk : 0 < k) (hinv : LinkedSites k buffer label.position_ sites)
    (hbytes : ∀ b ∈ buffer, b < 256) (hfuel : sites.length ≤ fuel)
    (hsize : (buffer.length : Int) + k < 2147483648)
    (hrange : ∀ p ∈ sites, ((buffer.length : Int) - p - 8) % 4 = 0 ∧
      (buffer.length : Int) - p - 8 < 8388608) :
    ∃ buffer' label', Arm32Assembler.Bind k fuel buffer label = .ok (buffer', label') ∧
      label'.IsBound = true ∧ label'.Position k = .ok (buffer.length : Int) ∧
      buffer'.length = buffer.length ∧
      (∀ p ∈ sites,
        Arm32Assembler.DecodeBranchOffset (load32 buffer' p) = (buffer.length : Int) - p ∧
        load32 buffer' p / 16777216 = load32 buffer p / 16777216) ∧
      ∀ j, (∀ p ∈ sites, j < p ∨ p + 4 ≤ j) → buffer'[j]? = buffer[j]? := by
  obtain ⟨hp0, _⟩ := hinv.pos_bounds
  obtain ⟨buffer', hrun, hlen, hpatched, hrest⟩ :=
    bindLoop_spec k buffer.length hk hsize sites buffer label.position_ fuel hinv hfuel rfl
      hbytes hrange
  have hnb : label.IsBound = false := by
    unfold Label.IsBound
    simp
    exact hp0
  have hw : wrapI32 (buffer.length : Int) = buffer.length := wrapI32_natCast _ (by omega)
  have hw2 : wrapI32 (-(buffer.length : Int) - k) = -(buffer.length : Int) - k := by
    unfold wrapI32
    omega
  refine ⟨buffer', ⟨-(buffer.length : Int) - k⟩, ?_, ?_, ?_, hlen, hpatched,
    fun j hj => getElem?_eq_of_getD hlen j (hrest j hj)⟩
  · unfold Arm32Assembler.Bind
    have hrun' : Arm32Assembler.bindLoop k (buffer.length : Int) fuel buffer label
        = .ok (buffer', ⟨0⟩) := hrun
    rw [hw]
    simp only [hnb, hrun', CHECK, Bool.not_false, if_true, bind, Except.bind, Label.BindTo,
      Label.IsBound, hw2, pure, Except.pure]
    have h1 : ¬ ((0 : Int) < 0) := by omega
    have h2 : -(buffer.length : Int) - k < 0 := by omega
    simp [h1, h2, hp0]
  · unfold Label.IsBound
    simp
    omega
  · exact Label.position_bound k buffer.length hk hsize
theorem Emitted.others {k : Nat} {label : Label} {sites : List Nat} (value : Nat) :
    ∀ (n : Nat) (buffer : List Nat), Emitted k buffer label sites →
      Emitted k (buffer ++ (List.replicate n (wordBytes value)).flatten) label sites := by
  intro n
  induction n with
  | zero => intro buffer h; simpa using h
  | succ n ih =>
    intro buffer h
    have e : buffer ++ (List.replicate (n + 1) (wordBytes value)).flatten
        = Arm32Assembler.Emit buffer value ++ (List.replicate n (wordBytes value)).flatten := by
      simp [List.replicate_succ, Arm32Assembler.Emit]
    rw [e]
    exact ih _ (Emitted.other value h)

/-- The loop of `Bind` stops at the check of `EncodeBranchOffset` when the branch at the
head of the chain is `2 ^ 23 + 8` bytes or more before the end of the buffer. -/
theorem Bind_far (k fuel : Nat) (buffer : List Nat) (p : Nat) (hk : 0 < k)
    (hp : p + 4 ≤ buffer.length) (hsize : (buffer.length : Int) + k < 2147483648)
    (ha : ((buffer.length : Int) - p - 8) % 4 = 0)
    (hfar : 8388608 ≤ (buffer.length : Int) - p - 8) :
    Arm32Assembler.Bind k (fuel + 1) buffer ⟨(p : Int) + k⟩
      = .error (.fatal "CHECK(IsInt(POPCOUNT(kBranchOffsetMask), offset))") := by
  obtain ⟨h1, h2⟩ := Label.position_linked k p hk (by omega)
  have hnb : (⟨(p : Int) + k⟩ : Label).IsBound = false := by
    unfold Label.IsBound
    simp
    omega
  have hw : wrapI32 (buffer.length : Int) = buffer.length := wrapI32_natCast _ (by omega)
  have hw1 : wrapI32 ((buffer.length : Int) - p) = (buffer.length : Int) - p := by
    unfold wrapI32
    omega
  have hw2 : wrapI32 ((buffer.length : Int) - p - 8) = (buffer.length : Int) - p - 8 := by
    unfold wrapI32
    omega
  have henc := EncodeBranchOffset_cases ((buffer.length : Int) - p) (load32 buffer p)
  rw [hw2, if_pos ha, if_neg (by omega)] at henc
  have hloop : Arm32Assembler.bindLoop k (buffer.length : Int) (fuel + 1) buffer
      ⟨(p : Int) + k⟩
      = .error (.fatal "CHECK(IsInt(POPCOUNT(kBranchOffsetMask), offset))") := by
    rw [Arm32Assembler.bindLoop]
    simp only [h1, h2, if_true, bind, Except.bind, Load_eq buffer p hp, hw1, henc]
  unfold Arm32Assembler.Bind
  rw [hw]
  simp only [hnb, CHECK, Bool.not_false, if_true, bind, Except.bind, hloop]

theorem length_flatten_replicate (n : Nat) (w : List Nat) :
    ((List.replicate n w).flatten).length = n * w.length := by
  induction n with
  | zero => simp
  | succ n ih =>
    simp only [List.replicate_succ, List.flatten_cons, List.length_append, ih]
    ring

theorem farBranchBuffer_length : farBranchBuffer.length = 8388616 := by
  unfold farBranchBuffer
  rw [List.length_append, length_flatten_replicate, wordBytes_length, wordBytes_length]

/-- C27, counterexample: a branch emitted by `EmitBranch` at position 0 to a label that is
not bound, followed by 2097153 other words; `Bind` at the buffer size `2 ^ 23 + 8` does not
patch the branch: it stops at the check `IsInt(24, offset)` of `EncodeBranchOffset`. -/
theorem Bind_far_label_fatal :
    Arm32Assembler.EmitBranch 4 [] 14 ⟨0⟩ false = .ok (wordBytes 0xeafffffe, ⟨4⟩) ∧
    Emitted 4 farBranchBuffer ⟨4⟩ [0] ∧ farBranchBuffer.length = 8388616 ∧
    Arm32Assembler.Bind 4 1 farBranchBuffer ⟨4⟩
      = .error (.fatal "CHECK(IsInt(POPCOUNT(kBranchOffsetMask), offset))") := by
  have hemit : Arm32Assembler.EmitBranch 4 [] 14 ⟨0⟩ false
      = .ok (wordBytes 0xeafffffe, ⟨4⟩) := by decide
  refine ⟨hemit, ?_, farBranchBuffer_length, ?_⟩
  · exact Emitted.others 0xe1a00000 2097153 _
      (Emitted.branch 14 false (Emitted.start [] (fun b hb => by cases hb)) hemit)
  · have h := Bind_far 4 0 farBranchBuffer 0 (by norm_num)
      (by rw [farBranchBuffer_length]; norm_num)
      (by rw [farBranchBuffer_length]; norm_num)
      (by rw [farBranchBuffer_length]; norm_num)
      (by rw [farBranchBuffer_length]; norm_num)
    exact h

/-- C27, amended. For every sequence of branches emitted by `EmitBranch` to one label that
is not bound yet, at the buffer positions `sites`, such that every distance `P - p - 8`
from a branch to the buffer size `P` is a multiple of 4 below `2 ^ 23` (the range that
`EncodeBranchOffset` checks), `Bind(label)` at the buffer size `P` returns after one round
of its loop for each branch; it patches every one of these branch words, so that
`DecodeBranchOffset` of the word at `p` is `P - p` while its bits 24 and above (link, type
and condition) are unchanged; it changes no byte outside these words and not the size of
the buffer; and it leaves the label bound to `P`. The number `k` is `sizeof(void*)`; the
buffer is one that `int` positions can address. -/
theorem Bind_patches_linked_branches (k fuel : Nat) (buffer : List Nat) (label : Label)
    (sites : List Nat) (hk : 0 < k) (hem : Emitted k buffer label sites)
    (hfuel : sites.length ≤ fuel) (hsize : (buffer.length : Int) + k < 2147483648)
    (hrange : ∀ p ∈ sites, ((buffer.length : Int) - p - 8) % 4 = 0 ∧
      (buffer.length : Int) - p - 8 < 8388608) :
    ∃ buffer' label', Arm32Assembler.Bind k fuel buffer label = .ok (buffer', label') ∧
      label'.IsBound = true ∧ label'.Position k = .ok (buffer.length : Int) ∧
      buffer'.length = buffer.length ∧
      (∀ p ∈ sites,
        Arm32Assembler.DecodeBranchOffset (load32 buffer' p) = (buffer.length : Int) - p ∧
        load32 buffer' p / 16777216 = load32 buffer p / 16777216) ∧
      ∀ j, (∀ p ∈ sites, j < p ∨ p + 4 ≤ j) → buffer'[j]? = buffer[j]? := by
  obtain ⟨hinv, hbytes⟩ := hem.linked hsize
  exact Bind_spec k fuel buffer label sites hk hinv hbytes hfuel hsize hrange

theorem Bind_patches_linked_branches_witness :
    Emitted 4 (wordBytes 0xeafffffe ++ wordBytes 0xe1a00000 ++ wordBytes 0x0bffffff) ⟨12⟩
      [8, 0] ∧
    Arm32Assembler.Bind 4 2
        (wordBytes 0xeafffffe ++ wordBytes 0xe1a00000 ++ wordBytes 0x0bffffff) ⟨12⟩
      = .ok (wordBytes 0xea000001 ++ wordBytes 0xe1a00000 ++ wordBytes 0x0bffffff, ⟨-16⟩) ∧
    ∃ buffer' label', Arm32Assembler.Bind 4 2
        (wordBytes 0xeafffffe ++ wordBytes 0xe1a00000 ++ wordBytes 0x0bffffff) ⟨12⟩
        = .ok (buffer', label') ∧
      Arm32Assembler.DecodeBranchOffset (load32 buffer' 0) = 12 ∧
      Arm32Assembler.DecodeBranchOffset (load32 buffer' 8) = 4 := by
  have hem : Emitted 4
      (wordBytes 0xeafffffe ++ wordBytes 0xe1a00000 ++ wordBytes 0x0bffffff) ⟨12⟩ [8, 0] :=
    @Emitted.branch 4 (wordBytes 0xeafffffe ++ wordBytes 0xe1a00000) _ ⟨4⟩ ⟨12⟩ [0] 0 true
      (Emitted.other 0xe1a00000
        (@Emitted.branch 4 [] _ ⟨0⟩ ⟨4⟩ [] 14 false
          (Emitted.start [] (fun b hb => by cases hb)) (by decide)))
      (by decide)
  refine ⟨hem, by decide, ?_⟩
  obtain ⟨buffer', label', h, _, _, _, hp, _⟩ := Bind_patches_linked_branches 4 2 _ _ _
    (by decide) hem (by decide) (by decide) (by decide)
  exact ⟨buffer', label', h, (hp 0 (by decide)).1.trans (by decide),
    (hp 8 (by decide)).1.trans (by decide)⟩
/-! ## A stream with one forward conditional branch, end to end -/

/-- The walk of `LinkFixupInsns` over a run of `n` records without fixup kind, from the
record `a` on: the arena is not written and the offset advances by 4 for each record. -/
theorem linkLoop_plain_run (env : Env) (N : Nat) (lirs : List LIR) (first last : Option Nat)
    (hlen : lirs.length = N) :
    ∀ (n a fuel offset : Nat), a + n ≤ N → offset + 4 * n < 4294967296 →
      (∀ k r, a ≤ k → k < a + n → lirs[k]? = some r →
        r.next = (if k + 1 < N then some (k + 1) else none) ∧ r.flags.is_nop = false ∧
        r.flags.size = 4 ∧ r.flags.fixup = kFixupNone) →
      linkLoop env none (fuel + n) lirs first last offset (if a < N then some a else none)
        = linkLoop env none fuel lirs first last (offset + 4 * n)
            (if a + n < N then some (a + n) else none) := by
  intro n
  induction n with
  | zero => intro a fuel offset _ _ _; rfl
  | succ n ih =>
    intro a fuel offset han hoff hrec
    have ha : a < N := by omega
    have hget : lirs[a]? = some lirs[a] := List.getElem?_eq_getElem (by omega)
    obtain ⟨hnext, hnop, hsize, hfx⟩ := hrec a _ (le_refl _) (by omega) hget
    have e1 : fuel + (n + 1) = (fuel + n) + 1 := by omega
    rw [if_pos ha, e1, linkLoop_nofixup env none (fuel + n) lirs first last offset a _
      (by simp) hget hnop hfx, hsize, hnext]
    have e2 : wrap32 (offset + 4) = offset + 4 := by
      unfold wrap32
      omega
    rw [e2, ih (a + 1) fuel (offset + 4) (by omega) (by omega)
      (fun k r hk1 hk2 hr => hrec k r (by omega) (by omega) hr)]
    have e3 : a + 1 + n = a + (n + 1) := by omega
    have e4 : offset + 4 + 4 * n = offset + 4 * (n + 1) := by omega
    rw [e3, e4]

theorem linkedSize_branch (b : LIR) (hop : b.opcode = (kA64B2ct : Opcode))
    (hfx : b.flags.fixup ≠ kFixupNone) : linkedSize b = 4 := by
  unfold linkedSize
  rw [hop]
  simp [hfx]
  rfl

theorem linkLoop_end (env : Env) (fuel : Nat) (lirs : List LIR) (first last : Option Nat)
    (offset : Nat) :
    linkLoop env none fuel lirs first last offset none = .ok (lirs, first, offset) := by
  unfold linkLoop
  simp

theorem linkedRec_branch (b : LIR) (offset : Nat) (hop : b.opcode = (kA64B2ct : Opcode))
    (hfx : b.flags.fixup ≠ kFixupNone) :
    linkedRec b offset =
      { b with offset := offset,
               flags := { b.flags with size := 4, fixup := kFixupCondBranch,
                                       use_def_invalid := true },
               pcrel_next := none } := by
  have h1 : linkedSize b = 4 := linkedSize_branch b hop hfx
  have h2 : linkedFixup b = kFixupCondBranch := by
    unfold linkedFixup
    rw [hop]
    rfl
  unfold linkedRec
  rw [h1, h2]
theorem fixupDelta_eq (env : Env) (lirs : List LIR) (lir t : LIR) (T : Nat)
    (ht : lir.target = some T) (htr : lirs[T]? = some t)
    (hal : wrapI32 ((t.offset : Int) - (lir.offset : Int)) % 4 = 0) :
    fixupDelta env lirs lir 0 = .ok (wrapI32 ((t.offset : Int) - (lir.offset : Int))) := by
  unfold fixupDelta
  have h0 : (if t.flags.generation == lir.flags.generation then (0 : Int) else 0) = 0 := by
    split <;> rfl
  have hd : wrapI32 (((wrap32 (t.offset + toU32 0) : Nat) : Int) - (lir.offset : Int))
      = wrapI32 ((t.offset : Int) - (lir.offset : Int)) := wrapI32_wrap32_sub _ _
  simp only [ht, getLIR_some htr, bind, Except.bind, DCHECK, h0, hd, hal]
  simp [pure, Except.pure]

/-- The round of the inner loop for a node of kind `kFixupCondBranch` whose target is
another record, when `offset_adjustment` is 0. -/
theorem fixupStep_cond_eq (env : Env) (fuel generation : Nat) (m : Mir2Lir)
    (res : AssemblerStatus) (prev : Option Nat) (p T : Nat) (rb t : LIR)
    (hb : m.lirs[p]? = some rb) (hk : rb.flags.fixup = kFixupCondBranch)
    (ht : rb.target = some T) (hT : T ≠ p) (htr : m.lirs[T]? = some t)
    (hoff : rb.offset < 4294967296)
    (hal : wrapI32 ((t.offset : Int) - (rb.offset : Int)) % 4 = 0) :
    fixupStep env fuel generation m ⟨0, res, prev, some p⟩ p =
      if IS_SIGNED_IMM19 (asr (wrapI32 ((t.offset : Int) - (rb.offset : Int))) 2) then
        .ok (
          { m with
            lirs := m.lirs.set p
              { rb with flags := { rb.flags with generation := generation },
                        operands := rb.operands.set 1
                          (asr (wrapI32 ((t.offset : Int) - (rb.offset : Int))) 2) } },
          ⟨0, res, some p, rb.pcrel_next⟩)
      else .error (.fatal "Invalid jump range in kFixupLoad") := by
  have hlen : p < m.lirs.length := by
    rcases List.getElem?_eq_some_iff.mp hb with ⟨h, _⟩
    exact h
  have hw : wrap32 (rb.offset + toU32 0) = rb.offset := by
    unfold wrap32 toU32
    simp
    omega
  have hvr : visitRec rb 0 generation
      = { rb with flags := { rb.flags with generation := generation } } := by
    unfold visitRec
    rw [hw]
  have hv := visitState_get m 0 generation p rb hb
  have htv : (visitState m 0 generation p).lirs[T]? = some t := by
    simp only [visitState, updAt, hb]
    rw [List.getElem?_set_ne (fun e => hT e.symm)]
    exact htr
  have hd := fixupDelta_eq env (visitState m 0 generation p).lirs (visitRec rb 0 generation)
    t T (by rw [hvr]; exact ht) htv (by rw [hvr]; exact hal)
  rw [fixupStep_eq env fuel generation m _ p rb hb, hk]
  simp only [fixupSwitch]
  rw [fixupCondBranch_eq env _ ⟨0, res, prev, some p⟩ p _ _ hv hd]
  rw [hvr]
  by_cases hi : IS_SIGNED_IMM19 (asr (wrapI32 ((t.offset : Int) - (rb.offset : Int))) 2) = true
  · simp only [hi, if_true]
    simp [bind, Except.bind, pure, Except.pure, getLIR, hlen, visitState, updAt, hb]
  · simp only [hi, if_false, Bool.false_eq_true]
    rfl
theorem asr_forward_delta (N i : Nat) (hi : i + 1 < N) (hN : 4 * N < 4294967296)
    (hd : N - 1 - i < 536870912) :
    wrapI32 (((4 * (N - 1) : Nat) : Int) - ((4 * i : Nat) : Int)) % 4 = 0 ∧
    asr (wrapI32 (((4 * (N - 1) : Nat) : Int) - ((4 * i : Nat) : Int))) 2
      = ((N - 1 - i : Nat) : Int) := by
  obtain ⟨k, rfl⟩ : ∃ k, N = i + k + 2 := ⟨N - i - 2, by omega⟩
  have e1 : i + k + 2 - 1 = i + k + 1 := by omega
  have e2 : i + k + 1 - i = k + 1 := by omega
  rw [e1, e2] at hd ⊢
  have e : wrapI32 (((4 * (i + k + 1) : Nat) : Int) - ((4 * i : Nat) : Int))
      = 4 * ((k + 1 : Nat) : Int) := by
    unfold wrapI32
    push_cast
    omega
  rw [e, asr_eq_div]
  constructor
  · omega
  · norm_num
/-- The records `a, a + 1, ..` of an arena whose record `k` has the successor `k + 1`, up
to the last one, form the instruction list from `a` on. -/
theorem nextSeg_range (lirs : List LIR) (N : Nat)
    (h : ∀ k, k < N → ∃ r, lirs[k]? = some r ∧
      r.next = (if k + 1 < N then some (k + 1) else none)) :
    ∀ (n a : Nat), a + n = N →
      NextSeg lirs none (if a < N then some a else none) (List.range' a n) := by
  intro n
  induction n with
  | zero =>
    intro a ha
    have : ¬ a < N := by omega
    rw [if_neg this]
    rfl
  | succ n ih =>
    intro a ha
    have ha1 : a < N := by omega
    obtain ⟨r, hr, hnext⟩ := h a ha1
    rw [if_pos ha1]
    refine ⟨by simp, rfl, r, hr, ?_⟩
    rw [hnext]
    exact ih (a + 1) (by omega)

theorem nextPath_range (lirs : List LIR) (N : Nat) (hN : 0 < N)
    (h : ∀ k, k < N → ∃ r, lirs[k]? = some r ∧
      r.next = (if k + 1 < N then some (k + 1) else none)) :
    NextPath lirs (some 0) (List.range N) := by
  have := nextSeg_range lirs N h N 0 (by omega)
  rw [if_pos hN] at this
  rw [List.range_eq_range']
  exact this
theorem flatten_wordBytes_length (f : Nat → Nat) (l : List Nat) :
    ((l.map fun k => wordBytes (f k)).flatten).length = 4 * l.length := by
  induction l with
  | nil => rfl
  | cons a t ih =>
    simp only [List.map_cons, List.flatten_cons, List.length_append, List.length_cons, ih,
      wordBytes_length]
    omega
/-! ## A pass over a resolved chain changes nothing -/

theorem SameReads.same (lirs : List LIR) : SameReads lirs lirs := fun _ => rfl

theorem SameReads.flip {a b : List LIR} (h : SameReads a b) : SameReads b a :=
  fun j => (h j).symm

theorem SameReads.chain {a b c : List LIR} (h1 : SameReads a b) (h2 : SameReads b c) :
    SameReads a c := fun j => (h2 j).trans (h1 j)

theorem SameReads.reads_get {a b : List LIR} (h : SameReads a b) {j : Nat} {r : LIR}
    (hr : a[j]? = some r) : ∃ r', b[j]? = some r' ∧ readOf r' = readOf r := by
  have hj := h j
  rw [hr] at hj
  cases hb : b[j]? with
  | none => rw [hb] at hj; cases hj
  | some r' =>
    rw [hb] at hj
    simp only [Option.map_some', Option.some.injEq] at hj
    exact ⟨r', rfl, hj⟩

theorem SameReads.none {a b : List LIR} (h : SameReads a b) {j : Nat}
    (hr : a[j]? = none) : b[j]? = none := by
  have hj := h j
  rw [hr] at hj
  cases hb : b[j]? with
  | none => rfl
  | some r' => rw [hb] at hj; cases hj

theorem SameReads.set_read {lirs : List LIR} {p : Nat} {r r' : LIR} (hr : lirs[p]? = some r)
    (h : readOf r' = readOf r) : SameReads lirs (lirs.set p r') := by
  intro j
  by_cases hj : j = p
  · subst hj
    rw [getElem?_set_self_of_some hr, hr]
    simp only [Option.map_some', h]
  · rw [List.getElem?_set_ne (fun hc => hj hc.symm)]

theorem prevEmittingFrom_reads {lirs lirs1 : List LIR} (h : SameReads lirs lirs1) :
    ∀ (fuel : Nat) (s : Option Nat),
      prevEmittingFrom lirs1 fuel s = prevEmittingFrom lirs fuel s := by
  intro fuel
  induction fuel with
  | zero =>
    intro s
    cases s <;> rfl
  | succ fuel ih =>
    intro s
    cases s with
    | none => rfl
    | some q =>
      unfold prevEmittingFrom
      cases h0 : lirs[q]? with
      | none => rw [h.none h0]
      | some r0 =>
        obtain ⟨r1, h1, hread⟩ := h.reads_get h0
        rw [h1]
        simp only [readOf, Prod.mk.injEq] at hread
        obtain ⟨_, e1, e2, e3⟩ := hread
        dsimp only
        rw [UNWIDE, UNWIDE, e1, e2, e3, ih]

theorem prevEmittingFrom_mono (lirs : List LIR) (x : Option Nat) :
    ∀ (fuel fuel' : Nat) (s : Option Nat), fuel ≤ fuel' →
      prevEmittingFrom lirs fuel s = .ok x → prevEmittingFrom lirs fuel' s = .ok x := by
  intro fuel
  induction fuel with
  | zero =>
    intro fuel' s _ h
    cases s with
    | none =>
      cases fuel' <;> exact h
    | some q => cases h
  | succ fuel ih =>
    intro fuel' s hle h
    cases s with
    | none => cases fuel' <;> exact h
    | some q =>
      obtain ⟨f, rfl⟩ : ∃ f, fuel' = f + 1 := ⟨fuel' - 1, by omega⟩
      unfold prevEmittingFrom at h ⊢
      cases h0 : lirs[q]? with
      | none => rw [h0] at h; cases h
      | some r0 =>
        rw [h0] at h
        dsimp only at h ⊢
        split at h
        · rename_i hc
          rw [if_pos hc]
          exact ih f _ (by omega) h
        · rename_i hc
          rw [if_neg hc]
          exact h

theorem A53Skips.reads {env : Env} {fuel : Nat} {lirs lirs1 : List LIR} {r r1 : LIR}
    (h : A53Skips env fuel lirs r) (hs : SameReads lirs lirs1)
    (hw : r1.opcode = r.opcode) (hp : r1.prev = r.prev) : A53Skips env fuel lirs1 r1 := by
  unfold A53Skips at h ⊢
  rw [hw, hp, prevEmittingFrom_reads hs]
  rcases h with h | h | h | ⟨q, prev, op, h1, h2, h3, h4⟩
  · exact Or.inl h
  · exact Or.inr (Or.inl h)
  · exact Or.inr (Or.inr (Or.inl h))
  · obtain ⟨prev1, hq1, hread⟩ := hs.reads_get h2
    simp only [readOf, Prod.mk.injEq] at hread
    refine Or.inr (Or.inr (Or.inr ⟨q, prev1, op, h1, hq1, ?_, h4⟩))
    rw [UNWIDE, hread.2.2.2]
    exact h3

theorem A53Skips.mono {env : Env} {fuel fuel' : Nat} {lirs : List LIR} {r : LIR}
    (h : A53Skips env fuel lirs r) (hle : fuel ≤ fuel') : A53Skips env fuel' lirs r := by
  unfold A53Skips at h ⊢
  rcases h with h | h | h | ⟨q, prev, op, h1, h2, h3, h4⟩
  · exact Or.inl h
  · exact Or.inr (Or.inl h)
  · exact Or.inr (Or.inr (Or.inl (prevEmittingFrom_mono _ _ _ _ _ hle h)))
  · exact Or.inr (Or.inr (Or.inr ⟨q, prev, op, prevEmittingFrom_mono _ _ _ _ _ hle h1, h2, h3,
      h4⟩))

theorem storedDelta_reads {lirs lirs1 : List LIR} {r r1 : LIR} (hs : SameReads lirs lirs1)
    (ht : r1.target = r.target) (ho : r1.offset % 4294967296 = r.offset % 4294967296) :
    storedDelta lirs1 r1 = storedDelta lirs r := by
  unfold storedDelta
  rw [ht]
  cases r.target with
  | none => rfl
  | some t =>
    dsimp only
    cases h0 : lirs[t]? with
    | none => rw [hs.none h0]
    | some tl =>
      obtain ⟨tl1, h1, hread⟩ := hs.reads_get h0
      rw [h1]
      simp only [readOf, Prod.mk.injEq] at hread
      have e := hread.1
      dsimp only
      congr 1
      unfold wrapI32
      omega

theorem DeltaChecked.checked_reads {env : Env} {lirs lirs1 : List LIR} {r r1 : LIR} {d : Int}
    (h : DeltaChecked env lirs r d) (hs : SameReads lirs lirs1)
    (ht : r1.target = r.target) (ho : r1.offset % 4294967296 = r.offset % 4294967296) :
    DeltaChecked env lirs1 r1 d := by
  unfold DeltaChecked at h ⊢
  rw [storedDelta_reads hs ht ho]
  exact h

theorem fixupDelta_checked {env : Env} {lirs : List LIR} {lir : LIR} {d : Int}
    (h : fixupDelta env lirs lir 0 = .ok d) : DeltaChecked env lirs lir d := by
  obtain ⟨t, tl, ht, htl, hd⟩ := fixupDelta_zero h
  refine ⟨?_, ?_⟩
  · unfold storedDelta
    rw [ht]
    dsimp only
    rw [htl, hd]
  · intro hc
    unfold fixupDelta at h
    obtain ⟨_, _, h⟩ := bind_ok h
    obtain ⟨tl', htl', h⟩ := bind_ok h
    obtain ⟨_, hchk, h⟩ := bind_ok h
    simp only [pure, Except.pure] at h
    injection h with h
    unfold DCHECK at hchk
    rw [hc] at hchk
    simp only [Bool.true_and, ite_self] at hchk
    split at hchk
    · cases hchk
    · rename_i hn
      simp only [Bool.not_eq_true', Bool.not_eq_false, beq_iff_eq] at hn
      rw [← h]
      simpa using hn

theorem fixupDelta_of_checked {env : Env} {lirs : List LIR} {lir : LIR} {d : Int}
    (h : DeltaChecked env lirs lir d) : fixupDelta env lirs lir 0 = .ok d := by
  obtain ⟨hs, hal⟩ := h
  unfold storedDelta at hs
  cases ht : lir.target with
  | none => rw [ht] at hs; cases hs
  | some t =>
    rw [ht] at hs
    dsimp only at hs
    cases htl : lirs[t]? with
    | none => rw [htl] at hs; cases hs
    | some tl =>
      rw [htl] at hs
      injection hs with hs
      have e : wrapI32 (((wrap32 (tl.offset + toU32 0) : Nat) : Int) - (lir.offset : Int)) = d := by
        rw [wrapI32_wrap32_sub]
        exact hs
      unfold fixupDelta
      rw [ht, getLIR_some htl]
      have h1 : DCHECK env.toBuildConfig ((some t : Option Nat) != none) "DCHECK(target_lir)"
          = .ok () := DCHECK_runs _ (fun _ => rfl)
      simp only [h1, bind, Except.bind, ite_self, e]
      rw [DCHECK_runs _ (fun hc => by simpa using hal hc)]
      rfl
theorem adrDelta_reads {m m1 : Mir2Lir} {r r1 : LIR} (hs : SameReads m.lirs m1.lirs)
    (he : m1.embedded_data = m.embedded_data) (ht : r1.target = r.target)
    (ho : r1.offset % 4294967296 = r.offset % 4294967296) (hop : r1.operands = r.operands) :
    adrDelta m1 r1 0 = adrDelta m r 0 := by
  unfold adrDelta
  rw [ht, hop, he]
  cases htg : r.target with
  | none =>
    simp only [bne_self_eq_false, Bool.false_eq_true, if_false]
    split
    · cases m.embedded_data[(r.operands.get 2).toNat]? with
      | none => rfl
      | some tab =>
        simp only [pure, Except.pure]
        congr 1
        unfold wrapI32
        omega
    · rfl
  | some t =>
    have hne : ((some t : Option Nat) != none) = true := rfl
    simp only [hne, if_true, ite_self]
    cases h0 : m.lirs[t]? with
    | none =>
      simp only [getLIR, h0, hs.none h0]
      rfl
    | some tl =>
      obtain ⟨tl1, h1, hread⟩ := hs.reads_get h0
      simp only [readOf, Prod.mk.injEq] at hread
      have e := hread.1
      simp only [getLIR_some h0, getLIR_some h1, bind, Except.bind, pure, Except.pure]
      congr 1
      unfold wrapI32 wrap32 toU32
      omega

theorem tbxzNarrowed_withGeneration (env : Env) (r : LIR) (g : Nat) :
    tbxzNarrowed env (withGeneration r g) = withGeneration (tbxzNarrowed env r) g := by
  unfold tbxzNarrowed withGeneration
  dsimp only
  split
  · rfl
  · split <;> rfl

/-- A settled record stays settled when the pass writes what no round reads, when its own
generation flag changes, and when the rounds get more fuel. -/
theorem Settled.transfer {env : Env} {fuel fuel' : Nat} {m m1 : Mir2Lir} {r : LIR}
    (h : Settled env fuel m r) (hs : SameReads m.lirs m1.lirs)
    (he : m1.embedded_data = m.embedded_data) (g : Nat) (hle : fuel ≤ fuel') :
    Settled env fuel' m1 (withGeneration r g) := by
  obtain ⟨hoff, h⟩ := h
  refine ⟨hoff, ?_⟩
  have hk : (withGeneration r g).flags.fixup = r.flags.fixup := rfl
  rw [hk]
  cases hkind : r.flags.fixup <;> rw [hkind] at h <;> dsimp only at h ⊢
  case kFixupLoad =>
    obtain ⟨d, hd, h1, h3⟩ := h
    exact ⟨d, hd.checked_reads hs rfl rfl, h1, h3⟩
  case kFixupCondBranch =>
    obtain ⟨d, hd, h1, h3⟩ := h
    exact ⟨d, hd.checked_reads hs rfl rfl, h1, h3⟩
  case kFixupCBxZ =>
    obtain ⟨d, hd, h1, h3⟩ := h
    exact ⟨d, hd.checked_reads hs rfl rfl, h1, h3⟩
  case kFixupT1Branch =>
    obtain ⟨d, hd, h1, h2, h3⟩ := h
    exact ⟨d, hd.checked_reads hs rfl rfl, h1, h2, h3⟩
  case kFixupTBxZ =>
    obtain ⟨hchk, hn, d, hd, h1, h3⟩ := h
    refine ⟨hchk, ?_, d, hd.checked_reads hs rfl rfl, h1, h3⟩
    rw [tbxzNarrowed_withGeneration, hn]
  case kFixupAdr =>
    obtain ⟨d, hd, h1, h3⟩ := h
    refine ⟨d, ?_, h1, h3⟩
    rw [@adrDelta_reads m m1 r (withGeneration r g) hs he rfl rfl rfl]
    exact hd
  case kFixupA53Erratum835769 =>
    exact (h.reads hs rfl rfl).mono hle

theorem withGeneration_self (r : LIR) : withGeneration r r.flags.generation = r := rfl

theorem Settled.frame {env : Env} {fuel fuel' : Nat} {m m1 : Mir2Lir} {r : LIR}
    (h : Settled env fuel m r) (hs : SameReads m.lirs m1.lirs)
    (he : m1.embedded_data = m.embedded_data) (hle : fuel ≤ fuel') :
    Settled env fuel' m1 r := by
  have := h.transfer hs he r.flags.generation hle
  rw [withGeneration_self] at this
  exact this
theorem Operands.set_get (o : Operands) (i : Nat) : o.set i (o.get i) = o := by
  cases o
  match i with
  | 0 => rfl
  | 1 => rfl
  | 2 => rfl
  | 3 => rfl
  | _ + 4 => rfl

theorem tbxzCheckWidth_settled {env : Env} {lirs : List LIR} {r : LIR} {p : Nat}
    (hr : lirs[p]? = some r)
    (hchk : env.kEnableDChecks = true → r.operands.get 1 ≥ 32 → IS_WIDE r.opcode = true)
    (hn : tbxzNarrowed env r = r) : tbxzCheckWidth env lirs r p = .ok lirs := by
  have hp : p < lirs.length := (List.getElem?_eq_some_iff.mp hr).1
  obtain ⟨l1, h1⟩ := tbxzCheckWidth_runs hp hchk
  rw [h1, tbxzCheckWidth_ok hr h1, hn, set_self_of_some hr]

/-- The `switch` of a round leaves the state alone when the record of the node is
settled. -/
theorem fixupSwitch_settled (env : Env) (fuel generation : Nat) (m : Mir2Lir)
    (loc : FixupLocals) (hadj : loc.offset_adjustment = 0) (p : Nat) (r : LIR)
    (hr : m.lirs[p]? = some r) (hs : Settled env fuel m r) :
    fixupSwitch env fuel generation m loc p r.flags.fixup = .ok (m, loc, false) := by
  obtain ⟨_, hs⟩ := hs
  have hself : ∀ o : Operands, o = r.operands →
      ({ m with lirs := m.lirs.set p { r with operands := o } } : Mir2Lir) = m := by
    intro o ho
    subst ho
    show ({ m with lirs := m.lirs.set p r } : Mir2Lir) = m
    rw [set_self_of_some hr]
  cases hkind : r.flags.fixup <;> rw [hkind] at hs <;> dsimp only at hs
  case kFixupNone => rfl
  case kFixupLabel => rfl
  case kFixupVLoad => rfl
  case kFixupLoad =>
    obtain ⟨d, hd, h1, h3⟩ := hs
    have hd' : fixupDelta env m.lirs r loc.offset_adjustment = .ok d := by
      rw [hadj]; exact fixupDelta_of_checked hd
    simp only [fixupSwitch, fixupCondBranch_eq env m loc p r d hr hd', h1, if_true, bind,
      Except.bind, pure, Except.pure]
    rw [hself _ (by rw [← h3, Operands.set_get])]
  case kFixupCondBranch =>
    obtain ⟨d, hd, h1, h3⟩ := hs
    have hd' : fixupDelta env m.lirs r loc.offset_adjustment = .ok d := by
      rw [hadj]; exact fixupDelta_of_checked hd
    simp only [fixupSwitch, fixupCondBranch_eq env m loc p r d hr hd', h1, if_true, bind,
      Except.bind, pure, Except.pure]
    rw [hself _ (by rw [← h3, Operands.set_get])]
  case kFixupCBxZ =>
    obtain ⟨d, hd, h1, h3⟩ := hs
    have hd' : fixupDelta env m.lirs r loc.offset_adjustment = .ok d := by
      rw [hadj]; exact fixupDelta_of_checked hd
    simp only [fixupSwitch, fixupCondBranch_eq env m loc p r d hr hd', h1, if_true, bind,
      Except.bind, pure, Except.pure]
    rw [hself _ (by rw [← h3, Operands.set_get])]
  case kFixupT1Branch =>
    obtain ⟨d, hd, h1, h2, h3⟩ := hs
    have hd' : fixupDelta env m.lirs r loc.offset_adjustment = .ok d := by
      rw [hadj]; exact fixupDelta_of_checked hd
    simp only [fixupSwitch, fixupT1Branch_eq env m loc p r d hr hd', h1, h2, if_true, bind,
      Except.bind, pure, Except.pure, Bool.false_eq_true, if_false]
    rw [hself _ (by rw [← h3, Operands.set_get])]
  case kFixupTBxZ =>
    obtain ⟨hchk, hn, d, hd, h1, h3⟩ := hs
    have hd' : fixupDelta env m.lirs r loc.offset_adjustment = .ok d := by
      rw [hadj]; exact fixupDelta_of_checked hd
    have hc1 : DCHECK env.toBuildConfig
        (IS_WIDE r.opcode == env.Is64Bit (toU32 (r.operands.get 0)))
        "DCHECK_EQ(IS_WIDE(opcode), reg.Is64Bit())" = .ok () :=
      DCHECK_runs _ (fun hc => (hchk hc).1)
    have hc2 : DCHECK env.toBuildConfig (decide (r.operands.get 1 < 64)) "DCHECK_LT(imm, 64)"
        = .ok () := DCHECK_runs _ (fun hc => by simpa using (hchk hc).2.1)
    have hcw := @tbxzCheckWidth_settled env m.lirs r p hr (fun hc => (hchk hc).2.2) hn
    simp only [fixupSwitch, fixupTBxZ, getLIR_some hr, hc1, hc2, hcw, hd', h1, bind,
      Except.bind, pure, Except.pure, updLIR_some hr, Bool.not_true, Bool.false_eq_true,
      if_false]
    rw [hself _ (by rw [← h3, Operands.set_get])]
  case kFixupAdr =>
    obtain ⟨d, hd, h1, h3⟩ := hs
    have hd' : adrDelta m r loc.offset_adjustment = .ok d := by
      rw [hadj]; exact hd
    simp only [fixupSwitch, fixupAdr_eq m loc p r d hr hd', h1, if_true, bind,
      Except.bind, pure, Except.pure]
    rw [hself _ (by rw [← h3, Operands.set_get])]
  case kFixupA53Erratum835769 =>
    simp only [fixupSwitch, fixupA53_skip hr hs, bind, Except.bind, pure, Except.pure]

/-- The round of the fixup loop for a settled node, with no adjustment pending: the node
gets the generation of the pass and nothing else is written. -/
theorem fixupStep_settled (env : Env) (fuel generation : Nat) (m : Mir2Lir)
    (res : AssemblerStatus) (prev : Option Nat) (p : Nat) (r : LIR)
    (hr : m.lirs[p]? = some r) (hs : Settled env fuel m r) :
    fixupStep env fuel generation m ⟨0, res, prev, some p⟩ p =
      .ok ({ m with lirs := m.lirs.set p (withGeneration r generation) },
        ⟨0, res, some p, r.pcrel_next⟩) := by
  have hv : visitRec r 0 generation = withGeneration r generation := by
    have e : wrap32 (r.offset + toU32 0) = r.offset := by
      have := hs.1
      unfold wrap32 toU32
      omega
    unfold visitRec withGeneration
    rw [e]
  have hV : visitState m 0 generation p
      = { m with lirs := m.lirs.set p (withGeneration r generation) } := by
    unfold visitState
    rw [updAt_of_some hr, hv]
  have hrV : ({ m with lirs := m.lirs.set p (withGeneration r generation) } : Mir2Lir).lirs[p]?
      = some (withGeneration r generation) := getElem?_set_self_of_some hr _
  have hsV : Settled env fuel { m with lirs := m.lirs.set p (withGeneration r generation) }
      (withGeneration r generation) :=
    @Settled.transfer env fuel fuel m
      { m with lirs := m.lirs.set p (withGeneration r generation) } r hs
      (SameReads.set_read hr rfl) rfl generation (le_refl _)
  have hsw := fixupSwitch_settled env fuel generation _ ⟨0, res, prev, some p⟩ rfl p _ hrV hsV
  rw [fixupStep_eq env fuel generation m _ p r hr]
  show (fixupSwitch env fuel generation (visitState m 0 generation p) _ p r.flags.fixup
    >>= _) = _
  rw [hV]
  have hk : (withGeneration r generation).flags.fixup = r.flags.fixup := rfl
  rw [hk] at hsw
  rw [hsw]
  simp only [bind, Except.bind, Bool.false_eq_true, if_false, getLIR_some hrV, pure,
    Except.pure]
  rfl
theorem DCHECK_passed {cfg : BuildConfig} {c : Bool} {msg : String} {u : Unit}
    (h : DCHECK cfg c msg = .ok u) (hc : cfg.kEnableDChecks = true) : c = true := by
  unfold DCHECK at h
  rw [hc] at h
  cases c with
  | true => rfl
  | false => simp at h

theorem tbxzCheckWidth_wide {env : Env} {lirs lirs1 : List LIR} {r : LIR} {p : Nat}
    (h : tbxzCheckWidth env lirs r p = .ok lirs1) (hc : env.kEnableDChecks = true)
    (h32 : r.operands.get 1 ≥ 32) : IS_WIDE r.opcode = true := by
  unfold tbxzCheckWidth at h
  dsimp only at h
  rw [if_pos h32] at h
  obtain ⟨_, hd, _⟩ := bind_ok h
  exact DCHECK_passed hd hc

theorem readOf_tbxzNarrowed (env : Env) (r : LIR) :
    readOf (tbxzNarrowed env r) = readOf r ∧ (tbxzNarrowed env r).pcrel_next = r.pcrel_next ∧
    (tbxzNarrowed env r).offset = r.offset := by
  unfold tbxzNarrowed
  split
  · exact ⟨rfl, rfl, rfl⟩
  · split
    · exact ⟨rfl, rfl, rfl⟩
    · exact ⟨rfl, rfl, rfl⟩

theorem tbxzNarrowed_keep (env : Env) (r : LIR)
    (h : r.operands.get 1 ≥ 32 ∨ (env.kIsDebugBuild && IS_WIDE r.opcode) = false) :
    tbxzNarrowed env r = r := by
  unfold tbxzNarrowed
  rcases h with h | h
  · rw [if_pos h]
  · rw [h]
    split <;> rfl

theorem tbxzNarrowed_cases (env : Env) (r : LIR) :
    ((r.operands.get 1 ≥ 32 ∨ (env.kIsDebugBuild && IS_WIDE r.opcode) = false) ∧
      tbxzNarrowed env r = r) ∨
    (¬ r.operands.get 1 ≥ 32 ∧ env.kIsDebugBuild = true ∧
      tbxzNarrowed env r =
        { r with opcode := ⟨UNWIDE r.opcode, false⟩,
                 operands := r.operands.set 0 (env.As32BitReg (r.operands.get 0)) }) := by
  by_cases h32 : r.operands.get 1 ≥ 32
  · exact Or.inl ⟨Or.inl h32, tbxzNarrowed_keep env r (Or.inl h32)⟩
  · by_cases hw : (env.kIsDebugBuild && IS_WIDE r.opcode) = false
    · exact Or.inl ⟨Or.inr hw, tbxzNarrowed_keep env r (Or.inr hw)⟩
    · have hw' : (env.kIsDebugBuild && IS_WIDE r.opcode) = true := by
        simpa using hw
      refine Or.inr ⟨h32, ?_, ?_⟩
      · cases hk : env.kIsDebugBuild
        · rw [hk] at hw'; cases hw'
        · rfl
      · unfold tbxzNarrowed
        rw [if_neg h32, hw', if_pos rfl]

theorem operands_set2_get (o : Operands) (x : Int) :
    (o.set 2 x).get 0 = o.get 0 ∧ (o.set 2 x).get 1 = o.get 1 := by
  cases o
  exact ⟨rfl, rfl⟩

theorem operands_set0_get (o : Operands) (x : Int) :
    (o.set 0 x).get 0 = x ∧ (o.set 0 x).get 1 = o.get 1 := by
  cases o
  exact ⟨rfl, rfl⟩

/-- Narrowing is done once: the record that the case `kFixupTBxZ` leaves is as narrow as
the case makes it. -/
theorem tbxzNarrowed_idem (env : Env) (r : LIR) (x : Int) :
    tbxzNarrowed env
      { tbxzNarrowed env r with operands := (tbxzNarrowed env r).operands.set 2 x }
      = { tbxzNarrowed env r with operands := (tbxzNarrowed env r).operands.set 2 x } := by
  apply tbxzNarrowed_keep
  rcases tbxzNarrowed_cases env r with ⟨hc, he⟩ | ⟨_, _, he⟩
  · rw [he]
    show (r.operands.set 2 x).get 1 ≥ 32 ∨ (env.kIsDebugBuild && IS_WIDE r.opcode) = false
    rw [(operands_set2_get _ _).2]
    exact hc
  · rw [he]
    right
    show (env.kIsDebugBuild && false) = false
    simp

/-- The checks of the case `kFixupTBxZ` pass again for the record that the case leaves. -/
theorem tbxzNarrowed_checks (env : Env) (r : LIR) (x : Int)
    (hreg : env.kIsDebugBuild = true → ∀ v, env.Is64Bit (toU32 (env.As32BitReg v)) = false)
    (h1 : (IS_WIDE r.opcode == env.Is64Bit (toU32 (r.operands.get 0))) = true)
    (h2 : r.operands.get 1 < 64)
    (h3 : r.operands.get 1 ≥ 32 → IS_WIDE r.opcode = true) :
    (IS_WIDE (tbxzNarrowed env r).opcode
      == env.Is64Bit (toU32 (((tbxzNarrowed env r).operands.set 2 x).get 0))) = true ∧
    ((tbxzNarrowed env r).operands.set 2 x).get 1 < 64 ∧
    (((tbxzNarrowed env r).operands.set 2 x).get 1 ≥ 32 →
      IS_WIDE (tbxzNarrowed env r).opcode = true) := by
  rw [(operands_set2_get _ _).1, (operands_set2_get _ _).2]
  rcases tbxzNarrowed_cases env r with ⟨_, he⟩ | ⟨h32, hd, he⟩
  · rw [he]
    exact ⟨h1, h2, h3⟩
  · rw [he]
    dsimp only
    rw [(operands_set0_get _ _).1, (operands_set0_get _ _).2]
    refine ⟨?_, h2, fun hc => absurd hc h32⟩
    rw [hreg hd]
    rfl

theorem adrDelta_stored {m m1 : Mir2Lir} {r r1 : LIR} {d : Int}
    (h : adrDelta m r 0 = .ok d) (hs : SameReads m.lirs m1.lirs)
    (he : m1.embedded_data = m.embedded_data) (ht : r1.target = r.target)
    (ho : r1.offset % 4294967296 = r.offset % 4294967296)
    (hop2 : r1.operands.get 2 = r.operands.get 2) (hop1 : r1.operands.get 1 = d) :
    adrDelta m1 r1 0 = .ok d := by
  unfold adrDelta at h ⊢
  rw [ht, hop2, he]
  cases htg : r.target with
  | none =>
    rw [htg] at h
    simp only [bne_self_eq_false, Bool.false_eq_true, if_false] at h ⊢
    split at h
    · rename_i hge
      rw [if_pos hge]
      cases hed : m.embedded_data[(r.operands.get 2).toNat]? with
      | none => rw [hed] at h; cases h
      | some tab =>
        rw [hed] at h
        simp only [pure, Except.pure] at h ⊢
        rw [← h]
        congr 1
        unfold wrapI32
        omega
    · rename_i hge
      rw [if_neg hge, hop1]
      rfl
  | some t =>
    rw [htg] at h
    have hne : ((some t : Option Nat) != none) = true := rfl
    simp only [hne, if_true, ite_self] at h ⊢
    cases h0 : m.lirs[t]? with
    | none =>
      simp only [getLIR, h0] at h
      cases h
    | some tl =>
      obtain ⟨tl1, h1, hread⟩ := hs.reads_get h0
      simp only [readOf, Prod.mk.injEq] at hread
      have e := hread.1
      simp only [getLIR_some h0, getLIR_some h1, bind, Except.bind, pure, Except.pure] at h ⊢
      rw [← h]
      congr 1
      unfold wrapI32 wrap32 toU32
      omega
theorem Settled.of_plain {env : Env} {fuel : Nat} {m : Mir2Lir} {r : LIR}
    (hoff : r.offset < 4294967296)
    (hk : r.flags.fixup = kFixupNone ∨ r.flags.fixup = kFixupLabel ∨
      r.flags.fixup = kFixupVLoad) : Settled env fuel m r := by
  refine ⟨hoff, ?_⟩
  rcases hk with hk | hk | hk <;> rw [hk] <;> trivial

theorem Settled.of_cond {env : Env} {fuel : Nat} {m : Mir2Lir} {r : LIR}
    (hoff : r.offset < 4294967296)
    (hk : r.flags.fixup = kFixupLoad ∨ r.flags.fixup = kFixupCBxZ ∨
      r.flags.fixup = kFixupCondBranch) (d : Int) (hd : DeltaChecked env m.lirs r d)
    (hi : IS_SIGNED_IMM19 (asr d 2) = true) (ho : r.operands.get 1 = asr d 2) :
    Settled env fuel m r := by
  refine ⟨hoff, ?_⟩
  rcases hk with hk | hk | hk <;> rw [hk] <;> exact ⟨d, hd, hi, ho⟩

theorem Settled.of_t1 {env : Env} {fuel : Nat} {m : Mir2Lir} {r : LIR}
    (hoff : r.offset < 4294967296) (hk : r.flags.fixup = kFixupT1Branch) (d : Int)
    (hd : DeltaChecked env m.lirs r d) (hi : IS_SIGNED_IMM26 (asr d 2) = true)
    (he : (!env.safe_optimizations_disabled && asr d 2 == 1) = false)
    (ho : r.operands.get 0 = asr d 2) : Settled env fuel m r := by
  refine ⟨hoff, ?_⟩
  rw [hk]
  exact ⟨d, hd, hi, he, ho⟩

theorem Settled.of_tbxz {env : Env} {fuel : Nat} {m : Mir2Lir} {r : LIR}
    (hoff : r.offset < 4294967296) (hk : r.flags.fixup = kFixupTBxZ)
    (hchk : env.kEnableDChecks = true →
      (IS_WIDE r.opcode == env.Is64Bit (toU32 (r.operands.get 0))) = true ∧
      r.operands.get 1 < 64 ∧ (r.operands.get 1 ≥ 32 → IS_WIDE r.opcode = true))
    (hn : tbxzNarrowed env r = r) (d : Int)
    (hd : DeltaChecked env m.lirs r d) (hi : IS_SIGNED_IMM14 (asr d 2) = true)
    (ho : r.operands.get 2 = asr d 2) : Settled env fuel m r := by
  refine ⟨hoff, ?_⟩
  rw [hk]
  exact ⟨hchk, hn, d, hd, hi, ho⟩

theorem Settled.of_adr {env : Env} {fuel : Nat} {m : Mir2Lir} {r : LIR}
    (hoff : r.offset < 4294967296) (hk : r.flags.fixup = kFixupAdr) (d : Int)
    (hd : adrDelta m r 0 = .ok d) (hi : IS_SIGNED_IMM21 d = true)
    (ho : r.operands.get 1 = d) : Settled env fuel m r := by
  refine ⟨hoff, ?_⟩
  rw [hk]
  exact ⟨d, hd, hi, ho⟩

theorem Settled.of_a53 {env : Env} {fuel : Nat} {m : Mir2Lir} {r : LIR}
    (hoff : r.offset < 4294967296) (hk : r.flags.fixup = kFixupA53Erratum835769)
    (h : A53Skips env fuel m.lirs r) : Settled env fuel m r := by
  refine ⟨hoff, ?_⟩
  rw [hk]
  exact h

/-- The `switch` of a round that asks for no retry, with no adjustment pending, leaves the
record of its node settled; it writes nothing that a round reads of another record. -/
theorem fixupSwitch_settles {env : Env} {fuel generation : Nat} {m m1 : Mir2Lir}
    {loc loc1 : FixupLocals} {p : Nat} {r : LIR} {c : Bool}
    (hreg : env.kEnableDChecks = true → env.kIsDebugBuild = true →
      ∀ v, env.Is64Bit (toU32 (env.As32BitReg v)) = false)
    (hr : m.lirs[p]? = some r) (hoff : r.offset < 4294967296)
    (hadj : loc.offset_adjustment = 0)
    (h : fixupSwitch env fuel generation m loc p r.flags.fixup = .ok (m1, loc1, c))
    (hres : loc1.res = .kSuccess) :
    c = false ∧ loc1 = loc ∧ ∃ r1, m1 = { m with lirs := m.lirs.set p r1 } ∧
      readOf r1 = readOf r ∧ r1.pcrel_next = r.pcrel_next ∧ Settled env fuel m1 r1 := by
  have hself : ({ m with lirs := m.lirs.set p r } : Mir2Lir) = m := by
    rw [set_self_of_some hr]
  -- the outcome of a case that writes an operand of the node
  have hwrite : ∀ (i : Nat) (x : Int),
      SameReads m.lirs (m.lirs.set p { r with operands := r.operands.set i x }) :=
    fun i x => SameReads.set_read hr rfl
  have hpair : ∀ {x : Except Fault (Mir2Lir × FixupLocals)},
      (x >>= fun (v : Mir2Lir × FixupLocals) =>
        (pure (v.1, v.2, false) : Except Fault (Mir2Lir × FixupLocals × Bool)))
        = .ok (m1, loc1, c) → c = false ∧ x = .ok (m1, loc1) := by
    intro x hx
    obtain ⟨⟨a, b⟩, hx1, hx2⟩ := bind_ok hx
    simp only [pure, Except.pure] at hx2
    injection hx2 with hx2
    injection hx2 with e1 e2
    injection e2 with e2 e3
    subst e1 e2 e3
    exact ⟨rfl, hx1⟩
  cases hk : r.flags.fixup <;> rw [hk] at h
  case kFixupNone =>
    simp only [fixupSwitch, pure, Except.pure] at h
    injection h with h
    injection h with e1 e2
    injection e2 with e2 e3
    subst e1 e2 e3
    exact ⟨rfl, rfl, r, hself.symm, rfl, rfl, Settled.of_plain hoff (Or.inl hk)⟩
  case kFixupLabel =>
    simp only [fixupSwitch, pure, Except.pure] at h
    injection h with h
    injection h with e1 e2
    injection e2 with e2 e3
    subst e1 e2 e3
    exact ⟨rfl, rfl, r, hself.symm, rfl, rfl, Settled.of_plain hoff (Or.inr (Or.inl hk))⟩
  case kFixupVLoad =>
    simp only [fixupSwitch, pure, Except.pure] at h
    injection h with h
    injection h with e1 e2
    injection e2 with e2 e3
    subst e1 e2 e3
    exact ⟨rfl, rfl, r, hself.symm, rfl, rfl, Settled.of_plain hoff (Or.inr (Or.inr hk))⟩
  case kFixupOther => cases h
  case kFixupLoad =>
    obtain ⟨hc, hcase⟩ := hpair h
    have hcase0 := hcase
    unfold fixupCondBranch at hcase
    obtain ⟨r', hr', hcase⟩ := bind_ok hcase
    obtain ⟨d, hd, _⟩ := bind_ok hcase
    have e := getLIR_some_inv hr'
    rw [hr] at e
    injection e with e
    subst e
    rw [fixupCondBranch_eq env m loc p r d hr hd] at hcase0
    rw [hadj] at hd
    split at hcase0
    · rename_i hi
      injection hcase0 with hcase0
      injection hcase0 with e1 e2
      subst e1 e2
      exact ⟨hc, rfl, _, rfl, rfl, rfl, Settled.of_cond hoff (Or.inl hk) d
        ((fixupDelta_checked hd).checked_reads (hwrite 1 _) rfl rfl) hi
        (operands_get_set _ 1 _ (by decide))⟩
    · cases hcase0
  case kFixupCondBranch =>
    obtain ⟨hc, hcase⟩ := hpair h
    have hcase0 := hcase
    unfold fixupCondBranch at hcase
    obtain ⟨r', hr', hcase⟩ := bind_ok hcase
    obtain ⟨d, hd, _⟩ := bind_ok hcase
    have e := getLIR_some_inv hr'
    rw [hr] at e
    injection e with e
    subst e
    rw [fixupCondBranch_eq env m loc p r d hr hd] at hcase0
    rw [hadj] at hd
    split at hcase0
    · rename_i hi
      injection hcase0 with hcase0
      injection hcase0 with e1 e2
      subst e1 e2
      exact ⟨hc, rfl, _, rfl, rfl, rfl, Settled.of_cond hoff (Or.inr (Or.inr hk)) d
        ((fixupDelta_checked hd).checked_reads (hwrite 1 _) rfl rfl) hi
        (operands_get_set _ 1 _ (by decide))⟩
    · cases hcase0
  case kFixupCBxZ =>
    obtain ⟨hc, hcase⟩ := hpair h
    have hcase0 := hcase
    unfold fixupCondBranch at hcase
    obtain ⟨r', hr', hcase⟩ := bind_ok hcase
    obtain ⟨d, hd, _⟩ := bind_ok hcase
    have e := getLIR_some_inv hr'
    rw [hr] at e
    injection e with e
    subst e
    rw [fixupCondBranch_eq env m loc p r d hr hd] at hcase0
    rw [hadj] at hd
    split at hcase0
    · rename_i hi
      injection hcase0 with hcase0
      injection hcase0 with e1 e2
      subst e1 e2
      exact ⟨hc, rfl, _, rfl, rfl, rfl, Settled.of_cond hoff (Or.inr (Or.inl hk)) d
        ((fixupDelta_checked hd).checked_reads (hwrite 1 _) rfl rfl) hi
        (operands_get_set _ 1 _ (by decide))⟩
    · cases hcase0
  case kFixupT1Branch =>
    obtain ⟨hc, hcase⟩ := hpair h
    have hcase0 := hcase
    unfold fixupT1Branch at hcase
    obtain ⟨r', hr', hcase⟩ := bind_ok hcase
    obtain ⟨d, hd, _⟩ := bind_ok hcase
    have e := getLIR_some_inv hr'
    rw [hr] at e
    injection e with e
    subst e
    rw [fixupT1Branch_eq env m loc p r d hr hd] at hcase0
    rw [hadj] at hd
    split at hcase0
    · rename_i hi
      split at hcase0
      · injection hcase0 with hcase0
        injection hcase0 with e1 e2
        rw [← e2] at hres
        cases hres
      · rename_i he
        injection hcase0 with hcase0
        injection hcase0 with e1 e2
        subst e1 e2
        exact ⟨hc, rfl, _, rfl, rfl, rfl, Settled.of_t1 hoff hk d
          ((fixupDelta_checked hd).checked_reads (hwrite 0 _) rfl rfl) hi (by simpa using he)
          (operands_get_set _ 0 _ (by decide))⟩
    · cases hcase0
  case kFixupAdr =>
    obtain ⟨hc, hcase⟩ := hpair h
    have hcase0 := hcase
    unfold fixupAdr at hcase
    obtain ⟨r', hr', hcase⟩ := bind_ok hcase
    obtain ⟨d, hd, _⟩ := bind_ok hcase
    have e := getLIR_some_inv hr'
    rw [hr] at e
    injection e with e
    subst e
    rw [fixupAdr_eq m loc p r d hr hd] at hcase0
    rw [hadj] at hd
    split at hcase0
    · rename_i hi
      injection hcase0 with hcase0
      injection hcase0 with e1 e2
      subst e1 e2
      have hget : (r.operands.set 1 d).get 1 = d := operands_get_set _ _ _ (by decide)
      have hget2 : (r.operands.set 1 d).get 2 = r.operands.get 2 := by
        cases r.operands
        rfl
      exact ⟨hc, rfl, _, rfl, rfl, rfl, Settled.of_adr hoff hk d
        (adrDelta_stored hd (hwrite 1 _) rfl rfl rfl hget2 hget) hi hget⟩
    · cases hcase0
  case kFixupA53Erratum835769 =>
    obtain ⟨hc, hcase⟩ := hpair h
    rcases fixupA53_ok hcase hr with ⟨e1, e2, hskip⟩ | ⟨_, _, _, _, e2, _⟩
    · subst e1 e2
      exact ⟨hc, rfl, r, hself.symm, rfl, rfl, Settled.of_a53 hoff hk hskip⟩
    · rw [e2] at hres
      cases hres
  case kFixupTBxZ =>
    simp only [fixupSwitch] at h
    have h0 := h
    unfold fixupTBxZ at h
    obtain ⟨r', hr', h⟩ := bind_ok h
    have e := getLIR_some_inv hr'
    rw [hr] at e
    injection e with e
    subst e
    dsimp only at h
    obtain ⟨_, hc1, h⟩ := bind_ok h
    obtain ⟨_, hc2, h⟩ := bind_ok h
    obtain ⟨lirs1, hl1, h⟩ := bind_ok h
    have hlirs1 := tbxzCheckWidth_ok hr hl1
    obtain ⟨lir2, hlir2, h⟩ := bind_ok h
    have hlir2' : lirs1[p]? = some lir2 := getLIR_some_inv hlir2
    have hr2 : lir2 = tbxzNarrowed env r := by
      rw [hlirs1, getElem?_set_self_of_some hr] at hlir2'
      injection hlir2' with h'
      exact h'.symm
    subst hr2
    obtain ⟨d, hd, h⟩ := bind_ok h
    rw [hadj] at hd
    obtain ⟨hread, hpn, hno⟩ := readOf_tbxzNarrowed env r
    obtain ⟨_, _, htg, hfl, _⟩ := tbxzNarrowed_fields env r
    split at h
    · have := tbxzWiden_retry h
      rw [hres] at this
      cases this
    · rename_i hi
      obtain ⟨lirs3, hl3, h⟩ := bind_ok h
      obtain ⟨r3, hr3, hset⟩ := updLIR_ok hl3
      rw [hlir2'] at hr3
      injection hr3 with hr3
      subst hr3
      simp only [pure, Except.pure] at h
      injection h with h
      injection h with e1 e2
      injection e2 with e2 e3
      subst e2 e3
      have hm1 : m1 =
          { m with
            lirs := m.lirs.set p
              { tbxzNarrowed env r with
                operands := (tbxzNarrowed env r).operands.set 2 (asr d 2) } } := by
        rw [← e1, hset, hlirs1, List.set_set]
      have hsr : SameReads lirs1 (m.lirs.set p
          { tbxzNarrowed env r with
            operands := (tbxzNarrowed env r).operands.set 2 (asr d 2) }) := by
        rw [hlirs1]
        have := @SameReads.set_read (m.lirs.set p (tbxzNarrowed env r)) p
          (tbxzNarrowed env r)
          { tbxzNarrowed env r with
            operands := (tbxzNarrowed env r).operands.set 2 (asr d 2) }
          (getElem?_set_self_of_some hr _) rfl
        rw [List.set_set] at this
        exact this
      refine ⟨rfl, rfl, _, hm1, hread, hpn, ?_⟩
      rw [hm1]
      refine Settled.of_tbxz ?_ ?_ ?_ (tbxzNarrowed_idem env r _) d
        ((fixupDelta_checked hd).checked_reads hsr rfl rfl) (by simpa using hi)
        (operands_get_set _ 2 _ (by decide))
      · show (tbxzNarrowed env r).offset < _
        rw [hno]
        exact hoff
      · show (tbxzNarrowed env r).flags.fixup = _
        rw [hfl]
        exact hk
      · intro hc
        have hdec := DCHECK_passed hc2 hc
        exact tbxzNarrowed_checks env r _ (hreg hc) (DCHECK_passed hc1 hc)
          (by simpa using hdec) (tbxzCheckWidth_wide hl1 hc)
/-- A round of the fixup loop that asks for no retry, with no adjustment pending, leaves
its node settled and writes nothing that a round reads of another record. -/
theorem fixupStep_settles {env : Env} {fuel generation : Nat} {m m1 : Mir2Lir}
    {loc loc1 : FixupLocals} {p : Nat}
    (hreg : env.kEnableDChecks = true → env.kIsDebugBuild = true →
      ∀ v, env.Is64Bit (toU32 (env.As32BitReg v)) = false)
    (h : fixupStep env fuel generation m loc p = .ok (m1, loc1))
    (hadj : loc.offset_adjustment = 0) (hres : loc1.res = .kSuccess) :
    ∃ r r1, m.lirs[p]? = some r ∧ m1 = { m with lirs := m.lirs.set p r1 } ∧
      loc1 = { loc with prev_lir := some p, lir := r.pcrel_next } ∧
      readOf r1 = readOf r ∧ r1.pcrel_next = r.pcrel_next ∧ Settled env fuel m1 r1 := by
  obtain ⟨r, _, hr, _⟩ := fixupStep_success h hadj hres
  rw [fixupStep_eq env fuel generation m loc p r hr, hadj] at h
  obtain ⟨⟨M1, L1, c⟩, hsw, hrest⟩ := bind_ok h
  have hrV := visitState_get m 0 generation p r hr
  have hoffV : (visitRec r 0 generation).offset < 4294967296 := by
    show wrap32 _ < _
    unfold wrap32
    omega
  have hresL : L1.res = .kSuccess := by
    dsimp only at hrest
    cases c with
    | true =>
      simp only [if_true, pure, Except.pure] at hrest
      injection hrest with hrest
      injection hrest with _ e2
      rw [e2]
      exact hres
    | false =>
      simp only [Bool.false_eq_true, if_false] at hrest
      obtain ⟨_, _, hrest⟩ := bind_ok hrest
      simp only [pure, Except.pure] at hrest
      injection hrest with hrest
      injection hrest with _ e2
      rw [← e2] at hres
      exact hres
  have hsw' : fixupSwitch env fuel generation (visitState m 0 generation p) loc p
      (visitRec r 0 generation).flags.fixup = .ok (M1, L1, c) := hsw
  obtain ⟨hc, hL, r1, hM1, hread, hpn, hset⟩ :=
    fixupSwitch_settles hreg hrV hoffV hadj hsw' hresL
  subst hc hL
  have hlirs : M1.lirs = m.lirs.set p r1 := by
    rw [hM1]
    show (visitState m 0 generation p).lirs.set p r1 = _
    unfold visitState
    rw [updAt_of_some hr, List.set_set]
  have hM1' : M1 = { m with lirs := m.lirs.set p r1 } := by
    rw [← hlirs, hM1]
    rfl
  have hget : getLIR M1.lirs (some p) = .ok r1 := by
    rw [hlirs]
    exact getLIR_some (getElem?_set_self_of_some hr r1)
  dsimp only at hrest
  simp only [Bool.false_eq_true, if_false, hget, bind, Except.bind, pure, Except.pure] at hrest
  injection hrest with hrest
  injection hrest with e1 e2
  refine ⟨r, r1, hr, ?_, ?_, ?_, hpn, ?_⟩
  · rw [← e1]
    exact hM1'
  · rw [← e2, hpn]
    rfl
  · rw [hread]
    show (wrap32 (r.offset + toU32 0) % 4294967296, _, _, _) = _
    have : wrap32 (r.offset + toU32 0) % 4294967296 = r.offset % 4294967296 := by
      unfold wrap32 toU32
      omega
    rw [this]
    rfl
  · rw [← e1]
    exact hset

theorem PassSettles.settles_same (env : Env) (fuel : Nat) (m : Mir2Lir) : PassSettles env fuel m m :=
  ⟨rfl, SameReads.same _, fun _ r hr => ⟨r, hr, rfl, fun _ _ h => h⟩⟩

theorem PassSettles.settles_then {env : Env} {fuel fuel1 : Nat} {m m1 m2 : Mir2Lir}
    (h1 : PassSettles env fuel m m1) (h2 : PassSettles env fuel1 m1 m2) (hle : fuel1 ≤ fuel) :
    PassSettles env fuel m m2 := by
  obtain ⟨e1, s1, k1⟩ := h1
  obtain ⟨e2, s2, k2⟩ := h2
  refine ⟨?_, s1.chain s2, ?_⟩
  · rw [e2, e1]
  · intro j r hr
    obtain ⟨r1, hr1, hp1, hs1⟩ := k1 j r hr
    obtain ⟨r2, hr2, hp2, hs2⟩ := k2 j r1 hr1
    exact ⟨r2, hr2, hp2.trans hp1, fun f hf h => hs2 f (by omega) (hs1 f hf h)⟩

/-- A round that asks for no retry keeps what later rounds rely on. -/
theorem PassSettles.of_step {env : Env} {fuel : Nat} {m : Mir2Lir} {p : Nat} {r r1 : LIR}
    (hr : m.lirs[p]? = some r) (hread : readOf r1 = readOf r)
    (hpn : r1.pcrel_next = r.pcrel_next)
    (hs : Settled env fuel { m with lirs := m.lirs.set p r1 } r1) :
    PassSettles env fuel m { m with lirs := m.lirs.set p r1 } := by
  have hsr : SameReads m.lirs (m.lirs.set p r1) := SameReads.set_read hr hread
  refine ⟨rfl, hsr, ?_⟩
  intro j q hq
  by_cases hj : j = p
  · subst hj
    rw [hr] at hq
    injection hq with hq
    subst hq
    exact ⟨r1, getElem?_set_self_of_some hr r1, hpn, fun f hf _ => hs.frame (SameReads.same _)
      rfl hf⟩
  · refine ⟨q, ?_, rfl, fun f _ h => ?_⟩
    · show (m.lirs.set p r1)[j]? = some q
      rw [List.getElem?_set_ne (fun hc => hj hc.symm)]
      exact hq
    · exact @Settled.frame env f f m { m with lirs := m.lirs.set p r1 } q h hsr rfl (le_refl _)

/-- A pass that starts without pending adjustment and asks for no retry leaves a settled
chain. -/
theorem fixupPass_settles {env : Env} {generation : Nat}
    (hreg : env.kEnableDChecks = true → env.kIsDebugBuild = true →
      ∀ v, env.Is64Bit (toU32 (env.As32BitReg v)) = false) :
    ∀ (fuel : Nat) (m : Mir2Lir) (loc : FixupLocals) (m' : Mir2Lir) (loc' : FixupLocals),
      fixupPass env generation fuel m loc = .ok (m', loc') → loc.offset_adjustment = 0 →
      loc'.res = .kSuccess →
      SettledChain env m' fuel loc.lir ∧ PassSettles env fuel m m' := by
  intro fuel
  induction fuel with
  | zero =>
    intro m loc m' loc' h _ _
    unfold fixupPass at h
    cases hl : loc.lir with
    | none =>
      rw [hl] at h
      injection h with h
      injection h with h1 _
      subst h1
      exact ⟨trivial, PassSettles.settles_same _ _ _⟩
    | some p => rw [hl] at h; cases h
  | succ fuel ih =>
    intro m loc m' loc' h hadj hres
    unfold fixupPass at h
    cases hl : loc.lir with
    | none =>
      rw [hl] at h
      injection h with h
      injection h with h1 _
      subst h1
      exact ⟨trivial, PassSettles.settles_same _ _ _⟩
    | some p =>
      rw [hl] at h
      dsimp only at h
      cases hs : fixupStep env (fuel + 1) generation m loc p with
      | error e => rw [hs] at h; cases h
      | ok v =>
        obtain ⟨m1, loc1⟩ := v
        rw [hs] at h
        have hres1 : loc1.res = .kSuccess := by
          cases hr1 : loc1.res with
          | kSuccess => rfl
          | kRetryAll =>
            have := fixupPass_retry fuel m1 loc1 m' loc' h hr1
            rw [hres] at this
            cases this
        obtain ⟨r, r1, hr, hm1, hloc1, hread, hpn, hset⟩ := fixupStep_settles hreg hs hadj hres1
        have hadj1 : loc1.offset_adjustment = 0 := by rw [hloc1]; exact hadj
        obtain ⟨hchain, hkeep⟩ := ih m1 loc1 m' loc' h hadj1 hres
        subst hm1
        have hstep := PassSettles.of_step hr hread hpn hset
        refine ⟨?_, hstep.settles_then hkeep (by omega)⟩
        obtain ⟨r', hr', hpn', hs'⟩ := hkeep.2.2 p r1 (getElem?_set_self_of_some hr r1)
        refine ⟨r', hr', hs' (fuel + 1) (by omega) hset, ?_⟩
        rw [hpn', hpn]
        rw [hloc1] at hchain
        exact hchain

theorem SameUpToGeneration.regen_same (m : Mir2Lir) : SameUpToGeneration m m :=
  ⟨rfl, rfl, fun _ r hr => ⟨r.flags.generation, hr⟩⟩

theorem SameUpToGeneration.regen_then {m m1 m2 : Mir2Lir} (h1 : SameUpToGeneration m m1)
    (h2 : SameUpToGeneration m1 m2) : SameUpToGeneration m m2 := by
  obtain ⟨e1, l1, k1⟩ := h1
  obtain ⟨e2, l2, k2⟩ := h2
  refine ⟨?_, l2.trans l1, ?_⟩
  · rw [e2, e1]
  · intro j r hr
    obtain ⟨g1, hr1⟩ := k1 j r hr
    obtain ⟨g2, hr2⟩ := k2 j _ hr1
    exact ⟨g2, hr2⟩

theorem SameUpToGeneration.regen_reads {m m1 : Mir2Lir} (h : SameUpToGeneration m m1) :
    SameReads m.lirs m1.lirs ∧ m1.embedded_data = m.embedded_data := by
  obtain ⟨e, l, k⟩ := h
  refine ⟨?_, by rw [e]⟩
  intro j
  cases hj : m.lirs[j]? with
  | none =>
    have : m1.lirs[j]? = none := by
      rw [List.getElem?_eq_none_iff] at hj ⊢
      omega
    rw [this]
  | some r =>
    obtain ⟨g, hr1⟩ := k j r hj
    rw [hr1]
    rfl

theorem SameUpToGeneration.of_visit {m : Mir2Lir} {p : Nat} {r : LIR}
    (hr : m.lirs[p]? = some r) (g : Nat) :
    SameUpToGeneration m { m with lirs := m.lirs.set p (withGeneration r g) } := by
  refine ⟨rfl, List.length_set _ _ _, ?_⟩
  intro j q hq
  by_cases hj : j = p
  · subst hj
    rw [hr] at hq
    injection hq with hq
    subst hq
    exact ⟨g, getElem?_set_self_of_some hr _⟩
  · refine ⟨q.flags.generation, ?_⟩
    show (m.lirs.set p (withGeneration r g))[j]? = _
    rw [List.getElem?_set_ne (fun hc => hj hc.symm)]
    exact hq

theorem SettledChain.regen {env : Env} {m m1 : Mir2Lir} (h : SameUpToGeneration m m1) :
    ∀ (fuel : Nat) (s : Option Nat), SettledChain env m fuel s → SettledChain env m1 fuel s := by
  obtain ⟨hsr, he⟩ := h.regen_reads
  intro fuel
  induction fuel with
  | zero =>
    intro s hs
    cases s with
    | none => trivial
    | some q => exact hs.elim
  | succ fuel ih =>
    intro s hs
    cases s with
    | none => trivial
    | some q =>
      obtain ⟨r, hr, hset, hrest⟩ := hs
      obtain ⟨g, hr1⟩ := h.2.2 q r hr
      exact ⟨_, hr1, hset.transfer hsr he g (le_refl _), ih _ hrest⟩

/-- A pass over a settled chain, started without pending adjustment, returns; it asks for
no retry, leaves no adjustment pending, and writes nothing but generation flags. -/
theorem fixupPass_settled (env : Env) (generation : Nat) :
    ∀ (fuel : Nat) (m : Mir2Lir) (head : Option Nat), SettledChain env m fuel head →
      ∀ (res : AssemblerStatus) (prev : Option Nat),
        ∃ m' last, fixupPass env generation fuel m ⟨0, res, prev, head⟩
            = .ok (m', ⟨0, res, last, none⟩) ∧ SameUpToGeneration m m' := by
  intro fuel
  induction fuel with
  | zero =>
    intro m head hs res prev
    cases head with
    | none =>
      refine ⟨m, prev, ?_, SameUpToGeneration.regen_same m⟩
      unfold fixupPass
      rfl
    | some q => exact hs.elim
  | succ fuel ih =>
    intro m head hs res prev
    cases head with
    | none =>
      refine ⟨m, prev, ?_, SameUpToGeneration.regen_same m⟩
      unfold fixupPass
      rfl
    | some p =>
      obtain ⟨r, hr, hset, hrest⟩ := hs
      have hv := SameUpToGeneration.of_visit hr generation
      obtain ⟨m', last, hpass, hsame⟩ :=
        ih _ r.pcrel_next (SettledChain.regen hv fuel _ hrest) res (some p)
      refine ⟨m', last, ?_, hv.regen_then hsame⟩
      unfold fixupPass
      dsimp only
      rw [fixupStep_settled env (fuel + 1) generation m res prev p r hr hset]
      exact hpass
/-- C22: idempotence of the resolver. If a pass of the fixup loop of `AssembleLIR` over a
state (started, as the loop starts it, at `first_fixup_` with `offset_adjustment == 0` and
`res == kSuccess`) finishes without asking for a retry, then the fixup loop run again on
the resulting state makes exactly one pass: with a single round it returns, for every
value of its locals `generation`, `assembler_retries` and `starting_offset`; that pass
asks for no retry and ends with `offset_adjustment == 0`; and the state it leaves is the
one it started from up to the generation flags of the records, so every offset, every
operand, the instruction list and the fixup chain are unchanged. For builds with both
debug checks and the debug narrowing of `tbz/tbnz`, `As32BitReg` is taken to return a
register that `Is64Bit` rejects. -/
theorem resolved_pass_idempotent (env : Env) (fuel generation : Nat) (m m' : Mir2Lir)
    (loc' : FixupLocals)
    (hreg : env.kEnableDChecks = true → env.kIsDebugBuild = true →
      ∀ v, env.Is64Bit (toU32 (env.As32BitReg v)) = false)
    (h : fixupPass env generation fuel m
      { offset_adjustment := 0, res := .kSuccess, prev_lir := none, lir := m.first_fixup_ }
        = .ok (m', loc'))
    (hres : loc'.res = .kSuccess)
    (generation' assembler_retries starting_offset : Nat) :
    ∃ m'' last,
      fixupPass env (generation' ^^^ 1) fuel m'
        { offset_adjustment := 0, res := .kSuccess, prev_lir := none, lir := m'.first_fixup_ }
          = .ok (m'', { offset_adjustment := 0, res := .kSuccess, prev_lir := last,
                        lir := none }) ∧
      fixupLoop env fuel 1 m' generation' assembler_retries starting_offset
        = .ok (m'', starting_offset) ∧
      SameUpToGeneration m' m'' := by
  obtain ⟨hchain, hkeep⟩ := fixupPass_settles hreg fuel m _ m' loc' h rfl hres
  have hfirst : m'.first_fixup_ = m.first_fixup_ := by rw [hkeep.1]
  rw [← hfirst] at hchain
  obtain ⟨m'', last, hpass, hsame⟩ :=
    fixupPass_settled env (generation' ^^^ 1) fuel m' _ hchain .kSuccess none
  refine ⟨m'', last, hpass, ?_, hsame⟩
  unfold fixupLoop
  simp only [hpass, if_true, DCHECK]
  cases env.kEnableDChecks <;> rfl

theorem resolved_pass_idempotent_witness :
    fixupPass (mkEnv debugConfig) (0 ^^^ 1) 3 branchStreamLinked
        { offset_adjustment := 0, res := .kSuccess, prev_lir := none,
          lir := branchStreamLinked.first_fixup_ }
      = .ok (branchStreamResolved, ⟨0, .kSuccess, some 2, none⟩) ∧
    ∃ m'' last,
      fixupPass (mkEnv debugConfig) (1 ^^^ 1) 3 branchStreamResolved
        { offset_adjustment := 0, res := .kSuccess, prev_lir := none,
          lir := branchStreamResolved.first_fixup_ }
          = .ok (m'', { offset_adjustment := 0, res := .kSuccess, prev_lir := last,
                        lir := none }) ∧
      fixupLoop (mkEnv debugConfig) 3 1 branchStreamResolved 1 0 8 = .ok (m'', 8) ∧
      SameUpToGeneration branchStreamResolved m'' :=
  ⟨by decide,
    resolved_pass_idempotent (mkEnv debugConfig) 3 (0 ^^^ 1) branchStreamLinked
      branchStreamResolved ⟨0, .kSuccess, some 2, none⟩ (fun _ _ _ => rfl) (by decide) rfl
      1 0 8⟩
/-! ## The number of passes of the resolver -/

theorem stableRec_iff (env : Env) (r : LIR) :
    stableRec env r = true ↔
      r.flags.is_nop = false ∧ r.flags.fixup ≠ kFixupT1Branch ∧ r.flags.fixup ≠ kFixupTBxZ ∧
      ∃ op, r.opcode.base = .insn op ∧ isLoadOrStore env (EncodingMap op).flags = false := by
  unfold stableRec
  cases hb : r.opcode.base with
  | pseudo c => simp
  | insn op => simp [and_assoc]

theorem guarded_iff (env : Env) (lirs : List LIR) (q : Option Nat) :
    guarded env lirs q = true ↔ ∃ i rq, q = some i ∧ lirs[i]? = some rq ∧
      stableRec env rq = true := by
  unfold guarded
  cases q with
  | none => simp
  | some i =>
    cases h : lirs[i]? with
    | none => simp [h]
    | some rq => simp [h]

/-- A round of the fixup loop makes no record rewritable. -/
theorem RoundFrame.rewritable_mono {env : Env} {lirs lirs1 : List LIR}
    (h : RoundFrame env lirs lirs1) (j : Nat) (hj : j < lirs.length)
    (h1 : rewritable env lirs1 j = true) : rewritable env lirs j = true := by
  have hr : lirs[j]? = some lirs[j] := List.getElem?_eq_getElem hj
  obtain ⟨r1, hr1, hk, _, hp⟩ := h.keeps j _ hr
  unfold rewritable at h1 ⊢
  rw [hr1] at h1
  rw [hr]
  dsimp only at h1 ⊢
  have hkind : r1.flags.fixup = (lirs[j]).flags.fixup := by
    rcases hk with hk | hk
    · exact hk
    · rw [hk] at h1
      cases h1
  rw [hkind] at h1
  cases hf : (lirs[j]).flags.fixup <;> rw [hf] at h1 <;> try (first | rfl | cases h1)
  -- the kind `kFixupA53Erratum835769`
  dsimp only at h1 ⊢
  cases hg : guarded env lirs (lirs[j]).prev with
  | false => rfl
  | true =>
    exfalso
    have hg1 : guarded env lirs1 r1.prev = true := by
      rcases hp with hp | hp
      · rw [hp]
        obtain ⟨i, rq, hq, hrq, hst⟩ := (guarded_iff env lirs _).mp hg
        obtain ⟨rq1, hrq1, hk1, hb1, _⟩ := h.keeps i rq hrq
        obtain ⟨s1, s2, s3, op, s4, s5⟩ := (stableRec_iff env rq).mp hst
        obtain ⟨b1, b2⟩ := hb1 s2 s3
        rw [guarded_iff]
        refine ⟨i, rq1, hq, hrq1, ?_⟩
        rw [stableRec_iff]
        refine ⟨b1.trans s1, ?_, ?_, op, b2.trans s4, s5⟩
        · rcases hk1 with e | e <;> rw [e]
          · exact s2
          · intro hc; cases hc
        · rcases hk1 with e | e <;> rw [e]
          · exact s3
          · intro hc; cases hc
      · exact hp
    rw [hg1] at h1
    cases h1

theorem countP_le_of_imp {p q : Nat → Bool} (C : List Nat)
    (h : ∀ c ∈ C, p c = true → q c = true) : C.countP p ≤ C.countP q := by
  induction C with
  | nil => simp
  | cons a t ih =>
    have iht := ih (fun c hc => h c (List.mem_cons_of_mem _ hc))
    have ha := h a (List.mem_cons_self _ _)
    rw [List.countP_cons, List.countP_cons]
    cases hp : p a with
    | false =>
      simp only [Bool.false_eq_true, if_false, Nat.add_zero]
      omega
    | true =>
      rw [ha hp]
      simp only [if_true]
      omega

theorem countP_lt_of_imp {p q : Nat → Bool} (C : List Nat) (x : Nat) (hx : x ∈ C)
    (h : ∀ c ∈ C, p c = true → q c = true) (hq : q x = true) (hp : p x = false) :
    C.countP p + 1 ≤ C.countP q := by
  induction C with
  | nil => cases hx
  | cons a t ih =>
    rw [List.countP_cons, List.countP_cons]
    have ht := countP_le_of_imp t (fun c hc => h c (List.mem_cons_of_mem _ hc))
    by_cases hax : a = x
    · subst hax
      rw [hq, hp]
      simp only [if_true, Bool.false_eq_true, if_false, Nat.add_zero]
      omega
    · have hx' : x ∈ t := by
        rcases List.mem_cons.mp hx with e | e
        · exact absurd e.symm hax
        · exact e
      have iht := ih hx' (fun c hc => h c (List.mem_cons_of_mem _ hc))
      have ha := h a (List.mem_cons_self _ _)
      cases hpa : p a with
      | false =>
        simp only [Bool.false_eq_true, if_false, Nat.add_zero]
        omega
      | true =>
        rw [ha hpa]
        simp only [if_true]
        omega

/-- A round of the fixup loop does not raise the number of rewritable nodes. -/
theorem RoundFrame.potential_le {env : Env} {lirs lirs1 : List LIR}
    (h : RoundFrame env lirs lirs1) (C : List Nat) (hC : ∀ c ∈ C, c < lirs.length) :
    C.countP (rewritable env lirs1) ≤ C.countP (rewritable env lirs) :=
  countP_le_of_imp C (fun c hc => h.rewritable_mono c (hC c hc))

/-- A round of the fixup loop that takes the last rewriting of a node lowers the number of
rewritable nodes. -/
theorem RoundFrame.potential_lt {env : Env} {lirs lirs1 : List LIR}
    (h : RoundFrame env lirs lirs1) (C : List Nat) (hC : ∀ c ∈ C, c < lirs.length)
    (p : Nat) (hp : p ∈ C) (h0 : rewritable env lirs p = true)
    (h1 : rewritable env lirs1 p = false) :
    C.countP (rewritable env lirs1) + 1 ≤ C.countP (rewritable env lirs) :=
  countP_lt_of_imp C p hp (fun c hc => h.rewritable_mono c (hC c hc)) h0 h1

theorem RoundFrame.frame_same (env : Env) (lirs : List LIR) : RoundFrame env lirs lirs where
  keeps := fun _ r hr => ⟨r, hr, Or.inl rfl, fun _ _ => ⟨rfl, rfl⟩, Or.inl rfl⟩
  fresh := fun j r1 hj hr1 => by
    rw [List.getElem?_eq_none hj] at hr1
    cases hr1
/-- The four effects that the `switch` of a round can have, with the kind of the node for
the three rewritings, the reason of the insertion of a `nop`, and the opcode of the node,
which only the replacement of a `tbz/tbnz` changes. -/
theorem fixupSwitch_effect {env : Env} {fuel generation : Nat} {m : Mir2Lir}
    {loc : FixupLocals} {p : Nat} {r : LIR} {res : Mir2Lir × FixupLocals × Bool}
    (hr : m.lirs[p]? = some r)
    (h : fixupSwitch env fuel generation m loc p r.flags.fixup = .ok res)
    (hprev : loc.prev_lir ≠ some m.lirs.length) :
    (∃ r1, r1.layout = r.layout ∧ r1.opcode.base = r.opcode.base ∧
      res = ({ m with lirs := m.lirs.set p r1 }, loc, false)) ∨
    (∃ r1, r.flags.fixup = kFixupT1Branch ∧ r1.opcode.base = r.opcode.base ∧
      r1.layout = { r.layout with is_nop := true, fixup := kFixupNone } ∧
      res = ({ m with lirs := m.lirs.set p r1 },
        { loc with offset_adjustment := loc.offset_adjustment - r.flags.size,
                   res := .kRetryAll }, false)) ∨
    (r.flags.fixup = kFixupTBxZ ∧ ∃ rN, rN.layout = r.layout ∧
      res = ({ m with
               lirs := widenedArena env generation loc.prev_lir p r.opcode
                 (m.lirs.set p rN) rN,
               first_fixup_ :=
                 if loc.prev_lir = none then some m.lirs.length else m.first_fixup_ },
        { offset_adjustment := loc.offset_adjustment - r.flags.size + 8,
          res := .kRetryAll, prev_lir := some m.lirs.length, lir := r.pcrel_next }, true)) ∨
    (r.flags.fixup = kFixupA53Erratum835769 ∧ (∃ q, r.prev = some q) ∧
      (∃ q prev op, prevEmittingFrom m.lirs fuel r.prev = .ok (some q) ∧
        m.lirs[q]? = some prev ∧ UNWIDE prev.opcode = .insn op ∧
        isLoadOrStore env (EncodingMap op).flags = true) ∧
      res = ({ m with lirs := nopInsertedArena m.lirs p r },
        { loc with offset_adjustment := loc.offset_adjustment + 4, res := .kRetryAll },
        false)) := by
  have hself : ({ m with lirs := m.lirs.set p r } : Mir2Lir) = m := by
    rw [set_self_of_some hr]
  cases hk : r.flags.fixup <;> rw [hk] at h
  case kFixupNone =>
    left
    refine ⟨r, rfl, rfl, ?_⟩
    rw [hself]
    simp only [fixupSwitch, pure, Except.pure] at h
    injection h with h
    exact h.symm
  case kFixupLabel =>
    left
    refine ⟨r, rfl, rfl, ?_⟩
    rw [hself]
    simp only [fixupSwitch, pure, Except.pure] at h
    injection h with h
    exact h.symm
  case kFixupVLoad =>
    left
    refine ⟨r, rfl, rfl, ?_⟩
    rw [hself]
    simp only [fixupSwitch, pure, Except.pure] at h
    injection h with h
    exact h.symm
  case kFixupOther =>
    simp only [fixupSwitch, throw, throwThe, MonadExceptOf.throw] at h
    cases h
  case kFixupT1Branch =>
    simp only [fixupSwitch] at h
    obtain ⟨a, h1, h2⟩ := bind_ok h
    simp only [pure, Except.pure] at h2
    injection h2 with h2
    subst h2
    cases hd : fixupDelta env m.lirs r loc.offset_adjustment with
    | error e =>
      exfalso
      unfold fixupT1Branch at h1
      simp only [getLIR_some hr, bind, Except.bind, hd] at h1
      cases h1
    | ok d =>
      rw [fixupT1Branch_eq env m loc p r d hr hd] at h1
      split at h1
      · split at h1
        · right
          left
          injection h1 with h1
          subst h1
          exact ⟨{ r with operands := r.operands.set 0 (asr d 2),
                          flags := { r.flags with is_nop := true, fixup := kFixupNone } },
            rfl, rfl, rfl, rfl⟩
        · left
          injection h1 with h1
          subst h1
          exact ⟨{ r with operands := r.operands.set 0 (asr d 2) }, rfl, rfl, rfl⟩
      · cases h1
  case kFixupLoad =>
    simp only [fixupSwitch] at h
    obtain ⟨a, h1, h2⟩ := bind_ok h
    simp only [pure, Except.pure] at h2
    injection h2 with h2
    subst h2
    cases hd : fixupDelta env m.lirs r loc.offset_adjustment with
    | error e =>
      exfalso
      unfold fixupCondBranch at h1
      simp only [getLIR_some hr, bind, Except.bind, hd] at h1
      cases h1
    | ok d =>
      rw [fixupCondBranch_eq env m loc p r d hr hd] at h1
      split at h1
      · left
        injection h1 with h1
        subst h1
        exact ⟨{ r with operands := r.operands.set 1 (asr d 2) }, rfl, rfl, rfl⟩
      · cases h1
  case kFixupCBxZ =>
    simp only [fixupSwitch] at h
    obtain ⟨a, h1, h2⟩ := bind_ok h
    simp only [pure, Except.pure] at h2
    injection h2 with h2
    subst h2
    cases hd : fixupDelta env m.lirs r loc.offset_adjustment with
    | error e =>
      exfalso
      unfold fixupCondBranch at h1
      simp only [getLIR_some hr, bind, Except.bind, hd] at h1
      cases h1
    | ok d =>
      rw [fixupCondBranch_eq env m loc p r d hr hd] at h1
      split at h1
      · left
        injection h1 with h1
        subst h1
        exact ⟨{ r with operands := r.operands.set 1 (asr d 2) }, rfl, rfl, rfl⟩
      · cases h1
  case kFixupCondBranch =>
    simp only [fixupSwitch] at h
    obtain ⟨a, h1, h2⟩ := bind_ok h
    simp only [pure, Except.pure] at h2
    injection h2 with h2
    subst h2
    cases hd : fixupDelta env m.lirs r loc.offset_adjustment with
    | error e =>
      exfalso
      unfold fixupCondBranch at h1
      simp only [getLIR_some hr, bind, Except.bind, hd] at h1
      cases h1
    | ok d =>
      rw [fixupCondBranch_eq env m loc p r d hr hd] at h1
      split at h1
      · left
        injection h1 with h1
        subst h1
        exact ⟨{ r with operands := r.operands.set 1 (asr d 2) }, rfl, rfl, rfl⟩
      · cases h1
  case kFixupAdr =>
    simp only [fixupSwitch] at h
    obtain ⟨a, h1, h2⟩ := bind_ok h
    simp only [pure, Except.pure] at h2
    injection h2 with h2
    subst h2
    cases hd : adrDelta m r loc.offset_adjustment with
    | error e =>
      exfalso
      unfold fixupAdr at h1
      simp only [getLIR_some hr, bind, Except.bind, hd] at h1
      cases h1
    | ok d =>
      rw [fixupAdr_eq m loc p r d hr hd] at h1
      split at h1
      · left
        injection h1 with h1
        subst h1
        exact ⟨{ r with operands := r.operands.set 1 d }, rfl, rfl, rfl⟩
      · cases h1
  case kFixupTBxZ =>
    simp only [fixupSwitch] at h
    obtain ⟨m1, loc1, c⟩ := res
    obtain ⟨d, _, hcase⟩ := fixupTBxZ_ok h hr hprev
    rcases hcase with ⟨_, hm1, hloc1, hc⟩ | ⟨_, hm1, hloc1, hc, _, _⟩
    · left
      refine ⟨{ tbxzNarrowed env r with
                operands := (tbxzNarrowed env r).operands.set 2 (asr d 2) }, ?_, ?_,
        by rw [hm1, hloc1, hc]⟩
      · exact tbxzNarrowed_layout env r
      · have hread := (readOf_tbxzNarrowed env r).1
        simp only [readOf, Prod.mk.injEq] at hread
        exact hread.2.2.2
    · right
      right
      left
      refine ⟨rfl, tbxzNarrowed env r, tbxzNarrowed_layout env r, ?_⟩
      rw [hm1, hloc1, hc]
      have e1 : (EncodingMap kA64Tst2rl).size = 4 := by decide
      have e2 : (EncodingMap kA64B2ct).size = 4 := by decide
      rw [e1, e2]
      have e3 : loc.offset_adjustment - (r.flags.size : Int) + ((4 : Nat) : Int) + ((4 : Nat) : Int)
          = loc.offset_adjustment - r.flags.size + 8 := by
        push_cast
        ring
      rw [e3]
  case kFixupA53Erratum835769 =>
    simp only [fixupSwitch] at h
    obtain ⟨a, h1, h2⟩ := bind_ok h
    simp only [pure, Except.pure] at h2
    injection h2 with h2
    subst h2
    obtain ⟨m1, loc1⟩ := a
    rcases fixupA53_ok h1 hr with ⟨hm1, hloc1, _⟩ |
      ⟨_, _, ⟨q, prev, op, hq, hq2, hq3, hq4⟩, hm1, hloc1, _⟩
    · left
      refine ⟨r, rfl, rfl, ?_⟩
      rw [hself, hm1, hloc1]
    · right
      right
      right
      have hsome : ∃ q0, r.prev = some q0 := by
        cases hp : r.prev with
        | none =>
          rw [hp] at hq
          cases fuel <;> simp [prevEmittingFrom] at hq
        | some q0 => exact ⟨q0, rfl⟩
      refine ⟨rfl, hsome, ⟨q, prev, op, hq, hq2, hq3, hq4⟩, ?_⟩
      rw [hm1, hloc1]
      have e1 : (EncodingMap kA64Nop0).size = 4 := by decide
      rw [e1]
      rfl
/-- The opcode of a record, up to the width. -/
theorem map_replacedFixup {β : Type} (g : LIR → β) (lirs : List LIR) (c : Option Nat)
    (a b j : Nat) (nx : Option Nat)
    (hg : ∀ (l : LIR) (x : Option Nat), g { l with pcrel_next := x } = g l)
    (hf : ∀ (l : LIR), g { l with flags := { l.flags with fixup := kFixupNone } } = g l) :
    ((replacedFixup lirs c a b nx)[j]?).map g = (lirs[j]?).map g := by
  unfold replacedFixup
  cases c with
  | none =>
    dsimp only
    refine (map_updAt_of_preserve g _ _ _ _ hf).trans ?_
    exact map_updAt_of_preserve g _ _ _ _ (fun l => hg l _)
  | some c =>
    dsimp only
    refine (map_updAt_of_preserve g _ _ _ _ hf).trans ?_
    refine (map_updAt_of_preserve g _ _ _ _ (fun l => hg l _)).trans ?_
    exact map_updAt_of_preserve g _ _ _ _ (fun l => hg l _)

/-- The opcodes in the arena after the replacement of a `tbz/tbnz`: the new record is a
conditional branch, and the records other than the node keep their opcodes. -/
theorem base_widenedArena (env : Env) (generation : Nat) (prev : Option Nat) (p : Nat)
    (opcode : Opcode) (lirs : List LIR) (r : LIR) (j : Nat) (hjp : j ≠ p) :
    ((widenedArena env generation prev p opcode lirs r)[j]?).map (fun l => l.opcode.base)
      = if j = lirs.length then some (.insn kA64B2ct)
        else (lirs[j]?).map (fun l => l.opcode.base) := by
  unfold widenedArena
  dsimp only
  refine (map_replacedFixup (fun l : LIR => l.opcode.base) _ _ _ _ _ _ ?_ ?_).trans ?_
  · intro l x; rfl
  · intro l; rfl
  refine (map_updAt_of_preserve (fun l : LIR => l.opcode.base) _ _ _ _ ?_).trans ?_
  · intro l; rfl
  refine (map_insertedAfter (fun l : LIR => l.opcode.base) _ _ _ _ _ ?_).trans ?_
  · intro l x y; rfl
  rw [getElem?_updAt_append]
  by_cases hj : j = lirs.length
  · rw [if_pos hj, if_pos hj]
    rfl
  · rw [if_neg hj, if_neg hj, if_neg hjp]

/-- The opcodes in the arena after the insertion of a `nop`: the new record is a `nop`, and
the other records keep their opcodes. -/
theorem base_nopInsertedArena (lirs : List LIR) (p : Nat) (r : LIR) (j : Nat) :
    ((nopInsertedArena lirs p r)[j]?).map (fun l => l.opcode.base)
      = if j = lirs.length then some (.insn kA64Nop0)
        else (lirs[j]?).map (fun l => l.opcode.base) := by
  unfold nopInsertedArena
  dsimp only
  refine (map_updAt_of_preserve (fun l : LIR => l.opcode.base) _ _ _ _ ?_).trans ?_
  · intro l; rfl
  refine (map_insertedBefore (fun l : LIR => l.opcode.base) _ _ _ _ _ ?_).trans ?_
  · intro l x y; rfl
  refine (map_updAt_of_preserve (fun l : LIR => l.opcode.base) _ _ _ _ ?_).trans ?_
  · intro l; rfl
  by_cases hj : j = lirs.length
  · rw [if_pos hj, hj, getElem?_append_new]
    rfl
  · rw [if_neg hj]
    by_cases hlt : j < lirs.length
    · rw [getElem?_append_old _ _ hlt]
    · rw [getElem?_append_gt _ (by omega), List.getElem?_eq_none (by omega)]
theorem guarded_of_views {env : Env} {lirs : List LIR} {n : Nat} {ln : Layout} {op : A64Opcode}
    (hl : layoutOf lirs n = some ln) (hnop : ln.is_nop = false)
    (hk : ln.fixup = kFixupNone ∨ ln.fixup = kFixupCondBranch)
    (hb : (lirs[n]?).map (fun l => l.opcode.base) = some (.insn op))
    (hop : isLoadOrStore env (EncodingMap op).flags = false) :
    guarded env lirs (some n) = true := by
  obtain ⟨r, hr, hrl⟩ := layoutOf_get hl
  rw [hr] at hb
  simp only [Option.map_some', Option.some.injEq] at hb
  rw [guarded_iff]
  refine ⟨n, r, rfl, hr, ?_⟩
  rw [stableRec_iff]
  have h1 : r.flags.is_nop = ln.is_nop := by rw [← hrl]; rfl
  have h2 : r.flags.fixup = ln.fixup := by rw [← hrl]; rfl
  refine ⟨h1.trans hnop, ?_, ?_, op, hb, hop⟩
  · rw [h2]
    rcases hk with e | e <;> rw [e] <;> intro hc <;> cases hc
  · rw [h2]
    rcases hk with e | e <;> rw [e] <;> intro hc <;> cases hc

/-- The frame of a round that writes the record of its node only, keeping its opcode and
its link `prev`, and either its kind and its flag `is_nop` or eliding a `kFixupT1Branch`. -/
theorem RoundFrame.of_set {env : Env} {lirs : List LIR} {p : Nat} {r r1 : LIR}
    (hr : lirs[p]? = some r) (hprev : r1.prev = r.prev)
    (hbase : r1.opcode.base = r.opcode.base)
    (hk : (r1.flags.fixup = r.flags.fixup ∧ r1.flags.is_nop = r.flags.is_nop) ∨
      (r.flags.fixup = kFixupT1Branch ∧ r1.flags.fixup = kFixupNone)) :
    RoundFrame env lirs (lirs.set p r1) where
  keeps := by
    intro j q hq
    by_cases hj : j = p
    · subst hj
      rw [hr] at hq
      injection hq with hq
      subst hq
      refine ⟨r1, getElem?_set_self_of_some hr r1, ?_, ?_, Or.inl hprev⟩
      · rcases hk with ⟨e, _⟩ | ⟨_, e⟩
        · exact Or.inl e
        · exact Or.inr e
      · intro h1 _
        rcases hk with ⟨_, e⟩ | ⟨e, _⟩
        · exact ⟨e, hbase⟩
        · exact absurd e h1
    · refine ⟨q, ?_, Or.inl rfl, fun _ _ => ⟨rfl, rfl⟩, Or.inl rfl⟩
      rw [List.getElem?_set_ne (fun hc => hj hc.symm)]
      exact hq
  fresh := by
    intro j r1' hj hr1
    rw [List.getElem?_eq_none (by rw [List.length_set]; exact hj)] at hr1
    cases hr1

/-- The frame of a round, from the layouts and the opcodes of the two arenas. -/
theorem RoundFrame.of_views {env : Env} {lirs lirs1 : List LIR}
    (hlay : ∀ (j : Nat) (l : Layout), layoutOf lirs j = some l →
      ∃ l1, layoutOf lirs1 j = some l1 ∧
      (l1.fixup = l.fixup ∨ l1.fixup = kFixupNone) ∧
      (l.fixup ≠ kFixupT1Branch → l.fixup ≠ kFixupTBxZ → l1.is_nop = l.is_nop) ∧
      (l1.prev = l.prev ∨ guarded env lirs1 l1.prev = true))
    (hbase : ∀ (j : Nat) (r : LIR), lirs[j]? = some r → r.flags.fixup ≠ kFixupT1Branch →
      r.flags.fixup ≠ kFixupTBxZ →
      (lirs1[j]?).map (fun l => l.opcode.base) = some r.opcode.base)
    (hfresh : ∀ (j : Nat) (l1 : Layout), lirs.length ≤ j → layoutOf lirs1 j = some l1 →
      l1.fixup = kFixupNone ∨ l1.fixup = kFixupCondBranch) :
    RoundFrame env lirs lirs1 where
  keeps := by
    intro j r hr
    have hl : layoutOf lirs j = some r.layout := by
      unfold layoutOf
      rw [hr]
      rfl
    obtain ⟨l1, hl1, hk, hn, hp⟩ := hlay j _ hl
    obtain ⟨r1, hr1, hrl1⟩ := layoutOf_get hl1
    have e1 : r1.flags.fixup = l1.fixup := by rw [← hrl1]; rfl
    have e2 : r1.flags.is_nop = l1.is_nop := by rw [← hrl1]; rfl
    have e3 : r1.prev = l1.prev := by rw [← hrl1]; rfl
    refine ⟨r1, hr1, ?_, ?_, ?_⟩
    · rw [e1]
      exact hk
    · intro h1 h2
      refine ⟨by rw [e2]; exact hn h1 h2, ?_⟩
      have := hbase j r hr h1 h2
      rw [hr1] at this
      simpa using this
    · rw [e3]
      exact hp
  fresh := by
    intro j r1 hj hr1
    have hl1 : layoutOf lirs1 j = some r1.layout := by
      unfold layoutOf
      rw [hr1]
      rfl
    exact hfresh j _ hj hl1

/-- The layouts after the replacement of a `tbz/tbnz`, as far as the frame of the round is
concerned. -/
theorem widenedLayout_frame (L : Nat → Option Layout) {n p j : Nat} (l l0 : Layout) (d : Int)
    (prev : Option Nat) (hp : L p = some l) (hk : l.fixup = kFixupTBxZ) (hj : L j = some l0)
    (hjn : j ≠ n) :
    ∃ l1, widenedLayout L n p l d prev j = some l1 ∧
      (l1.fixup = l0.fixup ∨ l1.fixup = kFixupNone) ∧
      (l0.fixup ≠ kFixupT1Branch → l0.fixup ≠ kFixupTBxZ → l1.is_nop = l0.is_nop) ∧
      (l1.prev = l0.prev ∨ l1.prev = some n) := by
  unfold widenedLayout
  rw [if_neg hjn]
  by_cases h1 : j = p
  · subst h1
    rw [hp] at hj
    injection hj with hj
    subst hj
    rw [if_pos rfl]
    exact ⟨_, rfl, Or.inr rfl, fun _ h2 => absurd hk h2, Or.inl rfl⟩
  · rw [if_neg h1, hj]
    split_ifs
    · exact ⟨_, rfl, Or.inl rfl, fun _ _ => rfl, Or.inr rfl⟩
    · exact ⟨_, rfl, Or.inl rfl, fun _ _ => rfl, Or.inl rfl⟩
    · exact ⟨_, rfl, Or.inl rfl, fun _ _ => rfl, Or.inl rfl⟩

/-- The layouts after the insertion of a `nop`, as far as the frame of the round is
concerned. -/
theorem nopInsertedLayout_frame (L : Nat → Option Layout) {n p j : Nat} (l l0 : Layout)
    (d : Int) (hp : L p = some l) (hj : L j = some l0) (hjn : j ≠ n) :
    ∃ l1, nopInsertedLayout L n p l d j = some l1 ∧
      (l1.fixup = l0.fixup ∨ l1.fixup = kFixupNone) ∧
      (l0.fixup ≠ kFixupT1Branch → l0.fixup ≠ kFixupTBxZ → l1.is_nop = l0.is_nop) ∧
      (l1.prev = l0.prev ∨ l1.prev = some n) := by
  unfold nopInsertedLayout
  rw [if_neg hjn]
  by_cases h1 : j = p
  · subst h1
    rw [hp] at hj
    injection hj with hj
    subst hj
    rw [if_pos rfl]
    exact ⟨_, rfl, Or.inl rfl, fun _ _ => rfl, Or.inr rfl⟩
  · rw [if_neg h1, hj]
    split_ifs
    · exact ⟨_, rfl, Or.inl rfl, fun _ _ => rfl, Or.inl rfl⟩
    · exact ⟨_, rfl, Or.inl rfl, fun _ _ => rfl, Or.inl rfl⟩

/-- A guarded pointer leads `GetPrevEmittingLIR` to a record that is no load or store. -/
theorem guarded_stops {env : Env} {lirs : List LIR} {fuel : Nat} {s : Option Nat} {q : Nat}
    (hg : guarded env lirs s = true) (h : prevEmittingFrom lirs fuel s = .ok (some q)) :
    ∃ rq, lirs[q]? = some rq ∧ stableRec env rq = true := by
  obtain ⟨i, rq, hs, hrq, hst⟩ := (guarded_iff env lirs s).mp hg
  subst hs
  obtain ⟨s1, _, _, op, s4, _⟩ := (stableRec_iff env rq).mp hst
  cases fuel with
  | zero => cases h
  | succ f =>
    unfold prevEmittingFrom at h
    rw [hrq] at h
    dsimp only at h
    have hc : (rq.flags.is_nop || IsPseudoLirOp (UNWIDE rq.opcode)) = false := by
      rw [s1, UNWIDE, s4]
      rfl
    rw [hc] at h
    simp only [Bool.false_eq_true, if_false] at h
    injection h with h
    injection h with h
    subst h
    exact ⟨rq, hrq, hst⟩
theorem rewritable_of_kind {env : Env} {lirs : List LIR} {p : Nat} {r : LIR}
    (hr : lirs[p]? = some r)
    (hk : r.flags.fixup = kFixupT1Branch ∨ r.flags.fixup = kFixupTBxZ) :
    rewritable env lirs p = true := by
  unfold rewritable
  rw [hr]
  rcases hk with e | e <;> simp only [e]

theorem rewritable_unguarded {env : Env} {lirs : List LIR} {p : Nat} {r : LIR}
    (hr : lirs[p]? = some r) (hk : r.flags.fixup = kFixupA53Erratum835769)
    (hg : guarded env lirs r.prev = false) : rewritable env lirs p = true := by
  unfold rewritable
  rw [hr]
  simp only [hk, hg]
  rfl

theorem rewritable_of_none {env : Env} {lirs : List LIR} {p : Nat} {lp : Layout}
    (hl : layoutOf lirs p = some lp) (hk : lp.fixup = kFixupNone) :
    rewritable env lirs p = false := by
  obtain ⟨r, hr, hrl⟩ := layoutOf_get hl
  have e : r.flags.fixup = kFixupNone := by rw [← hk, ← hrl]; rfl
  unfold rewritable
  rw [hr]
  simp only [e]

theorem rewritable_guarded {env : Env} {lirs : List LIR} {p : Nat} {lp : Layout}
    (hl : layoutOf lirs p = some lp) (hk : lp.fixup = kFixupA53Erratum835769)
    (hg : guarded env lirs lp.prev = true) : rewritable env lirs p = false := by
  obtain ⟨r, hr, hrl⟩ := layoutOf_get hl
  have e : r.flags.fixup = kFixupA53Erratum835769 := by rw [← hk, ← hrl]; rfl
  have e2 : r.prev = lp.prev := by rw [← hrl]; rfl
  unfold rewritable
  rw [hr]
  simp only [e, e2, hg]
  rfl

theorem mem_chainOf_snoc {c p : Nat} {ma : List (Nat × Bool)}
    (h : c ∈ chainOf (ma ++ [(p, true)])) : c ∈ chainOf ma ∨ c = p := by
  rw [chainOf_append, chainOf_cons_true] at h
  simpa [chainOf] using h

theorem mem_chainOf_snoc_widen {c p n : Nat} {ma : List (Nat × Bool)}
    (h : c ∈ chainOf (ma ++ [(p, false), (n, true)])) : c ∈ chainOf ma ∨ c = n := by
  rw [chainOf_append, chainOf_cons_false, chainOf_cons_true] at h
  simpa [chainOf] using h

theorem mem_chainOf_snoc_nop {c p n : Nat} {ma : List (Nat × Bool)}
    (h : c ∈ chainOf (ma ++ [(n, false), (p, true)])) : c ∈ chainOf ma ∨ c = p := by
  rw [chainOf_append, chainOf_cons_false, chainOf_cons_true] at h
  simpa [chainOf] using h
theorem rewritable_kind {env : Env} {lirs : List LIR} {j : Nat}
    (h : rewritable env lirs j = true) : hasRewriteKind lirs j = true := by
  unfold rewritable at h
  unfold hasRewriteKind
  cases hr : lirs[j]? with
  | none => rw [hr] at h; cases h
  | some r =>
    rw [hr] at h
    dsimp only at h ⊢
    cases hk : r.flags.fixup <;> rw [hk] at h <;> first | rfl | cases h

/-- A round of the fixup loop gives no record a kind that can rewrite the stream. -/
theorem RoundFrame.kind_mono {env : Env} {lirs lirs1 : List LIR}
    (h : RoundFrame env lirs lirs1) (c : Nat) (h0 : hasRewriteKind lirs c = false) :
    hasRewriteKind lirs1 c = false := by
  unfold hasRewriteKind at h0 ⊢
  cases hr : lirs[c]? with
  | some r =>
    rw [hr] at h0
    obtain ⟨r1, hr1, hk, _⟩ := h.keeps c r hr
    rw [hr1]
    dsimp only at h0 ⊢
    rcases hk with e | e
    · rw [e]
      exact h0
    · rw [e]
      rfl
  | none =>
    cases hr1 : lirs1[c]? with
    | none => rfl
    | some r1 =>
      have hc : lirs.length ≤ c := List.getElem?_eq_none_iff.mp hr
      dsimp only
      rcases h.fresh c r1 hc hr1 with e | e <;> rw [e] <;> rfl

theorem fixupPass_not_retries (env : Env) (generation fuel : Nat) (m : Mir2Lir)
    (loc : FixupLocals) :
    fixupPass env generation fuel m loc
      ≠ .error (.fatal "Assembler error - too many retries") := by
  intro h
  rcases (fixupPass_error_iff env generation _ fuel m loc).mp h with
    ⟨f', m', loc', p, _, _, hs⟩ | ⟨he, _⟩
  · have hv := fixupStep_fatal env (f' + 1) generation m' loc' p _ hs (by decide)
    obtain ⟨r, d, _, hcase⟩ := hv
    rcases hcase with ⟨_, _, _, e⟩ | ⟨_, _, _, e⟩ | ⟨_, _, _, e⟩ <;>
      exact absurd e (by decide)
  · cases he
theorem PcrelPath.path_unique {lirs : List LIR} :
    ∀ {a b : List Nat} {p : Option Nat}, PcrelPath lirs p a → PcrelPath lirs p b → a = b := by
  intro a
  induction a with
  | nil =>
    intro b p ha hb
    cases b with
    | nil => rfl
    | cons j t =>
      have h1 : p = none := ha
      have h2 : p = some j := hb.1
      rw [h1] at h2
      cases h2
  | cons i s ih =>
    intro b p ha hb
    obtain ⟨hp, r, hr, hs⟩ := ha
    cases b with
    | nil =>
      have h1 : p = none := hb
      rw [h1] at hp
      cases hp
    | cons j t =>
      obtain ⟨hq, r', hr', ht⟩ := hb
      rw [hp] at hq
      injection hq with hq
      subst hq
      rw [hr] at hr'
      injection hr' with hr'
      subst hr'
      rw [ih hs ht]

theorem PcrelPath.in_arena {lirs : List LIR} :
    ∀ {a : List Nat} {p : Option Nat}, PcrelPath lirs p a → ∀ c ∈ a, c < lirs.length := by
  intro a
  induction a with
  | nil => intro p _ c hc; cases hc
  | cons i s ih =>
    intro p ha c hc
    obtain ⟨_, r, hr, hs⟩ := ha
    rcases List.mem_cons.mp hc with e | e
    · subst e
      by_contra hlt
      rw [List.getElem?_eq_none (by omega)] at hr
      cases hr
    · exact ih hs c e

/-- The invariant of the loop holds when the loop is entered, for the nodes of the fixup
chain at that point. -/
theorem LoopInv.loop_start {m : Mir2Lir} {chain : List Nat} (hinv : ChainInv m)
    (hchain : PcrelPath m.lirs m.first_fixup_ chain) : LoopInv chain m := by
  obtain ⟨marked, h1, h2, h3, h4, h5⟩ := hinv
  have e : chainOf marked = chain := PcrelPath.path_unique (Seg.pcrelPath h2) hchain
  exact ⟨⟨marked, h1, h2, h3, h4, h5, fun c hc => Or.inl (e ▸ hc)⟩,
    PcrelPath.in_arena hchain⟩

theorem potential_le_kinds (env : Env) (lirs : List LIR) (C : List Nat) :
    C.countP (rewritable env lirs) ≤ C.countP (hasRewriteKind lirs) :=
  countP_le_of_imp C (fun _ _ h => rewritable_kind h)
/-! ## C37: the checks of `EncodeBranchOffset` -/

/-- C37. For every `int` offset and every instruction word,
`Arm32Assembler::EncodeBranchOffset(offset, inst)` fails one of its two checks exactly when
`offset - 8` is not a multiple of 4 or lies outside the signed 24-bit range
`[-2 ^ 23, 2 ^ 23)` of byte offsets. For every other offset it returns a word, and the
displacement is not truncated: `DecodeBranchOffset` of the returned word is `offset`, and
the bits of `inst` above the 24 offset bits are kept. When it fails, the failure is the
fatal error of `CHECK_ALIGNED` or of the range `CHECK`. -/
theorem EncodeBranchOffset_fails_iff (offset : Int) (inst : Nat)
    (hlo : -2147483648 ≤ offset) (hhi : offset < 2147483648) :
    ((∃ e, Arm32Assembler.EncodeBranchOffset offset inst = .error e) ↔
      ((offset - 8) % 4 ≠ 0 ∨ offset - 8 < -8388608 ∨ 8388608 ≤ offset - 8)) ∧
    (¬ ((offset - 8) % 4 ≠ 0 ∨ offset - 8 < -8388608 ∨ 8388608 ≤ offset - 8) →
      ∃ w, Arm32Assembler.EncodeBranchOffset offset inst = .ok w ∧
        Arm32Assembler.DecodeBranchOffset w = offset ∧
        w / 16777216 = inst / 16777216 % 256) ∧
    (∀ e, Arm32Assembler.EncodeBranchOffset offset inst = .error e →
      e = .fatal "CHECK_ALIGNED(offset, 4)" ∨
      e = .fatal "CHECK(IsInt(POPCOUNT(kBranchOffsetMask), offset))") := by
  have hok : ¬ ((offset - 8) % 4 ≠ 0 ∨ offset - 8 < -8388608 ∨ 8388608 ≤ offset - 8) →
      ∃ w, Arm32Assembler.EncodeBranchOffset offset inst = .ok w ∧
        Arm32Assembler.DecodeBranchOffset w = offset ∧
        w / 16777216 = inst / 16777216 % 256 := by
    intro h
    have ha : (offset - 8) % 4 = 0 := by omega
    have h1 : -8388608 ≤ offset - 8 := by omega
    have h2 : offset - 8 < 8388608 := by omega
    refine ⟨_, EncodeBranchOffset_eq offset inst ha h1 h2, ?_, ?_⟩
    · rw [DecodeBranchOffset_eq _ ((offset - 8) / 4) (by omega) (by omega)]
      omega
    · have hf : ((offset - 8) / 4 % 16777216).toNat < 16777216 := by omega
      omega
  have hcases := EncodeBranchOffset_cases offset inst
  refine ⟨⟨fun ⟨e, he⟩ => ?_, fun h => ?_⟩, hok, fun e he => ?_⟩
  · by_contra hn
    obtain ⟨w, hw, _⟩ := hok hn
    rw [hw] at he
    cases he
  · rw [hcases]
    by_cases ha : wrapI32 (offset - 8) % 4 = 0
    · rw [if_pos ha]
      by_cases hr : -8388608 ≤ wrapI32 (offset - 8) ∧ wrapI32 (offset - 8) < 8388608
      · exfalso
        unfold wrapI32 at ha hr
        omega
      · rw [if_neg hr]
        exact ⟨_, rfl⟩
    · rw [if_neg ha]
      exact ⟨_, rfl⟩
  · rw [hcases] at he
    split_ifs at he
    · injection he with he
      exact Or.inr he.symm
    · injection he with he
      exact Or.inl he.symm

theorem EncodeBranchOffset_fails_iff_witness :
    Arm32Assembler.EncodeBranchOffset 8388616 0xea000000
      = .error (.fatal "CHECK(IsInt(POPCOUNT(kBranchOffsetMask), offset))") ∧
    Arm32Assembler.EncodeBranchOffset 10 0xea000000
      = .error (.fatal "CHECK_ALIGNED(offset, 4)") ∧
    Arm32Assembler.EncodeBranchOffset 8388612 0xea000000 = .ok 0xea1fffff ∧
    ((∃ e, Arm32Assembler.EncodeBranchOffset 8388616 0xea000000 = .error e) ↔
      (((8388616 : Int) - 8) % 4 ≠ 0 ∨ (8388616 : Int) - 8 < -8388608 ∨
        8388608 ≤ (8388616 : Int) - 8)) :=
  ⟨by decide, by decide, by decide,
    (EncodeBranchOffset_fails_iff 8388616 0xea000000 (by decide) (by decide)).1⟩
/-! ## C40: the skeletons given to `FLOAT_VARIANTS` -/

theorem encodeInsn_args {cfg : BuildConfig} {lir : LIR} {op : A64Opcode} {w : Nat}
    (hw : encodeInsn cfg lir op = .ok w) :
    encodeArgs cfg (EncodingMap op) lir (IS_WIDE lir.opcode) 4 0
      (if IS_WIDE lir.opcode then (EncodingMap op).xskeleton else (EncodingMap op).wskeleton)
        = .ok w := by
  unfold encodeInsn at hw
  dsimp only at hw
  split at hw
  · cases hw
  · split at hw
    · cases hw
    · rename_i bits hb
      split at hw
      · cases hw
      · injection hw with hw
        rw [← hw]
        exact hb

/-- A bit of the word that no field of the entry can set is the bit of the skeleton. -/
theorem encodeInsn_free_bit {cfg : BuildConfig} {lir : LIR} {op : A64Opcode} {w : Nat}
    (k : Nat) (hw : encodeInsn cfg lir op = .ok w)
    (hfree : ∀ loc ∈ (EncodingMap op).field_loc,
      loc.rangeOk = true ∧ loc.touchMask.testBit k = false) :
    w.testBit k = (if IS_WIDE lir.opcode then (EncodingMap op).xskeleton
      else (EncodingMap op).wskeleton).testBit k := by
  have ha := encodeInsn_args hw
  cases hb : (if IS_WIDE lir.opcode then (EncodingMap op).xskeleton
      else (EncodingMap op).wskeleton).testBit k with
  | true => exact encodeArgs_mono cfg _ lir _ 4 0 _ w ha k hb
  | false =>
    cases hwk : w.testBit k with
    | false => rfl
    | true =>
      exfalso
      rcases encodeArgs_upper cfg _ lir _ 4 0 _ w ha k hwk with h1 | ⟨j, loc, _, _, hloc, hv⟩
      · rw [hb] at h1
        cases h1
      · have hmem : loc ∈ (EncodingMap op).field_loc := List.getElem?_mem hloc
        obtain ⟨hr, ht⟩ := hfree loc hmem
        have := argValue_touchMask loc hr _ k hv
        rw [ht] at this
        cases this

theorem floatVariant_free_bit (op : A64Opcode) (hop : op ∈ floatVariantOpcodes) :
    ∀ loc ∈ (EncodingMap op).field_loc,
      loc.rangeOk = true ∧ loc.touchMask.testBit 22 = false := by
  have h : ((EncodingMap op).field_loc.all fun loc =>
      loc.rangeOk && !loc.touchMask.testBit 22) = true := by
    revert op
    decide
  intro loc hloc
  have := List.all_eq_true.mp h loc hloc
  simpa using this

/-- In a build without the register checks of the debug build, the outcome of the operand
encoder depends on the width of the opcode through the skeleton only. -/
theorem encodeInsn_same_skeleton (cfg : BuildConfig) (hd : cfg.kIsDebugBuild = false)
    (lir : LIR) (op : A64Opcode) (base : OpcodeBase)
    (hs : (EncodingMap op).xskeleton = (EncodingMap op).wskeleton)
    (hwide : IS_WIDE (EncodingMap op).opcode = true) :
    encodeInsn cfg { lir with opcode := ⟨base, true⟩ } op
      = encodeInsn cfg { lir with opcode := ⟨base, false⟩ } op := by
  have hargs : ∀ (n i bits : Nat),
      encodeArgs cfg (EncodingMap op) { lir with opcode := ⟨base, true⟩ } true n i bits
        = encodeArgs cfg (EncodingMap op) { lir with opcode := ⟨base, false⟩ } false n i
            bits := by
    intro n
    induction n with
    | zero => intro i bits; rfl
    | succ n ih =>
      intro i bits
      unfold encodeArgs
      have : encodeArg cfg (EncodingMap op) { lir with opcode := ⟨base, true⟩ } true i bits
          = encodeArg cfg (EncodingMap op) { lir with opcode := ⟨base, false⟩ } false i
              bits := by
        unfold encodeArg regCheck
        simp only [hd, Bool.false_and]
        rfl
      rw [this]
      cases encodeArg cfg (EncodingMap op) { lir with opcode := ⟨base, false⟩ } false i
          bits with
      | error e => rfl
      | ok s =>
        cases s with
        | done b => rfl
        | next b => exact ih (i + 1) b
  simp only [encodeInsn, IS_WIDE, hs, if_true, hargs, DCHECK]
  have hw2 : (EncodingMap op).opcode.wide = true := hwide
  simp [hw2]

/-- C40. Every entry of the table with `FLOAT_VARIANTS` has the skeletons that the macro
builds. For every such entry but `kA64Fsqrt2ff`, bits `[23:22]` of the skeleton given to the
macro are 00, the wide skeleton is the 32-bit skeleton with bit 22 added, and the two forms
encode to different words whatever their operands: bit 22 is set in the word of the wide
form and clear in the word of the other form. The entry `kA64Fsqrt2ff` is given the
skeleton `0x1e61c000`, whose bits `[23:22]` are 01: its two skeletons are equal, and in a
build without the register checks of the debug build its two forms encode alike, to the
word of the double-precision instruction. -/
theorem float_variants_type_bits :
    (∀ op ∈ floatVariantOpcodes,
      ((EncodingMap op).wskeleton, (EncodingMap op).xskeleton)
        = FLOAT_VARIANTS (EncodingMap op).wskeleton) ∧
    (∀ op ∈ floatVariantOpcodes, op ≠ kA64Fsqrt2ff →
      readField (EncodingMap op).wskeleton 22 23 = 0 ∧
      (EncodingMap op).xskeleton = (EncodingMap op).wskeleton + 4194304 ∧
      ∀ (cfg : BuildConfig) (l1 l2 : LIR) (w1 w2 : Nat),
        IS_WIDE l1.opcode = true → IS_WIDE l2.opcode = false →
        encodeInsn cfg l1 op = .ok w1 → encodeInsn cfg l2 op = .ok w2 →
        w1.testBit 22 = true ∧ w2.testBit 22 = false ∧ w1 ≠ w2) ∧
    ((EncodingMap kA64Fsqrt2ff).wskeleton = 0x1e61c000 ∧
      readField (EncodingMap kA64Fsqrt2ff).wskeleton 22 23 = 1 ∧
      (EncodingMap kA64Fsqrt2ff).xskeleton = (EncodingMap kA64Fsqrt2ff).wskeleton ∧
      (∀ (cfg : BuildConfig) (lir : LIR), cfg.kIsDebugBuild = false →
        encodeInsn cfg { lir with opcode := WIDE kA64Fsqrt2ff } kA64Fsqrt2ff
          = encodeInsn cfg { lir with opcode := kA64Fsqrt2ff } kA64Fsqrt2ff) ∧
      encodeInsn releaseConfig (mkLIR kA64Fsqrt2ff 0 1 0 0) kA64Fsqrt2ff = .ok 0x1e61c020 ∧
      encodeInsn releaseConfig (mkLIR (WIDE kA64Fsqrt2ff) 0 1 0 0) kA64Fsqrt2ff
        = .ok 0x1e61c020) := by
  refine ⟨by decide, ?_, by decide, by decide, by decide, ?_, by decide, by decide⟩
  · intro op hop hne
    have hsk : readField (EncodingMap op).wskeleton 22 23 = 0 ∧
        (EncodingMap op).xskeleton = (EncodingMap op).wskeleton + 4194304 ∧
        (EncodingMap op).xskeleton.testBit 22 = true ∧
        (EncodingMap op).wskeleton.testBit 22 = false := by
      revert op
      decide
    refine ⟨hsk.1, hsk.2.1, fun cfg l1 l2 w1 w2 h1 h2 hw1 hw2 => ?_⟩
    have e1 := encodeInsn_free_bit 22 hw1 (floatVariant_free_bit op hop)
    have e2 := encodeInsn_free_bit 22 hw2 (floatVariant_free_bit op hop)
    rw [h1, if_pos rfl, hsk.2.2.1] at e1
    rw [h2, if_neg (by decide), hsk.2.2.2] at e2
    refine ⟨e1, e2, fun h => ?_⟩
    rw [h, e2] at e1
    cases e1
  · intro cfg lir hd
    exact encodeInsn_same_skeleton cfg hd lir kA64Fsqrt2ff (.insn kA64Fsqrt2ff) rfl rfl

theorem float_variants_type_bits_witness :
    encodeInsn releaseConfig (mkLIR kA64Fsqrt2ff 0 1 0 0) kA64Fsqrt2ff = .ok 0x1e61c020 ∧
    encodeInsn releaseConfig (mkLIR (WIDE kA64Fsqrt2ff) 0 1 0 0) kA64Fsqrt2ff
      = .ok 0x1e61c020 ∧
    encodeInsn releaseConfig (mkLIR kA64Fabs2ff 0 1 0 0) kA64Fabs2ff = .ok 0x1e20c020 ∧
    encodeInsn releaseConfig (mkLIR (WIDE kA64Fabs2ff) 0 1 0 0) kA64Fabs2ff
      = .ok 0x1e60c020 ∧
    (0x1e60c020 : Nat).testBit 22 = true ∧ (0x1e20c020 : Nat).testBit 22 = false :=
  have h := float_variants_type_bits.2.1 kA64Fabs2ff (by decide) (by decide)
  have h1 : encodeInsn releaseConfig (mkLIR kA64Fabs2ff 0 1 0 0) kA64Fabs2ff
      = .ok 0x1e20c020 := by decide
  have h2 : encodeInsn releaseConfig (mkLIR (WIDE kA64Fabs2ff) 0 1 0 0) kA64Fabs2ff
      = .ok 0x1e60c020 := by decide
  have h3 := h.2.2 releaseConfig (mkLIR (WIDE kA64Fabs2ff) 0 1 0 0) (mkLIR kA64Fabs2ff 0 1 0 0)
    _ _ rfl rfl h2 h1
  ⟨float_variants_type_bits.2.2.2.2.2.2.1, float_variants_type_bits.2.2.2.2.2.2.2, h1, h2,
    h3.1, h3.2.1⟩
/-! ## C39: the fields of an entry write disjoint bits -/

theorem table_fields_disjoint (op : A64Opcode) :
    ((List.range 4).all fun i => (List.range 4).all fun j =>
      i == j || (maskAt (EncodingMap op) 4 i &&& maskAt (EncodingMap op) 4 j == 0)) = true := by
  cases op <;> decide

theorem table_fields_tight (op : A64Opcode) :
    ((EncodingMap op).field_loc.all fun loc =>
      loc.rangeOk && (argValue loc 4294967295 == loc.touchMask)) = true := by
  cases op <;> decide

theorem table_fields_reached (op : A64Opcode) :
    ((List.range 4).all fun i =>
      maskAt (EncodingMap op) 4 i == 0 ||
        ((EncodingMap op).field_loc.take i).all (fun l => l.kind != kFmtUnused)) = true := by
  cases op <;> decide

theorem maskAt_none (e : A64EncodingMap) (i : Nat) (loc : FieldLoc)
    (hloc : e.field_loc[i]? = some loc) (hi : i < 4) : maskAt e 4 i = loc.touchMask := by
  unfold maskAt
  rw [if_neg (by omega), hloc]

theorem field_index_lt (op : A64Opcode) {i : Nat} {loc : FieldLoc}
    (hloc : (EncodingMap op).field_loc[i]? = some loc) : i < 4 := by
  have := (List.getElem?_eq_some_iff.mp hloc).1
  rwa [field_loc_length] at this

theorem table_touchMask_disjoint (op : A64Opcode) (i j : Nat) (loci locj : FieldLoc)
    (hij : i ≠ j) (hi : (EncodingMap op).field_loc[i]? = some loci)
    (hj : (EncodingMap op).field_loc[j]? = some locj) :
    loci.touchMask &&& locj.touchMask = 0 := by
  have hi4 := field_index_lt op hi
  have hj4 := field_index_lt op hj
  have h := table_fields_disjoint op
  rw [List.all_eq_true] at h
  have h1 := h i (List.mem_range.mpr hi4)
  rw [List.all_eq_true] at h1
  have h2 := h1 j (List.mem_range.mpr hj4)
  rw [maskAt_none _ i loci hi hi4, maskAt_none _ j locj hj hj4] at h2
  simpa [hij] using h2

theorem table_fields_rangeOk (op : A64Opcode) :
    ∀ loc ∈ (EncodingMap op).field_loc,
      loc.rangeOk = true ∧ argValue loc 4294967295 = loc.touchMask := by
  intro loc hloc
  have := List.all_eq_true.mp (table_fields_tight op) loc hloc
  simpa using this

/-- A bit of the mask of a field is set in the word exactly when it is set in the skeleton
or in the value of the operand of that field. -/
theorem encodeInsn_field_bit {op : A64Opcode} {cfg : BuildConfig} {lir : LIR} {w i : Nat}
    {loc : FieldLoc} {k : Nat} (hw : encodeInsn cfg lir op = .ok w)
    (hloc : (EncodingMap op).field_loc[i]? = some loc)
    (hk : loc.touchMask.testBit k = true) :
    w.testBit k =
      ((if IS_WIDE lir.opcode then (EncodingMap op).xskeleton
          else (EncodingMap op).wskeleton).testBit k ||
        (argValue loc (toU32 (lir.operands.get i))).testBit k) := by
  have htight := table_fields_rangeOk op
  have ha := encodeInsn_args hw
  have hi4 := field_index_lt op hloc
  cases hb : ((if IS_WIDE lir.opcode then (EncodingMap op).xskeleton
      else (EncodingMap op).wskeleton).testBit k ||
      (argValue loc (toU32 (lir.operands.get i))).testBit k) with
  | true =>
    rw [Bool.or_eq_true] at hb
    rcases hb with hb | hb
    · exact encodeArgs_mono cfg _ lir _ 4 0 _ w ha k hb
    · have hreach := table_fields_reached op
      rw [List.all_eq_true] at hreach
      have h1 := hreach i (List.mem_range.mpr hi4)
      rw [maskAt_none _ i loc hloc hi4, Bool.or_eq_true] at h1
      rcases h1 with h1 | h1
      · have hz : loc.touchMask = 0 := by simpa using h1
        rw [hz, Nat.zero_testBit] at hk
        cases hk
      · rw [List.all_eq_true] at h1
        refine encodeArgs_lower cfg _ lir _ i loc hloc (fun j2 l hj2 hl => ?_) 4 0 _ w ha
          (Nat.zero_le _) (by omega) k hb
        have hmem : l ∈ (EncodingMap op).field_loc.take i := by
          rw [List.mem_iff_getElem?]
          exact ⟨j2, by rw [List.getElem?_take_of_lt hj2]; exact hl⟩
        simpa using h1 l hmem
  | false =>
    rw [Bool.or_eq_false_iff] at hb
    cases hwk : w.testBit k with
    | false => rfl
    | true =>
      exfalso
      rcases encodeArgs_upper cfg _ lir _ 4 0 _ w ha k hwk with h1 | ⟨j, locj, _, _, hlocj, hv⟩
      · rw [hb.1] at h1
        cases h1
      · by_cases hji : j = i
        · subst hji
          rw [hloc] at hlocj
          injection hlocj with hlocj
          subst hlocj
          rw [hb.2] at hv
          cases hv
        · have hmem : locj ∈ (EncodingMap op).field_loc := List.getElem?_mem hlocj
          have hjk := argValue_touchMask locj (htight locj hmem).1 _ k hv
          have hd := table_touchMask_disjoint op j i locj loc hji hlocj hloc
          have : (locj.touchMask &&& loc.touchMask).testBit k = true := by
            rw [Nat.testBit_and, hjk, hk]
            rfl
          rw [hd, Nat.zero_testBit] at this
          cases this

/-- C39. Within every entry of `EncodingMap`, the sets of word bits that distinct operand
fields write are pairwise disjoint, where a simple field writes the bits `[start, end]`, a
`kFmtShift` or `kFmtExtend` field the bits `[15:10]` and `[23:21]`, a `kFmtImm21` field the
bits `[30:29]` and `[23:5]`, and a `kFmtImm6Shift` field the bits `[23:19]` and bit 31 (the
masks `touchMask`; a field writes no bit outside its mask, and the operand of all ones
writes every bit of it). Hence each operand is read back independently of the others:
whenever the operand encoder builds a word, each bit of the mask of a field is set in the
word exactly when it is set in the skeleton or in the value of the operand of that field,
whatever the other operands are. -/
theorem field_bits_disjoint (op : A64Opcode) :
    (∀ (i j : Nat) (loci locj : FieldLoc), i ≠ j →
      (EncodingMap op).field_loc[i]? = some loci →
      (EncodingMap op).field_loc[j]? = some locj →
      loci.touchMask &&& locj.touchMask = 0) ∧
    (∀ loc ∈ (EncodingMap op).field_loc,
      argValue loc 4294967295 = loc.touchMask ∧
      ∀ operand k : Nat, (argValue loc operand).testBit k = true →
        loc.touchMask.testBit k = true) ∧
    (∀ (cfg : BuildConfig) (lir : LIR) (w i : Nat) (loc : FieldLoc) (k : Nat),
      encodeInsn cfg lir op = .ok w →
      (EncodingMap op).field_loc[i]? = some loc →
      loc.touchMask.testBit k = true →
      w.testBit k =
        ((if IS_WIDE lir.opcode then (EncodingMap op).xskeleton
            else (EncodingMap op).wskeleton).testBit k ||
          (argValue loc (toU32 (lir.operands.get i))).testBit k)) := by
  have htight := table_fields_rangeOk op
  refine ⟨table_touchMask_disjoint op, fun loc hloc =>
    ⟨(htight loc hloc).2, fun operand k h =>
      argValue_touchMask loc (htight loc hloc).1 operand k h⟩,
    fun cfg lir w i loc k hw hloc hk => encodeInsn_field_bit hw hloc hk⟩
/-! ## C31: the mask of the `tst` that replaces a `tbz/tbnz` -/

/-- C31. The mask that the case `kFixupTBxZ` hands to `EncodeLogicalImmediate` is the `int`
expression `1 << operands[1]` converted to `uint64_t`. It is `2 ^ imm` for the bit indices
0 to 30. For the bit index 31 the `int` is `INT_MIN` and the mask is
`0xffffffff80000000`, not `2 ^ 31`; and for no bit index from 31 to 63 can the conversion
of an `int` be `2 ^ imm`, whatever value the shift yields. On the stream with
a wide `tbnz x0, #31` out of range, the round of the resolver calls `EncodeLogicalImmediate` with
`0xffffffff80000000` (the environment `mkEnv` returns the mask it is given, which the round
stores as operand 1 of the `tst`). -/
theorem tbxz_mask_int_shift :
    (∀ imm : Int, 0 ≤ imm → imm < 31 → toU64 (intShl1 imm) = 2 ^ imm.toNat) ∧
    toU64 (intShl1 31) = 0xffffffff80000000 ∧
    (∀ x imm : Int, 31 ≤ imm → imm < 64 → toU64 (wrapI32 x) ≠ 2 ^ imm.toNat) ∧
    (match fixupStep (mkEnv releaseConfig) 3 1 tbnzWideStream
        ⟨0, .kSuccess, none, some 0⟩ 0 with
      | .ok (m1, loc1) =>
        m1.lirs[0]?.map fun node => (UNWIDE node.opcode, node.operands.get 1, loc1.res)
      | .error _ => none)
      = some (.insn kA64Tst2rl,
          (mkEnv releaseConfig).EncodeLogicalImmediate true 0xffffffff80000000,
          .kRetryAll) ∧
    (mkEnv releaseConfig).EncodeLogicalImmediate true 0xffffffff80000000
      = 0xffffffff80000000 := by
  refine ⟨intShl1_small, by decide, ?_, by decide, by decide⟩
  · intro x imm h1 h2
    obtain ⟨k, rfl⟩ := Int.eq_ofNat_of_zero_le (by omega : 0 ≤ imm)
    have hk1 : 31 ≤ k := by omega
    have hk2 : k < 64 := by omega
    simp only [Int.toNat_ofNat]
    unfold toU64 wrapI32
    interval_cases k <;> omega
/-! ## C33: the word of a `tbz/tbnz` does not depend on the width of the opcode -/

theorem testBit_0x36000000 (k : Nat) :
    Nat.testBit 0x36000000 k = decide (k = 25 ∨ k = 26 ∨ k = 28 ∨ k = 29) := by
  by_cases hk : k < 32
  · interval_cases k <;> decide
  · rw [testBit_ge32 (by norm_num : (0x36000000 : Nat) < 4294967296) hk]
    have : ¬ (k = 25 ∨ k = 26 ∨ k = 28 ∨ k = 29) := by omega
    simp [this]

theorem testBit_0x37000000 (k : Nat) :
    Nat.testBit 0x37000000 k = decide (k = 24 ∨ k = 25 ∨ k = 26 ∨ k = 28 ∨ k = 29) := by
  by_cases hk : k < 32
  · interval_cases k <;> decide
  · rw [testBit_ge32 (by norm_num : (0x37000000 : Nat) < 4294967296) hk]
    have : ¬ (k = 24 ∨ k = 25 ∨ k = 26 ∨ k = 28 ∨ k = 29) := by omega
    simp [this]

theorem tbxz_skeleton {op : A64Opcode} (hop : op = kA64Tbz3rht ∨ op = kA64Tbnz3rht)
    (wide : Bool) :
    (if wide then (EncodingMap op).xskeleton else (EncodingMap op).wskeleton)
      = if op = kA64Tbz3rht then 0x36000000 else 0x37000000 := by
  rcases hop with rfl | rfl
  · have h1 : (EncodingMap kA64Tbz3rht).xskeleton = 0x36000000 := rfl
    have h2 : (EncodingMap kA64Tbz3rht).wskeleton = 0x36000000 := rfl
    rw [h1, h2, ite_self, if_pos rfl]
  · have h1 : (EncodingMap kA64Tbnz3rht).xskeleton = 0x37000000 := rfl
    have h2 : (EncodingMap kA64Tbnz3rht).wskeleton = 0x37000000 := rfl
    rw [h1, h2, ite_self, if_neg (by decide)]

theorem tbxz_fields {op : A64Opcode} (hop : op = kA64Tbz3rht ∨ op = kA64Tbnz3rht) :
    (EncodingMap op).field_loc
      = [⟨kFmtRegR, 4, 0⟩, ⟨kFmtImm6Shift, -1, -1⟩, ⟨kFmtBitBlt, 18, 5⟩,
         ⟨kFmtUnused, -1, -1⟩] := by
  rcases hop with rfl | rfl <;> rfl

/-- The bits of the word of a `tbz/tbnz`: bit `k` is a bit of the register (bits 0 to 4),
of the displacement (bits 5 to 18), of the bit index (bits 19 to 23 and bit 31), or of the
skeleton, which is the same for both widths. -/
theorem testBit_tbxz {cfg : BuildConfig} {lir : LIR} {op : A64Opcode} {w : Nat}
    (hop : op = kA64Tbz3rht ∨ op = kA64Tbnz3rht) (hw : encodeInsn cfg lir op = .ok w)
    (k : Nat) :
    w.testBit k
      = if k ≤ 4 then (toU32 (lir.operands.get 0)).testBit k
        else if k ≤ 18 then (toU32 (lir.operands.get 2)).testBit (k - 5)
        else if k ≤ 23 then (toU32 (lir.operands.get 1)).testBit (k - 19)
        else if k = 31 then (toU32 (lir.operands.get 1)).testBit 5
        else (if op = kA64Tbz3rht then 0x36000000 else 0x37000000 : Nat).testBit k := by
  have hf := tbxz_fields hop
  have hsk := tbxz_skeleton hop (IS_WIDE lir.opcode)
  have hskz : ∀ j, (j < 24 ∨ 30 < j) →
      (if op = kA64Tbz3rht then 0x36000000 else 0x37000000 : Nat).testBit j = false := by
    intro j hj
    split_ifs
    · rw [testBit_0x36000000]
      simp only [decide_eq_false_iff_not]
      omega
    · rw [testBit_0x37000000]
      simp only [decide_eq_false_iff_not]
      omega
  have h0 : (EncodingMap op).field_loc[0]? = some ⟨kFmtRegR, 4, 0⟩ := by rw [hf]; rfl
  have h1 : (EncodingMap op).field_loc[1]? = some ⟨kFmtImm6Shift, -1, -1⟩ := by rw [hf]; rfl
  have h2 : (EncodingMap op).field_loc[2]? = some ⟨kFmtBitBlt, 18, 5⟩ := by rw [hf]; rfl
  have m0 : ∀ j, (⟨kFmtRegR, 4, 0⟩ : FieldLoc).touchMask.testBit j = decide (j ≤ 4) := by
    intro j
    have : (⟨kFmtRegR, 4, 0⟩ : FieldLoc).touchMask = 2 ^ 5 - 1 := by decide
    rw [this, Nat.testBit_two_pow_sub_one]
    simp only [decide_eq_decide]
    omega
  have m1 : ∀ j, (⟨kFmtImm6Shift, -1, -1⟩ : FieldLoc).touchMask.testBit j
      = decide ((19 ≤ j ∧ j ≤ 23) ∨ j = 31) := by
    intro j
    have : (⟨kFmtImm6Shift, -1, -1⟩ : FieldLoc).touchMask = 0x80f80000 := by decide
    rw [this, testBit_0x80f80000]
  have m2 : ∀ j, (⟨kFmtBitBlt, 18, 5⟩ : FieldLoc).touchMask.testBit j
      = decide (5 ≤ j ∧ j ≤ 18) := by
    intro j
    have := testBit_mask ⟨kFmtBitBlt, 18, 5⟩ (by decide) (by decide) j
    have e : (⟨kFmtBitBlt, 18, 5⟩ : FieldLoc).touchMask
        = (⟨kFmtBitBlt, 18, 5⟩ : FieldLoc).mask := by decide
    rw [e, this]
    rfl
  have a0 : ∀ x, argValue ⟨kFmtRegR, 4, 0⟩ x = fieldValue x 0 4 := fun _ => rfl
  have a1 : ∀ x, argValue ⟨kFmtImm6Shift, -1, -1⟩ x = imm6ShiftValue x := fun _ => rfl
  have a2 : ∀ x, argValue ⟨kFmtBitBlt, 18, 5⟩ x = fieldValue x 5 18 := fun _ => rfl
  by_cases c1 : k ≤ 4
  · rw [if_pos c1, encodeInsn_field_bit hw h0 (by rw [m0]; simpa using c1), hsk,
      hskz k (Or.inl (by omega)), a0,
      testBit_fieldValue _ 0 4 (by norm_num) (by norm_num) (by norm_num)]
    simp [c1]
  · rw [if_neg c1]
    by_cases c2 : k ≤ 18
    · rw [if_pos c2, encodeInsn_field_bit hw h2 (by rw [m2]; simp; omega), hsk,
        hskz k (Or.inl (by omega)), a2,
        testBit_fieldValue _ 5 18 (by norm_num) (by norm_num) (by norm_num)]
      have : 5 ≤ k ∧ k ≤ 18 := by omega
      simp [this]
    · rw [if_neg c2]
      by_cases c3 : k ≤ 23
      · rw [if_pos c3, encodeInsn_field_bit hw h1 (by rw [m1]; simp; omega), hsk,
          hskz k (Or.inl (by omega)), a1, testBit_imm6ShiftValue]
        have : 19 ≤ k ∧ k ≤ 23 := by omega
        simp [this]
      · rw [if_neg c3]
        by_cases c4 : k = 31
        · rw [if_pos c4, encodeInsn_field_bit hw h1 (by rw [m1]; simp; omega), hsk,
            hskz k (Or.inr (by omega)), a1, testBit_imm6ShiftValue]
          have : ¬ (19 ≤ k ∧ k ≤ 23) := by omega
          simp [this, c4]
        · rw [if_neg c4, ← hsk]
          refine encodeInsn_free_bit k hw (fun loc hloc => ?_)
          rw [hf] at hloc
          simp only [List.mem_cons, List.mem_singleton, List.not_mem_nil, or_false] at hloc
          rcases hloc with rfl | rfl | rfl | rfl
          · exact ⟨by decide, by rw [m0]; simp; omega⟩
          · exact ⟨by decide, by rw [m1]; simp; omega⟩
          · exact ⟨by decide, by rw [m2]; simp; omega⟩
          · exact ⟨by decide, by
              have : (⟨kFmtUnused, -1, -1⟩ : FieldLoc).touchMask = 0 := by decide
              rw [this, Nat.zero_testBit]⟩
theorem testBit_of_mod_eq {a b n k : Nat} (h : a % 2 ^ n = b % 2 ^ n) (hk : k < n) :
    a.testBit k = b.testBit k := by
  have h1 := Nat.testBit_mod_two_pow a n k
  have h2 := Nat.testBit_mod_two_pow b n k
  rw [h] at h1
  rw [h1] at h2
  simpa [hk] using h2

/-- C33. The word of a `tbz/tbnz` does not depend on the width of the opcode. The two
skeletons of each entry are equal. Whenever the operand encoder builds words for two records
of the opcode whose registers have the same number (low five bits of operand 0), with the
same bit index below 64 and the same displacement, the two words are equal, whatever the
widths of the two records: the wide and the other form of the same operands encode alike,
and so do `tbz x0, #imm` and `tbz w0, #imm`. In a build without debug checks the encoder
builds the word of every record, the same for both widths. In the word, bit 31 is bit 5
of the bit index and bits `[23:19]` are its bits `[4:0]` (the field `kFmtImm6Shift`), bits
`[4:0]` are the register number and bits `[18:5]` the displacement; below 32 the bit index
leaves bit 31 clear. -/
theorem tbxz_encoding_width_free (cfg : BuildConfig) (op : A64Opcode)
    (hop : op = kA64Tbz3rht ∨ op = kA64Tbnz3rht) :
    (EncodingMap op).xskeleton = (EncodingMap op).wskeleton ∧
    (∀ (l1 l2 : LIR) (w1 w2 : Nat),
      toU32 (l1.operands.get 0) % 32 = toU32 (l2.operands.get 0) % 32 →
      toU32 (l1.operands.get 1) % 64 = toU32 (l2.operands.get 1) % 64 →
      toU32 (l1.operands.get 2) % 16384 = toU32 (l2.operands.get 2) % 16384 →
      encodeInsn cfg l1 op = .ok w1 → encodeInsn cfg l2 op = .ok w2 → w1 = w2) ∧
    (cfg.kIsDebugBuild = false → cfg.kEnableDChecks = false →
      ∀ lir : LIR, ∃ w, ∀ wide : Bool,
        encodeInsn cfg { lir with opcode := ⟨.insn op, wide⟩ } op = .ok w) ∧
    (∀ (lir : LIR) (w : Nat), encodeInsn cfg lir op = .ok w →
      w.testBit 31 = (toU32 (lir.operands.get 1)).testBit 5 ∧
      readField w 19 23 = toU32 (lir.operands.get 1) % 32 ∧
      readField w 0 4 = toU32 (lir.operands.get 0) % 32 ∧
      readField w 5 18 = toU32 (lir.operands.get 2) % 16384 ∧
      (0 ≤ lir.operands.get 1 → lir.operands.get 1 < 32 → w.testBit 31 = false)) := by
  have hsame : ∀ (l1 l2 : LIR) (w1 w2 : Nat),
      toU32 (l1.operands.get 0) % 32 = toU32 (l2.operands.get 0) % 32 →
      toU32 (l1.operands.get 1) % 64 = toU32 (l2.operands.get 1) % 64 →
      toU32 (l1.operands.get 2) % 16384 = toU32 (l2.operands.get 2) % 16384 →
      encodeInsn cfg l1 op = .ok w1 → encodeInsn cfg l2 op = .ok w2 → w1 = w2 := by
    intro l1 l2 w1 w2 h0 h1 h2 hw1 hw2
    apply Nat.eq_of_testBit_eq
    intro k
    rw [testBit_tbxz hop hw1 k, testBit_tbxz hop hw2 k]
    have e0 : ∀ j, j < 5 →
        (toU32 (l1.operands.get 0)).testBit j = (toU32 (l2.operands.get 0)).testBit j :=
      fun j hj => testBit_of_mod_eq (n := 5) h0 hj
    have e1 : ∀ j, j < 6 →
        (toU32 (l1.operands.get 1)).testBit j = (toU32 (l2.operands.get 1)).testBit j :=
      fun j hj => testBit_of_mod_eq (n := 6) h1 hj
    have e2 : ∀ j, j < 14 →
        (toU32 (l1.operands.get 2)).testBit j = (toU32 (l2.operands.get 2)).testBit j :=
      fun j hj => testBit_of_mod_eq (n := 14) h2 hj
    split_ifs with c1 c2 c3 c4
    · exact e0 k (by omega)
    · exact e2 _ (by omega)
    · exact e1 _ (by omega)
    · exact e1 5 (by omega)
    · rfl
    · rfl
  refine ⟨?_, hsame, fun hd hc lir => ?_, fun lir w hw => ⟨?_, ?_, ?_, ?_, ?_⟩⟩
  · rcases hop with rfl | rfl <;> rfl
  · obtain ⟨w, hw⟩ := encodeInsn_release cfg hd hc { lir with opcode := ⟨.insn op, true⟩ } op
    refine ⟨w, fun wide => ?_⟩
    obtain ⟨w', hw'⟩ :=
      encodeInsn_release cfg hd hc { lir with opcode := ⟨.insn op, wide⟩ } op
    rw [hw', hsame { lir with opcode := ⟨.insn op, wide⟩ }
      { lir with opcode := ⟨.insn op, true⟩ } w' w rfl rfl rfl hw' hw]
  · rw [testBit_tbxz hop hw 31]
    simp
  · apply Nat.eq_of_testBit_eq
    intro k
    rw [testBit_readField, testBit_tbxz hop hw (19 + k),
      show (32 : Nat) = 2 ^ 5 from rfl, Nat.testBit_mod_two_pow]
    by_cases hk : k < 5
    · have c1 : ¬ (19 + k ≤ 4) := by omega
      have c2 : ¬ (19 + k ≤ 18) := by omega
      have c3 : 19 + k ≤ 23 := by omega
      simp [hk, c1, c2, c3]
    · simp [hk]
  · apply Nat.eq_of_testBit_eq
    intro k
    rw [testBit_readField, Nat.zero_add, testBit_tbxz hop hw k,
      show (32 : Nat) = 2 ^ 5 from rfl, Nat.testBit_mod_two_pow]
    by_cases hk : k < 5
    · have c1 : k ≤ 4 := by omega
      rw [if_pos c1]
    · simp [hk]
  · apply Nat.eq_of_testBit_eq
    intro k
    rw [testBit_readField, testBit_tbxz hop hw (5 + k),
      show (16384 : Nat) = 2 ^ 14 from rfl, Nat.testBit_mod_two_pow]
    by_cases hk : k < 14
    · have c1 : ¬ (5 + k ≤ 4) := by omega
      have c2 : 5 + k ≤ 18 := by omega
      simp [hk, c1, c2]
    · simp [hk]
  · intro h0 h1
    rw [testBit_tbxz hop hw 31]
    simp only [show ¬ (31 ≤ 4) by omega, show ¬ (31 ≤ 18) by omega,
      show ¬ (31 ≤ 23) by omega, if_false, if_true]
    obtain ⟨n, hn⟩ := Int.eq_ofNat_of_zero_le h0
    have hn32 : n < 32 := by omega
    have : toU32 (lir.operands.get 1) = n := by
      rw [hn]
      unfold toU32
      omega
    rw [this]
    exact Nat.testBit_lt_two_pow (lt_of_lt_of_le hn32 (by norm_num))

theorem tbxz_encoding_width_free_witness :
    (kA64Tbz3rht = kA64Tbz3rht ∨ kA64Tbz3rht = kA64Tbnz3rht) ∧
    encodeInsn releaseConfig (mkLIR (WIDE kA64Tbz3rht) 0 3 5 0) kA64Tbz3rht
      = .ok 0x361800a0 ∧
    encodeInsn releaseConfig (mkLIR kA64Tbz3rht 0 3 5 0) kA64Tbz3rht = .ok 0x361800a0 ∧
    encodeInsn releaseConfig (mkLIR (WIDE kA64Tbz3rht) 0 35 5 0) kA64Tbz3rht
      = .ok 0xb61800a0 ∧
    ((EncodingMap kA64Tbz3rht).xskeleton = (EncodingMap kA64Tbz3rht).wskeleton) :=
  ⟨Or.inl rfl, by decide, by decide, by decide,
    (tbxz_encoding_width_free releaseConfig kA64Tbz3rht (Or.inl rfl)).1⟩
/-! ## The words of the ARM32 data-processing instructions and their meaning -/

theorem armRun_wordBytes (w : Nat) (rest : List Nat) (regs : Nat → Nat)
    (hw : w < 4294967296) :
    armRun (wordBytes w ++ rest) regs
      = match armEffect w regs with
        | none => none
        | some regs => armRun rest regs := by
  rw [wordBytes_get]
  have e : w % 256 + 256 * (w / 256 % 256) + 65536 * (w / 65536 % 256)
      + 16777216 * (w / 16777216 % 256) = w := by omega
  show armRun (w % 256 :: w / 256 % 256 :: w / 65536 % 256 :: w / 16777216 % 256 :: rest) regs
    = _
  rw [armRun, e]

theorem wrap32_shl (x k : Nat) (h : x * 2 ^ k < 4294967296) :
    wrap32 (x <<< k) = 2 ^ k * x := by
  unfold wrap32
  rw [Nat.shiftLeft_eq, Nat.mod_eq_of_lt h, Nat.mul_comm]

/-- The word of `EmitType01` in arithmetic: the fields do not overlap. -/
theorem type01_word (c t o s n d e : Nat) (hc : c < 16) (ht : t < 2) (ho : o < 16)
    (hs : s < 2) (hn : n < 16) (hd : d < 16) (he : e < 4096) :
    wrap32 (c <<< kConditionShift) ||| wrap32 (t <<< kTypeShift) |||
      wrap32 (o <<< kOpcodeShift) ||| wrap32 (s <<< kSShift) ||| wrap32 (n <<< kRnShift) |||
      wrap32 (d <<< kRdShift) ||| wrap32 e
      = 268435456 * c + 33554432 * t + 2097152 * o + 1048576 * s + 65536 * n + 4096 * d
        + e := by
  have e0 : wrap32 e = e := Nat.mod_eq_of_lt (by omega)
  have e1 : wrap32 (d <<< kRdShift) = 2 ^ 12 * d := wrap32_shl d 12 (by norm_num; omega)
  have e2 : wrap32 (n <<< kRnShift) = 2 ^ 16 * n := wrap32_shl n 16 (by norm_num; omega)
  have e3 : wrap32 (s <<< kSShift) = 2 ^ 20 * s := wrap32_shl s 20 (by norm_num; omega)
  have e4 : wrap32 (o <<< kOpcodeShift) = 2 ^ 21 * o := wrap32_shl o 21 (by norm_num; omega)
  have e5 : wrap32 (t <<< kTypeShift) = 2 ^ 25 * t := wrap32_shl t 25 (by norm_num; omega)
  have e6 : wrap32 (c <<< kConditionShift) = 2 ^ 28 * c :=
    wrap32_shl c 28 (by norm_num; omega)
  rw [e0, e1, e2, e3, e4, e5, e6]
  simp only [Nat.lor_assoc]
  rw [or_eq_add_of_lt 12 d e (by norm_num; omega),
    or_eq_add_of_lt 16 n _ (by norm_num; omega),
    or_eq_add_of_lt 20 s _ (by norm_num; omega),
    or_eq_add_of_lt 21 o _ (by norm_num; omega),
    or_eq_add_of_lt 25 t _ (by norm_num; omega),
    or_eq_add_of_lt 28 c _ (by norm_num; omega)]
  norm_num
  omega

/-- The word of `movw` (`top = 0`) and `movt` (`top = 1`) in arithmetic. -/
theorem movw_word (c d imm16 : Nat) (hc : c < 16) (hd : d < 16) (hi : imm16 < 65536) :
    wrap32 (c <<< kConditionShift) ||| B 25 ||| B 24 ||| wrap32 ((imm16 >>> 12) <<< 16) |||
      wrap32 (d <<< kRdShift) ||| (imm16 &&& 0xfff)
      = 268435456 * c + 50331648 + 65536 * (imm16 / 4096) + 4096 * d + imm16 % 4096 := by
  have e0 : imm16 &&& 0xfff = imm16 % 4096 := by
    have h : (0xfff : Nat) = 2 ^ 12 - 1 := by norm_num
    rw [h, Nat.and_pow_two_sub_one_eq_mod]
  have e1 : wrap32 (d <<< kRdShift) = 2 ^ 12 * d := wrap32_shl d 12 (by norm_num; omega)
  have e2 : wrap32 ((imm16 >>> 12) <<< 16) = 2 ^ 16 * (imm16 / 4096) := by
    rw [Nat.shiftRight_eq_div_pow]
    exact wrap32_shl _ 16 (by norm_num; omega)
  have e3 : B 24 = 2 ^ 24 * 1 := by decide
  have e4 : B 25 = 2 ^ 25 * 1 := by decide
  have e6 : wrap32 (c <<< kConditionShift) = 2 ^ 28 * c :=
    wrap32_shl c 28 (by norm_num; omega)
  rw [e0, e1, e2, e3, e4, e6]
  simp only [Nat.lor_assoc]
  rw [or_eq_add_of_lt 12 d _ (by norm_num; omega),
    or_eq_add_of_lt 16 _ _ (by norm_num; omega),
    or_eq_add_of_lt 24 1 _ (by norm_num; omega),
    or_eq_add_of_lt 25 1 _ (by norm_num; omega),
    or_eq_add_of_lt 28 c _ (by norm_num; omega)]
  norm_num
  omega

theorem movt_word (c d imm16 : Nat) (hc : c < 16) (hd : d < 16) (hi : imm16 < 65536) :
    wrap32 (c <<< kConditionShift) ||| B 25 ||| B 24 ||| B 22 |||
      wrap32 ((imm16 >>> 12) <<< 16) ||| wrap32 (d <<< kRdShift) ||| (imm16 &&& 0xfff)
      = 268435456 * c + 54525952 + 65536 * (imm16 / 4096) + 4096 * d + imm16 % 4096 := by
  have e0 : imm16 &&& 0xfff = imm16 % 4096 := by
    have h : (0xfff : Nat) = 2 ^ 12 - 1 := by norm_num
    rw [h, Nat.and_pow_two_sub_one_eq_mod]
  have e1 : wrap32 (d <<< kRdShift) = 2 ^ 12 * d := wrap32_shl d 12 (by norm_num; omega)
  have e2 : wrap32 ((imm16 >>> 12) <<< 16) = 2 ^ 16 * (imm16 / 4096) := by
    rw [Nat.shiftRight_eq_div_pow]
    exact wrap32_shl _ 16 (by norm_num; omega)
  have e22 : B 22 = 2 ^ 22 * 1 := by decide
  have e3 : B 24 = 2 ^ 24 * 1 := by decide
  have e4 : B 25 = 2 ^ 25 * 1 := by decide
  have e6 : wrap32 (c <<< kConditionShift) = 2 ^ 28 * c :=
    wrap32_shl c 28 (by norm_num; omega)
  rw [e0, e1, e2, e22, e3, e4, e6]
  simp only [Nat.lor_assoc]
  rw [or_eq_add_of_lt 12 d _ (by norm_num; omega),
    or_eq_add_of_lt 16 _ _ (by norm_num; omega),
    or_eq_add_of_lt 22 1 _ (by norm_num; omega),
    or_eq_add_of_lt 24 1 _ (by norm_num; omega),
    or_eq_add_of_lt 25 1 _ (by norm_num; omega),
    or_eq_add_of_lt 28 c _ (by norm_num; omega)]
  norm_num
  omega

/-- The meaning of the word of `movw`. -/
theorem armEffect_movw (c d imm16 : Nat) (hd : d < 16) (hi : imm16 < 65536)
    (regs : Nat → Nat) :
    armEffect (268435456 * c + 50331648 + 65536 * (imm16 / 4096) + 4096 * d + imm16 % 4096)
      regs = some (Function.update regs d imm16) := by
  have hq : imm16 / 4096 < 16 := by omega
  have hr : imm16 % 4096 < 4096 := by omega
  have hqr : imm16 / 4096 * 4096 + imm16 % 4096 = imm16 := by omega
  generalize imm16 / 4096 = q at hq hqr ⊢
  generalize imm16 % 4096 = r at hr hqr ⊢
  generalize hw : 268435456 * c + 50331648 + 65536 * q + 4096 * d + r = w
  have g1 : w / 1048576 = 256 * c + 48 := by omega
  have g2 : w / 4096 % 16 = d := by omega
  have g3 : w / 65536 % 16 = q := by omega
  have g4 : w % 4096 = r := by omega
  unfold armEffect
  have h1 : w / 1048576 % 256 = 0x30 := by rw [g1]; omega
  simp only [h1, g2, g3, g4, hqr, if_true]

/-- The meaning of the word of `movt`. -/
theorem armEffect_movt (c d imm16 : Nat) (hd : d < 16) (hi : imm16 < 65536)
    (regs : Nat → Nat) :
    armEffect (268435456 * c + 54525952 + 65536 * (imm16 / 4096) + 4096 * d + imm16 % 4096)
      regs = some (Function.update regs d (regs d % 65536 + imm16 * 65536)) := by
  have hq : imm16 / 4096 < 16 := by omega
  have hr : imm16 % 4096 < 4096 := by omega
  have hqr : imm16 / 4096 * 4096 + imm16 % 4096 = imm16 := by omega
  generalize imm16 / 4096 = q at hq hqr ⊢
  generalize imm16 % 4096 = r at hr hqr ⊢
  generalize hw : 268435456 * c + 54525952 + 65536 * q + 4096 * d + r = w
  have g1 : w / 1048576 = 256 * c + 52 := by omega
  have g2 : w / 4096 % 16 = d := by omega
  have g3 : w / 65536 % 16 = q := by omega
  have g4 : w % 4096 = r := by omega
  unfold armEffect
  have h1 : w / 1048576 % 256 = 0x34 := by rw [g1]; omega
  simp only [h1, g2, g3, g4, hqr]
  rfl

/-- The meaning of the word of a data-processing instruction `mov`, `mvn`, `add` or `sub`
with an immediate operand (`t = 1`, the operand `256 * rot + imm8`) or a register operand
(`t = 0`, the operand the register number). -/
theorem armEffect_type01 (c t o s n d e : Nat) (ht : t < 2)
    (ho : o = MOV ∨ o = MVN ∨ o = ADD ∨ o = SUB) (hs : s < 2) (hn : n < 16) (hd : d < 16)
    (he : if t = 1 then e < 4096 else e < 16) (regs : Nat → Nat) :
    armEffect (268435456 * c + 33554432 * t + 2097152 * o + 1048576 * s + 65536 * n
        + 4096 * d + e) regs
      = some (Function.update regs d
          (if o = MOV then
            (if t = 1 then rotateRight32 (e % 256) (2 * (e / 256)) else regs e)
           else if o = MVN then
            4294967295 - (if t = 1 then rotateRight32 (e % 256) (2 * (e / 256)) else regs e)
           else if o = ADD then
            wrap32 (regs n
              + (if t = 1 then rotateRight32 (e % 256) (2 * (e / 256)) else regs e))
           else
            wrap32 (regs n + 4294967296
              - (if t = 1 then rotateRight32 (e % 256) (2 * (e / 256)) else regs e)))) := by
  have he' : e < 4096 := by split_ifs at he <;> omega
  have ho' : o < 16 := by
    rcases ho with h | h | h | h <;> rw [h] <;> decide
  generalize hw : 268435456 * c + 33554432 * t + 2097152 * o + 1048576 * s + 65536 * n
    + 4096 * d + e = w
  have f1 : w / 1048576 % 256 = 32 * t + 2 * o + s := by omega
  have f2 : w / 4096 % 16 = d := by omega
  have f3 : w / 65536 % 16 = n := by omega
  have f4 : w / 67108864 % 4 = 0 := by omega
  have f5 : w / 2097152 % 16 = o := by omega
  have f6 : w / 33554432 % 2 = t := by omega
  have f7 : w % 256 = e % 256 := by omega
  have f8 : w / 256 % 16 = e / 256 := by omega
  have f9 : w / 16 % 256 = e / 16 := by omega
  have f10 : w % 16 = e % 16 := by omega
  have hop2 : armOperand2 w regs
      = some (if t = 1 then rotateRight32 (e % 256) (2 * (e / 256)) else regs e) := by
    unfold armOperand2
    rw [f6, f7, f8, f9, f10]
    by_cases h1 : t = 1
    · simp only [h1, if_true]
    · simp only [h1, if_false] at he ⊢
      have : e / 16 = 0 := by omega
      have h2 : e % 16 = e := by omega
      simp only [this, h2, if_true]
  unfold armEffect
  simp only [f1, f2, f3, f4, f5, hop2]
  have g1 : ¬ (32 * t + 2 * o + s = 0x30) := by
    rcases ho with h | h | h | h <;> rw [h] <;> simp only [MOV, MVN, ADD, SUB] <;> omega
  have g2 : ¬ (32 * t + 2 * o + s = 0x34) := by
    rcases ho with h | h | h | h <;> rw [h] <;> simp only [MOV, MVN, ADD, SUB] <;> omega
  simp only [g1, g2, if_false, if_true]
  rcases ho with h | h | h | h <;> subst h <;> simp [MOV, MVN, ADD, SUB]
theorem toU32_natCast (n : Nat) (h : n < 4294967296) : toU32 (n : Int) = n := by
  unfold toU32
  omega

theorem EmitType01_eq (encodingArm : ShifterOperand → Nat) (buffer_ : List Nat)
    (cond rn rd type opcode : Nat) (set_cc : SetCc) (so : ShifterOperand)
    (hc : cond < 16) (hn : rn < 16) (hd : rd < 16) (ht : type < 2) (ho : opcode < 16)
    (he : encodingArm so < 4096) :
    Arm32Assembler.EmitType01 encodingArm buffer_ cond type opcode set_cc rn rd so
      = .ok (buffer_ ++ wordBytes (268435456 * cond + 33554432 * type + 2097152 * opcode
          + 1048576 * (if set_cc = .kCcSet then 1 else 0) + 65536 * rn + 4096 * rd
          + encodingArm so)) := by
  unfold Arm32Assembler.EmitType01 Arm32Assembler.Emit
  have h1 : ((rd : Int) != kNoRegister) = true := by
    simp only [kNoRegister, bne_iff_ne, ne_eq]
    omega
  have h2 : ((cond : Int) != kNoCondition) = true := by
    simp only [kNoCondition, bne_iff_ne, ne_eq]
    omega
  have hs : (if set_cc = SetCc.kCcSet then 1 else 0) < 2 := by split_ifs <;> omega
  simp only [h1, h2, CHECK, if_true, bind, Except.bind, pure, Except.pure,
    toU32_natCast cond (by omega), toU32_natCast rn (by omega), toU32_natCast rd (by omega)]
  rw [type01_word cond type opcode _ rn rd (encodingArm so) hc ht ho hs hn hd he]

/-- The immediate operand that `ShifterOperandCanHoldArm32` builds, in the words of the
architecture: its encoding is `256 * rot + imm8` with `imm8` below 256 and `rot` below 16,
and `imm8` rotated right by `2 * rot` is the immediate. -/
theorem canHold_operand {encodingArm : ShifterOperand → Nat}
    (henc : EncodesOperand2 encodingArm) (immediate : Nat) (hx : immediate < 4294967296)
    (so0 : ShifterOperand)
    (h : (Arm32Assembler.ShifterOperandCanHoldArm32 immediate so0).1 = true) :
    (Arm32Assembler.ShifterOperandCanHoldArm32 immediate so0).2.type = .ok 1 ∧
    encodingArm (Arm32Assembler.ShifterOperandCanHoldArm32 immediate so0).2 < 4096 ∧
    rotateRight32
      (encodingArm (Arm32Assembler.ShifterOperandCanHoldArm32 immediate so0).2 % 256)
      (2 * (encodingArm (Arm32Assembler.ShifterOperandCanHoldArm32 immediate so0).2 / 256))
      = immediate := by
  rcases ShifterOperandCanHoldArm32_spec immediate so0 hx with
    ⟨_, r, hr, hfit, _, hso⟩ | ⟨h1, _, _⟩
  · have h8 : wrap32 (immediate <<< (2 * r)) ||| (immediate >>> (32 - 2 * r)) < 256 :=
      (fits_iff_rotl immediate r hx hr).mp hfit
    have hinv := (rot_inverse immediate _ r hx (by omega) hr).mp rfl
    have he : encodingArm (Arm32Assembler.ShifterOperandCanHoldArm32 immediate so0).2
        = 256 * r + (wrap32 (immediate <<< (2 * r)) ||| (immediate >>> (32 - 2 * r))) := by
      rw [henc.1 _ (by rw [hso]) (by rw [hso]), hso]
      show (r <<< 8) ||| _ = _
      rw [Nat.shiftLeft_eq, Nat.mul_comm, show (2 : Nat) ^ 8 = 256 from rfl]
      exact or_eq_add_of_lt 8 r _ h8
    refine ⟨?_, ?_, ?_⟩
    · rw [hso]
      rfl
    · rw [he]
      omega
    · rw [he]
      have e1 : (256 * r + (wrap32 (immediate <<< (2 * r)) ||| (immediate >>> (32 - 2 * r))))
          % 256 = wrap32 (immediate <<< (2 * r)) ||| (immediate >>> (32 - 2 * r)) := by
        omega
      have e2 : (256 * r + (wrap32 (immediate <<< (2 * r)) ||| (immediate >>> (32 - 2 * r))))
          / 256 = r := by omega
      rw [e1, e2]
      exact hinv.symm
  · rw [h1] at h
    cases h

theorem ofRegister_operand {encodingArm : ShifterOperand → Nat}
    (henc : EncodesOperand2 encodingArm) (rm : Nat) (hrm : rm < 16) :
    (ShifterOperand.ofRegister rm).type = .ok 0 ∧
    encodingArm (ShifterOperand.ofRegister rm) = rm := by
  refine ⟨rfl, ?_⟩
  rw [henc.2, toU32_natCast rm (by omega)]

/-- A data-processing instruction with an immediate operand that holds `immediate`: the
emitter appends one word, whose effect is to write the result of the operation to `rd`. -/
theorem emit_dp_imm {encodingArm : ShifterOperand → Nat} (henc : EncodesOperand2 encodingArm)
    (buffer_ : List Nat) (cond rn rd opcode : Nat) (set_cc : SetCc) (immediate : Nat)
    (so0 : ShifterOperand) (hc : cond < 16) (hn : rn < 16) (hd : rd < 16)
    (ho : opcode = MOV ∨ opcode = MVN ∨ opcode = ADD ∨ opcode = SUB)
    (hx : immediate < 4294967296)
    (h : (Arm32Assembler.ShifterOperandCanHoldArm32 immediate so0).1 = true) :
    ∃ code : List Nat, code.length = 4 ∧
      (do let type ← (Arm32Assembler.ShifterOperandCanHoldArm32 immediate so0).2.type
          Arm32Assembler.EmitType01 encodingArm buffer_ cond type opcode set_cc rn rd
            (Arm32Assembler.ShifterOperandCanHoldArm32 immediate so0).2)
        = .ok (buffer_ ++ code) ∧
      ∀ (rest : List Nat) (regs : Nat → Nat),
        armRun (code ++ rest) regs = armRun rest (Function.update regs rd
          (if opcode = MOV then immediate
           else if opcode = MVN then 4294967295 - immediate
           else if opcode = ADD then wrap32 (regs rn + immediate)
           else wrap32 (regs rn + 4294967296 - immediate))) := by
  obtain ⟨ht, he, hv⟩ := canHold_operand henc immediate hx so0 h
  have ho' : opcode < 16 := by
    rcases ho with e | e | e | e <;> rw [e] <;> decide
  refine ⟨wordBytes (268435456 * cond + 33554432 * 1 + 2097152 * opcode
    + 1048576 * (if set_cc = .kCcSet then 1 else 0) + 65536 * rn + 4096 * rd
    + encodingArm (Arm32Assembler.ShifterOperandCanHoldArm32 immediate so0).2),
    wordBytes_length _, ?_, fun rest regs => ?_⟩
  · rw [ht]
    exact EmitType01_eq encodingArm buffer_ cond rn rd 1 opcode set_cc _ hc hn hd (by omega)
      ho' he
  · rw [armRun_wordBytes _ _ _ (by split_ifs <;> omega),
      armEffect_type01 cond 1 opcode _ rn rd _ (by omega) ho (by split_ifs <;> omega) hn hd
        (by simpa using he) regs]
    simp only [if_true, hv]

/-- A data-processing instruction whose operand is the register `rm`. -/
theorem emit_dp_reg {encodingArm : ShifterOperand → Nat} (henc : EncodesOperand2 encodingArm)
    (buffer_ : List Nat) (cond rn rd rm opcode : Nat) (set_cc : SetCc)
    (hc : cond < 16) (hn : rn < 16) (hd : rd < 16) (hm : rm < 16)
    (ho : opcode = MOV ∨ opcode = MVN ∨ opcode = ADD ∨ opcode = SUB) :
    ∃ code : List Nat, code.length = 4 ∧
      (do let type ← (ShifterOperand.ofRegister rm).type
          Arm32Assembler.EmitType01 encodingArm buffer_ cond type opcode set_cc rn rd
            (ShifterOperand.ofRegister rm))
        = .ok (buffer_ ++ code) ∧
      ∀ (rest : List Nat) (regs : Nat → Nat),
        armRun (code ++ rest) regs = armRun rest (Function.update regs rd
          (if opcode = MOV then regs rm
           else if opcode = MVN then 4294967295 - regs rm
           else if opcode = ADD then wrap32 (regs rn + regs rm)
           else wrap32 (regs rn + 4294967296 - regs rm))) := by
  obtain ⟨ht, he⟩ := ofRegister_operand henc rm hm
  have ho' : opcode < 16 := by
    rcases ho with e | e | e | e <;> rw [e] <;> decide
  refine ⟨wordBytes (268435456 * cond + 33554432 * 0 + 2097152 * opcode
    + 1048576 * (if set_cc = .kCcSet then 1 else 0) + 65536 * rn + 4096 * rd
    + encodingArm (ShifterOperand.ofRegister rm)),
    wordBytes_length _, ?_, fun rest regs => ?_⟩
  · rw [ht]
    exact EmitType01_eq encodingArm buffer_ cond rn rd 0 opcode set_cc _ hc hn hd (by omega)
      ho' (by rw [he]; omega)
  · rw [armRun_wordBytes _ _ _ (by rw [he]; split_ifs <;> omega),
      armEffect_type01 cond 0 opcode _ rn rd _ (by omega) ho (by split_ifs <;> omega) hn hd
        (by rw [he]; simpa using hm) regs, he]
    simp only [show ¬ ((0 : Nat) = 1) by omega, if_false]

/-- The instruction `movw rd, #imm16`. -/
theorem emit_movw (buffer_ : List Nat) (cond rd imm16 : Nat) (hc : cond < 16) (hd : rd < 16)
    (hi : imm16 < 65536) :
    ∃ code : List Nat, code.length = 4 ∧
      Arm32Assembler.movw buffer_ rd imm16 cond = .ok (buffer_ ++ code) ∧
      ∀ (rest : List Nat) (regs : Nat → Nat),
        armRun (code ++ rest) regs = armRun rest (Function.update regs rd imm16) := by
  have h2 : ((cond : Int) != kNoCondition) = true := by
    simp only [kNoCondition, bne_iff_ne, ne_eq]
    omega
  refine ⟨wordBytes (268435456 * cond + 50331648 + 65536 * (imm16 / 4096) + 4096 * rd
    + imm16 % 4096), rfl, ?_, fun rest regs => ?_⟩
  · unfold Arm32Assembler.movw Arm32Assembler.Emit
    simp only [h2, CHECK, if_true, bind, Except.bind, pure, Except.pure,
      toU32_natCast cond (by omega), toU32_natCast rd (by omega)]
    rw [movw_word cond rd imm16 hc hd hi]
  · rw [armRun_wordBytes _ _ _ (by omega), armEffect_movw cond rd imm16 hd hi regs]

/-- The instruction `movt rd, #imm16`. -/
theorem emit_movt (buffer_ : List Nat) (cond rd imm16 : Nat) (hc : cond < 16) (hd : rd < 16)
    (hi : imm16 < 65536) :
    ∃ code : List Nat, code.length = 4 ∧
      Arm32Assembler.movt buffer_ rd imm16 cond = .ok (buffer_ ++ code) ∧
      ∀ (rest : List Nat) (regs : Nat → Nat),
        armRun (code ++ rest) regs = armRun rest (Function.update regs rd
          (regs rd % 65536 + imm16 * 65536)) := by
  have h2 : ((cond : Int) != kNoCondition) = true := by
    simp only [kNoCondition, bne_iff_ne, ne_eq]
    omega
  refine ⟨wordBytes (268435456 * cond + 54525952 + 65536 * (imm16 / 4096) + 4096 * rd
    + imm16 % 4096), rfl, ?_, fun rest regs => ?_⟩
  · unfold Arm32Assembler.movt Arm32Assembler.Emit
    simp only [h2, CHECK, if_true, bind, Except.bind, pure, Except.pure,
      toU32_natCast cond (by omega), toU32_natCast rd (by omega)]
    rw [movt_word cond rd imm16 hc hd hi]
  · rw [armRun_wordBytes _ _ _ (by omega), armEffect_movt cond rd imm16 hd hi regs]
theorem canHold_iff (immediate : Nat) (so : ShifterOperand) (hx : immediate < 4294967296) :
    (Arm32Assembler.ShifterOperandCanHoldArm32 immediate so).1 = true ↔
      ∃ rot, rot < 16 ∧ FitsShifterOperand immediate rot := by
  rcases ShifterOperandCanHoldArm32_spec immediate so hx with
    ⟨h1, r, hr, hfit, _, _⟩ | ⟨h1, _, h3⟩
  · exact ⟨fun _ => ⟨r, hr, hfit⟩, fun _ => h1⟩
  · refine ⟨fun h => ?_, fun ⟨rot, hr, hf⟩ => absurd hf (h3 rot hr)⟩
    rw [h1] at h
    cases h

theorem canHold_false_snd (immediate : Nat) (so : ShifterOperand)
    (hx : immediate < 4294967296)
    (h : (Arm32Assembler.ShifterOperandCanHoldArm32 immediate so).1 = false) :
    (Arm32Assembler.ShifterOperandCanHoldArm32 immediate so).2 = so := by
  rcases ShifterOperandCanHoldArm32_spec immediate so hx with ⟨h1, _⟩ | ⟨_, h2, _⟩
  · rw [h1] at h
    cases h
  · exact h2

theorem toU32_bitNot32 (x : Int) : toU32 (bitNot32 x) = 4294967295 - toU32 x := by
  unfold toU32 bitNot32
  omega

theorem Low16Bits_eq (v : Nat) : Low16Bits v = v % 65536 := by
  unfold Low16Bits
  have h : (0xffff : Nat) = 2 ^ 16 - 1 := by norm_num
  rw [h, Nat.and_pow_two_sub_one_eq_mod]

theorem High16Bits_eq (v : Nat) (hv : v < 4294967296) : High16Bits v = v / 65536 := by
  unfold High16Bits
  have h : (0xffff : Nat) = 2 ^ 16 - 1 := by norm_num
  rw [h, Nat.and_pow_two_sub_one_eq_mod, Nat.shiftRight_eq_div_pow]
  omega

/-- The sequence `movw rd, #lo; movt rd, #hi` (the second instruction only when `hi` is not
zero) that ends `LoadImmediate` and `AddConstant`: it leaves the value in `rd`. -/
theorem emit_movw_movt (buffer_ : List Nat) (cond rd v : Nat) (hc : cond < 16) (hd : rd < 16)
    (hv : v < 4294967296) :
    ∃ code : List Nat,
      (code.length = 4 ∨ code.length = 8) ∧ (code.length = 4 ↔ High16Bits v = 0) ∧
      (do let buffer_ ← Arm32Assembler.movw buffer_ rd (Low16Bits v) cond
          if High16Bits v != 0 then Arm32Assembler.movt buffer_ rd (High16Bits v) cond
          else pure buffer_) = .ok (buffer_ ++ code) ∧
      ∀ (rest : List Nat) (regs : Nat → Nat),
        armRun (code ++ rest) regs = armRun rest (Function.update regs rd v) := by
  have hlo : Low16Bits v < 65536 := by rw [Low16Bits_eq]; omega
  have hhi : High16Bits v < 65536 := by rw [High16Bits_eq v hv]; omega
  obtain ⟨c1, hl1, he1, hr1⟩ := emit_movw buffer_ cond rd (Low16Bits v) hc hd hlo
  by_cases hz : High16Bits v = 0
  · refine ⟨c1, Or.inl hl1, ⟨fun _ => hz, fun _ => hl1⟩, ?_, fun rest regs => ?_⟩
    · rw [he1]
      simp [hz, bind, Except.bind, pure, Except.pure]
    · rw [hr1 rest regs]
      have : Low16Bits v = v := by
        rw [Low16Bits_eq]
        rw [High16Bits_eq v hv] at hz
        omega
      rw [this]
  · obtain ⟨c2, hl2, he2, hr2⟩ :=
      emit_movt (buffer_ ++ c1) cond rd (High16Bits v) hc hd hhi
    refine ⟨c1 ++ c2, Or.inr (by rw [List.length_append, hl1, hl2]),
      ⟨fun h => ?_, fun h => absurd h hz⟩, ?_, fun rest regs => ?_⟩
    · rw [List.length_append, hl1, hl2] at h
      exact absurd h (by decide)
    · rw [he1]
      simp only [bind, Except.bind, bne_iff_ne, ne_eq, hz, not_false_eq_true, if_true]
      rw [he2, List.append_assoc]
    · rw [List.append_assoc, hr1, hr2, Function.update_same, Function.update_idem]
      have e : Low16Bits v % 65536 + High16Bits v * 65536 = v := by
        rw [Low16Bits_eq, High16Bits_eq v hv]
        omega
      rw [e]

/-- C34. For every 32-bit value, every core register `rd` and every condition,
`Arm32Assembler::LoadImmediate(rd, value, cond)` passes its checks and emits at most two
instructions: exactly one when `value` or `~value` fits a shifter operand (an 8-bit value
rotated right by an even amount) or when the upper 16 bits of `value` are zero, and two
otherwise. Under the architectural meaning of `mov`, `mvn`, `movw` and `movt`, the words
emitted, executed with their condition holding, leave exactly `value` in `rd` and change no
other register. The encoding of the shifter operand (`encodingArm`, not among the sources)
is taken to be the one that the architecture reads. -/
theorem LoadImmediate_loads (encodingArm : ShifterOperand → Nat)
    (henc : EncodesOperand2 encodingArm) (buffer_ : List Nat) (rd cond : Nat) (value : Int)
    (hd : rd < 16) (hc : cond < 15) :
    ∃ code : List Nat,
      Arm32Assembler.LoadImmediate encodingArm buffer_ rd value cond
        = .ok (buffer_ ++ code) ∧
      (code.length = 4 ∨ code.length = 8) ∧
      (code.length = 4 ↔
        ((∃ rot, rot < 16 ∧ FitsShifterOperand (toU32 value) rot) ∨
         (∃ rot, rot < 16 ∧ FitsShifterOperand (toU32 (bitNot32 value)) rot) ∨
         toU32 value / 65536 = 0)) ∧
      ∀ regs : Nat → Nat, armRun code regs = some (Function.update regs rd (toU32 value)) := by
  have hx := toU32_lt value
  have hnx := toU32_lt (bitNot32 value)
  unfold Arm32Assembler.LoadImmediate
  cases h1 : (Arm32Assembler.ShifterOperandCanHoldArm32 (toU32 value)
      ShifterOperand.empty).1 with
  | true =>
    obtain ⟨code, hl, he, hr⟩ := emit_dp_imm henc buffer_ cond 0 rd MOV .kCcDontCare
      (toU32 value) ShifterOperand.empty (by omega) (by omega) hd (Or.inl rfl) hx h1
    refine ⟨code, ?_, Or.inl hl, ⟨fun _ => Or.inl ((canHold_iff _ _ hx).mp h1), fun _ => hl⟩,
      fun regs => ?_⟩
    · simp only [h1, if_true]
      exact he
    · have := hr [] regs
      rw [List.append_nil] at this
      rw [this]
      rfl
  | false =>
    have hso := canHold_false_snd _ _ hx h1
    have hnot1 : ¬ ∃ rot, rot < 16 ∧ FitsShifterOperand (toU32 value) rot := by
      intro h
      rw [(canHold_iff _ ShifterOperand.empty hx).mpr h] at h1
      cases h1
    simp only [h1, hso, Bool.false_eq_true, if_false]
    cases h2 : (Arm32Assembler.ShifterOperandCanHoldArm32 (toU32 (bitNot32 value))
        ShifterOperand.empty).1 with
    | true =>
      obtain ⟨code, hl, he, hr⟩ := emit_dp_imm henc buffer_ cond 0 rd MVN .kCcDontCare
        (toU32 (bitNot32 value)) ShifterOperand.empty (by omega) (by omega) hd
        (Or.inr (Or.inl rfl)) hnx h2
      refine ⟨code, ?_, Or.inl hl,
        ⟨fun _ => Or.inr (Or.inl ((canHold_iff _ _ hnx).mp h2)), fun _ => hl⟩,
        fun regs => ?_⟩
      · simp only [if_true]
        exact he
      · have := hr [] regs
        rw [List.append_nil] at this
        rw [this]
        simp only [show ¬ (MVN = MOV) by decide, if_false, if_true]
        rw [toU32_bitNot32]
        have : 4294967295 - (4294967295 - toU32 value) = toU32 value := by omega
        rw [this]
        rfl
    | false =>
      have hnot2 : ¬ ∃ rot, rot < 16 ∧ FitsShifterOperand (toU32 (bitNot32 value)) rot := by
        intro h
        rw [(canHold_iff _ ShifterOperand.empty hnx).mpr h] at h2
        cases h2
      obtain ⟨code, hl, hiff, he, hr⟩ :=
        emit_movw_movt buffer_ cond rd (toU32 value) (by omega) hd hx
      refine ⟨code, ?_, hl, ⟨fun h => Or.inr (Or.inr ?_), fun h => ?_⟩, fun regs => ?_⟩
      · simp only [Bool.false_eq_true, if_false]
        exact he
      · rw [← High16Bits_eq _ hx]
        exact hiff.mp h
      · rcases h with h | h | h
        · exact absurd h hnot1
        · exact absurd h hnot2
        · rw [← High16Bits_eq _ hx] at h
          exact hiff.mpr h
      · have := hr [] regs
        rw [List.append_nil] at this
        rw [this]
        rfl

theorem LoadImmediate_loads_witness :
    EncodesOperand2 encodingArmPlain ∧
    Arm32Assembler.LoadImmediate encodingArmPlain [] 3 0x12345678 14
      = .ok [0x78, 0x36, 0x05, 0xe3, 0x34, 0x32, 0x41, 0xe3] ∧
    Arm32Assembler.LoadImmediate encodingArmPlain [] 3 (-2) 14
      = .ok [0x01, 0x30, 0xe0, 0xe3] ∧
    (armRun [0x01, 0x30, 0xe0, 0xe3] (fun _ => 7)).map (fun regs => (regs 3, regs 4))
      = some (0xfffffffe, 7) ∧
    ∃ code : List Nat,
      Arm32Assembler.LoadImmediate encodingArmPlain [] (3 : Nat) 0x12345678 (14 : Nat)
        = .ok ([] ++ code) ∧
      (code.length = 4 ∨ code.length = 8) ∧
      ∀ regs : Nat → Nat, armRun code regs = some (Function.update regs 3 0x12345678) := by
  have henc : EncodesOperand2 encodingArmPlain :=
    ⟨fun so h1 _ => by unfold encodingArmPlain; rw [h1], fun rm => rfl⟩
  obtain ⟨code, h1, h2, _, h4⟩ :=
    LoadImmediate_loads encodingArmPlain henc [] 3 14 0x12345678 (by decide) (by decide)
  exact ⟨henc, by decide, by decide, by decide, code, h1, h2, h4⟩
/-! ## C35: `AddConstant` -/

theorem toU32_neg_sub (a : Nat) (value : Int) :
    wrap32 (a + 4294967296 - toU32 (-value)) = wrap32 (a + toU32 value) := by
  unfold wrap32 toU32
  omega

theorem toU32_bitNot32_neg (value : Int) :
    4294967295 - toU32 (bitNot32 (-value)) = toU32 (-value) := by
  unfold toU32 bitNot32
  omega

/-- C35. For every core register `rd`, every core register `rn` other than `IP`, every
32-bit value, every condition and every `set_cc`, `Arm32Assembler::AddConstant` passes its
checks and emits at most three instructions; under the architectural meaning of the
instructions, the words emitted, executed with their condition holding on registers that
hold 32-bit values, leave `rn + value` modulo `2 ^ 32` in `rd`, in each branch. Nothing is
emitted when `value == 0`, `set_cc != kCcSet` and `rd == rn`. No register other than `rd`
and `IP` changes, and `IP` changes (when it is not `rd`) only in the branches that need a
scratch register, that is when `value` is not zero with `set_cc != kCcSet` aside and neither
`value` nor `-value` fits a shifter operand. The encoding of the shifter operand
(`encodingArm`, not among the sources) is taken to be the one that the architecture
reads. -/
theorem AddConstant_adds (encodingArm : ShifterOperand → Nat)
    (henc : EncodesOperand2 encodingArm) (buffer_ : List Nat) (rd rn cond : Nat)
    (value : Int) (set_cc : SetCc) (hd : rd < 16) (hn : rn < 16) (hc : cond < 15)
    (hip : rn ≠ 12) :
    ∃ code : List Nat,
      Arm32Assembler.AddConstant encodingArm buffer_ rd rn value cond set_cc
        = .ok (buffer_ ++ code) ∧
      code.length ≤ 12 ∧
      (value = 0 → set_cc ≠ .kCcSet → rd = rn → code = []) ∧
      ∀ regs : Nat → Nat, (∀ r, regs r < 4294967296) →
        ∃ regs', armRun code regs = some regs' ∧
          regs' rd = wrap32 (regs rn + toU32 value) ∧
          (∀ r, r ≠ rd → r ≠ 12 → regs' r = regs r) ∧
          (((value = 0 ∧ set_cc ≠ .kCcSet) ∨
              (∃ rot, rot < 16 ∧ FitsShifterOperand (toU32 value) rot) ∨
              (∃ rot, rot < 16 ∧ FitsShifterOperand (toU32 (-value)) rot)) →
            ∀ r, r ≠ rd → regs' r = regs r) := by
  have hx := toU32_lt value
  have hmx := toU32_lt (-value)
  have hnx := toU32_lt (bitNot32 value)
  have hnmx := toU32_lt (bitNot32 (-value))
  have hipne : ((rn : Int) != IP) = true := by
    simp only [IP, bne_iff_ne, ne_eq]
    omega
  unfold Arm32Assembler.AddConstant
  by_cases h0 : value = 0 ∧ set_cc ≠ .kCcSet
  · rw [if_pos h0]
    by_cases hdn : (rd : Int) ≠ (rn : Int)
    · rw [if_pos hdn]
      obtain ⟨code, hl, he, hr⟩ := emit_dp_reg henc buffer_ cond 0 rd rn MOV set_cc
        (by omega) (by omega) hd hn (Or.inl rfl)
      refine ⟨code, he, by omega, fun _ _ e => absurd (by rw [e]) hdn, fun regs hregs => ?_⟩
      have := hr [] regs
      rw [List.append_nil] at this
      refine ⟨_, this.trans rfl, ?_, fun r h1 _ => ?_, fun _ r h1 => ?_⟩
      · rw [Function.update_same, h0.1]
        simp only [if_true]
        unfold wrap32 toU32
        have := hregs rn
        omega
      · exact Function.update_noteq h1 _ _
      · exact Function.update_noteq h1 _ _
    · rw [if_neg hdn]
      have hdn' : rd = rn := by
        by_contra hne
        exact hdn (fun e => hne (by exact_mod_cast e))
      refine ⟨[], by rw [List.append_nil]; rfl, by simp, fun _ _ _ => rfl,
        fun regs hregs => ⟨regs, rfl, ?_, fun _ _ _ => rfl, fun _ _ _ => rfl⟩⟩
      rw [hdn', h0.1]
      unfold wrap32 toU32
      have := hregs rn
      omega
  · rw [if_neg h0]
    cases h1 : (Arm32Assembler.ShifterOperandCanHoldArm32 (toU32 value)
        ShifterOperand.empty).1 with
    | true =>
      obtain ⟨code, hl, he, hr⟩ := emit_dp_imm henc buffer_ cond rn rd ADD set_cc
        (toU32 value) ShifterOperand.empty (by omega) hn hd (Or.inr (Or.inr (Or.inl rfl)))
        hx h1
      refine ⟨code, ?_, by omega, fun e1 e2 _ => absurd ⟨e1, e2⟩ h0, fun regs _ => ?_⟩
      · simp only [h1, if_true]
        exact he
      · have := hr [] regs
        rw [List.append_nil] at this
        refine ⟨_, this.trans rfl, ?_, fun r h1 _ => ?_, fun _ r h1 => ?_⟩
        · rw [Function.update_same]
          simp [ADD, MOV, MVN]
        · exact Function.update_noteq h1 _ _
        · exact Function.update_noteq h1 _ _
    | false =>
      have hso := canHold_false_snd _ _ hx h1
      have hnot1 : ¬ ∃ rot, rot < 16 ∧ FitsShifterOperand (toU32 value) rot := by
        intro h
        rw [(canHold_iff _ ShifterOperand.empty hx).mpr h] at h1
        cases h1
      simp only [h1, hso, Bool.false_eq_true, if_false]
      cases h2 : (Arm32Assembler.ShifterOperandCanHoldArm32 (toU32 (-value))
          ShifterOperand.empty).1 with
      | true =>
        obtain ⟨code, hl, he, hr⟩ := emit_dp_imm henc buffer_ cond rn rd SUB set_cc
          (toU32 (-value)) ShifterOperand.empty (by omega) hn hd
          (Or.inr (Or.inr (Or.inr rfl))) hmx h2
        refine ⟨code, ?_, by omega, fun e1 e2 _ => absurd ⟨e1, e2⟩ h0, fun regs _ => ?_⟩
        · simp only [if_true]
          exact he
        · have := hr [] regs
          rw [List.append_nil] at this
          refine ⟨_, this.trans rfl, ?_, fun r h1 _ => ?_, fun _ r h1 => ?_⟩
          · rw [Function.update_same]
            simp only [show ¬ (SUB = MOV) by decide, show ¬ (SUB = MVN) by decide,
              show ¬ (SUB = ADD) by decide, if_false]
            exact toU32_neg_sub _ _
          · exact Function.update_noteq h1 _ _
          · exact Function.update_noteq h1 _ _
      | false =>
        have hso2 := canHold_false_snd _ _ hmx h2
        have hnot2 : ¬ ∃ rot, rot < 16 ∧ FitsShifterOperand (toU32 (-value)) rot := by
          intro h
          rw [(canHold_iff _ ShifterOperand.empty hmx).mpr h] at h2
          cases h2
        have hnoscratch : ¬ ((value = 0 ∧ set_cc ≠ .kCcSet) ∨
            (∃ rot, rot < 16 ∧ FitsShifterOperand (toU32 value) rot) ∨
            (∃ rot, rot < 16 ∧ FitsShifterOperand (toU32 (-value)) rot)) := by
          rintro (h | h | h)
          · exact h0 h
          · exact hnot1 h
          · exact hnot2 h
        simp only [hso2, Bool.false_eq_true, if_false, hipne, CHECK, if_true, bind,
          Except.bind]
        cases h3 : (Arm32Assembler.ShifterOperandCanHoldArm32 (toU32 (bitNot32 value))
            ShifterOperand.empty).1 with
        | true =>
          obtain ⟨c1, hl1, he1, hr1⟩ := emit_dp_imm henc buffer_ cond 0 12 MVN .kCcKeep
            (toU32 (bitNot32 value)) ShifterOperand.empty (by omega) (by omega) (by omega)
            (Or.inr (Or.inl rfl)) hnx h3
          obtain ⟨c2, hl2, he2, hr2⟩ := emit_dp_reg henc (buffer_ ++ c1) cond rn rd 12 ADD
            set_cc (by omega) hn hd (by omega) (Or.inr (Or.inr (Or.inl rfl)))
          refine ⟨c1 ++ c2, ?_, by rw [List.length_append]; omega,
            fun e1 e2 _ => absurd ⟨e1, e2⟩ h0, fun regs _ => ?_⟩
          · simp only [if_true]
            have he1' : Arm32Assembler.mvn encodingArm buffer_ IP
                (Arm32Assembler.ShifterOperandCanHoldArm32 (toU32 (bitNot32 value))
                  ShifterOperand.empty).2 (cond : Int) .kCcKeep = .ok (buffer_ ++ c1) := he1
            rw [he1']
            have he2' : Arm32Assembler.add encodingArm (buffer_ ++ c1) rd rn
                (ShifterOperand.ofRegister IP) (cond : Int) set_cc
                  = .ok (buffer_ ++ c1 ++ c2) := he2
            rw [List.append_assoc] at he2'
            exact he2'
          · have := hr1 (c2 ++ []) regs
            rw [hr2 [] _, List.append_nil] at this
            refine ⟨_, this.trans rfl, ?_, fun r h1 h2 => ?_,
              fun h => absurd h hnoscratch⟩
            · rw [Function.update_same]
              simp only [show ¬ (ADD = MOV) by decide, show ¬ (ADD = MVN) by decide,
                show ¬ (MVN = MOV) by decide, if_false, if_true]
              rw [Function.update_same, Function.update_noteq hip, toU32_bitNot32]
              congr 2
              omega
            · rw [Function.update_noteq h1, Function.update_noteq h2]
        | false =>
          have hso3 := canHold_false_snd _ _ hnx h3
          simp only [hso3, Bool.false_eq_true, if_false]
          cases h4 : (Arm32Assembler.ShifterOperandCanHoldArm32
              (toU32 (bitNot32 (-value))) ShifterOperand.empty).1 with
          | true =>
            obtain ⟨c1, hl1, he1, hr1⟩ := emit_dp_imm henc buffer_ cond 0 12 MVN .kCcKeep
              (toU32 (bitNot32 (-value))) ShifterOperand.empty (by omega) (by omega)
              (by omega) (Or.inr (Or.inl rfl)) hnmx h4
            obtain ⟨c2, hl2, he2, hr2⟩ := emit_dp_reg henc (buffer_ ++ c1) cond rn rd 12
              SUB set_cc (by omega) hn hd (by omega) (Or.inr (Or.inr (Or.inr rfl)))
            refine ⟨c1 ++ c2, ?_, by rw [List.length_append]; omega,
              fun e1 e2 _ => absurd ⟨e1, e2⟩ h0, fun regs _ => ?_⟩
            · simp only [if_true]
              have he1' : Arm32Assembler.mvn encodingArm buffer_ IP
                  (Arm32Assembler.ShifterOperandCanHoldArm32 (toU32 (bitNot32 (-value)))
                    ShifterOperand.empty).2 (cond : Int) .kCcKeep
                    = .ok (buffer_ ++ c1) := he1
              rw [he1']
              have he2' : Arm32Assembler.sub encodingArm (buffer_ ++ c1) rd rn
                  (ShifterOperand.ofRegister IP) (cond : Int) set_cc
                    = .ok (buffer_ ++ c1 ++ c2) := he2
              rw [List.append_assoc] at he2'
              exact he2'
            · have := hr1 (c2 ++ []) regs
              rw [hr2 [] _, List.append_nil] at this
              refine ⟨_, this.trans rfl, ?_, fun r h1 h2 => ?_,
                fun h => absurd h hnoscratch⟩
              · rw [Function.update_same]
                simp only [show ¬ (SUB = MOV) by decide, show ¬ (SUB = MVN) by decide,
                  show ¬ (SUB = ADD) by decide, show ¬ (MVN = MOV) by decide, if_false,
                  if_true]
                rw [Function.update_same, Function.update_noteq hip, toU32_bitNot32_neg]
                exact toU32_neg_sub _ _
              · rw [Function.update_noteq h1, Function.update_noteq h2]
          | false =>
            have hso4 := canHold_false_snd _ _ hnmx h4
            simp only [hso4, Bool.false_eq_true, if_false]
            obtain ⟨c1, hl1, _, he1, hr1⟩ :=
              emit_movw_movt buffer_ cond 12 (toU32 value) (by omega) (by omega) hx
            obtain ⟨c2, hl2, he2, hr2⟩ := emit_dp_reg henc (buffer_ ++ c1) cond rn rd 12 ADD
              set_cc (by omega) hn hd (by omega) (Or.inr (Or.inr (Or.inl rfl)))
            refine ⟨c1 ++ c2, ?_, by rw [List.length_append]; omega,
              fun e1 e2 _ => absurd ⟨e1, e2⟩ h0, fun regs _ => ?_⟩
            · have he1' : (do
                  let buffer_ ← Arm32Assembler.movw buffer_ IP (Low16Bits (toU32 value))
                    (cond : Int)
                  if High16Bits (toU32 value) != 0 then
                    Arm32Assembler.movt buffer_ IP (High16Bits (toU32 value)) (cond : Int)
                  else pure buffer_) = .ok (buffer_ ++ c1) := he1
              have he2' : Arm32Assembler.add encodingArm (buffer_ ++ c1) rd rn
                  (ShifterOperand.ofRegister IP) (cond : Int) set_cc
                    = .ok (buffer_ ++ c1 ++ c2) := he2
              rw [List.append_assoc] at he2'
              rw [← he2']
              cases hm : Arm32Assembler.movw buffer_ IP (Low16Bits (toU32 value))
                  (cond : Int) with
              | error e =>
                rw [hm] at he1'
                cases he1'
              | ok b1 =>
                rw [hm] at he1'
                simp only [bind, Except.bind] at he1' ⊢
                rw [he1']
            · have := hr1 (c2 ++ []) regs
              rw [hr2 [] _, List.append_nil] at this
              refine ⟨_, this.trans rfl, ?_, fun r h1 h2 => ?_,
                fun h => absurd h hnoscratch⟩
              · rw [Function.update_same]
                simp only [show ¬ (ADD = MOV) by decide, show ¬ (ADD = MVN) by decide,
                  if_false, if_true]
                rw [Function.update_same, Function.update_noteq hip]
              · rw [Function.update_noteq h1, Function.update_noteq h2]

theorem AddConstant_adds_witness :
    EncodesOperand2 encodingArmPlain ∧
    Arm32Assembler.AddConstant encodingArmPlain [] 3 1 0x12345678 14 .kCcDontCare
      = .ok [0x78, 0xc6, 0x05, 0xe3, 0x34, 0xc2, 0x41, 0xe3, 0x0c, 0x30, 0x81, 0xe0] ∧
    Arm32Assembler.AddConstant encodingArmPlain [] 3 1 (-1) 14 .kCcDontCare
      = .ok [0x01, 0x30, 0x41, 0xe2] ∧
    Arm32Assembler.AddConstant encodingArmPlain [] 3 1 (-257) 14 .kCcDontCare
      = .ok [0x01, 0xcc, 0xe0, 0xe3, 0x0c, 0x30, 0x81, 0xe0] ∧
    Arm32Assembler.AddConstant encodingArmPlain [] 3 3 0 14 .kCcDontCare = .ok [] ∧
    (armRun [0x78, 0xc6, 0x05, 0xe3, 0x34, 0xc2, 0x41, 0xe3, 0x0c, 0x30, 0x81, 0xe0]
        (fun r => r)).map (fun regs => (regs 3, regs 1, regs 12, regs 4))
      = some (0x12345679, 1, 0x12345678, 4) ∧
    ∃ code : List Nat,
      Arm32Assembler.AddConstant encodingArmPlain [] (3 : Nat) (1 : Nat) 0x12345678
        (14 : Nat) .kCcDontCare = .ok ([] ++ code) ∧
      code.length ≤ 12 ∧
      ∀ regs : Nat → Nat, (∀ r, regs r < 4294967296) →
        ∃ regs', armRun code regs = some regs' ∧
          regs' 3 = wrap32 (regs 1 + toU32 0x12345678) ∧
          (∀ r, r ≠ 3 → r ≠ 12 → regs' r = regs r) := by
  have henc : EncodesOperand2 encodingArmPlain :=
    ⟨fun so h1 _ => by unfold encodingArmPlain; rw [h1], fun rm => rfl⟩
  obtain ⟨code, h1, h2, _, h4⟩ :=
    AddConstant_adds encodingArmPlain henc [] 3 1 14 0x12345678 .kCcDontCare (by decide)
      (by decide) (by decide) (by decide)
  refine ⟨henc, by decide, by decide, by decide, by decide, by decide, code, h1, h2,
    fun regs hregs => ?_⟩
  obtain ⟨regs', g1, g2, g3, _⟩ := h4 regs hregs
  exact ⟨regs', g1, g2, g3⟩
/-! ## C36: `CHECK(success)` of `LoadSImmediate` and `LoadDImmediate` -/

theorem bind_ne_fault {α β : Type} (m : Except Fault α) (f : α → Except Fault β) (e : Fault)
    (h1 : m ≠ .error e) (h2 : ∀ x, m = .ok x → f x ≠ .error e) : (m >>= f) ≠ .error e := by
  cases m with
  | error e' =>
    intro h
    have h' : (Except.error e' : Except Fault β) = .error e := h
    injection h' with h'
    exact h1 (by rw [h'])
  | ok x => exact h2 x rfl

theorem CHECK_ne_fault (c : Bool) (msg : String) (e : Fault) (h : e ≠ .fatal msg) :
    CHECK c msg ≠ .error e := by
  unfold CHECK
  split
  · intro h'
    cases h'
  · intro h'
    injection h' with h'
    exact h h'.symm

theorem EmitVFPsss_ne_success (buffer_ : List Nat) (cond : Int) (opcode : Nat)
    (sd sn sm : Int) :
    Arm32Assembler.EmitVFPsss buffer_ cond opcode sd sn sm
      ≠ .error (.fatal "CHECK(success)") := by
  unfold Arm32Assembler.EmitVFPsss
  refine bind_ne_fault _ _ _ (CHECK_ne_fault _ _ _ (by decide)) fun _ _ => ?_
  refine bind_ne_fault _ _ _ (CHECK_ne_fault _ _ _ (by decide)) fun _ _ => ?_
  refine bind_ne_fault _ _ _ (CHECK_ne_fault _ _ _ (by decide)) fun _ _ => ?_
  refine bind_ne_fault _ _ _ (CHECK_ne_fault _ _ _ (by decide)) fun _ _ => ?_
  intro h
  cases h

theorem EmitVFPddd_ne_success (buffer_ : List Nat) (cond : Int) (opcode : Nat)
    (dd dn dm : Int) :
    Arm32Assembler.EmitVFPddd buffer_ cond opcode dd dn dm
      ≠ .error (.fatal "CHECK(success)") := by
  unfold Arm32Assembler.EmitVFPddd
  refine bind_ne_fault _ _ _ (CHECK_ne_fault _ _ _ (by decide)) fun _ _ => ?_
  refine bind_ne_fault _ _ _ (CHECK_ne_fault _ _ _ (by decide)) fun _ _ => ?_
  refine bind_ne_fault _ _ _ (CHECK_ne_fault _ _ _ (by decide)) fun _ _ => ?_
  refine bind_ne_fault _ _ _ (CHECK_ne_fault _ _ _ (by decide)) fun _ _ => ?_
  intro h
  cases h

theorem vmovsr_ne_success (buffer_ : List Nat) (sn rt cond : Int) :
    Arm32Assembler.vmovsr buffer_ sn rt cond ≠ .error (.fatal "CHECK(success)") := by
  unfold Arm32Assembler.vmovsr
  refine bind_ne_fault _ _ _ (CHECK_ne_fault _ _ _ (by decide)) fun _ _ => ?_
  refine bind_ne_fault _ _ _ (CHECK_ne_fault _ _ _ (by decide)) fun _ _ => ?_
  refine bind_ne_fault _ _ _ (CHECK_ne_fault _ _ _ (by decide)) fun _ _ => ?_
  refine bind_ne_fault _ _ _ (CHECK_ne_fault _ _ _ (by decide)) fun _ _ => ?_
  refine bind_ne_fault _ _ _ (CHECK_ne_fault _ _ _ (by decide)) fun _ _ => ?_
  intro h
  cases h

theorem EmitType01_ne_success (encodingArm : ShifterOperand → Nat) (buffer_ : List Nat)
    (cond : Int) (type opcode : Nat) (set_cc : SetCc) (rn rd : Int) (so : ShifterOperand) :
    Arm32Assembler.EmitType01 encodingArm buffer_ cond type opcode set_cc rn rd so
      ≠ .error (.fatal "CHECK(success)") := by
  unfold Arm32Assembler.EmitType01
  refine bind_ne_fault _ _ _ (CHECK_ne_fault _ _ _ (by decide)) fun _ _ => ?_
  refine bind_ne_fault _ _ _ (CHECK_ne_fault _ _ _ (by decide)) fun _ _ => ?_
  intro h
  cases h

theorem type_ne_success (so : ShifterOperand) :
    so.type ≠ .error (.fatal "CHECK(success)") := by
  unfold ShifterOperand.type
  refine bind_ne_fault _ _ _ (CHECK_ne_fault _ _ _ (by decide)) fun _ _ => ?_
  intro h
  cases h

theorem movw_ne_success (buffer_ : List Nat) (rd : Int) (imm16 : Nat) (cond : Int) :
    Arm32Assembler.movw buffer_ rd imm16 cond ≠ .error (.fatal "CHECK(success)") := by
  unfold Arm32Assembler.movw
  refine bind_ne_fault _ _ _ (CHECK_ne_fault _ _ _ (by decide)) fun _ _ => ?_
  intro h
  cases h

theorem movt_ne_success (buffer_ : List Nat) (rd : Int) (imm16 : Nat) (cond : Int) :
    Arm32Assembler.movt buffer_ rd imm16 cond ≠ .error (.fatal "CHECK(success)") := by
  unfold Arm32Assembler.movt
  refine bind_ne_fault _ _ _ (CHECK_ne_fault _ _ _ (by decide)) fun _ _ => ?_
  intro h
  cases h

theorem LoadImmediate_ne_success (encodingArm : ShifterOperand → Nat) (buffer_ : List Nat)
    (rd : Int) (value : Int) (cond : Int) :
    Arm32Assembler.LoadImmediate encodingArm buffer_ rd value cond
      ≠ .error (.fatal "CHECK(success)") := by
  unfold Arm32Assembler.LoadImmediate
  dsimp only
  split
  · unfold Arm32Assembler.mov
    exact bind_ne_fault _ _ _ (type_ne_success _) fun _ _ => EmitType01_ne_success _ _ _ _ _ _ _ _ _
  · split
    · unfold Arm32Assembler.mvn
      exact bind_ne_fault _ _ _ (type_ne_success _) fun _ _ =>
        EmitType01_ne_success _ _ _ _ _ _ _ _ _
    · refine bind_ne_fault _ _ _ (movw_ne_success _ _ _ _) fun _ _ => ?_
      split
      · exact movt_ne_success _ _ _ _
      · intro h
        cases h

theorem bind_pair_true {α : Type} (m : Except Fault α) :
    (m >>= fun b => (pure (b, true) : Except Fault (α × Bool))) = m.map fun b => (b, true) := by
  cases m <;> rfl

theorem vmovs_two (buffer_ : List Nat) (sd cond : Int) :
    Arm32Assembler.vmovs buffer_ sd 0x40000000 cond
      = (Arm32Assembler.EmitVFPsss buffer_ cond 0xb00000 sd S0 S0).map fun b => (b, true) := by
  unfold Arm32Assembler.vmovs
  rw [if_pos (by decide)]
  exact bind_pair_true _

theorem vmovd_two (buffer_ : List Nat) (dd cond : Int) :
    Arm32Assembler.vmovd buffer_ dd 0x4000000000000000 cond
      = (Arm32Assembler.EmitVFPddd buffer_ cond 0xb00100 dd D0 D0).map fun b => (b, true) := by
  unfold Arm32Assembler.vmovd
  rw [if_pos (by decide)]
  exact bind_pair_true _

theorem vmovs_ne_success (buffer_ : List Nat) (sd : Int) (s_imm : Nat) (cond : Int) :
    Arm32Assembler.vmovs buffer_ sd s_imm cond ≠ .error (.fatal "CHECK(success)") := by
  unfold Arm32Assembler.vmovs
  dsimp only
  split
  · refine bind_ne_fault _ _ _ (EmitVFPsss_ne_success _ _ _ _ _ _) fun _ _ => ?_
    intro h
    cases h
  · intro h
    cases h

theorem vmovd_ne_success (buffer_ : List Nat) (dd : Int) (d_imm : Nat) (cond : Int) :
    Arm32Assembler.vmovd buffer_ dd d_imm cond ≠ .error (.fatal "CHECK(success)") := by
  unfold Arm32Assembler.vmovd
  dsimp only
  split
  · refine bind_ne_fault _ _ _ (EmitVFPddd_ne_success _ _ _ _ _ _) fun _ _ => ?_
    intro h
    cases h
  · intro h
    cases h

theorem map_pair_true {α : Type} (m : Except Fault α) (r : α × Bool)
    (h : (m.map fun b => (b, true)) = .ok r) : r.2 = true := by
  cases m with
  | error e => cases h
  | ok b =>
    have h' : (Except.ok (b, true) : Except Fault (α × Bool)) = .ok r := h
    injection h' with h'
    rw [← h']

theorem LoadSImmediate_ne_success (encodingArm : ShifterOperand → Nat) (buffer_ : List Nat)
    (sd : Int) (value : Nat) (cond : Int) :
    ArmAssembler.LoadSImmediate encodingArm buffer_ sd value cond
      ≠ .error (.fatal "CHECK(success)") := by
  unfold ArmAssembler.LoadSImmediate
  refine bind_ne_fault _ _ _ (vmovs_ne_success _ _ _ _) fun r _ => ?_
  obtain ⟨b, done⟩ := r
  cases done with
  | true =>
    intro h
    cases h
  | false =>
    dsimp only
    simp only [Bool.not_false, if_true]
    split
    · refine bind_ne_fault _ _ _ (vmovs_ne_success _ _ _ _) fun r hr => ?_
      rw [vmovs_two] at hr
      have hs := map_pair_true _ _ hr
      obtain ⟨b2, s⟩ := r
      dsimp only at hs ⊢
      subst hs
      exact EmitVFPsss_ne_success _ _ _ _ _ _
    · exact bind_ne_fault _ _ _ (LoadImmediate_ne_success _ _ _ _ _) fun _ _ =>
        vmovsr_ne_success _ _ _ _

theorem LoadDImmediate_ne_success (encodingArm : ShifterOperand → Nat) (buffer_ : List Nat)
    (sd : Int) (value : Nat) (cond : Int) :
    ArmAssembler.LoadDImmediate encodingArm buffer_ sd value cond
      ≠ .error (.fatal "CHECK(success)") := by
  unfold ArmAssembler.LoadDImmediate
  refine bind_ne_fault _ _ _ (vmovd_ne_success _ _ _ _) fun r _ => ?_
  obtain ⟨b, done⟩ := r
  cases done with
  | true =>
    intro h
    cases h
  | false =>
    dsimp only
    simp only [Bool.not_false, if_true]
    split
    · refine bind_ne_fault _ _ _ (vmovd_ne_success _ _ _ _) fun r hr => ?_
      rw [vmovd_two] at hr
      have hs := map_pair_true _ _ hr
      obtain ⟨b2, s⟩ := r
      dsimp only at hs ⊢
      subst hs
      exact EmitVFPddd_ne_success _ _ _ _ _ _
    · split
      · refine bind_ne_fault _ _ _ (LoadSImmediate_ne_success _ _ _ _ _) fun _ _ => ?_
        split
        · exact EmitVFPsss_ne_success _ _ _ _ _ _
        · exact LoadSImmediate_ne_success _ _ _ _ _
      · intro h
        injection h with h
        injection h with h
        exact absurd h (by decide)

theorem EmitVFPsss_returns (buffer_ : List Nat) (cond : Int) (opcode : Nat) (sd sn sm : Int)
    (hd : sd ≠ kNoSRegister) (hn : sn ≠ kNoSRegister) (hm : sm ≠ kNoSRegister)
    (hc : cond ≠ kNoCondition) :
    ∃ w, Arm32Assembler.EmitVFPsss buffer_ cond opcode sd sn sm
      = .ok (buffer_ ++ wordBytes w) := by
  unfold Arm32Assembler.EmitVFPsss
  have e1 : (sd != kNoSRegister) = true := by simpa using hd
  have e2 : (sn != kNoSRegister) = true := by simpa using hn
  have e3 : (sm != kNoSRegister) = true := by simpa using hm
  have e4 : (cond != kNoCondition) = true := by simpa using hc
  rw [e1, e2, e3, e4]
  exact ⟨_, rfl⟩

theorem EmitVFPddd_returns (buffer_ : List Nat) (cond : Int) (opcode : Nat) (dd dn dm : Int)
    (hd : dd ≠ kNoDRegister) (hn : dn ≠ kNoDRegister) (hm : dm ≠ kNoDRegister)
    (hc : cond ≠ kNoCondition) :
    ∃ w, Arm32Assembler.EmitVFPddd buffer_ cond opcode dd dn dm
      = .ok (buffer_ ++ wordBytes w) := by
  unfold Arm32Assembler.EmitVFPddd
  have e1 : (dd != kNoDRegister) = true := by simpa using hd
  have e2 : (dn != kNoDRegister) = true := by simpa using hn
  have e3 : (dm != kNoDRegister) = true := by simpa using hm
  have e4 : (cond != kNoCondition) = true := by simpa using hc
  rw [e1, e2, e3, e4]
  exact ⟨_, rfl⟩

theorem LoadSImmediate_zero (encodingArm : ShifterOperand → Nat) (buffer_ : List Nat)
    (sd cond : Int) (hd : sd ≠ kNoSRegister) (hc : cond ≠ kNoCondition) :
    ∃ w1 w2,
      Arm32Assembler.vmovs buffer_ sd 0x40000000 cond = .ok (buffer_ ++ wordBytes w1, true) ∧
      Arm32Assembler.vsubs (buffer_ ++ wordBytes w1) sd sd sd cond
        = .ok (buffer_ ++ wordBytes w1 ++ wordBytes w2) ∧
      ArmAssembler.LoadSImmediate encodingArm buffer_ sd 0 cond
        = .ok (buffer_ ++ wordBytes w1 ++ wordBytes w2) := by
  obtain ⟨w1, h1⟩ := EmitVFPsss_returns buffer_ cond 0xb00000 sd S0 S0 hd (by decide)
    (by decide) hc
  obtain ⟨w2, h2⟩ := EmitVFPsss_returns (buffer_ ++ wordBytes w1) cond (B 21 ||| B 20 ||| B 6)
    sd sd sd hd hd hd hc
  have hv : Arm32Assembler.vmovs buffer_ sd 0x40000000 cond
      = .ok (buffer_ ++ wordBytes w1, true) := by
    rw [vmovs_two, h1]
    rfl
  refine ⟨w1, w2, hv, h2, ?_⟩
  unfold ArmAssembler.LoadSImmediate
  have h0 : Arm32Assembler.vmovs buffer_ sd 0 cond = .ok (buffer_, false) := rfl
  rw [h0]
  simp only [bind, Except.bind, Bool.not_false, if_true]
  rw [if_pos (by decide), hv]
  exact h2

theorem LoadDImmediate_zero (encodingArm : ShifterOperand → Nat) (buffer_ : List Nat)
    (sd cond : Int) (hd : sd ≠ kNoDRegister) (hc : cond ≠ kNoCondition) :
    ∃ w1 w2,
      Arm32Assembler.vmovd buffer_ sd 0x4000000000000000 cond
        = .ok (buffer_ ++ wordBytes w1, true) ∧
      Arm32Assembler.vsubd (buffer_ ++ wordBytes w1) sd sd sd cond
        = .ok (buffer_ ++ wordBytes w1 ++ wordBytes w2) ∧
      ArmAssembler.LoadDImmediate encodingArm buffer_ sd 0 cond
        = .ok (buffer_ ++ wordBytes w1 ++ wordBytes w2) := by
  obtain ⟨w1, h1⟩ := EmitVFPddd_returns buffer_ cond 0xb00100 sd D0 D0 hd (by decide)
    (by decide) hc
  obtain ⟨w2, h2⟩ := EmitVFPddd_returns (buffer_ ++ wordBytes w1) cond (B 21 ||| B 20 ||| B 6)
    sd sd sd hd hd hd hc
  have hv : Arm32Assembler.vmovd buffer_ sd 0x4000000000000000 cond
      = .ok (buffer_ ++ wordBytes w1, true) := by
    rw [vmovd_two, h1]
    rfl
  refine ⟨w1, w2, hv, h2, ?_⟩
  unfold ArmAssembler.LoadDImmediate
  have h0 : Arm32Assembler.vmovd buffer_ sd 0 cond = .ok (buffer_, false) := rfl
  rw [h0]
  simp only [bind, Except.bind, Bool.not_false, if_true]
  rw [if_pos (by decide), hv]
  exact h2

/-- C36. The `CHECK(success)` of `ArmAssembler::LoadSImmediate` and of
`ArmAssembler::LoadDImmediate` never fails, whatever the register, the value and the
condition: neither function ends in that fault. The reason is that `vmovs(sd, 2.0f)` (bit
pattern `0x40000000`) and `vmovd(dd, 2.0)` (bit pattern `0x4000000000000000`) pass the
test of the encodable immediates: whenever they return, they return `true`, and they
return for every register and condition other than `kNoSRegister`, `kNoDRegister` and
`kNoCondition`. For the value 0.0 (bit pattern 0) the direct `vmovs` and `vmovd` emit
nothing and return `false`, so that loading 0.0 emits the `vmov` of 2.0 followed by the
subtraction of the register from itself, eight bytes in all. -/
theorem LoadSImmediate_check_success :
    (∀ (encodingArm : ShifterOperand → Nat) (buffer_ : List Nat) (sd : Int) (value : Nat)
        (cond : Int),
      ArmAssembler.LoadSImmediate encodingArm buffer_ sd value cond
        ≠ .error (.fatal "CHECK(success)")) ∧
    (∀ (encodingArm : ShifterOperand → Nat) (buffer_ : List Nat) (sd : Int) (value : Nat)
        (cond : Int),
      ArmAssembler.LoadDImmediate encodingArm buffer_ sd value cond
        ≠ .error (.fatal "CHECK(success)")) ∧
    (∀ (buffer_ : List Nat) (sd cond : Int) (r : List Nat × Bool),
      Arm32Assembler.vmovs buffer_ sd 0x40000000 cond = .ok r → r.2 = true) ∧
    (∀ (buffer_ : List Nat) (dd cond : Int) (r : List Nat × Bool),
      Arm32Assembler.vmovd buffer_ dd 0x4000000000000000 cond = .ok r → r.2 = true) ∧
    (∀ (buffer_ : List Nat) (sd cond : Int),
      Arm32Assembler.vmovs buffer_ sd 0 cond = .ok (buffer_, false)) ∧
    (∀ (buffer_ : List Nat) (dd cond : Int),
      Arm32Assembler.vmovd buffer_ dd 0 cond = .ok (buffer_, false)) ∧
    (∀ (encodingArm : ShifterOperand → Nat) (buffer_ : List Nat) (sd cond : Int),
      sd ≠ kNoSRegister → cond ≠ kNoCondition →
      ∃ w1 w2,
        Arm32Assembler.vmovs buffer_ sd 0x40000000 cond
          = .ok (buffer_ ++ wordBytes w1, true) ∧
        Arm32Assembler.vsubs (buffer_ ++ wordBytes w1) sd sd sd cond
          = .ok (buffer_ ++ wordBytes w1 ++ wordBytes w2) ∧
        ArmAssembler.LoadSImmediate encodingArm buffer_ sd 0 cond
          = .ok (buffer_ ++ wordBytes w1 ++ wordBytes w2)) ∧
    (∀ (encodingArm : ShifterOperand → Nat) (buffer_ : List Nat) (dd cond : Int),
      dd ≠ kNoDRegister → cond ≠ kNoCondition →
      ∃ w1 w2,
        Arm32Assembler.vmovd buffer_ dd 0x4000000000000000 cond
          = .ok (buffer_ ++ wordBytes w1, true) ∧
        Arm32Assembler.vsubd (buffer_ ++ wordBytes w1) dd dd dd cond
          = .ok (buffer_ ++ wordBytes w1 ++ wordBytes w2) ∧
        ArmAssembler.LoadDImmediate encodingArm buffer_ dd 0 cond
          = .ok (buffer_ ++ wordBytes w1 ++ wordBytes w2)) ∧
    ArmAssembler.LoadSImmediate encodingArmPlain [] 3 0 AL
      = .ok [0x00, 0x1a, 0xf0, 0xee, 0xe1, 0x1a, 0x71, 0xee] ∧
    ArmAssembler.LoadDImmediate encodingArmPlain [] 3 0 AL
      = .ok [0x00, 0x3b, 0xb0, 0xee, 0x43, 0x3b, 0x33, 0xee] := by
  refine ⟨LoadSImmediate_ne_success, LoadDImmediate_ne_success, ?_, ?_, fun _ _ _ => rfl,
    fun _ _ _ => rfl, LoadSImmediate_zero, LoadDImmediate_zero, by decide, by decide⟩
  · intro buffer_ sd cond r h
    rw [vmovs_two] at h
    exact map_pair_true _ _ h
  · intro buffer_ dd cond r h
    rw [vmovd_two] at h
    exact map_pair_true _ _ h
/-! ## C38: the size of the code is `starting_offset` -/

theorem sized_transfer {lirs lirs1 : List LIR} {i : Nat}
    (hl : (layoutOf lirs1 i).map (fun x => (x.offset, x.is_nop, x.size))
      = (layoutOf lirs i).map (fun x => (x.offset, x.is_nop, x.size)))
    (hb : (lirs1[i]?).map (fun l => l.opcode.base) = (lirs[i]?).map (fun l => l.opcode.base))
    (h : ∀ r, lirs[i]? = some r → r.flags.is_nop = false →
      r.flags.size = if IsPseudoLirOp (UNWIDE r.opcode) then 0 else 4) :
    ∀ r1, lirs1[i]? = some r1 → r1.flags.is_nop = false →
      r1.flags.size = if IsPseudoLirOp (UNWIDE r1.opcode) then 0 else 4 := by
  intro r1 hr1 hn
  unfold layoutOf at hl
  rw [hr1] at hl hb
  cases hr : lirs[i]? with
  | none =>
    rw [hr] at hb
    cases hb
  | some r =>
    rw [hr] at hl hb
    simp only [Option.map_some', Option.some.injEq, Prod.mk.injEq, LIR.layout] at hl hb
    have h1 := h r hr (by rw [← hl.2.1]; exact hn)
    rw [hl.2.2, h1]
    show _ = if IsPseudoLirOp r1.opcode.base then 0 else 4
    rw [hb]
    rfl

theorem base_widenedArena_node (env : Env) (generation : Nat) (prev : Option Nat) (p : Nat)
    (opcode : Opcode) (lirs : List LIR) (r : LIR) (r1 : LIR) (hlt : p < lirs.length)
    (hr1 : (widenedArena env generation prev p opcode lirs r)[p]? = some r1) :
    r1.opcode.base = .insn kA64Tst2rl := by
  have hc := widenedArena_content env generation prev p opcode lirs r p
  rw [hr1] at hc
  rw [List.getElem?_append_left (by rw [length_updAt]; exact hlt), getElem?_updAt,
    if_pos rfl] at hc
  obtain ⟨r0, hr0⟩ : ∃ r0, lirs[p]? = some r0 := ⟨lirs[p], List.getElem?_eq_getElem hlt⟩
  rw [hr0] at hc
  simp only [Option.map_some', Option.some.injEq, Prod.mk.injEq] at hc
  rw [hc.2.1]
  split <;> rfl
theorem lsum_marked (L : Nat → Option Layout) (ma mid mbt : List (Nat × Bool)) :
    lsum L (insnsOf ((ma ++ mid) ++ mbt))
      = lsum L (insnsOf ma) + lsum L (insnsOf mid) + lsum L (insnsOf mbt) := by
  rw [insnsOf_append, insnsOf_append, lsum_append, lsum_append]

theorem lsum_marked_node (L : Nat → Option Layout) (ma mbt : List (Nat × Bool)) (p : Nat)
    (b : Bool) :
    lsum L (insnsOf (ma ++ (p, b) :: mbt))
      = lsum L (insnsOf ma) + lsize L p + lsum L (insnsOf mbt) := by
  rw [insnsOf_append, lsum_append]
  show _ + lsum L (p :: insnsOf mbt) = _
  rw [lsum_cons, Nat.add_assoc]

theorem mem_insnsOf_node {i p : Nat} {b : Bool} {ma mbt : List (Nat × Bool)} :
    i ∈ insnsOf (ma ++ (p, b) :: mbt) ↔ i ∈ insnsOf ma ∨ i = p ∨ i ∈ insnsOf mbt := by
  rw [insnsOf_append]
  show i ∈ insnsOf ma ++ p :: insnsOf mbt ↔ _
  simp

theorem mem_insnsOf_two {i p q : Nat} {b c : Bool} {ma mbt : List (Nat × Bool)} :
    i ∈ insnsOf ((ma ++ [(p, b), (q, c)]) ++ mbt)
      ↔ i ∈ insnsOf ma ∨ i = p ∨ i = q ∨ i ∈ insnsOf mbt := by
  rw [insnsOf_append, insnsOf_append]
  show i ∈ (insnsOf ma ++ [p, q]) ++ insnsOf mbt ↔ _
  simp

theorem lsize_of_layout {L : Nat → Option Layout} {i : Nat} {l : Layout} (h : L i = some l) :
    lsize L i = if l.is_nop then 0 else l.size := by
  unfold lsize
  rw [h]

/-- A round of the inner loop that succeeds keeps the invariant of the pass and the sizes
of the records as `EncodeLIRs` emits them, and it changes the sum of the sizes of the
stream by what it adds to `offset_adjustment`. -/
theorem fixupStep_bytes {env : Env} {fuel generation : Nat} {m m1 : Mir2Lir}
    {loc loc1 : FixupLocals} {p : Nat} {ma mbt : List (Nat × Bool)}
    (hn : PassInv (layoutOf m.lirs) m.lirs.length m.first_lir_insn_ m.first_fixup_
      loc.offset_adjustment (some p) loc.prev_lir ma ((p, true) :: mbt))
    (hsz : SizesAsEmitted m.lirs (insnsOf (ma ++ (p, true) :: mbt)))
    (h : fixupStep env fuel generation m loc p = .ok (m1, loc1)) :
    ∃ ma1, PassInv (layoutOf m1.lirs) m1.lirs.length m1.first_lir_insn_ m1.first_fixup_
        loc1.offset_adjustment loc1.lir loc1.prev_lir ma1 mbt ∧
      SizesAsEmitted m1.lirs (insnsOf (ma1 ++ mbt)) ∧
      (lsum (layoutOf m1.lirs) (insnsOf (ma1 ++ mbt)) : Int) - loc1.offset_adjustment
        = (lsum (layoutOf m.lirs) (insnsOf (ma ++ (p, true) :: mbt)) : Int)
          - loc.offset_adjustment := by
  obtain ⟨l, hl, _, _, _, _, _, _, _, _, _, hnd, hlt⟩ := hn.at_node
  obtain ⟨hpN, hnp, hnn, hcp, hcn, hnc, hqp, hqn⟩ := hn.distinct hl
  obtain ⟨r, hr, hrl⟩ := layoutOf_get hl
  have hdis := (List.nodup_append.mp hnd).2.2
  have hnd2 := (List.nodup_append.mp hnd).2.1
  have hpma : p ∉ insnsOf ma := fun hmem => hdis hmem (List.mem_cons_self _ _)
  have hpmb : p ∉ insnsOf mbt := (List.nodup_cons.mp hnd2).1
  have hNa : ∀ j ∈ insnsOf ma, j ≠ m.lirs.length :=
    fun j hj => Nat.ne_of_lt (hlt j (by simp [hj]))
  have hNb : ∀ j ∈ insnsOf mbt, j ≠ m.lirs.length :=
    fun j hj => Nat.ne_of_lt (hlt j (by simp [hj]))
  have hpa : ∀ j ∈ insnsOf ma, j ≠ p := fun j hj e => hpma (e ▸ hj)
  have hpb : ∀ j ∈ insnsOf mbt, j ≠ p := fun j hj e => hpmb (e ▸ hj)
  have hrV := visitState_get m loc.offset_adjustment generation p r hr
  have hlenV : (visitState m loc.offset_adjustment generation p).lirs.length = m.lirs.length :=
    length_updAt _ _ _
  have hlV : (visitRec r loc.offset_adjustment generation).layout
      = { l with offset := wrap32 (l.offset + toU32 loc.offset_adjustment) } := by
    rw [← hrl]
    rfl
  have hVset : ∀ x, (visitState m loc.offset_adjustment generation p).lirs.set p x
      = m.lirs.set p x := by
    intro x
    unfold visitState
    rw [updAt_of_some hr, List.set_set]
  have hVget : ∀ j : Nat, j ≠ p →
      (visitState m loc.offset_adjustment generation p).lirs[j]? = m.lirs[j]? := by
    intro j hj
    unfold visitState
    rw [getElem?_updAt, if_neg hj]
  have hVbase : ∀ j : Nat, ((visitState m loc.offset_adjustment generation p).lirs[j]?).map
      (fun l : LIR => l.opcode.base) = (m.lirs[j]?).map (fun l : LIR => l.opcode.base) := by
    intro j
    unfold visitState
    exact map_updAt_of_preserve (fun l : LIR => l.opcode.base) _ _ _ _ (fun _ => rfl)
  have hold : ∀ i, i ∈ insnsOf ma ∨ i = p ∨ i ∈ insnsOf mbt →
      ∀ r0, m.lirs[i]? = some r0 → r0.flags.is_nop = false →
        r0.flags.size = if IsPseudoLirOp (UNWIDE r0.opcode) then 0 else 4 :=
    fun i hi => hsz i (mem_insnsOf_node.mpr hi)
  have hnop : ∀ k : FixupKind, k ≠ kFixupNone → l.fixup = k → l.is_nop = false := by
    intro k hk hlk
    cases hb : l.is_nop with
    | false => rfl
    | true =>
      have := hn.inert p l (List.mem_append_right _ (List.mem_cons_self _ _)) hl hb
      rw [hlk] at this
      exact absurd this hk
  have hsumOld := lsum_marked_node (layoutOf m.lirs) ma mbt p true
  have hpOld := lsize_of_layout hl
  rw [fixupStep_eq env fuel generation m loc p r hr] at h
  obtain ⟨res, hsw, hrest⟩ := bind_ok h
  have hsw2 : fixupSwitch env fuel generation
      (visitState m loc.offset_adjustment generation p) loc p
      (visitRec r loc.offset_adjustment generation).flags.fixup = .ok res := hsw
  rcases fixupSwitch_effect hrV hsw2 (by rw [hlenV]; exact hcn) with
    ⟨r1, hr1, hb1, hres⟩ | ⟨r1, hk, hb1, hr1, hres⟩ | ⟨hk, rN, hrN, hres⟩ |
    ⟨hk, ⟨q, hq⟩, _, hres⟩
  · -- the layout of the node is kept
    subst hres
    have hget : getLIR ((visitState m loc.offset_adjustment generation p).lirs.set p r1)
        (some p) = .ok r1 := getLIR_some (getElem?_set_self_of_some hrV r1)
    simp only [Bool.false_eq_true, if_false, hget, bind, Except.bind, pure, Except.pure]
      at hrest
    injection hrest with hrest
    injection hrest with hm1 hloc1
    subst hm1
    subst hloc1
    have hL : ∀ j, layoutOf ((visitState m loc.offset_adjustment generation p).lirs.set p r1) j
        = if j = p then some r1.layout else layoutOf m.lirs j := by
      intro j
      rw [layoutOf_set hrV]
      by_cases hj : j = p
      · rw [if_pos hj, if_pos hj]
      · rw [if_neg hj, if_neg hj, layoutOf_visitState m _ _ _ hj]
    have hr1l : r1.layout = { l with offset := wrap32 (l.offset + toU32 loc.offset_adjustment) } :=
      hr1.trans hlV
    refine ⟨ma ++ [(p, true)], ?_, ?_, ?_⟩
    · have := PassInv.step_node false hn hl hL
        (by rw [hr1, hlV]) (by rw [hr1, hlV]) (by rw [hr1, hlV]) (by rw [hr1, hlV])
        (by rw [hr1, hlV]) (by rw [hr1, hlV]; rfl) (by rw [hr1, hlV]; rfl)
        (fun e => by cases e)
      simp only [Bool.false_eq_true, if_false] at this
      have e1 : r1.pcrel_next = l.pcrel_next := congrArg Layout.pcrel_next (hr1.trans hlV)
      show PassInv _ ((visitState m loc.offset_adjustment generation p).lirs.set p r1).length
        m.first_lir_insn_ m.first_fixup_ loc.offset_adjustment r1.pcrel_next (some p) _ _
      rw [List.length_set, hlenV, e1]
      exact this
    · show SizesAsEmitted ((visitState m loc.offset_adjustment generation p).lirs.set p r1) _
      rw [hVset, List.append_assoc]
      intro i hi r0 hr0 hn0
      have hi' := mem_insnsOf_node.mp hi
      by_cases hip : i = p
      · subst hip
        rw [getElem?_set_self_of_some hr] at hr0
        injection hr0 with hr0
        subst hr0
        have e1 : r1.flags.is_nop = r.flags.is_nop := by
          have := congrArg Layout.is_nop hr1
          exact this
        have e2 : r1.flags.size = r.flags.size := by
          have := congrArg Layout.size hr1
          exact this
        have h0 := hold i hi' r hr (by rw [← e1]; exact hn0)
        rw [e2, h0]
        show _ = if IsPseudoLirOp r1.opcode.base then 0 else 4
        rw [hb1]
        rfl
      · rw [List.getElem?_set_ne (fun e => hip e.symm)] at hr0
        exact hold i hi' r0 hr0 hn0
    · show (lsum (layoutOf ((visitState m loc.offset_adjustment generation p).lirs.set p r1))
        (insnsOf ((ma ++ [(p, true)]) ++ mbt)) : Int) - loc.offset_adjustment = _
      rw [List.append_assoc]
      show (lsum _ (insnsOf (ma ++ (p, true) :: mbt)) : Int) - _ = _
      have : lsum (layoutOf ((visitState m loc.offset_adjustment generation p).lirs.set p r1))
          (insnsOf (ma ++ (p, true) :: mbt))
          = lsum (layoutOf m.lirs) (insnsOf (ma ++ (p, true) :: mbt)) := by
        apply lsum_congr
        intro i _
        apply lsize_congr
        rw [hL i]
        by_cases hip : i = p
        · rw [if_pos hip, hip, hl, hr1l]
          rfl
        · rw [if_neg hip]
      rw [this]
  · -- the node is elided
    subst hres
    have hget : getLIR ((visitState m loc.offset_adjustment generation p).lirs.set p r1)
        (some p) = .ok r1 := getLIR_some (getElem?_set_self_of_some hrV r1)
    simp only [Bool.false_eq_true, if_false, hget, bind, Except.bind, pure, Except.pure]
      at hrest
    injection hrest with hrest
    injection hrest with hm1 hloc1
    subst hm1
    subst hloc1
    have hkr : r.flags.fixup = kFixupT1Branch := hk
    have hkl : l.fixup = kFixupT1Branch := by
      rw [← hrl]
      exact hkr
    have hL : ∀ j, layoutOf ((visitState m loc.offset_adjustment generation p).lirs.set p r1) j
        = if j = p then some r1.layout else layoutOf m.lirs j := by
      intro j
      rw [layoutOf_set hrV]
      by_cases hj : j = p
      · rw [if_pos hj, if_pos hj]
      · rw [if_neg hj, if_neg hj, layoutOf_visitState m _ _ _ hj]
    have e2 : (visitRec r loc.offset_adjustment generation).flags.size = l.size := by
      rw [← hrl]
      rfl
    have hr1n : r1.flags.is_nop = true := by
      have := congrArg Layout.is_nop hr1
      exact this
    refine ⟨ma ++ [(p, true)], ?_, ?_, ?_⟩
    · have hkl' : l.fixup ≠ kFixupNone := by
        rw [hkl]
        intro hc
        cases hc
      have := PassInv.step_node true hn hl hL
        (by rw [hr1, hlV]) (by rw [hr1, hlV]) (by rw [hr1, hlV]) (by rw [hr1, hlV])
        (by rw [hr1, hlV]) (by rw [hr1, hlV]; rfl) (by rw [hr1, hlV]; rfl)
        (fun _ => hkl')
      simp only [if_true] at this
      have e1 : r1.pcrel_next = l.pcrel_next := by
        have := congrArg Layout.pcrel_next hr1
        rw [hlV] at this
        exact this
      show PassInv _ ((visitState m loc.offset_adjustment generation p).lirs.set p r1).length
        m.first_lir_insn_ m.first_fixup_
        (loc.offset_adjustment - (visitRec r loc.offset_adjustment generation).flags.size)
        r1.pcrel_next (some p) _ _
      rw [List.length_set, hlenV, e1, e2]
      exact this
    · show SizesAsEmitted ((visitState m loc.offset_adjustment generation p).lirs.set p r1) _
      rw [hVset, List.append_assoc]
      intro i hi r0 hr0 hn0
      have hi' := mem_insnsOf_node.mp hi
      by_cases hip : i = p
      · subst hip
        rw [getElem?_set_self_of_some hr] at hr0
        injection hr0 with hr0
        subst hr0
        rw [hr1n] at hn0
        cases hn0
      · rw [List.getElem?_set_ne (fun e => hip e.symm)] at hr0
        exact hold i hi' r0 hr0 hn0
    · show (lsum (layoutOf ((visitState m loc.offset_adjustment generation p).lirs.set p r1))
        (insnsOf ((ma ++ [(p, true)]) ++ mbt)) : Int)
          - (loc.offset_adjustment
              - (visitRec r loc.offset_adjustment generation).flags.size) = _
      rw [List.append_assoc]
      show (lsum _ (insnsOf (ma ++ (p, true) :: mbt)) : Int) - _ = _
      rw [lsum_marked_node, hsumOld, e2, hpOld,
        hnop kFixupT1Branch (fun e => by cases e) hkl]
      have hA : lsum (layoutOf ((visitState m loc.offset_adjustment generation p).lirs.set p r1))
          (insnsOf ma) = lsum (layoutOf m.lirs) (insnsOf ma) :=
        lsum_congr fun i hi => by rw [lsize, lsize, hL i, if_neg (hpa i hi)]
      have hB : lsum (layoutOf ((visitState m loc.offset_adjustment generation p).lirs.set p r1))
          (insnsOf mbt) = lsum (layoutOf m.lirs) (insnsOf mbt) :=
        lsum_congr fun i hi => by rw [lsize, lsize, hL i, if_neg (hpb i hi)]
      have hP : lsize (layoutOf ((visitState m loc.offset_adjustment generation p).lirs.set p r1))
          p = 0 := by
        rw [lsize_of_layout ((hL p).trans (if_pos rfl))]
        have : r1.layout.is_nop = true := hr1n
        rw [this]
        rfl
      rw [hA, hB, hP]
      simp only [Bool.false_eq_true, if_false]
      push_cast
      omega
  · -- the node is replaced by two instructions
    subst hres
    simp only [if_true, bind, Except.bind, pure, Except.pure] at hrest
    injection hrest with hrest
    injection hrest with hm1 hloc1
    subst hm1
    subst hloc1
    have hkr : r.flags.fixup = kFixupTBxZ := hk
    have hkl : l.fixup = kFixupTBxZ := by
      rw [← hrl]
      exact hkr
    have hrN2 : ((visitState m loc.offset_adjustment generation p).lirs.set p rN)[p]?
        = some rN := getElem?_set_self_of_some hrV rN
    have hlen2 : ((visitState m loc.offset_adjustment generation p).lirs.set p rN).length
        = m.lirs.length := by rw [List.length_set, hlenV]
    have hlay := layoutOf_widenedArena env generation loc.prev_lir
      (visitRec r loc.offset_adjustment generation).opcode l loc.offset_adjustment hrN2
      (hrN.trans hlV) hnp (by rw [hlen2]; exact hnn) hcp (by rw [hlen2]; exact hcn) hnc
    rw [hlen2, widenedLayout_congr (L := layoutOf m.lirs) _ _ _ _ _ (by
      intro j hj
      rw [layoutOf_set hrV, if_neg hj, layoutOf_visitState m _ _ _ hj])] at hlay
    have hbaseA := base_widenedArena env generation loc.prev_lir p
      (visitRec r loc.offset_adjustment generation).opcode
      ((visitState m loc.offset_adjustment generation p).lirs.set p rN) rN
    rw [hlen2] at hbaseA
    have e2 : (visitRec r loc.offset_adjustment generation).flags.size = l.size := by
      rw [← hrl]
      rfl
    have e3 : (visitRec r loc.offset_adjustment generation).pcrel_next = l.pcrel_next := by
      rw [← hrl]
      rfl
    have hln : l.is_nop = false := hnop kFixupTBxZ (fun e => by cases e) hkl
    have hother : ∀ i, i ≠ p → i ≠ m.lirs.length →
        (∀ r0, m.lirs[i]? = some r0 → r0.flags.is_nop = false →
          r0.flags.size = if IsPseudoLirOp (UNWIDE r0.opcode) then 0 else 4) →
        ∀ r0, (widenedArena env generation loc.prev_lir p
            (visitRec r loc.offset_adjustment generation).opcode
            ((visitState m loc.offset_adjustment generation p).lirs.set p rN) rN)[i]? = some r0 →
          r0.flags.is_nop = false →
          r0.flags.size = if IsPseudoLirOp (UNWIDE r0.opcode) then 0 else 4 := by
      intro i hip hiN h0
      refine sized_transfer ?_ ?_ h0
      · rw [congrFun hlay i]
        exact widenedLayout_sizes _ _ _ _ hiN hip
      · rw [hbaseA i hip, if_neg hiN, List.getElem?_set_ne (fun e => hip e.symm), hVbase]
    refine ⟨ma ++ [(p, false), (m.lirs.length, true)], ?_, ?_, ?_⟩
    · have hkl' : l.fixup ≠ kFixupNone := by
        rw [hkl]
        intro hc
        cases hc
      have := PassInv.step_widen hn hl hkl'
      show PassInv (layoutOf (widenedArena env generation loc.prev_lir p _ _ rN))
        (widenedArena env generation loc.prev_lir p _ _ rN).length m.first_lir_insn_
        (if loc.prev_lir = none
          then some (visitState m loc.offset_adjustment generation p).lirs.length
          else m.first_fixup_)
        (loc.offset_adjustment - (visitRec r loc.offset_adjustment generation).flags.size + 8)
        (visitRec r loc.offset_adjustment generation).pcrel_next
        (some (visitState m loc.offset_adjustment generation p).lirs.length) _ _
      rw [hlay, length_widenedArena, hlen2, hlenV, e2, e3]
      exact this
    · show SizesAsEmitted (widenedArena env generation loc.prev_lir p _ _ rN) _
      intro i hi r0 hr0 hn0
      rcases mem_insnsOf_two.mp hi with hi | hi | hi | hi
      · exact hother i (hpa i hi) (hNa i hi) (hold i (Or.inl hi)) r0 hr0 hn0
      · subst hi
        have hb := base_widenedArena_node env generation loc.prev_lir i _ _ rN r0
          (by rw [hlen2]; exact hpN) hr0
        have hly : layoutOf (widenedArena env generation loc.prev_lir i
            (visitRec r loc.offset_adjustment generation).opcode
            ((visitState m loc.offset_adjustment generation i).lirs.set i rN) rN) i = _ :=
          (congrFun hlay i).trans (widenedLayout_node _ l _ _ (Nat.ne_of_lt hpN))
        unfold layoutOf at hly
        rw [hr0] at hly
        simp only [Option.map_some', Option.some.injEq] at hly
        have hs : r0.flags.size = 4 := congrArg Layout.size hly
        rw [hs]
        show _ = if IsPseudoLirOp r0.opcode.base then 0 else 4
        rw [hb]
        rfl
      · subst hi
        have hb := hbaseA m.lirs.length (Nat.ne_of_gt hpN)
        rw [hr0, if_pos rfl] at hb
        simp only [Option.map_some', Option.some.injEq] at hb
        have hly : layoutOf (widenedArena env generation loc.prev_lir p
            (visitRec r loc.offset_adjustment generation).opcode
            ((visitState m loc.offset_adjustment generation p).lirs.set p rN) rN)
            m.lirs.length = _ :=
          (congrFun hlay _).trans (widenedLayout_new _ _ _ _ _ _)
        unfold layoutOf at hly
        rw [hr0] at hly
        simp only [Option.map_some', Option.some.injEq] at hly
        have hs : r0.flags.size = 4 := congrArg Layout.size hly
        rw [hs]
        show _ = if IsPseudoLirOp r0.opcode.base then 0 else 4
        rw [hb]
        rfl
      · exact hother i (hpb i hi) (hNb i hi) (hold i (Or.inr (Or.inr hi))) r0 hr0 hn0
    · show (lsum (layoutOf (widenedArena env generation loc.prev_lir p _ _ rN))
          (insnsOf ((ma ++ [(p, false), (m.lirs.length, true)]) ++ mbt)) : Int)
        - (loc.offset_adjustment
            - (visitRec r loc.offset_adjustment generation).flags.size + 8) = _
      rw [hlay, lsum_marked, hsumOld, e2, hpOld, hln]
      have hA : lsum (widenedLayout (layoutOf m.lirs) m.lirs.length p l loc.offset_adjustment
          loc.prev_lir) (insnsOf ma) = lsum (layoutOf m.lirs) (insnsOf ma) :=
        lsum_congr3 fun i hi => widenedLayout_sizes _ _ _ _ (hNa i hi) (hpa i hi)
      have hB : lsum (widenedLayout (layoutOf m.lirs) m.lirs.length p l loc.offset_adjustment
          loc.prev_lir) (insnsOf mbt) = lsum (layoutOf m.lirs) (insnsOf mbt) :=
        lsum_congr3 fun i hi => widenedLayout_sizes _ _ _ _ (hNb i hi) (hpb i hi)
      have hM : lsum (widenedLayout (layoutOf m.lirs) m.lirs.length p l loc.offset_adjustment
          loc.prev_lir) (insnsOf [(p, false), (m.lirs.length, true)]) = 8 := by
        show lsum _ [p, m.lirs.length] = 8
        rw [lsum_cons, lsum_cons, lsum_nil,
          lsize_of_layout (widenedLayout_node _ l _ _ (Nat.ne_of_lt hpN)),
          lsize_of_layout (widenedLayout_new _ _ _ _ _ _), hln]
        rfl
      rw [hA, hB, hM]
      simp only [Bool.false_eq_true, if_false]
      push_cast
      omega
  · -- a nop is put before the node
    subst hres
    have hlay := layoutOf_nopInsertedArena l loc.offset_adjustment hrV hlV hqp
      (by rw [hlenV]; exact hqn)
    rw [hlenV, nopInsertedLayout_congr (L := layoutOf m.lirs) _ _ _ _ (by
      intro j hj
      rw [layoutOf_visitState m _ _ _ hj])] at hlay
    have hpl : layoutOf (nopInsertedArena (visitState m loc.offset_adjustment generation p).lirs
        p (visitRec r loc.offset_adjustment generation)) p = _ :=
      (congrFun hlay p).trans (nopInsertedLayout_node _ l _ (Nat.ne_of_lt hpN))
    obtain ⟨rp, hrp, hrpl⟩ := layoutOf_get hpl
    simp only [Bool.false_eq_true, if_false, getLIR_some hrp, bind, Except.bind, pure,
      Except.pure] at hrest
    injection hrest with hrest
    injection hrest with hm1 hloc1
    subst hm1
    subst hloc1
    have hbaseA := base_nopInsertedArena (visitState m loc.offset_adjustment generation p).lirs
      p (visitRec r loc.offset_adjustment generation)
    rw [hlenV] at hbaseA
    have hother : ∀ i, i ≠ p → i ≠ m.lirs.length →
        (∀ r0, m.lirs[i]? = some r0 → r0.flags.is_nop = false →
          r0.flags.size = if IsPseudoLirOp (UNWIDE r0.opcode) then 0 else 4) →
        ∀ r0, (nopInsertedArena (visitState m loc.offset_adjustment generation p).lirs
            p (visitRec r loc.offset_adjustment generation))[i]? = some r0 →
          r0.flags.is_nop = false →
          r0.flags.size = if IsPseudoLirOp (UNWIDE r0.opcode) then 0 else 4 := by
      intro i hip hiN h0
      refine sized_transfer ?_ ?_ h0
      · rw [congrFun hlay i]
        exact nopInsertedLayout_sizes _ _ _ hiN hip
      · rw [hbaseA i, if_neg hiN, hVbase]
    have hnode : ∀ r0, (nopInsertedArena (visitState m loc.offset_adjustment generation p).lirs
          p (visitRec r loc.offset_adjustment generation))[p]? = some r0 →
        r0.flags.is_nop = false →
        r0.flags.size = if IsPseudoLirOp (UNWIDE r0.opcode) then 0 else 4 := by
      intro r0 hr0 hn0
      rw [hrp] at hr0
      injection hr0 with hr0
      subst hr0
      have hbase := hbaseA p
      rw [hrp, if_neg (Nat.ne_of_lt hpN), hVbase, hr] at hbase
      simp only [Option.map_some', Option.some.injEq] at hbase
      have hs : rp.flags.size = l.size := congrArg Layout.size hrpl
      have hnn : rp.flags.is_nop = l.is_nop := congrArg Layout.is_nop hrpl
      have hs' : r.flags.size = l.size := congrArg Layout.size hrl
      have hnn' : r.flags.is_nop = l.is_nop := congrArg Layout.is_nop hrl
      have := hold p (Or.inr (Or.inl rfl)) r hr (by rw [hnn', ← hnn]; exact hn0)
      rw [hs, ← hs', this]
      show _ = if IsPseudoLirOp rp.opcode.base then 0 else 4
      rw [hbase]
      rfl
    refine ⟨ma ++ [(m.lirs.length, false), (p, true)], ?_, ?_, ?_⟩
    · have hq2 : l.prev = some q := by
        rw [← hrl]
        exact hq
      have := PassInv.step_nop hn hl hq2
      have e3 : rp.pcrel_next = l.pcrel_next := by
        have := congrArg Layout.pcrel_next hrpl
        exact this
      show PassInv (layoutOf (nopInsertedArena _ p _)) (nopInsertedArena _ p _).length
        m.first_lir_insn_ m.first_fixup_ (loc.offset_adjustment + 4) rp.pcrel_next (some p) _ _
      rw [hlay, length_nopInsertedArena, hlenV, e3]
      exact this
    · show SizesAsEmitted (nopInsertedArena _ p _) _
      intro i hi r0 hr0 hn0
      rcases mem_insnsOf_two.mp hi with hi | hi | hi | hi
      · exact hother i (hpa i hi) (hNa i hi) (hold i (Or.inl hi)) r0 hr0 hn0
      · subst hi
        have hb := hbaseA m.lirs.length
        rw [hr0, if_pos rfl] at hb
        simp only [Option.map_some', Option.some.injEq] at hb
        have hly : layoutOf (nopInsertedArena
            (visitState m loc.offset_adjustment generation p).lirs p
            (visitRec r loc.offset_adjustment generation)) m.lirs.length = _ :=
          (congrFun hlay _).trans (nopInsertedLayout_new _ _ _ _ _)
        unfold layoutOf at hly
        rw [hr0] at hly
        simp only [Option.map_some', Option.some.injEq] at hly
        have hs : r0.flags.size = 4 := congrArg Layout.size hly
        rw [hs]
        show _ = if IsPseudoLirOp r0.opcode.base then 0 else 4
        rw [hb]
        rfl
      · subst hi
        exact hnode r0 hr0 hn0
      · exact hother i (hpb i hi) (hNb i hi) (hold i (Or.inr (Or.inr hi))) r0 hr0 hn0
    · show (lsum (layoutOf (nopInsertedArena _ p _))
          (insnsOf ((ma ++ [(m.lirs.length, false), (p, true)]) ++ mbt)) : Int)
        - (loc.offset_adjustment + 4) = _
      rw [hlay, lsum_marked, hsumOld, hpOld]
      have hA : lsum (nopInsertedLayout (layoutOf m.lirs) m.lirs.length p l
          loc.offset_adjustment) (insnsOf ma) = lsum (layoutOf m.lirs) (insnsOf ma) :=
        lsum_congr3 fun i hi => nopInsertedLayout_sizes _ _ _ (hNa i hi) (hpa i hi)
      have hB : lsum (nopInsertedLayout (layoutOf m.lirs) m.lirs.length p l
          loc.offset_adjustment) (insnsOf mbt) = lsum (layoutOf m.lirs) (insnsOf mbt) :=
        lsum_congr3 fun i hi => nopInsertedLayout_sizes _ _ _ (hNb i hi) (hpb i hi)
      have hM : lsum (nopInsertedLayout (layoutOf m.lirs) m.lirs.length p l
          loc.offset_adjustment) (insnsOf [(m.lirs.length, false), (p, true)])
          = 4 + if l.is_nop then 0 else l.size := by
        show lsum _ [m.lirs.length, p] = _
        rw [lsum_cons, lsum_cons, lsum_nil,
          lsize_of_layout (nopInsertedLayout_node _ l _ (Nat.ne_of_lt hpN)),
          lsize_of_layout (nopInsertedLayout_new _ _ _ _ _)]
        rfl
      rw [hA, hB, hM]
      push_cast
      omega
theorem PassReaches.reach_bytes {env : Env} {generation : Nat} {fuel fuel' : Nat}
    {m m' : Mir2Lir} {loc loc' : FixupLocals}
    (hreach : PassReaches env generation fuel m loc fuel' m' loc') :
    ∀ ma mb, PassInv (layoutOf m.lirs) m.lirs.length m.first_lir_insn_ m.first_fixup_
        loc.offset_adjustment loc.lir loc.prev_lir ma mb →
      SizesAsEmitted m.lirs (insnsOf (ma ++ mb)) →
      ∃ ma1 mb1, PassInv (layoutOf m'.lirs) m'.lirs.length m'.first_lir_insn_ m'.first_fixup_
          loc'.offset_adjustment loc'.lir loc'.prev_lir ma1 mb1 ∧
        SizesAsEmitted m'.lirs (insnsOf (ma1 ++ mb1)) ∧
        (lsum (layoutOf m'.lirs) (insnsOf (ma1 ++ mb1)) : Int) - loc'.offset_adjustment
          = (lsum (layoutOf m.lirs) (insnsOf (ma ++ mb)) : Int) - loc.offset_adjustment := by
  induction hreach with
  | here _ _ _ => intro ma mb h hs; exact ⟨ma, mb, h, hs, rfl⟩
  | step hl hs _ ih =>
    intro ma mb h hsz
    rw [hl] at h
    obtain ⟨ma0, mbt, hsplit, hn⟩ := h.normalize
    rw [← hsplit] at hsz ⊢
    obtain ⟨ma1, h1, hsz1, hsum1⟩ := fixupStep_bytes hn hsz hs
    obtain ⟨ma2, mb2, h2, hsz2, hsum2⟩ := ih ma1 mbt h1 hsz1
    exact ⟨ma2, mb2, h2, hsz2, hsum2.trans hsum1⟩

theorem StreamInv.offset_lt {m : Mir2Lir} {so : Nat} (h : StreamInv m so) :
    so < 4294967296 := by
  obtain ⟨_, _, _, _, _, _, _, h7⟩ := h
  rw [h7]
  exact wrap32_lt _

theorem StreamInv.stream_congr {m1 m2 : Mir2Lir} {so : Nat} (h : StreamInv m1 so)
    (hl : m2.lirs = m1.lirs) (hi : m2.first_lir_insn_ = m1.first_lir_insn_)
    (hf : m2.first_fixup_ = m1.first_fixup_) : StreamInv m2 so := by
  unfold StreamInv
  rw [hl, hi, hf]
  exact h

theorem StreamInv.chainInv {m : Mir2Lir} {so : Nat} (h : StreamInv m so) : ChainInv m := by
  obtain ⟨marked, h1, h2, h3, h4, h5, _, _⟩ := h
  exact ⟨marked, h1, h2, h3, h4, h5⟩

/-- A pass over the fixup chain that comes to its end changes the sum of the sizes of the
stream by its `offset_adjustment`. -/
theorem fixupPass_StreamInv {env : Env} {generation fuel : Nat} {m m' : Mir2Lir}
    {loc' : FixupLocals} {so : Nat} (hinv : StreamInv m so)
    (h : fixupPass env generation fuel m
      { offset_adjustment := 0, res := .kSuccess, prev_lir := none, lir := m.first_fixup_ }
      = .ok (m', loc')) :
    StreamInv m' (wrap32 (so + toU32 loc'.offset_adjustment)) := by
  obtain ⟨marked, h1, h2, h3, h4, h5, h6, h7⟩ := hinv
  have h0 : PassInv (layoutOf m.lirs) m.lirs.length m.first_lir_insn_ m.first_fixup_ 0
      m.first_fixup_ none [] marked := {
    insns := h1
    chain := h2
    cur_eq := Seg.head?_eq h2
    prev_eq := rfl
    prevs := h3
    inert := h4
    visited := trivial
    pending := h5
    bound := fun j hj => layoutOf_none_of_length _ j hj }
  obtain ⟨fuel', hreach, hl⟩ := (fixupPass_ok_iff env generation m' loc' fuel m _).mp h
  obtain ⟨ma1, mb1, hP, hS, hsum⟩ := hreach.reach_bytes [] marked h0 h6
  rw [hl] at hP
  have hmb : chainOf mb1 = [] := by
    have := hP.cur_eq
    cases hc : chainOf mb1 with
    | nil => rfl
    | cons a as => rw [hc] at this; cases this
  refine ⟨ma1 ++ mb1, hP.insns, hP.chain, hP.prevs, hP.inert, ?_, hS, ?_⟩
  · rw [MarkedOffs.offs_append]
    refine ⟨hP.visited, ?_⟩
    have := @MarkedOffs.unmarked (layoutOf m'.lirs) loc'.offset_adjustment 0 _ _ hmb hP.pending
    simpa using this
  · rw [h7]
    simp only [List.nil_append] at hsum
    generalize lsum (layoutOf m'.lirs) (insnsOf (ma1 ++ mb1)) = a at hsum ⊢
    generalize lsum (layoutOf m.lirs) (insnsOf marked) = b at hsum ⊢
    generalize loc'.offset_adjustment = d at hsum ⊢
    unfold wrap32 toU32
    omega

/-- From a well-formed instruction list without a chain whose sizes are those of what
`EncodeLIRs` stores, `LinkFixupInsns` returns the sum of the sizes of the stream. -/
theorem LinkFixupInsns_StreamInv {env : Env} {fuel : Nat} {m : Mir2Lir} {insns : List Nat}
    (h : LinkReady env m insns) (hfuel : insns.length ≤ fuel)
    (hsz : SizesAsEmitted m.lirs insns) :
    ∃ m1 off, LinkFixupInsns env fuel m m.first_lir_insn_ m.last_lir_insn_ 0 = .ok (m1, off) ∧
      StreamInv m1 off ∧ NextPath m1.lirs m1.first_lir_insn_ insns := by
  obtain ⟨m1, off, hrun, hci⟩ := LinkFixupInsns_ChainInv h hfuel
  obtain ⟨hff, hpath, hlast, hne, hprev, halign⟩ := h
  have hseg := hpath.seg
  obtain ⟨t, ht⟩ : ∃ t, insns.getLast? = some t := by
    cases hg : insns.getLast? with
    | none => exact absurd (List.getLast?_eq_none_iff.mp hg) hne
    | some t => exact ⟨t, rfl⟩
  obtain ⟨lt, hlt, hltn⟩ := Seg.last_none hseg ht
  obtain ⟨rt, hrt, hrtl⟩ := layoutOf_get hlt
  have hrtn : rt.next = none := by
    have : rt.next = lt.next := congrArg Layout.next hrtl
    rw [this]
    exact hltn
  have htail : getLIR m.lirs m.last_lir_insn_ = .ok rt := by
    rw [hlast, ht]
    exact getLIR_some hrt
  obtain ⟨lirs', first', hloop, _, hrecs⟩ :=
    linkLoop_spec env rt.next insns m.lirs m.first_fixup_ none 0 m.first_lir_insn_ fuel
      (by rw [hrtn]; exact hpath) hfuel (by decide) (fun l h => by cases h)
      (fun h => absurd hff h) halign
  have hrun2 : LinkFixupInsns env fuel m m.first_lir_insn_ m.last_lir_insn_ 0
      = .ok ({ m with lirs := lirs', first_fixup_ := first' },
          wrap32 (0 + sizeSum m.lirs insns)) := by
    simp only [LinkFixupInsns, htail, bind, Except.bind, hloop, pure, Except.pure]
  rw [hrun] at hrun2
  injection hrun2 with hrun2
  injection hrun2 with e1 e2
  subst e1
  have hvalid := NextSeg.mem_valid hpath
  have hrec : ∀ i ∈ insns, ∀ r, m.lirs[i]? = some r → ∃ r' off', lirs'[i]? = some r' ∧
      erasePcrel r' = erasePcrel (linkResult r off') := by
    intro i hi r hr
    obtain ⟨k, hk⟩ := List.mem_iff_getElem?.mp hi
    obtain ⟨r', hr', he⟩ := hrecs k i r hk hr
    exact ⟨r', _, hr', he⟩
  have hflags : ∀ i ∈ insns, ∀ r, m.lirs[i]? = some r → ∃ r', lirs'[i]? = some r' ∧
      r'.flags.is_nop = r.flags.is_nop ∧
      (r.flags.is_nop = false → r'.flags.size = linkedSize r) := by
    intro i hi r hr
    obtain ⟨r', off', hr', he⟩ := hrec i hi r hr
    have hf : r'.flags = (linkResult r off').flags := by
      have := congrArg LIR.flags he
      exact this
    refine ⟨r', hr', ?_, ?_⟩
    · rw [hf]; exact (linkResult_flags r _).1
    · intro hn; rw [hf]; exact (linkResult_flags r _).2 hn
  have hnext : ∀ i ∈ insns, (layoutOf lirs' i).map Layout.next
      = (layoutOf m.lirs i).map Layout.next := by
    intro i hi
    obtain ⟨r, hr⟩ := hvalid i hi
    obtain ⟨r', off', hr', he⟩ := hrec i hi r hr
    unfold layoutOf
    rw [hr, hr']
    have hn : r'.next = (linkResult r off').next := by
      have := congrArg LIR.next he
      exact this
    simp only [Option.map_some', Option.some.injEq]
    show r'.next = r.next
    rw [hn]
    unfold linkResult
    split <;> rfl
  have hseg1 : Seg Layout.next (layoutOf lirs') none m.first_lir_insn_ insns :=
    Seg.seg_congr hnext hseg
  obtain ⟨marked, c1, c2, c3, c4, c5⟩ := hci
  have hins : insnsOf marked = insns := Seg.seg_unique c1 hseg1
  refine ⟨_, off, hrun, ⟨marked, c1, c2, c3, c4, c5, ?_, ?_⟩, hseg1.nextPath⟩
  · rw [hins]
    intro i hi r' hr' hn'
    obtain ⟨r, hr⟩ := hvalid i hi
    obtain ⟨r2, off', hr2, he⟩ := hrec i hi r hr
    have hr2' : lirs'[i]? = some r' := hr'
    rw [hr2'] at hr2
    injection hr2 with hr2
    subst hr2
    have hop : r'.opcode = r.opcode := by
      have := congrArg LIR.opcode he
      have e : r'.opcode = (linkResult r off').opcode := this
      rw [e]
      unfold linkResult
      split <;> rfl
    have hfl : r'.flags = (linkResult r off').flags := by
      have := congrArg LIR.flags he
      exact this
    have hnop : r.flags.is_nop = false := by
      rw [← (linkResult_flags r off').1, ← hfl]
      exact hn'
    have hsize : r'.flags.size = linkedSize r := by
      rw [hfl]
      exact (linkResult_flags r off').2 hnop
    rw [hsize, hop]
    by_cases hf : r.flags.fixup = kFixupNone
    · have : linkedSize r = r.flags.size := by
        simp [linkedSize, hf]
      rw [this]
      exact hsz i hi r hr hnop
    · have hne' : (r.flags.fixup != kFixupNone) = true := by
        simpa using hf
      unfold linkedSize
      rw [if_pos hne']
      show _ = if IsPseudoLirOp r.opcode.base then 0 else 4
      cases hb : r.opcode.base with
      | insn op =>
        have : UNWIDE r.opcode = .insn op := hb
        rw [this]
        exact size_eq_four op
      | pseudo c =>
        have : UNWIDE r.opcode = .pseudo c := hb
        rw [this]
        rfl
  · rw [e2, hins, lsum_layoutOf, Nat.zero_add]
    exact congrArg wrap32 (sizeSum_eq_flagsSizeSum insns hflags hvalid)

theorem lsum_as_emitted {lirs : List LIR} :
    ∀ {idxs : List Nat}, SizesAsEmitted lirs idxs →
      lsum (layoutOf lirs) idxs = 4 * (idxs.filter (emitsAt lirs)).length := by
  intro idxs
  induction idxs with
  | nil => intro _; rfl
  | cons i rest ih =>
    intro h
    have h1 := ih (fun j hj => h j (List.mem_cons_of_mem _ hj))
    have key : lsize (layoutOf lirs) i = if emitsAt lirs i then 4 else 0 := by
      rw [lsize_layoutOf]
      cases hr : lirs[i]? with
      | none => simp [emitsAt, hr]
      | some r =>
        cases hn : r.flags.is_nop with
        | true => simp [emitsAt, hr, emits, hn]
        | false =>
          have hs := h i (List.mem_cons_self _ _) r hr hn
          have hs' : r.flags.size = if IsPseudoLirOp r.opcode.base then 0 else 4 := hs
          cases hb : r.opcode.base with
          | insn op =>
            rw [hb] at hs'
            simp [emitsAt, hr, emits, hn, UNWIDE, hb, IsPseudoLirOp, hs']
          | pseudo c =>
            rw [hb] at hs'
            simp [emitsAt, hr, emits, hn, UNWIDE, hb, IsPseudoLirOp, hs']
    rw [lsum_cons, h1, key, List.filter_cons]
    by_cases he : emitsAt lirs i = true
    · simp only [he, if_true, List.length_cons]
      omega
    · simp only [he, Bool.false_eq_true, if_false, Nat.zero_add]

theorem EncodeLIRsFrom_length (cfg : BuildConfig) (lirs0 : List LIR) :
    ∀ (idxs : List Nat) (lirs : List LIR) (out : List Nat) (head : Option Nat) (fuel : Nat)
      (lirs' : List LIR) (out' : List Nat),
      EqOff lirs0 lirs → NextPath lirs0 head idxs →
      EncodeLIRsFrom cfg fuel lirs out head = .ok (lirs', out') →
      out'.length = out.length + 4 * (idxs.filter (emitsAt lirs0)).length := by
  intro idxs
  induction idxs with
  | nil =>
    intro lirs out head fuel lirs' out' _ hpath h
    have hh : head = none := hpath
    subst hh
    have e : out' = out := by
      cases fuel <;> simp [EncodeLIRsFrom] at h <;> exact h.2.symm
    subst e
    simp
  | cons i rest ih =>
    intro lirs out head fuel lirs' out' heq hpath h
    obtain ⟨_, hhead, l0, hl0, hrest⟩ := hpath
    subst hhead
    obtain ⟨l, hl, hel⟩ := heq.get hl0
    obtain ⟨hop, hnext, hflags, _⟩ := eraseOffset_fields hel
    cases fuel with
    | zero => simp [EncodeLIRsFrom] at h
    | succ fuel =>
      have heq' := heq.set_offset hl (wrap32 out.length)
      unfold EncodeLIRsFrom at h
      simp only [hl] at h
      have key : ∀ out1 : List Nat,
          out1.length = out.length + (if emitsAt lirs0 i then 4 else 0) →
          EncodeLIRsFrom cfg fuel (lirs.set i { l with offset := wrap32 out.length }) out1
            l.next = .ok (lirs', out') →
          out'.length = out.length + 4 * ((i :: rest).filter (emitsAt lirs0)).length := by
        intro out1 hout1 hrun
        have h1 := ih _ out1 l.next fuel lirs' out' heq' (hnext ▸ hrest) hrun
        rw [h1, hout1, List.filter_cons]
        by_cases he : emitsAt lirs0 i = true
        · simp only [he, if_true, List.length_cons]
          omega
        · simp only [he, Bool.false_eq_true, if_false, Nat.add_zero]
      cases hb : l0.opcode.base with
      | pseudo c =>
        have hb' : UNWIDE l.opcode = .pseudo c := by rw [hop]; exact hb
        simp only [hb'] at h
        have hem : emitsAt lirs0 i = false := by
          simp [emitsAt, hl0, emits, UNWIDE, hb, IsPseudoLirOp]
        exact key out (by simp [hem]) h
      | insn op =>
        have hb' : UNWIDE l.opcode = .insn op := by rw [hop]; exact hb
        simp only [hb'] at h
        cases hn : l0.flags.is_nop with
        | true =>
          have hn' : l.flags.is_nop = true := by rw [hflags]; exact hn
          simp only [hn', Bool.not_true, Bool.false_eq_true, if_false] at h
          have hem : emitsAt lirs0 i = false := by
            simp [emitsAt, hl0, emits, hn]
          exact key out (by simp [hem]) h
        | false =>
          have hn' : l.flags.is_nop = false := by rw [hflags]; exact hn
          simp only [hn', Bool.not_false, if_true] at h
          have hem : emitsAt lirs0 i = true := by
            simp [emitsAt, hl0, emits, UNWIDE, hb, IsPseudoLirOp, hn]
          split at h
          · cases h
          · rename_i bits _
            exact key (out ++ wordBytes bits) (by simp [hem, wordBytes_length]) h

theorem EncodeLIRs_length (cfg : BuildConfig) (lirs : List LIR) (head : Option Nat)
    (idxs : List Nat) (hpath : NextPath lirs head idxs) (fuel write_pos : Nat)
    (lirs' : List LIR) (out : List Nat) (wp : Nat)
    (h : EncodeLIRs cfg fuel lirs write_pos head = .ok (lirs', out, wp)) :
    wp = write_pos + out.length ∧ out.length = 4 * (idxs.filter (emitsAt lirs)).length := by
  unfold EncodeLIRs at h
  cases hr : EncodeLIRsFrom cfg fuel lirs [] head with
  | error e => rw [hr] at h; cases h
  | ok v =>
    obtain ⟨l2, o2⟩ := v
    rw [hr] at h
    dsimp only at h
    injection h with h
    injection h with h1 h2
    injection h2 with h2 h3
    subst h2
    have := EncodeLIRsFrom_length cfg lirs idxs lirs [] head fuel l2 o2 rfl hpath hr
    refine ⟨h3.symm, ?_⟩
    simpa using this
/-! ## C32: what the generation flag tells during a pass -/

theorem tbxzNarrowed_generation (env : Env) (r : LIR) :
    (tbxzNarrowed env r).flags.generation = r.flags.generation := by
  unfold tbxzNarrowed
  split_ifs <;> rfl

/-- The four effects that the `switch` of a round can have, with the generation flag of
the node, which no case writes. -/
theorem fixupSwitch_marks {env : Env} {fuel generation : Nat} {m : Mir2Lir}
    {loc : FixupLocals} {p : Nat} {r : LIR} {res : Mir2Lir × FixupLocals × Bool}
    (hr : m.lirs[p]? = some r)
    (h : fixupSwitch env fuel generation m loc p r.flags.fixup = .ok res)
    (hprev : loc.prev_lir ≠ some m.lirs.length) :
    (∃ r1, r1.layout = r.layout ∧ r1.flags.generation = r.flags.generation ∧
      res = ({ m with lirs := m.lirs.set p r1 }, loc, false)) ∨
    (∃ r1, r.flags.fixup = kFixupT1Branch ∧ r1.flags.generation = r.flags.generation ∧
      r1.layout = { r.layout with is_nop := true, fixup := kFixupNone } ∧
      res = ({ m with lirs := m.lirs.set p r1 },
        { loc with offset_adjustment := loc.offset_adjustment - r.flags.size,
                   res := .kRetryAll }, false)) ∨
    (r.flags.fixup = kFixupTBxZ ∧ ∃ rN, rN.layout = r.layout ∧
      rN.flags.generation = r.flags.generation ∧
      res = ({ m with
               lirs := widenedArena env generation loc.prev_lir p r.opcode
                 (m.lirs.set p rN) rN,
               first_fixup_ :=
                 if loc.prev_lir = none then some m.lirs.length else m.first_fixup_ },
        { offset_adjustment := loc.offset_adjustment - r.flags.size + 8,
          res := .kRetryAll, prev_lir := some m.lirs.length, lir := r.pcrel_next }, true)) ∨
    (r.flags.fixup = kFixupA53Erratum835769 ∧ (∃ q, r.prev = some q) ∧
      (∃ q prev op, prevEmittingFrom m.lirs fuel r.prev = .ok (some q) ∧
        m.lirs[q]? = some prev ∧ UNWIDE prev.opcode = .insn op ∧
        isLoadOrStore env (EncodingMap op).flags = true) ∧
      res = ({ m with lirs := nopInsertedArena m.lirs p r },
        { loc with offset_adjustment := loc.offset_adjustment + 4, res := .kRetryAll },
        false)) := by
  have hself : ({ m with lirs := m.lirs.set p r } : Mir2Lir) = m := by
    rw [set_self_of_some hr]
  cases hk : r.flags.fixup <;> rw [hk] at h
  case kFixupNone =>
    left
    refine ⟨r, rfl, rfl, ?_⟩
    rw [hself]
    simp only [fixupSwitch, pure, Except.pure] at h
    injection h with h
    exact h.symm
  case kFixupLabel =>
    left
    refine ⟨r, rfl, rfl, ?_⟩
    rw [hself]
    simp only [fixupSwitch, pure, Except.pure] at h
    injection h with h
    exact h.symm
  case kFixupVLoad =>
    left
    refine ⟨r, rfl, rfl, ?_⟩
    rw [hself]
    simp only [fixupSwitch, pure, Except.pure] at h
    injection h with h
    exact h.symm
  case kFixupOther =>
    simp only [fixupSwitch, throw, throwThe, MonadExceptOf.throw] at h
    cases h
  case kFixupT1Branch =>
    simp only [fixupSwitch] at h
    obtain ⟨a, h1, h2⟩ := bind_ok h
    simp only [pure, Except.pure] at h2
    injection h2 with h2
    subst h2
    cases hd : fixupDelta env m.lirs r loc.offset_adjustment with
    | error e =>
      exfalso
      unfold fixupT1Branch at h1
      simp only [getLIR_some hr, bind, Except.bind, hd] at h1
      cases h1
    | ok d =>
      rw [fixupT1Branch_eq env m loc p r d hr hd] at h1
      split at h1
      · split at h1
        · right
          left
          injection h1 with h1
          subst h1
          exact ⟨{ r with operands := r.operands.set 0 (asr d 2),
                          flags := { r.flags with is_nop := true, fixup := kFixupNone } },
            rfl, rfl, rfl, rfl⟩
        · left
          injection h1 with h1
          subst h1
          exact ⟨{ r with operands := r.operands.set 0 (asr d 2) }, rfl, rfl, rfl⟩
      · cases h1
  case kFixupLoad =>
    simp only [fixupSwitch] at h
    obtain ⟨a, h1, h2⟩ := bind_ok h
    simp only [pure, Except.pure] at h2
    injection h2 with h2
    subst h2
    cases hd : fixupDelta env m.lirs r loc.offset_adjustment with
    | error e =>
      exfalso
      unfold fixupCondBranch at h1
      simp only [getLIR_some hr, bind, Except.bind, hd] at h1
      cases h1
    | ok d =>
      rw [fixupCondBranch_eq env m loc p r d hr hd] at h1
      split at h1
      · left
        injection h1 with h1
        subst h1
        exact ⟨{ r with operands := r.operands.set 1 (asr d 2) }, rfl, rfl, rfl⟩
      · cases h1
  case kFixupCBxZ =>
    simp only [fixupSwitch] at h
    obtain ⟨a, h1, h2⟩ := bind_ok h
    simp only [pure, Except.pure] at h2
    injection h2 with h2
    subst h2
    cases hd : fixupDelta env m.lirs r loc.offset_adjustment with
    | error e =>
      exfalso
      unfold fixupCondBranch at h1
      simp only [getLIR_some hr, bind, Except.bind, hd] at h1
      cases h1
    | ok d =>
      rw [fixupCondBranch_eq env m loc p r d hr hd] at h1
      split at h1
      · left
        injection h1 with h1
        subst h1
        exact ⟨{ r with operands := r.operands.set 1 (asr d 2) }, rfl, rfl, rfl⟩
      · cases h1
  case kFixupCondBranch =>
    simp only [fixupSwitch] at h
    obtain ⟨a, h1, h2⟩ := bind_ok h
    simp only [pure, Except.pure] at h2
    injection h2 with h2
    subst h2
    cases hd : fixupDelta env m.lirs r loc.offset_adjustment with
    | error e =>
      exfalso
      unfold fixupCondBranch at h1
      simp only [getLIR_some hr, bind, Except.bind, hd] at h1
      cases h1
    | ok d =>
      rw [fixupCondBranch_eq env m loc p r d hr hd] at h1
      split at h1
      · left
        injection h1 with h1
        subst h1
        exact ⟨{ r with operands := r.operands.set 1 (asr d 2) }, rfl, rfl, rfl⟩
      · cases h1
  case kFixupAdr =>
    simp only [fixupSwitch] at h
    obtain ⟨a, h1, h2⟩ := bind_ok h
    simp only [pure, Except.pure] at h2
    injection h2 with h2
    subst h2
    cases hd : adrDelta m r loc.offset_adjustment with
    | error e =>
      exfalso
      unfold fixupAdr at h1
      simp only [getLIR_some hr, bind, Except.bind, hd] at h1
      cases h1
    | ok d =>
      rw [fixupAdr_eq m loc p r d hr hd] at h1
      split at h1
      · left
        injection h1 with h1
        subst h1
        exact ⟨{ r with operands := r.operands.set 1 d }, rfl, rfl, rfl⟩
      · cases h1
  case kFixupTBxZ =>
    simp only [fixupSwitch] at h
    obtain ⟨m1, loc1, c⟩ := res
    obtain ⟨d, _, hcase⟩ := fixupTBxZ_ok h hr hprev
    rcases hcase with ⟨_, hm1, hloc1, hc⟩ | ⟨_, hm1, hloc1, hc, _, _⟩
    · left
      refine ⟨{ tbxzNarrowed env r with
                operands := (tbxzNarrowed env r).operands.set 2 (asr d 2) }, ?_, ?_,
        by rw [hm1, hloc1, hc]⟩
      · exact tbxzNarrowed_layout env r
      · exact tbxzNarrowed_generation env r
    · right
      right
      left
      refine ⟨rfl, tbxzNarrowed env r, tbxzNarrowed_layout env r,
        tbxzNarrowed_generation env r, ?_⟩
      rw [hm1, hloc1, hc]
      have e1 : (EncodingMap kA64Tst2rl).size = 4 := by decide
      have e2 : (EncodingMap kA64B2ct).size = 4 := by decide
      rw [e1, e2]
      have e3 : loc.offset_adjustment - (r.flags.size : Int) + ((4 : Nat) : Int) + ((4 : Nat) : Int)
          = loc.offset_adjustment - r.flags.size + 8 := by
        push_cast
        ring
      rw [e3]
  case kFixupA53Erratum835769 =>
    simp only [fixupSwitch] at h
    obtain ⟨a, h1, h2⟩ := bind_ok h
    simp only [pure, Except.pure] at h2
    injection h2 with h2
    subst h2
    obtain ⟨m1, loc1⟩ := a
    rcases fixupA53_ok h1 hr with ⟨hm1, hloc1, _⟩ |
      ⟨_, _, ⟨q, prev, op, hq, hq2, hq3, hq4⟩, hm1, hloc1, _⟩
    · left
      refine ⟨r, rfl, rfl, ?_⟩
      rw [hself, hm1, hloc1]
    · right
      right
      right
      have hsome : ∃ q0, r.prev = some q0 := by
        cases hp : r.prev with
        | none =>
          rw [hp] at hq
          cases fuel <;> simp [prevEmittingFrom] at hq
        | some q0 => exact ⟨q0, rfl⟩
      refine ⟨rfl, hsome, ⟨q, prev, op, hq, hq2, hq3, hq4⟩, ?_⟩
      rw [hm1, hloc1]
      have e1 : (EncodingMap kA64Nop0).size = 4 := by decide
      rw [e1]
      rfl

theorem gen_widenedArena (env : Env) (generation : Nat) (prev : Option Nat) (p : Nat)
    (opcode : Opcode) (lirs : List LIR) (r : LIR) (j : Nat) :
    ((widenedArena env generation prev p opcode lirs r)[j]?).map
        (fun l => l.flags.generation)
      = if j = lirs.length then some generation
        else (lirs[j]?).map (fun l => l.flags.generation) := by
  unfold widenedArena
  dsimp only
  refine (map_replacedFixup (fun l : LIR => l.flags.generation) _ _ _ _ _ _ ?_ ?_).trans ?_
  · intro l x; rfl
  · intro l; rfl
  rw [getElem?_updAt]
  by_cases hj : j = lirs.length
  · rw [if_pos hj, if_pos hj, Option.map_map]
    refine (map_insertedAfter _ _ _ _ _ _ ?_).trans ?_
    · intro l x y; rfl
    rw [getElem?_updAt_append, if_pos hj]
    rfl
  · rw [if_neg hj, if_neg hj]
    refine (map_insertedAfter (fun l : LIR => l.flags.generation) _ _ _ _ _ ?_).trans ?_
    · intro l x y; rfl
    rw [getElem?_updAt_append, if_neg hj]
    split
    · rw [Option.map_map]
      rfl
    · rfl

theorem gen_nopInsertedArena (lirs : List LIR) (p : Nat) (r : LIR) (j : Nat)
    (hj : j ≠ lirs.length) :
    ((nopInsertedArena lirs p r)[j]?).map (fun l => l.flags.generation)
      = (lirs[j]?).map (fun l => l.flags.generation) := by
  unfold nopInsertedArena
  dsimp only
  refine (map_updAt_of_preserve (fun l : LIR => l.flags.generation) _ _ _ _ ?_).trans ?_
  · intro l; rfl
  refine (map_insertedBefore (fun l : LIR => l.flags.generation) _ _ _ _ _ ?_).trans ?_
  · intro l x y; rfl
  refine (map_updAt_of_preserve (fun l : LIR => l.flags.generation) _ _ _ _ ?_).trans ?_
  · intro l; rfl
  by_cases hlt : j < lirs.length
  · rw [getElem?_append_old _ _ hlt]
  · rw [getElem?_append_gt _ (by omega), List.getElem?_eq_none (by omega)]
theorem PassInv.normalize_split {L : Nat → Option Layout} {N : Nat} {fi ff : Option Nat}
    {d : Int} {p : Nat} {prev : Option Nat} {ma mb : List (Nat × Bool)}
    (h : PassInv L N fi ff d (some p) prev ma mb) :
    ∃ u mbt, mb = u ++ (p, true) :: mbt ∧ chainOf u = [] ∧
      PassInv L N fi ff d (some p) prev (ma ++ u) ((p, true) :: mbt) := by
  obtain ⟨u, mbt, hsplit, hu⟩ := chainOf_head_split h.cur_eq.symm
  refine ⟨u, mbt, hsplit, hu, ?_⟩
  have e : (ma ++ u) ++ (p, true) :: mbt = ma ++ mb := by rw [hsplit, List.append_assoc]
  have hp := h.pending
  rw [hsplit, MarkedOffs.offs_append] at hp
  exact {
    insns := by rw [e]; exact h.insns
    chain := by rw [e]; exact h.chain
    cur_eq := by rw [chainOf_cons_true]; rfl
    prev_eq := by rw [chainOf_append, hu, List.append_nil]; exact h.prev_eq
    prevs := by rw [e]; exact h.prevs
    inert := by rw [e]; exact h.inert
    visited := by
      rw [MarkedOffs.offs_append]
      refine ⟨h.visited, ?_⟩
      have := @MarkedOffs.unmarked L d 0 _ _ hu hp.1
      simpa using this
    pending := by
      rw [insnsOf_append, lsum_append]
      have := hp.2
      push_cast
      exact this
    bound := h.bound }

theorem map_offset_generation {a b : Option LIR}
    (h1 : a.map LIR.offset = b.map LIR.offset)
    (h2 : a.map (fun l => l.flags.generation) = b.map (fun l => l.flags.generation)) :
    a.map (fun l => (l.offset, l.flags.generation))
      = b.map (fun l => (l.offset, l.flags.generation)) := by
  cases a with
  | none =>
    cases b with
    | none => rfl
    | some y => cases h1
  | some x =>
    cases b with
    | none => cases h1
    | some y =>
      simp only [Option.map_some', Option.some.injEq] at h1 h2 ⊢
      rw [h1, h2]

theorem offset_of_layout_sizes {lirs lirs1 : List LIR} {j : Nat}
    (h : (layoutOf lirs1 j).map (fun x => (x.offset, x.is_nop, x.size))
      = (layoutOf lirs j).map (fun x => (x.offset, x.is_nop, x.size))) :
    (lirs1[j]?).map LIR.offset = (lirs[j]?).map LIR.offset := by
  unfold layoutOf at h
  cases h1 : lirs1[j]? with
  | none =>
    rw [h1] at h
    cases h2 : lirs[j]? with
    | none => rfl
    | some y => rw [h2] at h; cases h
  | some x =>
    rw [h1] at h
    cases h2 : lirs[j]? with
    | none => rw [h2] at h; cases h
    | some y =>
      rw [h2] at h
      simp only [Option.map_some', Option.some.injEq, Prod.mk.injEq, LIR.layout] at h ⊢
      exact h.1

theorem PassMarks.marks_step {g : Nat} {lirs0 lirs lirs1 : List LIR}
    {ma ma1 mbt : List (Nat × Bool)} {p : Nat}
    (hmk : PassMarks g lirs0 lirs ma ((p, true) :: mbt))
    (hvis : ∀ c ∈ chainOf ma1,
      c ∈ chainOf ma ∨ ∀ r, lirs1[c]? = some r → r.flags.generation = g)
    (hframe : ∀ c, c ∈ chainOf ma ∨ c ∈ chainOf mbt →
      (lirs1[c]?).map (fun l => (l.offset, l.flags.generation))
        = (lirs[c]?).map (fun l => (l.offset, l.flags.generation))) :
    PassMarks g lirs0 lirs1 ma1 mbt := by
  have key : ∀ c, c ∈ chainOf ma ∨ c ∈ chainOf mbt → ∀ r1, lirs1[c]? = some r1 →
      ∃ r, lirs[c]? = some r ∧ r1.offset = r.offset ∧
        r1.flags.generation = r.flags.generation := by
    intro c hc r1 hr1
    have hf := hframe c hc
    rw [hr1] at hf
    cases hr : lirs[c]? with
    | none => rw [hr] at hf; cases hf
    | some r =>
      rw [hr] at hf
      simp only [Option.map_some', Option.some.injEq, Prod.mk.injEq] at hf
      exact ⟨r, rfl, hf.1, hf.2⟩
  refine ⟨fun c hc r1 hr1 => ?_, fun c hc r1 hr1 => ?_⟩
  · rcases hvis c hc with h | h
    · obtain ⟨r, hr, _, hg⟩ := key c (Or.inl h) r1 hr1
      rw [hg]
      exact hmk.1 c h r hr
    · exact h r1 hr1
  · obtain ⟨r, hr, ho, hg⟩ := key c (Or.inr hc) r1 hr1
    have hc' : c ∈ chainOf ((p, true) :: mbt) := by
      rw [chainOf_cons_true]
      exact List.mem_cons_of_mem _ hc
    obtain ⟨h1, r0, hr0, h2⟩ := hmk.2 c hc' r hr
    refine ⟨by rw [hg]; exact h1, r0, hr0, by rw [ho]; exact h2⟩

theorem mem_chainOf_insnsOf {c : Nat} {marked : List (Nat × Bool)} (h : c ∈ chainOf marked) :
    c ∈ insnsOf marked := mem_insnsOf_of_mem (mem_chainOf.mp h)

/-- A round of the inner loop that succeeds keeps the invariant of the pass and its marks:
it gives its node the generation of the pass, leaves the offset and the generation of
every other record of the arena alone, and leaves in its node the offset advanced by
`offset_adjustment` unless it puts a `nop` before it. -/
theorem fixupStep_marks {env : Env} {fuel generation : Nat} {m m1 : Mir2Lir}
    {loc loc1 : FixupLocals} {p : Nat} {ma mbt : List (Nat × Bool)} {lirs0 : List LIR}
    (hn : PassInv (layoutOf m.lirs) m.lirs.length m.first_lir_insn_ m.first_fixup_
      loc.offset_adjustment (some p) loc.prev_lir ma ((p, true) :: mbt))
    (hmk : PassMarks generation lirs0 m.lirs ma ((p, true) :: mbt))
    (h : fixupStep env fuel generation m loc p = .ok (m1, loc1)) :
    ∃ ma1, PassInv (layoutOf m1.lirs) m1.lirs.length m1.first_lir_insn_ m1.first_fixup_
        loc1.offset_adjustment loc1.lir loc1.prev_lir ma1 mbt ∧
      PassMarks generation lirs0 m1.lirs ma1 mbt ∧
      (∀ c ∈ insnsOf ma, c ∈ insnsOf ma1) ∧ p ∈ insnsOf ma1 ∧
      m.lirs.length ≤ m1.lirs.length ∧
      (∀ j, j ≠ p → j < m.lirs.length →
        (m1.lirs[j]?).map LIR.offset = (m.lirs[j]?).map LIR.offset) ∧
      (∀ r, m.lirs[p]? = some r → ∃ r1, m1.lirs[p]? = some r1 ∧
        (r1.offset = wrap32 (r.offset + toU32 loc.offset_adjustment) ∨
          loc1.offset_adjustment = loc.offset_adjustment + 4)) := by
  obtain ⟨l, hl, _, _, _, _, _, _, _, _, _, hnd, hlt⟩ := hn.at_node
  obtain ⟨hpN, hnp, hnn, hcp, hcn, hnc, hqp, hqn⟩ := hn.distinct hl
  obtain ⟨r, hr, hrl⟩ := layoutOf_get hl
  have hdis := (List.nodup_append.mp hnd).2.2
  have hnd2 := (List.nodup_append.mp hnd).2.1
  have hpma : p ∉ insnsOf ma := fun hmem => hdis hmem (List.mem_cons_self _ _)
  have hpmb : p ∉ insnsOf mbt := (List.nodup_cons.mp hnd2).1
  have hNa : ∀ j ∈ insnsOf ma, j < m.lirs.length := fun j hj => hlt j (by simp [hj])
  have hNb : ∀ j ∈ insnsOf mbt, j < m.lirs.length := fun j hj => hlt j (by simp [hj])
  have hpa : ∀ j ∈ insnsOf ma, j ≠ p := fun j hj e => hpma (e ▸ hj)
  have hpb : ∀ j ∈ insnsOf mbt, j ≠ p := fun j hj e => hpmb (e ▸ hj)
  have hrV := visitState_get m loc.offset_adjustment generation p r hr
  have hlenV : (visitState m loc.offset_adjustment generation p).lirs.length = m.lirs.length :=
    length_updAt _ _ _
  have hlV : (visitRec r loc.offset_adjustment generation).layout
      = { l with offset := wrap32 (l.offset + toU32 loc.offset_adjustment) } := by
    rw [← hrl]
    rfl
  have hVset : ∀ x, (visitState m loc.offset_adjustment generation p).lirs.set p x
      = m.lirs.set p x := by
    intro x
    unfold visitState
    rw [updAt_of_some hr, List.set_set]
  have hVget : ∀ j : Nat, j ≠ p →
      (visitState m loc.offset_adjustment generation p).lirs[j]? = m.lirs[j]? := by
    intro j hj
    unfold visitState
    rw [getElem?_updAt, if_neg hj]
  have hro : r.offset = l.offset := congrArg Layout.offset hrl
  -- the frame that every case provides gives the marks
  have hfinish : ∀ (lirs1 : List LIR) (ma1 : List (Nat × Bool)),
      (∀ c ∈ chainOf ma1,
        c ∈ chainOf ma ∨ ∀ r0, lirs1[c]? = some r0 → r0.flags.generation = generation) →
      (∀ j, j ≠ p → j < m.lirs.length →
        (lirs1[j]?).map (fun l => (l.offset, l.flags.generation))
          = (m.lirs[j]?).map (fun l => (l.offset, l.flags.generation))) →
      PassMarks generation lirs0 lirs1 ma1 mbt ∧
      (∀ j, j ≠ p → j < m.lirs.length →
        (lirs1[j]?).map LIR.offset = (m.lirs[j]?).map LIR.offset) := by
    intro lirs1 ma1 hvis hF
    refine ⟨hmk.marks_step hvis fun c hc => ?_, fun j hjp hjN => ?_⟩
    · rcases hc with hc | hc
      · exact hF c (hpa c (mem_chainOf_insnsOf hc)) (hNa c (mem_chainOf_insnsOf hc))
      · exact hF c (hpb c (mem_chainOf_insnsOf hc)) (hNb c (mem_chainOf_insnsOf hc))
    · have := congrArg (Option.map Prod.fst) (hF j hjp hjN)
      simp only [Option.map_map] at this
      exact this
  rw [fixupStep_eq env fuel generation m loc p r hr] at h
  obtain ⟨res, hsw, hrest⟩ := bind_ok h
  have hsw2 : fixupSwitch env fuel generation
      (visitState m loc.offset_adjustment generation p) loc p
      (visitRec r loc.offset_adjustment generation).flags.fixup = .ok res := hsw
  rcases fixupSwitch_marks hrV hsw2 (by rw [hlenV]; exact hcn) with
    ⟨r1, hr1, hg1, hres⟩ | ⟨r1, hk, hg1, hr1, hres⟩ | ⟨hk, rN, hrN, hgN, hres⟩ |
    ⟨hk, ⟨q, hq⟩, _, hres⟩
  · -- the layout of the node is kept
    subst hres
    have hget : getLIR ((visitState m loc.offset_adjustment generation p).lirs.set p r1)
        (some p) = .ok r1 := getLIR_some (getElem?_set_self_of_some hrV r1)
    simp only [Bool.false_eq_true, if_false, hget, bind, Except.bind, pure, Except.pure]
      at hrest
    injection hrest with hrest
    injection hrest with hm1 hloc1
    subst hm1
    subst hloc1
    have hL : ∀ j, layoutOf ((visitState m loc.offset_adjustment generation p).lirs.set p r1) j
        = if j = p then some r1.layout else layoutOf m.lirs j := by
      intro j
      rw [layoutOf_set hrV]
      by_cases hj : j = p
      · rw [if_pos hj, if_pos hj]
      · rw [if_neg hj, if_neg hj, layoutOf_visitState m _ _ _ hj]
    have hP := PassInv.step_node false hn hl hL
        (by rw [hr1, hlV]) (by rw [hr1, hlV]) (by rw [hr1, hlV]) (by rw [hr1, hlV])
        (by rw [hr1, hlV]) (by rw [hr1, hlV]; rfl) (by rw [hr1, hlV]; rfl)
        (fun e => by cases e)
    simp only [Bool.false_eq_true, if_false] at hP
    have e1 : r1.pcrel_next = l.pcrel_next := congrArg Layout.pcrel_next (hr1.trans hlV)
    have hfin := hfinish (m.lirs.set p r1) (ma ++ [(p, true)])
      (fun c hc => by
        rcases mem_chainOf_snoc hc with e | e
        · exact Or.inl e
        · right
          intro r0 hr0
          rw [e, getElem?_set_self_of_some hr] at hr0
          injection hr0 with hr0
          rw [← hr0, hg1]
          rfl)
      (fun j hjp _ => by rw [List.getElem?_set_ne (fun e => hjp e.symm)])
    refine ⟨ma ++ [(p, true)], ?_, ?_, ?_, ?_, ?_, ?_, ?_⟩
    · show PassInv _ ((visitState m loc.offset_adjustment generation p).lirs.set p r1).length
        m.first_lir_insn_ m.first_fixup_ loc.offset_adjustment r1.pcrel_next (some p) _ _
      rw [List.length_set, hlenV, e1]
      exact hP
    · show PassMarks generation lirs0
        ((visitState m loc.offset_adjustment generation p).lirs.set p r1) _ _
      rw [hVset]
      exact hfin.1
    · intro c hc
      rw [insnsOf_append]
      exact List.mem_append_left _ hc
    · rw [insnsOf_append]
      exact List.mem_append_right _ (List.mem_cons_self _ _)
    · show m.lirs.length ≤ ((visitState m loc.offset_adjustment generation p).lirs.set p r1).length
      rw [List.length_set, hlenV]
    · show ∀ j, j ≠ p → j < m.lirs.length →
        (((visitState m loc.offset_adjustment generation p).lirs.set p r1)[j]?).map LIR.offset = _
      rw [hVset]
      exact hfin.2
    · intro r' hr'
      rw [hr] at hr'
      injection hr' with hr'
      subst hr'
      refine ⟨r1, ?_, Or.inl ?_⟩
      · show ((visitState m loc.offset_adjustment generation p).lirs.set p r1)[p]? = some r1
        exact getElem?_set_self_of_some hrV r1
      · have := congrArg Layout.offset hr1
        exact this
  · -- the node is elided
    subst hres
    have hget : getLIR ((visitState m loc.offset_adjustment generation p).lirs.set p r1)
        (some p) = .ok r1 := getLIR_some (getElem?_set_self_of_some hrV r1)
    simp only [Bool.false_eq_true, if_false, hget, bind, Except.bind, pure, Except.pure]
      at hrest
    injection hrest with hrest
    injection hrest with hm1 hloc1
    subst hm1
    subst hloc1
    have hkr : r.flags.fixup = kFixupT1Branch := hk
    have hkl : l.fixup = kFixupT1Branch := by
      rw [← hrl]
      exact hkr
    have hL : ∀ j, layoutOf ((visitState m loc.offset_adjustment generation p).lirs.set p r1) j
        = if j = p then some r1.layout else layoutOf m.lirs j := by
      intro j
      rw [layoutOf_set hrV]
      by_cases hj : j = p
      · rw [if_pos hj, if_pos hj]
      · rw [if_neg hj, if_neg hj, layoutOf_visitState m _ _ _ hj]
    have e2 : (visitRec r loc.offset_adjustment generation).flags.size = l.size := by
      rw [← hrl]
      rfl
    have hkl' : l.fixup ≠ kFixupNone := by
      rw [hkl]
      intro hc
      cases hc
    have hP := PassInv.step_node true hn hl hL
        (by rw [hr1, hlV]) (by rw [hr1, hlV]) (by rw [hr1, hlV]) (by rw [hr1, hlV])
        (by rw [hr1, hlV]) (by rw [hr1, hlV]; rfl) (by rw [hr1, hlV]; rfl)
        (fun _ => hkl')
    simp only [if_true] at hP
    have e1 : r1.pcrel_next = l.pcrel_next := by
      have := congrArg Layout.pcrel_next hr1
      rw [hlV] at this
      exact this
    have hfin := hfinish (m.lirs.set p r1) (ma ++ [(p, true)])
      (fun c hc => by
        rcases mem_chainOf_snoc hc with e | e
        · exact Or.inl e
        · right
          intro r0 hr0
          rw [e, getElem?_set_self_of_some hr] at hr0
          injection hr0 with hr0
          rw [← hr0, hg1]
          rfl)
      (fun j hjp _ => by rw [List.getElem?_set_ne (fun e => hjp e.symm)])
    refine ⟨ma ++ [(p, true)], ?_, ?_, ?_, ?_, ?_, ?_, ?_⟩
    · show PassInv _ ((visitState m loc.offset_adjustment generation p).lirs.set p r1).length
        m.first_lir_insn_ m.first_fixup_
        (loc.offset_adjustment - (visitRec r loc.offset_adjustment generation).flags.size)
        r1.pcrel_next (some p) _ _
      rw [List.length_set, hlenV, e1, e2]
      exact hP
    · show PassMarks generation lirs0
        ((visitState m loc.offset_adjustment generation p).lirs.set p r1) _ _
      rw [hVset]
      exact hfin.1
    · intro c hc
      rw [insnsOf_append]
      exact List.mem_append_left _ hc
    · rw [insnsOf_append]
      exact List.mem_append_right _ (List.mem_cons_self _ _)
    · show m.lirs.length ≤ ((visitState m loc.offset_adjustment generation p).lirs.set p r1).length
      rw [List.length_set, hlenV]
    · show ∀ j, j ≠ p → j < m.lirs.length →
        (((visitState m loc.offset_adjustment generation p).lirs.set p r1)[j]?).map LIR.offset = _
      rw [hVset]
      exact hfin.2
    · intro r' hr'
      rw [hr] at hr'
      injection hr' with hr'
      subst hr'
      refine ⟨r1, ?_, Or.inl ?_⟩
      · show ((visitState m loc.offset_adjustment generation p).lirs.set p r1)[p]? = some r1
        exact getElem?_set_self_of_some hrV r1
      · have := congrArg Layout.offset hr1
        exact this
  · -- the node is replaced by two instructions
    subst hres
    simp only [if_true, bind, Except.bind, pure, Except.pure] at hrest
    injection hrest with hrest
    injection hrest with hm1 hloc1
    subst hm1
    subst hloc1
    have hkr : r.flags.fixup = kFixupTBxZ := hk
    have hkl : l.fixup = kFixupTBxZ := by
      rw [← hrl]
      exact hkr
    have hrN2 : ((visitState m loc.offset_adjustment generation p).lirs.set p rN)[p]?
        = some rN := getElem?_set_self_of_some hrV rN
    have hlen2 : ((visitState m loc.offset_adjustment generation p).lirs.set p rN).length
        = m.lirs.length := by rw [List.length_set, hlenV]
    have hlay := layoutOf_widenedArena env generation loc.prev_lir
      (visitRec r loc.offset_adjustment generation).opcode l loc.offset_adjustment hrN2
      (hrN.trans hlV) hnp (by rw [hlen2]; exact hnn) hcp (by rw [hlen2]; exact hcn) hnc
    rw [hlen2, widenedLayout_congr (L := layoutOf m.lirs) _ _ _ _ _ (by
      intro j hj
      rw [layoutOf_set hrV, if_neg hj, layoutOf_visitState m _ _ _ hj])] at hlay
    have hgenA := gen_widenedArena env generation loc.prev_lir p
      (visitRec r loc.offset_adjustment generation).opcode
      ((visitState m loc.offset_adjustment generation p).lirs.set p rN) rN
    rw [hlen2] at hgenA
    have e2 : (visitRec r loc.offset_adjustment generation).flags.size = l.size := by
      rw [← hrl]
      rfl
    have e3 : (visitRec r loc.offset_adjustment generation).pcrel_next = l.pcrel_next := by
      rw [← hrl]
      rfl
    have hkl' : l.fixup ≠ kFixupNone := by
      rw [hkl]
      intro hc
      cases hc
    have hP := PassInv.step_widen hn hl hkl'
    have hfin := hfinish (widenedArena env generation loc.prev_lir p
        (visitRec r loc.offset_adjustment generation).opcode
        ((visitState m loc.offset_adjustment generation p).lirs.set p rN) rN)
      (ma ++ [(p, false), (m.lirs.length, true)])
      (fun c hc => by
        rcases mem_chainOf_snoc_widen hc with e | e
        · exact Or.inl e
        · right
          intro r0 hr0
          have hg := hgenA c
          rw [hr0, if_pos e] at hg
          simp only [Option.map_some', Option.some.injEq] at hg
          exact hg)
      (fun j hjp hjN => by
        refine map_offset_generation ?_ ?_
        · refine offset_of_layout_sizes ?_
          rw [congrFun hlay j]
          exact widenedLayout_sizes _ _ _ _ (Nat.ne_of_lt hjN) hjp
        · rw [hgenA j, if_neg (Nat.ne_of_lt hjN),
            List.getElem?_set_ne (fun e => hjp e.symm), hVget j hjp])
    refine ⟨ma ++ [(p, false), (m.lirs.length, true)], ?_, hfin.1, ?_, ?_, ?_, hfin.2, ?_⟩
    · show PassInv (layoutOf (widenedArena env generation loc.prev_lir p _ _ rN))
        (widenedArena env generation loc.prev_lir p _ _ rN).length m.first_lir_insn_
        (if loc.prev_lir = none
          then some (visitState m loc.offset_adjustment generation p).lirs.length
          else m.first_fixup_)
        (loc.offset_adjustment - (visitRec r loc.offset_adjustment generation).flags.size + 8)
        (visitRec r loc.offset_adjustment generation).pcrel_next
        (some (visitState m loc.offset_adjustment generation p).lirs.length) _ _
      rw [hlay, length_widenedArena, hlen2, hlenV, e2, e3]
      exact hP
    · intro c hc
      rw [insnsOf_append]
      exact List.mem_append_left _ hc
    · rw [insnsOf_append]
      exact List.mem_append_right _ (List.mem_cons_self _ _)
    · show m.lirs.length ≤ (widenedArena env generation loc.prev_lir p _ _ rN).length
      rw [length_widenedArena, hlen2]
      omega
    · intro r' hr'
      rw [hr] at hr'
      injection hr' with hr'
      subst hr'
      have hly : layoutOf (widenedArena env generation loc.prev_lir p
          (visitRec r loc.offset_adjustment generation).opcode
          ((visitState m loc.offset_adjustment generation p).lirs.set p rN) rN) p = _ :=
        (congrFun hlay p).trans (widenedLayout_node _ l _ _ (Nat.ne_of_lt hpN))
      obtain ⟨rp, hrp, hrpl⟩ := layoutOf_get hly
      refine ⟨rp, hrp, Or.inl ?_⟩
      have := congrArg Layout.offset hrpl
      rw [hro]
      exact this
  · -- a nop is put before the node
    subst hres
    have hlay := layoutOf_nopInsertedArena l loc.offset_adjustment hrV hlV hqp
      (by rw [hlenV]; exact hqn)
    rw [hlenV, nopInsertedLayout_congr (L := layoutOf m.lirs) _ _ _ _ (by
      intro j hj
      rw [layoutOf_visitState m _ _ _ hj])] at hlay
    have hpl : layoutOf (nopInsertedArena (visitState m loc.offset_adjustment generation p).lirs
        p (visitRec r loc.offset_adjustment generation)) p = _ :=
      (congrFun hlay p).trans (nopInsertedLayout_node _ l _ (Nat.ne_of_lt hpN))
    obtain ⟨rp, hrp, hrpl⟩ := layoutOf_get hpl
    simp only [Bool.false_eq_true, if_false, getLIR_some hrp, bind, Except.bind, pure,
      Except.pure] at hrest
    injection hrest with hrest
    injection hrest with hm1 hloc1
    subst hm1
    subst hloc1
    have hgenA := gen_nopInsertedArena (visitState m loc.offset_adjustment generation p).lirs
      p (visitRec r loc.offset_adjustment generation)
    rw [hlenV] at hgenA
    have hq2 : l.prev = some q := by
      rw [← hrl]
      exact hq
    have hP := PassInv.step_nop hn hl hq2
    have e3 : rp.pcrel_next = l.pcrel_next := by
      have := congrArg Layout.pcrel_next hrpl
      exact this
    have hfin := hfinish (nopInsertedArena (visitState m loc.offset_adjustment generation p).lirs
        p (visitRec r loc.offset_adjustment generation))
      (ma ++ [(m.lirs.length, false), (p, true)])
      (fun c hc => by
        rcases mem_chainOf_snoc_nop hc with e | e
        · exact Or.inl e
        · right
          intro r0 hr0
          have hg := hgenA c (by rw [e]; exact Nat.ne_of_lt hpN)
          rw [hr0, e, hrV] at hg
          simp only [Option.map_some', Option.some.injEq] at hg
          exact hg)
      (fun j hjp hjN => by
        refine map_offset_generation ?_ ?_
        · refine offset_of_layout_sizes ?_
          rw [congrFun hlay j]
          exact nopInsertedLayout_sizes _ _ _ (Nat.ne_of_lt hjN) hjp
        · rw [hgenA j (Nat.ne_of_lt hjN), hVget j hjp])
    refine ⟨ma ++ [(m.lirs.length, false), (p, true)], ?_, hfin.1, ?_, ?_, ?_, hfin.2, ?_⟩
    · show PassInv (layoutOf (nopInsertedArena _ p _)) (nopInsertedArena _ p _).length
        m.first_lir_insn_ m.first_fixup_ (loc.offset_adjustment + 4) rp.pcrel_next (some p) _ _
      rw [hlay, length_nopInsertedArena, hlenV, e3]
      exact hP
    · intro c hc
      rw [insnsOf_append]
      exact List.mem_append_left _ hc
    · rw [insnsOf_append]
      exact List.mem_append_right _ (List.mem_cons_of_mem _ (List.mem_cons_self _ _))
    · show m.lirs.length ≤ (nopInsertedArena _ p _).length
      rw [length_nopInsertedArena, hlenV]
      omega
    · intro r' _
      exact ⟨rp, hrp, Or.inr rfl⟩
theorem PassMarks.marks_split {g : Nat} {lirs0 lirs : List LIR}
    {ma mb u mbt : List (Nat × Bool)} {p : Nat} (hmk : PassMarks g lirs0 lirs ma mb)
    (hsplit : mb = u ++ (p, true) :: mbt) (hu : chainOf u = []) :
    PassMarks g lirs0 lirs (ma ++ u) ((p, true) :: mbt) := by
  refine ⟨fun c hc => ?_, fun c hc => ?_⟩
  · rw [chainOf_append, hu, List.append_nil] at hc
    exact hmk.1 c hc
  · apply hmk.2 c
    rw [hsplit, chainOf_append, hu, List.nil_append]
    exact hc

theorem PassReaches.reach_marks {env : Env} {generation : Nat} {fuel fuel' : Nat}
    {m m' : Mir2Lir} {loc loc' : FixupLocals} {lirs0 : List LIR}
    (hreach : PassReaches env generation fuel m loc fuel' m' loc') :
    ∀ ma mb, PassInv (layoutOf m.lirs) m.lirs.length m.first_lir_insn_ m.first_fixup_
        loc.offset_adjustment loc.lir loc.prev_lir ma mb →
      PassMarks generation lirs0 m.lirs ma mb →
      ∃ ma1 mb1, PassInv (layoutOf m'.lirs) m'.lirs.length m'.first_lir_insn_ m'.first_fixup_
          loc'.offset_adjustment loc'.lir loc'.prev_lir ma1 mb1 ∧
        PassMarks generation lirs0 m'.lirs ma1 mb1 ∧
        ∀ c ∈ insnsOf ma, c ∈ insnsOf ma1 ∧
          (m'.lirs[c]?).map LIR.offset = (m.lirs[c]?).map LIR.offset := by
  induction hreach with
  | here _ _ _ => intro ma mb h hmk; exact ⟨ma, mb, h, hmk, fun c hc => ⟨hc, rfl⟩⟩
  | step hl hs _ ih =>
    intro ma mb h hmk
    rw [hl] at h
    obtain ⟨u, mbt, hsplit, hu, hn⟩ := h.normalize_split
    have hmk' := hmk.marks_split hsplit hu
    obtain ⟨_, _, _, _, _, _, _, _, _, _, _, hnd, hlt⟩ := hn.at_node
    obtain ⟨ma1, hP1, hmk1, hmem1, _, _, hoff1, _⟩ := fixupStep_marks hn hmk' hs
    obtain ⟨ma2, mb2, hP2, hmk2, hfr2⟩ := ih ma1 mbt hP1 hmk1
    refine ⟨ma2, mb2, hP2, hmk2, fun c hc => ?_⟩
    have hc' : c ∈ insnsOf (ma ++ u) := by
      rw [insnsOf_append]
      exact List.mem_append_left _ hc
    obtain ⟨h1, h2⟩ := hfr2 c (hmem1 c hc')
    refine ⟨h1, h2.trans (hoff1 c ?_ (hlt c (List.mem_append_left _ hc')))⟩
    intro e
    subst e
    exact (List.nodup_append.mp hnd).2.2 hc' (List.mem_cons_self _ _)

theorem fixupDelta_value {env : Env} {lirs : List LIR} {lir : LIR} {adj delta : Int}
    (h : fixupDelta env lirs lir adj = .ok delta) :
    ∃ t rt, lir.target = some t ∧ lirs[t]? = some rt ∧
      delta = wrapI32 (((wrap32 (rt.offset +
        toU32 (if rt.flags.generation == lir.flags.generation then 0 else adj)) : Nat) : Int)
          - (lir.offset : Int)) := by
  unfold fixupDelta at h
  obtain ⟨_, _, h⟩ := bind_ok h
  obtain ⟨rt, hrt, h⟩ := bind_ok h
  obtain ⟨_, _, h⟩ := bind_ok h
  obtain ⟨t, ht, hrt'⟩ := getLIR_ok hrt
  simp only [pure, Except.pure] at h
  injection h with h
  exact ⟨t, rt, ht, hrt', h.symm⟩

theorem offsetOf_of_map {lirs lirs1 : List LIR} {c : Nat}
    (h : (lirs1[c]?).map LIR.offset = (lirs[c]?).map LIR.offset) :
    offsetOf lirs1 c = offsetOf lirs c := by
  unfold offsetOf
  cases h1 : lirs1[c]? with
  | none =>
    rw [h1] at h
    cases h2 : lirs[c]? with
    | none => rfl
    | some y => rw [h2] at h; cases h
  | some x =>
    rw [h1] at h
    cases h2 : lirs[c]? with
    | none => rw [h2] at h; cases h
    | some y =>
      rw [h2] at h
      simpa using h

theorem offsetOf_of_some {lirs : List LIR} {c : Nat} {r : LIR} (h : lirs[c]? = some r) :
    offsetOf lirs c = r.offset := by
  unfold offsetOf
  rw [h]

/-- The state of a pass at the visit of a node, with the chain split at the node. -/
theorem pass_at_node {env : Env} {generation fuel0 fuel : Nat} {m0 m : Mir2Lir}
    {loc : FixupLocals} {p : Nat} {before after : List Nat}
    (hinv : ChainInv m0)
    (hgen : ∀ chain, PcrelPath m0.lirs m0.first_fixup_ chain → ∀ c ∈ chain, ∀ r0,
      m0.lirs[c]? = some r0 → r0.flags.generation ≠ generation)
    (hreach : PassReaches env generation fuel0 m0
      { offset_adjustment := 0, res := .kSuccess, prev_lir := none, lir := m0.first_fixup_ }
      fuel m loc)
    (hp : loc.lir = some p)
    (hchain : PcrelPath m.lirs m.first_fixup_ (before ++ p :: after)) :
    ∃ ma mbt, PassInv (layoutOf m.lirs) m.lirs.length m.first_lir_insn_ m.first_fixup_
        loc.offset_adjustment (some p) loc.prev_lir ma ((p, true) :: mbt) ∧
      PassMarks generation m0.lirs m.lirs ma ((p, true) :: mbt) ∧
      before = chainOf ma ∧ after = chainOf mbt ∧ p ∉ insnsOf ma ∧ p ∉ insnsOf mbt := by
  obtain ⟨marked, h1, h2, h3, h4, h5⟩ := hinv
  have h0 : PassInv (layoutOf m0.lirs) m0.lirs.length m0.first_lir_insn_ m0.first_fixup_ 0
      m0.first_fixup_ none [] marked := {
    insns := h1
    chain := h2
    cur_eq := Seg.head?_eq h2
    prev_eq := rfl
    prevs := h3
    inert := h4
    visited := trivial
    pending := h5
    bound := fun j hj => layoutOf_none_of_length _ j hj }
  have hmk0 : PassMarks generation m0.lirs m0.lirs [] marked := by
    refine ⟨fun c hc => ?_, fun c hc r hr => ?_⟩
    · simp [chainOf] at hc
    · exact ⟨hgen _ (Seg.pcrelPath h2) c hc r hr, r, hr, rfl⟩
  obtain ⟨ma, mb, hP, hmk, _⟩ := hreach.reach_marks [] marked h0 hmk0
  rw [hp] at hP
  obtain ⟨u, mbt, hsplit, hu, hn⟩ := hP.normalize_split
  have hmk' := hmk.marks_split hsplit hu
  obtain ⟨_, _, _, _, _, _, _, _, _, _, _, hnd, _⟩ := hn.at_node
  have hdis := (List.nodup_append.mp hnd).2.2
  have hnd2 := (List.nodup_append.mp hnd).2.1
  have hpma : p ∉ insnsOf (ma ++ u) := fun hmem => hdis hmem (List.mem_cons_self _ _)
  have hpmb : p ∉ insnsOf mbt := (List.nodup_cons.mp hnd2).1
  have hpath := Seg.pcrelPath hn.chain
  rw [chainOf_append, chainOf_cons_true] at hpath
  have heq := PcrelPath.path_unique hpath hchain
  obtain ⟨e1, _, e2⟩ := (List.append_cons_inj_of_not_mem
    (fun hm => hpma (mem_chainOf_insnsOf hm))
    (fun hm => hpmb (mem_chainOf_insnsOf hm))).mp heq
  exact ⟨ma ++ u, mbt, hn, hmk', e1.symm, e2.symm, hpma, hpmb⟩
theorem fixupDelta_at_visit {env : Env} {m : Mir2Lir} {loc : FixupLocals}
    {generation p t : Nat} {r rt : LIR} {delta : Int}
    (ht : r.target = some t) (hrt : m.lirs[t]? = some rt) (htp : t ≠ p)
    (hdelta : fixupDelta env (visitState m loc.offset_adjustment generation p).lirs
      (visitRec r loc.offset_adjustment generation) loc.offset_adjustment = .ok delta) :
    delta = wrapI32 (((wrap32 (rt.offset +
      toU32 (if rt.flags.generation == generation then 0 else loc.offset_adjustment)) : Nat) : Int)
        - ((wrap32 (r.offset + toU32 loc.offset_adjustment) : Nat) : Int)) := by
  obtain ⟨t', rt', ht', hrt', hd⟩ := fixupDelta_value hdelta
  have e : (visitRec r loc.offset_adjustment generation).target = some t := ht
  rw [e] at ht'
  injection ht' with ht'
  subst ht'
  have hV : (visitState m loc.offset_adjustment generation p).lirs[t]? = m.lirs[t]? := by
    unfold visitState
    rw [getElem?_updAt, if_neg htp]
  rw [hV, hrt] at hrt'
  injection hrt' with hrt'
  subst hrt'
  exact hd

/-- C32, counterexample. In the pass with generation 1 over `elideStreamLinked` the chain
is the branch (record 0) followed by its target, the label (record 1), with no chain node
between them. The label has not been visited when the branch is (its generation is 0), so
the distance is computed from its stored offset 4 and the adjustment 0, which gives 4; the
case of the branch then elides the branch and takes its four bytes off
`offset_adjustment`, and at the end of the pass both records have the offset 0: the
difference of the offsets is 0, not 4. -/
theorem delta_stale_after_elision :
    PcrelPath elideStreamLinked.lirs elideStreamLinked.first_fixup_ [0, 1] ∧
    (elideStreamLinked.lirs[0]?).map (fun l => (l.target, l.flags.generation)) = some (some 1, 0) ∧
    (elideStreamLinked.lirs[1]?).map (fun l => (l.offset, l.flags.generation)) = some (4, 0) ∧
    (match elideStreamLinked.lirs[0]? with
      | some r => fixupDelta (mkEnv releaseConfig) (visitState elideStreamLinked 0 1 0).lirs
          (visitRec r 0 1) 0
      | none => .error .nullDeref) = .ok 4 ∧
    fixupPass (mkEnv releaseConfig) 1 3 elideStreamLinked
        { offset_adjustment := 0, res := .kSuccess, prev_lir := none, lir := some 0 }
      = .ok (elideStreamElided, ⟨-4, .kRetryAll, some 1, none⟩) ∧
    offsetOf elideStreamElided.lirs 1 = 0 ∧ offsetOf elideStreamElided.lirs 0 = 0 ∧
    wrapI32 ((offsetOf elideStreamElided.lirs 1 : Int) - (offsetOf elideStreamElided.lirs 0 : Int))
      ≠ 4 := by
  refine ⟨?_, by decide, by decide, by decide, by decide, by decide, by decide, by decide⟩
  simp [PcrelPath, elideStreamLinked]

/-- C32, amended. In a pass of the fixup loop with generation `generation`, started in a
state with the invariant of the chain in which no chain node has that generation (so the
first pass, with generation 1 over records whose flag is 0 as initialised, and every later
pass, since a pass leaves its generation in the nodes that it visits and the next pass
flips it), let the pass visit the chain node `p`, the chain being `before ++ p :: after`.
Then the nodes of `before` have been visited and carry the generation of the pass, the
nodes of `after` have not: they do not carry it, and their offsets are still those of the
start of the pass. The distance that the case of `p` computes for the target `t` is taken
from the stored offset of `t` plus the `offset_adjustment` accumulated so far when `t` is
in `after`, and from the stored offset unchanged when `t` is in `before`. For `t` in
`after`, the distance equals the difference of the offsets of `t` and `p` at every later
point of the pass after the visit of `t`, in particular at its end, whenever
`offset_adjustment` is not changed by the case of `p` itself, nor between the visit of `p`
and the visit of `t`, nor by the case of `t`. -/
theorem generation_marks_visited (env : Env) (generation fuel0 fuel : Nat) (m0 m : Mir2Lir)
    (loc : FixupLocals) (p t : Nat) (r rt : LIR) (before after : List Nat) (delta : Int)
    (hinv : ChainInv m0)
    (hgen : ∀ chain, PcrelPath m0.lirs m0.first_fixup_ chain → ∀ c ∈ chain, ∀ r0,
      m0.lirs[c]? = some r0 → r0.flags.generation ≠ generation)
    (hreach : PassReaches env generation fuel0 m0
      { offset_adjustment := 0, res := .kSuccess, prev_lir := none, lir := m0.first_fixup_ }
      (fuel + 1) m loc)
    (hp : loc.lir = some p)
    (hchain : PcrelPath m.lirs m.first_fixup_ (before ++ p :: after))
    (hr : m.lirs[p]? = some r) (ht : r.target = some t) (hrt : m.lirs[t]? = some rt)
    (hdelta : fixupDelta env (visitState m loc.offset_adjustment generation p).lirs
      (visitRec r loc.offset_adjustment generation) loc.offset_adjustment = .ok delta) :
    (∀ c ∈ before, ∀ rc, m.lirs[c]? = some rc → rc.flags.generation = generation) ∧
    (∀ c ∈ after, ∀ rc, m.lirs[c]? = some rc →
      rc.flags.generation ≠ generation ∧ rc.offset = offsetOf m0.lirs c) ∧
    (t ∈ after →
      delta = wrapI32 (((wrap32 (offsetOf m0.lirs t + toU32 loc.offset_adjustment) : Nat) : Int)
        - ((wrap32 (r.offset + toU32 loc.offset_adjustment) : Nat) : Int))) ∧
    (t ∈ before →
      delta = wrapI32 ((rt.offset : Int)
        - ((wrap32 (r.offset + toU32 loc.offset_adjustment) : Nat) : Int))) ∧
    (t ∈ after →
      ∀ (m' : Mir2Lir) (loc' : FixupLocals) (fuelT : Nat) (mT : Mir2Lir) (locT : FixupLocals)
        (mT' : Mir2Lir) (locT' : FixupLocals) (fuelE : Nat) (mE : Mir2Lir)
        (locE : FixupLocals),
        fixupStep env (fuel + 1) generation m loc p = .ok (m', loc') →
        PassReaches env generation fuel m' loc' (fuelT + 1) mT locT →
        locT.lir = some t →
        fixupStep env (fuelT + 1) generation mT locT t = .ok (mT', locT') →
        PassReaches env generation fuelT mT' locT' fuelE mE locE →
        loc'.offset_adjustment = loc.offset_adjustment →
        locT.offset_adjustment = loc.offset_adjustment →
        locT'.offset_adjustment = locT.offset_adjustment →
        delta = wrapI32 ((offsetOf mE.lirs t : Int) - (offsetOf mE.lirs p : Int))) := by
  obtain ⟨ma, mbt, hn, hmk, e1, e2, hpma, hpmb⟩ := pass_at_node hinv hgen hreach hp hchain
  subst e1
  subst e2
  have hpend : ∀ c ∈ chainOf mbt, ∀ rc, m.lirs[c]? = some rc →
      rc.flags.generation ≠ generation ∧ rc.offset = offsetOf m0.lirs c := by
    intro c hc rc hrc
    have hc' : c ∈ chainOf ((p, true) :: mbt) := by
      rw [chainOf_cons_true]
      exact List.mem_cons_of_mem _ hc
    obtain ⟨h1, r0, hr0, h2⟩ := hmk.2 c hc' rc hrc
    exact ⟨h1, by rw [offsetOf_of_some hr0]; exact h2⟩
  have hafter : t ∈ chainOf mbt →
      delta = wrapI32 (((wrap32 (offsetOf m0.lirs t + toU32 loc.offset_adjustment) : Nat) : Int)
        - ((wrap32 (r.offset + toU32 loc.offset_adjustment) : Nat) : Int)) := by
    intro hta
    have htp : t ≠ p := fun e => hpmb (e ▸ mem_chainOf_insnsOf hta)
    have hd := fixupDelta_at_visit ht hrt htp hdelta
    obtain ⟨hg, ho⟩ := hpend t hta rt hrt
    have hb : (rt.flags.generation == generation) = false := by
      simpa using hg
    rw [hb] at hd
    simp only [Bool.false_eq_true, if_false] at hd
    rw [ho] at hd
    exact hd
  refine ⟨hmk.1, hpend, hafter, ?_, ?_⟩
  · intro htb
    have htp : t ≠ p := fun e => hpma (e ▸ mem_chainOf_insnsOf htb)
    have hd := fixupDelta_at_visit ht hrt htp hdelta
    have hg := hmk.1 t htb rt hrt
    have hb : (rt.flags.generation == generation) = true := by
      simpa using hg
    rw [hb] at hd
    simp only [if_true] at hd
    rw [hd]
    unfold wrapI32 wrap32 toU32
    congr 1
    omega
  · intro hta m' loc' fuelT mT locT mT' locT' fuelE mE locE hstep hreachT hT hstepT hreachE
      hs1 hs2 hs3
    have htp : t ≠ p := fun e => hpmb (e ▸ mem_chainOf_insnsOf hta)
    -- the round of the node
    obtain ⟨ma1, hP1, hmk1, _, hp1, _, _, hnode1⟩ := fixupStep_marks hn hmk hstep
    obtain ⟨rp1, hrp1, hcase⟩ := hnode1 r hr
    have hrp1o : rp1.offset = wrap32 (r.offset + toU32 loc.offset_adjustment) := by
      rcases hcase with h | h
      · exact h
      · omega
    -- up to the visit of the target
    obtain ⟨maT, mbT, hPT, hmkT, hfrT⟩ := hreachT.reach_marks ma1 mbt hP1 hmk1
    rw [hT] at hPT
    obtain ⟨u, mbtT, hsplitT, huT, hnT⟩ := hPT.normalize_split
    have hmkT' := hmkT.marks_split hsplitT huT
    obtain ⟨lT, hlT, _, _, _, _, _, _, _, _, _, hndT, hltT⟩ := hnT.at_node
    obtain ⟨rT, hrT, _⟩ := layoutOf_get hlT
    obtain ⟨_, r0, hr0, hoT⟩ := hmkT'.2 t (by rw [chainOf_cons_true]; exact List.mem_cons_self _ _)
      rT hrT
    obtain ⟨hpT, hpoT⟩ := hfrT p hp1
    have hpT' : p ∈ insnsOf (maT ++ u) := by
      rw [insnsOf_append]
      exact List.mem_append_left _ hpT
    -- the round of the target
    obtain ⟨maT1, hPT1, hmkT1, hmemT1, htT1, _, hoffT1, hnodeT1⟩ :=
      fixupStep_marks hnT hmkT' hstepT
    obtain ⟨rt1, hrt1, hcaseT⟩ := hnodeT1 rT hrT
    have hrt1o : rt1.offset = wrap32 (rT.offset + toU32 locT.offset_adjustment) := by
      rcases hcaseT with h | h
      · exact h
      · omega
    have hpoT1 := hoffT1 p (fun e => htp e.symm) (hltT p (List.mem_append_left _ hpT'))
    -- up to the later point of the pass
    obtain ⟨maE, mbE, _, _, hfrE⟩ := hreachE.reach_marks maT1 mbtT hPT1 hmkT1
    obtain ⟨_, hpoE⟩ := hfrE p (hmemT1 p hpT')
    obtain ⟨_, htoE⟩ := hfrE t htT1
    have hpE : offsetOf mE.lirs p = wrap32 (r.offset + toU32 loc.offset_adjustment) := by
      rw [offsetOf_of_map (hpoE.trans (hpoT1.trans hpoT)), offsetOf_of_some hrp1, hrp1o]
    have htE : offsetOf mE.lirs t
        = wrap32 (offsetOf m0.lirs t + toU32 loc.offset_adjustment) := by
      rw [offsetOf_of_map htoE, offsetOf_of_some hrt1, hrt1o, hoT, offsetOf_of_some hr0, hs2]
    rw [hpE, htE]
    exact hafter hta
theorem generation_marks_visited_witness :
    ChainInv branchStreamLinked ∧
    PcrelPath branchStreamLinked.lirs branchStreamLinked.first_fixup_ ([] ++ 0 :: [2]) ∧
    fixupDelta (mkEnv releaseConfig) (visitState branchStreamLinked 0 1 0).lirs
      (visitRec ⟨0, 0, kA64B2ct, some 1, none, some 2, ⟨false, 4, true, 0, kFixupCondBranch⟩,
        some 2, ⟨0, 0, 0, 0, 0⟩⟩ 0 1) 0 = .ok 8 ∧
    fixupPass (mkEnv releaseConfig) 1 3 branchStreamLinked
        { offset_adjustment := 0, res := .kSuccess, prev_lir := none, lir := some 0 }
      = .ok (branchStreamResolved, ⟨0, .kSuccess, some 2, none⟩) ∧
    (8 : Int) = wrapI32 (((wrap32 (offsetOf branchStreamLinked.lirs 2 + toU32 0) : Nat) : Int)
      - ((wrap32 (0 + toU32 0) : Nat) : Int)) ∧
    (8 : Int) = wrapI32 ((offsetOf branchStreamResolved.lirs 2 : Int)
      - (offsetOf branchStreamResolved.lirs 0 : Int)) := by
  have hready : LinkReady (mkEnv releaseConfig) branchStream [0, 1, 2] := by
    refine ⟨rfl, ?_, rfl, by decide, ?_, ?_⟩
    · simp [NextPath, NextSeg, branchStream, branchStreamLabel]
    · simp [PrevLinked, layoutOf, LIR.layout, branchStream, branchStreamLabel]
    · intro i _ r _ _ _ c _ hk
      cases hk
  have hinv : ChainInv branchStreamLinked := by
    obtain ⟨m1, off, hrun, hci⟩ :=
      @LinkFixupInsns_ChainInv (mkEnv releaseConfig) 3 branchStream [0, 1, 2] hready (by decide)
    have e : LinkFixupInsns (mkEnv releaseConfig) 3 branchStream branchStream.first_lir_insn_
        branchStream.last_lir_insn_ 0 = .ok (branchStreamLinked, 8) := by decide
    rw [e] at hrun
    injection hrun with hrun
    injection hrun with h1 _
    rw [h1]
    exact hci
  have hpath : PcrelPath branchStreamLinked.lirs branchStreamLinked.first_fixup_
      ([] ++ 0 :: [2]) := by
    simp [PcrelPath, branchStreamLinked]
  have hgen : ∀ chain, PcrelPath branchStreamLinked.lirs branchStreamLinked.first_fixup_ chain →
      ∀ c ∈ chain, ∀ r0, branchStreamLinked.lirs[c]? = some r0 → r0.flags.generation ≠ 1 := by
    intro chain hchain c hc r0 hr0
    have e := PcrelPath.path_unique hchain hpath
    subst e
    simp only [List.nil_append, List.mem_cons, List.mem_singleton, List.not_mem_nil,
      or_false] at hc
    rcases hc with e | e <;> subst e
    · have hr' : some _ = some r0 := hr0
      injection hr' with hr'
      subst hr'
      decide
    · have hr' : some _ = some r0 := hr0
      injection hr' with hr'
      subst hr'
      decide
  have hdelta : fixupDelta (mkEnv releaseConfig) (visitState branchStreamLinked 0 1 0).lirs
      (visitRec ⟨0, 0, kA64B2ct, some 1, none, some 2, ⟨false, 4, true, 0, kFixupCondBranch⟩,
        some 2, ⟨0, 0, 0, 0, 0⟩⟩ 0 1) 0 = .ok 8 := by decide
  have hall := generation_marks_visited (mkEnv releaseConfig) 1 3 2 branchStreamLinked
    branchStreamLinked
    { offset_adjustment := 0, res := .kSuccess, prev_lir := none, lir := some 0 } 0 2
    ⟨0, 0, kA64B2ct, some 1, none, some 2, ⟨false, 4, true, 0, kFixupCondBranch⟩, some 2,
      ⟨0, 0, 0, 0, 0⟩⟩
    ⟨8, 0, ⟨.pseudo (-1), false⟩, none, some 1, none, ⟨false, 0, true, 0, kFixupLabel⟩, none,
      ⟨0, 0, 0, 0, 0⟩⟩
    [] [2] 8 hinv hgen (PassReaches.here _ _ _) rfl hpath rfl rfl rfl hdelta
  refine ⟨hinv, hpath, hdelta, by decide, hall.2.2.1 (by decide), ?_⟩
  refine hall.2.2.2.2 (by decide)
    { branchStreamLinked with lirs := branchStreamLinked.lirs.set 0 branchResolved }
    ⟨0, .kSuccess, some 0, some 2⟩ 1
    { branchStreamLinked with lirs := branchStreamLinked.lirs.set 0 branchResolved }
    ⟨0, .kSuccess, some 0, some 2⟩ branchStreamResolved ⟨0, .kSuccess, some 2, none⟩ 1
    branchStreamResolved ⟨0, .kSuccess, some 2, none⟩
    (by decide) (PassReaches.here _ _ _) rfl (by decide) (PassReaches.here _ _ _) rfl rfl rfl
/-! ## C17: the rewritten sequence and the `tbz/tbnz` it replaces -/

theorem toU64_lt (x : Int) : toU64 x < 18446744073709551616 := by
  unfold toU64
  omega

theorem toU64_wrapI32_ne_two_pow (x : Int) (imm : Nat) (h1 : 31 ≤ imm) (h2 : imm < 64) :
    toU64 (wrapI32 x) ≠ 2 ^ imm := by
  unfold toU64 wrapI32
  interval_cases imm <;> omega

theorem tstZ_of_testBit {reg j : Nat} (h : reg.testBit j = true) : tstZ (2 ^ j) reg = false := by
  have hne : reg &&& 2 ^ j ≠ 0 := fun e => by
    have := (and_two_pow_eq_zero reg j).mp e
    rw [h] at this
    cases this
  unfold tstZ
  rw [Nat.and_comm]
  simp [hne]

theorem tstZ_of_not_testBit {reg j : Nat} (h : reg.testBit j = false) :
    tstZ (2 ^ j) reg = true := by
  have he : reg &&& 2 ^ j = 0 := (and_two_pow_eq_zero reg j).mpr h
  unfold tstZ
  rw [Nat.and_comm]
  simp [he]

/-- A mask other than `2 ^ imm` does not test bit `imm` alone: some 64-bit register value
tells `tst Rt, #mask` from `tst Rt, #(1 << imm)`. -/
theorem tstZ_mask_differs (mask imm : Nat) (hm : mask < 18446744073709551616)
    (hi : imm < 64) (hne : mask ≠ 2 ^ imm) :
    ∃ reg, reg < 18446744073709551616 ∧ tstZ reg mask ≠ tstZ reg (2 ^ imm) := by
  cases hb : mask.testBit imm with
  | false =>
    refine ⟨2 ^ imm, by
      have := Nat.pow_lt_pow_right (by norm_num : 1 < 2) hi
      norm_num at this ⊢
      exact this, ?_⟩
    rw [tstZ_of_not_testBit hb, tstZ_of_testBit (Nat.testBit_two_pow_self)]
    decide
  | true =>
    have hex : ∃ j, j ≠ imm ∧ mask.testBit j = true := by
      by_contra hcon
      apply hne
      apply Nat.eq_of_testBit_eq
      intro j
      rw [Nat.testBit_two_pow]
      by_cases hj : j = imm
      · subst hj
        rw [hb]
        simp
      · cases hbj : mask.testBit j with
        | false =>
          have : ¬ imm = j := fun e => hj e.symm
          simp [this]
        | true => exact absurd ⟨j, hj, hbj⟩ hcon
    obtain ⟨j, hj, hbj⟩ := hex
    have hj64 : j < 64 := by
      by_contra hge
      have h64 : (18446744073709551616 : Nat) = 2 ^ 64 := by norm_num
      have hle : (2 : Nat) ^ 64 ≤ 2 ^ j := Nat.pow_le_pow_right (by norm_num) (by omega)
      have hlt : mask < 2 ^ j := by omega
      rw [Nat.testBit_lt_two_pow hlt] at hbj
      cases hbj
    refine ⟨2 ^ j, by
      have := Nat.pow_lt_pow_right (by norm_num : 1 < 2) hj64
      norm_num at this ⊢
      exact this, ?_⟩
    have h2 : (2 ^ imm).testBit j = false := by
      rw [Nat.testBit_two_pow]
      simp
      exact fun e => hj e.symm
    rw [tstZ_of_testBit hbj, tstZ_of_not_testBit h2]
    decide

theorem bcondTaken_inj (env : Env) (cond : Int) (z1 z2 : Bool)
    (hc : cond = env.kArmCondEq ∨ cond = env.kArmCondNe)
    (h : bcondTaken env cond z1 = bcondTaken env cond z2) : z1 = z2 := by
  unfold bcondTaken at h
  by_cases h1 : cond = env.kArmCondEq
  · rw [if_pos h1, if_pos h1] at h
    injection h
  · rcases hc with hc | hc
    · exact absurd hc h1
    · rw [if_neg h1, if_pos hc, if_neg h1, if_pos hc] at h
      injection h with h
      cases z1 <;> cases z2 <;> simp_all

theorem tstZ_low_mask (reg : Nat) (h : reg < 4294967296) :
    tstZ reg 0xffffffff80000000 = tstZ reg (2 ^ 31) := by
  have hM : (0xffffffff80000000 : Nat) = (2 ^ 33 - 1) <<< 31 := by decide
  have e : reg &&& 0xffffffff80000000 = reg &&& 2 ^ 31 := by
    apply Nat.eq_of_testBit_eq
    intro j
    rw [Nat.testBit_and, Nat.testBit_and, Nat.testBit_two_pow, hM, Nat.testBit_shiftLeft,
      Nat.testBit_two_pow_sub_one]
    by_cases hj : j < 32
    · by_cases hj2 : j = 31
      · subst hj2
        simp
      · have h1 : ¬ j ≥ 31 := by omega
        have h2 : ¬ 31 = j := by omega
        simp [h1, h2]
    · have h32 : (4294967296 : Nat) = 2 ^ 32 := by norm_num
      have hle : (2 : Nat) ^ 32 ≤ 2 ^ j := Nat.pow_le_pow_right (by norm_num) (by omega)
      have hr : reg.testBit j = false := Nat.testBit_lt_two_pow (by omega)
      rw [hr]
      simp
  unfold tstZ
  rw [e]

/-- C17. When a round replaces an out-of-range `tbz/tbnz`, the conditional branch that it
inserts has the condition `kArmCondEq` for `tbz` and `kArmCondNe` for `tbnz`, and operand 1
of the `tst` is the encoding of the mask that the code computes, the `int` value of
`1 << imm` converted to `uint64_t`. With the ARMv8-A meaning of the instructions,
`tst Rt, #(1 << imm)` followed by this branch is taken exactly when `tbz/tbnz Rt, #imm` is
taken, for every register value and bit index; with the mask of the code the same holds
for every bit index from 0 to 30. For the bit index 31 the mask of the code is
`0xffffffff80000000`: the sequence still branches as the `tbz/tbnz` for a register value
of 32 bits, but for the 64-bit register value `2 ^ 32`, whose bit 31 is clear, it does
not. For no bit index from 31 to 63 and no value of the `int` shift does the sequence
branch as the `tbz/tbnz` for every 64-bit register value. -/
theorem widened_branch_equivalent (env : Env) (fuel generation : Nat) (m : Mir2Lir)
    (loc : FixupLocals) (p q : Nat) (r : LIR) (d : Int)
    (hr : m.lirs[p]? = some r) (hk : r.flags.fixup = kFixupTBxZ) (hchk : TBxZChecks env r)
    (hd : fixupDelta env
      ((visitState m loc.offset_adjustment generation p).lirs.set p
        (tbxzNarrowed env (visitRec r loc.offset_adjustment generation)))
      (tbxzNarrowed env (visitRec r loc.offset_adjustment generation))
      loc.offset_adjustment = .ok d)
    (hfar : IS_SIGNED_IMM14 (asr d 2) = false)
    (hnext : r.next = some q) (hq : q < m.lirs.length) (hqp : q ≠ p)
    (hprev : ∀ c, loc.prev_lir = some c → c < m.lirs.length ∧ c ≠ p ∧ c ≠ q)
    (hcond : env.kArmCondEq ≠ env.kArmCondNe)
    (hop : UNWIDE r.opcode = .insn kA64Tbz3rht ∨ UNWIDE r.opcode = .insn kA64Tbnz3rht) :
    ∃ m1 loc1 node new,
      fixupStep env fuel generation m loc p = .ok (m1, loc1) ∧
      m1.lirs[p]? = some node ∧ m1.lirs[m.lirs.length]? = some new ∧
      node.next = some m.lirs.length ∧
      UNWIDE node.opcode = .insn kA64Tst2rl ∧ new.opcode = (kA64B2ct : Opcode) ∧
      node.operands.get 1 = env.EncodeLogicalImmediate (IS_WIDE r.opcode)
        (toU64 (intShl1 (r.operands.get 1))) ∧
      (UNWIDE r.opcode = .insn kA64Tbz3rht → new.operands.get 0 = env.kArmCondEq) ∧
      (UNWIDE r.opcode = .insn kA64Tbnz3rht → new.operands.get 0 = env.kArmCondNe) ∧
      (∀ reg imm : Nat, bcondTaken env (new.operands.get 0) (tstZ reg (2 ^ imm))
        = some (tbxzTaken (UNWIDE r.opcode == .insn kA64Tbz3rht) reg imm)) ∧
      (0 ≤ r.operands.get 1 → r.operands.get 1 < 31 → ∀ reg : Nat,
        bcondTaken env (new.operands.get 0)
            (tstZ reg (toU64 (intShl1 (r.operands.get 1))))
          = some (tbxzTaken (UNWIDE r.opcode == .insn kA64Tbz3rht) reg
              (r.operands.get 1).toNat)) ∧
      (r.operands.get 1 = 31 →
        toU64 (intShl1 (r.operands.get 1)) = 0xffffffff80000000 ∧
        (∀ reg : Nat, reg < 4294967296 →
          bcondTaken env (new.operands.get 0)
              (tstZ reg (toU64 (intShl1 (r.operands.get 1))))
            = some (tbxzTaken (UNWIDE r.opcode == .insn kA64Tbz3rht) reg 31)) ∧
        bcondTaken env (new.operands.get 0)
            (tstZ 4294967296 (toU64 (intShl1 (r.operands.get 1))))
          ≠ some (tbxzTaken (UNWIDE r.opcode == .insn kA64Tbz3rht) 4294967296 31)) ∧
      (31 ≤ r.operands.get 1 → r.operands.get 1 < 64 → ∀ x : Int,
        ∃ reg : Nat, reg < 18446744073709551616 ∧
          bcondTaken env (new.operands.get 0) (tstZ reg (toU64 (wrapI32 x)))
            ≠ some (tbxzTaken (UNWIDE r.opcode == .insn kA64Tbz3rht) reg
                (r.operands.get 1).toNat)) := by
  obtain ⟨m1, node, new, h1, _, h3, h4, h5, _, h7, h8, h9, _, h11, _⟩ :=
    fixupStep_widen env fuel generation m loc p q r d hr hk hchk hd hfar hnext hq hqp hprev
  have hc0 : new.operands.get 0
      = if UNWIDE r.opcode == .insn kA64Tbz3rht then env.kArmCondEq else env.kArmCondNe := by
    rw [h11]
    rfl
  have hcc : new.operands.get 0 = env.kArmCondEq ∨ new.operands.get 0 = env.kArmCondNe := by
    rw [hc0]
    split
    · exact Or.inl rfl
    · exact Or.inr rfl
  have hideal : ∀ reg imm : Nat, bcondTaken env (new.operands.get 0) (tstZ reg (2 ^ imm))
      = some (tbxzTaken (UNWIDE r.opcode == .insn kA64Tbz3rht) reg imm) := by
    intro reg imm
    rw [hc0, tstZ_two_pow]
    rcases hop with hz | hnz
    · rw [hz]
      simp [bcondTaken, tbxzTaken]
    · rw [hnz]
      have hne : env.kArmCondNe ≠ env.kArmCondEq := fun e => hcond e.symm
      have hb : (OpcodeBase.insn kA64Tbnz3rht == OpcodeBase.insn kA64Tbz3rht) = false := by
        decide
      simp [bcondTaken, tbxzTaken, hne, hb]
  have hdiff : ∀ (reg mask imm : Nat), tstZ reg mask ≠ tstZ reg (2 ^ imm) →
      bcondTaken env (new.operands.get 0) (tstZ reg mask)
        ≠ some (tbxzTaken (UNWIDE r.opcode == .insn kA64Tbz3rht) reg imm) := by
    intro reg mask imm hne hcon
    rw [← hideal reg imm] at hcon
    exact hne (bcondTaken_inj env _ _ _ hcc hcon)
  refine ⟨m1, _, node, new, h1, h3, h4, congrArg Layout.next h8, ?_, h9, ?_, ?_, ?_, hideal,
    ?_, ?_, ?_⟩
  · rw [h5]
    split_ifs <;> rfl
  · rw [h7]
    exact operands_get_set _ 1 _ (by decide)
  · intro hz
    rw [hc0, hz]
    rfl
  · intro hnz
    rw [hc0, hnz]
    rfl
  · intro h0 h31 reg
    rw [intShl1_small _ h0 h31]
    exact hideal reg _
  · intro h31
    rw [h31]
    have hm : toU64 (intShl1 31) = 0xffffffff80000000 := by decide
    refine ⟨hm, fun reg hreg => ?_, ?_⟩
    · rw [hm, tstZ_low_mask reg hreg]
      exact hideal reg 31
    · apply hdiff
      rw [hm]
      decide
  · intro h31 h64 x
    obtain ⟨k, hk⟩ := Int.eq_ofNat_of_zero_le (by omega : 0 ≤ r.operands.get 1)
    rw [hk]
    simp only [Int.toNat_ofNat]
    have hk1 : 31 ≤ k := by omega
    have hk2 : k < 64 := by omega
    obtain ⟨reg, hreg, hne⟩ := tstZ_mask_differs (toU64 (wrapI32 x)) k (toU64_lt _) hk2
      (toU64_wrapI32_ne_two_pow x k hk1 hk2)
    exact ⟨reg, hreg, hdiff reg _ k hne⟩

theorem widened_branch_equivalent_witness :
    ∃ m1 loc1 node new,
      fixupStep (mkEnv releaseConfig) 3 1 tbnzWideStream ⟨0, .kSuccess, none, some 0⟩ 0
        = .ok (m1, loc1) ∧
      m1.lirs[0]? = some node ∧ m1.lirs[3]? = some new ∧ node.next = some 3 ∧
      UNWIDE node.opcode = .insn kA64Tst2rl ∧ new.opcode = (kA64B2ct : Opcode) ∧
      node.operands.get 1 = 0xffffffff80000000 ∧ new.operands.get 0 = 1 ∧
      tbxzTaken false 4294967296 31 = false ∧
      bcondTaken (mkEnv releaseConfig) (new.operands.get 0)
          (tstZ 4294967296 0xffffffff80000000) = some true ∧
      bcondTaken (mkEnv releaseConfig) (new.operands.get 0)
          (tstZ 4294967296 0xffffffff80000000)
        ≠ some (tbxzTaken false 4294967296 31) := by
  obtain ⟨m1, loc1, node, new, h1, h2, h3, h4, h5, h6, h7, _, h9, _, _, h12, _⟩ :=
    widened_branch_equivalent (mkEnv releaseConfig) 3 1 tbnzWideStream
      ⟨0, .kSuccess, none, some 0⟩ 0 1
      ⟨0, 0, WIDE kA64Tbnz3rht, some 1, none, some 2, ⟨false, 4, true, 0, kFixupTBxZ⟩, some 2,
        ⟨0, 31, 0, 0, 0⟩⟩ 40000 rfl rfl (fun hk => absurd hk (by decide)) (by decide)
      (by decide) rfl (by decide) (by decide) (fun c hc => by cases hc) (by decide)
      (Or.inr rfl)
  have hc : new.operands.get 0 = 1 := h9 rfl
  obtain ⟨hm, _, hne⟩ := h12 rfl
  refine ⟨m1, loc1, node, new, h1, h2, h3, h4, h5, h6, ?_, hc, by decide, ?_, ?_⟩
  · rw [h7]
    decide
  · rw [hc]
    decide
  · have := hne
    rw [hm] at this
    exact this
/-! ## The resolver does not depend on what `AssignDataOffsets` writes -/

theorem AssignsDataOnly.length_eq {env : Env} (h : AssignsDataOnly env) (m : Mir2Lir) :
    (env.assignData m).lirs.length = m.lirs.length := by
  obtain ⟨_, _, _, h4, _⟩ := h m
  apply Nat.le_antisymm
  · by_contra hlt
    have h1 := h4 m.lirs.length
    rw [List.getElem?_eq_none (le_refl _), List.getElem?_eq_getElem (by omega)] at h1
    cases h1
  · by_contra hlt
    have h1 := h4 (env.assignData m).lirs.length
    rw [List.getElem?_eq_none (le_refl _), List.getElem?_eq_getElem (by omega)] at h1
    cases h1

/-- The state after `data_offset_` is set and `AssignDataOffsets` is called has the list
heads and the records of the instruction list of the state before. -/
theorem AssignsDataOnly.frame_insns {env : Env} (h : AssignsDataOnly env) (m : Mir2Lir) (x : Nat)
    {insns : List Nat}
    (hseg : Seg Layout.next (layoutOf m.lirs) none m.first_lir_insn_ insns) :
    (AssignDataOffsets env { m with data_offset_ := x }).first_lir_insn_ = m.first_lir_insn_ ∧
    (AssignDataOffsets env { m with data_offset_ := x }).first_fixup_ = m.first_fixup_ ∧
    (AssignDataOffsets env { m with data_offset_ := x }).lirs.length = m.lirs.length ∧
    ∀ j ∈ insns, (AssignDataOffsets env { m with data_offset_ := x }).lirs[j]? = m.lirs[j]? := by
  obtain ⟨h1, h2, _, _, h5⟩ := h { m with data_offset_ := x }
  exact ⟨h1, h2, h.length_eq _, h5 insns hseg.nextPath⟩

theorem layoutOf_of_get {lirs lirs' : List LIR} {j : Nat} (h : lirs'[j]? = lirs[j]?) :
    layoutOf lirs' j = layoutOf lirs j := by
  unfold layoutOf
  rw [h]

theorem ChainInv.chain_frame {env : Env} (hdata : AssignsDataOnly env) {m : Mir2Lir}
    (h : ChainInv m) (x : Nat) :
    ChainInv (AssignDataOffsets env { m with data_offset_ := x }) := by
  obtain ⟨marked, h1, h2, h3, h4, h5⟩ := h
  obtain ⟨e1, e2, _, e4⟩ := hdata.frame_insns m x h1
  have hL : ∀ j ∈ insnsOf marked,
      layoutOf (AssignDataOffsets env { m with data_offset_ := x }).lirs j
        = layoutOf m.lirs j := fun j hj => layoutOf_of_get (e4 j hj)
  refine ⟨marked, ?_, ?_, ?_, ?_, ?_⟩
  · rw [e1]
    exact Seg.seg_congr (fun i hi => by rw [hL i hi]) h1
  · rw [e2]
    exact Seg.seg_congr (fun i hi => by rw [hL i (mem_chainOf_insnsOf hi)]) h2
  · exact PrevLinked.prev_congr (fun i hi => by rw [hL i hi]) h3
  · intro c l hc hl hn
    rw [hL c (mem_insnsOf_of_mem hc)] at hl
    exact h4 c l hc hl hn
  · exact MarkedOffs.offs_congr (fun i hi => by rw [hL i hi]) h5

theorem StreamInv.stream_frame {env : Env} (hdata : AssignsDataOnly env) {m : Mir2Lir}
    {so : Nat} (h : StreamInv m so) (x : Nat) :
    StreamInv (AssignDataOffsets env { m with data_offset_ := x }) so := by
  obtain ⟨marked, h1, h2, h3, h4, h5, h6, h7⟩ := h
  obtain ⟨e1, e2, _, e4⟩ := hdata.frame_insns m x h1
  have hL : ∀ j ∈ insnsOf marked,
      layoutOf (AssignDataOffsets env { m with data_offset_ := x }).lirs j
        = layoutOf m.lirs j := fun j hj => layoutOf_of_get (e4 j hj)
  refine ⟨marked, ?_, ?_, ?_, ?_, ?_, ?_, ?_⟩
  · rw [e1]
    exact Seg.seg_congr (fun i hi => by rw [hL i hi]) h1
  · rw [e2]
    exact Seg.seg_congr (fun i hi => by rw [hL i (mem_chainOf_insnsOf hi)]) h2
  · exact PrevLinked.prev_congr (fun i hi => by rw [hL i hi]) h3
  · intro c l hc hl hn
    rw [hL c (mem_insnsOf_of_mem hc)] at hl
    exact h4 c l hc hl hn
  · exact MarkedOffs.offs_congr (fun i hi => by rw [hL i hi]) h5
  · intro i hi r hr hn
    rw [e4 i hi] at hr
    exact h6 i hi r hr hn
  · rw [h7]
    congr 1
    exact (lsum_congr fun i hi => by unfold lsize; rw [hL i hi]).symm

/-- Records that differ in their offsets only are alike for the rewritings. -/
theorem eraseOffset_views {r r' : LIR} (h : eraseOffset r' = eraseOffset r) :
    r'.flags = r.flags ∧ r'.opcode = r.opcode ∧ r'.prev = r.prev ∧ r'.next = r.next ∧
    r'.pcrel_next = r.pcrel_next ∧ r'.target = r.target ∧ r'.operands = r.operands := by
  cases r
  cases r'
  simp only [eraseOffset, LIR.mk.injEq] at h
  obtain ⟨_, _, a3, a4, a5, a6, a7, a8, a9⟩ := h
  exact ⟨a7, a3, a5, a4, a8, a6, a9⟩

theorem get_of_eraseOffset {lirs lirs' : List LIR}
    (h : ∀ j : Nat, (lirs'[j]?).map eraseOffset = (lirs[j]?).map eraseOffset) (j : Nat) :
    (lirs'[j]? = none ∧ lirs[j]? = none) ∨
    ∃ r r', lirs[j]? = some r ∧ lirs'[j]? = some r' ∧ eraseOffset r' = eraseOffset r := by
  have hj := h j
  cases h1 : lirs'[j]? with
  | none =>
    rw [h1] at hj
    cases h0 : lirs[j]? with
    | none => exact Or.inl ⟨rfl, rfl⟩
    | some r0 => rw [h0] at hj; cases hj
  | some r1 =>
    rw [h1] at hj
    cases h0 : lirs[j]? with
    | none => rw [h0] at hj; cases hj
    | some r0 =>
      rw [h0] at hj
      simp only [Option.map_some', Option.some.injEq] at hj
      exact Or.inr ⟨r0, r1, rfl, rfl, hj⟩

theorem guarded_frame {env : Env} {lirs lirs' : List LIR}
    (h : ∀ j : Nat, (lirs'[j]?).map eraseOffset = (lirs[j]?).map eraseOffset)
    (q : Option Nat) : guarded env lirs' q = guarded env lirs q := by
  cases q with
  | none => rfl
  | some q =>
    show (match lirs'[q]? with
      | none => false
      | some rq => stableRec env rq) = (match lirs[q]? with
      | none => false
      | some rq => stableRec env rq)
    rcases get_of_eraseOffset h q with ⟨h1, h0⟩ | ⟨r, r', h0, h1, he⟩
    · rw [h1, h0]
    · rw [h1, h0]
      obtain ⟨a1, a2, _⟩ := eraseOffset_views he
      show stableRec env r' = stableRec env r
      unfold stableRec
      rw [a1, a2]

theorem rewritable_frame {env : Env} {lirs lirs' : List LIR}
    (h : ∀ j : Nat, (lirs'[j]?).map eraseOffset = (lirs[j]?).map eraseOffset)
    (j : Nat) : rewritable env lirs' j = rewritable env lirs j := by
  unfold rewritable
  rcases get_of_eraseOffset h j with ⟨h1, h0⟩ | ⟨r, r', h0, h1, he⟩
  · rw [h1, h0]
  · rw [h1, h0]
    obtain ⟨a1, _, a3, _⟩ := eraseOffset_views he
    show (match r'.flags.fixup with
      | kFixupT1Branch | kFixupTBxZ => true
      | kFixupA53Erratum835769 => !guarded env lirs' r'.prev
      | _ => false) = (match r.flags.fixup with
      | kFixupT1Branch | kFixupTBxZ => true
      | kFixupA53Erratum835769 => !guarded env lirs r.prev
      | _ => false)
    rw [a1, a3, guarded_frame h]

theorem hasRewriteKind_frame {lirs lirs' : List LIR}
    (h : ∀ j : Nat, (lirs'[j]?).map eraseOffset = (lirs[j]?).map eraseOffset)
    (j : Nat) : hasRewriteKind lirs' j = hasRewriteKind lirs j := by
  unfold hasRewriteKind
  rcases get_of_eraseOffset h j with ⟨h1, h0⟩ | ⟨r, r', h0, h1, he⟩
  · rw [h1, h0]
  · rw [h1, h0]
    obtain ⟨a1, _⟩ := eraseOffset_views he
    show isRewriteKind r'.flags.fixup = isRewriteKind r.flags.fixup
    rw [a1]
/-! ## The sample `AssignDataOffsets` writes the offsets of the literals only -/

theorem insnWalk_path (lirs : List LIR) :
    ∀ (fuel : Nat) (p : Option Nat) (w : List Nat),
      insnWalk lirs fuel p = some w → NextPath lirs p w := by
  intro fuel
  induction fuel with
  | zero =>
    intro p w h
    cases p with
    | none =>
      unfold insnWalk at h
      injection h with h
      subst h
      rfl
    | some i =>
      unfold insnWalk at h
      cases h
  | succ fuel ih =>
    intro p w h
    cases p with
    | none =>
      unfold insnWalk at h
      injection h with h
      subst h
      rfl
    | some i =>
      unfold insnWalk at h
      cases hr : lirs[i]? with
      | none =>
        rw [hr] at h
        cases h
      | some r =>
        rw [hr] at h
        dsimp only at h
        cases hw : insnWalk lirs fuel r.next with
        | none =>
          rw [hw] at h
          cases h
        | some rest =>
          rw [hw] at h
          injection h with h
          subst h
          exact ⟨by simp, rfl, r, hr, ih _ _ hw⟩

theorem poolOffsets_get (insns : List Nat) :
    ∀ (l : List LIR) (j offset k : Nat),
      ((poolOffsets insns l j offset)[k]?).map eraseOffset = (l[k]?).map eraseOffset ∧
      (j + k ∈ insns → (poolOffsets insns l j offset)[k]? = l[k]?) := by
  intro l
  induction l with
  | nil =>
    intro j offset k
    exact ⟨rfl, fun _ => rfl⟩
  | cons r rest ih =>
    intro j offset k
    unfold poolOffsets
    by_cases hj : j ∈ insns
    · rw [if_pos hj]
      cases k with
      | zero => exact ⟨by simp, fun _ => by simp⟩
      | succ k =>
        obtain ⟨h1, h2⟩ := ih (j + 1) offset k
        refine ⟨by simpa using h1, fun hm => ?_⟩
        have : j + 1 + k ∈ insns := by
          have e : j + 1 + k = j + (k + 1) := by omega
          rw [e]
          exact hm
        simpa using h2 this
    · rw [if_neg hj]
      cases k with
      | zero => exact ⟨by simp [eraseOffset], fun hm => absurd hm hj⟩
      | succ k =>
        obtain ⟨h1, h2⟩ := ih (j + 1) (offset + 8) k
        refine ⟨by simpa using h1, fun hm => ?_⟩
        have : j + 1 + k ∈ insns := by
          have e : j + 1 + k = j + (k + 1) := by omega
          rw [e]
          exact hm
        simpa using h2 this

/-- The sample `AssignDataOffsets` of a literal pool writes no record of the instruction
list, no member of a record but `offset`, and neither the heads of the two lists nor
`data_offset_`. -/
theorem poolAssign_dataOnly (cfg : BuildConfig) : AssignsDataOnly (poolEnv cfg) := by
  intro m
  show (poolAssign m).first_lir_insn_ = m.first_lir_insn_ ∧
    (poolAssign m).first_fixup_ = m.first_fixup_ ∧
    (poolAssign m).data_offset_ = m.data_offset_ ∧
    (∀ j : Nat, ((poolAssign m).lirs[j]?).map eraseOffset = (m.lirs[j]?).map eraseOffset) ∧
    ∀ insns : List Nat, NextPath m.lirs m.first_lir_insn_ insns →
      ∀ j ∈ insns, (poolAssign m).lirs[j]? = m.lirs[j]?
  unfold poolAssign
  cases hw : insnWalk m.lirs m.lirs.length m.first_lir_insn_ with
  | none => exact ⟨rfl, rfl, rfl, fun _ => rfl, fun _ _ _ _ => rfl⟩
  | some w =>
    refine ⟨rfl, rfl, rfl, fun j => (poolOffsets_get w m.lirs 0 m.data_offset_ j).1, ?_⟩
    intro insns hpath j hj
    have e : w = insns := NextSeg.unique (insnWalk_path _ _ _ _ hw) hpath
    subst e
    exact (poolOffsets_get w m.lirs 0 m.data_offset_ j).2 (by rw [Nat.zero_add]; exact hj)
/-! ## C38: the size of the code is `starting_offset` -/

/-- The fixup loop keeps `starting_offset` equal to the sum of the sizes of the stream,
when the assignment of the data offsets between two passes leaves the records and the
heads of the two lists alone. -/
theorem fixupLoop_StreamInv {env : Env} {fuel : Nat}
    (hdata : AssignsDataOnly env) :
    ∀ (rounds : Nat) (m : Mir2Lir) (generation assembler_retries starting_offset : Nat)
      (m1 : Mir2Lir) (so : Nat), StreamInv m starting_offset →
      fixupLoop env fuel rounds m generation assembler_retries starting_offset = .ok (m1, so) →
      StreamInv m1 so := by
  intro rounds
  induction rounds with
  | zero =>
    intro m generation assembler_retries starting_offset m1 so _ h
    unfold fixupLoop at h
    cases h
  | succ rounds ih =>
    intro m generation assembler_retries starting_offset m1 so hinv h
    unfold fixupLoop at h
    dsimp only at h
    cases hp : fixupPass env (generation ^^^ 1) fuel m
        { offset_adjustment := 0, res := .kSuccess, prev_lir := none, lir := m.first_fixup_ } with
    | error e => rw [hp] at h; cases h
    | ok v =>
      obtain ⟨m2, loc2⟩ := v
      rw [hp] at h
      dsimp only at h
      have hinv2 := fixupPass_StreamInv hinv hp
      by_cases hres : loc2.res = .kSuccess
      · rw [if_pos hres] at h
        have hz : loc2.offset_adjustment = 0 :=
          fixupPass_adjustment env _ fuel m _ m2 loc2 hp rfl hres
        split at h
        · cases h
        · injection h with h
          injection h with h1 h2
          rw [← h1, ← h2]
          have hlt := hinv.offset_lt
          have e : wrap32 (starting_offset + toU32 loc2.offset_adjustment) = starting_offset := by
            rw [hz]
            unfold wrap32 toU32
            omega
          rw [e] at hinv2
          exact hinv2
      · rw [if_neg hres] at h
        split at h
        · cases h
        · apply ih _ _ _ _ _ _ _ h
          exact hinv2.stream_frame hdata _

/-- C38. Let the state in which `AssembleLIR` starts be well formed (`LinkReady`) and let
the sizes of its records be those of what `EncodeLIRs` stores: among the records not
flagged `is_nop`, `flags.size` is 4 for every instruction and 0 for every pseudo-op. If
the resolver converges, leaving the state `m1` and the local `starting_offset`, then
`starting_offset` is, as a `uint32_t`, four times the number of the records of the final
instruction list that are neither pseudo-ops nor flagged `is_nop`; whenever `EncodeLIRs`
returns on this list it has stored exactly that many bytes, so that
`DCHECK_EQ(write_pos - &code_buffer_[0], starting_offset)` passes in every build and, for
a stream below `2 ^ 32` bytes, the bytes stored are `starting_offset` many and fill the
code buffer; `data_offset_` is `ALIGNED_DATA_OFFSET` of the size of the code buffer, so
that the last `DCHECK_EQ` passes as well; and in a build without debug checks `EncodeLIRs`
does return, given fuel for the records of the list. Of `AssignDataOffsets` it is assumed
that it writes no record of the instruction list, no member of a record but `offset`, and
neither the heads of the two lists nor `data_offset_` (`AssignsDataOnly`): it may assign
the offsets of the literals, which the loads of the stream read. -/
theorem code_size_is_starting_offset (env : Env) (fuel : Nat) (m : Mir2Lir)
    (insns : List Nat) (hready : LinkReady env m insns) (hfuel : insns.length ≤ fuel)
    (hsz : SizesAsEmitted m.lirs insns)
    (hdata : AssignsDataOnly env)
    (m1 : Mir2Lir) (starting_offset : Nat)
    (hres : AssembleLIR_resolve env fuel m = .ok (m1, starting_offset)) :
    ∃ insns1 : List Nat,
      NextPath m1.lirs m1.first_lir_insn_ insns1 ∧
      SizesAsEmitted m1.lirs insns1 ∧
      starting_offset = wrap32 (4 * (insns1.filter (emitsAt m1.lirs)).length) ∧
      m1.data_offset_ = ALIGNED_DATA_OFFSET starting_offset ∧
      (∀ (fuel2 : Nat) (lirs2 : List LIR) (out : List Nat) (write_pos : Nat),
        EncodeLIRs env.toBuildConfig fuel2 m1.lirs 0 m1.first_lir_insn_
          = .ok (lirs2, out, write_pos) →
        write_pos = out.length ∧
        out.length = 4 * (insns1.filter (emitsAt m1.lirs)).length ∧
        wrap32 write_pos = starting_offset ∧
        DCHECK env.toBuildConfig (wrap32 write_pos == starting_offset)
          "DCHECK_EQ(static_cast<CodeOffset>(write_pos - &code_buffer_[0]), starting_offset)"
          = .ok () ∧
        DCHECK env.toBuildConfig
          (m1.data_offset_ == ALIGNED_DATA_OFFSET
            ((out ++ List.replicate (starting_offset - out.length) 0).take
              starting_offset).length)
          "DCHECK_EQ(data_offset_, ALIGNED_DATA_OFFSET(code_buffer_.size()))" = .ok () ∧
        (out.length < 4294967296 →
          out.length = starting_offset ∧
          (out ++ List.replicate (starting_offset - out.length) 0).take starting_offset
            = out)) ∧
      (env.kIsDebugBuild = false → env.kEnableDChecks = false →
        ∀ fuel2, insns1.length ≤ fuel2 →
          ∃ lirs2 out, EncodeLIRs env.toBuildConfig fuel2 m1.lirs 0 m1.first_lir_insn_
              = .ok (lirs2, out, out.length) ∧
            (out.length < 4294967296 → out.length = starting_offset)) := by
  have hres0 := hres
  unfold AssembleLIR_resolve at hres
  obtain ⟨⟨m2, so2⟩, hlink, h⟩ := bind_ok hres
  dsimp only at h
  obtain ⟨m2', off, hrun, hS, _⟩ := LinkFixupInsns_StreamInv hready hfuel hsz
  rw [hlink] at hrun
  injection hrun with hrun
  injection hrun with e1 e2
  subst e1
  subst e2
  have hS2 : StreamInv (AssignDataOffsets env
      { m2 with data_offset_ := ALIGNED_DATA_OFFSET so2 }) so2 :=
    hS.stream_frame hdata _
  have hS3 := fixupLoop_StreamInv hdata _ _ _ _ _ _ _ hS2 h
  obtain ⟨marked, c1, _, _, _, _, c6, c7⟩ := hS3
  have hso : starting_offset
      = wrap32 (4 * ((insnsOf marked).filter (emitsAt m1.lirs)).length) := by
    rw [c7, lsum_as_emitted c6]
  have hdo : m1.data_offset_ = ALIGNED_DATA_OFFSET starting_offset :=
    AssembleLIR_resolve_data_offset (fun m => (hdata m).2.2.1) hres0
  have hexact : ∀ out : List Nat,
      out.length = 4 * ((insnsOf marked).filter (emitsAt m1.lirs)).length →
      out.length < 4294967296 → out.length = starting_offset := by
    intro out h2 hlt
    rw [hso, ← h2]
    exact (wrap32_of_lt hlt).symm
  refine ⟨insnsOf marked, c1.nextPath, c6, hso, hdo, ?_, ?_⟩
  · intro fuel2 lirs2 out wp he
    obtain ⟨h1, h2⟩ := EncodeLIRs_length _ _ _ _ c1.nextPath _ _ _ _ _ he
    have hwp : wp = out.length := by omega
    have hw : wrap32 wp = starting_offset := by rw [hwp, h2, ← hso]
    have hlen : ((out ++ List.replicate (starting_offset - out.length) 0).take
        starting_offset).length = starting_offset := by
      simp
      omega
    refine ⟨hwp, h2, hw, ?_, ?_, fun hlt => ?_⟩
    · unfold DCHECK
      rw [hw]
      simp
    · unfold DCHECK
      rw [hlen, hdo]
      simp
    · have e := hexact out h2 hlt
      refine ⟨e, ?_⟩
      rw [← e]
      simp
  · intro hd hc fuel2 hf2
    obtain ⟨lirs2, out, hrun2, hlen2⟩ :=
      EncodeLIRs_release_length env.toBuildConfig hd hc m1.lirs 0 m1.first_lir_insn_
        (insnsOf marked) fuel2 c1.nextPath hf2
    rw [Nat.zero_add] at hrun2
    exact ⟨lirs2, out, hrun2, hexact out hlen2⟩

theorem code_size_is_starting_offset_witness :
    LinkReady (poolEnv releaseConfig) poolStream [0, 1, 2, 3] ∧
    SizesAsEmitted poolStream.lirs [0, 1, 2, 3] ∧
    ((LinkFixupInsns (poolEnv releaseConfig) 4 poolStream (some 0) (some 3) 0).map fun r =>
        (AssignDataOffsets (poolEnv releaseConfig)
          { r.1 with data_offset_ := ALIGNED_DATA_OFFSET r.2 }, r.2))
      = .ok (poolStreamLinked, 12) ∧
    ((AssembleLIR_resolve (poolEnv releaseConfig) 4 poolStream).map fun r =>
        (r.1.lirs.map LIR.offset, r.1.data_offset_, r.2)) = .ok ([0, 4, 4, 0, 8], 8, 8) ∧
    (AssembleLIR (poolEnv releaseConfig) 4 poolStream).map Mir2Lir.code_buffer_
      = .ok [64, 0, 0, 24, 192, 3, 95, 214] ∧
    ∃ m1, AssembleLIR_resolve (poolEnv releaseConfig) 4 poolStream = .ok (m1, 8) ∧
      ∃ insns1 : List Nat, NextPath m1.lirs m1.first_lir_insn_ insns1 ∧
        8 = wrap32 (4 * (insns1.filter (emitsAt m1.lirs)).length) ∧
        m1.data_offset_ = ALIGNED_DATA_OFFSET 8 := by
  have hready : LinkReady (poolEnv releaseConfig) poolStream [0, 1, 2, 3] := by
    refine ⟨rfl, ?_, rfl, by decide, ?_, ?_⟩
    · simp [NextPath, NextSeg, poolStream]
    · simp [PrevLinked, layoutOf, LIR.layout, poolStream]
    · intro i _ r _ _ _ c _ hk
      cases hk
  have hsz : SizesAsEmitted poolStream.lirs [0, 1, 2, 3] := by
    intro i hi r hr _
    simp only [List.mem_cons, List.mem_singleton, List.not_mem_nil, or_false] at hi
    rcases hi with e | e | e | e <;> subst e
    · have hr' : some _ = some r := hr
      injection hr' with hr'
      subst hr'
      rfl
    · have hr' : some _ = some r := hr
      injection hr' with hr'
      subst hr'
      rfl
    · have hr' : some _ = some r := hr
      injection hr' with hr'
      subst hr'
      rfl
    · have hr' : some _ = some r := hr
      injection hr' with hr'
      subst hr'
      rfl
  have hmap : (AssembleLIR_resolve (poolEnv releaseConfig) 4 poolStream).map Prod.snd
      = .ok 8 := by decide!
  refine ⟨hready, hsz, by decide!, by decide!, by decide!, ?_⟩
  cases h : AssembleLIR_resolve (poolEnv releaseConfig) 4 poolStream with
  | error e => rw [h] at hmap; cases hmap
  | ok v =>
    obtain ⟨m1, so⟩ := v
    rw [h] at hmap
    injection hmap with hmap
    have hso : so = 8 := hmap
    subst hso
    obtain ⟨insns1, h1, _, h3, h4, _⟩ :=
      code_size_is_starting_offset (poolEnv releaseConfig) 4 poolStream [0, 1, 2, 3] hready
        (by decide) hsz (poolAssign_dataOnly releaseConfig) m1 8 h
    exact ⟨m1, rfl, insns1, h1, h3, h4⟩
/-! ## The rounds of the resolver end -/

theorem FuelFree.fuel_pure {α : Type} (a : α) : FuelFree (pure a : Except Fault α) := by
  intro h; cases h

theorem FuelFree.fuel_throw {α : Type} (e : Fault) (he : e ≠ .outOfFuel) :
    FuelFree (throw e : Except Fault α) := by
  intro h
  injection h with h
  exact he h

theorem FuelFree.fuel_bind {α β : Type} {x : Except Fault α} {f : α → Except Fault β}
    (hx : FuelFree x) (hf : ∀ a, FuelFree (f a)) : FuelFree (x >>= f) := by
  intro h
  cases x with
  | error e =>
    have : e = .outOfFuel := by
      injection h
    exact hx (by rw [this])
  | ok a => exact hf a h

theorem FuelFree.fuel_bind_ok {α β : Type} {x : Except Fault α} {f : α → Except Fault β}
    (hx : FuelFree x) (hf : ∀ a, x = .ok a → FuelFree (f a)) : FuelFree (x >>= f) := by
  intro h
  cases x with
  | error e =>
    have : e = .outOfFuel := by
      injection h
    exact hx (by rw [this])
  | ok a => exact hf a rfl h

theorem FuelFree.fuel_getLIR (lirs : List LIR) (p : Option Nat) : FuelFree (getLIR lirs p) := by
  intro h
  unfold art.getLIR at h
  split at h
  · cases h
  · split at h <;> cases h

theorem FuelFree.fuel_updLIR (lirs : List LIR) (p : Option Nat) (f : LIR → LIR) :
    FuelFree (updLIR lirs p f) := by
  intro h
  unfold art.updLIR at h
  split at h
  · rename_i e he
    injection h with h
    rw [h] at he
    exact FuelFree.fuel_getLIR lirs p he
  · cases h

theorem FuelFree.fuel_DCHECK (cfg : BuildConfig) (c : Bool) (msg : String) :
    FuelFree (DCHECK cfg c msg) := by
  intro h
  have := DCHECK_error h
  cases this

theorem FuelFree.fuel_ite {α : Type} {c : Prop} [Decidable c] {x y : Except Fault α}
    (hx : FuelFree x) (hy : FuelFree y) : FuelFree (if c then x else y) := by
  split
  · exact hx
  · exact hy

theorem FuelFree.fuel_fixupDelta (env : Env) (lirs : List LIR) (lir : LIR) (adj : Int) :
    FuelFree (fixupDelta env lirs lir adj) := by
  unfold art.fixupDelta
  repeat' (first
    | exact FuelFree.fuel_getLIR _ _
    | exact FuelFree.fuel_DCHECK _ _ _
    | exact FuelFree.fuel_pure _
    | apply FuelFree.fuel_bind
    | intro _)

theorem FuelFree.fuel_InsertLIRAfter (lirs : List LIR) (a b : Option Nat) :
    FuelFree (InsertLIRAfter lirs a b) := by
  unfold art.InsertLIRAfter
  repeat' (first
    | exact FuelFree.fuel_getLIR _ _
    | exact FuelFree.fuel_updLIR _ _ _
    | exact FuelFree.fuel_pure _
    | apply FuelFree.fuel_bind
    | apply FuelFree.fuel_ite
    | intro _)

theorem FuelFree.fuel_InsertLIRBefore (lirs : List LIR) (a b : Option Nat) :
    FuelFree (InsertLIRBefore lirs a b) := by
  unfold art.InsertLIRBefore
  repeat' (first
    | exact FuelFree.fuel_getLIR _ _
    | exact FuelFree.fuel_updLIR _ _ _
    | exact FuelFree.fuel_pure _
    | apply FuelFree.fuel_bind
    | apply FuelFree.fuel_ite
    | intro _)

theorem FuelFree.fuel_ReplaceFixup (m : Mir2Lir) (a b c : Option Nat) :
    FuelFree (ReplaceFixup m a b c) := by
  unfold art.ReplaceFixup
  repeat' (first
    | exact FuelFree.fuel_getLIR _ _
    | exact FuelFree.fuel_updLIR _ _ _
    | exact FuelFree.fuel_pure _
    | apply FuelFree.fuel_bind
    | apply FuelFree.fuel_ite
    | intro _)

theorem FuelFree.fuel_tbxzWiden (env : Env) (generation : Nat) (m : Mir2Lir) (loc : FixupLocals)
    (p : Nat) (opcode : Opcode) (lirs : List LIR) (lir : LIR) :
    FuelFree (tbxzWiden env generation m loc p opcode lirs lir) := by
  unfold art.tbxzWiden
  repeat' (first
    | exact FuelFree.fuel_getLIR _ _
    | exact FuelFree.fuel_updLIR _ _ _
    | exact FuelFree.fuel_DCHECK _ _ _
    | exact FuelFree.fuel_InsertLIRAfter _ _ _
    | exact FuelFree.fuel_ReplaceFixup _ _ _ _
    | exact FuelFree.fuel_pure _
    | apply FuelFree.fuel_bind
    | apply FuelFree.fuel_ite
    | intro _)

theorem FuelFree.fuel_tbxzCheckWidth (env : Env) (lirs : List LIR) (lir : LIR) (p : Nat) :
    FuelFree (tbxzCheckWidth env lirs lir p) := by
  unfold art.tbxzCheckWidth
  repeat' (first
    | exact FuelFree.fuel_getLIR _ _
    | exact FuelFree.fuel_updLIR _ _ _
    | exact FuelFree.fuel_DCHECK _ _ _
    | exact FuelFree.fuel_pure _
    | apply FuelFree.fuel_bind
    | apply FuelFree.fuel_ite
    | intro _)

theorem FuelFree.fuel_fixupTBxZ (env : Env) (generation : Nat) (m : Mir2Lir) (loc : FixupLocals)
    (p : Nat) : FuelFree (fixupTBxZ env generation m loc p) := by
  unfold art.fixupTBxZ
  repeat' (first
    | exact FuelFree.fuel_getLIR _ _
    | exact FuelFree.fuel_updLIR _ _ _
    | exact FuelFree.fuel_DCHECK _ _ _
    | exact FuelFree.fuel_fixupDelta _ _ _ _
    | exact FuelFree.fuel_tbxzCheckWidth _ _ _ _
    | exact FuelFree.fuel_tbxzWiden _ _ _ _ _ _ _ _
    | exact FuelFree.fuel_pure _
    | apply FuelFree.fuel_bind
    | apply FuelFree.fuel_ite
    | intro _)

theorem FuelFree.fuel_fixupT1Branch (env : Env) (m : Mir2Lir) (loc : FixupLocals) (p : Nat) :
    FuelFree (fixupT1Branch env m loc p) := by
  unfold art.fixupT1Branch
  repeat' (first
    | exact FuelFree.fuel_getLIR _ _
    | exact FuelFree.fuel_updLIR _ _ _
    | exact FuelFree.fuel_fixupDelta _ _ _ _
    | exact FuelFree.fuel_pure _
    | exact FuelFree.fuel_throw _ (by intro h; cases h)
    | apply FuelFree.fuel_bind
    | apply FuelFree.fuel_ite
    | intro _)

theorem FuelFree.fuel_fixupCondBranch (env : Env) (m : Mir2Lir) (loc : FixupLocals) (p : Nat) :
    FuelFree (fixupCondBranch env m loc p) := by
  unfold art.fixupCondBranch
  repeat' (first
    | exact FuelFree.fuel_getLIR _ _
    | exact FuelFree.fuel_updLIR _ _ _
    | exact FuelFree.fuel_fixupDelta _ _ _ _
    | exact FuelFree.fuel_pure _
    | exact FuelFree.fuel_throw _ (by intro h; cases h)
    | apply FuelFree.fuel_bind
    | apply FuelFree.fuel_ite
    | intro _)

theorem FuelFree.fuel_adrDelta (m : Mir2Lir) (lir : LIR) (adj : Int) :
    FuelFree (adrDelta m lir adj) := by
  unfold art.adrDelta
  apply FuelFree.fuel_ite
  · exact FuelFree.fuel_bind (FuelFree.fuel_getLIR _ _) fun _ => FuelFree.fuel_pure _
  · apply FuelFree.fuel_ite
    · split
      · intro h; cases h
      · exact FuelFree.fuel_pure _
    · exact FuelFree.fuel_pure _

theorem FuelFree.fuel_fixupAdr (m : Mir2Lir) (loc : FixupLocals) (p : Nat) :
    FuelFree (fixupAdr m loc p) := by
  unfold art.fixupAdr
  repeat' (first
    | exact FuelFree.fuel_getLIR _ _
    | exact FuelFree.fuel_updLIR _ _ _
    | exact FuelFree.fuel_adrDelta _ _ _
    | exact FuelFree.fuel_pure _
    | exact FuelFree.fuel_throw _ (by intro h; cases h)
    | apply FuelFree.fuel_bind
    | apply FuelFree.fuel_ite
    | intro _)

/-- The case `kFixupA53Erratum835769` ends when the walk of `GetPrevEmittingLIR` from the
node does. -/
theorem FuelFree.fuel_fixupA53 {env : Env} {fuel : Nat} {m : Mir2Lir} {loc : FixupLocals}
    {p : Nat}
    (h : ∀ r, m.lirs[p]? = some r → FuelFree (prevEmittingFrom m.lirs fuel r.prev)) :
    FuelFree (fixupA53Erratum835769 env fuel m loc p) := by
  unfold art.fixupA53Erratum835769
  apply FuelFree.fuel_bind_ok (FuelFree.fuel_getLIR _ _)
  intro lir hlir
  obtain ⟨i, hi, hr⟩ := getLIR_ok hlir
  injection hi with hi
  subst hi
  apply FuelFree.fuel_ite
  · apply FuelFree.fuel_ite
    · rw [GetPrevEmittingLIR_eq env.toBuildConfig m.lirs fuel _ lir hr]
      apply FuelFree.fuel_bind (h lir hr)
      intro prev_insn
      apply FuelFree.fuel_ite
      · exact FuelFree.fuel_pure _
      · apply FuelFree.fuel_bind (FuelFree.fuel_getLIR _ _)
        intro prev
        split
        · intro h; cases h
        · dsimp only
          repeat' (first
            | exact FuelFree.fuel_getLIR _ _
            | exact FuelFree.fuel_updLIR _ _ _
            | exact FuelFree.fuel_InsertLIRBefore _ _ _
            | exact FuelFree.fuel_pure _
            | apply FuelFree.fuel_bind
            | apply FuelFree.fuel_ite
            | intro _)
    · exact FuelFree.fuel_pure _
  · exact FuelFree.fuel_pure _

theorem FuelFree.fuel_fixupSwitch {env : Env} {fuel generation : Nat} {m : Mir2Lir}
    {loc : FixupLocals} {p : Nat} (fixup : FixupKind)
    (h : ∀ r, m.lirs[p]? = some r → FuelFree (prevEmittingFrom m.lirs fuel r.prev)) :
    FuelFree (fixupSwitch env fuel generation m loc p fixup) := by
  cases fixup <;> simp only [fixupSwitch]
  all_goals first
    | exact FuelFree.fuel_pure _
    | exact FuelFree.fuel_throw _ (by intro h; cases h)
    | exact FuelFree.fuel_fixupTBxZ _ _ _ _ _
    | exact FuelFree.fuel_bind (FuelFree.fuel_fixupT1Branch _ _ _ _) fun _ => FuelFree.fuel_pure _
    | exact FuelFree.fuel_bind (FuelFree.fuel_fixupCondBranch _ _ _ _)
        fun _ => FuelFree.fuel_pure _
    | exact FuelFree.fuel_bind (FuelFree.fuel_fixupAdr _ _ _) fun _ => FuelFree.fuel_pure _
    | exact FuelFree.fuel_bind (FuelFree.fuel_fixupA53 h) fun _ => FuelFree.fuel_pure _

/-- A round of the inner loop ends when the walk of `GetPrevEmittingLIR` from its node
does. -/
theorem FuelFree.fuel_fixupStep {env : Env} {fuel generation : Nat} {m : Mir2Lir}
    {loc : FixupLocals} {p : Nat}
    (h : ∀ r, m.lirs[p]? = some r → FuelFree (prevEmittingFrom m.lirs fuel r.prev)) :
    FuelFree (fixupStep env fuel generation m loc p) := by
  cases hr : m.lirs[p]? with
  | none =>
    rw [fixupStep_none env fuel generation m loc p hr]
    intro hc
    cases hc
  | some r =>
    rw [fixupStep_eq env fuel generation m loc p r hr]
    apply FuelFree.fuel_bind
    · apply FuelFree.fuel_fixupSwitch
      intro r' hr'
      have hrV := visitState_get m loc.offset_adjustment generation p r hr
      rw [hrV] at hr'
      injection hr' with hr'
      subst hr'
      rw [prevEmittingFrom_visitState]
      exact h r hr
    · intro res
      split
      · exact FuelFree.fuel_pure _
      · exact FuelFree.fuel_bind (FuelFree.fuel_getLIR _ _) fun _ => FuelFree.fuel_pure _

/-- The walk of `GetPrevEmittingLIR` back from the end of a list of records whose `prev`
links follow the list returns when it has fuel for the records of the list. -/
theorem prevEmittingFrom_returns {lirs : List LIR} :
    ∀ (xs : List Nat) (fuel : Nat), PrevLinked (layoutOf lirs) none xs → xs.length ≤ fuel →
      ∃ q, prevEmittingFrom lirs fuel xs.getLast? = .ok q := by
  intro xs
  induction xs using List.reverseRecOn with
  | nil =>
    intro fuel _ _
    refine ⟨none, ?_⟩
    cases fuel <;> rfl
  | append_singleton xs a ih =>
    intro fuel hp hf
    rw [PrevLinked.prev_append] at hp
    obtain ⟨hp1, ⟨l, hl, hlp⟩, _⟩ := hp
    obtain ⟨r, hr, hrl⟩ := layoutOf_get hl
    have hprev : r.prev = xs.getLast? := by
      have e : r.prev = l.prev := by rw [← hrl]; rfl
      rw [e, hlp]
      split
      · rename_i hx
        rw [hx]
        rfl
      · rfl
    rw [List.length_append, List.length_singleton] at hf
    obtain ⟨f, rfl⟩ : ∃ f, fuel = f + 1 := ⟨fuel - 1, by omega⟩
    have elast : (xs ++ [a]).getLast? = some a := by simp
    rw [elast]
    unfold prevEmittingFrom
    rw [hr]
    dsimp only
    split
    · rw [hprev]
      exact ih f hp1 (by omega)
    · exact ⟨_, rfl⟩
/-! ## The rewritings of a run of the resolver -/

/-- A round of the inner loop that succeeds keeps the invariant of the pass, adds at most
the record it allocates to the chain, makes no record rewritable, and when it asks for a
retry it takes the last rewriting of its node; it allocates one record at most, and none
unless it asks for a retry. -/
theorem fixupStep_round {env : Env} {fuel generation : Nat} {m m1 : Mir2Lir}
    {loc loc1 : FixupLocals} {p : Nat} {ma mbt : List (Nat × Bool)}
    (hNop : isLoadOrStore env (EncodingMap kA64Nop0).flags = false)
    (hB : isLoadOrStore env (EncodingMap kA64B2ct).flags = false)
    (hn : PassInv (layoutOf m.lirs) m.lirs.length m.first_lir_insn_ m.first_fixup_
      loc.offset_adjustment (some p) loc.prev_lir ma ((p, true) :: mbt))
    (h : fixupStep env fuel generation m loc p = .ok (m1, loc1)) :
    ∃ ma1, PassInv (layoutOf m1.lirs) m1.lirs.length m1.first_lir_insn_ m1.first_fixup_
        loc1.offset_adjustment loc1.lir loc1.prev_lir ma1 mbt ∧
      (∀ c ∈ chainOf ma1, c ∈ chainOf ma ∨ c = p ∨ c = m.lirs.length) ∧
      m.lirs.length ≤ m1.lirs.length ∧
      RoundFrame env m.lirs m1.lirs ∧
      ((loc1.res = loc.res ∧ m1.lirs.length = m.lirs.length) ∨
        (loc1.res = .kRetryAll ∧ rewritable env m.lirs p = true ∧
          rewritable env m1.lirs p = false ∧ m1.lirs.length ≤ m.lirs.length + 1)) := by
  obtain ⟨l, hl, _⟩ := hn.at_node
  obtain ⟨hpN, hnp, hnn, hcp, hcn, hnc, hqp, hqn⟩ := hn.distinct hl
  obtain ⟨r, hr, hrl⟩ := layoutOf_get hl
  have hrV := visitState_get m loc.offset_adjustment generation p r hr
  have hlenV : (visitState m loc.offset_adjustment generation p).lirs.length = m.lirs.length :=
    length_updAt _ _ _
  have hlV : (visitRec r loc.offset_adjustment generation).layout
      = { l with offset := wrap32 (l.offset + toU32 loc.offset_adjustment) } := by
    rw [← hrl]
    rfl
  have hVset : ∀ x, (visitState m loc.offset_adjustment generation p).lirs.set p x
      = m.lirs.set p x := by
    intro x
    unfold visitState
    rw [updAt_of_some hr, List.set_set]
  have hVget : ∀ j : Nat, j ≠ p →
      (visitState m loc.offset_adjustment generation p).lirs[j]? = m.lirs[j]? := by
    intro j hj
    unfold visitState
    rw [getElem?_updAt, if_neg hj]
  have hbound : ∀ j l0, layoutOf m.lirs j = some l0 → j < m.lirs.length := by
    intro j l0 hj
    by_contra hc
    rw [hn.bound j (by omega)] at hj
    cases hj
  rw [fixupStep_eq env fuel generation m loc p r hr] at h
  obtain ⟨res, hsw, hrest⟩ := bind_ok h
  have hsw2 : fixupSwitch env fuel generation
      (visitState m loc.offset_adjustment generation p) loc p
      (visitRec r loc.offset_adjustment generation).flags.fixup = .ok res := hsw
  rcases fixupSwitch_effect hrV hsw2 (by rw [hlenV]; exact hcn) with
    ⟨r1, hr1, hb1, hres⟩ | ⟨r1, hk, hb1, hr1, hres⟩ | ⟨hk, rN, hrN, hres⟩ |
    ⟨hk, ⟨q, hq⟩, ⟨q', pv, op, hpe, hpv, hop, hls⟩, hres⟩
  · -- the layout of the node is kept
    subst hres
    have hget : getLIR ((visitState m loc.offset_adjustment generation p).lirs.set p r1)
        (some p) = .ok r1 := getLIR_some (getElem?_set_self_of_some hrV r1)
    simp only [Bool.false_eq_true, if_false, hget, bind, Except.bind, pure, Except.pure]
      at hrest
    injection hrest with hrest
    injection hrest with hm1 hloc1
    subst hm1
    subst hloc1
    refine ⟨ma ++ [(p, true)], ?_, fun c hc => ?_, ?_, ?_, Or.inl ⟨rfl, ?_⟩⟩
    · have hL : ∀ j, layoutOf ((visitState m loc.offset_adjustment generation p).lirs.set p r1) j
          = if j = p then some r1.layout else layoutOf m.lirs j := by
        intro j
        rw [layoutOf_set hrV]
        by_cases hj : j = p
        · rw [if_pos hj, if_pos hj]
        · rw [if_neg hj, if_neg hj, layoutOf_visitState m _ _ _ hj]
      have := PassInv.step_node false hn hl hL
        (by rw [hr1, hlV]) (by rw [hr1, hlV]) (by rw [hr1, hlV]) (by rw [hr1, hlV])
        (by rw [hr1, hlV]) (by rw [hr1, hlV]; rfl) (by rw [hr1, hlV]; rfl)
        (fun e => by cases e)
      simp only [Bool.false_eq_true, if_false] at this
      have e1 : r1.pcrel_next = l.pcrel_next := congrArg Layout.pcrel_next (hr1.trans hlV)
      show PassInv _ ((visitState m loc.offset_adjustment generation p).lirs.set p r1).length
        m.first_lir_insn_ m.first_fixup_ loc.offset_adjustment r1.pcrel_next (some p) _ _
      rw [List.length_set, hlenV, e1]
      exact this
    · rcases mem_chainOf_snoc hc with e | e
      · exact Or.inl e
      · exact Or.inr (Or.inl e)
    · show m.lirs.length ≤ ((visitState m loc.offset_adjustment generation p).lirs.set p r1).length
      rw [List.length_set, hlenV]
    · show RoundFrame env m.lirs
        ((visitState m loc.offset_adjustment generation p).lirs.set p r1)
      rw [hVset]
      exact RoundFrame.of_set hr (congrArg Layout.prev hr1) hb1
        (Or.inl ⟨congrArg Layout.fixup hr1, congrArg Layout.is_nop hr1⟩)
    · show ((visitState m loc.offset_adjustment generation p).lirs.set p r1).length
        = m.lirs.length
      rw [List.length_set, hlenV]
  · -- the node is elided
    subst hres
    have hget : getLIR ((visitState m loc.offset_adjustment generation p).lirs.set p r1)
        (some p) = .ok r1 := getLIR_some (getElem?_set_self_of_some hrV r1)
    simp only [Bool.false_eq_true, if_false, hget, bind, Except.bind, pure, Except.pure]
      at hrest
    injection hrest with hrest
    injection hrest with hm1 hloc1
    subst hm1
    subst hloc1
    have hkr : r.flags.fixup = kFixupT1Branch := hk
    have hL : ∀ j, layoutOf ((visitState m loc.offset_adjustment generation p).lirs.set p r1) j
        = if j = p then some r1.layout else layoutOf m.lirs j := by
      intro j
      rw [layoutOf_set hrV]
      by_cases hj : j = p
      · rw [if_pos hj, if_pos hj]
      · rw [if_neg hj, if_neg hj, layoutOf_visitState m _ _ _ hj]
    refine ⟨ma ++ [(p, true)], ?_, fun c hc => ?_, ?_, ?_, Or.inr ⟨rfl, ?_, ?_, ?_⟩⟩
    · have hkl : l.fixup ≠ kFixupNone := by
        rw [← hrl]
        show r.flags.fixup ≠ _
        rw [hkr]
        intro hc
        cases hc
      have := PassInv.step_node true hn hl hL
        (by rw [hr1, hlV]) (by rw [hr1, hlV]) (by rw [hr1, hlV]) (by rw [hr1, hlV])
        (by rw [hr1, hlV]) (by rw [hr1, hlV]; rfl) (by rw [hr1, hlV]; rfl)
        (fun _ => hkl)
      simp only [if_true] at this
      have e1 : r1.pcrel_next = l.pcrel_next := by
        have := congrArg Layout.pcrel_next hr1
        rw [hlV] at this
        exact this
      have e2 : (visitRec r loc.offset_adjustment generation).flags.size = l.size := by
        rw [← hrl]
        rfl
      show PassInv _ ((visitState m loc.offset_adjustment generation p).lirs.set p r1).length
        m.first_lir_insn_ m.first_fixup_
        (loc.offset_adjustment - (visitRec r loc.offset_adjustment generation).flags.size)
        r1.pcrel_next (some p) _ _
      rw [List.length_set, hlenV, e1, e2]
      exact this
    · rcases mem_chainOf_snoc hc with e | e
      · exact Or.inl e
      · exact Or.inr (Or.inl e)
    · show m.lirs.length ≤ ((visitState m loc.offset_adjustment generation p).lirs.set p r1).length
      rw [List.length_set, hlenV]
    · show RoundFrame env m.lirs
        ((visitState m loc.offset_adjustment generation p).lirs.set p r1)
      rw [hVset]
      exact RoundFrame.of_set hr (congrArg Layout.prev hr1) hb1
        (Or.inr ⟨hkr, congrArg Layout.fixup hr1⟩)
    · exact rewritable_of_kind hr (Or.inl hkr)
    · exact rewritable_of_none ((hL p).trans (if_pos rfl)) (congrArg Layout.fixup hr1)
    · show ((visitState m loc.offset_adjustment generation p).lirs.set p r1).length
        ≤ m.lirs.length + 1
      rw [List.length_set, hlenV]
      omega
  · -- the node is replaced by two instructions
    subst hres
    simp only [if_true, bind, Except.bind, pure, Except.pure] at hrest
    injection hrest with hrest
    injection hrest with hm1 hloc1
    subst hm1
    subst hloc1
    have hkr : r.flags.fixup = kFixupTBxZ := hk
    have hkl : l.fixup = kFixupTBxZ := by
      rw [← hrl]
      exact hkr
    have hrN2 : ((visitState m loc.offset_adjustment generation p).lirs.set p rN)[p]?
        = some rN := getElem?_set_self_of_some hrV rN
    have hlen2 : ((visitState m loc.offset_adjustment generation p).lirs.set p rN).length
        = m.lirs.length := by rw [List.length_set, hlenV]
    have hlay := layoutOf_widenedArena env generation loc.prev_lir
      (visitRec r loc.offset_adjustment generation).opcode l loc.offset_adjustment hrN2
      (hrN.trans hlV) hnp (by rw [hlen2]; exact hnn) hcp (by rw [hlen2]; exact hcn) hnc
    rw [hlen2, widenedLayout_congr (L := layoutOf m.lirs) _ _ _ _ _ (by
      intro j hj
      rw [layoutOf_set hrV, if_neg hj, layoutOf_visitState m _ _ _ hj])] at hlay
    have hbaseA := base_widenedArena env generation loc.prev_lir p
      (visitRec r loc.offset_adjustment generation).opcode
      ((visitState m loc.offset_adjustment generation p).lirs.set p rN) rN
    rw [hlen2] at hbaseA
    have hnew : guarded env (widenedArena env generation loc.prev_lir p
        (visitRec r loc.offset_adjustment generation).opcode
        ((visitState m loc.offset_adjustment generation p).lirs.set p rN) rN)
        (some m.lirs.length) = true := by
      refine @guarded_of_views _ _ _ _ kA64B2ct
        ((congrFun hlay _).trans (widenedLayout_new _ _ _ _ _ _)) rfl (Or.inr rfl) ?_ hB
      rw [hbaseA _ (Nat.ne_of_gt hpN), if_pos rfl]
    refine ⟨ma ++ [(p, false), (m.lirs.length, true)], ?_, fun c hc => ?_, ?_, ?_,
      Or.inr ⟨rfl, rewritable_of_kind hr (Or.inr hkr), ?_, ?_⟩⟩
    · have hkl' : l.fixup ≠ kFixupNone := by
        rw [hkl]
        intro hc
        cases hc
      have := PassInv.step_widen hn hl hkl'
      have e2 : (visitRec r loc.offset_adjustment generation).flags.size = l.size := by
        rw [← hrl]
        rfl
      have e3 : (visitRec r loc.offset_adjustment generation).pcrel_next = l.pcrel_next := by
        rw [← hrl]
        rfl
      show PassInv (layoutOf (widenedArena env generation loc.prev_lir p _ _ rN))
        (widenedArena env generation loc.prev_lir p _ _ rN).length m.first_lir_insn_
        (if loc.prev_lir = none
          then some (visitState m loc.offset_adjustment generation p).lirs.length
          else m.first_fixup_)
        (loc.offset_adjustment - (visitRec r loc.offset_adjustment generation).flags.size + 8)
        (visitRec r loc.offset_adjustment generation).pcrel_next
        (some (visitState m loc.offset_adjustment generation p).lirs.length) _ _
      rw [hlay, length_widenedArena, hlen2, hlenV, e2, e3]
      exact this
    · rcases mem_chainOf_snoc_widen hc with e | e
      · exact Or.inl e
      · exact Or.inr (Or.inr e)
    · show m.lirs.length ≤ (widenedArena env generation loc.prev_lir p _ _ rN).length
      rw [length_widenedArena, hlen2]
      omega
    · show RoundFrame env m.lirs (widenedArena env generation loc.prev_lir p _ _ rN)
      refine RoundFrame.of_views ?_ ?_ ?_
      · intro j l0 hj
        have hjn : j ≠ m.lirs.length := Nat.ne_of_lt (hbound j l0 hj)
        obtain ⟨l1, h1, h2, h3, h4⟩ :=
          widenedLayout_frame (layoutOf m.lirs) l l0 loc.offset_adjustment loc.prev_lir hl hkl
            hj hjn
        refine ⟨l1, (congrFun hlay j).trans h1, h2, h3, ?_⟩
        rcases h4 with e | e
        · exact Or.inl e
        · right
          rw [e]
          exact hnew
      · intro j r0 hj h1 h2
        have hjp : j ≠ p := by
          intro e
          subst e
          rw [hr] at hj
          injection hj with hj
          subst hj
          exact h2 hkr
        have hjl : j < m.lirs.length := (List.getElem?_eq_some_iff.mp hj).1
        rw [hbaseA j hjp, if_neg (Nat.ne_of_lt hjl),
          List.getElem?_set_ne (fun hc => hjp hc.symm), hVget j hjp, hj]
        rfl
      · intro j l1 hj h1
        rw [congrFun hlay j] at h1
        by_cases hjn : j = m.lirs.length
        · subst hjn
          rw [widenedLayout_new] at h1
          injection h1 with h1
          right
          rw [← h1]
        · exfalso
          have hLj : layoutOf m.lirs j = none := hn.bound j hj
          unfold widenedLayout at h1
          rw [if_neg hjn, if_neg (by omega), hLj] at h1
          split_ifs at h1 <;> cases h1
    · exact rewritable_of_none
        ((congrFun hlay p).trans (widenedLayout_node _ _ _ _ (Nat.ne_of_lt hpN))) rfl
    · show (widenedArena env generation loc.prev_lir p _ _ rN).length ≤ m.lirs.length + 1
      rw [length_widenedArena, hlen2]
  · -- a nop is put before the node
    subst hres
    have hkr : r.flags.fixup = kFixupA53Erratum835769 := hk
    have hkl : l.fixup = kFixupA53Erratum835769 := by
      rw [← hrl]
      exact hkr
    have hlay := layoutOf_nopInsertedArena l loc.offset_adjustment hrV hlV hqp
      (by rw [hlenV]; exact hqn)
    rw [hlenV, nopInsertedLayout_congr (L := layoutOf m.lirs) _ _ _ _ (by
      intro j hj
      rw [layoutOf_visitState m _ _ _ hj])] at hlay
    have hpl : layoutOf (nopInsertedArena (visitState m loc.offset_adjustment generation p).lirs
        p (visitRec r loc.offset_adjustment generation)) p = _ :=
      (congrFun hlay p).trans (nopInsertedLayout_node _ l _ (Nat.ne_of_lt hpN))
    obtain ⟨rp, hrp, hrpl⟩ := layoutOf_get hpl
    simp only [Bool.false_eq_true, if_false, getLIR_some hrp, bind, Except.bind, pure,
      Except.pure] at hrest
    injection hrest with hrest
    injection hrest with hm1 hloc1
    subst hm1
    subst hloc1
    have hbaseA := base_nopInsertedArena (visitState m loc.offset_adjustment generation p).lirs
      p (visitRec r loc.offset_adjustment generation)
    rw [hlenV] at hbaseA
    have hVbase : ∀ j : Nat, ((visitState m loc.offset_adjustment generation p).lirs[j]?).map
        (fun l : LIR => l.opcode.base) = (m.lirs[j]?).map (fun l : LIR => l.opcode.base) := by
      intro j
      unfold visitState
      exact map_updAt_of_preserve (fun l : LIR => l.opcode.base) _ _ _ _ (fun _ => rfl)
    have hnew : guarded env (nopInsertedArena
        (visitState m loc.offset_adjustment generation p).lirs p
        (visitRec r loc.offset_adjustment generation)) (some m.lirs.length) = true := by
      refine @guarded_of_views _ _ _ _ kA64Nop0
        ((congrFun hlay _).trans (nopInsertedLayout_new _ _ _ _ _)) rfl (Or.inl rfl) ?_ hNop
      rw [hbaseA, if_pos rfl]
    refine ⟨ma ++ [(m.lirs.length, false), (p, true)], ?_, fun c hc => ?_, ?_, ?_,
      Or.inr ⟨rfl, ?_, ?_, ?_⟩⟩
    · have hq2 : l.prev = some q := by
        rw [← hrl]
        exact hq
      have := PassInv.step_nop hn hl hq2
      have e3 : rp.pcrel_next = l.pcrel_next := by
        have := congrArg Layout.pcrel_next hrpl
        exact this
      show PassInv (layoutOf (nopInsertedArena _ p _)) (nopInsertedArena _ p _).length
        m.first_lir_insn_ m.first_fixup_ (loc.offset_adjustment + 4) rp.pcrel_next (some p) _ _
      rw [hlay, length_nopInsertedArena, hlenV, e3]
      exact this
    · rcases mem_chainOf_snoc_nop hc with e | e
      · exact Or.inl e
      · exact Or.inr (Or.inl e)
    · show m.lirs.length ≤ (nopInsertedArena _ p _).length
      rw [length_nopInsertedArena, hlenV]
      omega
    · show RoundFrame env m.lirs (nopInsertedArena _ p _)
      refine RoundFrame.of_views ?_ ?_ ?_
      · intro j l0 hj
        have hjn : j ≠ m.lirs.length := Nat.ne_of_lt (hbound j l0 hj)
        obtain ⟨l1, h1, h2, h3, h4⟩ :=
          nopInsertedLayout_frame (layoutOf m.lirs) l l0 loc.offset_adjustment hl hj hjn
        refine ⟨l1, (congrFun hlay j).trans h1, h2, h3, ?_⟩
        rcases h4 with e | e
        · exact Or.inl e
        · right
          rw [e]
          exact hnew
      · intro j r0 hj _ _
        have hjl : j < m.lirs.length := (List.getElem?_eq_some_iff.mp hj).1
        rw [hbaseA j, if_neg (Nat.ne_of_lt hjl), hVbase j, hj]
        rfl
      · intro j l1 hj h1
        rw [congrFun hlay j] at h1
        by_cases hjn : j = m.lirs.length
        · subst hjn
          rw [nopInsertedLayout_new] at h1
          injection h1 with h1
          left
          rw [← h1]
        · exfalso
          have hLj : layoutOf m.lirs j = none := hn.bound j hj
          unfold nopInsertedLayout at h1
          rw [if_neg hjn, if_neg (by omega), hLj] at h1
          split_ifs at h1
          all_goals cases h1
    · -- the node was not guarded: the record before it is a load or a store
      apply rewritable_unguarded hr hkr
      cases hg : guarded env m.lirs r.prev with
      | false => rfl
      | true =>
        exfalso
        have hpe' : prevEmittingFrom m.lirs fuel r.prev = .ok (some q') := by
          rw [← prevEmittingFrom_visitState m loc.offset_adjustment generation p fuel r.prev]
          exact hpe
        obtain ⟨rq, hrq, hst⟩ := guarded_stops hg hpe'
        obtain ⟨_, _, _, op', s4, s5⟩ := (stableRec_iff env rq).mp hst
        have hb := hVbase q'
        rw [hpv, hrq] at hb
        simp only [Option.map_some', Option.some.injEq] at hb
        have hop' : pv.opcode.base = .insn op := hop
        rw [hop', s4] at hb
        injection hb with hb
        subst hb
        rw [s5] at hls
        cases hls
    · exact rewritable_guarded hpl hkl hnew
    · show (nopInsertedArena _ p _).length ≤ m.lirs.length + 1
      rw [length_nopInsertedArena, hlenV]

/-- A pass over the fixup chain makes no record rewritable, keeps the chain within the
initial chain and the records allocated since, and when it asks for a retry it lowers the
number of rewritable nodes of the initial chain. -/
theorem fixupPass_potential {env : Env} {generation : Nat}
    (hNop : isLoadOrStore env (EncodingMap kA64Nop0).flags = false)
    (hB : isLoadOrStore env (EncodingMap kA64B2ct).flags = false) (C : List Nat) :
    ∀ (fuel : Nat) (m : Mir2Lir) (loc : FixupLocals) (m' : Mir2Lir) (loc' : FixupLocals)
      (ma mb : List (Nat × Bool)),
      fixupPass env generation fuel m loc = .ok (m', loc') →
      PassInv (layoutOf m.lirs) m.lirs.length m.first_lir_insn_ m.first_fixup_
        loc.offset_adjustment loc.lir loc.prev_lir ma mb →
      (∀ c ∈ chainOf (ma ++ mb), c ∈ C ∨ hasRewriteKind m.lirs c = false) →
      (∀ c ∈ C, c < m.lirs.length) →
      ∃ ma' mb', PassInv (layoutOf m'.lirs) m'.lirs.length m'.first_lir_insn_ m'.first_fixup_
          loc'.offset_adjustment none loc'.prev_lir ma' mb' ∧
        (∀ c ∈ chainOf (ma' ++ mb'), c ∈ C ∨ hasRewriteKind m'.lirs c = false) ∧
        (∀ c ∈ C, c < m'.lirs.length) ∧
        ((loc'.res = loc.res ∧
            C.countP (rewritable env m'.lirs) ≤ C.countP (rewritable env m.lirs)) ∨
          (loc'.res = .kRetryAll ∧
            C.countP (rewritable env m'.lirs) + 1 ≤ C.countP (rewritable env m.lirs))) ∧
        m'.lirs.length + C.countP (rewritable env m'.lirs)
          ≤ m.lirs.length + C.countP (rewritable env m.lirs) := by
  intro fuel
  induction fuel with
  | zero =>
    intro m loc m' loc' ma mb h hinv hC hv
    unfold fixupPass at h
    cases hl : loc.lir with
    | none =>
      rw [hl] at h hinv
      injection h with h
      injection h with h1 h2
      subst h1 h2
      exact ⟨ma, mb, hinv, hC, hv, Or.inl ⟨rfl, le_refl _⟩, le_refl _⟩
    | some p => rw [hl] at h; cases h
  | succ fuel ih =>
    intro m loc m' loc' ma mb h hinv hC hv
    unfold fixupPass at h
    cases hl : loc.lir with
    | none =>
      rw [hl] at h hinv
      injection h with h
      injection h with h1 h2
      subst h1 h2
      exact ⟨ma, mb, hinv, hC, hv, Or.inl ⟨rfl, le_refl _⟩, le_refl _⟩
    | some p =>
      rw [hl] at h hinv
      dsimp only at h
      cases hs : fixupStep env (fuel + 1) generation m loc p with
      | error e => rw [hs] at h; cases h
      | ok v =>
        obtain ⟨m1, loc1⟩ := v
        rw [hs] at h
        dsimp only at h
        obtain ⟨ma0, mbt, heq, hn⟩ := hinv.normalize
        obtain ⟨ma1, hinv1, hsub, hlen, hframe, hout⟩ := fixupStep_round hNop hB hn hs
        have hmem : ∀ c, c ∈ chainOf ma0 ∨ c = p ∨ c ∈ chainOf mbt → c ∈ chainOf (ma ++ mb) := by
          intro c hc
          rw [← heq, chainOf_append, chainOf_cons_true]
          rcases hc with hc | hc | hc
          · exact List.mem_append_left _ hc
          · exact List.mem_append_right _ (hc ▸ List.mem_cons_self _ _)
          · exact List.mem_append_right _ (List.mem_cons_of_mem _ hc)
        have hC1 : ∀ c ∈ chainOf (ma1 ++ mbt), c ∈ C ∨ hasRewriteKind m1.lirs c = false := by
          intro c hc
          rw [chainOf_append] at hc
          have hold : c ∈ chainOf (ma ++ mb) → c ∈ C ∨ hasRewriteKind m1.lirs c = false := by
            intro hc'
            rcases hC c hc' with e | e
            · exact Or.inl e
            · exact Or.inr (hframe.kind_mono c e)
          rcases List.mem_append.mp hc with h1 | h1
          · rcases hsub c h1 with e | e | e
            · exact hold (hmem c (Or.inl e))
            · exact hold (hmem c (Or.inr (Or.inl e)))
            · right
              subst e
              apply hframe.kind_mono
              unfold hasRewriteKind
              rw [List.getElem?_eq_none (le_refl _)]
          · exact hold (hmem c (Or.inr (Or.inr h1)))
        have hv1 : ∀ c ∈ C, c < m1.lirs.length := fun c hc => by
          have := hv c hc
          omega
        obtain ⟨ma', mb', hinv', hC', hv', hout', hsum'⟩ :=
          ih m1 loc1 m' loc' ma1 mbt h hinv1 hC1 hv1
        rcases hout with ⟨e, elen⟩ | ⟨e1, e2, e3, elen⟩
        · have hle := hframe.potential_le C hv
          refine ⟨ma', mb', hinv', hC', hv', ?_, by omega⟩
          rcases hout' with ⟨f1, f2⟩ | ⟨f1, f2⟩
          · exact Or.inl ⟨f1.trans e, by omega⟩
          · exact Or.inr ⟨f1, by omega⟩
        · have hpC : p ∈ C := by
            rcases hC p (hmem p (Or.inr (Or.inl rfl))) with e | e
            · exact e
            · rw [rewritable_kind e2] at e
              cases e
          have hlt := hframe.potential_lt C hv p hpC e2 e3
          refine ⟨ma', mb', hinv', hC', hv', ?_, by omega⟩
          rcases hout' with ⟨f1, f2⟩ | ⟨f1, f2⟩
          · exact Or.inr ⟨f1.trans e1, by omega⟩
          · exact Or.inr ⟨f1, by omega⟩

/-- A pass of the fixup loop keeps the invariant of the loop, and when it asks for a retry
it lowers the number of rewritable nodes of the initial chain. -/
theorem LoopInv.loop_pass {env : Env} {generation fuel : Nat} {C : List Nat} {m m' : Mir2Lir}
    {loc' : FixupLocals}
    (hNop : isLoadOrStore env (EncodingMap kA64Nop0).flags = false)
    (hB : isLoadOrStore env (EncodingMap kA64B2ct).flags = false)
    (hinv : LoopInv C m)
    (h : fixupPass env generation fuel m
      { offset_adjustment := 0, res := .kSuccess, prev_lir := none, lir := m.first_fixup_ }
        = .ok (m', loc')) :
    LoopInv C m' ∧
    ((loc'.res = .kSuccess ∧
        C.countP (rewritable env m'.lirs) ≤ C.countP (rewritable env m.lirs)) ∨
      (loc'.res = .kRetryAll ∧
        C.countP (rewritable env m'.lirs) + 1 ≤ C.countP (rewritable env m.lirs))) ∧
    m'.lirs.length + C.countP (rewritable env m'.lirs)
      ≤ m.lirs.length + C.countP (rewritable env m.lirs) := by
  obtain ⟨⟨marked, h1, h2, h3, h4, h5, h6⟩, hv⟩ := hinv
  have h0 : PassInv (layoutOf m.lirs) m.lirs.length m.first_lir_insn_ m.first_fixup_ 0
      m.first_fixup_ none [] marked :=
    { insns := h1
      chain := h2
      cur_eq := Seg.head?_eq h2
      prev_eq := rfl
      prevs := h3
      inert := h4
      visited := trivial
      pending := h5
      bound := fun j hj => layoutOf_none_of_length _ j hj }
  obtain ⟨ma', mb', hinv', hC', hv', hout, hsum⟩ :=
    fixupPass_potential hNop hB C fuel m _ m' loc' [] marked h h0 h6 hv
  refine ⟨⟨⟨ma' ++ mb', hinv'.insns, hinv'.chain, hinv'.prevs, hinv'.inert, ?_, hC'⟩, hv'⟩, hout,
    hsum⟩
  have hmb : chainOf mb' = [] := by
    have := hinv'.cur_eq
    cases hc : chainOf mb' with
    | nil => rfl
    | cons a as => rw [hc] at this; cases this
  rw [MarkedOffs.offs_append]
  refine ⟨hinv'.visited, ?_⟩
  have := @MarkedOffs.unmarked (layoutOf m'.lirs) loc'.offset_adjustment 0 _ _ hmb hinv'.pending
  simpa using this

/-- The assignment of the data offsets between two passes keeps the invariant of the loop,
the number of rewritable nodes and the size of the arena. -/
theorem LoopInv.assign {env : Env} {C : List Nat} {m : Mir2Lir}
    (hdata : AssignsDataOnly env) (hinv : LoopInv C m) (x : Nat) :
    LoopInv C (AssignDataOffsets env { m with data_offset_ := x }) ∧
    C.countP (rewritable env (AssignDataOffsets env { m with data_offset_ := x }).lirs)
      = C.countP (rewritable env m.lirs) ∧
    (AssignDataOffsets env { m with data_offset_ := x }).lirs.length = m.lirs.length := by
  obtain ⟨⟨marked, h1, h2, h3, h4, h5, h6⟩, hv⟩ := hinv
  obtain ⟨e1, e2, elen, e4⟩ := hdata.frame_insns m x h1
  have hera : ∀ j : Nat,
      ((AssignDataOffsets env { m with data_offset_ := x }).lirs[j]?).map eraseOffset
        = (m.lirs[j]?).map eraseOffset := (hdata { m with data_offset_ := x }).2.2.2.1
  have hL : ∀ j ∈ insnsOf marked,
      layoutOf (AssignDataOffsets env { m with data_offset_ := x }).lirs j
        = layoutOf m.lirs j := fun j hj => layoutOf_of_get (e4 j hj)
  have hfun : rewritable env (AssignDataOffsets env { m with data_offset_ := x }).lirs
      = rewritable env m.lirs := funext (rewritable_frame hera)
  refine ⟨⟨⟨marked, ?_, ?_, ?_, ?_, ?_, ?_⟩, ?_⟩, by rw [hfun], elen⟩
  · rw [e1]
    exact Seg.seg_congr (fun i hi => by rw [hL i hi]) h1
  · rw [e2]
    exact Seg.seg_congr (fun i hi => by rw [hL i (mem_chainOf_insnsOf hi)]) h2
  · exact PrevLinked.prev_congr (fun i hi => by rw [hL i hi]) h3
  · intro c l hc hl hn
    rw [hL c (mem_insnsOf_of_mem hc)] at hl
    exact h4 c l hc hl hn
  · exact MarkedOffs.offs_congr (fun i hi => by rw [hL i hi]) h5
  · intro c hc
    rcases h6 c hc with e | e
    · exact Or.inl e
    · exact Or.inr ((hasRewriteKind_frame hera c).trans e)
  · intro c hc
    rw [elen]
    exact hv c hc

/-- The loop of `AssembleLIR` uses no more rounds than one more than the number of
rewritable nodes of the initial chain. -/
theorem fixupLoop_rounds_potential {env : Env} {fuel : Nat} {C : List Nat}
    (hNop : isLoadOrStore env (EncodingMap kA64Nop0).flags = false)
    (hB : isLoadOrStore env (EncodingMap kA64B2ct).flags = false)
    (hdata : AssignsDataOnly env) :
    ∀ (n : Nat) (m : Mir2Lir) (generation assembler_retries starting_offset k : Nat),
      LoopInv C m → C.countP (rewritable env m.lirs) ≤ n →
      fixupLoop env fuel (n + 1 + k) m generation assembler_retries starting_offset
        = fixupLoop env fuel (n + 1) m generation assembler_retries starting_offset := by
  intro n
  induction n with
  | zero =>
    intro m generation assembler_retries starting_offset k hinv hn
    have e1 : 0 + 1 + k = k + 1 := by omega
    rw [e1]
    cases hp : fixupPass env (generation ^^^ 1) fuel m
        { offset_adjustment := 0, res := .kSuccess, prev_lir := none, lir := m.first_fixup_ } with
    | error e =>
      rw [fixupLoop, fixupLoop]
      simp only [hp]
    | ok v =>
      obtain ⟨m1, loc1⟩ := v
      obtain ⟨_, hout, _⟩ := hinv.loop_pass hNop hB hp
      rcases hout with ⟨hres, _⟩ | ⟨_, hlt⟩
      · rw [fixupLoop, fixupLoop]
        simp only [hp, hres, if_true]
      · omega
  | succ n ih =>
    intro m generation assembler_retries starting_offset k hinv hn
    have e1 : n + 1 + 1 + k = (n + 1 + k) + 1 := by omega
    rw [e1]
    cases hp : fixupPass env (generation ^^^ 1) fuel m
        { offset_adjustment := 0, res := .kSuccess, prev_lir := none, lir := m.first_fixup_ } with
    | error e =>
      rw [fixupLoop, fixupLoop]
      simp only [hp]
    | ok v =>
      obtain ⟨m1, loc1⟩ := v
      obtain ⟨hinv1, hout, _⟩ := hinv.loop_pass hNop hB hp
      rcases hout with ⟨hres, _⟩ | ⟨hres, hlt⟩
      · rw [fixupLoop, fixupLoop]
        simp only [hp, hres, if_true]
      · have hne : loc1.res ≠ .kSuccess := by rw [hres]; intro hc; cases hc
        rw [fixupLoop_retry_round env fuel (n + 1 + k) generation m m1 loc1 _ _ hp hne,
          fixupLoop_retry_round env fuel (n + 1) generation m m1 loc1 _ _ hp hne]
        split
        · rfl
        · obtain ⟨hinv2, hl2, _⟩ := hinv1.assign hdata
            (ALIGNED_DATA_OFFSET (wrap32 (starting_offset + toU32 loc1.offset_adjustment)))
          exact ih _ _ _ _ k hinv2 (by rw [hl2]; omega)

/-- The loop of `AssembleLIR` does not exceed a retry budget that covers the rewritable
nodes of the initial chain. -/
theorem fixupLoop_budget_potential {env : Env} {fuel : Nat} {C : List Nat}
    (hNop : isLoadOrStore env (EncodingMap kA64Nop0).flags = false)
    (hB : isLoadOrStore env (EncodingMap kA64B2ct).flags = false)
    (hdata : AssignsDataOnly env) :
    ∀ (rounds : Nat) (m : Mir2Lir) (generation assembler_retries starting_offset : Nat),
      LoopInv C m →
      assembler_retries + C.countP (rewritable env m.lirs) ≤ env.MAX_ASSEMBLER_RETRIES →
      fixupLoop env fuel rounds m generation assembler_retries starting_offset
        ≠ .error (.fatal "Assembler error - too many retries") := by
  intro rounds
  induction rounds with
  | zero =>
    intro m generation assembler_retries starting_offset _ _ h
    unfold fixupLoop at h
    cases h
  | succ rounds ih =>
    intro m generation assembler_retries starting_offset hinv hn h
    cases hp : fixupPass env (generation ^^^ 1) fuel m
        { offset_adjustment := 0, res := .kSuccess, prev_lir := none, lir := m.first_fixup_ } with
    | error e =>
      rw [fixupLoop] at h
      simp only [hp] at h
      injection h with h
      rw [h] at hp
      exact fixupPass_not_retries env _ fuel m _ hp
    | ok v =>
      obtain ⟨m1, loc1⟩ := v
      obtain ⟨hinv1, hout, _⟩ := hinv.loop_pass hNop hB hp
      rcases hout with ⟨hres, _⟩ | ⟨hres, hlt⟩
      · rw [fixupLoop] at h
        simp only [hp, hres, if_true] at h
        split at h
        · rename_i e he
          injection h with h
          rw [h] at he
          exact absurd (DCHECK_error he) (by simp)
        · cases h
      · have hne : loc1.res ≠ .kSuccess := by rw [hres]; intro hc; cases hc
        rw [fixupLoop_retry_round env fuel rounds generation m m1 loc1 _ _ hp hne] at h
        have : ¬ (assembler_retries + 1 > env.MAX_ASSEMBLER_RETRIES) := by omega
        rw [if_neg this] at h
        obtain ⟨hinv2, hl2, _⟩ := hinv1.assign hdata
          (ALIGNED_DATA_OFFSET (wrap32 (starting_offset + toU32 loc1.offset_adjustment)))
        exact ih _ _ _ _ hinv2 (by rw [hl2]; omega) h

/-- The number of passes that ask for a retry is at most the number of rewritable nodes of
the initial chain. -/
theorem retryPasses_potential {env : Env} {fuel : Nat} {C : List Nat}
    (hNop : isLoadOrStore env (EncodingMap kA64Nop0).flags = false)
    (hB : isLoadOrStore env (EncodingMap kA64B2ct).flags = false)
    (hdata : AssignsDataOnly env) :
    ∀ (rounds : Nat) (m : Mir2Lir) (generation starting_offset : Nat),
      LoopInv C m →
      retryPasses env fuel rounds m generation starting_offset
        ≤ C.countP (rewritable env m.lirs) := by
  intro rounds
  induction rounds with
  | zero =>
    intro m generation starting_offset _
    unfold retryPasses
    exact Nat.zero_le _
  | succ rounds ih =>
    intro m generation starting_offset hinv
    unfold retryPasses
    dsimp only
    cases hp : fixupPass env (generation ^^^ 1) fuel m
        { offset_adjustment := 0, res := .kSuccess, prev_lir := none, lir := m.first_fixup_ } with
    | error e => exact Nat.zero_le _
    | ok v =>
      obtain ⟨m1, loc1⟩ := v
      dsimp only
      obtain ⟨hinv1, hout, _⟩ := hinv.loop_pass hNop hB hp
      rcases hout with ⟨hres, _⟩ | ⟨hres, hlt⟩
      · rw [if_pos hres]
        exact Nat.zero_le _
      · have hne : ¬ loc1.res = .kSuccess := by rw [hres]; intro hc; cases hc
        rw [if_neg hne]
        obtain ⟨hinv2, hl2, _⟩ := hinv1.assign hdata
          (ALIGNED_DATA_OFFSET (wrap32 (starting_offset + toU32 loc1.offset_adjustment)))
        have := ih _ (generation ^^^ 1)
          (wrap32 (starting_offset + toU32 loc1.offset_adjustment)) hinv2
        rw [hl2] at this
        omega

/-! ## The resolver comes to an end -/

/-- A list of distinct numbers below `N` has at most `N` members. -/
theorem length_le_of_nodup_lt {xs : List Nat} {N : Nat} (hnd : xs.Nodup)
    (hlt : ∀ i ∈ xs, i < N) : xs.length ≤ N := by
  have hsub : xs ⊆ List.range N := fun i hi => List.mem_range.mpr (hlt i hi)
  have := (List.subperm_of_subset hnd hsub).length_le
  simpa using this

/-- A pass over the fixup chain does not stop for want of fuel when the fuel covers the
records of the arena and twice the nodes of the chain still to visit: each round takes one
unit of fuel and allocates one record at most, and the walk of `GetPrevEmittingLIR` passes
every record of the instruction list once at most. -/
theorem fixupPass_fuel {env : Env} {generation : Nat}
    (hNop : isLoadOrStore env (EncodingMap kA64Nop0).flags = false)
    (hB : isLoadOrStore env (EncodingMap kA64B2ct).flags = false) :
    ∀ (fuel : Nat) (m : Mir2Lir) (loc : FixupLocals) (ma mb : List (Nat × Bool)),
      PassInv (layoutOf m.lirs) m.lirs.length m.first_lir_insn_ m.first_fixup_
        loc.offset_adjustment loc.lir loc.prev_lir ma mb →
      m.lirs.length + 2 * (chainOf mb).length ≤ fuel →
      FuelFree (fixupPass env generation fuel m loc) := by
  intro fuel
  induction fuel with
  | zero =>
    intro m loc ma mb hinv hf
    unfold fixupPass
    cases hl : loc.lir with
    | none =>
      intro hc
      cases hc
    | some p =>
      exfalso
      rw [hl] at hinv
      have hcur := hinv.cur_eq
      cases hc : chainOf mb with
      | nil =>
        rw [hc] at hcur
        cases hcur
      | cons a as =>
        rw [hc] at hf
        simp at hf
  | succ fuel ih =>
    intro m loc ma mb hinv hf
    unfold fixupPass
    cases hl : loc.lir with
    | none =>
      intro hc
      cases hc
    | some p =>
      rw [hl] at hinv
      dsimp only
      obtain ⟨u, mbt, hsplit, hu, hn⟩ := hinv.normalize_split
      obtain ⟨l, hl0, _, _, _, _, hprevs, hprev, _, _, _, hnd, hlt⟩ := hn.at_node
      have hstep : FuelFree (fixupStep env (fuel + 1) generation m loc p) := by
        apply FuelFree.fuel_fixupStep
        intro r hr
        obtain ⟨r0, hr0, hrl⟩ := layoutOf_get hl0
        rw [hr] at hr0
        injection hr0 with hr0
        subst hr0
        have hp : r.prev = (insnsOf (ma ++ u)).getLast? := by
          rw [← hprev, ← hrl]
          rfl
        have hlen : (insnsOf (ma ++ u)).length ≤ m.lirs.length :=
          length_le_of_nodup_lt (List.Nodup.of_append_left hnd)
            (fun i hi => hlt i (List.mem_append_left _ hi))
        obtain ⟨q, hq⟩ := prevEmittingFrom_returns (insnsOf (ma ++ u)) (fuel + 1) hprevs
          (by omega)
        rw [hp, hq]
        intro hc
        cases hc
      cases hs : fixupStep env (fuel + 1) generation m loc p with
      | error e =>
        rw [hs] at hstep
        exact hstep
      | ok v =>
        obtain ⟨m1, loc1⟩ := v
        dsimp only
        obtain ⟨ma1, hinv1, _, _, _, hout⟩ := fixupStep_round hNop hB hn hs
        have hlen : m1.lirs.length ≤ m.lirs.length + 1 := by
          rcases hout with ⟨_, e⟩ | ⟨_, _, _, e⟩ <;> omega
        have hch : (chainOf mb).length = (chainOf mbt).length + 1 := by
          rw [hsplit, chainOf_append, hu, chainOf_cons_true]
          simp
        exact ih m1 loc1 ma1 mbt hinv1 (by omega)

/-- The first pass of a round of the loop of `AssembleLIR` does not stop for want of fuel
when the fuel is three times the number of records of the arena. -/
theorem LoopInv.pass_fuel {env : Env} {generation fuel : Nat} {C : List Nat} {m : Mir2Lir}
    (hNop : isLoadOrStore env (EncodingMap kA64Nop0).flags = false)
    (hB : isLoadOrStore env (EncodingMap kA64B2ct).flags = false)
    (hinv : LoopInv C m) (hf : 3 * m.lirs.length ≤ fuel) :
    FuelFree (fixupPass env generation fuel m
      { offset_adjustment := 0, res := .kSuccess, prev_lir := none, lir := m.first_fixup_ }) := by
  obtain ⟨⟨marked, h1, h2, h3, h4, h5, h6⟩, hv⟩ := hinv
  have h0 : PassInv (layoutOf m.lirs) m.lirs.length m.first_lir_insn_ m.first_fixup_ 0
      m.first_fixup_ none [] marked :=
    { insns := h1
      chain := h2
      cur_eq := Seg.head?_eq h2
      prev_eq := rfl
      prevs := h3
      inert := h4
      visited := trivial
      pending := h5
      bound := fun j hj => layoutOf_none_of_length _ j hj }
  have hlen : (chainOf marked).length ≤ m.lirs.length := by
    apply length_le_of_nodup_lt (Seg.seg_nodup h2)
    intro i hi
    by_contra hc
    have hnone := layoutOf_none_of_length m.lirs i (by omega)
    obtain ⟨l, hl⟩ := Seg.mem_some h2 i hi
    rw [hnone] at hl
    cases hl
  exact fixupPass_fuel hNop hB fuel m _ [] marked h0 (by omega)

/-- The loop of `AssembleLIR` does not stop for want of fuel or of rounds when it may make
more rounds than the initial chain has rewritable nodes, and the fuel is three times the
number of the records of the arena and of these nodes: it returns, or it stops at a fatal
error, at a failing `DCHECK` or at the dereference of a null pointer. -/
theorem fixupLoop_fuel {env : Env} {fuel : Nat} {C : List Nat}
    (hNop : isLoadOrStore env (EncodingMap kA64Nop0).flags = false)
    (hB : isLoadOrStore env (EncodingMap kA64B2ct).flags = false)
    (hdata : AssignsDataOnly env) :
    ∀ (rounds : Nat) (m : Mir2Lir) (generation assembler_retries starting_offset : Nat),
      LoopInv C m → C.countP (rewritable env m.lirs) < rounds →
      3 * (m.lirs.length + C.countP (rewritable env m.lirs)) ≤ fuel →
      FuelFree (fixupLoop env fuel rounds m generation assembler_retries starting_offset) := by
  intro rounds
  induction rounds with
  | zero =>
    intro m generation assembler_retries starting_offset _ hn _
    omega
  | succ rounds ih =>
    intro m generation assembler_retries starting_offset hinv hn hf
    have hpass := @LoopInv.pass_fuel env (generation ^^^ 1) fuel C m hNop hB hinv (by omega)
    cases hp : fixupPass env (generation ^^^ 1) fuel m
        { offset_adjustment := 0, res := .kSuccess, prev_lir := none, lir := m.first_fixup_ } with
    | error e =>
      rw [fixupLoop]
      simp only [hp]
      rw [hp] at hpass
      intro hc
      injection hc with hc
      exact hpass (by rw [hc])
    | ok v =>
      obtain ⟨m1, loc1⟩ := v
      obtain ⟨hinv1, hout, hsum⟩ := hinv.loop_pass hNop hB hp
      rcases hout with ⟨hres, _⟩ | ⟨hres, hlt⟩
      · rw [fixupLoop]
        simp only [hp, hres, if_true]
        split
        · rename_i e he
          rw [DCHECK_error he]
          intro hc
          cases hc
        · intro hc
          cases hc
      · have hne : loc1.res ≠ .kSuccess := by rw [hres]; intro hc; cases hc
        rw [fixupLoop_retry_round env fuel rounds generation m m1 loc1 _ _ hp hne]
        split
        · intro hc
          cases hc
        · obtain ⟨hinv2, hl2, hlen2⟩ := hinv1.assign hdata
            (ALIGNED_DATA_OFFSET (wrap32 (starting_offset + toU32 loc1.offset_adjustment)))
          exact ih _ _ _ _ hinv2 (by rw [hl2]; omega) (by rw [hl2, hlen2]; omega)

/-- The local `assembler_retries` of the loop of `AssembleLIR` counts the passes that end
with `res != kSuccess`: the loop stops with "Assembler error - too many retries" exactly
when the count of these passes, added to the value of the local at the start, exceeds
`MAX_ASSEMBLER_RETRIES`. -/
theorem fixupLoop_retries_iff (env : Env) (fuel : Nat) :
    ∀ (rounds : Nat) (m : Mir2Lir) (generation assembler_retries starting_offset : Nat),
      assembler_retries ≤ env.MAX_ASSEMBLER_RETRIES →
      (fixupLoop env fuel rounds m generation assembler_retries starting_offset
          = .error (.fatal "Assembler error - too many retries") ↔
        env.MAX_ASSEMBLER_RETRIES
          < assembler_retries + retryPasses env fuel rounds m generation starting_offset) := by
  intro rounds
  induction rounds with
  | zero =>
    intro m generation assembler_retries starting_offset hr
    unfold fixupLoop retryPasses
    constructor
    · intro h
      cases h
    · intro h
      omega
  | succ rounds ih =>
    intro m generation assembler_retries starting_offset hr
    unfold retryPasses
    dsimp only
    cases hp : fixupPass env (generation ^^^ 1) fuel m
        { offset_adjustment := 0, res := .kSuccess, prev_lir := none, lir := m.first_fixup_ } with
    | error e =>
      rw [fixupLoop]
      simp only [hp]
      constructor
      · intro h
        injection h with h
        rw [h] at hp
        exact absurd hp (fixupPass_not_retries env _ fuel m _)
      · intro h
        omega
    | ok v =>
      obtain ⟨m1, loc1⟩ := v
      dsimp only
      by_cases hres : loc1.res = .kSuccess
      · rw [if_pos hres, fixupLoop]
        simp only [hp, hres, if_true]
        constructor
        · intro h
          split at h
          · rename_i e he
            injection h with h
            rw [h] at he
            exact absurd (DCHECK_error he) (by simp)
          · cases h
        · intro h
          omega
      · rw [if_neg hres, fixupLoop_retry_round env fuel rounds generation m m1 loc1 _ _ hp hres]
        by_cases hmax : assembler_retries + 1 > env.MAX_ASSEMBLER_RETRIES
        · rw [if_pos hmax]
          constructor
          · intro _
            omega
          · intro _
            rfl
        · rw [if_neg hmax]
          have := ih
            (AssignDataOffsets env
              { m1 with
                data_offset_ :=
                  ALIGNED_DATA_OFFSET (wrap32 (starting_offset + toU32 loc1.offset_adjustment)) })
            (generation ^^^ 1) (assembler_retries + 1)
            (wrap32 (starting_offset + toU32 loc1.offset_adjustment)) (by omega)
          rw [this]
          constructor <;> intro h <;> omega
/-- C21: the resolver converges in a number of passes bounded by the input. For a state
that satisfies the invariant of the fixup chain (as `LinkFixupInsns` leaves it), with
`chain` the nodes of its fixup chain, let `n` be the number of nodes of `chain` of the
kinds `kFixupT1Branch`, `kFixupTBxZ` and `kFixupA53Erratum835769`. Then

* the number of passes of the loop of `AssembleLIR` that end with `res != kSuccess` is at
  most `n`, whatever the number of rounds;
* the loop makes at most `n + 1` passes (more rounds than that are never used);
* the loop does not stop with "Assembler error - too many retries" when the limit
  `MAX_ASSEMBLER_RETRIES` leaves room for `n` retries;
* the count of these passes is what the local `assembler_retries` of the loop counts: the
  loop stops with "Assembler error - too many retries" exactly when the count, added to the
  value of the local at the start, exceeds `MAX_ASSEMBLER_RETRIES`;
* the loop comes to an end: with more than `n` rounds, and fuel for three times the records
  of the arena and the `n` nodes, it does not stop for want of fuel or of rounds, that is,
  it returns, or it stops at a `LOG(FATAL)` or a failing `DCHECK` of the code or at the
  dereference of a null pointer (of the target of a branch that has none, say); and so
  does every pass of the inner loop, from the start of a round.

The environment is assumed to give the entries of `nop` and `b.cond` no attribute
`IS_LOAD` or `IS_STORE`, and `AssignDataOffsets` to write no record of the instruction list
and no member of a record but `offset` (`AssignsDataOnly`): it may assign the offsets of
the literals. -/
theorem retry_passes_bounded (env : Env) (fuel : Nat) (m : Mir2Lir) (chain : List Nat)
    (hNop : isLoadOrStore env (EncodingMap kA64Nop0).flags = false)
    (hB : isLoadOrStore env (EncodingMap kA64B2ct).flags = false)
    (hdata : AssignsDataOnly env)
    (hinv : ChainInv m) (hchain : PcrelPath m.lirs m.first_fixup_ chain) :
    (∀ rounds generation starting_offset : Nat,
      retryPasses env fuel rounds m generation starting_offset
        ≤ chain.countP (hasRewriteKind m.lirs)) ∧
    (∀ generation assembler_retries starting_offset k : Nat,
      fixupLoop env fuel (chain.countP (hasRewriteKind m.lirs) + 1 + k) m generation
          assembler_retries starting_offset
        = fixupLoop env fuel (chain.countP (hasRewriteKind m.lirs) + 1) m generation
          assembler_retries starting_offset) ∧
    (∀ rounds generation assembler_retries starting_offset : Nat,
      assembler_retries + chain.countP (hasRewriteKind m.lirs) ≤ env.MAX_ASSEMBLER_RETRIES →
      fixupLoop env fuel rounds m generation assembler_retries starting_offset
        ≠ .error (.fatal "Assembler error - too many retries")) ∧
    (∀ rounds generation assembler_retries starting_offset : Nat,
      assembler_retries ≤ env.MAX_ASSEMBLER_RETRIES →
      (fixupLoop env fuel rounds m generation assembler_retries starting_offset
          = .error (.fatal "Assembler error - too many retries") ↔
        env.MAX_ASSEMBLER_RETRIES
          < assembler_retries + retryPasses env fuel rounds m generation starting_offset)) ∧
    (3 * (m.lirs.length + chain.countP (hasRewriteKind m.lirs)) ≤ fuel →
      (∀ rounds generation assembler_retries starting_offset : Nat,
        chain.countP (hasRewriteKind m.lirs) < rounds →
        FuelFree (fixupLoop env fuel rounds m generation assembler_retries starting_offset)) ∧
      ∀ generation : Nat,
        FuelFree (fixupPass env generation fuel m
          { offset_adjustment := 0, res := .kSuccess, prev_lir := none,
            lir := m.first_fixup_ })) := by
  have hloop : LoopInv chain m := LoopInv.loop_start hinv hchain
  have hle := potential_le_kinds env m.lirs chain
  refine ⟨fun rounds generation starting_offset => ?_,
    fun generation assembler_retries starting_offset k => ?_,
    fun rounds generation assembler_retries starting_offset hb => ?_,
    fun rounds generation assembler_retries starting_offset hb => ?_,
    fun hf => ⟨fun rounds generation assembler_retries starting_offset hr => ?_,
      fun generation => ?_⟩⟩
  · exact (retryPasses_potential hNop hB hdata rounds m generation starting_offset hloop).trans
      hle
  · exact fixupLoop_rounds_potential hNop hB hdata _ m generation assembler_retries
      starting_offset k hloop hle
  · exact fixupLoop_budget_potential hNop hB hdata rounds m generation assembler_retries
      starting_offset hloop (by omega)
  · exact fixupLoop_retries_iff env fuel rounds m generation assembler_retries starting_offset
      hb
  · exact fixupLoop_fuel hNop hB hdata rounds m generation assembler_retries starting_offset
      hloop (by omega) (by omega)
  · exact LoopInv.pass_fuel hNop hB hloop (by omega)

theorem retry_passes_bounded_witness :
    ((LinkFixupInsns (poolEnv releaseConfig) 4 poolStream (some 0) (some 3) 0).map fun r =>
        (AssignDataOffsets (poolEnv releaseConfig)
          { r.1 with data_offset_ := ALIGNED_DATA_OFFSET r.2 }, r.2))
      = .ok (poolStreamLinked, 12) ∧
    ChainInv poolStreamLinked ∧
    PcrelPath poolStreamLinked.lirs poolStreamLinked.first_fixup_ [0, 1, 2] ∧
    [0, 1, 2].countP (hasRewriteKind poolStreamLinked.lirs) = 1 ∧
    retryPasses (poolEnv releaseConfig) 18 2 poolStreamLinked 0 12 = 1 ∧
    (fixupLoop (poolEnv releaseConfig) 18 2 poolStreamLinked 0 0 12).map Prod.snd = .ok 8 ∧
    ((∀ rounds generation starting_offset : Nat,
      retryPasses (poolEnv releaseConfig) 18 rounds poolStreamLinked generation starting_offset
        ≤ [0, 1, 2].countP (hasRewriteKind poolStreamLinked.lirs)) ∧
    (∀ generation assembler_retries starting_offset k : Nat,
      fixupLoop (poolEnv releaseConfig) 18
          ([0, 1, 2].countP (hasRewriteKind poolStreamLinked.lirs) + 1 + k) poolStreamLinked
          generation assembler_retries starting_offset
        = fixupLoop (poolEnv releaseConfig) 18
          ([0, 1, 2].countP (hasRewriteKind poolStreamLinked.lirs) + 1) poolStreamLinked
          generation assembler_retries starting_offset) ∧
    (∀ rounds generation assembler_retries starting_offset : Nat,
      assembler_retries + [0, 1, 2].countP (hasRewriteKind poolStreamLinked.lirs)
        ≤ (poolEnv releaseConfig).MAX_ASSEMBLER_RETRIES →
      fixupLoop (poolEnv releaseConfig) 18 rounds poolStreamLinked generation assembler_retries
          starting_offset
        ≠ .error (.fatal "Assembler error - too many retries")) ∧
    (∀ rounds generation assembler_retries starting_offset : Nat,
      assembler_retries ≤ (poolEnv releaseConfig).MAX_ASSEMBLER_RETRIES →
      (fixupLoop (poolEnv releaseConfig) 18 rounds poolStreamLinked generation assembler_retries
          starting_offset
          = .error (.fatal "Assembler error - too many retries") ↔
        (poolEnv releaseConfig).MAX_ASSEMBLER_RETRIES
          < assembler_retries + retryPasses (poolEnv releaseConfig) 18 rounds poolStreamLinked
              generation starting_offset)) ∧
    (3 * (poolStreamLinked.lirs.length
        + [0, 1, 2].countP (hasRewriteKind poolStreamLinked.lirs)) ≤ 18 →
      (∀ rounds generation assembler_retries starting_offset : Nat,
        [0, 1, 2].countP (hasRewriteKind poolStreamLinked.lirs) < rounds →
        FuelFree (fixupLoop (poolEnv releaseConfig) 18 rounds poolStreamLinked generation
          assembler_retries starting_offset)) ∧
      ∀ generation : Nat,
        FuelFree (fixupPass (poolEnv releaseConfig) generation 18 poolStreamLinked
          { offset_adjustment := 0, res := .kSuccess, prev_lir := none,
            lir := poolStreamLinked.first_fixup_ }))) := by
  have hready : LinkReady (poolEnv releaseConfig) poolStream [0, 1, 2, 3] := by
    refine ⟨rfl, ?_, rfl, by decide, ?_, ?_⟩
    · simp [NextPath, NextSeg, poolStream]
    · simp [PrevLinked, layoutOf, LIR.layout, poolStream]
    · intro i _ r _ _ _ c _ hk
      cases hk
  have hlink : ((LinkFixupInsns (poolEnv releaseConfig) 4 poolStream (some 0) (some 3) 0).map
      fun r =>
        (AssignDataOffsets (poolEnv releaseConfig)
          { r.1 with data_offset_ := ALIGNED_DATA_OFFSET r.2 }, r.2))
      = .ok (poolStreamLinked, 12) := by decide!
  obtain ⟨m1, off, hrun, hinv⟩ :=
    @LinkFixupInsns_ChainInv (poolEnv releaseConfig) 4 poolStream [0, 1, 2, 3] hready (by decide)
  have hinv2 := hinv.chain_frame (poolAssign_dataOnly releaseConfig) (ALIGNED_DATA_OFFSET off)
  have hm1 : AssignDataOffsets (poolEnv releaseConfig)
      { m1 with data_offset_ := ALIGNED_DATA_OFFSET off } = poolStreamLinked := by
    have e : LinkFixupInsns (poolEnv releaseConfig) 4 poolStream (some 0) (some 3) 0
        = .ok (m1, off) := hrun
    rw [e] at hlink
    exact congrArg (fun x : Except Fault (Mir2Lir × Nat) =>
      match x with
      | .ok v => v.1
      | .error _ => poolStreamLinked) hlink
  rw [hm1] at hinv2
  have hchain : PcrelPath poolStreamLinked.lirs poolStreamLinked.first_fixup_ [0, 1, 2] := by
    simp [PcrelPath, poolStreamLinked, poolStream]
  exact ⟨hlink, hinv2, hchain, by decide, by decide!, by decide!,
    retry_passes_bounded (poolEnv releaseConfig) 18 poolStreamLinked [0, 1, 2] (by decide)
      (by decide) (poolAssign_dataOnly releaseConfig) hinv2 hchain⟩
/-! ## The erratum nop over the whole run -/

/-- The walk of `GetPrevEmittingLIR` back from the end of a list of records whose `prev`
links follow the list returns, when it has fuel for the records of the list, the last
record of the list that is neither a pseudo-op nor flagged `is_nop`, and `nullptr` when
there is none. -/
theorem prevEmittingFrom_last_emitting {lirs : List LIR} :
    ∀ (xs : List Nat) (fuel : Nat), PrevLinked (layoutOf lirs) none xs → xs.length ≤ fuel →
      prevEmittingFrom lirs fuel xs.getLast? = .ok ((xs.filter (emitsAt lirs)).getLast?) := by
  intro xs
  induction xs using List.reverseRecOn with
  | nil =>
    intro fuel _ _
    cases fuel <;> rfl
  | append_singleton xs a ih =>
    intro fuel hp hf
    rw [PrevLinked.prev_append] at hp
    obtain ⟨hp1, ⟨l, hl, hlp⟩, _⟩ := hp
    obtain ⟨r, hr, hrl⟩ := layoutOf_get hl
    have hprev : r.prev = xs.getLast? := by
      have e : r.prev = l.prev := by rw [← hrl]; rfl
      rw [e, hlp]
      split
      · rename_i hx
        rw [hx]
        rfl
      · rfl
    rw [List.length_append, List.length_singleton] at hf
    obtain ⟨f, rfl⟩ : ∃ f, fuel = f + 1 := ⟨fuel - 1, by omega⟩
    have elast : (xs ++ [a]).getLast? = some a := by simp
    rw [elast, List.filter_append]
    unfold prevEmittingFrom
    rw [hr]
    dsimp only
    by_cases hc : (r.flags.is_nop || IsPseudoLirOp (UNWIDE r.opcode)) = true
    · rw [if_pos hc, hprev, ih f hp1 (by omega)]
      have he : emitsAt lirs a = false := by
        simp only [emitsAt, hr, emits]
        cases h1 : r.flags.is_nop <;> cases h2 : IsPseudoLirOp (UNWIDE r.opcode) <;>
          simp_all
      simp [List.filter_cons, he]
    · rw [if_neg hc]
      have he : emitsAt lirs a = true := by
        simp only [emitsAt, hr, emits]
        cases h1 : r.flags.is_nop <;> cases h2 : IsPseudoLirOp (UNWIDE r.opcode) <;>
          simp_all
      simp [List.filter_cons, he]

/-- A round of the fixup loop keeps a settled erratum node settled. -/
theorem erratumSettled_round {env : Env} {lirs lirs1 : List LIR} {p : Nat}
    (h : RoundFrame env lirs lirs1) (hs : erratumSettled env lirs p) :
    erratumSettled env lirs1 p := by
  obtain ⟨node, hn, hk, hr⟩ := hs
  have hlt : p < lirs.length := (List.getElem?_eq_some_iff.mp hn).1
  obtain ⟨r1, hr1, hk1, _, _⟩ := h.keeps p node hn
  refine ⟨r1, hr1, ?_, ?_⟩
  · rcases hk1 with e | e
    · rw [e]
      exact hk
    · exact Or.inr e
  · cases hc : rewritable env lirs1 p with
    | false => rfl
    | true =>
      rw [h.rewritable_mono p hlt hc] at hr
      cases hr

/-- The assignment of the data offsets keeps a settled erratum node settled. -/
theorem erratumSettled_frame {env : Env} {lirs lirs' : List LIR} {p : Nat}
    (h : ∀ j : Nat, (lirs'[j]?).map eraseOffset = (lirs[j]?).map eraseOffset)
    (hs : erratumSettled env lirs p) : erratumSettled env lirs' p := by
  obtain ⟨node, hn, hk, hr⟩ := hs
  rcases get_of_eraseOffset h p with ⟨_, e⟩ | ⟨r, r', e1, e2, e3⟩
  · rw [hn] at e
    cases e
  · rw [hn] at e1
    injection e1 with e1
    subst e1
    obtain ⟨hf, _⟩ := eraseOffset_views e3
    refine ⟨r', e2, by rw [hf]; exact hk, ?_⟩
    rw [rewritable_frame h]
    exact hr

/-- A round of the inner loop at a node of the kind `kFixupNone`: only the offset and the
generation of the node change. -/
theorem fixupStep_none_kind (env : Env) (fuel generation : Nat) (m : Mir2Lir)
    (loc : FixupLocals) (p : Nat) (r : LIR)
    (hr : m.lirs[p]? = some r) (hk : r.flags.fixup = kFixupNone) :
    fixupStep env fuel generation m loc p
      = .ok ({ m with lirs := m.lirs.set p (visitRec r loc.offset_adjustment generation) },
             { loc with prev_lir := some p, lir := r.pcrel_next }) := by
  have hlen : p < m.lirs.length := (List.getElem?_eq_some_iff.mp hr).1
  rw [fixupStep_eq env fuel generation m _ p r hr, hk]
  simp only [fixupSwitch]
  simp [bind, Except.bind, pure, Except.pure, getLIR, hlen, visitState, updAt, hr, visitRec]

/-- The round of the inner loop at a settled erratum node inserts nothing: only the offset
and the generation of the node change. -/
theorem erratumSettled_visit {env : Env} {m : Mir2Lir} {p : Nat}
    (hs : erratumSettled env m.lirs p) (f generation : Nat) (loc : FixupLocals) :
    ∃ node, m.lirs[p]? = some node ∧
      fixupStep env (f + 1) generation m loc p
        = .ok ({ m with lirs := m.lirs.set p (visitRec node loc.offset_adjustment generation) },
               { loc with prev_lir := some p, lir := node.pcrel_next }) := by
  obtain ⟨node, hn, hk, hr⟩ := hs
  refine ⟨node, hn, ?_⟩
  rcases hk with hk | hk
  · apply fixupStep_A53_skip env (f + 1) generation m loc p node hn hk
    right; right; right
    have hg : guarded env m.lirs node.prev = true := by
      unfold rewritable at hr
      rw [hn] at hr
      simp only [hk] at hr
      cases hg : guarded env m.lirs node.prev with
      | true => rfl
      | false =>
        rw [hg] at hr
        cases hr
    obtain ⟨q, rq, hq, hrq, hst⟩ := (guarded_iff env m.lirs _).mp hg
    unfold stableRec at hst
    cases hop : rq.opcode.base with
    | pseudo c =>
      rw [hop] at hst
      simp at hst
    | insn op =>
      rw [hop] at hst
      simp only [Bool.and_eq_true, Bool.not_eq_true', bne_iff_ne] at hst
      obtain ⟨⟨⟨hnop, _⟩, _⟩, hls⟩ := hst
      refine ⟨q, rq, op, ?_, hrq, hop, hls⟩
      rw [hq]
      unfold prevEmittingFrom
      rw [hrq]
      simp [hnop, UNWIDE, hop, IsPseudoLirOp]
  · exact fixupStep_none_kind env (f + 1) generation m loc p node hn hk

/-- The rounds of a pass keep the invariant of the pass, and keep a settled erratum node
settled. -/
theorem PassReaches.reach_settled {env : Env} {generation : Nat} {fuel fuel' : Nat}
    {m m' : Mir2Lir} {loc loc' : FixupLocals} {p : Nat}
    (hNop : isLoadOrStore env (EncodingMap kA64Nop0).flags = false)
    (hB : isLoadOrStore env (EncodingMap kA64B2ct).flags = false)
    (hreach : PassReaches env generation fuel m loc fuel' m' loc') :
    ∀ ma mb, PassInv (layoutOf m.lirs) m.lirs.length m.first_lir_insn_ m.first_fixup_
        loc.offset_adjustment loc.lir loc.prev_lir ma mb →
      erratumSettled env m.lirs p →
      (∃ ma1 mb1, PassInv (layoutOf m'.lirs) m'.lirs.length m'.first_lir_insn_
        m'.first_fixup_ loc'.offset_adjustment loc'.lir loc'.prev_lir ma1 mb1) ∧
      erratumSettled env m'.lirs p := by
  induction hreach with
  | here _ _ _ => intro ma mb h hs; exact ⟨⟨ma, mb, h⟩, hs⟩
  | step hl hstep _ ih =>
    intro ma mb h hs
    rw [hl] at h
    obtain ⟨ma0, mbt, _, hn⟩ := h.normalize
    obtain ⟨ma1, hinv1, _, _, hframe, _⟩ := fixupStep_round hNop hB hn hstep
    exact ih ma1 mbt hinv1 (erratumSettled_round hframe hs)

/-- The run of the loop of `AssembleLIR` keeps the invariant of the pass, and keeps a
settled erratum node settled. -/
theorem RunReaches.run_settled {env : Env} {fuel : Nat} {generation f g' f' : Nat}
    {m m' : Mir2Lir} {loc loc' : FixupLocals} {p : Nat}
    (hNop : isLoadOrStore env (EncodingMap kA64Nop0).flags = false)
    (hB : isLoadOrStore env (EncodingMap kA64B2ct).flags = false)
    (hdata : AssignsDataOnly env)
    (hreach : RunReaches env fuel generation f m loc g' f' m' loc') :
    ∀ ma mb, PassInv (layoutOf m.lirs) m.lirs.length m.first_lir_insn_ m.first_fixup_
        loc.offset_adjustment loc.lir loc.prev_lir ma mb →
      erratumSettled env m.lirs p →
      (∃ ma1 mb1, PassInv (layoutOf m'.lirs) m'.lirs.length m'.first_lir_insn_
        m'.first_fixup_ loc'.offset_adjustment loc'.lir loc'.prev_lir ma1 mb1) ∧
      erratumSettled env m'.lirs p := by
  induction hreach with
  | pass hp => intro ma mb h hs; exact hp.reach_settled hNop hB ma mb h hs
  | retry x hp hl _ _ ih =>
    intro ma mb h hs
    obtain ⟨⟨ma1, mb1, h1⟩, hs1⟩ := hp.reach_settled hNop hB ma mb h hs
    rw [hl] at h1
    have hc := h1.finish
    obtain ⟨mb2, h2⟩ := (hc.chain_frame hdata x).start
    exact ih [] mb2 h2 (erratumSettled_frame (hdata _).2.2.2.1 hs1)

/-- The runs that `RunReaches` describes are those of the loop of `AssembleLIR`: when the
loop returns, its last state is one to which the loop comes from the start of its first
pass, at the end of a pass that ends with `res == kSuccess`. -/
theorem fixupLoop_runReaches (env : Env) (fuel : Nat) :
    ∀ (rounds : Nat) (m : Mir2Lir) (generation assembler_retries starting_offset : Nat)
      (m' : Mir2Lir) (so' : Nat),
      fixupLoop env fuel rounds m generation assembler_retries starting_offset
        = .ok (m', so') →
      ∃ g' f' loc',
        RunReaches env fuel (generation ^^^ 1) fuel m
          { offset_adjustment := 0, res := .kSuccess, prev_lir := none, lir := m.first_fixup_ }
          g' f' m' loc' ∧
        loc'.lir = none ∧ loc'.res = .kSuccess := by
  intro rounds
  induction rounds with
  | zero =>
    intro m generation assembler_retries starting_offset m' so' h
    unfold fixupLoop at h
    cases h
  | succ rounds ih =>
    intro m generation assembler_retries starting_offset m' so' h
    cases hp : fixupPass env (generation ^^^ 1) fuel m
        { offset_adjustment := 0, res := .kSuccess, prev_lir := none, lir := m.first_fixup_ } with
    | error e =>
      rw [fixupLoop] at h
      simp only [hp] at h
      cases h
    | ok v =>
      obtain ⟨m1, loc1⟩ := v
      obtain ⟨f1, hreach, hl⟩ := (fixupPass_ok_iff env (generation ^^^ 1) m1 loc1 fuel m _).mp hp
      by_cases hres : loc1.res = .kSuccess
      · rw [fixupLoop] at h
        simp only [hp, hres, if_true] at h
        split at h
        · cases h
        · injection h with h
          injection h with h1 _
          subst h1
          exact ⟨_, _, loc1, RunReaches.pass hreach, hl, hres⟩
      · rw [fixupLoop_retry_round env fuel rounds generation m m1 loc1 _ _ hp hres] at h
        split at h
        · cases h
        · obtain ⟨g', f', loc', hrun, h1, h2⟩ := ih _ _ _ _ _ _ h
          exact ⟨g', f', loc', RunReaches.retry _ hreach hl hres hrun, h1, h2⟩
/-- C18. At a node `p` of the kind `kFixupA53Erratum835769` (a multiply-accumulate), in a
state of a pass of the resolver with the invariant of the pass, where the instruction list
is `insnsOf ma`, then `p`, then `insnsOf mbt`:

* `GetPrevEmittingLIR` returns, given fuel for the records before the node, the last record
  before the node in the instruction list that is neither a pseudo-op nor flagged `is_nop`,
  and `nullptr` when there is none;
* on a target that needs the fix, for a wide opcode, when that record is a load or store:
  the round succeeds and puts one new `kA64Nop0` record of size 4 immediately before the
  node in the instruction list, at the offset that the node had; the node moves on by 4,
  `offset_adjustment` grows by 4 and a retry is requested; and in every state to which the
  loop of `AssembleLIR` comes from there, in the rest of this pass and in the passes that
  follow, the round at the node inserts nothing: only the offset and the generation of the
  node change;
* on a target without the erratum, for a narrow opcode, and when there is no such record
  before the node or it is no load or store, the round inserts nothing: only the offset and
  the generation of the node change.

The environment is assumed to give the entries of `nop` and `b.cond` no attribute `IS_LOAD`
or `IS_STORE`, and `AssignDataOffsets` to write no record of the instruction list and no
member of a record but `offset` (`AssignsDataOnly`). -/
theorem erratum_nop_inserted (env : Env) (fuel0 f generation : Nat) (m : Mir2Lir)
    (loc : FixupLocals) (p : Nat) (r : LIR) (ma mbt : List (Nat × Bool))
    (hNop : isLoadOrStore env (EncodingMap kA64Nop0).flags = false)
    (hB : isLoadOrStore env (EncodingMap kA64B2ct).flags = false)
    (hdata : AssignsDataOnly env)
    (hn : PassInv (layoutOf m.lirs) m.lirs.length m.first_lir_insn_ m.first_fixup_
      loc.offset_adjustment (some p) loc.prev_lir ma ((p, true) :: mbt))
    (hr : m.lirs[p]? = some r) (hk : r.flags.fixup = kFixupA53Erratum835769)
    (hfuel : (insnsOf ma).length ≤ f + 1) :
    NextPath m.lirs m.first_lir_insn_ (insnsOf ma ++ p :: insnsOf mbt) ∧
    GetPrevEmittingLIR env.toBuildConfig m.lirs (f + 1) (some p)
      = .ok (((insnsOf ma).filter (emitsAt m.lirs)).getLast?) ∧
    (env.NeedFixCortexA53_835769 = true → IS_WIDE r.opcode = true →
      ∀ (q0 : Nat) (prev : LIR) (op : A64Opcode),
        ((insnsOf ma).filter (emitsAt m.lirs)).getLast? = some q0 →
        m.lirs[q0]? = some prev → UNWIDE prev.opcode = .insn op →
        isLoadOrStore env (EncodingMap op).flags = true →
        ∃ q m1 nop node,
          (insnsOf ma).getLast? = some q ∧ r.prev = some q ∧
          fixupStep env (f + 1) generation m loc p
            = .ok (m1, { offset_adjustment := loc.offset_adjustment + 4, res := .kRetryAll,
                         prev_lir := some p, lir := r.pcrel_next }) ∧
          m1.lirs.length = m.lirs.length + 1 ∧
          m1.lirs[m.lirs.length]? = some nop ∧ m1.lirs[p]? = some node ∧
          nop.opcode = (kA64Nop0 : Opcode) ∧
          nop.layout = { next := some p, prev := some q, pcrel_next := none,
                         offset := wrap32 (r.offset + toU32 loc.offset_adjustment),
                         is_nop := false, size := 4, fixup := kFixupNone } ∧
          emits nop = true ∧
          node.opcode = r.opcode ∧
          node.layout = { r.layout with
                          prev := some m.lirs.length,
                          offset :=
                            wrap32 (wrap32 (r.offset + toU32 loc.offset_adjustment) + 4) } ∧
          (∃ rq, m1.lirs[q]? = some rq ∧ rq.next = some m.lirs.length) ∧
          m1.first_lir_insn_ = m.first_lir_insn_ ∧ m1.first_fixup_ = m.first_fixup_ ∧
          layoutOf m1.lirs = nopInsertedLayout (layoutOf m.lirs) m.lirs.length p r.layout
            loc.offset_adjustment ∧
          ∀ (g2 f2 : Nat) (m2 : Mir2Lir) (loc2 : FixupLocals),
            RunReaches env fuel0 generation f m1
              { offset_adjustment := loc.offset_adjustment + 4, res := .kRetryAll,
                prev_lir := some p, lir := r.pcrel_next } g2 (f2 + 1) m2 loc2 →
            ∃ node2, m2.lirs[p]? = some node2 ∧
              fixupStep env (f2 + 1) g2 m2 loc2 p
                = .ok ({ m2 with
                         lirs := m2.lirs.set p (visitRec node2 loc2.offset_adjustment g2) },
                       { loc2 with prev_lir := some p, lir := node2.pcrel_next })) ∧
    (env.NeedFixCortexA53_835769 = false ∨ IS_WIDE r.opcode = false ∨
        ((insnsOf ma).filter (emitsAt m.lirs)).getLast? = none ∨
        (∃ q0 prev op, ((insnsOf ma).filter (emitsAt m.lirs)).getLast? = some q0 ∧
          m.lirs[q0]? = some prev ∧ UNWIDE prev.opcode = .insn op ∧
          isLoadOrStore env (EncodingMap op).flags = false) →
      fixupStep env (f + 1) generation m loc p
        = .ok ({ m with lirs := m.lirs.set p (visitRec r loc.offset_adjustment generation) },
               { loc with prev_lir := some p, lir := r.pcrel_next })) := by
  obtain ⟨l, hl0, _, _, _, _, hprevs, hprev, _, _, _, hnd, hlt⟩ := hn.at_node
  obtain ⟨r0, hr0, hrl⟩ := layoutOf_get hl0
  rw [hr] at hr0
  injection hr0 with hr0
  subst hr0
  have hp : r.prev = (insnsOf ma).getLast? := by
    rw [← hprev, ← hrl]
    rfl
  have hwalk : prevEmittingFrom m.lirs (f + 1) r.prev
      = .ok (((insnsOf ma).filter (emitsAt m.lirs)).getLast?) := by
    rw [hp]
    exact prevEmittingFrom_last_emitting (insnsOf ma) (f + 1) hprevs hfuel
  have hpath : NextPath m.lirs m.first_lir_insn_ (insnsOf ma ++ p :: insnsOf mbt) := by
    have := hn.insns
    rw [insnsOf_append] at this
    exact Seg.nextPath this
  refine ⟨hpath, ?_, ?_, ?_⟩
  · rw [GetPrevEmittingLIR_eq env.toBuildConfig m.lirs (f + 1) p r hr]
    exact hwalk
  · intro hfix hw q0 prev op hlast h2 h3 h4
    have hq : ∃ q, (insnsOf ma).getLast? = some q := by
      cases hg : (insnsOf ma).getLast? with
      | some q => exact ⟨q, rfl⟩
      | none =>
        rw [List.getLast?_eq_none_iff] at hg
        rw [hg] at hlast
        cases hlast
    obtain ⟨q, hq⟩ := hq
    have hqmem : q ∈ insnsOf ma := List.mem_of_mem_getLast? hq
    have hqlt : q < m.lirs.length := hlt q (List.mem_append_left _ hqmem)
    have hqp : q ≠ p := by
      intro hc
      subst hc
      rw [List.nodup_append] at hnd
      exact hnd.2.2 hqmem (List.mem_cons_self _ _)
    obtain ⟨m1, nop, node, c1, c2, c3, c4, c5, c6, c7, c8, c9, c10, c11, c12, c13⟩ :=
      fixupStep_nop_insert env (f + 1) generation m loc p q q0 r prev op hr hk hfix hw
        (hp.trans hq) hqlt hqp (by rw [hwalk, hlast]) h2 h3 h4
    refine ⟨q, m1, nop, node, hq, hp.trans hq, c1, c2, c3, c4, c5, c6, c7, c8, c9, c10, c11,
      c12, c13, ?_⟩
    intro g2 f2 m2 loc2 hreach
    obtain ⟨ma1, hinv1, _, _, _, hout⟩ := fixupStep_round hNop hB hn c1
    have hkn : node.flags.fixup = kFixupA53Erratum835769 := by
      have : node.flags.fixup = r.flags.fixup := congrArg Layout.fixup c9
      rw [this]
      exact hk
    have hset : erratumSettled env m1.lirs p := by
      refine ⟨node, c4, Or.inl hkn, ?_⟩
      rcases hout with ⟨_, e⟩ | ⟨_, _, e, _⟩
      · omega
      · exact e
    obtain ⟨_, hs2⟩ := hreach.run_settled hNop hB hdata ma1 mbt hinv1 hset
    exact erratumSettled_visit hs2 f2 g2 loc2
  · intro h
    apply fixupStep_A53_skip env (f + 1) generation m loc p r hr hk
    rcases h with h | h | h | ⟨q0, prev, op, h1, h2, h3, h4⟩
    · exact Or.inl h
    · exact Or.inr (Or.inl h)
    · exact Or.inr (Or.inr (Or.inl (by rw [hwalk, h])))
    · exact Or.inr (Or.inr (Or.inr ⟨q0, prev, op, by rw [hwalk, h1], h2, h3, h4⟩))
theorem erratum_nop_inserted_witness :
    LinkFixupInsns (mkEnv releaseConfig) 3 erratumSkipStream (some 0) (some 2) 0
      = .ok (erratumSkipLinked, 8) ∧
    fixupStep (mkEnv releaseConfig) 4 1 erratumSkipLinked ⟨0, .kSuccess, none, some 1⟩ 1
      = .ok (visitState erratumSkipLinked 0 1 1, ⟨0, .kSuccess, some 1, some 2⟩) ∧
    GetPrevEmittingLIR releaseConfig (visitState erratumSkipLinked 0 1 1).lirs 3 (some 2)
      = .ok (some 0) ∧
    (∃ m1 nop node,
      fixupStep (mkEnv releaseConfig) 3 1 (visitState erratumSkipLinked 0 1 1)
          ⟨0, .kSuccess, some 1, some 2⟩ 2
        = .ok (m1, ⟨0 + 4, .kRetryAll, some 2, none⟩) ∧
      m1.lirs.length = 4 ∧ m1.lirs[3]? = some nop ∧ m1.lirs[2]? = some node ∧
      nop.opcode = (kA64Nop0 : Opcode) ∧
      nop.layout = { next := some 2, prev := some 1, pcrel_next := none,
                     offset := wrap32 (4 + toU32 0), is_nop := false, size := 4,
                     fixup := kFixupNone } ∧
      node.prev = some 3 ∧
      ∀ (g2 f2 : Nat) (m2 : Mir2Lir) (loc2 : FixupLocals),
        RunReaches (mkEnv releaseConfig) 4 1 2 m1 ⟨0 + 4, .kRetryAll, some 2, none⟩ g2 (f2 + 1)
          m2 loc2 →
        ∃ node2, m2.lirs[2]? = some node2 ∧
          fixupStep (mkEnv releaseConfig) (f2 + 1) g2 m2 loc2 2
            = .ok ({ m2 with
                     lirs := m2.lirs.set 2 (visitRec node2 loc2.offset_adjustment g2) },
                   { loc2 with prev_lir := some 2, lir := node2.pcrel_next })) ∧
    fixupStep { mkEnv releaseConfig with NeedFixCortexA53_835769 := false } 3 1
        (visitState erratumSkipLinked 0 1 1) ⟨0, .kSuccess, some 1, some 2⟩ 2
      = .ok ({ visitState erratumSkipLinked 0 1 1 with
               lirs := (visitState erratumSkipLinked 0 1 1).lirs.set 2
                 (visitRec ⟨4, 0, ⟨.insn kA64Madd4rrrr, true⟩, none, some 1, none,
                   ⟨false, 4, true, 0, kFixupA53Erratum835769⟩, none, ⟨0, 1, 2, 3, 0⟩⟩ 0 1) },
             ⟨0, .kSuccess, some 2, none⟩) ∧
    ((AssembleLIR (mkEnv releaseConfig) 4 erratumSkipStream).map
        fun m => (m.lirs.length, m.code_buffer_))
      = .ok (4, [32, 0, 64, 249, 31, 32, 3, 213, 32, 12, 2, 155]) ∧
    ((AssembleLIR { mkEnv releaseConfig with NeedFixCortexA53_835769 := false } 4
          erratumSkipStream).map
        fun m => (m.lirs.length, m.code_buffer_))
      = .ok (3, [32, 0, 64, 249, 32, 12, 2, 155]) := by
  have hready : LinkReady (mkEnv releaseConfig) erratumSkipStream [0, 1, 2] := by
    refine ⟨rfl, ?_, rfl, by decide, ?_, ?_⟩
    · simp [NextPath, NextSeg, erratumSkipStream]
    · simp [PrevLinked, layoutOf, LIR.layout, erratumSkipStream]
    · intro i _ r _ _ _ c _ hk
      cases hk
  have hlink : LinkFixupInsns (mkEnv releaseConfig) 3 erratumSkipStream (some 0) (some 2) 0
      = .ok (erratumSkipLinked, 8) := by decide
  obtain ⟨m1, off, hrun, hinv⟩ :=
    @LinkFixupInsns_ChainInv (mkEnv releaseConfig) 3 erratumSkipStream [0, 1, 2] hready
      (by decide)
  have hm1 : m1 = erratumSkipLinked := by
    have e : LinkFixupInsns (mkEnv releaseConfig) 3 erratumSkipStream
        erratumSkipStream.first_lir_insn_ erratumSkipStream.last_lir_insn_ 0
          = .ok (erratumSkipLinked, 8) := hlink
    rw [e] at hrun
    injection hrun with hrun
    injection hrun with h1 _
    exact h1.symm
  rw [hm1] at hinv
  obtain ⟨mb, h0⟩ := hinv.start
  have hstep1 : fixupStep (mkEnv releaseConfig) 4 1 erratumSkipLinked
      ⟨0, .kSuccess, none, some 1⟩ 1
        = .ok (visitState erratumSkipLinked 0 1 1, ⟨0, .kSuccess, some 1, some 2⟩) := by
    decide
  have h0' : PassInv (layoutOf erratumSkipLinked.lirs) erratumSkipLinked.lirs.length
      erratumSkipLinked.first_lir_insn_ erratumSkipLinked.first_fixup_
      (⟨0, .kSuccess, none, some 1⟩ : FixupLocals).offset_adjustment (some 1)
      (⟨0, .kSuccess, none, some 1⟩ : FixupLocals).prev_lir [] mb := h0
  obtain ⟨ma1, mb1, h1⟩ := fixupStep_inv h0' hstep1
  have h1' : PassInv (layoutOf (visitState erratumSkipLinked 0 1 1).lirs)
      (visitState erratumSkipLinked 0 1 1).lirs.length
      (visitState erratumSkipLinked 0 1 1).first_lir_insn_
      (visitState erratumSkipLinked 0 1 1).first_fixup_
      (⟨0, .kSuccess, some 1, some 2⟩ : FixupLocals).offset_adjustment (some 2)
      (⟨0, .kSuccess, some 1, some 2⟩ : FixupLocals).prev_lir ma1 mb1 := h1
  obtain ⟨ma2, mbt2, _, hn2⟩ := h1'.normalize
  have hlen : (insnsOf ma2).length ≤ 2 + 1 := by
    obtain ⟨_, _, _, _, _, _, _, _, _, _, _, hnd, hlt⟩ := hn2.at_node
    have := length_le_of_nodup_lt hnd hlt
    rw [List.length_append] at this
    have e : (visitState erratumSkipLinked 0 1 1).lirs.length = 3 := rfl
    omega
  have hdec : GetPrevEmittingLIR releaseConfig (visitState erratumSkipLinked 0 1 1).lirs 3
      (some 2) = .ok (some 0) := by decide
  have h := erratum_nop_inserted (mkEnv releaseConfig) 4 2 1 (visitState erratumSkipLinked 0 1 1)
    ⟨0, .kSuccess, some 1, some 2⟩ 2
    ⟨4, 0, ⟨.insn kA64Madd4rrrr, true⟩, none, some 1, none,
      ⟨false, 4, true, 0, kFixupA53Erratum835769⟩, none, ⟨0, 1, 2, 3, 0⟩⟩ ma2 mbt2
    (by decide) (by decide) (fun _ => ⟨rfl, rfl, rfl, fun _ => rfl, fun _ _ _ _ => rfl⟩)
    hn2 rfl rfl hlen
  have h' := erratum_nop_inserted { mkEnv releaseConfig with NeedFixCortexA53_835769 := false }
    4 2 1 (visitState erratumSkipLinked 0 1 1) ⟨0, .kSuccess, some 1, some 2⟩ 2
    ⟨4, 0, ⟨.insn kA64Madd4rrrr, true⟩, none, some 1, none,
      ⟨false, 4, true, 0, kFixupA53Erratum835769⟩, none, ⟨0, 1, 2, 3, 0⟩⟩ ma2 mbt2
    (by decide) (by decide) (fun _ => ⟨rfl, rfl, rfl, fun _ => rfl, fun _ _ _ _ => rfl⟩)
    hn2 rfl rfl hlen
  have hlast : ((insnsOf ma2).filter (emitsAt (visitState erratumSkipLinked 0 1 1).lirs)).getLast?
      = some 0 := by
    have e := h.2.1
    have hdec' : GetPrevEmittingLIR (mkEnv releaseConfig).toBuildConfig
        (visitState erratumSkipLinked 0 1 1).lirs (2 + 1) (some 2) = .ok (some 0) := hdec
    rw [hdec'] at e
    injection e with e
    exact e.symm
  obtain ⟨q, m2, nop, node, hq, hrq, c1, c2, c3, c4, c5, c6, _, _, c9, _, _, _, _, c14⟩ :=
    h.2.2.1 rfl rfl 0
      ⟨0, 0, ⟨.insn kA64Ldr3rXD, true⟩, some 1, none, none,
        ⟨false, 4, false, 0, kFixupNone⟩, none, ⟨0, 1, 0, 0, 0⟩⟩ kA64Ldr3rXD hlast rfl rfl
      (by decide)
  have hq1 : q = 1 := by
    injection hrq with hrq
    exact hrq.symm
  subst hq1
  exact ⟨hlink, hstep1, hdec,
    ⟨m2, nop, node, c1, c2, c3, c4, c5, c6, congrArg Layout.prev c9, c14⟩,
    h'.2.2.2 (Or.inl rfl), by decide, by decide⟩
/-! ## A stream with one forward conditional branch to a label, end to end -/

theorem linkedRec_label (t : LIR) (offset : Nat) (c : Int) (hop : t.opcode.base = .pseudo c)
    (hfx : t.flags.fixup ≠ kFixupNone) :
    linkedSize t = 0 ∧
    linkedRec t offset =
      { t with offset := offset,
               flags := { t.flags with size := 0, fixup := kFixupLabel,
                                       use_def_invalid := true },
               pcrel_next := none } := by
  have h1 : linkedSize t = 0 := by
    unfold linkedSize
    simp [hfx, UNWIDE, hop]
  have h2 : linkedFixup t = kFixupLabel := by
    unfold linkedFixup
    simp [UNWIDE, hop]
  refine ⟨h1, ?_⟩
  unfold linkedRec
  rw [h1, h2]

/-- The round of the inner loop for a node of kind `kFixupLabel`, when `offset_adjustment`
is 0: the node gets the generation of the pass and the walk moves on. -/
theorem fixupStep_label_eq (env : Env) (fuel generation : Nat) (m : Mir2Lir)
    (res : AssemblerStatus) (prev : Option Nat) (p : Nat) (r : LIR)
    (hr : m.lirs[p]? = some r) (hk : r.flags.fixup = kFixupLabel)
    (hoff : r.offset < 4294967296) :
    fixupStep env fuel generation m ⟨0, res, prev, some p⟩ p =
      .ok (
        { m with
          lirs := m.lirs.set p { r with flags := { r.flags with generation := generation } } },
        ⟨0, res, some p, r.pcrel_next⟩) := by
  have hlen : p < m.lirs.length := by
    rcases List.getElem?_eq_some_iff.mp hr with ⟨h, _⟩
    exact h
  have hw : wrap32 (r.offset + toU32 0) = r.offset := by
    unfold wrap32 toU32
    simp
    omega
  have hvr : visitRec r 0 generation
      = { r with flags := { r.flags with generation := generation } } := by
    unfold visitRec
    rw [hw]
  rw [fixupStep_eq env fuel generation m _ p r hr, hk]
  simp only [fixupSwitch]
  simp [bind, Except.bind, pure, Except.pure, getLIR, hlen, visitState, updAt, hr, hvr]

/-- The records of a forward-branch stream: the branch and the label are distinct records
of the arena. -/
theorem ForwardBranchStream.indices {N i : Nat} {m : Mir2Lir} (h : ForwardBranchStream N i m) :
    i < N - 1 ∧ N - 1 < m.lirs.length ∧ N < m.lirs.length ∧ i < m.lirs.length := by
  have := h.forward
  have := h.length
  omega

/-- The state after `LinkFixupInsns` for a stream with one forward conditional branch: the
branch has its offset `4 * i` and is the first node of the fixup chain, the label has the
offset `4 * (N - 1)` and is the second and last node; the returned offset is `4 * N`. -/
theorem ForwardBranchStream.stream_linked {N i : Nat} {m : Mir2Lir}
    (h : ForwardBranchStream N i m) (env : Env) (fuel : Nat) (hfuel : N + 1 ≤ fuel)
    (hN : 4 * N < 4294967296) (b t : LIR) (hb : m.lirs[i]? = some b)
    (ht : m.lirs[N - 1]? = some t) (hal : alignOk env t) :
    LinkFixupInsns env fuel m m.first_lir_insn_ m.last_lir_insn_ 0
      = .ok ({ m with
               lirs := (m.lirs.set i (linkedBranch N i b)).set (N - 1) (linkedLabel N t),
               first_fixup_ := some i },
            4 * N) := by
  obtain ⟨hiN, hNlen, hNl, hil⟩ := h.indices
  have hi := h.forward
  have hlenN : m.lirs.length = N + 1 := h.length
  obtain ⟨b', hb', hop, hfx, _⟩ := h.branch
  have eb : b' = b := by
    rw [hb] at hb'
    injection hb' with hb'
    exact hb'.symm
  subst eb
  obtain ⟨t', c, ht', htop, htfx⟩ := h.label
  have et : t' = t := by
    rw [ht] at ht'
    injection ht' with ht'
    exact ht'.symm
  subst et
  have htail : m.lirs[N]? = some m.lirs[N] := List.getElem?_eq_getElem hNl
  have htn : (m.lirs[N]).next = none := by
    rw [(h.links _ _ htail).1, if_neg (by omega)]
  obtain ⟨hbnext, hbnop⟩ := h.links i b' hb
  obtain ⟨htnext, htnop⟩ := h.links (N - 1) t' ht
  -- the parts of the walk
  obtain ⟨f0, hf0⟩ : ∃ f0, fuel = f0 + 1 + 1 + (N - 2 - i) + 1 + i := ⟨fuel - (N + 1), by omega⟩
  have h1 := linkLoop_plain_run env (N + 1) m.lirs none none hlenN i 0
    (f0 + 1 + 1 + (N - 2 - i) + 1) 0 (by omega) (by omega)
    (fun k r _ hk hr => by
      obtain ⟨a1, a2⟩ := h.links k r hr
      exact ⟨a1, a2, (h.insn k r hr (by omega)).1, h.plain k r hr (by omega) (by omega)⟩)
  have halb : alignOk env b' := by
    intro c hc
    rw [hop] at hc
    cases hc
  have h2 := linkLoop_fixup_first env none (f0 + 1 + 1 + (N - 2 - i)) m.lirs none (4 * i) i b'
    (by simp) hb hbnop hfx halb
  have hsz : linkedSize b' = 4 := linkedSize_branch b' hop hfx
  have hlen1 : (m.lirs.set i (linkedRec b' (4 * i))).length = N + 1 := by
    rw [List.length_set]; exact hlenN
  have h3 := linkLoop_plain_run env (N + 1) (m.lirs.set i (linkedRec b' (4 * i))) (some i)
    (some i) hlen1 (N - 2 - i) (i + 1) (f0 + 1 + 1) (4 * i + 4) (by omega) (by omega)
    (fun k r hk1 hk2 hr => by
      have hki : i ≠ k := by omega
      rw [List.getElem?_set_ne hki] at hr
      obtain ⟨a1, a2⟩ := h.links k r hr
      exact ⟨a1, a2, (h.insn k r hr (by omega)).1, h.plain k r hr (by omega) (by omega)⟩)
  have ht1 : (m.lirs.set i (linkedRec b' (4 * i)))[N - 1]? = some t' := by
    rw [List.getElem?_set_ne (by omega)]
    exact ht
  have hb1 : (m.lirs.set i (linkedRec b' (4 * i)))[i]? = some (linkedRec b' (4 * i)) :=
    getElem?_set_self_of_some hb _
  have h4 := linkLoop_fixup_next env none (f0 + 1) (m.lirs.set i (linkedRec b' (4 * i))) i i
    (linkedRec b' (4 * i)) (4 * (N - 1)) (N - 1) t' (by simp) ht1 htnop htfx hal hb1
    (by omega)
  obtain ⟨hlsz, _⟩ := linkedRec_label t' (4 * (N - 1)) c htop htfx
  have hset : ((((m.lirs.set i (linkedRec b' (4 * i))).set (N - 1)
        { linkedRec t' (4 * (N - 1)) with offset := t'.offset }).set i
        { linkedRec b' (4 * i) with pcrel_next := some (N - 1) }).set (N - 1)
        (linkedRec t' (4 * (N - 1))))
      = (m.lirs.set i (linkedBranch N i b')).set (N - 1) (linkedLabel N t') := by
    rw [List.set_comm _ _ _ (show N - 1 ≠ i by omega), List.set_set, List.set_set]
    rfl
  have hlen2 : ((m.lirs.set i (linkedBranch N i b')).set (N - 1) (linkedLabel N t')).length
      = N + 1 := by
    rw [List.length_set, List.length_set]; exact hlenN
  have h5 := linkLoop_plain_run env (N + 1)
    ((m.lirs.set i (linkedBranch N i b')).set (N - 1) (linkedLabel N t')) (some i)
    (some (N - 1)) hlen2 1 N f0 (4 * (N - 1)) (by omega) (by omega)
    (fun k r hk1 hk2 hr => by
      have hkN : k = N := by omega
      subst hkN
      rw [List.getElem?_set_ne (by omega), List.getElem?_set_ne (by omega)] at hr
      obtain ⟨a1, a2⟩ := h.links k r hr
      exact ⟨a1, a2, (h.insn k r hr (by omega)).1, h.plain k r hr (by omega) (by omega)⟩)
  have e0 : (0 : Nat) + i = i := by omega
  have e1 : (0 : Nat) + 4 * i = 4 * i := by omega
  have e2 : wrap32 (4 * i + linkedSize b') = 4 * i + 4 := by
    rw [hsz]
    unfold wrap32
    omega
  have e3 : i + 1 + (N - 2 - i) = N - 1 := by omega
  have e4 : 4 * i + 4 + 4 * (N - 2 - i) = 4 * (N - 1) := by omega
  have e5 : wrap32 (4 * (N - 1) + linkedSize t') = 4 * (N - 1) := by
    rw [hlsz]
    unfold wrap32
    omega
  have e6 : 4 * (N - 1) + 4 * 1 = 4 * N := by omega
  have e7 : i + 1 < N + 1 := by omega
  have e8 : N - 1 + 1 = N := by omega
  simp only [e0, e1, if_pos (show i < N + 1 by omega), Nat.zero_add] at h1
  rw [if_pos (show 0 < N + 1 by omega)] at h1
  rw [hbnext, e2, if_pos e7] at h2
  rw [e3, e4, if_pos e7, if_pos (show N - 1 < N + 1 by omega)] at h3
  rw [hset, e5, htnext, e8, if_pos (show N < N + 1 by omega)] at h4
  rw [e6, if_pos (show N < N + 1 by omega), if_neg (show ¬ N + 1 < N + 1 by omega)] at h5
  unfold LinkFixupInsns
  rw [h.first, h.last, getLIR_some htail]
  simp only [bind, Except.bind, htn, h.no_chain]
  rw [hf0, h1, h2, h3, h4, h5, linkLoop_end]
  rfl

/-- The two rounds of a pass of the fixup loop over the chain of a forward-branch stream:
the round for the branch stores `N - 1 - i` in operand 1 when this is below `2 ^ 18`, and
is fatal otherwise; the round for the label changes nothing but the generation, and neither
asks for a retry. -/
theorem ForwardBranchStream.pass {N i : Nat} {m : Mir2Lir} (h : ForwardBranchStream N i m)
    (env : Env) (fuel generation : Nat) (hfuel : 2 ≤ fuel) (hN : 4 * N < 4294967296)
    (hd : N - 1 - i < 536870912) (b t : LIR) (hb : m.lirs[i]? = some b)
    (ht : m.lirs[N - 1]? = some t) (mA : Mir2Lir)
    (hA : mA.lirs = (m.lirs.set i (linkedBranch N i b)).set (N - 1) (linkedLabel N t)) :
    fixupPass env generation fuel mA ⟨0, .kSuccess, none, some i⟩ =
      if N - 1 - i < 262144 then
        .ok (
          { mA with
            lirs := (mA.lirs.set i (resolvedBranch N i generation b)).set (N - 1)
              (resolvedLabel N generation t) },
          ⟨0, .kSuccess, some (N - 1), none⟩)
      else .error (.fatal "Invalid jump range in kFixupLoad") := by
  obtain ⟨hiN, hNlen, hNl, hil⟩ := h.indices
  have hi := h.forward
  obtain ⟨b', hb', hop, hfx, htgt⟩ := h.branch
  have eb : b' = b := by
    rw [hb] at hb'
    injection hb' with hb'
    exact hb'.symm
  subst eb
  obtain ⟨t', c, ht', htop, htfx⟩ := h.label
  have et : t' = t := by
    rw [ht] at ht'
    injection ht' with ht'
    exact ht'.symm
  subst et
  have hlr := linkedRec_branch b' (4 * i) hop hfx
  obtain ⟨_, hlt⟩ := linkedRec_label t' (4 * (N - 1)) c htop htfx
  have hrb : mA.lirs[i]? = some (linkedBranch N i b') := by
    rw [hA, List.getElem?_set_ne (by omega)]
    exact getElem?_set_self_of_some hb _
  have htA : mA.lirs[N - 1]? = some (linkedLabel N t') := by
    rw [hA]
    apply getElem?_set_self_of_some (r := t')
    rw [List.getElem?_set_ne (by omega)]
    exact ht
  have hk : (linkedBranch N i b').flags.fixup = kFixupCondBranch := by
    unfold linkedBranch
    rw [hlr]
  have htg : (linkedBranch N i b').target = some (N - 1) := by
    unfold linkedBranch
    rw [hlr]
    exact htgt
  have hoff : (linkedBranch N i b').offset = 4 * i := by
    unfold linkedBranch
    rw [hlr]
  have hpc : (linkedBranch N i b').pcrel_next = some (N - 1) := rfl
  have hops : (linkedBranch N i b').operands = b'.operands := by
    unfold linkedBranch
    rw [hlr]
  have hto : (linkedLabel N t').offset = 4 * (N - 1) := by
    unfold linkedLabel
    rw [hlt]
  have htk : (linkedLabel N t').flags.fixup = kFixupLabel := by
    unfold linkedLabel
    rw [hlt]
  have htpc : (linkedLabel N t').pcrel_next = none := by
    unfold linkedLabel
    rw [hlt]
  obtain ⟨hal, hasr⟩ := asr_forward_delta N i hi hN hd
  obtain ⟨f, rfl⟩ : ∃ f, fuel = f + 1 + 1 := ⟨fuel - 2, by omega⟩
  have hiff : IS_SIGNED_IMM19 ((N - 1 - i : Nat) : Int) = true ↔ N - 1 - i < 262144 := by
    rw [IS_SIGNED_IMM19_iff]
    omega
  have hasr2 : asr (wrapI32 (((linkedLabel N t').offset : Int)
      - ((linkedBranch N i b').offset : Int))) 2 = ((N - 1 - i : Nat) : Int) := hasr
  have hstep : fixupStep env (f + 1 + 1) generation mA ⟨0, .kSuccess, none, some i⟩ i =
      if N - 1 - i < 262144 then
        .ok ({ mA with lirs := mA.lirs.set i (resolvedBranch N i generation b') },
          ⟨0, .kSuccess, some i, some (N - 1)⟩)
      else .error (.fatal "Invalid jump range in kFixupLoad") := by
    rw [fixupStep_cond_eq env (f + 1 + 1) generation mA .kSuccess none i (N - 1) _ _
      hrb hk htg (by omega) htA (by rw [hoff]; omega) (by rw [hoff, hto]; exact hal), hasr2]
    by_cases hr : N - 1 - i < 262144
    · rw [if_pos hr, if_pos (hiff.mpr hr)]
      rfl
    · rw [if_neg hr, if_neg (fun hc => hr (hiff.mp hc))]
  unfold fixupPass
  simp only []
  rw [hstep]
  by_cases hr : N - 1 - i < 262144
  · rw [if_pos hr, if_pos hr]
    simp only []
    have htB : (mA.lirs.set i (resolvedBranch N i generation b'))[N - 1]?
        = some (linkedLabel N t') := by
      rw [List.getElem?_set_ne (by omega)]
      exact htA
    have hstep2 := fixupStep_label_eq env (f + 1) generation
      { mA with lirs := mA.lirs.set i (resolvedBranch N i generation b') }
      .kSuccess (some i) (N - 1) (linkedLabel N t') htB htk (by rw [hto]; omega)
    unfold fixupPass
    simp only []
    rw [hstep2]
    simp only []
    unfold fixupPass
    rfl
  · rw [if_neg hr, if_neg hr]

/-- The assignment of the data offsets keeps the arena of a state all of whose records are
on the instruction list. -/
theorem AssignsDataOnly.keeps_listed {env : Env} (hdata : AssignsDataOnly env) (m : Mir2Lir)
    (hpath : NextPath m.lirs m.first_lir_insn_ (List.range m.lirs.length)) :
    (AssignDataOffsets env m).lirs = m.lirs := by
  obtain ⟨_, _, _, _, h5⟩ := hdata m
  have hlen := hdata.length_eq m
  apply List.ext_getElem?
  intro j
  by_cases hj : j < m.lirs.length
  · exact h5 _ hpath j (List.mem_range.mpr hj)
  · show (env.assignData m).lirs[j]? = m.lirs[j]?
    rw [List.getElem?_eq_none (by omega), List.getElem?_eq_none (by omega)]

/-- The records of the arena of a forward-branch stream in which the branch and the label
are replaced by records with the same links, flags `is_nop` and opcodes. -/
theorem ForwardBranchStream.recs_of_two {N i : Nat} {m : Mir2Lir}
    (h : ForwardBranchStream N i m) (b t b1 t1 : LIR) (hb : m.lirs[i]? = some b)
    (ht : m.lirs[N - 1]? = some t)
    (hb1 : b1.next = b.next ∧ b1.flags.is_nop = b.flags.is_nop ∧ b1.opcode = b.opcode)
    (ht1 : t1.next = t.next ∧ t1.flags.is_nop = t.flags.is_nop ∧ t1.opcode = t.opcode)
    (k : Nat) (hk : k < N + 1) :
    ∃ r, ((m.lirs.set i b1).set (N - 1) t1)[k]? = some r ∧
      r.next = (if k + 1 < N + 1 then some (k + 1) else none) ∧ r.flags.is_nop = false ∧
      (k ≠ N - 1 → ∃ op, r.opcode.base = .insn op) ∧
      (k = N - 1 → ∃ c, r.opcode.base = .pseudo c) := by
  obtain ⟨hiN, hNlen, hNl, hil⟩ := h.indices
  obtain ⟨t', c, ht', htop, _⟩ := h.label
  have et : t' = t := by
    rw [ht] at ht'
    injection ht' with ht'
    exact ht'.symm
  subst et
  by_cases hkN : k = N - 1
  · subst hkN
    obtain ⟨h1, h2⟩ := h.links _ _ ht
    refine ⟨t1, ?_, by rw [ht1.1]; exact h1, by rw [ht1.2.1]; exact h2,
      fun hc => absurd rfl hc, fun _ => ⟨c, by rw [ht1.2.2]; exact htop⟩⟩
    apply getElem?_set_self_of_some (r := t')
    rw [List.getElem?_set_ne (by omega)]
    exact ht
  · by_cases hki : k = i
    · subst hki
      obtain ⟨h1, h2⟩ := h.links _ _ hb
      obtain ⟨_, h4⟩ := h.insn _ _ hb hkN
      refine ⟨b1, ?_, by rw [hb1.1]; exact h1, by rw [hb1.2.1]; exact h2,
        fun _ => by rw [hb1.2.2]; exact h4, fun hc => absurd hc hkN⟩
      rw [List.getElem?_set_ne (fun hc => hkN hc.symm)]
      exact getElem?_set_self_of_some hb _
    · have hget : m.lirs[k]? = some m.lirs[k] :=
        List.getElem?_eq_getElem (by rw [h.length]; exact hk)
      obtain ⟨h1, h2⟩ := h.links _ _ hget
      obtain ⟨_, h4⟩ := h.insn _ _ hget hkN
      refine ⟨m.lirs[k], ?_, h1, h2, fun _ => h4, fun hc => absurd hc hkN⟩
      rw [List.getElem?_set_ne (fun hc => hkN hc.symm),
        List.getElem?_set_ne (fun hc => hki hc.symm)]
      exact hget

/-- The state in which the fixup loop starts for a forward-branch stream: the arena and the
heads of the lists are those that `LinkFixupInsns` leaves. -/
theorem linkedStream_lirs {N i : Nat} {m : Mir2Lir} (h : ForwardBranchStream N i m)
    (env : Env) (b t : LIR) (hb : m.lirs[i]? = some b) (ht : m.lirs[N - 1]? = some t)
    (hdata : AssignsDataOnly env) :
    (linkedStream env N i m b t).lirs
      = (m.lirs.set i (linkedBranch N i b)).set (N - 1) (linkedLabel N t) ∧
    (linkedStream env N i m b t).first_fixup_ = some i ∧
    (linkedStream env N i m b t).first_lir_insn_ = m.first_lir_insn_ ∧
    (linkedStream env N i m b t).data_offset_ = ALIGNED_DATA_OFFSET (4 * N) := by
  obtain ⟨e1, e2, e3, _, _⟩ := hdata
    { m with
      lirs := (m.lirs.set i (linkedBranch N i b)).set (N - 1) (linkedLabel N t),
      first_fixup_ := some i,
      data_offset_ := ALIGNED_DATA_OFFSET (4 * N) }
  refine ⟨?_, e2, e1, e3⟩
  apply hdata.keeps_listed
  show NextPath ((m.lirs.set i (linkedBranch N i b)).set (N - 1) (linkedLabel N t))
    m.first_lir_insn_
    (List.range ((m.lirs.set i (linkedBranch N i b)).set (N - 1) (linkedLabel N t)).length)
  rw [List.length_set, List.length_set, h.length, h.first]
  apply nextPath_range _ (N + 1) (by omega)
  intro k hk
  obtain ⟨r, hr, hn, _⟩ := h.recs_of_two b t (linkedBranch N i b) (linkedLabel N t) hb ht
    ⟨rfl, rfl, rfl⟩ ⟨rfl, rfl, rfl⟩ k hk
  exact ⟨r, hr, hn⟩

/-- The arena of the resolved state of a forward-branch stream. -/
theorem resolvedStream_lirs {N i : Nat} {m : Mir2Lir} (h : ForwardBranchStream N i m)
    (env : Env) (b t : LIR) (hb : m.lirs[i]? = some b) (ht : m.lirs[N - 1]? = some t)
    (hdata : AssignsDataOnly env) :
    (resolvedStream env N i m b t).lirs
      = (m.lirs.set i (resolvedBranch N i 1 b)).set (N - 1) (resolvedLabel N 1 t) ∧
    (resolvedStream env N i m b t).first_lir_insn_ = m.first_lir_insn_ ∧
    (resolvedStream env N i m b t).data_offset_ = ALIGNED_DATA_OFFSET (4 * N) := by
  obtain ⟨h1, _, h3, h4⟩ := linkedStream_lirs h env b t hb ht hdata
  obtain ⟨hiN, _, _, _⟩ := h.indices
  refine ⟨?_, h3, h4⟩
  show ((linkedStream env N i m b t).lirs.set i (resolvedBranch N i 1 b)).set (N - 1)
    (resolvedLabel N 1 t) = _
  rw [h1, List.set_comm _ _ _ (show N - 1 ≠ i by omega), List.set_set, List.set_set]

/-- The fixup loop on the linked state of a forward-branch stream: it ends after its first
pass when the distance is below `2 ^ 18` instructions, and is fatal otherwise. -/
theorem ForwardBranchStream.loop {N i : Nat} {m : Mir2Lir} (h : ForwardBranchStream N i m)
    (env : Env) (fuel rounds : Nat) (hfuel : 2 ≤ fuel) (hN : 4 * N < 4294967296)
    (hd : N - 1 - i < 536870912) (b t : LIR) (hb : m.lirs[i]? = some b)
    (ht : m.lirs[N - 1]? = some t) (hdata : AssignsDataOnly env) :
    fixupLoop env fuel (rounds + 1) (linkedStream env N i m b t) 0 0 (4 * N) =
      if N - 1 - i < 262144 then .ok (resolvedStream env N i m b t, 4 * N)
      else .error (.fatal "Invalid jump range in kFixupLoad") := by
  obtain ⟨hA, hF, _, _⟩ := linkedStream_lirs h env b t hb ht hdata
  unfold fixupLoop
  simp only []
  rw [hF, h.pass env fuel (0 ^^^ 1) hfuel hN hd b t hb ht _ hA]
  by_cases hr : N - 1 - i < 262144
  · rw [if_pos hr, if_pos hr]
    simp only [if_true]
    unfold DCHECK
    cases env.kEnableDChecks <;> rfl
  · rw [if_neg hr, if_neg hr]

/-- The function `AssembleLIR` up to the end of its fixup loop, on a forward-branch
stream. -/
theorem ForwardBranchStream.resolved {N i : Nat} {m : Mir2Lir}
    (h : ForwardBranchStream N i m) (env : Env) (fuel : Nat) (hfuel : N + 1 ≤ fuel)
    (hN : 4 * N < 4294967296) (hd : N - 1 - i < 536870912) (b t : LIR)
    (hb : m.lirs[i]? = some b) (ht : m.lirs[N - 1]? = some t) (hal : alignOk env t)
    (hdata : AssignsDataOnly env) :
    AssembleLIR_resolve env fuel m =
      if N - 1 - i < 262144 then .ok (resolvedStream env N i m b t, 4 * N)
      else .error (.fatal "Invalid jump range in kFixupLoad") := by
  have hlink := h.stream_linked env fuel hfuel hN b t hb ht hal
  have hf : 2 ≤ fuel := by have := h.forward; omega
  unfold AssembleLIR_resolve
  rw [hlink]
  exact h.loop env fuel (env.MAX_ASSEMBLER_RETRIES + 1) hf hN hd b t hb ht hdata

theorem forwardBranchStream_get (N i k : Nat) (r : LIR)
    (h : (forwardBranchStream N i).lirs[k]? = some r) :
    k < N + 1 ∧ r = forwardBranchRec N i k := by
  simp only [forwardBranchStream, List.getElem?_map, Option.map_eq_some'] at h
  obtain ⟨a, ha, hr⟩ := h
  rw [List.getElem?_eq_some_iff] at ha
  obtain ⟨hk, ha⟩ := ha
  rw [List.getElem_range] at ha
  subst ha
  rw [List.length_range] at hk
  exact ⟨hk, hr.symm⟩

theorem forwardBranchStream_at (N i k : Nat) (hk : k < N + 1) :
    (forwardBranchStream N i).lirs[k]? = some (forwardBranchRec N i k) := by
  simp only [forwardBranchStream, List.getElem?_map]
  rw [List.getElem?_range hk]
  rfl

/-- The stream `forwardBranchStream N i` is a forward-branch stream. -/
theorem forwardBranchStream_spec (N i : Nat) (hi : i + 1 < N) :
    ForwardBranchStream N i (forwardBranchStream N i) where
  length := by simp [forwardBranchStream]
  first := rfl
  last := rfl
  no_chain := rfl
  forward := hi
  links := by
    intro k r hr
    obtain ⟨_, rfl⟩ := forwardBranchStream_get N i k r hr
    unfold forwardBranchRec
    split
    · exact ⟨rfl, rfl⟩
    · split
      · exact ⟨rfl, rfl⟩
      · exact ⟨rfl, rfl⟩
  insn := by
    intro k r hr hkN
    obtain ⟨_, rfl⟩ := forwardBranchStream_get N i k r hr
    unfold forwardBranchRec
    by_cases hki : k = i
    · rw [if_pos hki]
      exact ⟨rfl, _, rfl⟩
    · rw [if_neg hki, if_neg hkN]
      exact ⟨rfl, _, rfl⟩
  plain := by
    intro k r hr hki hkN
    obtain ⟨_, rfl⟩ := forwardBranchStream_get N i k r hr
    unfold forwardBranchRec
    rw [if_neg hki, if_neg hkN]
  branch := by
    refine ⟨_, forwardBranchStream_at N i i (by omega), ?_⟩
    unfold forwardBranchRec
    rw [if_pos rfl]
    refine ⟨rfl, ?_, rfl⟩
    intro hc
    cases hc
  label := by
    refine ⟨_, -1, forwardBranchStream_at N i (N - 1) (by omega), ?_⟩
    unfold forwardBranchRec
    rw [if_neg (by omega), if_pos rfl]
    refine ⟨rfl, ?_⟩
    intro hc
    cases hc

/-- The displacement field of the word of the resolved branch: bits `[23:5]` of any word
that the operand encoder builds for it are the distance `N - 1 - i`. -/
theorem resolvedBranch_field (cfg : BuildConfig) (N i generation : Nat) (b : LIR)
    (hr : N - 1 - i < 262144) (w : Nat)
    (hw : encodeInsn cfg (resolvedBranch N i generation b) kA64B2ct = .ok w) :
    readField w 5 23 = N - 1 - i := by
  have h := simple_field_readback cfg (resolvedBranch N i generation b) kA64B2ct 1
    ⟨kFmtBitBlt, 23, 5⟩ w hw rfl (by decide) (by simp)
  have hop : (resolvedBranch N i generation b).operands.get 1 = ((N - 1 - i : Nat) : Int) := by
    unfold resolvedBranch
    cases b.operands
    rfl
  rw [hop] at h
  have e : toU32 ((N - 1 - i : Nat) : Int) = N - 1 - i := by
    unfold toU32
    omega
  rw [e] at h
  have e2 : (N - 1 - i) % 2 ^ ((23 : Int).toNat - (5 : Int).toNat + 1) = N - 1 - i := by
    apply Nat.mod_eq_of_lt
    have : (2 : Nat) ^ ((23 : Int).toNat - (5 : Int).toNat + 1) = 524288 := rfl
    omega
  rw [e2] at h
  exact h
/-- The records of a forward-branch stream for which `EncodeLIRs` stores a word: all but the
label. -/
theorem ForwardBranchStream.emitting {N i : Nat} {m : Mir2Lir}
    (h : ForwardBranchStream N i m) (b t : LIR) (hb : m.lirs[i]? = some b)
    (ht : m.lirs[N - 1]? = some t) :
    (List.range (N + 1)).filter
        (emitsAt ((m.lirs.set i (resolvedBranch N i 1 b)).set (N - 1) (resolvedLabel N 1 t)))
      = List.range (N - 1) ++ [N] := by
  have hi := h.forward
  have hrec := h.recs_of_two b t (resolvedBranch N i 1 b) (resolvedLabel N 1 t) hb ht
    ⟨rfl, rfl, rfl⟩ ⟨rfl, rfl, rfl⟩
  have hem : ∀ k, k < N + 1 → k ≠ N - 1 →
      emitsAt ((m.lirs.set i (resolvedBranch N i 1 b)).set (N - 1) (resolvedLabel N 1 t)) k
        = true := by
    intro k hk hkN
    obtain ⟨r, hr, _, hnop, hop, _⟩ := hrec k hk
    obtain ⟨op, hop⟩ := hop hkN
    simp only [emitsAt, hr, emits, UNWIDE, hop, IsPseudoLirOp, hnop]
    rfl
  have hlab :
      emitsAt ((m.lirs.set i (resolvedBranch N i 1 b)).set (N - 1) (resolvedLabel N 1 t)) (N - 1)
        = false := by
    obtain ⟨r, hr, _, hnop, _, hop⟩ := hrec (N - 1) (by omega)
    obtain ⟨c, hop⟩ := hop rfl
    simp only [emitsAt, hr, emits, UNWIDE, hop, IsPseudoLirOp, hnop]
    rfl
  have e1 : List.range N = List.range (N - 1) ++ [N - 1] := by
    have e : List.range N = List.range (N - 1 + 1) := by rw [Nat.sub_add_cancel (by omega)]
    rw [e, List.range_succ]
  rw [List.range_succ, e1, List.filter_append, List.filter_append]
  have f1 : (List.range (N - 1)).filter
      (emitsAt ((m.lirs.set i (resolvedBranch N i 1 b)).set (N - 1) (resolvedLabel N 1 t)))
      = List.range (N - 1) := by
    rw [List.filter_eq_self]
    intro k hk
    rw [List.mem_range] at hk
    exact hem k (by omega) (by omega)
  rw [f1]
  simp [List.filter_cons, hlab, hem N (by omega) (by omega)]

/-- The pass of `EncodeLIRs` over the resolved state of a forward-branch stream: it stores
the words of the `N` instructions in order, and nothing for the label. -/
theorem ForwardBranchStream.encoded {N i : Nat} {m : Mir2Lir}
    (h : ForwardBranchStream N i m) (cfg : BuildConfig) (fuel : Nat) (hfuel : N + 1 ≤ fuel)
    (b t : LIR) (hb : m.lirs[i]? = some b) (ht : m.lirs[N - 1]? = some t)
    (hchecks : (cfg.kIsDebugBuild = false ∧ cfg.kEnableDChecks = false) ∨
      ∀ (k : Nat) (r : LIR) (op : A64Opcode),
        ((m.lirs.set i (resolvedBranch N i 1 b)).set (N - 1) (resolvedLabel N 1 t))[k]? = some r →
        r.opcode.base = .insn op → ∃ w, encodeInsn cfg r op = .ok w) :
    (∃ lirs',
      EncodeLIRs cfg fuel
          ((m.lirs.set i (resolvedBranch N i 1 b)).set (N - 1) (resolvedLabel N 1 t)) 0 (some 0)
        = .ok (lirs',
          ((List.range (N - 1) ++ [N]).map fun k =>
            wordBytes (wordAt cfg
              ((m.lirs.set i (resolvedBranch N i 1 b)).set (N - 1) (resolvedLabel N 1 t))
              k)).flatten,
          4 * N)) ∧
    encodeInsn cfg (resolvedBranch N i 1 b) kA64B2ct
      = .ok (wordAt cfg
          ((m.lirs.set i (resolvedBranch N i 1 b)).set (N - 1) (resolvedLabel N 1 t)) i) := by
  have hi := h.forward
  have hrec := h.recs_of_two b t (resolvedBranch N i 1 b) (resolvedLabel N 1 t) hb ht
    ⟨rfl, rfl, rfl⟩ ⟨rfl, rfl, rfl⟩
  have hword : ∀ (k : Nat) (r : LIR) (op : A64Opcode),
      ((m.lirs.set i (resolvedBranch N i 1 b)).set (N - 1) (resolvedLabel N 1 t))[k]? = some r →
      r.opcode.base = .insn op →
      encodeInsn cfg r op = .ok (wordAt cfg
        ((m.lirs.set i (resolvedBranch N i 1 b)).set (N - 1) (resolvedLabel N 1 t)) k) := by
    intro k r op hr hop
    rcases hchecks with ⟨hd, hc⟩ | hall
    · obtain ⟨w, hw⟩ := encodeInsn_release cfg hd hc r op
      exact wordAt_spec cfg _ k r op hr hop w hw
    · obtain ⟨w, hw⟩ := hall k r op hr hop
      exact wordAt_spec cfg _ k r op hr hop w hw
  have hpath : NextPath
      ((m.lirs.set i (resolvedBranch N i 1 b)).set (N - 1) (resolvedLabel N 1 t)) (some 0)
      (List.range (N + 1)) :=
    nextPath_range _ (N + 1) (by omega) (fun k hk => by
      obtain ⟨r, hr, hn, _⟩ := hrec k hk
      exact ⟨r, hr, hn⟩)
  have hfilter := h.emitting b t hb ht
  obtain ⟨lirs', hrun, _⟩ :=
    EncodeLIRsFrom_bytes cfg _ (wordAt cfg
        ((m.lirs.set i (resolvedBranch N i 1 b)).set (N - 1) (resolvedLabel N 1 t)))
      (List.range (N + 1)) _ [] (some 0) fuel rfl hpath (by rw [List.length_range]; exact hfuel)
      (fun k _ r op hr hop _ => hword k r op hr hop)
  constructor
  · refine ⟨lirs', ?_⟩
    have hlen := emittedBytes_length
      ((m.lirs.set i (resolvedBranch N i 1 b)).set (N - 1) (resolvedLabel N 1 t))
      (wordAt cfg ((m.lirs.set i (resolvedBranch N i 1 b)).set (N - 1) (resolvedLabel N 1 t)))
      (List.range (N + 1))
    have hl2 : (List.range (N - 1) ++ [N]).length = N := by
      rw [List.length_append, List.length_range]
      simp
      omega
    rw [hfilter, hl2] at hlen
    unfold EncodeLIRs
    rw [hrun]
    simp only [List.nil_append, hlen, Nat.zero_add]
    unfold emittedBytes
    rw [hfilter]
  · obtain ⟨b', hb', hop', _⟩ := h.branch
    rw [hb] at hb'
    injection hb' with hb'
    subst hb'
    obtain ⟨hiN, _, _, _⟩ := h.indices
    refine hword i _ kA64B2ct ?_ (by
      show b.opcode.base = _
      rw [hop'])
    rw [List.getElem?_set_ne (by omega)]
    exact getElem?_set_self_of_some hb _

/-- The function `AssembleLIR` on a forward-branch stream in a build without debug checks:
it returns the resolved state with the code buffer filled by `EncodeLIRs`. -/
theorem AssembleLIR_forward_release (N i : Nat) (m : Mir2Lir) (env : Env) (fuel : Nat)
    (b t : LIR)
    (hres : AssembleLIR_resolve env fuel m = .ok (resolvedStream env N i m b t, 4 * N))
    (hN : 0 < N)
    (lirs' : List LIR)
    (henc : EncodeLIRs env.toBuildConfig fuel (resolvedStream env N i m b t).lirs 0
        (resolvedStream env N i m b t).first_lir_insn_
      = .ok (lirs',
          ((List.range (N - 1) ++ [N]).map fun k =>
            wordBytes (wordAt env.toBuildConfig (resolvedStream env N i m b t).lirs k)).flatten,
          4 * N))
    (hc : env.kEnableDChecks = false) :
    AssembleLIR env fuel m =
      .ok { resolvedStream env N i m b t with
            lirs := lirs',
            code_buffer_ := ((List.range (N - 1) ++ [N]).map fun k =>
              wordBytes
                (wordAt env.toBuildConfig (resolvedStream env N i m b t).lirs k)).flatten } := by
  have hlen := flatten_wordBytes_length
    (wordAt env.toBuildConfig (resolvedStream env N i m b t).lirs) (List.range (N - 1) ++ [N])
  have hl2 : (List.range (N - 1) ++ [N]).length = N := by
    rw [List.length_append, List.length_range]
    simp
    omega
  rw [hl2] at hlen
  have hbuf : ∀ out : List Nat, out.length = 4 * N →
      (out ++ List.replicate (4 * N - out.length) 0).take (4 * N) = out := by
    intro out ho
    rw [ho, Nat.sub_self]
    simp [← ho]
  unfold AssembleLIR
  rw [hres]
  simp only [DCHECK, hc, bind, Except.bind, pure, Except.pure, henc, Bool.false_eq_true,
    if_false, hbuf _ hlen]
  rfl

/-- The function `AssembleLIR` stops at the range check of the conditional branch on a
forward-branch stream whose branch is `2 ^ 18` instructions or more before its target. -/
theorem ForwardBranchStream.far {N i : Nat} {m : Mir2Lir} (h : ForwardBranchStream N i m)
    (env : Env) (fuel : Nat) (hfuel : N + 1 ≤ fuel) (hN : 4 * N < 2147483648)
    (hr : 262144 ≤ N - 1 - i) (b t : LIR) (hb : m.lirs[i]? = some b)
    (ht : m.lirs[N - 1]? = some t) (hal : alignOk env t) (hdata : AssignsDataOnly env) :
    AssembleLIR env fuel m = .error (.fatal "Invalid jump range in kFixupLoad") := by
  have hres := h.resolved env fuel hfuel (by omega) (by omega) b t hb ht hal hdata
  rw [if_neg (by omega)] at hres
  unfold AssembleLIR
  rw [hres]
  rfl
/-- C23, counterexample. (1) The stream `plainTargetStream` is a stream as in the claim,
with `N = 3` and `i = 1`: three four-byte instructions whose only record with a fixup kind
is the conditional branch at index 1, which targets the last instruction. `LinkFixupInsns`
assigns an offset to the records with a fixup kind only, so it leaves the offset 0 in the
target; `AssembleLIR` returns, but operand 1 of the branch is `(0 - 4) / 4 = -1` and not
`N - 1 - i = 1`, and bits `[23:5]` of the word of the branch are `0x7ffff`. (2) With the
target a label, which `LinkFixupInsns` does give its offset: in the stream of 262145
four-byte instructions whose first instruction is a conditional branch to the label before
the last one, at byte offset 1048576, the distance of 262144 instructions does not pass the
test `IS_SIGNED_IMM19` and `AssembleLIR` stops with the fatal error "Invalid jump range in
kFixupLoad". -/
theorem forward_branch_counterexample :
    ((LinkFixupInsns (mkEnv releaseConfig) 3 plainTargetStream (some 0) (some 2) 0).map
        fun r => (r.1.lirs.map LIR.offset, r.2)) = .ok ([0, 4, 0], 12) ∧
    ((AssembleLIR (mkEnv releaseConfig) 3 plainTargetStream).map
        fun m => (m.lirs.map fun r => r.operands.get 1, m.code_buffer_))
      = .ok ([0, -1, 0], [31, 32, 3, 213, 224, 255, 255, 84, 31, 32, 3, 213]) ∧
    ((AssembleLIR (mkEnv releaseConfig) 3 plainTargetStream).map
        fun m => readField (wordAt releaseConfig m.lirs 1) 5 23) = .ok 524287 ∧
    ForwardBranchStream 262145 0 (forwardBranchStream 262145 0) ∧
    AssembleLIR (mkEnv releaseConfig) 262146 (forwardBranchStream 262145 0)
      = .error (.fatal "Invalid jump range in kFixupLoad") :=
  ⟨by decide, by decide, by decide, forwardBranchStream_spec 262145 0 (by norm_num),
    (forwardBranchStream_spec 262145 0 (by norm_num)).far (mkEnv releaseConfig) 262146
      (le_refl _) (by norm_num) (by norm_num) (forwardBranchRec 262145 0 0)
      (forwardBranchRec 262145 0 262144)
      (forwardBranchStream_at 262145 0 0 (by norm_num))
      (forwardBranchStream_at 262145 0 262144 (by norm_num))
      (fun _ _ hk => by cases hk)
      (fun _ => ⟨rfl, rfl, rfl, fun _ => rfl, fun _ _ _ _ => rfl⟩)⟩

/-- C23, amended. End to end, for a stream of `N >= 2` four-byte instructions (with `4 * N`
below `2 ^ 32`, the range of a code offset) in which the only records with a fixup kind are
one forward conditional branch `kA64B2ct` at index `i` and the label it targets, a pseudo-op
that stands immediately before the last instruction, at byte offset `4 * (N - 1)`, and in
which the distance `N - 1 - i` is below `2 ^ 18`; nothing is assumed of the offsets stored
in the records beforehand. `LinkFixupInsns` gives the branch the offset `4 * i` and the
label the offset `4 * (N - 1)`; the fixup loop of `AssembleLIR` returns, and it does so
when it is allowed a single pass; in the state it leaves, operand 1 of the branch is
`N - 1 - i`; `EncodeLIRs` then stores the words of the `N` instructions in order, nothing
for the label, and returns `4 * N`; the word it stores for the branch is the one the
operand encoder builds, and bits `[23:5]` of that word are `N - 1 - i`; in a build without
debug checks `AssembleLIR` itself returns, with these bytes as the code buffer. The
encoder is assumed to build a word for every record (which it does in a build without
debug checks), the label not to be a `kPseudoPseudoAlign4` in a build with `DCHECK`s, and
`AssignDataOffsets` to write no record of the instruction list (`AssignsDataOnly`). -/
theorem forward_branch_end_to_end (env : Env) (N i fuel : Nat) (m : Mir2Lir) (b t : LIR)
    (h : ForwardBranchStream N i m) (hb : m.lirs[i]? = some b)
    (ht : m.lirs[N - 1]? = some t) (hal : alignOk env t)
    (hr : N - 1 - i < 262144) (hN : 4 * N < 4294967296) (hfuel : N + 1 ≤ fuel)
    (hdata : AssignsDataOnly env)
    (hchecks : (env.kIsDebugBuild = false ∧ env.kEnableDChecks = false) ∨
      ∀ (k : Nat) (r : LIR) (op : A64Opcode),
        (resolvedStream env N i m b t).lirs[k]? = some r →
        r.opcode.base = .insn op → ∃ w, encodeInsn env.toBuildConfig r op = .ok w) :
    LinkFixupInsns env fuel m m.first_lir_insn_ m.last_lir_insn_ 0
      = .ok ({ m with
               lirs := (m.lirs.set i (linkedBranch N i b)).set (N - 1) (linkedLabel N t),
               first_fixup_ := some i },
            4 * N) ∧
    (linkedBranch N i b).offset = 4 * i ∧ (linkedLabel N t).offset = 4 * (N - 1) ∧
    AssembleLIR_resolve env fuel m = .ok (resolvedStream env N i m b t, 4 * N) ∧
    fixupLoop env fuel 1 (linkedStream env N i m b t) 0 0 (4 * N)
      = .ok (resolvedStream env N i m b t, 4 * N) ∧
    (resolvedStream env N i m b t).lirs[i]? = some (resolvedBranch N i 1 b) ∧
    (resolvedBranch N i 1 b).operands.get 1 = ((N - 1 - i : Nat) : Int) ∧
    (∃ lirs',
      EncodeLIRs env.toBuildConfig fuel (resolvedStream env N i m b t).lirs 0
          (resolvedStream env N i m b t).first_lir_insn_
        = .ok (lirs',
            ((List.range (N - 1) ++ [N]).map fun k =>
              wordBytes
                (wordAt env.toBuildConfig (resolvedStream env N i m b t).lirs k)).flatten,
            4 * N) ∧
      (env.kEnableDChecks = false →
        AssembleLIR env fuel m =
          .ok { resolvedStream env N i m b t with
                lirs := lirs',
                code_buffer_ := ((List.range (N - 1) ++ [N]).map fun k =>
                  wordBytes
                    (wordAt env.toBuildConfig
                      (resolvedStream env N i m b t).lirs k)).flatten })) ∧
    encodeInsn env.toBuildConfig (resolvedBranch N i 1 b) kA64B2ct
      = .ok (wordAt env.toBuildConfig (resolvedStream env N i m b t).lirs i) ∧
    readField (wordAt env.toBuildConfig (resolvedStream env N i m b t).lirs i) 5 23
      = N - 1 - i := by
  obtain ⟨hl, hf, _⟩ := resolvedStream_lirs h env b t hb ht hdata
  obtain ⟨hiN, _, _, _⟩ := h.indices
  have hi := h.forward
  have hres : AssembleLIR_resolve env fuel m = .ok (resolvedStream env N i m b t, 4 * N) := by
    have hres := h.resolved env fuel hfuel hN (by omega) b t hb ht hal hdata
    rw [if_pos hr] at hres
    exact hres
  have hloop := h.loop env fuel 0 (by omega) hN (by omega) b t hb ht hdata
  rw [if_pos hr] at hloop
  rw [hl] at hchecks
  obtain ⟨⟨lirs', henc⟩, hword⟩ := h.encoded env.toBuildConfig fuel hfuel b t hb ht hchecks
  have hop : (resolvedBranch N i 1 b).operands.get 1 = ((N - 1 - i : Nat) : Int) := by
    unfold resolvedBranch
    cases b.operands
    rfl
  have henc2 : EncodeLIRs env.toBuildConfig fuel (resolvedStream env N i m b t).lirs 0
      (resolvedStream env N i m b t).first_lir_insn_
        = .ok (lirs',
            ((List.range (N - 1) ++ [N]).map fun k =>
              wordBytes
                (wordAt env.toBuildConfig (resolvedStream env N i m b t).lirs k)).flatten,
            4 * N) := by
    rw [hl, hf, h.first]
    exact henc
  refine ⟨h.stream_linked env fuel hfuel hN b t hb ht hal, rfl, rfl, hres, hloop, ?_, hop,
    ⟨lirs', henc2, ?_⟩, ?_, ?_⟩
  · rw [hl, List.getElem?_set_ne (by omega)]
    exact getElem?_set_self_of_some hb _
  · intro hc
    exact AssembleLIR_forward_release N i m env fuel b t hres (by omega) lirs' henc2 hc
  · rw [hl]
    exact hword
  · rw [hl]
    exact resolvedBranch_field env.toBuildConfig N i 1 b hr _ hword

theorem forward_branch_end_to_end_witness :
    ForwardBranchStream 3 0 (forwardBranchStream 3 0) ∧
    AssembleLIR_resolve (mkEnv releaseConfig) 4 (forwardBranchStream 3 0)
      = .ok (resolvedStream (mkEnv releaseConfig) 3 0 (forwardBranchStream 3 0)
          (forwardBranchRec 3 0 0) (forwardBranchRec 3 0 2), 12) ∧
    (resolvedBranch 3 0 1 (forwardBranchRec 3 0 0)).operands.get 1 = 2 ∧
    readField (wordAt releaseConfig
      (resolvedStream (mkEnv releaseConfig) 3 0 (forwardBranchStream 3 0)
        (forwardBranchRec 3 0 0) (forwardBranchRec 3 0 2)).lirs 0) 5 23 = 2 ∧
    ((AssembleLIR (mkEnv releaseConfig) 4 (forwardBranchStream 3 0)).map
        fun m => (m.lirs.map fun r => r.operands.get 1, m.code_buffer_))
      = .ok ([2, 0, 0, 0], [64, 0, 0, 84, 31, 32, 3, 213, 31, 32, 3, 213]) :=
  have h := forward_branch_end_to_end (mkEnv releaseConfig) 3 0 4 (forwardBranchStream 3 0)
    (forwardBranchRec 3 0 0) (forwardBranchRec 3 0 2) (forwardBranchStream_spec 3 0 (by decide))
    rfl rfl (fun _ _ hk => by cases hk) (by decide) (by decide) (by decide)
    (fun _ => ⟨rfl, rfl, rfl, fun _ => rfl, fun _ _ _ _ => rfl⟩) (Or.inl ⟨rfl, rfl⟩)
  ⟨forwardBranchStream_spec 3 0 (by decide), h.2.2.2.1, h.2.2.2.2.2.2.1, h.2.2.2.2.2.2.2.2.2,
    by decide⟩

end art
